import Mathlib

/-! The caching proxy (`proxylab-ans/cache.c`, `cache.h`, `proxy.c`), the cache
simulator (`cachelab-ans/csim.c`) and the matrix transpose
(`cachelab-ans/trans.c`).

A shallow embedding of the loose-LRU web cache and of the relay that drives it,
of the simulator's `accessCache`, and of `transpose_submit`, and the properties
stated about them.

Modelling conventions.

* Memory is a heap `Ptr → block_t` of cache blocks; `0` is `NULL`.  The
  pointer fields `prev` and `next` are kept as they are in the source, so
  the list operations (`push_back`, `promote_lru`, the unlinking inside
  `evict_to_fit`) are the source's pointer assignments, one heap write each.
* `malloc` is not part of the sources; it is modelled as handing out the next
  unused address (`brk`), so a block it returns differs from every block
  handed out before.
* `int` quantities are integers.  Arithmetic on two `int`s is done in `ℤ`
  (C leaves signed overflow undefined); every conversion between `size_t`
  and `int`, which C does define, is written out: `to_size_t` reduces modulo
  `2 ^ 64`, `to_int` wraps into `[-2 ^ 31, 2 ^ 31)`.
* Semaphores hold their counter; `P` on a counter that is `0` would block, and
  the sequential model then yields `none`.
* Loops that follow pointers or scan buckets take a `fuel` argument and yield
  `none` when it runs out.
* `MAX_CACHE_SIZE` is a macro of `cache.h`; the operations take the capacity
  as their first argument `cap` so that scenarios with another capacity can be
  stated, and `MAX_CACHE_SIZE` is the value the source uses.
* `Rio_writen` is not part of the sources; `try_from_cache` takes its return
  value as the argument `wr` and reports the bytes it handed to it.
* The relay reads and writes through the `Rio` functions only.  What the reads
  deliver and what the writes return is the environment of a connection; the
  model records the chunks read and the chunks written, in order.
* Allocation succeeds in `update_cache`; `update_cache_alloc` is the same
  function with calls of `malloc` that can return `NULL`.
* Lines fit their buffers.  `server2client` asks `Rio_readlineb` for up to
  `MAX_OBJECT_SIZE` bytes of a header line into `char buf[MAXLINE]`; a header
  line of `MAXLINE` bytes or more is written past the buffer, which C leaves
  undefined, and the model delivers every line as it was read.
* Calls that run at the same time are interleaved statement by statement
  (`advance`, `interleave`); a `P` on a semaphore that is `0` cannot step.
  For lookups, `conc_step` and `conc_run` refine this to the shared heap:
  inside `search_lru` every round of the search loop and every assignment to a
  `prev` or `next` field is a step of its own.
* In the simulator an access that indexes outside `myCache` or lets the `int`
  time stamp overflow is undefined in C and yields `none`.
* The transpose functions are written over an interface of readable and
  writable cells (`Cells`); `list_cells` is the matrix as a list of rows, and
  `packed_cells` is a second implementation that is used to run them.
-/

namespace ProxyCache

/-! ## Constants and data types (`cache.h`) -/

/-- Number of buckets of the open hash table. -/
def HASHSIZE : Nat := 1009

/-- Capacity of the cache in bytes. -/
def MAX_CACHE_SIZE : Int := 1049000

/-- Largest object the proxy offers to the cache. -/
def MAX_OBJECT_SIZE : Nat := 102400

/-- Addresses of blocks; `0` is `NULL`. -/
abbrev Ptr := Nat

/-- Conversion of an integer value to `int` (32 bit, two's complement). -/
def to_int (z : Int) : Int := (z + 2147483648) % 4294967296 - 2147483648

/-- Conversion of an integer value to `size_t` (64 bit, unsigned). -/
def to_size_t (z : Int) : Int := z % 18446744073709551616

/-- The cache key `cid_t`: the string held in `id` (its characters, without the
terminating NUL) and the bucket index computed from it. -/
structure cid_t where
  id : List Nat
  index : Nat
deriving DecidableEq, Repr

/-- A cache block `block_t`.  `id` and `content` are `none` for `NULL`. -/
structure block_t where
  id : Option (List Nat)
  content : Option (List Nat)
  size : Int
  prev : Ptr
  next : Ptr
deriving DecidableEq, Repr

/-- The heap of blocks. -/
abbrev Heap := Ptr → block_t

/-- The global `cache_t cache` together with the heap its blocks live in.
`head i` is `lists[i].head`, `list_mutex i` is `lists[i].list_mutex`. -/
structure State where
  heap : Heap
  brk : Nat
  head : Nat → Ptr
  list_mutex : Nat → Nat
  readcnt : Int
  total_size : Int
  write_sem : Nat
  rcnt_mutex : Nat

/-! ## Heap writes -/

/-- The assignment `p->next = v`. -/
def set_next (h : Heap) (p v : Ptr) : Heap :=
  fun q => if q = p then { h p with next := v } else h q

/-- The assignment `p->prev = v`. -/
def set_prev (h : Heap) (p v : Ptr) : Heap :=
  fun q => if q = p then { h p with prev := v } else h q

/-- Storing a whole block at `p`. -/
def store (h : Heap) (p : Ptr) (b : block_t) : Heap :=
  fun q => if q = p then b else h q

/-- The allocator: returns the next unused address. -/
def malloc (s : State) : Ptr × State := (s.brk, { s with brk := s.brk + 1 })

/-! ## Blocks and lists -/

/-- Source: `init_block`.  Copies the key string and, when `content` is not
`NULL` and `size` is not zero, `size` bytes of the content; otherwise the block
has no content and size `0`.  The key string fits `char id[MAXLINE]`, so
`strncpy` copies all of it.  The `int` field `size` receives the converted
`size_t` value. -/
def init_block (h : Heap) (bp : Ptr) (cid : Option cid_t)
    (content : Option (List Nat)) (size : Nat) : Heap :=
  let id := cid.map (fun c => c.id)
  match content with
  | some c =>
    if size ≠ 0 then
      store h bp { id := id, content := some (c.take size), size := to_int size, prev := 0, next := 0 }
    else
      store h bp { id := id, content := none, size := 0, prev := 0, next := 0 }
  | none => store h bp { id := id, content := none, size := 0, prev := 0, next := 0 }

/-- Source: `init_list`.  Initialises the list semaphore and allocates the
sentinel, which points to itself in both directions. -/
def init_list (s : State) (i : Nat) : State :=
  let s1 := { s with list_mutex := fun j => if j = i then 1 else s.list_mutex j }
  let (hd, s2) := malloc s1
  let h1 := init_block s2.heap hd none none 0
  let h2 := set_next h1 hd hd
  let h3 := set_prev h2 hd hd
  { s2 with heap := h3, head := fun j => if j = i then hd else s2.head j }

/-- The loop of `init_cache` over the buckets `i, i+1, ...` (`n` of them). -/
def init_lists : Nat → Nat → State → State
  | 0, _, s => s
  | n + 1, i, s => init_lists n (i + 1) (init_list s i)

/-- Source: `init_cache`.  The tests of `malloc` against `< 0` never fire, so
the result code is always `0`. -/
def init_cache (s : State) : Int × State :=
  let s1 := { s with readcnt := 0, total_size := 0, rcnt_mutex := 1, write_sem := 1 }
  (0, init_lists HASHSIZE 0 s1)

/-- Source: `destroy_block`.  Releases the strings, clears both links and
frees the block. -/
def destroy_block (h : Heap) (bp : Ptr) : Heap :=
  store h bp { h bp with id := none, content := none, prev := 0, next := 0 }

/-- The character as `*str` yields it in `hash_index`: `char` is signed, so a
byte above 127 is a negative `int`, converted to `unsigned` in the sum. -/
def char_val (c : Nat) : Nat := if c < 128 then c else c + 4294967296 - 256

/-- Source: `hash_index` (BKDR hash), with `unsigned` arithmetic modulo `2 ^ 32`. -/
def hash_index (str : List Nat) : Nat :=
  (str.foldl (fun hash c => (hash * 131 + char_val c) % 4294967296) 0 % 2147483648) % HASHSIZE

/-- The C library's `tolower` on ASCII. -/
def tolower (c : Nat) : Nat := if 65 ≤ c ∧ c ≤ 90 then c + 32 else c

/-- Source: `gen_cid`.  The key is the lower-cased host, a colon, the port and
the path. -/
def gen_cid (host port path : List Nat) : cid_t :=
  let id := host.map tolower ++ [58] ++ port ++ path
  { id := id, index := hash_index id }

/-- Source: `push_back`. -/
def push_back (h : Heap) (head bp : Ptr) : Heap :=
  let rear := (h head).prev
  let h1 := set_next h rear bp
  let h2 := set_prev h1 bp rear
  let h3 := set_next h2 bp head
  set_prev h3 head bp

/-- Source: `promote_lru`. -/
def promote_lru (h : Heap) (head bp : Ptr) : Heap :=
  let h1 := set_next h (h bp).prev (h bp).next
  let h2 := set_prev h1 (h1 bp).next (h1 bp).prev
  push_back h2 head bp

/-- Semaphore `P`: `none` when the caller would block. -/
def P (v : Nat) : Option Nat := if v = 0 then none else some (v - 1)

/-- Semaphore `V`. -/
def V (v : Nat) : Nat := v + 1

/-! ## Lookup -/

/-- The search loop of `search_lru`: starting at `bp`, stop at the sentinel or
at the first block whose key equals `id`; the result is the final `bp`. -/
def search_loop (h : Heap) (head : Ptr) (id : List Nat) : Nat → Ptr → Option Ptr
  | 0, _ => none
  | fuel + 1, bp =>
    if bp = head then some bp
    else if (h bp).id = some id then some bp
    else search_loop h head id fuel (h bp).next

/-- Source: `search_lru`.  Returns the block found (`0` for `NULL`) and the
state after the promotion. -/
def search_lru (fuel : Nat) (s : State) (cid : cid_t) : Option (Ptr × State) := do
  let index := cid.index
  let m ← P (s.list_mutex index)
  let s1 := { s with list_mutex := fun j => if j = index then m else s.list_mutex j }
  let head := s1.head index
  let bp ← search_loop s1.heap head cid.id fuel (s1.heap head).next
  let (bp, s2) :=
    if bp ≠ head then (bp, { s1 with heap := promote_lru s1.heap head bp }) else (0, s1)
  let s3 := { s2 with list_mutex := fun j => if j = index then V (s2.list_mutex index) else s2.list_mutex j }
  pure (bp, s3)

/-- The bytes `Rio_writen(fd, bp->content, bp->size)` is asked to write. -/
def block_bytes (b : block_t) : List Nat :=
  match b.content with
  | some c => c.take (to_size_t b.size).toNat
  | none => []

/-- What `try_from_cache` yields: the result code, the bytes handed to
`Rio_writen` (`none` when it is not called) and the state. -/
structure Lookup where
  rc : Int
  sent : Option (List Nat)
  st : State

/-- Source: `try_from_cache`.  `wr` is the value `Rio_writen` returns. -/
def try_from_cache (fuel : Nat) (s : State) (wr : Int) (cid : cid_t) : Option Lookup := do
  let r ← P s.rcnt_mutex
  let s1 := { s with rcnt_mutex := r, readcnt := s.readcnt + 1 }
  let s2 ← if s1.readcnt = (1 : Int) then (P s1.write_sem).map (fun w => { s1 with write_sem := w }) else some s1
  let s3 := { s2 with rcnt_mutex := V s2.rcnt_mutex }
  let (bp, s4) ← search_lru fuel s3 cid
  let (rc, sent) : Int × Option (List Nat) :=
    if bp ≠ 0 then
      (if wr < 0 then (-1, some (block_bytes (s4.heap bp))) else (1, some (block_bytes (s4.heap bp))))
    else (0, none)
  let r2 ← P s4.rcnt_mutex
  let s5 := { s4 with rcnt_mutex := r2, readcnt := s4.readcnt - 1 }
  let s6 := if s5.readcnt = (0 : Int) then { s5 with write_sem := V s5.write_sem } else s5
  let s7 := { s6 with rcnt_mutex := V s6.rcnt_mutex }
  pure { rc := rc, sent := sent, st := s7 }

/-! ## Insertion and eviction -/

/-- The body of the loop of `evict_to_fit` for bucket `i`: an empty bucket is
skipped; otherwise the block after the sentinel is unlinked, its size leaves
`total_size`, and it is destroyed. -/
def evict_step (s : State) (i : Nat) : State :=
  let head := s.head i
  if (s.heap head).next = head then s
  else
    let total := s.total_size - (s.heap (s.heap head).next).size
    let bp := (s.heap head).next
    let h1 := set_next s.heap head (s.heap bp).next
    let h2 := set_prev h1 (h1 bp).next head
    { s with heap := destroy_block h2 bp, total_size := total }

/-- The loop of `evict_to_fit` with its cursor `i`. -/
def evict_loop (cap : Int) (size : Int) : Nat → State → Nat → Option State
  | 0, _, _ => none
  | fuel + 1, s, i =>
    if s.total_size + size > cap then
      evict_loop cap size fuel (evict_step s i) ((i + 1) % HASHSIZE)
    else some s

/-- Source: `evict_to_fit`.  The cursor is the local `int i = 0`. -/
def evict_to_fit (cap : Int) (fuel : Nat) (s : State) (size : Int) : Option State :=
  evict_loop cap size fuel s 0

/-- Source: `update_cache`.  The comparison and the update of `total_size`
mix `int` and `size_t`, so both are computed in `size_t`; `evict_to_fit`
receives the size converted to `int`.  The result code is always `0`: the
tests of `malloc` against `< 0` never fire. -/
def update_cache (cap : Int) (fuel : Nat) (s : State) (cid : cid_t)
    (content : Option (List Nat)) (size : Nat) : Option (Int × State) := do
  let w ← P s.write_sem
  let s1 := { s with write_sem := w }
  let s2 ← if to_size_t (to_size_t s1.total_size + size) > to_size_t cap
           then evict_to_fit cap fuel s1 (to_int size) else some s1
  let (bp, s3) := malloc s2
  let h1 := init_block s3.heap bp (some cid) content size
  let h2 := push_back h1 (s3.head cid.index) bp
  let s4 := { s3 with heap := h2, total_size := to_int (to_size_t (to_size_t s3.total_size + size)) }
  pure (0, { s4 with write_sem := V s4.write_sem })

/-! ## Well-formed lists

The predicates below describe the heap as the lists it represents; they are
used to state the properties, the operations above do not mention them. -/

/-- The last node of the path `a, l`. -/
def lastOf : Ptr → List Ptr → Ptr
  | a, [] => a
  | _, p :: l => lastOf p l

/-- The heap `h` links `a`, then the nodes of `l` in order, then `b`: each
`next` leads to the following node and each `prev` back. -/
def Seg (h : Heap) : Ptr → List Ptr → Ptr → Prop
  | a, [], b => (h a).next = b ∧ (h b).prev = a
  | a, p :: l, b => (h a).next = p ∧ (h p).prev = a ∧ Seg h p l b

/-- The state `s` represents the bucket lists `L`: bucket `i` is a circular
doubly linked list from its sentinel `head i` through the entries `L i` back to
the sentinel; no node occurs twice, in one bucket or in two; every node was
handed out by the allocator and is not `NULL`; sentinels carry no key and no
content. -/
structure Rep (s : State) (L : Nat → List Ptr) : Prop where
  seg : ∀ i, i < HASHSIZE → Seg s.heap (s.head i) (L i) (s.head i)
  nodup : ∀ i, i < HASHSIZE → (s.head i :: L i).Nodup
  disj : ∀ i j, i < HASHSIZE → j < HASHSIZE → i ≠ j →
    ∀ p, p ∈ s.head i :: L i → p ∉ s.head j :: L j
  alloc : ∀ i, i < HASHSIZE → ∀ p : Nat, p ∈ s.head i :: L i → 0 < p ∧ p < s.brk
  sentinel : ∀ i, i < HASHSIZE →
    (s.heap (s.head i)).id = none ∧ (s.heap (s.head i)).content = none

/-- No operation is in progress: every semaphore is free and there is no reader. -/
structure Quiescent (s : State) : Prop where
  write_sem : s.write_sem = 1
  rcnt_mutex : s.rcnt_mutex = 1
  readcnt : s.readcnt = 0
  list_mutex : ∀ i, i < HASHSIZE → s.list_mutex i = 1

/-- Sum of the `size` fields of the entries linked in the buckets `L`. -/
def linked_size (h : Heap) (L : Nat → List Ptr) : Int :=
  ∑ i in Finset.range HASHSIZE, ((L i).map (fun p => (h p).size)).sum

/-- The two assignments of `promote_lru` that take `bp` out of its list. -/
def unlink (h : Heap) (bp : Ptr) : Heap :=
  let h1 := set_next h (h bp).prev (h bp).next
  set_prev h1 (h1 bp).next (h1 bp).prev

/-- The body of the loop of `evict_to_fit` executed `n` times from cursor `i`,
without the loop test: the states the loop passes through. -/
def evict_run : Nat → State → Nat → State
  | 0, s, _ => s
  | n + 1, s, i => evict_run n (evict_step s i) ((i + 1) % HASHSIZE)

/-- Number of entries linked in the buckets `L`. -/
def linked_count (L : Nat → List Ptr) : Nat :=
  ∑ i in Finset.range HASHSIZE, (L i).length

/-- Every linked entry has a size that is a byte count: it is not negative. -/
def Sized (h : Heap) (L : Nat → List Ptr) : Prop :=
  ∀ i, i < HASHSIZE → ∀ p, p ∈ L i → 0 ≤ (h p).size

/-- The part of `update_cache` that follows the eviction: allocating and
initialising the block, linking it, updating `total_size` and releasing the
write lock. -/
def link_new (s2 : State) (cid : cid_t) (content : Option (List Nat)) (size : Nat) : State :=
  let h1 := init_block s2.heap s2.brk (some cid) content size
  let h2 := push_back h1 (s2.head cid.index) s2.brk
  { s2 with heap := h2, brk := s2.brk + 1,
            total_size := to_int (to_size_t (to_size_t s2.total_size + size)),
            write_sem := V s2.write_sem }

/-- A consistent quiescent cache state with bucket lists `L`: the buckets are
well formed, no operation is in progress, `total_size` is the sum of the sizes
of the linked entries, these sizes are byte counts, and `total_size` is a value
of type `int`. -/
structure Good (s : State) (L : Nat → List Ptr) : Prop where
  rep : Rep s L
  quiet : Quiescent s
  sum : s.total_size = linked_size s.heap L
  sized : Sized s.heap L
  int : s.total_size < 2147483648

/-- The calls of a run of the cache: `init_cache`, `try_from_cache` (with the
result `wr` of its write to the client), `update_cache`, and `evict_to_fit`.
Keys are built by `gen_cid` from host, port and path. -/
inductive Op where
  | init
  | lookup (wr : Int) (host port path : List Nat)
  | insert (host port path : List Nat) (content : Option (List Nat)) (size : Nat)
  | evict (size : Int)

/-- One call and the state it leaves (`none` when it does not return). -/
def step (cap : Int) (fuel : Nat) (s : State) : Op → Option State
  | Op.init => some (init_cache s).2
  | Op.lookup wr host port path =>
    (try_from_cache fuel s wr (gen_cid host port path)).map (fun r => r.st)
  | Op.insert host port path content size =>
    (update_cache cap fuel s (gen_cid host port path) content size).map (fun r => r.2)
  | Op.evict size => evict_to_fit cap fuel s size

/-- A sequence of calls. -/
def run (cap : Int) (fuel : Nat) : List Op → State → Option State
  | [], s => some s
  | op :: ops, s => (step cap fuel s op).bind (run cap fuel ops)

/-- The insertions of a run pass an object that fits the `int` size field: a
buffer that is not `NULL`, unless the size is `0`, and a size below `2 ^ 31`. -/
def Op.fits_int : Op → Prop
  | Op.insert _ _ _ content size => size < 2147483648 ∧ (content = none → size = 0)
  | _ => True

/-- An arbitrary machine state before `init_cache`: nothing is allocated and
address `1` is the first the allocator hands out. -/
def boot : State :=
  { heap := fun _ => { id := none, content := none, size := 0, prev := 0, next := 0 },
    brk := 1, head := fun _ => 0, list_mutex := fun _ => 0, readcnt := 0,
    total_size := 0, write_sem := 0, rcnt_mutex := 0 }

/-- The first `n` buckets are initialised: each sentinel is allocated, points
to itself, carries nothing, and its semaphore is free. -/
structure InitInv (n : Nat) (s : State) : Prop where
  seg : ∀ i, i < n → Seg s.heap (s.head i) [] (s.head i)
  alloc : ∀ i, i < n → ∀ p : Nat, p = s.head i → 0 < p ∧ p < s.brk
  inj : ∀ i j, i < n → j < n → i ≠ j → s.head i ≠ s.head j
  sentinel : ∀ i, i < n → (s.heap (s.head i)).id = none ∧ (s.heap (s.head i)).content = none
  mutex : ∀ i, i < n → s.list_mutex i = 1
  brk_pos : 0 < s.brk

/-- The empty cache that `init_cache` builds from `boot`. -/
def empty_cache : State := (init_cache boot).2

/-- The empty cache while an insertion holds the write lock. -/
def empty_locked : State := { empty_cache with write_sem := 0 }

/-- The key of `http://a/`, port `80`. -/
def key_a : cid_t := gen_cid [97] [56, 48] [47]

/-- The key of `http://b/`, port `80`. -/
def key_b : cid_t := gen_cid [98] [56, 48] [47]

/-- A buffer of `2 ^ 31` bytes. -/
def huge : List Nat := List.replicate 2147483648 0

/-- The state after `update_cache(&cache, &key_a, NULL, 5)` on the empty cache. -/
def after_null_insert : State := link_new empty_locked key_a none 5

/-- The state after inserting `2 ^ 31` bytes under `key_a` into the empty cache. -/
def after_huge_insert : State := link_new empty_locked key_a (some huge) 2147483648

/-- The state after inserting `2 ^ 31` bytes under `key_b` as well. -/
def after_two_huge_inserts : State :=
  link_new { after_huge_insert with write_sem := 0 } key_b (some huge) 2147483648

/-- The state after inserting the byte `1` under `key_a` into the empty cache. -/
def one_cached : State := link_new empty_locked key_a (some [1]) 1

/-- The state after inserting the byte `2` under `key_a` as well. -/
def two_cached : State := link_new { one_cached with write_sem := 0 } key_a (some [2]) 1

/-- The key `a.com:80:/x`. -/
def key_x : cid_t := gen_cid [97, 46, 99, 111, 109] [56, 48] [47, 120]

/-- The key `a.com:80:/y`. -/
def key_y : cid_t := gen_cid [97, 46, 99, 111, 109] [56, 48] [47, 121]

/-- A sequence of lookups with `search_lru`, one after the other. -/
def search_seq (fuel : Nat) : State → List cid_t → Option State
  | s, [] => some s
  | s, k :: ks => (search_lru fuel s k).bind (fun r => search_seq fuel r.2 ks)

/-- Successive evictions from bucket `i`: the body of the loop of `evict_to_fit`
applied `n` times to that bucket. -/
def evict_from (i : Nat) : Nat → State → State
  | 0, s => s
  | n + 1, s => evict_from i n (evict_step s i)

/-- A key with id `a` for bucket `0`. -/
def pin_a : cid_t := { id := [97], index := 0 }

/-- A key with id `b` for bucket `0`. -/
def pin_b : cid_t := { id := [98], index := 0 }

/-- The state after inserting the byte `1` under `pin_a` into the empty cache. -/
def pair_first : State := link_new empty_locked pin_a (some [1]) 1

/-- The state after inserting the byte `2` under `pin_b` as well: bucket `0`
holds the two entries, in this order. -/
def pair_cached : State := link_new { pair_first with write_sem := 0 } pin_b (some [2]) 1

/-- The bucket lists of `pair_cached`. -/
def pair_lists : Nat → List Ptr :=
  Function.update (fun _ => []) 0 [empty_locked.brk, pair_first.brk]

/-- The key of `http://c/`, port `80`. -/
def key_c : cid_t := gen_cid [99] [56, 48] [47]

/-- An object of 400 bytes, each of them `x`. -/
def obj400 (x : Nat) : List Nat := List.replicate 400 x

/-- Sum of the `size` fields of the blocks `l`. -/
def list_size (h : Heap) (l : List Ptr) : Int := (l.map (fun p => (h p).size)).sum

/-! ## The relay (`proxy.c`): strings and the C library

The relay works on C strings and on the C library's `sscanf`, `strcmp`,
`strcasecmp`, `strncasecmp` and `atoi`, which are not part of the sources; they
are modelled here as the C standard describes them.  A string is the list of
its bytes.  The `Rio` reading and writing functions of `csapp.c` are not part
of the sources either: the values they return are taken from the environment
of a connection (`rio_t` below for the reads, a function `wr` for the writes).
-/

/-- Size of the line buffers: `MAXLINE` of `csapp.h`, which is not among the
sources; `8192` is the value of the CS:APP header. -/
def MAXLINE : Nat := 8192

/-- The bytes of a string literal. -/
def bytes (s : String) : List Nat := s.toList.map Char.toNat

/-- The C string held in a buffer: the bytes before the first NUL. -/
def cstr (buf : List Nat) : List Nat := buf.takeWhile (fun c => c != 0)

/-- The C library's `isspace` in the C locale: space, `\t`, `\n`, `\v`, `\f`, `\r`. -/
def isspace (c : Nat) : Bool := c == 32 || (decide (9 ≤ c) && decide (c ≤ 13))

/-- The C library's `strcmp`, as far as the sources use it: `0` exactly when the
two strings are equal (the sign of a non-zero result is never looked at). -/
def strcmp (a b : List Nat) : Int := if a = b then 0 else 1

/-- The C library's `strcasecmp`, as far as the sources use it: `0` exactly when
the two strings are equal after `tolower`. -/
def strcasecmp (a b : List Nat) : Int := if a.map tolower = b.map tolower then 0 else 1

/-- The C library's `strncasecmp`, as far as the sources use it: `0` exactly
when the first `n` characters of the two strings are equal after `tolower`. -/
def strncasecmp (a b : List Nat) (n : Nat) : Int :=
  if (a.take n).map tolower = (b.take n).map tolower then 0 else 1

/-- The directives that occur in the `sscanf` formats of the sources: white
space, an ordinary character, `%s`, and `%[^c]`. -/
inductive Directive where
  | ws
  | lit (c : Nat)
  | str
  | notset (c : Nat)
deriving DecidableEq, Repr

/-- What `sscanf` returns when the input ends before a directive: `EOF` if no
conversion has been completed, else the number of completed conversions. -/
def scan_eof (done : List (List Nat)) : Int := if done.isEmpty then -1 else done.length

/-- The C library's `sscanf` for these directives, on the input string `inp`:
the return value and the strings assigned so far, in order.  White space in the
format skips any white space; an ordinary character must be the next input
character; `%s` skips white space and takes the longest run of characters that
are not white space; `%[^c]` takes the longest run of characters other than
`c`, without skipping, and fails on an empty run. -/
def sscanf : List Directive → List Nat → List (List Nat) → Int × List (List Nat)
  | [], _, done => (done.length, done)
  | Directive.ws :: ds, inp, done => sscanf ds (inp.dropWhile isspace) done
  | Directive.lit c :: ds, inp, done =>
    match inp with
    | [] => (scan_eof done, done)
    | x :: rest => if x = c then sscanf ds rest done else (done.length, done)
  | Directive.str :: ds, inp, done =>
    let inp1 := inp.dropWhile isspace
    if inp1 = [] then (scan_eof done, done)
    else sscanf ds (inp1.dropWhile (fun x => !isspace x))
      (done ++ [inp1.takeWhile (fun x => !isspace x)])
  | Directive.notset c :: ds, inp, done =>
    if inp = [] then (scan_eof done, done)
    else if inp.takeWhile (fun x => x != c) = [] then (done.length, done)
    else sscanf ds (inp.dropWhile (fun x => x != c)) (done ++ [inp.takeWhile (fun x => x != c)])

/-- The format `"%[^ ] %[^ ] %s"` of `read_parse_request_line`. -/
def fmt_request_line : List Directive :=
  [Directive.notset 32, Directive.ws, Directive.notset 32, Directive.ws, Directive.str]

/-- The format `"%[^/]%s"` of `read_parse_request_line`. -/
def fmt_host_path : List Directive := [Directive.notset 47, Directive.str]

/-- The format `"%[^:]:%s"` of `read_parse_request_line`, `handle_request_header`
and `parse_response_header`. -/
def fmt_key_value : List Directive := [Directive.notset 58, Directive.lit 58, Directive.str]

/-- The format `"%s %s %s"` of `parse_response_line`. -/
def fmt_response_line : List Directive :=
  [Directive.str, Directive.ws, Directive.str, Directive.ws, Directive.str]

/-! ## The relay: reading and writing -/

/-- The reading side of a descriptor, as far as the relay sees it: what the
successive calls of `Rio_readlineb` and `Rio_readnb` deliver.  `none` is a
failed call (a negative return value), `some bs` a call that delivers the bytes
`bs` and returns their number; no bytes, or no entry left, is the end of the
stream (return value `0`). -/
abbrev rio_t := List (Option (List Nat))

/-- The value a read call returns. -/
def nread_of (r : Option (List Nat)) : Int :=
  match r with
  | none => -1
  | some bs => bs.length

/-- The buffer after a read call: the bytes delivered; a call that delivers
nothing leaves the buffer as it was. -/
def buf_of (r : Option (List Nat)) (buf : List Nat) : List Nat :=
  match r with
  | some (b :: bs) => b :: bs
  | _ => buf

/-- `Rio_readlineb(rp, buf, maxlen)`: the return value, the buffer and the rest
of the stream.  After a successful call the buffer holds the line as a C
string, so string functions see `cstr` of it. -/
def Rio_readlineb (rp : rio_t) (buf : List Nat) : Int × List Nat × rio_t :=
  match rp with
  | [] => (0, buf, [])
  | r :: rest => (nread_of r, buf_of r buf, rest)

/-- `Rio_writen(fd, buf, n)` on a descriptor to which the chunks `out` have been
written: `wr k` is the value the call returns when `k` chunks have been written
before.  A call that does not fail has written all `n` bytes; what a failed
call got through is not recorded. -/
def Rio_writen (wr : Nat → Int) (out : List (List Nat)) (buf : List Nat) (n : Int) :
    Int × List (List Nat) :=
  if wr out.length < 0 then (wr out.length, out) else (wr out.length, out ++ [buf.take n.toNat])

/-! ## The relay: the request -/

/-- The parsed request line `request_line`. -/
structure request_line where
  method : List Nat
  host : List Nat
  path : List Nat
  port : List Nat
  version : List Nat
deriving DecidableEq, Repr

/-- Source: `read_parse_request_line`.  The result code, the fields and the rest
of the client's stream.  The results of the second and third `sscanf` are not
looked at; a field they do not assign keeps its initial value. -/
def read_parse_request_line (rp : rio_t) : Int × request_line × rio_t :=
  let rl0 : request_line :=
    { method := [], host := [], path := bytes "/", port := bytes "80", version := [] }
  let (len, buf, rp1) := Rio_readlineb rp []
  if len ≤ 0 then (-1, rl0, rp1)
  else
    let (n, f) := sscanf fmt_request_line (cstr buf) []
    let rl1 := { rl0 with method := f.getD 0 rl0.method, version := f.getD 2 rl0.version }
    let uri := f.getD 1 []
    if n ≠ 3 then (-1, rl1, rp1)
    else if strncasecmp uri (bytes "http://") (bytes "http://").length ≠ 0 then (-1, rl1, rp1)
    else
      let (_, g) := sscanf fmt_host_path (uri.drop (bytes "http://").length) []
      let host_port := g.getD 0 []
      let rl2 := { rl1 with path := g.getD 1 rl1.path }
      let (_, h) := sscanf fmt_key_value host_port []
      let rl3 := { rl2 with host := h.getD 0 rl2.host, port := h.getD 1 rl2.port }
      (0, { rl3 with version := bytes "HTTP/1.0" }, rp1)

/-- The header `user_agent_hdr`. -/
def user_agent_hdr : List Nat :=
  bytes "User-Agent: Mozilla/5.0 (X11; Linux x86_64; rv:10.0.3) Gecko/20120305 Firefox/10.0.3\r\n"

/-- The header `connection_hdr`. -/
def connection_hdr : List Nat := bytes "Connection: close\r\n"

/-- The header `proxy_connection_hdr`. -/
def proxy_connection_hdr : List Nat := bytes "Proxy-connection: close\r\n"

/-- Source: `handle_request_header`.  The result code and the chunks written to
the origin. -/
def handle_request_header (wr : Nat → Int) (out : List (List Nat)) (buf : List Nat)
    (nread : Int) : Int × List (List Nat) :=
  let (n, f) := sscanf fmt_key_value (cstr buf) []
  let key := f.getD 0 []
  if n ≠ 2 then (-1, out)
  else if strcasecmp key (bytes "User-Agent") = 0 then (0, out)
  else if strcasecmp key (bytes "Connection") = 0 then (0, out)
  else if strcasecmp key (bytes "Proxy-Connection") = 0 then (0, out)
  else
    let type : Int := if strcasecmp key (bytes "Host") = 0 then 1 else 0
    let (r, out1) := Rio_writen wr out buf nread
    if r < 0 then (-1, out1) else (type, out1)

/-- What `client2server` yields: the result code (the descriptor of the origin,
or `-1`), whether a connection to the origin was opened, the chunks written to
the origin, and the rest of the client's stream. -/
structure Forward where
  rc : Int
  opened : Bool
  out : List (List Nat)
  rp : rio_t
deriving DecidableEq, Repr

/-- The header loop of `client2server`, entered at a call of `Rio_readlineb`:
the call, the test of its result, the loop test against `"\r\n"`, and the loop
body `handle_request_header`.  When the loop ends, the `Host` header is written
unless one was forwarded, then the final `"\r\n"`. -/
def client2server_loop (wr : Nat → Int) (serverfd : Int) (host : List Nat) :
    rio_t → List Nat → Int → List (List Nat) → Forward
  | [], _, _, out => { rc := -1, opened := true, out := out, rp := [] }
  | r :: rest, buf0, have_host, out =>
    let nread := nread_of r
    let buf := buf_of r buf0
    if nread ≤ 0 then { rc := -1, opened := true, out := out, rp := rest }
    else if strcmp (cstr buf) (bytes "\r\n") ≠ 0 then
      let (type, out1) := handle_request_header wr out buf nread
      if type = -1 then { rc := -1, opened := true, out := out1, rp := rest }
      else client2server_loop wr serverfd host rest buf (if type = 1 then 1 else have_host) out1
    else
      let hostline := bytes "Host:" ++ host ++ bytes "\r\n"
      let (r1, out1) :=
        if have_host = 0 then Rio_writen wr out hostline hostline.length else (0, out)
      if r1 < 0 then { rc := -1, opened := true, out := out1, rp := rest }
      else
        let (r2, out2) := Rio_writen wr out1 (bytes "\r\n") (bytes "\r\n").length
        if r2 < 0 then { rc := -1, opened := true, out := out2, rp := rest }
        else { rc := serverfd, opened := true, out := out2, rp := rest }

/-- Source: `client2server`.  `serverfd` is the value `Open_clientfd` returns
for the host and port of the request. -/
def client2server (wr : Nat → Int) (serverfd : Int) (rlp : request_line) (rp : rio_t) : Forward :=
  if serverfd < 0 then { rc := -1, opened := false, out := [], rp := rp }
  else
    let line := rlp.method ++ bytes " " ++ rlp.path ++ bytes " " ++ rlp.version ++ bytes "\r\n"
    let (r1, out1) := Rio_writen wr [] line line.length
    if r1 < 0 then { rc := -1, opened := true, out := out1, rp := rp }
    else
      let (r2, out2) := Rio_writen wr out1 user_agent_hdr user_agent_hdr.length
      if r2 < 0 then { rc := -1, opened := true, out := out2, rp := rp }
      else
        let (r3, out3) := Rio_writen wr out2 connection_hdr connection_hdr.length
        if r3 < 0 then { rc := -1, opened := true, out := out3, rp := rp }
        else
          let (r4, out4) := Rio_writen wr out3 proxy_connection_hdr proxy_connection_hdr.length
          if r4 < 0 then { rc := -1, opened := true, out := out4, rp := rp }
          else client2server_loop wr serverfd rlp.host rp line 0 out4

/-! ## The relay: the response -/

/-- The buffer `web_object`: `content` is the part of the allocated buffer
that has been filled, the first `length` bytes. -/
structure web_object where
  content : List Nat
  length : Nat
  capacity : Nat
deriving DecidableEq, Repr

/-- Source: `init_web_object`, with an allocation that succeeds. -/
def init_web_object : web_object := { content := [], length := 0, capacity := MAXLINE }

/-- The loop `while (new_cap < l + wbp->length) new_cap <<= 1` on the `size_t`
variable `new_cap`.  After 64 shifts the variable is `0` and stays so: the loop
ends within 65 tests or never, and `none` is the loop that never ends. -/
def grow_capacity : Nat → Nat → Nat → Option Nat
  | 0, _, _ => none
  | fuel + 1, new_cap, need =>
    if new_cap < need then grow_capacity fuel (new_cap * 2 % 18446744073709551616) need
    else some new_cap

/-- Source: `update_web_object`, with a `realloc` that succeeds.  The sum
`l + wbp->length` is computed in `size_t`.  The callers pass the number of
bytes the last read put into `buf`, which is not negative. -/
def update_web_object (wbp : web_object) (buf : List Nat) (l : Int) :
    Option (Int × web_object) :=
  let need := (to_size_t (to_size_t l + wbp.length)).toNat
  if need > MAX_OBJECT_SIZE then some (-1, wbp)
  else
    let cap := if need > wbp.capacity
      then (grow_capacity 65 wbp.capacity need).map (fun c => min c MAX_OBJECT_SIZE)
      else some wbp.capacity
    cap.map (fun c => (0, { content := wbp.content ++ buf.take l.toNat, length := need, capacity := c }))

/-- The C library's `atoi`: optional white space, an optional sign, decimal
digits.  A value outside `int`, for which C defines nothing, is wrapped. -/
def atoi (s : List Nat) : Int :=
  let s1 := s.dropWhile isspace
  let neg := s1.head? = some 45
  let s2 := if s1.head? = some 45 ∨ s1.head? = some 43 then s1.tail else s1
  let v : Int := (s2.takeWhile (fun c => decide (48 ≤ c) && decide (c ≤ 57))).foldl
    (fun a c => a * 10 + ((c - 48 : Nat) : Int)) 0
  to_int (if neg then -v else v)

/-- Source: `parse_response_line`.  The result code and the value of `*e`. -/
def parse_response_line (rl : List Nat) (e : Int) : Int × Int :=
  let (n, f) := sscanf fmt_response_line (cstr rl) []
  let status := f.getD 1 []
  if n ≠ 3 then (-1, e)
  else if status.head? = some 49 ∨ strcmp status (bytes "204") = 0
      ∨ strcmp status (bytes "304") = 0 then (0, 0)
  else (0, 1)

/-- Source: `parse_response_header`.  The result code and the values of `*ep`
and `*elp`. -/
def parse_response_header (buf : List Nat) (e el : Int) : Int × Int × Int :=
  if strcmp (cstr buf) (bytes "\r\n") = 0 then (0, e, el)
  else
    let (n, f) := sscanf fmt_key_value (cstr buf) []
    if n ≠ 2 then (-1, e, el)
    else if strcasecmp (f.getD 0 []) (bytes "Content-length") = 0 then
      let length := atoi (f.getD 1 [])
      (0, if length = 0 then 0 else e, length)
    else (0, e, el)

/-- The local variables of `server2client`, together with what the function has
received from the origin (`got`, one chunk per read call that delivered bytes)
and what it has written to the client (`out`, one chunk per call of
`Rio_writen` that did not fail). -/
structure Vars where
  total_read : Int
  nread : Int
  has_entity : Int
  entity_len : Int
  nleft : Int
  cache_it : Int
  wb : web_object
  buf : List Nat
  got : List (List Nat)
  out : List (List Nat)
deriving DecidableEq, Repr

/-- The chunk a read call delivers. -/
def delivered (r : Option (List Nat)) : List (List Nat) :=
  match r with
  | some (b :: bs) => [b :: bs]
  | _ => []

/-- The statement
`if (total_read > MAX_OBJECT_SIZE) cache_it = 0; else if (update_web_object(wbp, buf, l) < 0) return -1;`
of `server2client`: the result is `-1` for the `return`, else `0`. -/
def buffer_chunk (v : Vars) (l : Int) : Option (Int × Vars) :=
  if v.total_read > MAX_OBJECT_SIZE then some (0, { v with cache_it := 0 })
  else (update_web_object v.wb v.buf l).map
    (fun r => (if r.1 < 0 then -1 else 0, { v with wb := r.2 }))

/-- The call `Rio_writen(clientfd, buf, n)` of `server2client`. -/
def write_chunk (wr : Nat → Int) (v : Vars) (n : Int) : Int × Vars :=
  ((Rio_writen wr v.out v.buf n).1, { v with out := (Rio_writen wr v.out v.buf n).2 })

/-- The `do ... while` loop of `server2client` over the header lines, entered
at its call of `Rio_readlineb`.  The result code is `-1` where the source
returns `-1` and `0` when the loop ends; with it come the variables and the
rest of the origin's stream. -/
def server2client_headers (wr : Nat → Int) : rio_t → Vars → Option (Int × Vars × rio_t)
  | [], v => some (-1, { v with nread := 0 }, [])
  | r :: rest, v =>
    let v1 := { v with nread := nread_of r, buf := buf_of r v.buf, got := v.got ++ delivered r }
    if v1.nread ≤ 0 then some (-1, v1, rest)
    else
      let v2 := { v1 with total_read := v1.total_read + v1.nread }
      match buffer_chunk v2 v2.nread with
      | none => none
      | some (rc, v3) =>
        if rc < 0 then some (-1, v3, rest)
        else
          let p := parse_response_header v3.buf v3.has_entity v3.entity_len
          let v4 := { v3 with has_entity := p.2.1, entity_len := p.2.2 }
          if p.1 < 0 then some (-1, v4, rest)
          else
            let w := write_chunk wr v4 v4.nread
            if w.1 < 0 then some (-1, w.2, rest)
            else if strcmp (cstr w.2.buf) (bytes "\r\n") ≠ 0 then
              server2client_headers wr rest w.2
            else some (0, w.2, rest)

/-- The loop `while (nread > 0 || entity_len == -1)` of `server2client` over the
entity, with its calls of `Rio_readnb`. -/
def server2client_body (wr : Nat → Int) : rio_t → Vars → Option (Int × Vars × rio_t)
  | [], v => if v.nread > 0 ∨ v.entity_len = -1 then some (0, { v with nread := 0 }, [])
      else some (0, v, [])
  | r :: rest, v =>
    if v.nread > 0 ∨ v.entity_len = -1 then
      let v1 := { v with nread := nread_of r, buf := buf_of r v.buf, got := v.got ++ delivered r }
      if v1.nread = 0 then some (0, v1, rest)
      else if v1.nread < 0 then some (-1, v1, rest)
      else
        let v2 := { v1 with total_read := v1.total_read + v1.nread,
                            nleft := if v1.nleft > 0 then to_int (v1.nleft - v1.nread) else v1.nleft }
        match buffer_chunk v2 v2.nread with
        | none => none
        | some (rc, v3) =>
          if rc < 0 then some (-1, v3, rest)
          else
            let w := write_chunk wr v3 v3.nread
            if w.1 < 0 then some (-1, w.2, rest)
            else server2client_body wr rest w.2
    else some (0, v, r :: rest)

/-- What `server2client` yields: the result code, its variables on return, the
arguments `content` and `size` of its call of `update_cache` (`none` when it
does not call it), and the cache. -/
structure Relay where
  rc : Int
  vars : Vars
  inserted : Option (List Nat × Nat)
  st : State

/-- The part of `server2client` before the header loop: the status line. -/
def server2client_status (wr : Nat → Int) (rio : rio_t) (nleft0 : Int) (wbp : web_object) :
    Option (Int × Vars × rio_t) :=
  let v0 : Vars := { total_read := 0, nread := 0, has_entity := 1, entity_len := -1,
                     nleft := nleft0, cache_it := 1, wb := wbp, buf := [], got := [], out := [] }
  let rd := Rio_readlineb rio v0.buf
  let v1 := { v0 with total_read := rd.1, buf := rd.2.1, got := delivered (rio.headD (some [])) }
  if v1.total_read < 0 then some (-1, v1, rd.2.2)
  else
    let p := parse_response_line v1.buf v1.has_entity
    let v2 := { v1 with has_entity := p.2 }
    if p.1 < 0 then some (-1, v2, rd.2.2)
    else
      match buffer_chunk v2 v2.total_read with
      | none => none
      | some (rc, v3) =>
        if rc < 0 then some (-1, v3, rd.2.2)
        else
          let w := write_chunk wr v3 v3.total_read
          if w.1 < 0 then some (-1, w.2, rd.2.2) else some (0, w.2, rd.2.2)

/-- The part of `server2client` from the header loop to the test of the entity
length: the result code is `-1` where the source returns `-1`. -/
def server2client_relay (wr : Nat → Int) (rio : rio_t) (nleft0 : Int) (wbp : web_object) :
    Option (Int × Vars) :=
  match server2client_status wr rio nleft0 wbp with
  | none => none
  | some (rc1, v1, rio1) =>
    if rc1 < 0 then some (-1, v1)
    else
      match server2client_headers wr rio1 v1 with
      | none => none
      | some (rc2, v2, rio2) =>
        if rc2 < 0 then some (-1, v2)
        else
          let b := if v2.has_entity = 1 ∧ v2.entity_len ≠ 0
            then server2client_body wr rio2 { v2 with nleft := v2.entity_len }
            else some (0, v2, rio2)
          match b with
          | none => none
          | some (rc3, v3, _) =>
            if rc3 < 0 then some (-1, v3)
            else if v3.entity_len > 0 ∧ v3.nleft ≠ 0 then some (-1, v3)
            else some (0, v3)

/-- Source: `server2client`.  `rio` is what the reads from the origin deliver,
`wr` what the writes to the client return, `nleft0` the value the variable
`nleft`, which is declared without an initial value, happens to hold. -/
def server2client (cap : Int) (fuel : Nat) (s : State) (wr : Nat → Int) (rio : rio_t)
    (nleft0 : Int) (wbp : web_object) (cid : cid_t) : Option Relay :=
  match server2client_relay wr rio nleft0 wbp with
  | none => none
  | some (rc, v) =>
    if rc < 0 then some { rc := -1, vars := v, inserted := none, st := s }
    else if v.cache_it ≠ 0 then
      match update_cache cap fuel s cid (some v.wb.content) v.wb.length with
      | none => none
      | some (rc2, s2) =>
        some { rc := if rc2 < 0 then -1 else 0, vars := v,
               inserted := some (v.wb.content, v.wb.length), st := s2 }
    else some { rc := 0, vars := v, inserted := none, st := s }

/-! ## The relay: one connection -/

/-- What a worker thread does that can be seen from outside, in order. -/
inductive Event where
  | lookup (cid : cid_t)
  | to_client (bs : List Nat)
  | open_origin (host port : List Nat)
  | to_origin (bs : List Nat)
  | insert (cid : cid_t) (content : List Nat) (size : Nat)
  | close_origin
  | close_client
deriving DecidableEq, Repr

/-- The environment of one connection: what the reads from the client and from
the origin deliver, what the writes to them return, what `Open_clientfd`
returns, and the value the uninitialised `nleft` holds. -/
structure Conn where
  client : rio_t
  origin : rio_t
  wr_client : Nat → Int
  wr_origin : Nat → Int
  serverfd : Int
  nleft0 : Int

/-- Source: `thread_job`, on the global cache `s`: the events of the thread and
the cache it leaves. -/
def thread_job (cap : Int) (fuel : Nat) (c : Conn) (s : State) : Option (List Event × State) :=
  let rq := read_parse_request_line c.client
  if rq.1 < 0 then some ([Event.close_client], s)
  else if strcmp (bytes "GET") rq.2.1.method ≠ 0 then some ([Event.close_client], s)
  else
    let cid := gen_cid rq.2.1.host rq.2.1.port rq.2.1.path
    match try_from_cache fuel s (c.wr_client 0) cid with
    | none => none
    | some lk =>
      let ev1 := Event.lookup cid ::
        (if lk.rc = 1 then (lk.sent.map Event.to_client).toList else [])
      if lk.rc = -1 then some (ev1 ++ [Event.close_client], lk.st)
      else if lk.rc = 0 then
        let fw := client2server c.wr_origin c.serverfd rq.2.1 rq.2.2
        let ev2 := ev1 ++ (if fw.opened then [Event.open_origin rq.2.1.host rq.2.1.port] else [])
          ++ fw.out.map Event.to_origin
        if fw.rc < 0 then some (ev2 ++ [Event.close_client], lk.st)
        else
          match server2client cap fuel lk.st c.wr_client c.origin c.nleft0 init_web_object cid with
          | none => none
          | some r =>
            some (ev2 ++ r.vars.out.map Event.to_client
              ++ (r.inserted.map (fun a => Event.insert cid a.1 a.2)).toList
              ++ [Event.close_origin, Event.close_client], r.st)
      else some (ev1 ++ [Event.close_client], lk.st)

/-! ## Notions used to state the properties of the relay -/

/-- The characters `a` and `b` are equal up to ASCII letter case: they are the
same character, or one is an upper-case letter and the other the same letter
in lower case. -/
def same_letter (a b : Nat) : Bool :=
  a == b || (decide (65 ≤ a) && decide (a ≤ 90) && b == a + 32)
    || (decide (65 ≤ b) && decide (b ≤ 90) && a == b + 32)

/-- Two strings are equal up to ASCII letter case. -/
def eq_ignoring_case : List Nat → List Nat → Bool
  | [], [] => true
  | a :: l, b :: m => same_letter a b && eq_ignoring_case l m
  | _, _ => false

/-- The string `s` splits into three fields the way the format `"%[^ ] %[^ ] %s"`
takes them: a first field `m` that is not empty and has no space; a space and
possibly more white space `a`; a second field `u` that begins with a character
that is not white space and has no space; a space and possibly more white
space `b`; and a third field, which begins with the character `x`, not white
space. -/
structure Split3 (s m a u b : List Nat) (x : Nat) (c : List Nat) : Prop where
  eq : s = m ++ (32 :: (a ++ (u ++ (32 :: (b ++ (x :: c))))))
  m_ne : m ≠ []
  m_sp : 32 ∉ m
  a_ws : ∀ y, y ∈ a → isspace y = true
  u_sp : 32 ∉ u
  u_hd : ∃ y t, u = y :: t ∧ isspace y = false
  b_ws : ∀ y, y ∈ b → isspace y = true
  x_ns : isspace x = false

/-- An optional part of a URI: the character `c` and the string, or nothing. -/
def opt_part (c : Nat) (o : Option (List Nat)) : List Nat :=
  match o with
  | some p => c :: p
  | none => []

/-- The absolute URI `http://HOST[:PORT][/PATH]`. -/
def uri_text (host : List Nat) (port path : Option (List Nat)) : List Nat :=
  bytes "http://" ++ (host ++ (opt_part 58 port ++ opt_part 47 path))

/-- The request line `METHOD http://HOST[:PORT][/PATH] VERSION`, with its line
end. -/
def request_line_text (method host : List Nat) (port path : Option (List Nat))
    (version : List Nat) : List Nat :=
  method ++ (32 :: (uri_text host port path ++ (32 :: (version ++ bytes "\r\n"))))

/-- The name of a header line: the characters before its first `:`. -/
def header_name (line : List Nat) : List Nat := line.takeWhile (fun c => c != 58)

/-- The header names the proxy replaces by its own headers: `User-Agent`,
`Connection` and `Proxy-Connection`, compared without regard to letter case. -/
def proxy_header (name : List Nat) : Bool :=
  eq_ignoring_case name (bytes "User-Agent") || eq_ignoring_case name (bytes "Connection")
    || eq_ignoring_case name (bytes "Proxy-Connection")

/-- What `server2client` keeps true while it relays, in terms of the chunks
`out` written to the client, the chunks `got` read from the origin, and its
variables `total_read`, `cache_it` and the buffer `wb`: everything read has been
written; `total_read` is the number of bytes read; `cache_it` is `1` or `0`,
and `0` only when more than `MAX_OBJECT_SIZE` bytes have been read; while it is
not `0` the buffer holds exactly the bytes read, which are at most
`MAX_OBJECT_SIZE`; and the capacity of the buffer is not `0`. -/
def Inv (out got : List (List Nat)) (total : Int) (cache_it : Int) (wb : web_object) : Prop :=
  out.flatten = got.flatten ∧ total = got.flatten.length ∧ (cache_it = 1 ∨ cache_it = 0)
    ∧ (cache_it = 0 → (MAX_OBJECT_SIZE : Int) < total)
    ∧ (cache_it ≠ 0 → wb.content = got.flatten ∧ wb.length = got.flatten.length
        ∧ got.flatten.length ≤ MAX_OBJECT_SIZE)
    ∧ 0 < wb.capacity

/-- The invariant `Inv` on the variables of `server2client`. -/
def Relayed (v : Vars) : Prop := Inv v.out v.got v.total_read v.cache_it v.wb

/-- Every linked entry has at most `MAX_OBJECT_SIZE` bytes. -/
def Bounded (h : Heap) (L : Nat → List Ptr) : Prop :=
  ∀ i, i < HASHSIZE → ∀ p, p ∈ L i → (h p).size ≤ MAX_OBJECT_SIZE

/-- A sequence of connections served one after the other on the global cache. -/
def serve (cap : Int) (fuel : Nat) : List Conn → State → Option State
  | [], s => some s
  | c :: cs, s => (thread_job cap fuel c s).bind (fun r => serve cap fuel cs r.2)

/-- A small response as the reads from the origin deliver it: status line,
empty line, and a body of two bytes. -/
def sample_response : rio_t :=
  [some (bytes "HTTP/1.0 200 OK\r\n"), some (bytes "\r\n"), some (bytes "hi")]

/-- A `GET` request for `http://a/` with no further header lines, answered by
the sample response; every write succeeds. -/
def sample_conn : Conn :=
  { client := [some (bytes "GET http://a/ HTTP/1.0\r\n"), some (bytes "\r\n")],
    origin := sample_response, wr_client := fun _ => 0, wr_origin := fun _ => 0,
    serverfd := 4, nleft0 := 0 }

/-- The same request on a connection whose client does not take any byte: every
write to the client fails. -/
def deaf_conn : Conn :=
  { client := [some (bytes "GET http://a/ HTTP/1.0\r\n"), some (bytes "\r\n")],
    origin := sample_response, wr_client := fun _ => -1, wr_origin := fun _ => 0,
    serverfd := 4, nleft0 := 0 }

/-- A header line `NAME:VALUE`, the way the format `"%[^:]:%s"` takes it: the
name is not empty and has no `:` and no NUL; after the colon and any white
space comes the value, a non-empty run of characters that are neither white
space nor NUL; white space, a NUL or the end of the line follows the value. -/
def HeaderLine (line name value : List Nat) : Prop :=
  ∃ sp rest, line = name ++ (58 :: (sp ++ (value ++ rest)))
    ∧ name ≠ [] ∧ 58 ∉ name ∧ 0 ∉ name
    ∧ (∀ y, y ∈ sp → isspace y = true)
    ∧ value ≠ [] ∧ (∀ y, y ∈ value → isspace y = false ∧ y ≠ 0)
    ∧ (∀ z t, rest = z :: t → isspace z = true ∨ z = 0)

/-- The line has the header name `Host`, without regard to letter case. -/
def names_host (line : List Nat) : Bool := eq_ignoring_case (header_name line) (bytes "Host")

/-- The lines whose header name is not one of the proxy's own, in their order. -/
def forwarded (lines : List (List Nat)) : List (List Nat) :=
  lines.filter (fun l => !proxy_header (header_name l))

/-- A token: a non-empty string without white space and without NUL. -/
def Token (t : List Nat) : Prop := t ≠ [] ∧ ∀ y, y ∈ t → isspace y = false ∧ y ≠ 0

/-- A status line `VERSION CODE PHRASE`, where the reason phrase begins with the
character `x`. -/
def status_line (version code : List Nat) (x : Nat) (rest : List Nat) : List Nat :=
  version ++ (32 :: (code ++ (32 :: x :: rest)))

/-- The number that a string of decimal digits denotes. -/
def decimal (ds : List Nat) : Nat := ds.foldl (fun a c => a * 10 + (c - 48)) 0

/-- The status codes of responses without an entity: `100` to `199`, `204`
and `304`. -/
def no_entity_code (n : Nat) : Bool :=
  (decide (100 ≤ n) && decide (n ≤ 199)) || n == 204 || n == 304

/-- The line has the header name `Content-Length`, without regard to letter
case. -/
def names_content_length (line : List Nat) : Bool :=
  eq_ignoring_case (header_name line) (bytes "Content-Length")

/-- The values of `has_entity` and `entity_len` after `parse_response_header`
has seen the lines `hdrs`, one after the other. -/
def entity_after (p : Int × Int) (hdrs : List (List Nat)) : Int × Int :=
  hdrs.foldl (fun q h => (parse_response_header h q.1 q.2).2) p

/-- The value of `nleft` after the entity loop of `server2client` has read the
chunks `body`: a chunk is counted off while `nleft` is positive. -/
def countdown (nleft : Int) : List (List Nat) → Int
  | [] => nleft
  | c :: cs => countdown (if nleft > 0 then to_int (nleft - (c.length : Int)) else nleft) cs

/-- The request line of a connection as `read_parse_request_line` leaves it. -/
def parsed (c : Conn) : request_line := (read_parse_request_line c.client).2.1

/-- The cache key `thread_job` builds for the request of a connection. -/
def request_key (c : Conn) : cid_t := gen_cid (parsed c).host (parsed c).port (parsed c).path

/-- The call of `client2server` that `thread_job` makes for a connection. -/
def forward (c : Conn) : Forward :=
  client2server c.wr_origin c.serverfd (parsed c) (read_parse_request_line c.client).2.2

/-- A `GET` request for `http://a/` whose origin sends a status line and then
ends the stream; every write succeeds. -/
def cut_conn : Conn :=
  { client := [some (bytes "GET http://a/ HTTP/1.0\r\n"), some (bytes "\r\n")],
    origin := [some (bytes "HTTP/1.0 200 OK\r\n")], wr_client := fun _ => 0,
    wr_origin := fun _ => 0, serverfd := 4, nleft0 := 0 }

/-- Which of the calls of `malloc` that `update_cache` makes succeed: the one
for the block, and the ones of `init_block` for the copy of the key and for the
copy of the content.  A call that does not succeed returns `NULL`. -/
structure Alloc where
  block_ok : Bool
  id_ok : Bool
  content_ok : Bool
deriving DecidableEq, Repr

/-- Source: `init_block`, with calls of `malloc` that can fail; `idp` and
`contentp` are the pointers they return (`0` for `NULL`).  The tests
`(... = malloc(...)) < 0` compare a pointer with `0`, and no pointer is below
it.  A store through a null pointer has no defined result, `none`: the first
statement stores into `*bp`, `strncpy` into the copy of the key, and `memcpy`
into the copy of the content. -/
def init_block_alloc (h : Heap) (bp : Ptr) (cid : Option cid_t)
    (content : Option (List Nat)) (size : Nat) (idp contentp : Ptr) : Option (Int × Heap) :=
  if bp = 0 then none
  else if cid.isSome ∧ ((idp : Nat) : Int) < 0 then some (-1, h)
  else if cid.isSome ∧ idp = 0 then none
  else
    match content with
    | some c =>
      if size ≠ 0 then
        if ((contentp : Nat) : Int) < 0 then some (-1, h)
        else if contentp = 0 then none
        else some (0, init_block h bp cid (some c) size)
      else some (0, init_block h bp cid (some c) size)
    | none => some (0, init_block h bp cid none size)

/-- The statement
`if ((bp = malloc(sizeof(block_t))) < 0 || init_block(bp, cid, content, size) < 0) rc = -1; else push_back(...);`
of `update_cache`, for the pointer `bp` that `malloc` has returned: the value of
`rc` and the heap. -/
def link_block (s : State) (bp : Ptr) (cid : cid_t) (content : Option (List Nat))
    (size : Nat) (a : Alloc) : Option (Int × Heap) :=
  if ((bp : Nat) : Int) < 0 then some (-1, s.heap)
  else
    match init_block_alloc s.heap bp (some cid) content size
        (if a.id_ok then 1 else 0) (if a.content_ok then 1 else 0) with
    | none => none
    | some r =>
      if r.1 < 0 then some (-1, r.2) else some (0, push_back r.2 (s.head cid.index) bp)

/-- The part of `update_cache` after the eviction, with calls of `malloc` that
can fail as `a` says: the allocation of the block, the statement that links it,
`cp->total_size += size` and `V(&cp->write_sem)`.  `total_size` is increased
whether the block was linked or not. -/
def insert_block (s2 : State) (cid : cid_t) (content : Option (List Nat)) (size : Nat)
    (a : Alloc) : Option (Int × State) :=
  let (bp, s3) := if a.block_ok then malloc s2 else (0, s2)
  match link_block s3 bp cid content size a with
  | none => none
  | some (rc, h2) =>
    some (rc, { s3 with heap := h2,
                        total_size := to_int (to_size_t (to_size_t s3.total_size + size)),
                        write_sem := V s3.write_sem })

/-- Source: `update_cache`, with calls of `malloc` that can fail as `a` says. -/
def update_cache_alloc (cap : Int) (fuel : Nat) (s : State) (cid : cid_t)
    (content : Option (List Nat)) (size : Nat) (a : Alloc) : Option (Int × State) :=
  match P s.write_sem with
  | none => none
  | some w =>
    match (if to_size_t (to_size_t s.total_size + size) > to_size_t cap
        then evict_to_fit cap fuel { s with write_sem := w } (to_int size)
        else some { s with write_sem := w }) with
    | none => none
    | some s2 => insert_block s2 cid content size a

/-- A `GET` request for `http://a/` whose client ends the stream after the
request line; the connection to the origin is opened and every write
succeeds. -/
def hangup_conn : Conn :=
  { client := [some (bytes "GET http://a/ HTTP/1.0\r\n")],
    origin := sample_response, wr_client := fun _ => 0, wr_origin := fun _ => 0,
    serverfd := 4, nleft0 := 0 }

/-! ## Calls that run at the same time

`try_from_cache` and `update_cache` are called by threads that run at the same
time.  An interleaving is a sequence of steps, each the next statement of one
of the calls; a call whose next statement is `P` on a semaphore that is `0`
cannot take a step.  The statements between the semaphore operations (the
search, the write to the client, the eviction and the insertion) change neither
the semaphores nor `readcnt`; each is one step here. -/

/-- The statement a call executes next.  For `try_from_cache`:
`P(&cp->rcnt_mutex)`, `cp->readcnt++`, `if (cp->readcnt == 1) P(&cp->write_sem)`,
`V(&cp->rcnt_mutex)`; in `search_lru` `P(&list_mutex)`, the search with the
promotion, `V(&list_mutex)`; `Rio_writen`; then `P(&cp->rcnt_mutex)`,
`cp->readcnt--`, `if (cp->readcnt == 0) V(&cp->write_sem)`, `V(&cp->rcnt_mutex)`.
For `update_cache`: `P(&cp->write_sem)`; the eviction, the insertion and
`cp->total_size += size`; `V(&cp->write_sem)`.  `done`: the call has returned. -/
inductive Pc where
  | r_lock_in
  | r_inc
  | r_first
  | r_unlock_in
  | r_list_lock
  | r_scan
  | r_list_unlock
  | r_write
  | r_lock_out
  | r_dec
  | r_last
  | r_unlock_out
  | w_lock
  | w_insert
  | w_unlock
  | done
deriving DecidableEq, Repr

/-- A call: `try_from_cache` for a key of the bucket `index`, or
`update_cache`. -/
inductive Call where
  | lookup (index : Nat)
  | insert
deriving DecidableEq, Repr

/-- The first statement of a call. -/
def Call.entry : Call → Pc
  | Call.lookup _ => Pc.r_lock_in
  | Call.insert => Pc.w_lock

/-- The bucket a call searches (`0` for an insertion, which takes no list
semaphore). -/
def Call.bucket : Call → Nat
  | Call.lookup i => i
  | Call.insert => 0

/-- The semaphores and the reader count of the cache, and where each call
stands. -/
structure Sys where
  readcnt : Int
  rcnt_mutex : Nat
  write_sem : Nat
  list_mutex : Nat → Nat
  pcs : List Pc
  bucket : List Nat

/-- The calls `calls` begin on the cache `s`. -/
def start (s : State) (calls : List Call) : Sys :=
  { readcnt := s.readcnt, rcnt_mutex := s.rcnt_mutex, write_sem := s.write_sem,
    list_mutex := s.list_mutex, pcs := calls.map Call.entry, bucket := calls.map Call.bucket }

/-- Call `i` executes its next statement; `none` when it cannot: the call has
returned, or the statement is `P` on a semaphore that is `0`. -/
def advance (σ : Sys) (i : Nat) : Option Sys :=
  match σ.pcs[i]? with
  | none => none
  | some Pc.r_lock_in =>
    (P σ.rcnt_mutex).map (fun m => { σ with rcnt_mutex := m, pcs := σ.pcs.set i Pc.r_inc })
  | some Pc.r_inc => some { σ with readcnt := σ.readcnt + 1, pcs := σ.pcs.set i Pc.r_first }
  | some Pc.r_first =>
    if σ.readcnt = 1 then
      (P σ.write_sem).map (fun w => { σ with write_sem := w, pcs := σ.pcs.set i Pc.r_unlock_in })
    else some { σ with pcs := σ.pcs.set i Pc.r_unlock_in }
  | some Pc.r_unlock_in =>
    some { σ with rcnt_mutex := V σ.rcnt_mutex, pcs := σ.pcs.set i Pc.r_list_lock }
  | some Pc.r_list_lock =>
    (P (σ.list_mutex (σ.bucket.getD i 0))).map (fun m =>
      { σ with list_mutex := fun j => if j = σ.bucket.getD i 0 then m else σ.list_mutex j,
               pcs := σ.pcs.set i Pc.r_scan })
  | some Pc.r_scan => some { σ with pcs := σ.pcs.set i Pc.r_list_unlock }
  | some Pc.r_list_unlock =>
    some { σ with list_mutex := fun j => if j = σ.bucket.getD i 0
                    then V (σ.list_mutex (σ.bucket.getD i 0)) else σ.list_mutex j,
                  pcs := σ.pcs.set i Pc.r_write }
  | some Pc.r_write => some { σ with pcs := σ.pcs.set i Pc.r_lock_out }
  | some Pc.r_lock_out =>
    (P σ.rcnt_mutex).map (fun m => { σ with rcnt_mutex := m, pcs := σ.pcs.set i Pc.r_dec })
  | some Pc.r_dec => some { σ with readcnt := σ.readcnt - 1, pcs := σ.pcs.set i Pc.r_last }
  | some Pc.r_last =>
    if σ.readcnt = 0 then
      some { σ with write_sem := V σ.write_sem, pcs := σ.pcs.set i Pc.r_unlock_out }
    else some { σ with pcs := σ.pcs.set i Pc.r_unlock_out }
  | some Pc.r_unlock_out =>
    some { σ with rcnt_mutex := V σ.rcnt_mutex, pcs := σ.pcs.set i Pc.done }
  | some Pc.w_lock =>
    (P σ.write_sem).map (fun w => { σ with write_sem := w, pcs := σ.pcs.set i Pc.w_insert })
  | some Pc.w_insert => some { σ with pcs := σ.pcs.set i Pc.w_unlock }
  | some Pc.w_unlock =>
    some { σ with write_sem := V σ.write_sem, pcs := σ.pcs.set i Pc.done }
  | some Pc.done => none

/-- An interleaving: the calls named in `sched` take one step each, in this
order. -/
def interleave (σ : Sys) : List Nat → Option Sys
  | [] => some σ
  | i :: sched => (advance σ i).bind (fun σ2 => interleave σ2 sched)

/-- The call is inside the critical section of `update_cache`: it has passed
`P(&cp->write_sem)` and not yet executed `V(&cp->write_sem)`. -/
def Pc.writing : Pc → Bool
  | Pc.w_insert => true
  | Pc.w_unlock => true
  | _ => false

/-- The call of `try_from_cache` is between its entry protocol and its exit
protocol. -/
def Pc.reading : Pc → Bool
  | Pc.r_list_lock => true
  | Pc.r_scan => true
  | Pc.r_list_unlock => true
  | Pc.r_write => true
  | Pc.r_lock_out => true
  | _ => false

/-- The call holds `rcnt_mutex`. -/
def Pc.in_mutex : Pc → Bool
  | Pc.r_inc => true
  | Pc.r_first => true
  | Pc.r_unlock_in => true
  | Pc.r_dec => true
  | Pc.r_last => true
  | Pc.r_unlock_out => true
  | _ => false

/-- The call is counted in `readcnt`. -/
def Pc.counted : Pc → Bool
  | Pc.r_first => true
  | Pc.r_unlock_in => true
  | Pc.r_list_lock => true
  | Pc.r_scan => true
  | Pc.r_list_unlock => true
  | Pc.r_write => true
  | Pc.r_lock_out => true
  | Pc.r_dec => true
  | _ => false

/-- The call is one of the readers on whose behalf `write_sem` is held: it has
passed the test of the entry protocol and not yet the test of the exit
protocol. -/
def Pc.passed : Pc → Bool
  | Pc.r_unlock_in => true
  | Pc.r_list_lock => true
  | Pc.r_scan => true
  | Pc.r_list_unlock => true
  | Pc.r_write => true
  | Pc.r_lock_out => true
  | Pc.r_dec => true
  | Pc.r_last => true
  | _ => false

/-- What the two semaphores and `readcnt` keep true in every interleaving:
`rcnt_mutex` is `1` unless one call holds it; `readcnt` is the number of calls
counted in it; `write_sem` is `1` unless a call of `update_cache` holds it or it
is held on behalf of readers that have passed. -/
structure Protocol (σ : Sys) : Prop where
  mutex : σ.rcnt_mutex + σ.pcs.countP Pc.in_mutex = 1
  readers : σ.readcnt = (σ.pcs.countP Pc.counted : Nat)
  gate : σ.write_sem + σ.pcs.countP Pc.writing
    + (if 0 < σ.pcs.countP Pc.passed then 1 else 0) = 1

/-- The Horner sum of the claim on hashing: the values `cs` are the
coefficients of a polynomial in `m`, the first value with the highest power. -/
def horner_sum (m : Nat) (cs : List Nat) : Nat := cs.foldl (fun a c => a * m + c) 0

/-- Source: the `do ... while` loop of `checklist` for one bucket, at the node
`bp`.  `some true`: every assertion `bp->next->prev == bp` held and the walk
came back to the sentinel; `some false`: an assertion failed; `none`: the walk
did not come back within `fuel` steps. -/
def checklist_loop (h : Heap) (head : Ptr) : Nat → Ptr → Option Bool
  | 0, _ => none
  | fuel + 1, bp =>
    if (h (h bp).next).prev = bp then
      (if (h bp).next = head then some true else checklist_loop h head fuel (h bp).next)
    else some false

/-- Source: `checklist`, compiled with `DEBUG`: the walk around every bucket in
turn, as long as no assertion has failed. -/
def checklist (fuel : Nat) (s : State) : Option Bool :=
  (List.range HASHSIZE).foldl
    (fun r i => if r = some true then checklist_loop s.heap (s.head i) fuel (s.head i) else r)
    (some true)

/-- The node reached from `p` by following `next` for `n` steps. -/
def follow (h : Heap) : Nat → Ptr → Ptr
  | 0, p => p
  | n + 1, p => follow h n (h p).next

/-! ## The cache simulator (`cachelab-ans/csim.c`) -/

/-- The result of `accessCache` for a hit. -/
def STATE_HIT : Int := 0

/-- The result of `accessCache` for a miss that fills an invalid line. -/
def STATE_MISS : Int := 1

/-- The result of `accessCache` for a miss that replaces a valid line. -/
def STATE_MISS_EVICT : Int := 2

/-- A line `struct CacheLine`: the `int` fields `valid` and `timeStamp` and the
`unsigned long` field `tag`. -/
structure CacheLine where
  valid : Int
  timeStamp : Int
  tag : Int
deriving DecidableEq, Repr

/-- The globals of `csim.c` that `accessCache` works on: the geometry, the
counter `timeStamp`, and `myCache`, one list of lines for each set.  Every set
has `lineNum` lines, so `lineNum` is the length of these lists. -/
structure Sim where
  setBits : Nat
  blockBits : Nat
  setMask : Nat
  timeStamp : Int
  myCache : List (List CacheLine)
deriving DecidableEq, Repr

/-- Bitwise complement of a 64-bit value (`~` on a `long`). -/
def not64 (x : Nat) : Nat := 18446744073709551615 - x % 18446744073709551616

/-- Source: `main`, the value
`~((~0L << (setBits+blockBits)) | ((1L << blockBits) - 1L))` of `setMask`, in
64-bit arithmetic. -/
def setMask_of (setBits blockBits : Nat) : Nat :=
  not64 (((not64 0 <<< (setBits + blockBits)) % 18446744073709551616)
    ||| ((1 <<< blockBits) % 18446744073709551616 - 1))

/-- Source: `main` and `initCache`.  `main` stores the geometry, clears
`timeStamp` and computes `setNum = 1 << setBits` and `setMask`; `initCache`
allocates `setNum` sets of `lineNum` lines and clears the `valid` field of each
line.  The other two fields keep what `malloc` left there, `junk i j` for line
`j` of set `i`. -/
def initCache (setBits lineNum blockBits : Nat) (junk : Nat → Nat → CacheLine) : Sim :=
  { setBits := setBits, blockBits := blockBits, setMask := setMask_of setBits blockBits,
    timeStamp := 0,
    myCache := (List.range (2 ^ setBits)).map (fun i =>
      (List.range lineNum).map (fun j => { junk i j with valid := 0 })) }

/-- Source: the loop of `accessCache` over the lines of the addressed set, from
line `i` on, followed by `i = (state == STATE_MISS_EVICT) ? evict : i`.  The
result is the value of `state` and the line `i` the access uses: the line that
holds the tag, the first invalid line, or the line `evict`.  `tag` is the
value of `tagValue` as an `unsigned long`, which the comparison with the field
`tag` converts it to. -/
def access_loop (tag : Int) : List CacheLine → Nat → Nat → Int → Int × Nat
  | [], _, evict, _ => (STATE_MISS_EVICT, evict)
  | l :: rest, i, evict, evictTime =>
    if l.valid = 0 then (STATE_MISS, i)
    else
      let ev : Nat × Int := if l.timeStamp < evictTime then (i, l.timeStamp) else (evict, evictTime)
      if l.tag = tag then (STATE_HIT, i)
      else access_loop tag rest (i + 1) ev.1 ev.2

/-- Source: `accessCache`.  `setIndex` and `tagValue` are `int` variables: the
`unsigned long` values computed from the address are converted to `int`.
`none` stands for undefined behaviour: an index outside `myCache`, a set
without a line `0`, or the overflow of the counter `timeStamp`. -/
def accessCache (c : Sim) (address : Nat) : Option (Int × Sim) :=
  let setIndex := to_int (((address &&& c.setMask) >>> c.blockBits : Nat) : Int)
  let tagValue := to_int ((address >>> (c.blockBits + c.setBits) : Nat) : Int)
  if setIndex < 0 then none
  else
    match c.myCache[setIndex.toNat]? with
    | none => none
    | some set =>
      match set[0]? with
      | none => none
      | some first =>
        if c.timeStamp + 1 ≥ 2147483648 then none
        else
          let r := access_loop (to_size_t tagValue) set 0 0 first.timeStamp
          match set[r.2]? with
          | none => none
          | some l =>
            let line : CacheLine :=
              if r.1 = STATE_HIT then { l with timeStamp := c.timeStamp + 1 }
              else { valid := 1, timeStamp := c.timeStamp + 1, tag := to_size_t tagValue }
            some (r.1, { c with timeStamp := c.timeStamp + 1,
                                myCache := c.myCache.set setIndex.toNat (set.set r.2 line) })

/-- Source: the loop of `main` over the lines of the trace that name a memory
access: each calls `accessCache` once with the address of the line. -/
def run_trace (c : Sim) : List Nat → Option Sim
  | [] => some c
  | a :: rest => (accessCache c a).bind (fun r => run_trace r.2 rest)

/-- The set and the line that the access to `address` uses in the state `c`:
the line that holds the tag, the invalid line it fills, or the line it
replaces. -/
def used_line (c : Sim) (address : Nat) : Option (Nat × Nat) :=
  let setIndex := to_int (((address &&& c.setMask) >>> c.blockBits : Nat) : Int)
  let tagValue := to_int ((address >>> (c.blockBits + c.setBits) : Nat) : Int)
  match c.myCache[setIndex.toNat]? with
  | none => none
  | some set =>
    match set[0]? with
    | none => none
    | some first => some (setIndex.toNat, (access_loop (to_size_t tagValue) set 0 0 first.timeStamp).2)

/-- The lines that the accesses of a trace use, in the order of the accesses. -/
def uses (c : Sim) : List Nat → List (Nat × Nat)
  | [] => []
  | a :: rest =>
    ((accessCache c a).bind (fun r =>
      (used_line c a).map (fun u => u :: uses r.2 rest))).getD []

/-- What holds in every state the simulator reaches with the geometry
`s`, `E`, `b`, after accesses that used the lines `U`: the geometry is in
place; `timeStamp` counts the accesses; every set has `E` lines, valid lines
first; and the time stamp of a valid line is the number of the access that used
the line last. -/
structure SimInv (s E b : Nat) (U : List (Nat × Nat)) (c : Sim) : Prop where
  setBits : c.setBits = s
  blockBits : c.blockBits = b
  setMask : c.setMask = setMask_of s b
  sets : c.myCache.length = 2 ^ s
  time : c.timeStamp = U.length
  lines : ∀ (i : Nat) (set : List CacheLine), c.myCache[i]? = some set →
    set.length = E ∧ ∃ vs rest, set = vs ++ rest ∧ (∀ l, l ∈ vs → l.valid = 1)
      ∧ (∀ l, l ∈ rest → l.valid = 0)
  used : ∀ (i j : Nat) (set : List CacheLine) (l : CacheLine), c.myCache[i]? = some set →
    set[j]? = some l → l.valid ≠ 0 →
      ∃ n : Nat, l.timeStamp = (n : Int) + 1 ∧ U[n]? = some (i, j)
        ∧ ∀ m, n < m → U[m]? ≠ some (i, j)

/-! ## The matrix transpose (`cachelab-ans/trans.c`) -/

/-- A two-dimensional C array, row by row. -/
abbrev Mat (α : Type) := List (List α)

/-- The two accesses to a two-dimensional array that `trans.c` makes: reading
`X[i][j]` and the assignment `X[i][j] = v`.  Both yield `none` when an index is
outside the array.  `μ` is the type of arrays and `α` the type of elements. -/
structure Cells (μ α : Type) where
  rd : μ → Nat → Nat → Option α
  wr : μ → Nat → Nat → α → Option μ

/-- Arrays as lists of rows. -/
def list_cells (α : Type) : Cells (Mat α) α :=
  { rd := fun X i j => (X[i]?).bind (fun row => row[j]?),
    wr := fun X i j v =>
      (X[i]?).bind (fun row => if j < row.length then some (X.set i (row.set j v)) else none) }

/-- Sequencing: the step `x`, then, unless it failed, the steps `f` with its
result. -/
@[noinline] def andThen {α β : Type} (x : Option α) (f : α → Option β) : Option β := x.bind f

/-- The loop `for (k = lo; k < hi; k += step) body`, started at `k`; it takes
one unit of `fuel` for each test of the condition. -/
def for_loop {σ : Type} (body : Nat → σ → Option σ) (hi step : Nat) : Nat → Nat → σ → Option σ
  | 0, _, _ => none
  | fuel + 1, k, s =>
    if k < hi then andThen (body k s) (for_loop body hi step fuel (k + step)) else some s

/-- Lines 45-60, 269-284 and 302-317 of trans.c: eight elements of row `k` of
`A`, from column `j`, are copied to the same places of `B`. -/
def copy_row8 {μ α : Type} (I : Cells μ α) (A B : μ) (k j : Nat) : Option μ :=
  andThen (I.rd A k j) fun t0 =>
  andThen (I.rd A k (j + 1)) fun t1 =>
  andThen (I.rd A k (j + 2)) fun t2 =>
  andThen (I.rd A k (j + 3)) fun t3 =>
  andThen (I.rd A k (j + 4)) fun t4 =>
  andThen (I.rd A k (j + 5)) fun t5 =>
  andThen (I.rd A k (j + 6)) fun t6 =>
  andThen (I.rd A k (j + 7)) fun t7 =>
  andThen (I.wr B k j t0) fun B =>
  andThen (I.wr B k (j + 1) t1) fun B =>
  andThen (I.wr B k (j + 2) t2) fun B =>
  andThen (I.wr B k (j + 3) t3) fun B =>
  andThen (I.wr B k (j + 4) t4) fun B =>
  andThen (I.wr B k (j + 5) t5) fun B =>
  andThen (I.wr B k (j + 6) t6) fun B =>
  I.wr B k (j + 7) t7

/-- Lines 68-70 of trans.c: `t0 = B[k][l]; B[k][l] = B[l][k]; B[l][k] = t0;`. -/
def swap_cells {μ α : Type} (I : Cells μ α) (B : μ) (k l : Nat) : Option μ :=
  andThen (I.rd B k l) fun t0 =>
  andThen (I.rd B l k) fun v =>
  andThen (I.wr B k l v) fun B =>
  I.wr B l k t0

/-- Lines 78-93 and 362-377 of trans.c: eight elements of row `i` of `A`, from
column `j`, are stored into column `i` of `B`, from row `j`. -/
def col8 {μ α : Type} (I : Cells μ α) (A B : μ) (i j : Nat) : Option μ :=
  andThen (I.rd A i j) fun t0 =>
  andThen (I.rd A i (j + 1)) fun t1 =>
  andThen (I.rd A i (j + 2)) fun t2 =>
  andThen (I.rd A i (j + 3)) fun t3 =>
  andThen (I.rd A i (j + 4)) fun t4 =>
  andThen (I.rd A i (j + 5)) fun t5 =>
  andThen (I.rd A i (j + 6)) fun t6 =>
  andThen (I.rd A i (j + 7)) fun t7 =>
  andThen (I.wr B j i t0) fun B =>
  andThen (I.wr B (j + 1) i t1) fun B =>
  andThen (I.wr B (j + 2) i t2) fun B =>
  andThen (I.wr B (j + 3) i t3) fun B =>
  andThen (I.wr B (j + 4) i t4) fun B =>
  andThen (I.wr B (j + 5) i t5) fun B =>
  andThen (I.wr B (j + 6) i t6) fun B =>
  I.wr B (j + 7) i t7

/-- The loop `for (i = 0; i < 32; ++i)` of the case `M == 32 && N == 32`
(lines 37-95), for the column block `j`, started at `i`.  On the diagonal
block the body copies eight rows, transposes the block in place and adds `7`
to `i`. -/
def trans32_rows {μ α : Type} (I : Cells μ α) (A : μ) (j : Nat) : Nat → Nat → μ → Option μ
  | 0, _, _ => none
  | fuel + 1, i, B =>
    if i < 32 then
      if i = j then
        andThen (for_loop (fun k B => copy_row8 I A B k i) (i + 8) 1 (i + 9) i B) fun B =>
        andThen (for_loop (fun k B =>
          for_loop (fun l B => swap_cells I B k l) (i + 8) 1 (i + 9) (k + 1) B)
          (i + 8) 1 (i + 9) i B) fun B =>
        trans32_rows I A j fuel (i + 7 + 1) B
      else
        andThen (col8 I A B i j) fun B =>
        trans32_rows I A j fuel (i + 1) B
    else some B

/-- The case `M == 32 && N == 32` of `transpose_submit` (lines 35-96). -/
def trans32 {μ α : Type} (I : Cells μ α) (A B : μ) : Option μ :=
  for_loop (fun j B => trans32_rows I A j 33 0 B) 32 8 33 0 B

/-- Lines 113-128 of trans.c: row `k` of `A`, eight elements from column `j`, goes
into the upper half of the block of `B`: four elements into column `k` and four
into column `k + 4`. -/
def quad_a {μ α : Type} (I : Cells μ α) (A B : μ) (k j : Nat) : Option μ :=
  andThen (I.rd A k j) fun t0 =>
  andThen (I.rd A k (j + 1)) fun t1 =>
  andThen (I.rd A k (j + 2)) fun t2 =>
  andThen (I.rd A k (j + 3)) fun t3 =>
  andThen (I.rd A k (j + 4)) fun t4 =>
  andThen (I.rd A k (j + 5)) fun t5 =>
  andThen (I.rd A k (j + 6)) fun t6 =>
  andThen (I.rd A k (j + 7)) fun t7 =>
  andThen (I.wr B j k t0) fun B =>
  andThen (I.wr B (j + 1) k t1) fun B =>
  andThen (I.wr B (j + 2) k t2) fun B =>
  andThen (I.wr B (j + 3) k t3) fun B =>
  andThen (I.wr B j (k + 4) t4) fun B =>
  andThen (I.wr B (j + 1) (k + 4) t5) fun B =>
  andThen (I.wr B (j + 2) (k + 4) t6) fun B =>
  I.wr B (j + 3) (k + 4) t7

/-- Lines 133-148 of trans.c: the four elements parked in row `k` of `B`, columns
`i + 4` to `i + 7`, move to row `k + 4`, columns `i` to `i + 3`, and column `k` of
`A`, rows `i + 4` to `i + 7`, takes their place. -/
def quad_b {μ α : Type} (I : Cells μ α) (A B : μ) (k i : Nat) : Option μ :=
  andThen (I.rd B k (i + 4)) fun t0 =>
  andThen (I.rd B k (i + 5)) fun t1 =>
  andThen (I.rd B k (i + 6)) fun t2 =>
  andThen (I.rd B k (i + 7)) fun t3 =>
  andThen (I.rd A (i + 4) k) fun t4 =>
  andThen (I.rd A (i + 5) k) fun t5 =>
  andThen (I.rd A (i + 6) k) fun t6 =>
  andThen (I.rd A (i + 7) k) fun t7 =>
  andThen (I.wr B k (i + 4) t4) fun B =>
  andThen (I.wr B k (i + 5) t5) fun B =>
  andThen (I.wr B k (i + 6) t6) fun B =>
  andThen (I.wr B k (i + 7) t7) fun B =>
  andThen (I.wr B (k + 4) i t0) fun B =>
  andThen (I.wr B (k + 4) (i + 1) t1) fun B =>
  andThen (I.wr B (k + 4) (i + 2) t2) fun B =>
  I.wr B (k + 4) (i + 3) t3

/-- Lines 153-160 of trans.c: four elements of row `k` of `A`, from column
`j + 4`, go into column `k` of `B`, from row `j + 4`. -/
def quad_c {μ α : Type} (I : Cells μ α) (A B : μ) (k j : Nat) : Option μ :=
  andThen (I.rd A k (j + 4)) fun t0 =>
  andThen (I.rd A k (j + 5)) fun t1 =>
  andThen (I.rd A k (j + 6)) fun t2 =>
  andThen (I.rd A k (j + 7)) fun t3 =>
  andThen (I.wr B (j + 4) k t0) fun B =>
  andThen (I.wr B (j + 5) k t1) fun B =>
  andThen (I.wr B (j + 6) k t2) fun B =>
  I.wr B (j + 7) k t3

/-- Lines 173-188 of trans.c: as lines 113-128, into the buffer rows `48` to `51`
of `B`, columns `48` to `55`. -/
def diag_a {μ α : Type} (I : Cells μ α) (A B : μ) (k i j : Nat) : Option μ :=
  andThen (I.rd A k j) fun t0 =>
  andThen (I.rd A k (j + 1)) fun t1 =>
  andThen (I.rd A k (j + 2)) fun t2 =>
  andThen (I.rd A k (j + 3)) fun t3 =>
  andThen (I.rd A k (j + 4)) fun t4 =>
  andThen (I.rd A k (j + 5)) fun t5 =>
  andThen (I.rd A k (j + 6)) fun t6 =>
  andThen (I.rd A k (j + 7)) fun t7 =>
  andThen (I.wr B 48 (k - i + 48) t0) fun B =>
  andThen (I.wr B 49 (k - i + 48) t1) fun B =>
  andThen (I.wr B 50 (k - i + 48) t2) fun B =>
  andThen (I.wr B 51 (k - i + 48) t3) fun B =>
  andThen (I.wr B 48 (k - i + 52) t4) fun B =>
  andThen (I.wr B 49 (k - i + 52) t5) fun B =>
  andThen (I.wr B 50 (k - i + 52) t6) fun B =>
  I.wr B 51 (k - i + 52) t7

/-- Lines 193-208 of trans.c: as lines 133-148, between the buffer rows `48` to
`51` and the buffer rows `56` to `59` of `B`. -/
def diag_b {μ α : Type} (I : Cells μ α) (A B : μ) (k i : Nat) : Option μ :=
  andThen (I.rd B (k - i + 48) 52) fun t0 =>
  andThen (I.rd B (k - i + 48) 53) fun t1 =>
  andThen (I.rd B (k - i + 48) 54) fun t2 =>
  andThen (I.rd B (k - i + 48) 55) fun t3 =>
  andThen (I.rd A (i + 4) k) fun t4 =>
  andThen (I.rd A (i + 5) k) fun t5 =>
  andThen (I.rd A (i + 6) k) fun t6 =>
  andThen (I.rd A (i + 7) k) fun t7 =>
  andThen (I.wr B (k - i + 48) 52 t4) fun B =>
  andThen (I.wr B (k - i + 48) 53 t5) fun B =>
  andThen (I.wr B (k - i + 48) 54 t6) fun B =>
  andThen (I.wr B (k - i + 48) 55 t7) fun B =>
  andThen (I.wr B (k - i + 56) 56 t0) fun B =>
  andThen (I.wr B (k - i + 56) 57 t1) fun B =>
  andThen (I.wr B (k - i + 56) 58 t2) fun B =>
  I.wr B (k - i + 56) 59 t3

/-- Lines 213-220 of trans.c: as lines 153-160, into the buffer rows `56` to `59`
of `B`. -/
def diag_c {μ α : Type} (I : Cells μ α) (A B : μ) (k i j : Nat) : Option μ :=
  andThen (I.rd A k (j + 4)) fun t0 =>
  andThen (I.rd A k (j + 5)) fun t1 =>
  andThen (I.rd A k (j + 6)) fun t2 =>
  andThen (I.rd A k (j + 7)) fun t3 =>
  andThen (I.wr B 56 (k - i + 56) t0) fun B =>
  andThen (I.wr B 57 (k - i + 56) t1) fun B =>
  andThen (I.wr B 58 (k - i + 56) t2) fun B =>
  I.wr B 59 (k - i + 56) t3

/-- Lines 225-240 of trans.c: the buffer row `48 + k - i` of `B`, columns `48` to
`55`, is copied to row `k`, columns `i` to `i + 7`. -/
def diag_d {μ α : Type} (I : Cells μ α) (B : μ) (k i : Nat) : Option μ :=
  andThen (I.rd B (48 + k - i) 48) fun t0 =>
  andThen (I.rd B (48 + k - i) 49) fun t1 =>
  andThen (I.rd B (48 + k - i) 50) fun t2 =>
  andThen (I.rd B (48 + k - i) 51) fun t3 =>
  andThen (I.rd B (48 + k - i) 52) fun t4 =>
  andThen (I.rd B (48 + k - i) 53) fun t5 =>
  andThen (I.rd B (48 + k - i) 54) fun t6 =>
  andThen (I.rd B (48 + k - i) 55) fun t7 =>
  andThen (I.wr B k i t0) fun B =>
  andThen (I.wr B k (i + 1) t1) fun B =>
  andThen (I.wr B k (i + 2) t2) fun B =>
  andThen (I.wr B k (i + 3) t3) fun B =>
  andThen (I.wr B k (i + 4) t4) fun B =>
  andThen (I.wr B k (i + 5) t5) fun B =>
  andThen (I.wr B k (i + 6) t6) fun B =>
  I.wr B k (i + 7) t7

/-- Lines 244-259 of trans.c: the buffer row `52 + k - i` of `B`, columns `56` to
`63`, is copied to row `k`, columns `i` to `i + 7`. -/
def diag_e {μ α : Type} (I : Cells μ α) (B : μ) (k i : Nat) : Option μ :=
  andThen (I.rd B (52 + k - i) 56) fun t0 =>
  andThen (I.rd B (52 + k - i) 57) fun t1 =>
  andThen (I.rd B (52 + k - i) 58) fun t2 =>
  andThen (I.rd B (52 + k - i) 59) fun t3 =>
  andThen (I.rd B (52 + k - i) 60) fun t4 =>
  andThen (I.rd B (52 + k - i) 61) fun t5 =>
  andThen (I.rd B (52 + k - i) 62) fun t6 =>
  andThen (I.rd B (52 + k - i) 63) fun t7 =>
  andThen (I.wr B k (i + 0) t0) fun B =>
  andThen (I.wr B k (i + 1) t1) fun B =>
  andThen (I.wr B k (i + 2) t2) fun B =>
  andThen (I.wr B k (i + 3) t3) fun B =>
  andThen (I.wr B k (i + 4) t4) fun B =>
  andThen (I.wr B k (i + 5) t5) fun B =>
  andThen (I.wr B k (i + 6) t6) fun B =>
  I.wr B k (i + 7) t7

/-- Lines 291-296 of trans.c: the exchange of `B[k][l]` with `B[l][k]` and of
`B[k][l+4]` with `B[l][k+4]`. -/
def swap4a {μ α : Type} (I : Cells μ α) (B : μ) (k l : Nat) : Option μ :=
  andThen (I.rd B k l) fun t0 =>
  andThen (I.rd B k (l + 4)) fun t1 =>
  andThen (I.rd B l k) fun v =>
  andThen (I.wr B k l v) fun B =>
  andThen (I.rd B l (k + 4)) fun v =>
  andThen (I.wr B k (l + 4) v) fun B =>
  andThen (I.wr B l k t0) fun B =>
  I.wr B l (k + 4) t1

/-- Lines 324-329 of trans.c: the exchange of `B[k][l]` with `B[l][k]` and of
`B[k][l-4]` with `B[l][k-4]`.  The loops call it with `k >= 4` and `l >= 4`. -/
def swap4b {μ α : Type} (I : Cells μ α) (B : μ) (k l : Nat) : Option μ :=
  andThen (I.rd B k l) fun t0 =>
  andThen (I.rd B k (l - 4)) fun t1 =>
  andThen (I.rd B l k) fun v =>
  andThen (I.wr B k l v) fun B =>
  andThen (I.rd B l (k - 4)) fun v =>
  andThen (I.wr B k (l - 4) v) fun B =>
  andThen (I.wr B l k t0) fun B =>
  I.wr B l (k - 4) t1

/-- Lines 335-350 of trans.c: row `k` of `B`, columns `j` to `j + 3`, changes
places with row `k - 4`, columns `j + 4` to `j + 7`.  The loop calls it with
`k >= 4`. -/
def swap_quarters {μ α : Type} (I : Cells μ α) (B : μ) (k j : Nat) : Option μ :=
  andThen (I.rd B k j) fun t0 =>
  andThen (I.rd B k (j + 1)) fun t1 =>
  andThen (I.rd B k (j + 2)) fun t2 =>
  andThen (I.rd B k (j + 3)) fun t3 =>
  andThen (I.rd B (k - 4) (j + 4)) fun t4 =>
  andThen (I.rd B (k - 4) (j + 5)) fun t5 =>
  andThen (I.rd B (k - 4) (j + 6)) fun t6 =>
  andThen (I.rd B (k - 4) (j + 7)) fun t7 =>
  andThen (I.wr B (k - 4) (j + 4) t0) fun B =>
  andThen (I.wr B (k - 4) (j + 5) t1) fun B =>
  andThen (I.wr B (k - 4) (j + 6) t2) fun B =>
  andThen (I.wr B (k - 4) (j + 7) t3) fun B =>
  andThen (I.wr B k j t4) fun B =>
  andThen (I.wr B k (j + 1) t5) fun B =>
  andThen (I.wr B k (j + 2) t6) fun B =>
  I.wr B k (j + 3) t7

/-- Lines 382-391 of trans.c: five elements of row `i` of `A`, from column `j`,
are stored into column `i` of `B`, from row `j`. -/
def col5 {μ α : Type} (I : Cells μ α) (A B : μ) (i j : Nat) : Option μ :=
  andThen (I.rd A i j) fun t0 =>
  andThen (I.rd A i (j + 1)) fun t1 =>
  andThen (I.rd A i (j + 2)) fun t2 =>
  andThen (I.rd A i (j + 3)) fun t3 =>
  andThen (I.rd A i (j + 4)) fun t4 =>
  andThen (I.wr B j i t0) fun B =>
  andThen (I.wr B (j + 1) i t1) fun B =>
  andThen (I.wr B (j + 2) i t2) fun B =>
  andThen (I.wr B (j + 3) i t3) fun B =>
  I.wr B (j + 4) i t4

/-- Lines 100-164 of trans.c: the blocks off the diagonal of the case
`M == 64 && N == 64`; `continue` leaves the array as it is. -/
def trans64_off {μ α : Type} (I : Cells μ α) (A B : μ) : Option μ :=
  for_loop (fun j B =>
    for_loop (fun i B =>
      if i = j then some B
      else
        andThen (for_loop (fun k B => quad_a I A B k j) (i + 4) 1 (i + 5) i B) fun B =>
        andThen (for_loop (fun k B => quad_b I A B k i) (j + 4) 1 (j + 5) j B) fun B =>
        for_loop (fun k B => quad_c I A B k j) (i + 8) 1 (i + 9) (i + 4) B)
      64 8 65 0 B)
    64 8 65 0 B

/-- Lines 166-261 of trans.c: the diagonal blocks `j < 48`, through the blocks
of `B` at `48` and `56`, with `i = j`. -/
def trans64_diag {μ α : Type} (I : Cells μ α) (A B : μ) : Option μ :=
  for_loop (fun j B =>
    andThen (for_loop (fun k B => diag_a I A B k j j) (j + 4) 1 (j + 5) j B) fun B =>
    andThen (for_loop (fun k B => diag_b I A B k j) (j + 4) 1 (j + 5) j B) fun B =>
    andThen (for_loop (fun k B => diag_c I A B k j j) (j + 8) 1 (j + 9) (j + 4) B) fun B =>
    andThen (for_loop (fun k B => diag_d I B k j) (j + 4) 1 (j + 5) j B) fun B =>
    for_loop (fun k B => diag_e I B k j) (j + 8) 1 (j + 9) (j + 4) B)
    48 8 49 0 B

/-- Lines 263-353 of trans.c: the last two diagonal blocks, copied and
transposed in place, with `i = j`. -/
def trans64_last {μ α : Type} (I : Cells μ α) (A B : μ) : Option μ :=
  for_loop (fun j B =>
    andThen (for_loop (fun k B => copy_row8 I A B k j) (j + 4) 1 (j + 5) j B) fun B =>
    andThen (for_loop (fun k B =>
      for_loop (fun l B => swap4a I B k l) (j + 4) 1 (j + 5) (k + 1) B)
      (j + 4) 1 (j + 5) j B) fun B =>
    andThen (for_loop (fun k B => copy_row8 I A B k j) (j + 8) 1 (j + 9) (j + 4) B) fun B =>
    andThen (for_loop (fun k B =>
      for_loop (fun l B => swap4b I B k l) (j + 8) 1 (j + 9) (k + 1) B)
      (j + 8) 1 (j + 9) (j + 4) B) fun B =>
    for_loop (fun k B => swap_quarters I B k j) (j + 8) 1 (j + 9) (j + 4) B)
    64 8 65 48 B

/-- The case `M == 64 && N == 64` of `transpose_submit` (lines 100-353). -/
def trans64 {μ α : Type} (I : Cells μ α) (A B : μ) : Option μ :=
  andThen (trans64_off I A B) fun B =>
  andThen (trans64_diag I A B) fun B =>
  trans64_last I A B

/-- The case `M == 61 && N == 67` of `transpose_submit` (lines 358-392).  The
second loop runs with the value `56` that the first loop leaves in `j`. -/
def trans61 {μ α : Type} (I : Cells μ α) (A B : μ) : Option μ :=
  andThen (for_loop (fun j B => for_loop (fun i B => col8 I A B i j) 67 1 68 0 B) 56 8 57 0 B)
    fun B =>
  for_loop (fun i B => col5 I A B i 56) 67 1 68 0 B

/-- Source: `transpose_submit`.  `A` is only read; the result is the array `B`
after the call.  For a shape that is none of the three, no statement is
executed. -/
def transpose_submit {μ α : Type} (I : Cells μ α) (M N : Nat) (A B : μ) : Option μ :=
  if M = 32 ∧ N = 32 then trans32 I A B
  else if M = 64 ∧ N = 64 then trans64 I A B
  else if M = 61 ∧ N = 67 then trans61 I A B
  else some B

/-- The inner loop of `is_transpose` for row `i` of `A`, from column `j`:
`some false` when an element differs, `some true` when the loop ends. -/
def is_transpose_row (M : Nat) (A B : Mat Int) (i : Nat) : Nat → Nat → Option Bool
  | 0, _ => none
  | fuel + 1, j =>
    if j < M then
      andThen ((list_cells Int).rd A i j) fun a =>
      andThen ((list_cells Int).rd B j i) fun b =>
      if a ≠ b then some false else is_transpose_row M A B i fuel (j + 1)
    else some true

/-- The outer loop of `is_transpose`, from row `i`. -/
def is_transpose_rows (M N : Nat) (A B : Mat Int) : Nat → Nat → Option Bool
  | 0, _ => none
  | fuel + 1, i =>
    if i < N then
      andThen (is_transpose_row M A B i (M + 1) 0) fun same =>
      if same then is_transpose_rows M N A B fuel (i + 1) else some false
    else some true

/-- Source: `is_transpose`: `1` when `B[j][i] == A[i][j]` for all `i < N` and
`j < M`, and `0` otherwise. -/
def is_transpose (M N : Nat) (A B : Mat Int) : Option Int :=
  (is_transpose_rows M N A B (N + 1) 0).map (fun same => if same then 1 else 0)

/-- The matrix with `r` rows and `c` columns whose element `(i, j)` is `g i j`. -/
def mat_of {α : Type} (r c : Nat) (g : Nat → Nat → α) : Mat α :=
  (List.range r).map (fun i => (List.range c).map (fun j => g i j))

/-- An array of `rows` times `cols` cells of 16 bits each, packed into one
number: cell `(i, j)` is the digit `i * cols + j` in base `2 ^ 16`. -/
structure Packed where
  rows : Nat
  cols : Nat
  bits : Nat
deriving DecidableEq, Repr

/-- The digit `p` of `x` in base `2 ^ 16`. -/
def digit (x p : Nat) : Nat := (x >>> (16 * p)) % 65536

/-- Packed arrays of numbers below `2 ^ 16`; a number above is stored modulo
`2 ^ 16`. -/
def packed_cells : Cells Packed Nat :=
  { rd := fun X i j =>
      if i < X.rows ∧ j < X.cols then some (digit X.bits (i * X.cols + j)) else none,
    wr := fun X i j v =>
      if i < X.rows ∧ j < X.cols then
        some { X with bits := X.bits ^^^
          ((digit X.bits (i * X.cols + j) ^^^ (v % 65536)) <<< (16 * (i * X.cols + j))) }
      else none }

/-- The packed array with `rows` times `cols` cells whose cell `(i, j)` holds
`g i j`. -/
def pack (rows cols : Nat) (g : Nat → Nat → Nat) : Packed :=
  { rows := rows, cols := cols,
    bits := (List.range (rows * cols)).foldl
      (fun x p => x ^^^ ((g (p / cols) (p % cols) % 65536) <<< (16 * p))) 0 }

/-- The matrix that a packed array stands for when the number `n` in a cell
stands for the element `h n`. -/
def decode (h : Nat → Int) (X : Packed) : Mat Int :=
  mat_of X.rows X.cols (fun i j => h (digit X.bits (i * X.cols + j)))

/-- The element `X[i][j]` of a matrix, `0` outside the matrix. -/
def cell (X : Mat Int) (i j : Nat) : Int := (((list_cells Int).rd X i j)).getD 0

/-! ## Lookups that run at the same time (`search_lru` statement by statement) -/

/-- Where a call of `search_lru` stands between its `P` and its `V` on the list
semaphore: before `bp = head->next`; at the test of the search loop; before
each of the two assignments of `promote_lru` that unlink `bp`; before
`rear = head->prev` of `push_back`; and before each of its four assignments.
`checklist` does nothing in this build (`DEBUG` is not defined). -/
inductive Scan where
  | init
  | test
  | unlink1
  | unlink2
  | rear
  | link1
  | link2
  | link3
  | link4
deriving DecidableEq, Repr

/-- Calls of `try_from_cache` that run at the same time: the semaphores, the
reader count and the place of every call (`sys`), the heap they share, and for
each call its place inside `search_lru`, its local variables `bp` and `rear`,
and, once it has passed the write to the client, its result code with the bytes
it handed to `Rio_writen`. -/
structure Conc where
  sys : Sys
  heap : Heap
  scan : Nat → Scan
  bp : Nat → Ptr
  rear : Nat → Ptr
  out : Nat → Option (Int × Option (List Nat))

/-- The calls `try_from_cache(cp, fd, &keys[i])` begin on the cache `s`. -/
def conc_start (s : State) (keys : List cid_t) : Conc :=
  { sys := start s (keys.map (fun c => Call.lookup c.index)), heap := s.heap,
    scan := fun _ => Scan.init, bp := fun _ => 0, rear := fun _ => 0, out := fun _ => none }

/-- The key of call `i`. -/
def key_of (keys : List cid_t) (i : Nat) : cid_t := keys.getD i { id := [], index := 0 }

/-- The end of `try_from_cache` for a call whose search returned `bp`: the
result code and the bytes handed to `Rio_writen`, whose result is `wr`. -/
def outcome (h : Heap) (wr : Int) (bp : Ptr) : Int × Option (List Nat) :=
  if bp ≠ 0 then (if wr < 0 then -1 else 1, some (block_bytes (h bp))) else (0, none)

/-- Call `i` executes its next statement.  Outside `search_lru` the statements
are those of `advance`; the write to the client, whose result is `wr i`,
records the outcome of the call.  Between `P` and `V` on the list semaphore the
statements of `search_lru`, `promote_lru` and `push_back` are steps of their
own: `bp = head->next`; one round of the search loop (the test `bp != head`,
the comparison of the keys and `bp = bp->next`), which ends the search when `bp`
is the sentinel (`bp = NULL`) and goes to the promotion when the keys are equal;
and each assignment to a `prev` or `next` field.  `head i` is
`cp->lists[i].head`, which no call changes. -/
def conc_step (head : Nat → Ptr) (keys : List cid_t) (wr : Nat → Int) (σ : Conc) (i : Nat) :
    Option Conc :=
  match σ.sys.pcs[i]? with
  | some Pc.r_scan =>
    match σ.scan i with
    | Scan.init =>
      some { σ with bp := fun j => if j = i then (σ.heap (head (σ.sys.bucket.getD i 0))).next
                                   else σ.bp j,
                    scan := fun j => if j = i then Scan.test else σ.scan j }
    | Scan.test =>
      if σ.bp i = head (σ.sys.bucket.getD i 0) then
        (advance σ.sys i).map (fun s =>
          { σ with sys := s, bp := fun j => if j = i then 0 else σ.bp j })
      else if (σ.heap (σ.bp i)).id = some (key_of keys i).id then
        some { σ with scan := fun j => if j = i then Scan.unlink1 else σ.scan j }
      else
        some { σ with bp := fun j => if j = i then (σ.heap (σ.bp i)).next else σ.bp j }
    | Scan.unlink1 =>
      some { σ with heap := set_next σ.heap (σ.heap (σ.bp i)).prev (σ.heap (σ.bp i)).next,
                    scan := fun j => if j = i then Scan.unlink2 else σ.scan j }
    | Scan.unlink2 =>
      some { σ with heap := set_prev σ.heap (σ.heap (σ.bp i)).next (σ.heap (σ.bp i)).prev,
                    scan := fun j => if j = i then Scan.rear else σ.scan j }
    | Scan.rear =>
      some { σ with rear := fun j => if j = i then (σ.heap (head (σ.sys.bucket.getD i 0))).prev
                                     else σ.rear j,
                    scan := fun j => if j = i then Scan.link1 else σ.scan j }
    | Scan.link1 =>
      some { σ with heap := set_next σ.heap (σ.rear i) (σ.bp i),
                    scan := fun j => if j = i then Scan.link2 else σ.scan j }
    | Scan.link2 =>
      some { σ with heap := set_prev σ.heap (σ.bp i) (σ.rear i),
                    scan := fun j => if j = i then Scan.link3 else σ.scan j }
    | Scan.link3 =>
      some { σ with heap := set_next σ.heap (σ.bp i) (head (σ.sys.bucket.getD i 0)),
                    scan := fun j => if j = i then Scan.link4 else σ.scan j }
    | Scan.link4 =>
      (advance σ.sys i).map (fun s =>
        { σ with sys := s, heap := set_prev σ.heap (head (σ.sys.bucket.getD i 0)) (σ.bp i) })
  | some Pc.r_write =>
    (advance σ.sys i).map (fun s =>
      { σ with sys := s,
               out := fun j => if j = i then some (outcome σ.heap (wr i) (σ.bp i))
                               else σ.out j })
  | _ => (advance σ.sys i).map (fun s => { σ with sys := s })

/-- An interleaving of the calls: the calls named in `sched` take one step each,
in this order. -/
def conc_run (head : Nat → Ptr) (keys : List cid_t) (wr : Nat → Int) (σ : Conc) :
    List Nat → Option Conc
  | [] => some σ
  | i :: sched => (conc_step head keys wr σ i).bind (fun σ2 => conc_run head keys wr σ2 sched)

/-- The calls `order` of `try_from_cache` executed one after the other, call `i`
with the key `key_of keys i` and the result `wr i` of its write: the state they
leave and, for every call, its result code with the bytes handed to
`Rio_writen`. -/
def seq_run (fuel : Nat) (keys : List cid_t) (wr : Nat → Int) (s : State) (order : List Nat) :
    Option (State × (Nat → Option (Int × Option (List Nat)))) :=
  order.foldl
    (fun acc i => acc.bind (fun a =>
      (try_from_cache fuel a.1 (wr i) (key_of keys i)).map (fun x =>
        (x.st, fun j => if j = i then some (x.rc, x.sent) else a.2 j))))
    (some (s, fun _ => none))

/-- The statement that follows in the straight-line code of a call. -/
def Pc.succ : Pc → Pc
  | Pc.r_lock_in => Pc.r_inc
  | Pc.r_inc => Pc.r_first
  | Pc.r_first => Pc.r_unlock_in
  | Pc.r_unlock_in => Pc.r_list_lock
  | Pc.r_list_lock => Pc.r_scan
  | Pc.r_scan => Pc.r_list_unlock
  | Pc.r_list_unlock => Pc.r_write
  | Pc.r_write => Pc.r_lock_out
  | Pc.r_lock_out => Pc.r_dec
  | Pc.r_dec => Pc.r_last
  | Pc.r_last => Pc.r_unlock_out
  | Pc.r_unlock_out => Pc.done
  | Pc.w_lock => Pc.w_insert
  | Pc.w_insert => Pc.w_unlock
  | Pc.w_unlock => Pc.done
  | Pc.done => Pc.done

/-- The call holds the list semaphore of its bucket. -/
def Pc.holds_list : Pc → Bool
  | Pc.r_scan => true
  | Pc.r_list_unlock => true
  | _ => false

/-- The call is a call of `try_from_cache`. -/
def Pc.is_lookup : Pc → Bool
  | Pc.w_lock => false
  | Pc.w_insert => false
  | Pc.w_unlock => false
  | _ => true

/-- The call has finished its search: it is behind the loop and the promotion
of `search_lru`. -/
def Pc.searched : Pc → Bool
  | Pc.r_list_unlock => true
  | Pc.r_write => true
  | Pc.r_lock_out => true
  | Pc.r_dec => true
  | Pc.r_last => true
  | Pc.r_unlock_out => true
  | Pc.done => true
  | _ => false

/-- The call is behind its write to the client. -/
def Pc.wrote : Pc → Bool
  | Pc.r_lock_out => true
  | Pc.r_dec => true
  | Pc.r_last => true
  | Pc.r_unlock_out => true
  | Pc.done => true
  | _ => false

/-- What the list semaphores keep true in every interleaving of lookups: of the
calls that search one bucket at most one holds its semaphore, which is `0` then
and `1` otherwise. -/
structure ListLocks (σ : Sys) : Prop where
  size : σ.pcs.length = σ.bucket.length
  index : ∀ i, σ.bucket.getD i 0 < HASHSIZE
  lookups : ∀ (i : Nat) (p : Pc), σ.pcs[i]? = some p → p.is_lookup = true
  one : ∀ (i j : Nat) (p q : Pc), σ.pcs[i]? = some p → σ.pcs[j]? = some q → p.holds_list = true →
    q.holds_list = true → σ.bucket.getD i 0 = σ.bucket.getD j 0 → i = j
  held : ∀ (i : Nat) (p : Pc), σ.pcs[i]? = some p → p.holds_list = true →
    σ.list_mutex (σ.bucket.getD i 0) = 0
  free : ∀ b, b < HASHSIZE →
    (∀ (i : Nat) (p : Pc), σ.pcs[i]? = some p → p.holds_list = true → σ.bucket.getD i 0 ≠ b) →
    σ.list_mutex b = 1

/-- How many statements of the promotion a call at `sc` has behind it. -/
def Scan.rank : Scan → Nat
  | Scan.init => 0
  | Scan.test => 1
  | Scan.unlink1 => 2
  | Scan.unlink2 => 3
  | Scan.rear => 4
  | Scan.link1 => 5
  | Scan.link2 => 6
  | Scan.link3 => 7
  | Scan.link4 => 8

/-- The largest number of steps a call can have taken when it stands at a
statement outside the search, for a bucket of `len` entries. -/
def Pc.bound (len : Nat) : Pc → Nat
  | Pc.r_lock_in => 0
  | Pc.r_inc => 1
  | Pc.r_first => 2
  | Pc.r_unlock_in => 3
  | Pc.r_list_lock => 4
  | Pc.r_scan => 13 + len
  | Pc.r_list_unlock => 14 + len
  | Pc.r_write => 15 + len
  | Pc.r_lock_out => 16 + len
  | Pc.r_dec => 17 + len
  | Pc.r_last => 18 + len
  | Pc.r_unlock_out => 19 + len
  | Pc.done => 20 + len
  | _ => 0

/-- The heap of a call that has found `bp` in the heap `h` and stands at `sc`:
the assignments of `promote_lru` and `push_back` before `sc` are done. -/
def staged (h : Heap) (hd bp rear : Ptr) : Scan → Heap
  | Scan.init => h
  | Scan.test => h
  | Scan.unlink1 => h
  | Scan.unlink2 => set_next h (h bp).prev (h bp).next
  | Scan.rear => unlink h bp
  | Scan.link1 => unlink h bp
  | Scan.link2 => set_next (unlink h bp) rear bp
  | Scan.link3 => set_prev (set_next (unlink h bp) rear bp) bp rear
  | Scan.link4 => set_next (set_prev (set_next (unlink h bp) rear bp) bp rear) bp hd

/-- What the local variables of a call at `sc` hold, for the bucket `hd, l` it
searches: in the loop, `bp` is behind the entries `l1` that do not have the key;
in the promotion, `bp` is the first entry with the key, and `rear`, once read,
is the last node of the list without `bp`.  `n` is the number of steps the call
has taken. -/
def Local (ids : Ptr → Option (List Nat)) (hd : Ptr) (l : List Ptr) (key : List Nat)
    (bp rear : Ptr) (n : Nat) : Scan → Prop
  | Scan.init => n ≤ 5
  | Scan.test => ∃ l1 l2, l = l1 ++ l2 ∧ (∀ p, p ∈ l1 → ids p ≠ some key)
      ∧ bp = (l2 ++ [hd]).head (by simp) ∧ n ≤ 6 + l1.length
  | sc => ∃ l1 l2, l = l1 ++ bp :: l2 ∧ (∀ p, p ∈ l1 → ids p ≠ some key)
      ∧ ids bp = some key ∧ (5 ≤ sc.rank → rear = lastOf hd (l1 ++ l2))
      ∧ n ≤ 5 + l.length + sc.rank

/-- What a lookup of `key` on the cache `s` with the bucket lists `L0` can
answer: `0` and no bytes, and no entry of the bucket has the key; or `1` (`-1`
when the write to the client fails) with the bytes of an entry of the bucket
that has the key. -/
def lookup_answer (s : State) (L0 : Nat → List Ptr) (key : cid_t) (wr : Int)
    (r : Int × Option (List Nat)) : Prop :=
  (r = (0, none) ∧ ∀ p, p ∈ L0 key.index → (s.heap p).id ≠ some key.id)
    ∨ ∃ p, p ∈ L0 key.index ∧ (s.heap p).id = some key.id
        ∧ r = (if wr < 0 then -1 else 1, some (block_bytes (s.heap p)))

/-- A call at `sc` in the bucket `hd, l`: the nodes of the bucket are in the
shared heap `h` as the call has brought them from the heap `g`, and its local
variables are as `Local` says. -/
def Stage (ids : Ptr → Option (List Nat)) (h g : Heap) (hd : Ptr) (l : List Ptr)
    (key : List Nat) (bp rear : Ptr) (n : Nat) (sc : Scan) : Prop :=
  (∀ p, p ∈ hd :: l → h p = staged g hd bp rear sc p) ∧ Local ids hd l key bp rear n sc

/-- The sequential run that an interleaving amounts to: the calls `order` have
finished their searches, in this order; executed one after the other they leave
the state `g` with the bucket lists `L` and give the results `res`. -/
structure Ghost (s : State) (L0 : Nat → List Ptr) (keys : List cid_t) (wr : Nat → Int)
    (fuel : Nat) (order : List Nat) (g : State)
    (res : Nat → Option (Int × Option (List Nat))) (L : Nat → List Ptr) : Prop where
  seq : seq_run fuel keys wr s order = some (g, res)
  rep : Rep g L
  quiet : Quiescent g
  head : g.head = s.head
  perm : ∀ b, (L b).Perm (L0 b)
  fields : ∀ p, (g.heap p).id = (s.heap p).id ∧ (g.heap p).content = (s.heap p).content
    ∧ (g.heap p).size = (s.heap p).size
  nodup : order.Nodup
  brk : g.brk = s.brk
  answers : ∀ (i : Nat) (r : Int × Option (List Nat)), res i = some r →
    lookup_answer s L0 (key_of keys i) (wr i) r

/-- The shared heap in an interleaving, against the heap `g` of the sequential
run: keys, contents and sizes are those of the beginning; a bucket that no call
searches, and every block outside the buckets, is as in `g`; a bucket that a
call searches is as that call has brought it from `g`. -/
structure Shape (s : State) (keys : List cid_t) (σ : Conc) (cnt : Nat → Nat) (g : Heap)
    (L : Nat → List Ptr) : Prop where
  fields : ∀ p, (σ.heap p).id = (s.heap p).id ∧ (σ.heap p).content = (s.heap p).content
    ∧ (σ.heap p).size = (s.heap p).size
  idle : ∀ b, b < HASHSIZE →
    (∀ i : Nat, σ.sys.pcs[i]? = some Pc.r_scan → σ.sys.bucket.getD i 0 ≠ b) →
    ∀ p, p ∈ s.head b :: L b → σ.heap p = g p
  outside : ∀ p, (∀ b, b < HASHSIZE → p ∉ s.head b :: L b) → σ.heap p = g p
  busy : ∀ i : Nat, σ.sys.pcs[i]? = some Pc.r_scan →
    Stage (fun p => (s.heap p).id) σ.heap g (s.head (σ.sys.bucket.getD i 0))
      (L (σ.sys.bucket.getD i 0)) (key_of keys i).id (σ.bp i) (σ.rear i) (cnt i) (σ.scan i)

/-- The calls in an interleaving, against the sequential run: `order` holds the
calls that have finished their searches; a call that has finished its search has
in `bp` what the sequential run found; a result that is recorded is the result
of the sequential run; a call behind its write has its result recorded; `cnt i`,
the number of steps call `i` has taken, is bounded. -/
structure Control (s : State) (L0 : Nat → List Ptr) (wr : Nat → Int) (σ : Conc)
    (cnt : Nat → Nat) (order : List Nat)
    (res : Nat → Option (Int × Option (List Nat))) : Prop where
  ord : ∀ i : Nat, i ∈ order ↔ ∃ p : Pc, σ.sys.pcs[i]? = some p ∧ p.searched = true
  pre : ∀ (i : Nat) (p : Pc), σ.sys.pcs[i]? = some p → p.searched = false → p ≠ Pc.r_scan →
    σ.scan i = Scan.init
  found : ∀ i : Nat, σ.sys.pcs[i]? = some Pc.r_list_unlock ∨ σ.sys.pcs[i]? = some Pc.r_write →
    res i = some (outcome s.heap (wr i) (σ.bp i))
  out : ∀ (i : Nat) (r : Int × Option (List Nat)), σ.out i = some r →
    res i = some r ∧ ∃ p : Pc, σ.sys.pcs[i]? = some p ∧ p.wrote = true
  returned : ∀ (i : Nat) (p : Pc), σ.sys.pcs[i]? = some p → p.wrote = true →
    ∃ r, σ.out i = some r
  steps : ∀ (i : Nat) (p : Pc), σ.sys.pcs[i]? = some p → p ≠ Pc.r_scan →
    cnt i ≤ p.bound (L0 (σ.sys.bucket.getD i 0)).length

/-- What holds in every state of an interleaving of lookups that begin on the
cache `s` with the bucket lists `L0`: the interleaving amounts to a sequential
run of the calls that have finished their searches.  `cnt i` is the number of
steps call `i` has taken. -/
def Lin (s : State) (L0 : Nat → List Ptr) (keys : List cid_t) (wr : Nat → Int) (fuel : Nat)
    (σ : Conc) (cnt : Nat → Nat) : Prop :=
  ∃ order g res L, ListLocks σ.sys ∧ Protocol σ.sys
    ∧ σ.sys.bucket = keys.map (fun c => c.index)
    ∧ Ghost s L0 keys wr fuel order g res L ∧ Shape s keys σ cnt g.heap L
    ∧ Control s L0 wr σ cnt order res

/-- Three lookups on `pair_cached`: two for the entries of bucket `0` and one
for a key that is not cached. -/
def trio : List cid_t := [pin_a, key_a, pin_b]

/-- An interleaving of the three lookups to their end: the calls pass the entry
protocol one after the other; call `0` promotes its entry while call `1`
searches its empty bucket and call `2` waits for the list semaphore; call `2`
promotes its entry when call `0` has released the semaphore. -/
def trio_sched : List Nat :=
  [0, 0, 0, 0, 1, 1, 1, 1, 2, 2, 2, 2,
   0, 1, 0, 1, 0, 1, 0, 1, 0, 1, 0, 0, 0, 0, 0, 0,
   2, 2, 2, 0, 2, 2, 2, 2, 2, 2, 2, 2, 2,
   1, 1, 1, 1, 0, 0, 0, 0, 2, 2, 2, 2]

/-! ## Heap lemmas -/

@[simp] theorem set_next_next (h : Heap) (p v q : Ptr) :
    (set_next h p v q).next = if q = p then v else (h q).next := by
  unfold set_next; split <;> simp_all

@[simp] theorem set_next_prev (h : Heap) (p v q : Ptr) :
    (set_next h p v q).prev = (h q).prev := by
  unfold set_next; split <;> simp_all

@[simp] theorem set_next_size (h : Heap) (p v q : Ptr) :
    (set_next h p v q).size = (h q).size := by
  unfold set_next; split <;> simp_all

@[simp] theorem set_next_id (h : Heap) (p v q : Ptr) :
    (set_next h p v q).id = (h q).id := by
  unfold set_next; split <;> simp_all

@[simp] theorem set_next_content (h : Heap) (p v q : Ptr) :
    (set_next h p v q).content = (h q).content := by
  unfold set_next; split <;> simp_all

@[simp] theorem set_prev_prev (h : Heap) (p v q : Ptr) :
    (set_prev h p v q).prev = if q = p then v else (h q).prev := by
  unfold set_prev; split <;> simp_all

@[simp] theorem set_prev_next (h : Heap) (p v q : Ptr) :
    (set_prev h p v q).next = (h q).next := by
  unfold set_prev; split <;> simp_all

@[simp] theorem set_prev_size (h : Heap) (p v q : Ptr) :
    (set_prev h p v q).size = (h q).size := by
  unfold set_prev; split <;> simp_all

@[simp] theorem set_prev_id (h : Heap) (p v q : Ptr) :
    (set_prev h p v q).id = (h q).id := by
  unfold set_prev; split <;> simp_all

@[simp] theorem set_prev_content (h : Heap) (p v q : Ptr) :
    (set_prev h p v q).content = (h q).content := by
  unfold set_prev; split <;> simp_all

@[simp] theorem store_same (h : Heap) (p : Ptr) (b : block_t) : store h p b p = b := by
  simp [store]

theorem store_other (h : Heap) (p q : Ptr) (b : block_t) (hq : q ≠ p) :
    store h p b q = h q := by
  simp [store, hq]

theorem lastOf_mem (a : Ptr) (l : List Ptr) : lastOf a l ∈ a :: l := by
  induction l generalizing a with
  | nil => simp [lastOf]
  | cons p l ih =>
    have := ih p
    simp only [lastOf]
    exact List.mem_cons_of_mem _ this

theorem lastOf_append_singleton (a : Ptr) (l : List Ptr) (r : Ptr) :
    lastOf a (l ++ [r]) = r := by
  induction l generalizing a with
  | nil => simp [lastOf]
  | cons p l ih => simpa [lastOf] using ih p

theorem Seg_prev_last {h : Heap} {a b : Ptr} {l : List Ptr} (hs : Seg h a l b) :
    (h b).prev = lastOf a l := by
  induction l generalizing a with
  | nil => exact hs.2
  | cons p l ih => exact ih hs.2.2

theorem Seg_next_first {h : Heap} {a b : Ptr} {l : List Ptr} (hs : Seg h a l b) :
    (h a).next = (l ++ [b]).head (by simp) := by
  cases l with
  | nil => exact hs.1
  | cons p l => exact hs.1

theorem Seg_congr {h h2 : Heap} {a b : Ptr} {l : List Ptr}
    (hn : ∀ x, x ∈ a :: l → (h2 x).next = (h x).next)
    (hp : ∀ y, y ∈ l ++ [b] → (h2 y).prev = (h y).prev)
    (hs : Seg h a l b) : Seg h2 a l b := by
  induction l generalizing a with
  | nil =>
    refine ⟨?_, ?_⟩
    · rw [hn a (by simp)]; exact hs.1
    · rw [hp b (by simp)]; exact hs.2
  | cons p l ih =>
    refine ⟨?_, ?_, ?_⟩
    · rw [hn a (by simp)]; exact hs.1
    · rw [hp p (by simp)]; exact hs.2.1
    · apply ih
      · intro x hx; exact hn x (List.mem_cons_of_mem _ hx)
      · intro y hy; exact hp y (by simp at hy ⊢; tauto)
      · exact hs.2.2

theorem Seg_append {h : Heap} {a b p : Ptr} {l1 l2 : List Ptr} :
    Seg h a (l1 ++ p :: l2) b ↔ Seg h a l1 p ∧ Seg h p l2 b := by
  induction l1 generalizing a with
  | nil => simp [Seg, and_assoc]
  | cons q l1 ih => simp [Seg, ih, and_assoc]

/-- Redirecting the end of a path: the last node's `next` and the new end's
`prev` are set, the links inside the path stay. -/
theorem Seg_retarget {h h2 : Heap} {a b c : Ptr} {l : List Ptr}
    (hs : Seg h a l b) (hnd : (a :: l).Nodup)
    (hn : ∀ x, x ∈ a :: l → x ≠ lastOf a l → (h2 x).next = (h x).next)
    (hp : ∀ y, y ∈ l → (h2 y).prev = (h y).prev)
    (hlast : (h2 (lastOf a l)).next = c) (hc : (h2 c).prev = lastOf a l) :
    Seg h2 a l c := by
  induction l generalizing a with
  | nil => exact ⟨hlast, hc⟩
  | cons p l ih =>
    have hnd2 : (p :: l).Nodup := (List.nodup_cons.mp hnd).2
    have hap : a ∉ p :: l := (List.nodup_cons.mp hnd).1
    refine ⟨?_, ?_, ?_⟩
    · rw [hn a (by simp)]
      · exact hs.1
      · intro heq
        apply hap
        rw [heq]
        exact lastOf_mem p l
    · rw [hp p (by simp)]; exact hs.2.1
    · apply ih hs.2.2 hnd2
      · intro x hx hne
        exact hn x (List.mem_cons_of_mem _ hx) hne
      · intro y hy
        exact hp y (List.mem_cons_of_mem _ hy)
      · exact hlast
      · exact hc

/-! ## The list operations on one well-formed list -/

theorem push_back_other (h : Heap) (hd bp x : Ptr)
    (h1 : x ≠ (h hd).prev) (h2 : x ≠ bp) (h3 : x ≠ hd) : push_back h hd bp x = h x := by
  simp [push_back, set_next, set_prev, h1, h2, h3]

@[simp] theorem push_back_size (h : Heap) (hd bp x : Ptr) :
    (push_back h hd bp x).size = (h x).size := by
  simp [push_back]

@[simp] theorem push_back_id (h : Heap) (hd bp x : Ptr) :
    (push_back h hd bp x).id = (h x).id := by
  simp [push_back]

@[simp] theorem push_back_content (h : Heap) (hd bp x : Ptr) :
    (push_back h hd bp x).content = (h x).content := by
  simp [push_back]

theorem unlink_other (h : Heap) (bp x : Ptr)
    (h1 : x ≠ (h bp).prev) (h2 : x ≠ (h bp).next) (h3 : bp ≠ (h bp).prev) :
    unlink h bp x = h x := by
  have : (set_next h (h bp).prev (h bp).next bp).next = (h bp).next := by
    simp [h3]
  simp [unlink, set_next, set_prev, h1, h2, h3]

@[simp] theorem unlink_size (h : Heap) (bp x : Ptr) : (unlink h bp x).size = (h x).size := by
  simp [unlink]

@[simp] theorem unlink_id (h : Heap) (bp x : Ptr) : (unlink h bp x).id = (h x).id := by
  simp [unlink]

@[simp] theorem unlink_content (h : Heap) (bp x : Ptr) :
    (unlink h bp x).content = (h x).content := by
  simp [unlink]

theorem promote_lru_eq (h : Heap) (hd bp : Ptr) :
    promote_lru h hd bp = push_back (unlink h bp) hd bp := rfl

/-- Appending a fresh block with `push_back` yields the list extended at its end. -/
theorem Seg_push_back {h : Heap} {hd bp : Ptr} {l : List Ptr}
    (hs : Seg h hd l hd) (hnd : (hd :: l).Nodup) (hbp : bp ∉ hd :: l) :
    Seg (push_back h hd bp) hd (l ++ [bp]) hd := by
  have hrear : (h hd).prev = lastOf hd l := Seg_prev_last hs
  have hrm : lastOf hd l ∈ hd :: l := lastOf_mem hd l
  have hrbp : lastOf hd l ≠ bp := fun e => hbp (e ▸ hrm)
  have hbphd : bp ≠ hd := fun e => hbp (by simp [e])
  rw [Seg_append]
  refine ⟨?_, ?_, ?_⟩
  · apply Seg_retarget hs hnd
    · intro x hx hne
      have hxbp : x ≠ bp := fun e => hbp (e ▸ hx)
      simp [push_back, hrear, hne, hxbp]
    · intro y hy
      have hybp : y ≠ bp := fun e => hbp (e ▸ List.mem_cons_of_mem _ hy)
      have hyhd : y ≠ hd := fun e => (List.nodup_cons.mp hnd).1 (e ▸ hy)
      simp [push_back, hybp, hyhd]
    · simp [push_back, hrear, hrbp]
    · simp [push_back, hrear, hbphd]
  · simp [push_back]
  · simp [push_back]

/-- Taking a block out of a list with the two assignments of `unlink`. -/
theorem Seg_unlink {h : Heap} {hd p : Ptr} {l1 l2 : List Ptr}
    (hs : Seg h hd (l1 ++ p :: l2) hd) (hnd : (hd :: (l1 ++ p :: l2)).Nodup) :
    Seg (unlink h p) hd (l1 ++ l2) hd := by
  obtain ⟨hs1, hs2⟩ := Seg_append.mp hs
  have ha : (h p).prev = lastOf hd l1 := Seg_prev_last hs1
  have ham : lastOf hd l1 ∈ hd :: l1 := lastOf_mem hd l1
  have hnd1 : (hd :: l1).Nodup := by
    have := hnd
    rw [← List.cons_append] at this
    exact (List.nodup_append.mp this).1
  have hdisj : ∀ x, x ∈ hd :: l1 → x ∉ p :: l2 := by
    intro x hx hx2
    have := hnd
    rw [← List.cons_append] at this
    exact (List.nodup_append.mp this).2.2 hx hx2
  have hpa : p ≠ lastOf hd l1 := fun e => hdisj _ ham (by simp [← e])
  have hnd2 : (p :: l2).Nodup := by
    have := hnd
    rw [← List.cons_append] at this
    exact (List.nodup_append.mp this).2.1
  cases l2 with
  | nil =>
    have hc : (h p).next = hd := hs2.1
    simp only [List.append_nil]
    apply Seg_retarget hs1 hnd1
    · intro x hx hne
      simp [unlink, ha, hne]
    · intro y hy
      have hyhd : y ≠ hd := fun e => (List.nodup_cons.mp hnd1).1 (e ▸ hy)
      simp [unlink, ha, hc, hpa, hyhd]
    · simp [unlink, ha, hc]
    · simp [unlink, ha, hc, hpa]
  | cons c l2 =>
    have hc : (h p).next = c := hs2.1
    have hcl1 : c ∉ hd :: l1 := fun hx => hdisj c hx (by simp)
    rw [Seg_append]
    constructor
    · apply Seg_retarget hs1 hnd1
      · intro x hx hne
        simp [unlink, ha, hne]
      · intro y hy
        have hyc : y ≠ c := fun e => hcl1 (e ▸ List.mem_cons_of_mem _ hy)
        simp [unlink, ha, hc, hpa, hyc]
      · simp [unlink, ha, hc]
      · simp [unlink, ha, hc, hpa]
    · apply Seg_congr _ _ hs2.2.2
      · intro x hx
        have hxa : x ≠ lastOf hd l1 := fun e => hdisj _ ham (by
          rw [← e]; exact List.mem_cons_of_mem _ hx)
        simp [unlink, ha, hxa]
      · intro y hy
        have hyc : y ≠ c := by
          intro e
          subst e
          have hnd3 : (y :: l2).Nodup := (List.nodup_cons.mp hnd2).2
          simp only [List.mem_append, List.mem_singleton] at hy
          rcases hy with hy | hy
          · exact (List.nodup_cons.mp hnd3).1 hy
          · exact hcl1 (by simp [hy])
        simp [unlink, ha, hc, hpa, hyc]

/-! ## Bucket-wise reasoning -/

theorem linked_size_eq (h : Heap) (L : Nat → List Ptr) :
    linked_size h L = ∑ i in Finset.range HASHSIZE, list_size h (L i) := rfl

theorem list_size_congr {h h2 : Heap} {l : List Ptr}
    (hh : ∀ p, p ∈ l → (h2 p).size = (h p).size) : list_size h2 l = list_size h l := by
  unfold list_size
  congr 1
  apply List.map_congr_left
  intro p hp
  exact hh p hp

theorem linked_size_congr {h h2 : Heap} {L : Nat → List Ptr}
    (hh : ∀ i, i < HASHSIZE → ∀ p, p ∈ L i → (h2 p).size = (h p).size) :
    linked_size h2 L = linked_size h L := by
  rw [linked_size_eq, linked_size_eq]
  apply Finset.sum_congr rfl
  intro i hi
  exact list_size_congr (hh i (Finset.mem_range.mp hi))

theorem linked_size_update (h : Heap) (L : Nat → List Ptr) (i : Nat) (hi : i < HASHSIZE)
    (l2 : List Ptr) :
    linked_size h (Function.update L i l2) = linked_size h L - list_size h (L i) + list_size h l2 := by
  rw [linked_size_eq, linked_size_eq]
  have hmem : i ∈ Finset.range HASHSIZE := Finset.mem_range.mpr hi
  rw [← Finset.add_sum_erase _ _ hmem, ← Finset.add_sum_erase (Finset.range HASHSIZE) _ hmem]
  have : ∑ x in (Finset.range HASHSIZE).erase i, list_size h (Function.update L i l2 x)
      = ∑ x in (Finset.range HASHSIZE).erase i, list_size h (L x) := by
    apply Finset.sum_congr rfl
    intro x hx
    rw [Function.update_noteq (Finset.ne_of_mem_erase hx)]
  rw [this, Function.update_same]
  ring

theorem list_size_append (h : Heap) (l1 l2 : List Ptr) :
    list_size h (l1 ++ l2) = list_size h l1 + list_size h l2 := by
  simp [list_size]

theorem list_size_cons (h : Heap) (p : Ptr) (l : List Ptr) :
    list_size h (p :: l) = (h p).size + list_size h l := by
  simp [list_size]

theorem Rep.brk_pos {s : State} {L : Nat → List Ptr} (hR : Rep s L) : 0 < s.brk := by
  have := hR.alloc 0 (by decide) (s.head 0) (by simp)
  omega

/-- Changing one bucket: the new list of bucket `i` is well formed, consists of
old entries of that bucket and freshly allocated blocks, and the heap is left
alone outside bucket `i`. -/
theorem Rep.modify {s s2 : State} {L : Nat → List Ptr} (hR : Rep s L)
    (i : Nat) (hi : i < HASHSIZE) (l2 : List Ptr)
    (hhead : s2.head = s.head) (hbrk : s.brk ≤ s2.brk)
    (hseg : Seg s2.heap (s.head i) l2 (s.head i))
    (hnd : (s.head i :: l2).Nodup)
    (hnew : ∀ p : Nat, p ∈ l2 → p ∈ L i ∨ (s.brk ≤ p ∧ p < s2.brk))
    (hframe : ∀ x : Nat, x ∉ s.head i :: L i → x < s.brk → s2.heap x = s.heap x)
    (hsent : (s2.heap (s.head i)).id = none ∧ (s2.heap (s.head i)).content = none) :
    Rep s2 (Function.update L i l2) := by
  have hold : ∀ j, j < HASHSIZE → j ≠ i → ∀ x, x ∈ s.head j :: L j → s2.heap x = s.heap x := by
    intro j hj hji x hx
    exact hframe x (hR.disj j i hj hi hji x hx) (hR.alloc j hj x hx).2
  have hnew2 : ∀ p : Nat, p ∈ s.head i :: l2 → p ∈ s.head i :: L i ∨ (s.brk ≤ p ∧ p < s2.brk) := by
    intro p hp
    rcases List.mem_cons.mp hp with e | hp
    · left; simp [e]
    · rcases hnew p hp with h1 | h1
      · left; exact List.mem_cons_of_mem _ h1
      · right; exact h1
  constructor
  · intro j hj
    rw [hhead]
    by_cases hji : j = i
    · subst hji; simpa using hseg
    · rw [Function.update_noteq hji]
      apply Seg_congr _ _ (hR.seg j hj)
      · intro x hx; rw [hold j hj hji x hx]
      · intro y hy
        rw [hold j hj hji y (by simp at hy ⊢; tauto)]
  · intro j hj
    rw [hhead]
    by_cases hji : j = i
    · subst hji; simpa using hnd
    · rw [Function.update_noteq hji]; exact hR.nodup j hj
  · intro j k hj hk hjk p hp hp2
    rw [hhead] at hp hp2
    by_cases hji : j = i
    · subst hji
      rw [Function.update_same] at hp
      rw [Function.update_noteq (Ne.symm hjk)] at hp2
      rcases hnew2 p hp with h1 | h1
      · exact hR.disj j k hj hk hjk p h1 hp2
      · have := (hR.alloc k hk p hp2).2
        omega
    · rw [Function.update_noteq hji] at hp
      by_cases hki : k = i
      · subst hki
        rw [Function.update_same] at hp2
        rcases hnew2 p hp2 with h1 | h1
        · exact hR.disj j k hj hk hjk p hp h1
        · have := (hR.alloc j hj p hp).2
          omega
      · rw [Function.update_noteq hki] at hp2
        exact hR.disj j k hj hk hjk p hp hp2
  · intro j hj p hp
    rw [hhead] at hp
    by_cases hji : j = i
    · subst hji
      rw [Function.update_same] at hp
      rcases hnew2 p hp with h1 | h1
      · have := hR.alloc j hj p h1
        omega
      · have := hR.brk_pos
        omega
    · rw [Function.update_noteq hji] at hp
      have := hR.alloc j hj p hp
      omega
  · intro j hj
    rw [hhead]
    by_cases hji : j = i
    · subst hji; exact hsent
    · rw [hold j hj hji (s.head j) (by simp)]
      exact hR.sentinel j hj

/-! ## One eviction step -/

@[simp] theorem evict_step_head (s : State) (i : Nat) : (evict_step s i).head = s.head := by
  simp only [evict_step]; split <;> rfl

@[simp] theorem evict_step_brk (s : State) (i : Nat) : (evict_step s i).brk = s.brk := by
  simp only [evict_step]; split <;> rfl

@[simp] theorem evict_step_list_mutex (s : State) (i : Nat) :
    (evict_step s i).list_mutex = s.list_mutex := by
  simp only [evict_step]; split <;> rfl

@[simp] theorem evict_step_write_sem (s : State) (i : Nat) :
    (evict_step s i).write_sem = s.write_sem := by
  simp only [evict_step]; split <;> rfl

@[simp] theorem evict_step_rcnt_mutex (s : State) (i : Nat) :
    (evict_step s i).rcnt_mutex = s.rcnt_mutex := by
  simp only [evict_step]; split <;> rfl

@[simp] theorem evict_step_readcnt (s : State) (i : Nat) :
    (evict_step s i).readcnt = s.readcnt := by
  simp only [evict_step]; split <;> rfl

/-- An empty bucket is skipped. -/
theorem evict_step_nil {s : State} {L : Nat → List Ptr} (hR : Rep s L) {i : Nat}
    (hi : i < HASHSIZE) (he : L i = []) : evict_step s i = s := by
  have hs := hR.seg i hi
  rw [he] at hs
  unfold evict_step
  simp [hs.1]

theorem evict_step_heap {s : State} {L : Nat → List Ptr} (hR : Rep s L) {i : Nat}
    (hi : i < HASHSIZE) {bp : Ptr} {l2 : List Ptr} (he : L i = bp :: l2) :
    (evict_step s i).heap = destroy_block (unlink s.heap bp) bp
      ∧ (evict_step s i).total_size = s.total_size - (s.heap bp).size := by
  have hs := hR.seg i hi
  have hnd := hR.nodup i hi
  rw [he] at hs hnd
  have hnext : (s.heap (s.head i)).next = bp := hs.1
  have hprev : (s.heap bp).prev = s.head i := hs.2.1
  have hne : bp ≠ s.head i := by
    intro e
    exact (List.nodup_cons.mp hnd).1 (by simp [e])
  have h1 : (set_next s.heap (s.head i) (s.heap bp).next bp).prev = s.head i := by
    simp [hprev]
  constructor
  · simp only [evict_step, hnext, hne, if_false, unlink, hprev, h1]
  · simp only [evict_step, hnext, hne, if_false]

/-- A non-empty bucket loses its first entry, whose size leaves `total_size`;
every other block keeps its key, content and size. -/
theorem evict_step_cons {s : State} {L : Nat → List Ptr} (hR : Rep s L) {i : Nat}
    (hi : i < HASHSIZE) {bp : Ptr} {l2 : List Ptr} (he : L i = bp :: l2) :
    Rep (evict_step s i) (Function.update L i l2)
      ∧ (evict_step s i).total_size = s.total_size - (s.heap bp).size
      ∧ (∀ x, x ≠ bp → ((evict_step s i).heap x).id = (s.heap x).id
          ∧ ((evict_step s i).heap x).content = (s.heap x).content
          ∧ ((evict_step s i).heap x).size = (s.heap x).size) := by
  obtain ⟨hheap, htot⟩ := evict_step_heap hR hi he
  have hs := hR.seg i hi
  have hnd := hR.nodup i hi
  rw [he] at hs hnd
  have hnext : (s.heap (s.head i)).next = bp := hs.1
  have hprev : (s.heap bp).prev = s.head i := hs.2.1
  have hbp : bp ∉ s.head i :: l2 := by
    intro hm
    rcases List.mem_cons.mp hm with e | hm
    · exact (List.nodup_cons.mp hnd).1 (by simp [e])
    · exact (List.nodup_cons.mp (List.nodup_cons.mp hnd).2).1 hm
  have hnd2 : (s.head i :: l2).Nodup := by
    have h1 := List.nodup_cons.mp hnd
    have h2 := List.nodup_cons.mp h1.2
    exact List.nodup_cons.mpr ⟨fun hm => h1.1 (List.mem_cons_of_mem _ hm), h2.2⟩
  have hseg2 : Seg (unlink s.heap bp) (s.head i) l2 (s.head i) := by
    have := @Seg_unlink s.heap (s.head i) bp [] l2 (by simpa using hs) (by simpa using hnd)
    simpa using this
  refine ⟨?_, htot, ?_⟩
  · apply hR.modify i hi l2 (by simp) (by simp)
    · rw [hheap]
      apply Seg_congr _ _ hseg2
      · intro x hx
        have : x ≠ bp := fun e => hbp (e ▸ hx)
        simp [destroy_block, store_other _ _ _ _ this]
      · intro y hy
        have : y ≠ bp := fun e => hbp (e ▸ (by simp at hy ⊢; tauto))
        simp [destroy_block, store_other _ _ _ _ this]
    · exact hnd2
    · intro p hp; left; rw [he]; exact List.mem_cons_of_mem _ hp
    · intro x hx _
      rw [he] at hx
      have hx1 : x ≠ bp := fun e => hx (by simp [e])
      have hx2 : x ≠ s.head i := fun e => hx (by simp [e])
      have hx3 : x ≠ (s.heap bp).next := by
        intro e
        have h1 := Seg_next_first hs.2.2
        rw [h1] at e
        apply hx
        have h2 : (l2 ++ [s.head i]).head (by simp) ∈ l2 ++ [s.head i] := List.head_mem _
        rw [← e] at h2
        simp at h2 ⊢
        tauto
      rw [hheap]
      simp only [destroy_block, store_other _ _ _ _ hx1]
      apply unlink_other
      · rw [hprev]; exact hx2
      · exact hx3
      · rw [hprev]; exact fun e => hbp (by simp [e])
    · rw [hheap]
      have : s.head i ≠ bp := fun e => hbp (by simp [e])
      simp only [destroy_block, store_other _ _ _ _ this, unlink_id, unlink_content]
      exact hR.sentinel i hi
  · intro x hx
    rw [hheap]
    simp [destroy_block, store_other _ _ _ _ hx]

/-! ## The eviction loop -/

theorem evict_run_add (a b : Nat) (s : State) (i : Nat) (hi : i < HASHSIZE) :
    evict_run (a + b) s i = evict_run b (evict_run a s i) ((i + a) % HASHSIZE) := by
  induction a generalizing s i with
  | zero => simp [evict_run, Nat.mod_eq_of_lt hi]
  | succ a ih =>
    have h1 : a + 1 + b = (a + b) + 1 := by omega
    rw [h1]
    simp only [evict_run]
    rw [ih _ _ (Nat.mod_lt _ (by decide))]
    congr 1
    rw [Nat.add_mod, Nat.mod_mod, ← Nat.add_mod]
    congr 1
    omega

/-- The loop returns exactly the state reached after the least number of
iterations at which its test fails. -/
theorem evict_loop_eq_some (cap size : Int) (fuel : Nat) (s s2 : State) (i : Nat) :
    evict_loop cap size fuel s i = some s2 ↔
      ∃ m, m < fuel ∧ s2 = evict_run m s i ∧ (evict_run m s i).total_size + size ≤ cap
        ∧ ∀ k, k < m → (evict_run k s i).total_size + size > cap := by
  induction fuel generalizing s i with
  | zero => simp [evict_loop]
  | succ fuel ih =>
    simp only [evict_loop]
    by_cases hc : s.total_size + size > cap
    · simp only [hc, if_true]
      rw [ih]
      constructor
      · rintro ⟨m, hm, h1, h2, h3⟩
        refine ⟨m + 1, by omega, h1, h2, ?_⟩
        intro k hk
        cases k with
        | zero => exact hc
        | succ k => exact h3 k (by omega)
      · rintro ⟨m, hm, h1, h2, h3⟩
        cases m with
        | zero =>
          simp only [evict_run] at h2
          omega
        | succ m =>
          refine ⟨m, by omega, h1, h2, ?_⟩
          intro k hk
          exact h3 (k + 1) (by omega)
    · simp only [hc, if_false]
      constructor
      · intro h
        refine ⟨0, by omega, ?_, ?_, ?_⟩
        · simpa [evict_run] using h.symm
        · simp only [evict_run]; omega
        · intro k hk; omega
      · rintro ⟨m, hm, h1, h2, h3⟩
        cases m with
        | zero => simp [evict_run] at h1; simp [h1]
        | succ m =>
          have := h3 0 (by omega)
          simp only [evict_run] at this
          exact absurd this hc

theorem linked_count_update (L : Nat → List Ptr) (i : Nat) (hi : i < HASHSIZE)
    (l2 : List Ptr) :
    linked_count (Function.update L i l2) + (L i).length = linked_count L + l2.length := by
  unfold linked_count
  have hmem : i ∈ Finset.range HASHSIZE := Finset.mem_range.mpr hi
  rw [← Finset.add_sum_erase _ _ hmem, ← Finset.add_sum_erase (Finset.range HASHSIZE) _ hmem]
  have : ∑ x in (Finset.range HASHSIZE).erase i, (Function.update L i l2 x).length
      = ∑ x in (Finset.range HASHSIZE).erase i, (L x).length := by
    apply Finset.sum_congr rfl
    intro x hx
    rw [Function.update_noteq (Finset.ne_of_mem_erase hx)]
  rw [this, Function.update_same]
  omega

/-- What one iteration of the eviction loop does to the represented lists. -/
theorem evict_step_rep {s : State} {L : Nat → List Ptr} (hR : Rep s L) {i : Nat}
    (hi : i < HASHSIZE) :
    Rep (evict_step s i) (Function.update L i (L i).tail)
      ∧ (evict_step s i).total_size - linked_size (evict_step s i).heap (Function.update L i (L i).tail)
          = s.total_size - linked_size s.heap L
      ∧ (∀ j, j < HASHSIZE → ∀ x, x ∈ Function.update L i (L i).tail j →
          ((evict_step s i).heap x).id = (s.heap x).id
          ∧ ((evict_step s i).heap x).content = (s.heap x).content
          ∧ ((evict_step s i).heap x).size = (s.heap x).size) := by
  cases he : L i with
  | nil =>
    have hL : Function.update L i ([] : List Ptr).tail = L := by
      funext j
      by_cases hj : j = i
      · subst hj; simp [he]
      · simp [Function.update_noteq hj]
    rw [evict_step_nil hR hi he, hL]
    exact ⟨hR, rfl, fun _ _ _ _ => ⟨rfl, rfl, rfl⟩⟩
  | cons bp l2 =>
    obtain ⟨h1, h2, h3⟩ := evict_step_cons hR hi he
    simp only [List.tail_cons]
    have hmem : ∀ j, j < HASHSIZE → ∀ x, x ∈ Function.update L i l2 j → x ≠ bp := by
      intro j hj x hx e
      subst e
      have hnd := h1.nodup
      by_cases hji : j = i
      · subst hji
        rw [Function.update_same] at hx
        have hnd := hR.nodup j hj
        rw [he] at hnd
        exact (List.nodup_cons.mp (List.nodup_cons.mp hnd).2).1 hx
      · rw [Function.update_noteq hji] at hx
        exact hR.disj j i hj hi hji x (List.mem_cons_of_mem _ hx) (by rw [he]; simp)
    refine ⟨h1, ?_, ?_⟩
    · have e1 : linked_size (evict_step s i).heap (Function.update L i l2)
          = linked_size s.heap (Function.update L i l2) := by
        apply linked_size_congr
        intro j hj x hx
        exact (h3 x (hmem j hj x hx)).2.2
      rw [e1, linked_size_update _ _ _ hi, he, list_size_cons, h2]
      ring
    · intro j hj x hx
      exact h3 x (hmem j hj x hx)

@[simp] theorem evict_run_head (n : Nat) (s : State) (i : Nat) :
    (evict_run n s i).head = s.head := by
  induction n generalizing s i with
  | zero => rfl
  | succ n ih => simp [evict_run, ih]

@[simp] theorem evict_run_brk (n : Nat) (s : State) (i : Nat) :
    (evict_run n s i).brk = s.brk := by
  induction n generalizing s i with
  | zero => rfl
  | succ n ih => simp [evict_run, ih]

@[simp] theorem evict_run_list_mutex (n : Nat) (s : State) (i : Nat) :
    (evict_run n s i).list_mutex = s.list_mutex := by
  induction n generalizing s i with
  | zero => rfl
  | succ n ih => simp [evict_run, ih]

@[simp] theorem evict_run_write_sem (n : Nat) (s : State) (i : Nat) :
    (evict_run n s i).write_sem = s.write_sem := by
  induction n generalizing s i with
  | zero => rfl
  | succ n ih => simp [evict_run, ih]

@[simp] theorem evict_run_rcnt_mutex (n : Nat) (s : State) (i : Nat) :
    (evict_run n s i).rcnt_mutex = s.rcnt_mutex := by
  induction n generalizing s i with
  | zero => rfl
  | succ n ih => simp [evict_run, ih]

@[simp] theorem evict_run_readcnt (n : Nat) (s : State) (i : Nat) :
    (evict_run n s i).readcnt = s.readcnt := by
  induction n generalizing s i with
  | zero => rfl
  | succ n ih => simp [evict_run, ih]

/-- Any number of iterations keeps the buckets well formed; each bucket keeps a
final part of its list, the remaining entries keep key, content and size, and
`total_size` moves with the sum of the linked sizes. -/
theorem evict_run_rep {s : State} {L : Nat → List Ptr} (hR : Rep s L) (n : Nat) {i : Nat}
    (hi : i < HASHSIZE) :
    ∃ L2, Rep (evict_run n s i) L2
      ∧ (∀ j, j < HASHSIZE → L2 j <:+ L j)
      ∧ (evict_run n s i).total_size - linked_size (evict_run n s i).heap L2
          = s.total_size - linked_size s.heap L
      ∧ (∀ j, j < HASHSIZE → ∀ x, x ∈ L2 j →
          ((evict_run n s i).heap x).id = (s.heap x).id
          ∧ ((evict_run n s i).heap x).content = (s.heap x).content
          ∧ ((evict_run n s i).heap x).size = (s.heap x).size) := by
  induction n generalizing s L i with
  | zero =>
    exact ⟨L, hR, fun _ _ => List.suffix_refl _, rfl, fun _ _ _ _ => ⟨rfl, rfl, rfl⟩⟩
  | succ n ih =>
    obtain ⟨h1, h2, h3⟩ := evict_step_rep hR hi
    obtain ⟨L2, g1, g2, g3, g4⟩ := ih h1 (Nat.mod_lt (i + 1) (by decide))
    have hsuf : ∀ j, j < HASHSIZE → L2 j <:+ L j := by
      intro j hj
      apply (g2 j hj).trans
      by_cases hji : j = i
      · subst hji
        rw [Function.update_same]
        exact List.tail_suffix _
      · rw [Function.update_noteq hji]
    refine ⟨L2, g1, hsuf, ?_, ?_⟩
    · simp only [evict_run]
      rw [g3, h2]
    · intro j hj x hx
      simp only [evict_run]
      obtain ⟨a1, a2, a3⟩ := g4 j hj x hx
      obtain ⟨b1, b2, b3⟩ := h3 j hj x ((g2 j hj).subset hx)
      exact ⟨a1.trans b1, a2.trans b2, a3.trans b3⟩

/-- Iterations over empty buckets change nothing. -/
theorem evict_run_skip {s : State} {L : Nat → List Ptr} (hR : Rep s L) (k : Nat) {i : Nat}
    (hi : i < HASHSIZE) (he : ∀ j, j < k → L ((i + j) % HASHSIZE) = []) :
    evict_run k s i = s := by
  induction k generalizing i with
  | zero => rfl
  | succ k ih =>
    have h0 : L i = [] := by
      have := he 0 (by omega)
      simpa [Nat.mod_eq_of_lt hi] using this
    simp only [evict_run]
    rw [evict_step_nil hR hi h0]
    apply ih (Nat.mod_lt _ (by decide))
    intro j hj
    have := he (j + 1) (by omega)
    rw [← this]
    congr 1
    rw [Nat.add_mod, Nat.mod_mod, ← Nat.add_mod]
    congr 1
    omega

theorem linked_count_eq_zero {L : Nat → List Ptr} (h : linked_count L = 0) :
    ∀ j, j < HASHSIZE → L j = [] := by
  intro j hj
  unfold linked_count at h
  have := (Finset.sum_eq_zero_iff.mp h) j (Finset.mem_range.mpr hj)
  exact List.length_eq_zero.mp this

theorem linked_size_of_empty (h : Heap) {L : Nat → List Ptr}
    (he : ∀ j, j < HASHSIZE → L j = []) : linked_size h L = 0 := by
  unfold linked_size
  apply Finset.sum_eq_zero
  intro j hj
  rw [he j (Finset.mem_range.mp hj)]
  simp

/-- From any cursor the scan meets a non-empty bucket within `HASHSIZE` steps,
if there is one. -/
theorem exists_first_nonempty {L : Nat → List Ptr} (hc : linked_count L ≠ 0) {i : Nat}
    (hi : i < HASHSIZE) :
    ∃ k, k < HASHSIZE ∧ L ((i + k) % HASHSIZE) ≠ []
      ∧ ∀ j, j < k → L ((i + j) % HASHSIZE) = [] := by
  classical
  have hex : ∃ k, k < HASHSIZE ∧ L ((i + k) % HASHSIZE) ≠ [] := by
    by_contra hno
    apply hc
    unfold linked_count
    apply Finset.sum_eq_zero
    intro j hj
    have hj2 : j < HASHSIZE := Finset.mem_range.mp hj
    by_contra hne
    apply hno
    refine ⟨(j + HASHSIZE - i) % HASHSIZE, Nat.mod_lt _ (by decide), ?_⟩
    have : (i + (j + HASHSIZE - i) % HASHSIZE) % HASHSIZE = j := by
      simp only [HASHSIZE] at *
      omega
    rw [this]
    intro e
    exact hne (by simp [e])
  refine ⟨Nat.find hex, (Nat.find_spec hex).1, (Nat.find_spec hex).2, ?_⟩
  intro j hj
  have := Nat.find_min hex hj
  by_contra hne
  exact this ⟨lt_trans hj (Nat.find_spec hex).1, hne⟩

/-- The loop test fails after at most `HASHSIZE` iterations per linked entry,
when `total_size` is the sum of the linked sizes and the request fits the
capacity. -/
theorem evict_run_fits (cap size : Int) (hsize : size ≤ cap) {s : State}
    {L : Nat → List Ptr} (hR : Rep s L) (hsum : s.total_size = linked_size s.heap L)
    {i : Nat} (hi : i < HASHSIZE) :
    ∃ m, m ≤ HASHSIZE * linked_count L ∧ (evict_run m s i).total_size + size ≤ cap := by
  generalize hn : linked_count L = n
  induction n generalizing s L i with
  | zero =>
    refine ⟨0, by omega, ?_⟩
    simp only [evict_run]
    rw [hsum, linked_size_of_empty _ (linked_count_eq_zero hn)]
    omega
  | succ n ih =>
    by_cases hfit : s.total_size + size ≤ cap
    · exact ⟨0, by omega, by simpa [evict_run] using hfit⟩
    · obtain ⟨k, hk, hne, hmin⟩ := @exists_first_nonempty L (by omega) i hi
      have hj : (i + k) % HASHSIZE < HASHSIZE := Nat.mod_lt _ (by decide)
      obtain ⟨h1, h2, _⟩ := evict_step_rep hR hj
      have hcount : linked_count (Function.update L ((i + k) % HASHSIZE)
          (L ((i + k) % HASHSIZE)).tail) = n := by
        have := linked_count_update L _ hj (L ((i + k) % HASHSIZE)).tail
        have hlen : (L ((i + k) % HASHSIZE)).tail.length + 1 = (L ((i + k) % HASHSIZE)).length := by
          cases hl : L ((i + k) % HASHSIZE) with
          | nil => exact absurd hl hne
          | cons a l => simp
        omega
      have hsum2 : (evict_step s ((i + k) % HASHSIZE)).total_size
          = linked_size (evict_step s ((i + k) % HASHSIZE)).heap
              (Function.update L ((i + k) % HASHSIZE) (L ((i + k) % HASHSIZE)).tail) := by
        have := h2
        rw [hsum] at this
        omega
      obtain ⟨m, hm, hfit2⟩ := @ih _ _ h1 hsum2 (((i + k) % HASHSIZE + 1) % HASHSIZE)
        (Nat.mod_lt _ (by decide)) hcount
      refine ⟨k + (1 + m), ?_, ?_⟩
      · have : HASHSIZE * (n + 1) = HASHSIZE * n + HASHSIZE := by ring
        omega
      · rw [evict_run_add k (1 + m) s i hi, evict_run_skip hR k hi hmin,
          evict_run_add 1 m _ _ hj]
        simpa [evict_run] using hfit2

/-! ## Insertion -/

theorem update_cache_eq (cap : Int) (fuel : Nat) (s : State) (cid : cid_t)
    (content : Option (List Nat)) (size : Nat) :
    update_cache cap fuel s cid content size =
      (P s.write_sem).bind (fun w =>
        (if to_size_t (to_size_t s.total_size + size) > to_size_t cap
          then evict_to_fit cap fuel { s with write_sem := w } (to_int size)
          else some { s with write_sem := w }).bind
        (fun s2 => some (0, link_new s2 cid content size))) := by
  unfold update_cache
  cases P s.write_sem with
  | none => rfl
  | some w =>
    by_cases hc : to_size_t (to_size_t s.total_size + size) > to_size_t cap
    · simp only [hc, if_true, Option.bind_eq_bind, Option.some_bind]
      cases evict_to_fit cap fuel { s with write_sem := w } (to_int size) <;> rfl
    · simp only [hc, if_false, Option.bind_eq_bind, Option.some_bind]
      rfl

theorem init_block_other (h : Heap) (bp : Ptr) (cid : Option cid_t)
    (content : Option (List Nat)) (size : Nat) (x : Ptr) (hx : x ≠ bp) :
    init_block h bp cid content size x = h x := by
  unfold init_block
  cases content with
  | none => simp [store_other _ _ _ _ hx]
  | some c =>
    by_cases hs : size = 0
    · simp [hs, store_other _ _ _ _ hx]
    · simp [hs, store_other _ _ _ _ hx]

theorem init_block_id (h : Heap) (bp : Ptr) (cid : Option cid_t)
    (content : Option (List Nat)) (size : Nat) :
    (init_block h bp cid content size bp).id = cid.map (fun c => c.id) := by
  unfold init_block
  cases content with
  | none => simp
  | some c => by_cases hs : size = 0 <;> simp [hs]

theorem init_block_size (h : Heap) (bp : Ptr) (cid : Option cid_t)
    (content : Option (List Nat)) (size : Nat) :
    (init_block h bp cid content size bp).size
      = if content.isSome ∧ size ≠ 0 then to_int size else 0 := by
  unfold init_block
  cases content with
  | none => simp
  | some c => by_cases hs : size = 0 <;> simp [hs]

theorem init_block_content (h : Heap) (bp : Ptr) (cid : Option cid_t)
    (c : List Nat) (size : Nat) (hs : size ≠ 0) :
    (init_block h bp cid (some c) size bp).content = some (c.take size) := by
  unfold init_block
  simp [hs]

/-- Linking the new block: it becomes the last entry of bucket `cid.index`;
every other block keeps all its fields but the links. -/
theorem link_new_rep {s2 : State} {L : Nat → List Ptr} (hR : Rep s2 L) (cid : cid_t)
    (hidx : cid.index < HASHSIZE) (content : Option (List Nat)) (size : Nat) :
    Rep (link_new s2 cid content size)
        (Function.update L cid.index (L cid.index ++ [s2.brk]))
      ∧ (∀ x, x ≠ s2.brk →
          ((link_new s2 cid content size).heap x).id = (s2.heap x).id
          ∧ ((link_new s2 cid content size).heap x).content = (s2.heap x).content
          ∧ ((link_new s2 cid content size).heap x).size = (s2.heap x).size)
      ∧ ((link_new s2 cid content size).heap s2.brk).id = some cid.id
      ∧ ((link_new s2 cid content size).heap s2.brk).size
          = (if content.isSome ∧ size ≠ 0 then to_int size else 0)
      ∧ ((link_new s2 cid content size).heap s2.brk).content
          = (init_block s2.heap s2.brk (some cid) content size s2.brk).content := by
  have hfresh : ∀ j, j < HASHSIZE → s2.brk ∉ s2.head j :: L j := by
    intro j hj hm
    have := (hR.alloc j hj _ hm).2
    omega
  have hnd := hR.nodup cid.index hidx
  have hseg1 : Seg (init_block s2.heap s2.brk (some cid) content size)
      (s2.head cid.index) (L cid.index) (s2.head cid.index) := by
    apply Seg_congr _ _ (hR.seg cid.index hidx)
    · intro x hx
      rw [init_block_other _ _ _ _ _ _ (fun e => hfresh _ hidx (by rw [← e]; exact hx))]
    · intro y hy
      have hy2 : y ∈ s2.head cid.index :: L cid.index := by
        simp at hy ⊢; tauto
      rw [init_block_other _ _ _ _ _ _ (fun e => hfresh _ hidx (by rw [← e]; exact hy2))]
  refine ⟨?_, ?_, ?_, ?_, ?_⟩
  · apply hR.modify cid.index hidx _ ?_ (by simp [link_new])
    rotate_right
    · rfl
    · exact Seg_push_back hseg1 hnd (hfresh _ hidx)
    · rw [← List.cons_append]
      apply List.Nodup.append hnd (by simp)
      intro x hx hx2
      simp only [List.mem_singleton] at hx2
      exact hfresh _ hidx (by rw [← hx2]; exact hx)
    · intro p hp
      rcases List.mem_append.mp hp with h1 | h1
      · left; exact h1
      · right
        simp only [List.mem_singleton] at h1
        simp [link_new, h1]
    · intro x hx hlt
      have hx1 : x ≠ s2.brk := by omega
      have hx2 : x ≠ s2.head cid.index := fun e => hx (by simp [e])
      have hx3 : x ≠ (init_block s2.heap s2.brk (some cid) content size
          (s2.head cid.index)).prev := by
        rw [Seg_prev_last hseg1]
        intro e
        exact hx (e ▸ lastOf_mem _ _)
      simp only [link_new]
      rw [push_back_other _ _ _ _ hx3 hx1 hx2, init_block_other _ _ _ _ _ _ hx1]
    · have hne : s2.head cid.index ≠ s2.brk := fun e => hfresh _ hidx (by simp [← e])
      simp only [link_new, push_back_id, push_back_content]
      rw [init_block_other _ _ _ _ _ _ hne]
      exact hR.sentinel _ hidx
  · intro x hx
    simp only [link_new, push_back_id, push_back_content, push_back_size]
    rw [init_block_other _ _ _ _ _ _ hx]
    exact ⟨rfl, rfl, rfl⟩
  · simp only [link_new, push_back_id]
    rw [init_block_id]
    rfl
  · simp only [link_new, push_back_size]
    rw [init_block_size]
  · simp only [link_new, push_back_content]

/-! ## Lookup -/

theorem search_loop_mono (h : Heap) (hd : Ptr) (id : List Nat) (fuel k : Nat) (bp r : Ptr)
    (hs : search_loop h hd id fuel bp = some r) :
    search_loop h hd id (fuel + k) bp = some r := by
  induction fuel generalizing bp with
  | zero => simp [search_loop] at hs
  | succ fuel ih =>
    have e : fuel + 1 + k = (fuel + k) + 1 := by omega
    rw [e]
    simp only [search_loop] at hs ⊢
    by_cases h1 : bp = hd
    · simpa [h1] using hs
    · by_cases h2 : (h bp).id = some id
      · simpa [h1, h2] using hs
      · simp only [h1, h2, if_false] at hs ⊢
        exact ih _ hs

/-- Without a matching entry the search ends at the sentinel. -/
theorem search_loop_miss {h : Heap} {a hd : Ptr} {l : List Ptr} {id : List Nat}
    (hs : Seg h a l hd) (hhd : hd ∉ l) (hno : ∀ p, p ∈ l → (h p).id ≠ some id)
    {fuel : Nat} (hf : l.length < fuel) :
    search_loop h hd id fuel (h a).next = some hd := by
  induction l generalizing a fuel with
  | nil =>
    cases fuel with
    | zero => simp at hf
    | succ fuel => simp [search_loop, hs.1]
  | cons p l ih =>
    cases fuel with
    | zero => simp at hf
    | succ fuel =>
      have hp : p ≠ hd := fun e => hhd (by simp [e])
      have hid := hno p (by simp)
      simp only [search_loop, hs.1, hp, hid, if_false]
      apply ih hs.2.2 (fun hm => hhd (List.mem_cons_of_mem _ hm))
        (fun q hq => hno q (List.mem_cons_of_mem _ hq))
      simpa using hf

/-- The search stops at the first entry whose key matches. -/
theorem search_loop_hit {h : Heap} {a hd r : Ptr} {l1 l2 : List Ptr} {id : List Nat}
    (hs : Seg h a (l1 ++ r :: l2) hd) (hhd : hd ∉ l1 ++ r :: l2)
    (hno : ∀ p, p ∈ l1 → (h p).id ≠ some id) (hr : (h r).id = some id)
    {fuel : Nat} (hf : l1.length < fuel) :
    search_loop h hd id fuel (h a).next = some r := by
  induction l1 generalizing a fuel with
  | nil =>
    cases fuel with
    | zero => simp at hf
    | succ fuel =>
      have hp : r ≠ hd := fun e => hhd (by simp [e])
      have h1 : (h a).next = r := hs.1
      simp [search_loop, h1, hp, hr]
  | cons p l1 ih =>
    cases fuel with
    | zero => simp at hf
    | succ fuel =>
      have hp : p ≠ hd := fun e => hhd (by simp [e])
      have hid := hno p (by simp)
      have h1 : (h a).next = p := hs.1
      simp only [search_loop, h1, hp, hid, if_false]
      apply ih hs.2.2 (fun hm => hhd (List.mem_cons_of_mem _ hm))
        (fun q hq => hno q (List.mem_cons_of_mem _ hq))
      simpa using hf

theorem first_match_split (Q : Ptr → Prop) (l : List Ptr) (hex : ∃ p, p ∈ l ∧ Q p) :
    ∃ l1 r l2, l = l1 ++ r :: l2 ∧ Q r ∧ ∀ x, x ∈ l1 → ¬ Q x := by
  classical
  induction l with
  | nil => simp at hex
  | cons a l ih =>
    by_cases ha : Q a
    · exact ⟨[], a, l, rfl, ha, by simp⟩
    · obtain ⟨p, hp, hq⟩ := hex
      have hp2 : p ∈ l := by
        rcases List.mem_cons.mp hp with e | hp
        · exact absurd (e ▸ hq) ha
        · exact hp
      obtain ⟨l1, r, l2, e, hr, hno⟩ := ih ⟨p, hp2, hq⟩
      refine ⟨a :: l1, r, l2, by simp [e], hr, ?_⟩
      intro x hx
      rcases List.mem_cons.mp hx with e2 | hx
      · rw [e2]; exact ha
      · exact hno x hx

/-- Promotion inside a well-formed cache: the entry moves to the end of its
bucket and no block changes anything but links. -/
theorem promote_rep {s : State} {L : Nat → List Ptr} (hR : Rep s L) {i : Nat}
    (hi : i < HASHSIZE) {r : Ptr} {l1 l2 : List Ptr} (he : L i = l1 ++ r :: l2) :
    Rep { s with heap := promote_lru s.heap (s.head i) r }
      (Function.update L i (l1 ++ l2 ++ [r])) := by
  have hs := hR.seg i hi
  have hnd := hR.nodup i hi
  rw [he] at hs hnd
  have hnd0 : (s.head i :: (l1 ++ l2)).Nodup ∧ r ∉ s.head i :: (l1 ++ l2) := by
    have h1 := List.nodup_cons.mp hnd
    have h2 : (l1 ++ r :: l2).Nodup := h1.2
    have h3 := List.nodup_middle.mp h2
    have h4 := List.nodup_cons.mp h3
    constructor
    · apply List.nodup_cons.mpr
      refine ⟨fun hm => h1.1 ?_, h4.2⟩
      simp only [List.mem_append, List.mem_cons] at hm ⊢
      tauto
    · intro hm
      rcases List.mem_cons.mp hm with e | hm
      · exact h1.1 (by simp [← e])
      · exact h4.1 hm
  have hu : Seg (unlink s.heap r) (s.head i) (l1 ++ l2) (s.head i) := Seg_unlink hs hnd
  obtain ⟨hs1, hs2⟩ := Seg_append.mp hs
  have hprev : (s.heap r).prev = lastOf (s.head i) l1 := Seg_prev_last hs1
  have hnext : (s.heap r).next = (l2 ++ [s.head i]).head (by simp) := Seg_next_first hs2
  have hpm : (s.heap r).prev ∈ s.head i :: (l1 ++ r :: l2) := by
    rw [hprev]
    have := lastOf_mem (s.head i) l1
    simp only [List.mem_cons, List.mem_append] at this ⊢
    tauto
  have hnm : (s.heap r).next ∈ s.head i :: (l1 ++ r :: l2) := by
    rw [hnext]
    have := List.head_mem (l := l2 ++ [s.head i]) (by simp)
    simp only [List.mem_cons, List.mem_append, List.mem_singleton] at this ⊢
    tauto
  have hrp : r ≠ (s.heap r).prev := by
    rw [hprev]
    intro e
    have := lastOf_mem (s.head i) l1
    rw [← e] at this
    have h1 := List.nodup_cons.mp hnd
    rcases List.mem_cons.mp this with e2 | hm
    · exact h1.1 (by simp [← e2])
    · have h3 := List.nodup_middle.mp h1.2
      exact (List.nodup_cons.mp h3).1 (List.mem_append_left _ hm)
  refine Rep.modify hR i hi _ ?_ ?_ ?_ ?_ ?_ ?_ ?_
  · rfl
  · exact le_refl _
  · show Seg (promote_lru s.heap (s.head i) r) (s.head i) (l1 ++ l2 ++ [r]) (s.head i)
    rw [promote_lru_eq]
    exact Seg_push_back hu hnd0.1 hnd0.2
  · rw [← List.cons_append]
    apply List.Nodup.append hnd0.1 (by simp)
    intro x hx hx2
    simp only [List.mem_singleton] at hx2
    exact hnd0.2 (by rw [← hx2]; exact hx)
  · intro p hp
    left
    rw [he]
    simp only [List.mem_append, List.mem_cons, List.mem_singleton, List.not_mem_nil,
      or_false] at hp ⊢
    tauto
  · intro x hx _
    rw [he] at hx
    show promote_lru s.heap (s.head i) r x = s.heap x
    rw [promote_lru_eq]
    have hx1 : x ≠ r := fun e => hx (by simp [e])
    have hx2 : x ≠ s.head i := fun e => hx (by simp [e])
    have hx3 : x ≠ (unlink s.heap r (s.head i)).prev := by
      rw [Seg_prev_last hu]
      intro e
      have := lastOf_mem (s.head i) (l1 ++ l2)
      rw [← e] at this
      apply hx
      simp only [List.mem_cons, List.mem_append] at this ⊢
      tauto
    rw [push_back_other _ _ _ _ hx3 hx1 hx2]
    apply unlink_other _ _ _ _ _ hrp
    · exact fun e => hx (e ▸ hpm)
    · exact fun e => hx (e ▸ hnm)
  · show (promote_lru s.heap (s.head i) r (s.head i)).id = none
      ∧ (promote_lru s.heap (s.head i) r (s.head i)).content = none
    rw [promote_lru_eq]
    simp only [push_back_id, push_back_content, unlink_id, unlink_content]
    exact hR.sentinel i hi

theorem Rep.congr {s s2 : State} {L : Nat → List Ptr} (hR : Rep s L)
    (h1 : s2.heap = s.heap) (h2 : s2.head = s.head) (h3 : s2.brk = s.brk) : Rep s2 L := by
  constructor
  · intro i hi; rw [h1, h2]; exact hR.seg i hi
  · intro i hi; rw [h2]; exact hR.nodup i hi
  · intro i j hi hj hij; rw [h2]; exact hR.disj i j hi hj hij
  · intro i hi; rw [h2, h3]; exact hR.alloc i hi
  · intro i hi; rw [h1, h2]; exact hR.sentinel i hi

theorem mutex_restore (f : Nat → Nat) (i : Nat) (hm : f i ≠ 0) :
    (fun j => if j = i then V ((fun k => if k = i then f i - 1 else f k) i)
      else (fun k => if k = i then f i - 1 else f k) j) = f := by
  funext j
  by_cases hj : j = i
  · subst hj
    simp only [if_true, V]
    omega
  · simp [hj]

/-- A lookup that finds no entry with the key returns `NULL` and leaves the
state as it was. -/
theorem search_lru_miss {s : State} {L : Nat → List Ptr} (hR : Rep s L) (cid : cid_t)
    (hidx : cid.index < HASHSIZE) (hm : s.list_mutex cid.index ≠ 0)
    (hno : ∀ p, p ∈ L cid.index → (s.heap p).id ≠ some cid.id)
    {fuel : Nat} (hf : (L cid.index).length < fuel) :
    search_lru fuel s cid = some (0, s) := by
  have hnd := hR.nodup cid.index hidx
  have hloop := search_loop_miss (hR.seg cid.index hidx) (List.nodup_cons.mp hnd).1 hno hf
  unfold search_lru
  simp only [P, hm, if_false, Option.bind_eq_bind, Option.some_bind, hloop, ne_eq,
    not_true_eq_false, Option.pure_def, Option.some.injEq, Prod.mk.injEq, true_and]
  have := mutex_restore s.list_mutex cid.index hm
  cases s
  simp only [State.mk.injEq, true_and, and_true] at this ⊢
  exact this

/-- A lookup that finds an entry returns the first entry of the bucket whose
key matches, after promoting it. -/
theorem search_lru_hit {s : State} {L : Nat → List Ptr} (hR : Rep s L) (cid : cid_t)
    (hidx : cid.index < HASHSIZE) (hm : s.list_mutex cid.index ≠ 0)
    {r : Ptr} {l1 l2 : List Ptr} (he : L cid.index = l1 ++ r :: l2)
    (hr : (s.heap r).id = some cid.id)
    (hno : ∀ p, p ∈ l1 → (s.heap p).id ≠ some cid.id)
    {fuel : Nat} (hf : l1.length < fuel) :
    search_lru fuel s cid
      = some (r, { s with heap := promote_lru s.heap (s.head cid.index) r }) := by
  have hnd := hR.nodup cid.index hidx
  have hs := hR.seg cid.index hidx
  rw [he] at hnd hs
  have hloop := search_loop_hit hs (List.nodup_cons.mp hnd).1 hno hr hf
  have hrh : r ≠ s.head cid.index := by
    intro e
    exact (List.nodup_cons.mp hnd).1 (by simp [← e])
  unfold search_lru
  simp only [P, hm, if_false, Option.bind_eq_bind, Option.some_bind, hloop, ne_eq,
    hrh, not_false_eq_true, if_true, Option.pure_def, Option.some.injEq, Prod.mk.injEq, true_and]
  have := mutex_restore s.list_mutex cid.index hm
  cases s
  simp only [State.mk.injEq, true_and, and_true] at this ⊢
  exact this

theorem block_bytes_promote (h : Heap) (hd r x : Ptr) :
    block_bytes (promote_lru h hd r x) = block_bytes (h x) := by
  unfold block_bytes
  rw [promote_lru_eq]
  simp only [push_back_content, push_back_size, unlink_content, unlink_size]

theorem Rep.ne_null {s : State} {L : Nat → List Ptr} (hR : Rep s L) {i : Nat}
    (hi : i < HASHSIZE) {r : Ptr} (hr : r ∈ L i) : r ≠ 0 := by
  exact Nat.pos_iff_ne_zero.mp (hR.alloc i hi r (List.mem_cons_of_mem _ hr)).1

/-- A hit in a quiescent cache: the result code is `1`, or `-1` when writing
to the client fails; the bytes of the first matching entry are handed to
`Rio_writen`; the entry is promoted and the semaphores are free again. -/
theorem try_from_cache_hit {s : State} {L : Nat → List Ptr} (hR : Rep s L) (hQ : Quiescent s)
    (cid : cid_t) (hidx : cid.index < HASHSIZE)
    {r : Ptr} {l1 l2 : List Ptr} (he : L cid.index = l1 ++ r :: l2)
    (hr : (s.heap r).id = some cid.id)
    (hno : ∀ p, p ∈ l1 → (s.heap p).id ≠ some cid.id)
    {fuel : Nat} (hf : l1.length < fuel) (wr : Int) :
    try_from_cache fuel s wr cid
      = some { rc := if wr < 0 then -1 else 1,
               sent := some (block_bytes (s.heap r)),
               st := { s with heap := promote_lru s.heap (s.head cid.index) r } } := by
  have hr0 : r ≠ 0 := hR.ne_null hidx (by rw [he]; simp)
  obtain ⟨h1, h2, h3, h4⟩ := hQ
  have hm : s.list_mutex cid.index ≠ 0 := by rw [h4 _ hidx]; decide
  obtain ⟨heap, brk, head, lm, rc, ts, ws, rm⟩ := s
  simp only at h1 h2 h3 h4 hm he hr hno
  subst h1 h2 h3
  have hR2 : Rep ⟨heap, brk, head, lm, 1, ts, 0, 1⟩ L := hR.congr rfl rfl rfl
  have := search_lru_hit hR2 cid hidx hm he hr hno hf
  unfold try_from_cache
  simp only at this
  simp only [← block_bytes_promote heap (head cid.index) r r]
  simp [P, V, this, hr0]
  split <;> simp

/-- A miss in a quiescent cache: the result code is `0`, nothing is written and
the state is the one before the call. -/
theorem try_from_cache_miss {s : State} {L : Nat → List Ptr} (hR : Rep s L) (hQ : Quiescent s)
    (cid : cid_t) (hidx : cid.index < HASHSIZE)
    (hno : ∀ p, p ∈ L cid.index → (s.heap p).id ≠ some cid.id)
    {fuel : Nat} (hf : (L cid.index).length < fuel) (wr : Int) :
    try_from_cache fuel s wr cid = some { rc := 0, sent := none, st := s } := by
  obtain ⟨h1, h2, h3, h4⟩ := hQ
  have hm : s.list_mutex cid.index ≠ 0 := by rw [h4 _ hidx]; decide
  obtain ⟨heap, brk, head, lm, rc, ts, ws, rm⟩ := s
  simp only at h1 h2 h3 h4 hm hno
  subst h1 h2 h3
  have hR2 : Rep ⟨heap, brk, head, lm, 1, ts, 0, 1⟩ L := hR.congr rfl rfl rfl
  have := search_lru_miss hR2 cid hidx hm hno hf
  unfold try_from_cache
  simp [P, V, this]

/-! ## Initialisation -/

theorem init_list_fields (s : State) (i : Nat) :
    (init_list s i).brk = s.brk + 1 ∧ (init_list s i).head i = s.brk
      ∧ (∀ j, j ≠ i → (init_list s i).head j = s.head j)
      ∧ (init_list s i).list_mutex i = 1
      ∧ (∀ j, j ≠ i → (init_list s i).list_mutex j = s.list_mutex j)
      ∧ (∀ x, x ≠ s.brk → (init_list s i).heap x = s.heap x)
      ∧ ((init_list s i).heap s.brk).next = s.brk ∧ ((init_list s i).heap s.brk).prev = s.brk
      ∧ ((init_list s i).heap s.brk).id = none ∧ ((init_list s i).heap s.brk).content = none
      ∧ (init_list s i).readcnt = s.readcnt ∧ (init_list s i).total_size = s.total_size
      ∧ (init_list s i).write_sem = s.write_sem ∧ (init_list s i).rcnt_mutex = s.rcnt_mutex := by
  refine ⟨rfl, by simp [init_list, malloc], ?_, by simp [init_list, malloc], ?_, ?_,
    by simp [init_list, malloc], by simp [init_list, malloc],
    by simp [init_list, malloc, init_block], by simp [init_list, malloc, init_block],
    rfl, rfl, rfl, rfl⟩
  · intro j hj; simp [init_list, malloc, hj]
  · intro j hj; simp [init_list, malloc, hj]
  · intro x hx
    simp [init_list, malloc, set_prev, set_next, hx, init_block_other _ _ _ _ _ _ hx]

theorem init_list_inv {n : Nat} {s : State} (h : InitInv n s) : InitInv (n + 1) (init_list s n) := by
  obtain ⟨f1, f2, f3, f4, f5, f6, f7, f8, f9, f10, _, _, _, _⟩ := init_list_fields s n
  have hold : ∀ i, i < n → (init_list s n).head i = s.head i ∧ s.head i ≠ s.brk := by
    intro i hi
    refine ⟨f3 i (by omega), ?_⟩
    have := (h.alloc i hi _ rfl).2
    exact Nat.ne_of_lt this
  have hcase : ∀ i, i < n + 1 → i < n ∨ i = n := by intro i hi; omega
  constructor
  · intro i hi
    rcases hcase i hi with hi | hi
    · obtain ⟨e1, e2⟩ := hold i hi
      rw [e1]
      have := h.seg i hi
      exact ⟨by rw [f6 _ e2]; exact this.1, by rw [f6 _ e2]; exact this.2⟩
    · subst hi
      rw [f2]
      exact ⟨f7, f8⟩
  · intro i hi p hp
    rcases hcase i hi with hi | hi
    · obtain ⟨e1, e2⟩ := hold i hi
      rw [e1] at hp
      rw [f1]
      have := h.alloc i hi p hp
      omega
    · subst hi
      rw [f2] at hp
      rw [f1]
      have := h.brk_pos
      omega
  · intro i j hi hj hij
    rcases hcase i hi with hi | hi <;> rcases hcase j hj with hj | hj
    · rw [(hold i hi).1, (hold j hj).1]; exact h.inj i j hi hj hij
    · subst hj; rw [(hold i hi).1, f2]; exact (hold i hi).2
    · subst hi; rw [(hold j hj).1, f2]; exact fun e => (hold j hj).2 e.symm
    · omega
  · intro i hi
    rcases hcase i hi with hi | hi
    · obtain ⟨e1, e2⟩ := hold i hi
      rw [e1, f6 _ e2]
      exact h.sentinel i hi
    · subst hi
      rw [f2]
      exact ⟨f9, f10⟩
  · intro i hi
    rcases hcase i hi with hi | hi
    · rw [f5 i (by omega)]; exact h.mutex i hi
    · subst hi; exact f4
  · rw [f1]; omega

theorem init_lists_inv (k : Nat) {n : Nat} {s : State} (h : InitInv n s) :
    InitInv (n + k) (init_lists k n s)
      ∧ (init_lists k n s).readcnt = s.readcnt ∧ (init_lists k n s).total_size = s.total_size
      ∧ (init_lists k n s).write_sem = s.write_sem
      ∧ (init_lists k n s).rcnt_mutex = s.rcnt_mutex := by
  induction k generalizing n s with
  | zero => exact ⟨h, rfl, rfl, rfl, rfl⟩
  | succ k ih =>
    obtain ⟨g1, g2, g3, g4, g5⟩ := ih (init_list_inv h)
    obtain ⟨_, _, _, _, _, _, _, _, _, _, f11, f12, f13, f14⟩ := init_list_fields s n
    have e : n + (k + 1) = n + 1 + k := by omega
    rw [e]
    simp only [init_lists]
    exact ⟨g1, g2.trans f11, g3.trans f12, g4.trans f13, g5.trans f14⟩

theorem InitInv.rep {s : State} (h : InitInv HASHSIZE s) : Rep s (fun _ => []) := by
  constructor
  · exact h.seg
  · intro i _; simp
  · intro i j hi hj hij p hp hp2
    simp only [List.mem_singleton] at hp hp2
    exact h.inj i j hi hj hij (hp.symm.trans hp2)
  · intro i hi p hp
    simp only [List.mem_singleton] at hp
    exact h.alloc i hi p hp
  · exact h.sentinel

/-- After `init_cache` the cache is empty, well formed and quiescent, and
`total_size` is `0`; the result code is `0`. -/
theorem init_cache_spec (s : State) (hb : 0 < s.brk) :
    (init_cache s).1 = 0 ∧ Rep (init_cache s).2 (fun _ => []) ∧ Quiescent (init_cache s).2
      ∧ (init_cache s).2.total_size = 0 := by
  have h0 : InitInv 0 { s with readcnt := 0, total_size := 0, rcnt_mutex := 1, write_sem := 1 } := by
    constructor
    · intro i hi; exact absurd hi (Nat.not_lt_zero i)
    · intro i hi; exact absurd hi (Nat.not_lt_zero i)
    · intro i j hi; exact absurd hi (Nat.not_lt_zero i)
    · intro i hi; exact absurd hi (Nat.not_lt_zero i)
    · intro i hi; exact absurd hi (Nat.not_lt_zero i)
    · exact hb
  obtain ⟨g1, g2, g3, g4, g5⟩ := init_lists_inv HASHSIZE h0
  rw [Nat.zero_add] at g1
  simp only [init_cache, true_and]
  exact ⟨g1.rep, ⟨g4, g5, g2, g1.mutex⟩, g3⟩

/-! ## More fuel does not change a result -/

theorem search_lru_mono (fuel k : Nat) (s : State) (cid : cid_t) (x : Ptr × State)
    (h : search_lru fuel s cid = some x) : search_lru (fuel + k) s cid = some x := by
  unfold search_lru at h ⊢
  cases hP : P (s.list_mutex cid.index) with
  | none => simp [hP] at h
  | some m =>
    simp only [hP, Option.bind_eq_bind, Option.some_bind] at h ⊢
    cases hl : search_loop s.heap (s.head cid.index) cid.id fuel
        (s.heap (s.head cid.index)).next with
    | none => simp [hl] at h
    | some bp =>
      rw [search_loop_mono _ _ _ _ k _ _ hl]
      rw [hl] at h
      exact h

theorem try_from_cache_mono (fuel k : Nat) (s : State) (wr : Int) (cid : cid_t) (x : Lookup)
    (h : try_from_cache fuel s wr cid = some x) :
    try_from_cache (fuel + k) s wr cid = some x := by
  unfold try_from_cache at h ⊢
  cases hP : P s.rcnt_mutex with
  | none => simp [hP] at h
  | some m =>
    simp only [hP, Option.bind_eq_bind, Option.some_bind] at h ⊢
    by_cases hc : s.readcnt + 1 = 1
    · simp only [hc, if_true] at h ⊢
      cases hW : P s.write_sem with
      | none => simp [hW] at h
      | some w =>
        simp only [hW, Option.map_some', Option.some_bind] at h ⊢
        cases hS : search_lru fuel
            { s with rcnt_mutex := V m, readcnt := 1, write_sem := w } cid with
        | none =>
          exfalso
          revert h
          simp [hS]
        | some y =>
          have := search_lru_mono fuel k _ cid y hS
          simp only [this, Option.some_bind]
          simp only [hS, Option.some_bind] at h
          exact h
    · simp only [hc, if_false, Option.some_bind] at h ⊢
      cases hS : search_lru fuel
          { s with rcnt_mutex := V m, readcnt := s.readcnt + 1 } cid with
      | none =>
        exfalso
        revert h
        simp [hS]
      | some y =>
        have := search_lru_mono fuel k _ cid y hS
        simp only [this, Option.some_bind]
        simp only [hS, Option.some_bind] at h
        exact h

/-! ## Conversions -/

theorem to_int_of_range {z : Int} (h1 : -2147483648 ≤ z) (h2 : z < 2147483648) : to_int z = z := by
  unfold to_int; omega

theorem to_size_t_of_range {z : Int} (h1 : 0 ≤ z) (h2 : z < 18446744073709551616) :
    to_size_t z = z := by
  unfold to_size_t; omega

theorem to_int_to_size_t (z : Int) : to_int (to_size_t z) = to_int z := by
  unfold to_int to_size_t; omega

theorem to_int_add_to_size_t (z : Int) (n : Int) :
    to_int (to_size_t (to_size_t z + n)) = to_int (z + n) := by
  unfold to_int to_size_t; omega

theorem to_int_lt (z : Int) : to_int z < 2147483648 := by
  unfold to_int; omega

theorem to_int_ge (z : Int) : -2147483648 ≤ to_int z := by
  unfold to_int; omega

/-! ## Consistent states are kept consistent -/

theorem list_size_nonneg {h : Heap} {l : List Ptr} (hs : ∀ p, p ∈ l → 0 ≤ (h p).size) :
    0 ≤ list_size h l := by
  unfold list_size
  apply List.sum_nonneg
  intro x hx
  obtain ⟨p, hp, rfl⟩ := List.mem_map.mp hx
  exact hs p hp

theorem linked_size_nonneg {h : Heap} {L : Nat → List Ptr} (hs : Sized h L) :
    0 ≤ linked_size h L := by
  rw [linked_size_eq]
  apply Finset.sum_nonneg
  intro i hi
  exact list_size_nonneg (hs i (Finset.mem_range.mp hi))

theorem Good.total_nonneg {s : State} {L : Nat → List Ptr} (hG : Good s L) :
    0 ≤ s.total_size := by
  rw [hG.sum]; exact linked_size_nonneg hG.sized

/-- The state reached by some iterations of the eviction loop, started while
the write lock is held, is consistent once the lock is released. -/
theorem evict_run_good {s : State} {L : Nat → List Ptr} (hR : Rep s L)
    (hsum : s.total_size = linked_size s.heap L) (hsz : Sized s.heap L)
    (n : Nat) {i : Nat} (hi : i < HASHSIZE) :
    ∃ L2, Rep (evict_run n s i) L2
      ∧ (evict_run n s i).total_size = linked_size (evict_run n s i).heap L2
      ∧ Sized (evict_run n s i).heap L2
      ∧ (evict_run n s i).total_size ≤ s.total_size
      ∧ (∀ j, j < HASHSIZE → L2 j <:+ L j)
      ∧ (∀ j, j < HASHSIZE → ∀ x, x ∈ L2 j →
          ((evict_run n s i).heap x).id = (s.heap x).id
          ∧ ((evict_run n s i).heap x).content = (s.heap x).content
          ∧ ((evict_run n s i).heap x).size = (s.heap x).size) := by
  obtain ⟨L2, h1, h2, h3, h4⟩ := evict_run_rep hR n hi
  have hsz2 : Sized (evict_run n s i).heap L2 := by
    intro j hj p hp
    rw [(h4 j hj p hp).2.2]
    exact hsz j hj p ((h2 j hj).subset hp)
  have hsum2 : (evict_run n s i).total_size = linked_size (evict_run n s i).heap L2 := by
    rw [hsum] at h3; omega
  refine ⟨L2, h1, hsum2, hsz2, ?_, h2, h4⟩
  have e1 : linked_size (evict_run n s i).heap L2 = linked_size s.heap L2 :=
    linked_size_congr (fun j hj p hp => (h4 j hj p hp).2.2)
  have e2 : linked_size s.heap L2 ≤ linked_size s.heap L := by
    rw [linked_size_eq, linked_size_eq]
    apply Finset.sum_le_sum
    intro j hj
    have hj2 := Finset.mem_range.mp hj
    obtain ⟨t, ht⟩ := h2 j hj2
    rw [← ht, list_size_append]
    have : 0 ≤ list_size s.heap t := by
      apply list_size_nonneg
      intro p hp
      exact hsz j hj2 p (by rw [← ht]; exact List.mem_append_left _ hp)
    omega
  rw [hsum2, hsum, e1]
  exact e2

theorem hash_index_lt (str : List Nat) : hash_index str < HASHSIZE := by
  unfold hash_index
  exact Nat.mod_lt _ (by decide)

theorem gen_cid_index_lt (host port path : List Nat) :
    (gen_cid host port path).index < HASHSIZE := by
  unfold gen_cid
  exact hash_index_lt _

/-- Linking a new object of `size` bytes that fits: the state is consistent
again and `total_size` has grown by `size`. -/
theorem link_new_good {cap : Int} (hcap : cap < 2147483648) {s2 : State}
    {L2 : Nat → List Ptr} (hR : Rep s2 L2)
    (hsum : s2.total_size = linked_size s2.heap L2) (hsz : Sized s2.heap L2)
    (hw : s2.write_sem = 0) (hrm : s2.rcnt_mutex = 1) (hrc : s2.readcnt = 0)
    (hlm : ∀ i, i < HASHSIZE → s2.list_mutex i = 1)
    (cid : cid_t) (hidx : cid.index < HASHSIZE) (content : Option (List Nat)) (size : Nat)
    (hsize : size < 2147483648) (hc : content = none → size = 0)
    (hfit : s2.total_size + size ≤ cap) :
    Good (link_new s2 cid content size)
        (Function.update L2 cid.index (L2 cid.index ++ [s2.brk]))
      ∧ (link_new s2 cid content size).total_size = s2.total_size + size := by
  obtain ⟨h1, h2, h3, h4, h5⟩ := link_new_rep hR cid hidx content size
  have hnn : 0 ≤ s2.total_size := by rw [hsum]; exact linked_size_nonneg hsz
  have htot : (link_new s2 cid content size).total_size = s2.total_size + size := by
    show to_int (to_size_t (to_size_t s2.total_size + size)) = s2.total_size + size
    rw [to_int_add_to_size_t]
    apply to_int_of_range <;> omega
  have hnew : ((link_new s2 cid content size).heap s2.brk).size = size := by
    rw [h4]
    cases content with
    | none => simp [hc rfl]
    | some c =>
      by_cases h0 : size = 0
      · simp [h0]
      · simp only [Option.isSome_some, ne_eq, h0, not_false_eq_true, and_self, if_true]
        apply to_int_of_range <;> omega
  have hold : ∀ j, j < HASHSIZE → ∀ x, x ∈ L2 j → x ≠ s2.brk := by
    intro j hj x hx e
    have := (hR.alloc j hj x (List.mem_cons_of_mem _ hx)).2
    rw [e] at this
    exact lt_irrefl _ this
  refine ⟨⟨h1, ?_, ?_, ?_, ?_⟩, htot⟩
  · exact ⟨by simp [link_new, hw, V], hrm, hrc, hlm⟩
  · rw [htot, linked_size_update _ _ _ hidx, list_size_append, list_size_cons, hnew]
    have : linked_size (link_new s2 cid content size).heap L2 = linked_size s2.heap L2 :=
      linked_size_congr (fun j hj x hx => (h2 x (hold j hj x hx)).2.2)
    rw [this, hsum]
    simp only [list_size, List.map_nil, List.sum_nil]
    ring
  · intro j hj p hp
    by_cases hji : j = cid.index
    · subst hji
      rw [Function.update_same] at hp
      rcases List.mem_append.mp hp with hp | hp
      · rw [(h2 p (hold _ hj p hp)).2.2]; exact hsz _ hj p hp
      · simp only [List.mem_singleton] at hp
        rw [hp, hnew]
        omega
    · rw [Function.update_noteq hji] at hp
      rw [(h2 p (hold _ hj p hp)).2.2]; exact hsz _ hj p hp
  · rw [htot]; omega

/-- An insertion that returns leaves a consistent state, when the object fits
the `int` size field. -/
theorem update_cache_good {cap : Int} (hcap0 : 0 ≤ cap) (hcap : cap < 2147483648) {s : State}
    {L : Nat → List Ptr} (hG : Good s L) (fuel : Nat) (cid : cid_t) (hidx : cid.index < HASHSIZE)
    (content : Option (List Nat)) (size : Nat)
    (hsize : size < 2147483648) (hc : content = none → size = 0)
    {r : Int × State} (hr : update_cache cap fuel s cid content size = some r) :
    ∃ L2, Good r.2 L2 := by
  have hq := hG.quiet
  have hnn := hG.total_nonneg
  have hint := hG.int
  rw [update_cache_eq, hq.write_sem] at hr
  have hR1 : Rep { s with write_sem := 0 } L := hG.rep.congr rfl rfl rfl
  simp only [P, Nat.one_ne_zero, if_false, Nat.sub_self, Option.bind_eq_bind, Option.some_bind] at hr
  by_cases hcond : to_size_t (to_size_t s.total_size + size) > to_size_t cap
  · simp only [hcond, if_true] at hr
    cases he : evict_to_fit cap fuel { s with write_sem := 0 } (to_int size) with
    | none => simp [he] at hr
    | some s2 =>
      simp only [he, Option.some_bind, Option.some.injEq] at hr
      obtain ⟨m, _, hs2, hfit, _⟩ := (evict_loop_eq_some _ _ _ _ _ _).mp he
      obtain ⟨L2, g1, g2, g3, g4, _, _⟩ :=
        @evict_run_good _ _ hR1 hG.sum hG.sized m 0 (by decide)
      rw [← hs2] at g1 g2 g3 g4 hfit
      have hsz : to_int (size : Int) = size := by apply to_int_of_range <;> omega
      rw [hsz] at hfit
      have := (link_new_good hcap g1 g2 g3 (by rw [hs2]; simp) (by rw [hs2]; simp [hq.rcnt_mutex])
        (by rw [hs2]; simp [hq.readcnt]) (by rw [hs2]; simpa using hq.list_mutex)
        cid hidx content size hsize hc hfit).1
      rw [← hr]
      exact ⟨_, this⟩
  · simp only [hcond, if_false, Option.some_bind, Option.some.injEq] at hr
    have hfit : s.total_size + size ≤ cap := by
      unfold to_size_t at hcond
      omega
    have := (link_new_good hcap hR1 hG.sum hG.sized rfl hq.rcnt_mutex hq.readcnt hq.list_mutex
      cid hidx content size hsize hc hfit).1
    rw [← hr]
    exact ⟨_, this⟩

@[simp] theorem promote_lru_size (h : Heap) (hd r x : Ptr) :
    (promote_lru h hd r x).size = (h x).size := by
  rw [promote_lru_eq]; simp

@[simp] theorem promote_lru_id (h : Heap) (hd r x : Ptr) :
    (promote_lru h hd r x).id = (h x).id := by
  rw [promote_lru_eq]; simp

@[simp] theorem promote_lru_content (h : Heap) (hd r x : Ptr) :
    (promote_lru h hd r x).content = (h x).content := by
  rw [promote_lru_eq]; simp

/-- Promotion keeps a consistent state consistent. -/
theorem promote_good {s : State} {L : Nat → List Ptr} (hG : Good s L) {i : Nat}
    (hi : i < HASHSIZE) {r : Ptr} {l1 l2 : List Ptr} (he : L i = l1 ++ r :: l2) :
    Good { s with heap := promote_lru s.heap (s.head i) r }
      (Function.update L i (l1 ++ l2 ++ [r])) := by
  refine ⟨promote_rep hG.rep hi he, ?_, ?_, ?_, hG.int⟩
  · exact ⟨hG.quiet.write_sem, hG.quiet.rcnt_mutex, hG.quiet.readcnt, hG.quiet.list_mutex⟩
  · show s.total_size = linked_size (promote_lru s.heap (s.head i) r) _
    have e1 : linked_size (promote_lru s.heap (s.head i) r) (Function.update L i (l1 ++ l2 ++ [r]))
        = linked_size s.heap (Function.update L i (l1 ++ l2 ++ [r])) :=
      linked_size_congr (fun _ _ _ _ => promote_lru_size _ _ _ _)
    have e2 : list_size s.heap (l1 ++ l2 ++ [r]) = list_size s.heap (l1 ++ r :: l2) := by
      simp only [list_size, List.map_append, List.sum_append, List.map_cons, List.sum_cons,
        List.map_nil, List.sum_nil]
      ring
    rw [e1, linked_size_update _ _ _ hi, he, e2, hG.sum]
    ring
  · intro j hj p hp
    show 0 ≤ (promote_lru s.heap (s.head i) r p).size
    rw [promote_lru_size]
    by_cases hji : j = i
    · subst hji
      rw [Function.update_same] at hp
      apply hG.sized j hj p
      rw [he]
      simp only [List.mem_append, List.mem_cons, List.mem_singleton, List.not_mem_nil,
        or_false] at hp ⊢
      tauto
    · rw [Function.update_noteq hji] at hp
      exact hG.sized j hj p hp

/-- What a lookup that returns yields in a consistent state: either the first
entry of the bucket with the key, promoted, or a miss that changes nothing. -/
theorem try_from_cache_cases {s : State} {L : Nat → List Ptr} (hG : Good s L) (fuel : Nat)
    (wr : Int) (cid : cid_t) (hidx : cid.index < HASHSIZE) {x : Lookup}
    (hx : try_from_cache fuel s wr cid = some x) :
    (∃ r l1 l2, L cid.index = l1 ++ r :: l2 ∧ (s.heap r).id = some cid.id
        ∧ (∀ p, p ∈ l1 → (s.heap p).id ≠ some cid.id)
        ∧ x = { rc := if wr < 0 then -1 else 1, sent := some (block_bytes (s.heap r)),
                st := { s with heap := promote_lru s.heap (s.head cid.index) r } })
      ∨ ((∀ p, p ∈ L cid.index → (s.heap p).id ≠ some cid.id)
        ∧ x = { rc := 0, sent := none, st := s }) := by
  by_cases hex : ∃ p, p ∈ L cid.index ∧ (s.heap p).id = some cid.id
  · left
    obtain ⟨l1, r, l2, he, hr, hno⟩ := first_match_split _ _ hex
    refine ⟨r, l1, l2, he, hr, hno, ?_⟩
    have h1 := try_from_cache_mono fuel (l1.length + 1) s wr cid x hx
    rw [try_from_cache_hit hG.rep hG.quiet cid hidx he hr hno (by omega) wr] at h1
    exact (Option.some.inj h1).symm
  · right
    have hno : ∀ p, p ∈ L cid.index → (s.heap p).id ≠ some cid.id := by
      intro p hp e
      exact hex ⟨p, hp, e⟩
    refine ⟨hno, ?_⟩
    have h1 := try_from_cache_mono fuel ((L cid.index).length + 1) s wr cid x hx
    rw [try_from_cache_miss hG.rep hG.quiet cid hidx hno (by omega) wr] at h1
    exact (Option.some.inj h1).symm

theorem try_from_cache_good {s : State} {L : Nat → List Ptr} (hG : Good s L) (fuel : Nat)
    (wr : Int) (cid : cid_t) (hidx : cid.index < HASHSIZE) {x : Lookup}
    (hx : try_from_cache fuel s wr cid = some x) : ∃ L2, Good x.st L2 := by
  rcases try_from_cache_cases hG fuel wr cid hidx hx with ⟨r, l1, l2, he, _, _, e⟩ | ⟨_, e⟩
  · rw [e]
    exact ⟨_, promote_good hG hidx he⟩
  · rw [e]
    exact ⟨L, hG⟩

theorem evict_to_fit_good {s : State} {L : Nat → List Ptr} (hG : Good s L) (cap : Int)
    (fuel : Nat) (size : Int) {s2 : State} (h : evict_to_fit cap fuel s size = some s2) :
    ∃ L2, Good s2 L2 := by
  obtain ⟨m, _, hs2, _, _⟩ := (evict_loop_eq_some _ _ _ _ _ _).mp h
  obtain ⟨L2, g1, g2, g3, g4, _, _⟩ :=
    @evict_run_good _ _ hG.rep hG.sum hG.sized m 0 (by decide)
  rw [← hs2] at g1 g2 g3 g4
  refine ⟨L2, g1, ?_, g2, g3, lt_of_le_of_lt g4 hG.int⟩
  rw [hs2]
  exact ⟨by simpa using hG.quiet.write_sem, by simpa using hG.quiet.rcnt_mutex,
    by simpa using hG.quiet.readcnt, by simpa using hG.quiet.list_mutex⟩

theorem init_cache_good (s : State) (hb : 0 < s.brk) : Good (init_cache s).2 (fun _ => []) := by
  obtain ⟨_, h1, h2, h3⟩ := init_cache_spec s hb
  refine ⟨h1, h2, ?_, ?_, by rw [h3]; decide⟩
  · rw [h3, linked_size_of_empty _ (fun _ _ => rfl)]
  · intro j _ p hp
    simp at hp

theorem step_good {cap : Int} (hcap0 : 0 ≤ cap) (hcap : cap < 2147483648) (fuel : Nat)
    {s : State} {L : Nat → List Ptr} (hG : Good s L) (op : Op) (hop : op.fits_int)
    {s2 : State} (h : step cap fuel s op = some s2) : ∃ L2, Good s2 L2 := by
  cases op with
  | init =>
    simp only [step, Option.some.injEq] at h
    rw [← h]
    exact ⟨_, init_cache_good s hG.rep.brk_pos⟩
  | lookup wr host port path =>
    simp only [step, Option.map_eq_some'] at h
    obtain ⟨x, hx, e⟩ := h
    rw [← e]
    exact try_from_cache_good hG fuel wr _ (gen_cid_index_lt _ _ _) hx
  | insert host port path content size =>
    simp only [step, Option.map_eq_some'] at h
    obtain ⟨x, hx, e⟩ := h
    rw [← e]
    exact update_cache_good hcap0 hcap hG fuel _ (gen_cid_index_lt _ _ _) content size
      hop.1 hop.2 hx
  | evict size =>
    exact evict_to_fit_good hG cap fuel size h

theorem run_good {cap : Int} (hcap0 : 0 ≤ cap) (hcap : cap < 2147483648) (fuel : Nat)
    (ops : List Op) (hops : ∀ op, op ∈ ops → op.fits_int)
    {s : State} {L : Nat → List Ptr} (hG : Good s L)
    {s2 : State} (h : run cap fuel ops s = some s2) : ∃ L2, Good s2 L2 := by
  induction ops generalizing s L with
  | nil =>
    simp only [run, Option.some.injEq] at h
    exact ⟨L, h ▸ hG⟩
  | cons op ops ih =>
    simp only [run] at h
    cases hs : step cap fuel s op with
    | none => simp [hs] at h
    | some s1 =>
      rw [hs] at h
      obtain ⟨L1, hG1⟩ := step_good hcap0 hcap fuel hG op (hops op (by simp)) hs
      exact ih (fun o ho => hops o (List.mem_cons_of_mem _ ho)) hG1 h

/-! ## The represented lists are determined by the state -/

theorem Seg_unique {h : Heap} {a b : Ptr} {l l2 : List Ptr}
    (h1 : Seg h a l b) (h2 : Seg h a l2 b) (hb : b ∉ l) (hb2 : b ∉ l2) : l = l2 := by
  induction l generalizing a l2 with
  | nil =>
    cases l2 with
    | nil => rfl
    | cons p l2 =>
      exfalso
      apply hb2
      have e : p = b := h2.1.symm.trans h1.1
      simp [e]
  | cons p l ih =>
    cases l2 with
    | nil =>
      exfalso
      apply hb
      have e : p = b := h1.1.symm.trans h2.1
      simp [e]
    | cons q l2 =>
      have e : p = q := h1.1.symm.trans h2.1
      subst e
      congr 1
      exact ih h1.2.2 h2.2.2 (fun hm => hb (List.mem_cons_of_mem _ hm))
        (fun hm => hb2 (List.mem_cons_of_mem _ hm))

theorem Rep.unique {s : State} {L L2 : Nat → List Ptr} (h1 : Rep s L) (h2 : Rep s L2) :
    ∀ i, i < HASHSIZE → L i = L2 i := by
  intro i hi
  exact Seg_unique (h1.seg i hi) (h2.seg i hi) (List.nodup_cons.mp (h1.nodup i hi)).1
    (List.nodup_cons.mp (h2.nodup i hi)).1

theorem Rep.linked_size_unique {s : State} {L L2 : Nat → List Ptr} (h1 : Rep s L)
    (h2 : Rep s L2) : linked_size s.heap L = linked_size s.heap L2 := by
  rw [linked_size_eq, linked_size_eq]
  apply Finset.sum_congr rfl
  intro i hi
  rw [h1.unique h2 i (Finset.mem_range.mp hi)]

/-! ## Insertions that return -/

/-- An insertion that fits without eviction returns, whatever the fuel. -/
theorem update_cache_fit {cap : Int} (hcap : cap < 2147483648) {s : State}
    (hw : s.write_sem = 1) (hnn : 0 ≤ s.total_size) (fuel : Nat) (cid : cid_t)
    (content : Option (List Nat)) (size : Nat) (hfit : s.total_size + size ≤ cap) :
    update_cache cap fuel s cid content size
      = some (0, link_new { s with write_sem := 0 } cid content size) := by
  have hcond : ¬ to_size_t (to_size_t s.total_size + size) > to_size_t cap := by
    unfold to_size_t; omega
  rw [update_cache_eq, hw]
  simp [P, hcond]

/-- An insertion whose call of `evict_to_fit`, if any, finds its loop test
false at once links the new block to the state as it is. -/
theorem update_cache_no_eviction {cap : Int} {s : State} (hw : s.write_sem = 1) (fuel : Nat)
    (cid : cid_t) (content : Option (List Nat)) (size : Nat)
    (h : ¬ to_size_t (to_size_t s.total_size + size) > to_size_t cap
      ∨ (0 < fuel ∧ s.total_size + to_int size ≤ cap)) :
    update_cache cap fuel s cid content size
      = some (0, link_new { s with write_sem := 0 } cid content size) := by
  rw [update_cache_eq, hw]
  by_cases hcond : to_size_t (to_size_t s.total_size + size) > to_size_t cap
  · rcases h with h | ⟨hf, h⟩
    · exact absurd hcond h
    · obtain ⟨f, rfl⟩ : ∃ f, fuel = f + 1 := ⟨fuel - 1, by omega⟩
      have : ¬ s.total_size + to_int size > cap := by omega
      simp [P, hcond, evict_to_fit, evict_loop, this]
  · simp [P, hcond]

/-- The sum of the linked sizes after linking a new block. -/
theorem link_new_linked_size {s2 : State} {L : Nat → List Ptr} (hR : Rep s2 L) (cid : cid_t)
    (hidx : cid.index < HASHSIZE) (content : Option (List Nat)) (size : Nat) :
    linked_size (link_new s2 cid content size).heap
        (Function.update L cid.index (L cid.index ++ [s2.brk]))
      = linked_size s2.heap L + (if content.isSome ∧ size ≠ 0 then to_int size else 0) := by
  obtain ⟨_, h2, _, h4, _⟩ := link_new_rep hR cid hidx content size
  have hold : ∀ j, j < HASHSIZE → ∀ x, x ∈ L j → x ≠ s2.brk := by
    intro j hj x hx e
    have := (hR.alloc j hj x (List.mem_cons_of_mem _ hx)).2
    rw [e] at this
    exact lt_irrefl _ this
  have : linked_size (link_new s2 cid content size).heap L = linked_size s2.heap L :=
    linked_size_congr (fun j hj x hx => (h2 x (hold j hj x hx)).2.2)
  rw [linked_size_update _ _ _ hidx, list_size_append, list_size_cons, h4, this]
  simp only [list_size, List.map_nil, List.sum_nil]
  ring

/-! ## C1: `total_size` is the sum of the linked sizes -/

theorem empty_cache_good : Good empty_cache (fun _ => []) :=
  init_cache_good boot (by decide)

theorem empty_locked_rep : Rep empty_locked (fun _ => []) := by
  have h := empty_cache_good.rep
  unfold empty_locked
  generalize empty_cache = s at h ⊢
  exact h.congr rfl rfl rfl

theorem empty_cache_total : empty_cache.total_size = 0 :=
  (init_cache_spec boot (by decide)).2.2.2

theorem empty_cache_eq : (init_cache boot).2 = empty_cache := rfl

attribute [irreducible] empty_cache

/-- C1 (as amended).  Start from the empty cache that `init_cache` builds and
run any sequence of `init_cache`, `try_from_cache`, `update_cache` and
`evict_to_fit` calls in which every `update_cache` passes an object that fits
the `int` size field (a non-`NULL` buffer unless the size is `0`, and a size
below `2 ^ 31`).  If the calls return, the buckets of the final state are well
formed lists `L` and `total_size` equals the sum of the `size` fields of the
entries linked in them. -/
theorem C1_total_size_eq_linked_sum (fuel : Nat) (s0 : State) (hb : 0 < s0.brk)
    (ops : List Op) (hops : ∀ op, op ∈ ops → op.fits_int) (s : State)
    (hrun : run MAX_CACHE_SIZE fuel ops (init_cache s0).2 = some s) :
    ∃ L, Rep s L ∧ s.total_size = linked_size s.heap L := by
  obtain ⟨L, hG⟩ := @run_good MAX_CACHE_SIZE (by decide) (by decide) fuel ops hops _ _
    (init_cache_good s0 hb) _ hrun
  exact ⟨L, hG.rep, hG.sum⟩

theorem link_new_total_size (s2 : State) (cid : cid_t) (content : Option (List Nat))
    (size : Nat) :
    (link_new s2 cid content size).total_size
      = to_int (to_size_t (to_size_t s2.total_size + size)) := rfl

theorem link_new_write_sem (s2 : State) (cid : cid_t) (content : Option (List Nat))
    (size : Nat) : (link_new s2 cid content size).write_sem = V s2.write_sem := rfl

theorem empty_locked_total : empty_locked.total_size = 0 := empty_cache_total

theorem key_a_index : key_a.index < HASHSIZE := gen_cid_index_lt _ _ _

theorem key_b_index : key_b.index < HASHSIZE := gen_cid_index_lt _ _ _

/-- In a state that represents `L` with a known sum of linked sizes different
from `total_size`, no representation makes the two agree. -/
theorem no_sum_of_rep {s : State} {L : Nat → List Ptr} (hR : Rep s L)
    (hne : s.total_size ≠ linked_size s.heap L) :
    ¬ ∃ L2, Rep s L2 ∧ s.total_size = linked_size s.heap L2 := by
  rintro ⟨L2, h2, e⟩
  exact hne (e.trans (h2.linked_size_unique hR))

theorem run_one_insert (cap : Int) (fuel : Nat) (s : State) (host port path : List Nat)
    (content : Option (List Nat)) (size : Nat) :
    run cap fuel [Op.insert host port path content size] s
      = (update_cache cap fuel s (gen_cid host port path) content size).map (fun r => r.2) := by
  simp only [run, step]
  cases update_cache cap fuel s (gen_cid host port path) content size <;> rfl

theorem run_two_inserts (cap : Int) (fuel : Nat) (s s1 : State) (h1 p1 q1 h2 p2 q2 : List Nat)
    (c1 c2 : Option (List Nat)) (n1 n2 : Nat)
    (hfirst : update_cache cap fuel s (gen_cid h1 p1 q1) c1 n1 = some (0, s1)) :
    run cap fuel [Op.insert h1 p1 q1 c1 n1, Op.insert h2 p2 q2 c2 n2] s
      = (update_cache cap fuel s1 (gen_cid h2 p2 q2) c2 n2).map (fun r => r.2) := by
  simp only [run, step, hfirst, Option.map_some', Option.some_bind]
  cases update_cache cap fuel s1 (gen_cid h2 p2 q2) c2 n2 <;> rfl

theorem C1_total_size_eq_linked_sum_witness :
    ∃ L, Rep (link_new empty_locked key_a (some [1, 2, 3]) 3) L
      ∧ (link_new empty_locked key_a (some [1, 2, 3]) 3).total_size
          = linked_size (link_new empty_locked key_a (some [1, 2, 3]) 3).heap L :=
  C1_total_size_eq_linked_sum 1 boot (by decide)
    [Op.insert [97] [56, 48] [47] (some [1, 2, 3]) 3]
    (by intro op hop; simp only [List.mem_singleton] at hop; subst hop; simp [Op.fits_int])
    (link_new empty_locked key_a (some [1, 2, 3]) 3)
    (by
      rw [empty_cache_eq, run_one_insert, update_cache_no_eviction
        empty_cache_good.quiet.write_sem 1 _ (some [1, 2, 3]) 3
        (Or.inl (by rw [empty_cache_total]; decide))]
      rfl)

/-- C1, counterexample.  Two runs from the empty cache after which `total_size`
is not the sum of the linked sizes, whatever lists one reads the buckets as:
one call `update_cache(cp, cid, NULL, 5)` leaves an entry of size `0` and
`total_size = 5`; two insertions of `2 ^ 31` bytes leave two entries whose
`int` size fields are `-2 ^ 31` each and `total_size = 0`. -/
theorem C1_counterexample_null_or_huge_object :
    (run MAX_CACHE_SIZE 1 [Op.insert [97] [56, 48] [47] none 5] (init_cache boot).2
        = some after_null_insert
      ∧ ¬ ∃ L, Rep after_null_insert L
          ∧ after_null_insert.total_size = linked_size after_null_insert.heap L)
    ∧ (run MAX_CACHE_SIZE 1
          [Op.insert [97] [56, 48] [47] (some huge) 2147483648,
           Op.insert [98] [56, 48] [47] (some huge) 2147483648] (init_cache boot).2
        = some after_two_huge_inserts
      ∧ ¬ ∃ L, Rep after_two_huge_inserts L
          ∧ after_two_huge_inserts.total_size = linked_size after_two_huge_inserts.heap L) := by
  have hw := empty_cache_good.quiet.write_sem
  have hL0 : linked_size empty_locked.heap (fun _ => ([] : List Ptr)) = 0 :=
    linked_size_of_empty _ (fun _ _ => rfl)
  refine ⟨⟨?_, ?_⟩, ⟨?_, ?_⟩⟩
  · rw [empty_cache_eq, run_one_insert, update_cache_no_eviction hw 1 _ none 5
      (Or.inl (by rw [empty_cache_total]; decide))]
    rfl
  · apply no_sum_of_rep (link_new_rep empty_locked_rep key_a key_a_index none 5).1
    rw [link_new_linked_size empty_locked_rep key_a key_a_index, link_new_total_size,
      empty_locked_total, hL0]
    decide
  · rw [empty_cache_eq]
    have h1 : update_cache MAX_CACHE_SIZE 1 empty_cache (gen_cid [97] [56, 48] [47])
        (some huge) 2147483648 = some (0, after_huge_insert) :=
      update_cache_no_eviction hw 1 _ (some huge) 2147483648
        (Or.inr ⟨by decide, by rw [empty_cache_total]; decide⟩)
    rw [run_two_inserts _ _ _ _ _ _ _ _ _ _ _ _ _ _ h1]
    have hw1 : after_huge_insert.write_sem = 1 := rfl
    have ht1 : after_huge_insert.total_size = -2147483648 := by
      unfold after_huge_insert
      rw [link_new_total_size, empty_locked_total]
      decide
    rw [update_cache_no_eviction hw1 1 _ (some huge) 2147483648
      (Or.inl (by rw [ht1]; decide))]
    rfl
  · have hRa := (link_new_rep empty_locked_rep key_a key_a_index (some huge) 2147483648).1
    have hRa2 : Rep { after_huge_insert with write_sem := 0 } _ := hRa.congr rfl rfl rfl
    apply no_sum_of_rep (link_new_rep hRa2 key_b key_b_index (some huge) 2147483648).1
    rw [link_new_linked_size hRa2 key_b key_b_index, link_new_total_size]
    show to_int (to_size_t (to_size_t after_huge_insert.total_size + _))
      ≠ linked_size after_huge_insert.heap _ + _
    unfold after_huge_insert
    rw [link_new_linked_size empty_locked_rep key_a key_a_index, link_new_total_size,
      empty_locked_total, hL0]
    decide

/-! ## C2: the capacity bounds `total_size` after an insertion -/

theorem to_int_add_to_int (a n : Int) : to_int (a + to_int n) = to_int (a + n) := by
  unfold to_int; omega

theorem empty_cache_sized : Sized empty_cache.heap (fun _ => []) := empty_cache_good.sized

/-- The value `update_cache` leaves in `total_size`, in a state whose buckets
are well formed with entries of non-negative size and whose `total_size` is
the sum of the linked sizes, is at most the capacity. -/
theorem update_cache_total_le {cap : Int} (hcap0 : 0 ≤ cap) (hcap : cap < 2147483648)
    (fuel : Nat) {s : State} {L : Nat → List Ptr} (hR : Rep s L)
    (hsum : s.total_size = linked_size s.heap L) (hsz : Sized s.heap L)
    (cid : cid_t) (content : Option (List Nat)) (size : Nat) {r : Int × State}
    (hret : update_cache cap fuel s cid content size = some r) :
    r.2.total_size ≤ cap := by
  rw [update_cache_eq] at hret
  cases hP : P s.write_sem with
  | none => simp [hP] at hret
  | some w =>
    simp only [hP, Option.bind_eq_bind, Option.some_bind] at hret
    by_cases hcond : to_size_t (to_size_t s.total_size + size) > to_size_t cap
    · simp only [hcond, if_true] at hret
      cases he : evict_to_fit cap fuel { s with write_sem := w } (to_int size) with
      | none => simp [he] at hret
      | some s2 =>
        simp only [he, Option.some_bind, Option.some.injEq] at hret
        obtain ⟨m, _, hs2, hfit, _⟩ := (evict_loop_eq_some _ _ _ _ _ _).mp he
        have hR1 : Rep { s with write_sem := w } L := hR.congr rfl rfl rfl
        obtain ⟨L2, _, g2, g3, _, _, _⟩ :=
          @evict_run_good _ _ hR1 hsum hsz m 0 (by decide)
        rw [← hs2] at g2 g3 hfit
        have hnn : 0 ≤ s2.total_size := by rw [g2]; exact linked_size_nonneg g3
        rw [← hret, link_new_total_size, to_int_add_to_size_t, ← to_int_add_to_int]
        have := to_int_ge (size : Int)
        rw [to_int_of_range (by omega) (by omega)]
        exact hfit
    · simp only [hcond, if_false, Option.some_bind, Option.some.injEq] at hret
      rw [← hret, link_new_total_size]
      show to_int (to_size_t (to_size_t s.total_size + size)) ≤ cap
      have h1 : to_size_t cap = cap := to_size_t_of_range hcap0 (by omega)
      rw [h1] at hcond
      have h2 : 0 ≤ to_size_t (to_size_t s.total_size + size) := by
        unfold to_size_t; omega
      rw [to_int_of_range (by omega) (by omega)]
      omega

/-- C2.  For every cache state (well-formed buckets whose entries have
non-negative sizes) in which `total_size` equals the sum of the linked entry
sizes, and every insertion, of any content and any `size`, that returns:
`total_size <= MAX_CACHE_SIZE` when `update_cache` returns. -/
theorem C2_total_size_le_capacity (fuel : Nat) (s : State) (L : Nat → List Ptr)
    (hR : Rep s L) (hsum : s.total_size = linked_size s.heap L) (hsz : Sized s.heap L)
    (cid : cid_t) (content : Option (List Nat)) (size : Nat) (r : Int × State)
    (hret : update_cache MAX_CACHE_SIZE fuel s cid content size = some r) :
    r.2.total_size ≤ MAX_CACHE_SIZE :=
  update_cache_total_le (by decide) (by decide) fuel hR hsum hsz cid content size hret

theorem C2_total_size_le_capacity_witness :
    ((0 : Int), link_new empty_locked key_a (some [1, 2, 3]) 3).2.total_size ≤ MAX_CACHE_SIZE :=
  C2_total_size_le_capacity 1 empty_cache (fun _ => []) empty_cache_good.rep
    empty_cache_good.sum empty_cache_sized key_a (some [1, 2, 3]) 3
    (0, link_new empty_locked key_a (some [1, 2, 3]) 3)
    (update_cache_no_eviction empty_cache_good.quiet.write_sem 1 key_a (some [1, 2, 3]) 3
      (Or.inl (by rw [empty_cache_total]; decide)))

/-! ## Insertions return -/

/-- Whether `update_cache` calls `evict_to_fit`, for a `total_size` and a size
that are values of type `int`. -/
theorem update_cache_test {cap : Int} (hcap0 : 0 ≤ cap) (hcap : cap < 2147483648)
    {total : Int} (h0 : 0 ≤ total) (h1 : total < 2147483648) {size : Nat}
    (h2 : size < 2147483648) :
    to_size_t (to_size_t total + size) > to_size_t cap ↔ total + size > cap := by
  unfold to_size_t; omega

/-- In a consistent state an insertion of at most `cap` bytes returns as soon
as the fuel exceeds the number `m` of iterations of the eviction loop, which is
the least number after which the object fits and at most `HASHSIZE` per linked
entry; the new block is linked to the state those iterations leave. -/
theorem update_cache_returns {cap : Int} (hcap0 : 0 ≤ cap) (hcap : cap < 2147483648)
    {s : State} {L : Nat → List Ptr} (hG : Good s L) (cid : cid_t)
    (content : Option (List Nat)) (size : Nat) (hsize : (size : Int) ≤ cap) :
    ∃ m, m ≤ HASHSIZE * linked_count L
      ∧ (evict_run m { s with write_sem := 0 } 0).total_size + size ≤ cap
      ∧ (∀ k, k < m → (evict_run k { s with write_sem := 0 } 0).total_size + size > cap)
      ∧ ∀ fuel, m < fuel → update_cache cap fuel s cid content size
          = some (0, link_new (evict_run m { s with write_sem := 0 } 0) cid content size) := by
  classical
  have hR1 : Rep { s with write_sem := 0 } L := hG.rep.congr rfl rfl rfl
  have hex : ∃ m, m ≤ HASHSIZE * linked_count L
      ∧ (evict_run m { s with write_sem := 0 } 0).total_size + size ≤ cap :=
    @evict_run_fits cap size hsize _ _ hR1 hG.sum 0 (by decide)
  have hex2 : ∃ m, (evict_run m { s with write_sem := 0 } 0).total_size + (size : Int) ≤ cap := by
    obtain ⟨m, _, h⟩ := hex
    exact ⟨m, h⟩
  have hmin : ∀ k, k < Nat.find hex2 →
      (evict_run k { s with write_sem := 0 } 0).total_size + size > cap := by
    intro k hk
    have := Nat.find_min hex2 hk
    omega
  have hle : Nat.find hex2 ≤ HASHSIZE * linked_count L := by
    obtain ⟨m, hm, h⟩ := hex
    exact le_trans (Nat.find_min' hex2 h) hm
  refine ⟨Nat.find hex2, hle, Nat.find_spec hex2, hmin, ?_⟩
  intro fuel hfuel
  have hsz : to_int (size : Int) = size := by apply to_int_of_range <;> omega
  rw [update_cache_eq, hG.quiet.write_sem]
  simp only [P, Nat.one_ne_zero, if_false, Nat.sub_self, Option.bind_eq_bind, Option.some_bind]
  by_cases hcond : to_size_t (to_size_t s.total_size + size) > to_size_t cap
  · simp only [hcond, if_true]
    have : evict_to_fit cap fuel { s with write_sem := 0 } (to_int size)
        = some (evict_run (Nat.find hex2) { s with write_sem := 0 } 0) := by
      rw [hsz]
      exact (evict_loop_eq_some _ _ _ _ _ _).mpr
        ⟨Nat.find hex2, hfuel, rfl, Nat.find_spec hex2, hmin⟩
    rw [this]
    rfl
  · simp only [hcond, if_false, Option.some_bind]
    have hfit : s.total_size + size ≤ cap := by
      have := (update_cache_test hcap0 hcap hG.total_nonneg hG.int (by omega : size < 2147483648)).not.mp hcond
      omega
    have h0 : Nat.find hex2 = 0 := by
      apply Nat.eq_zero_of_le_zero
      apply Nat.find_min' hex2
      simpa [evict_run] using hfit
    rw [h0]
    rfl

/-- The state an insertion leaves: each bucket keeps a final part of its list,
the bucket of the key gets the new block `s.brk` as its last entry, the entries
that stay keep key, content and size, and the state is consistent. -/
theorem insert_facts {cap : Int} (hcap : cap < 2147483648)
    {s : State} {L : Nat → List Ptr} (hG : Good s L) (cid : cid_t) (hidx : cid.index < HASHSIZE)
    (content : Option (List Nat)) (size : Nat) (hsize : size < 2147483648)
    (hc : content = none → size = 0) (m : Nat)
    (hfit : (evict_run m { s with write_sem := 0 } 0).total_size + size ≤ cap) :
    ∃ L2, (∀ j, j < HASHSIZE → L2 j <:+ L j)
      ∧ Rep (evict_run m { s with write_sem := 0 } 0) L2
      ∧ Good (link_new (evict_run m { s with write_sem := 0 } 0) cid content size)
          (Function.update L2 cid.index (L2 cid.index ++ [s.brk]))
      ∧ (∀ j, j < HASHSIZE → ∀ x, x ∈ L2 j →
          ((link_new (evict_run m { s with write_sem := 0 } 0) cid content size).heap x).id
            = (s.heap x).id
          ∧ ((link_new (evict_run m { s with write_sem := 0 } 0) cid content size).heap x).content
            = (s.heap x).content
          ∧ ((link_new (evict_run m { s with write_sem := 0 } 0) cid content size).heap x).size
            = (s.heap x).size)
      ∧ ((link_new (evict_run m { s with write_sem := 0 } 0) cid content size).heap s.brk).id
          = some cid.id
      ∧ ((link_new (evict_run m { s with write_sem := 0 } 0) cid content size).heap s.brk).size
          = size
      ∧ ((link_new (evict_run m { s with write_sem := 0 } 0) cid content size).heap s.brk).content
          = (if size = 0 then none else content.map (fun c => c.take size))
      ∧ (link_new (evict_run m { s with write_sem := 0 } 0) cid content size).total_size
          = (evict_run m { s with write_sem := 0 } 0).total_size + size := by
  have hR1 : Rep { s with write_sem := 0 } L := hG.rep.congr rfl rfl rfl
  obtain ⟨L2, g1, g2, g3, _, g5, g6⟩ := @evict_run_good _ _ hR1 hG.sum hG.sized m 0 (by decide)
  have hbrk : (evict_run m { s with write_sem := 0 } 0).brk = s.brk := by simp
  obtain ⟨k1, k2⟩ := link_new_good hcap g1 g2 g3 (by simp) (by simp [hG.quiet.rcnt_mutex])
    (by simp [hG.quiet.readcnt]) (by simpa using hG.quiet.list_mutex)
    cid hidx content size hsize hc hfit
  obtain ⟨_, r2, r3, r4, r5⟩ := link_new_rep g1 cid hidx content size
  rw [hbrk] at k1 r3 r4 r5
  refine ⟨L2, g5, g1, k1, ?_, r3, ?_, ?_, k2⟩
  · intro j hj x hx
    have hx2 : x ≠ (evict_run m { s with write_sem := 0 } 0).brk := by
      intro e
      have := (g1.alloc j hj x (List.mem_cons_of_mem _ hx)).2
      rw [e] at this
      exact lt_irrefl _ this
    obtain ⟨a1, a2, a3⟩ := r2 x hx2
    obtain ⟨b1, b2, b3⟩ := g6 j hj x hx
    exact ⟨a1.trans b1, a2.trans b2, a3.trans b3⟩
  · rw [r4]
    cases content with
    | none => simp [hc rfl]
    | some c =>
      by_cases h0 : size = 0
      · simp [h0]
      · simp only [Option.isSome_some, ne_eq, h0, not_false_eq_true, and_self, if_true]
        apply to_int_of_range <;> omega
  · rw [r5]
    cases content with
    | none => simp [init_block]
    | some c =>
      by_cases h0 : size = 0
      · simp [h0, init_block]
      · simp [h0, init_block]

/-! ## C3: inserting and looking up -/

theorem block_bytes_eq {b : block_t} {c : List Nat} {n : Nat} (hc : b.content = some c)
    (hs : b.size = n) (hn : n < 18446744073709551616) : block_bytes b = c.take n := by
  unfold block_bytes
  rw [hc, hs]
  have : (to_size_t (n : Int)).toNat = n := by
    rw [to_size_t_of_range (by omega) (by omega)]
    simp
  simp [this]

/-- Inserting an object under a key that is not cached, then looking the key
up: the insertion returns, the lookup finds the new block, whose content is the
object, and hands exactly the object to the client. -/
theorem insert_then_lookup {cap : Int} (hcap0 : 0 ≤ cap) (hcap : cap < 2147483648)
    {s : State} {L : Nat → List Ptr} (hG : Good s L) (cid : cid_t) (hidx : cid.index < HASHSIZE)
    (B : List Nat) (hB : B ≠ []) (hlen : (B.length : Int) ≤ cap)
    (hnew : ∀ p, p ∈ L cid.index → (s.heap p).id ≠ some cid.id) :
    ∃ N s1 bp, bp ≠ 0 ∧ (s1.heap bp).content = some B ∧ (s1.heap bp).size = (B.length : Int)
      ∧ ∀ fuel, N ≤ fuel →
        update_cache cap fuel s cid (some B) B.length = some (0, s1)
        ∧ (∃ s2, search_lru fuel s1 cid = some (bp, s2))
        ∧ ∀ wr, ∃ st, try_from_cache fuel s1 wr cid
            = some { rc := if wr < 0 then -1 else 1, sent := some B, st := st } := by
  have hlen2 : B.length < 2147483648 := by omega
  have hpos : B.length ≠ 0 := fun e => hB (List.length_eq_zero.mp e)
  obtain ⟨m, _, hfit, _, hret⟩ := update_cache_returns hcap0 hcap hG cid (some B) B.length hlen
  obtain ⟨L2, f1, _, f2, f3, f4, f5, f6, _⟩ :=
    insert_facts hcap hG cid hidx (some B) B.length hlen2 (by simp) m hfit
  have hcontent : ((link_new (evict_run m { s with write_sem := 0 } 0) cid (some B)
      B.length).heap s.brk).content = some B := by
    rw [f6]; simp [hpos]
  have he : Function.update L2 cid.index (L2 cid.index ++ [s.brk]) cid.index
      = L2 cid.index ++ s.brk :: [] := by
    rw [Function.update_same]
  have hno : ∀ p, p ∈ L2 cid.index →
      ((link_new (evict_run m { s with write_sem := 0 } 0) cid (some B) B.length).heap p).id
        ≠ some cid.id := by
    intro p hp
    rw [(f3 _ hidx p hp).1]
    exact hnew p ((f1 _ hidx).subset hp)
  have hm : (link_new (evict_run m { s with write_sem := 0 } 0) cid (some B)
      B.length).list_mutex cid.index ≠ 0 := by
    rw [f2.quiet.list_mutex _ hidx]; decide
  have hlen3 : (L2 cid.index).length ≤ (L cid.index).length := (f1 _ hidx).length_le
  refine ⟨m + (L cid.index).length + 2, _, s.brk, ?_, hcontent, f5, ?_⟩
  · exact f2.rep.ne_null hidx (by rw [he]; simp)
  · intro fuel hfuel
    refine ⟨hret fuel (by omega), ⟨_, search_lru_hit f2.rep cid hidx hm he f4 hno (by omega)⟩, ?_⟩
    intro wr
    have hh := try_from_cache_hit f2.rep f2.quiet cid hidx he f4 hno
      (by omega : (L2 cid.index).length < fuel) wr
    rw [block_bytes_eq hcontent f5 (by omega), List.take_length] at hh
    exact ⟨_, hh⟩

/-- C3 (as amended).  For every consistent cache state (every state reached
from the empty cache by calls whose objects fit the `int` size field is
consistent), every key `K` built by `gen_cid` such that no entry with the id of
`K` is linked in the bucket of `K`, and every non-empty byte string `B` with
length `<= MAX_OBJECT_SIZE`: with enough fuel `update_cache(K, B)` returns, and
a lookup of `K` that follows it is a hit: `search_lru` returns the new block,
whose content is `B` and whose size is the length of `B`, and `try_from_cache`
hands exactly `B` to the client, with result `1`, or `-1` when the write to the
client fails. -/
theorem C3_insert_then_lookup_returns_object (s : State) (L : Nat → List Ptr) (hG : Good s L)
    (host port path : List Nat) (B : List Nat) (hB : B ≠ [])
    (hlen : B.length ≤ MAX_OBJECT_SIZE)
    (hnew : ∀ p, p ∈ L (gen_cid host port path).index →
      (s.heap p).id ≠ some (gen_cid host port path).id) :
    ∃ N s1 bp, bp ≠ 0 ∧ (s1.heap bp).content = some B ∧ (s1.heap bp).size = (B.length : Int)
      ∧ ∀ fuel, N ≤ fuel →
        update_cache MAX_CACHE_SIZE fuel s (gen_cid host port path) (some B) B.length
          = some (0, s1)
        ∧ (∃ s2, search_lru fuel s1 (gen_cid host port path) = some (bp, s2))
        ∧ ∀ wr, ∃ st, try_from_cache fuel s1 wr (gen_cid host port path)
            = some { rc := if wr < 0 then -1 else 1, sent := some B, st := st } :=
  @insert_then_lookup MAX_CACHE_SIZE (by decide) (by decide) s L hG _ (gen_cid_index_lt _ _ _)
    B hB (by unfold MAX_OBJECT_SIZE at hlen; unfold MAX_CACHE_SIZE; omega) hnew

theorem C3_insert_then_lookup_returns_object_witness :
    ∃ N s1 bp, bp ≠ 0 ∧ (s1.heap bp).content = some [1, 2, 3]
      ∧ (s1.heap bp).size = ((([1, 2, 3] : List Nat).length : Nat) : Int)
      ∧ ∀ fuel, N ≤ fuel →
        update_cache MAX_CACHE_SIZE fuel empty_cache (gen_cid [97] [56, 48] [47])
            (some [1, 2, 3]) ([1, 2, 3] : List Nat).length = some (0, s1)
        ∧ (∃ s2, search_lru fuel s1 (gen_cid [97] [56, 48] [47]) = some (bp, s2))
        ∧ ∀ wr, ∃ st, try_from_cache fuel s1 wr (gen_cid [97] [56, 48] [47])
            = some { rc := if wr < 0 then -1 else 1, sent := some [1, 2, 3], st := st } :=
  C3_insert_then_lookup_returns_object empty_cache (fun _ => []) empty_cache_good
    [97] [56, 48] [47] [1, 2, 3] (by decide) (by decide) (by intro p hp; simp at hp)

theorem empty_locked_good_parts :
    Rep empty_locked (fun _ => []) ∧ empty_locked.total_size = linked_size empty_locked.heap (fun _ => [])
      ∧ Sized empty_locked.heap (fun _ => []) ∧ empty_locked.write_sem = 0
      ∧ empty_locked.rcnt_mutex = 1 ∧ empty_locked.readcnt = 0
      ∧ ∀ i, i < HASHSIZE → empty_locked.list_mutex i = 1 :=
  ⟨empty_locked_rep, empty_cache_good.sum, empty_cache_good.sized, rfl,
    empty_cache_good.quiet.rcnt_mutex, empty_cache_good.quiet.readcnt,
    empty_cache_good.quiet.list_mutex⟩

/-- The cache holding the byte `1` under `key_a`: its only entry is the block
`empty_locked.brk`. -/
theorem one_cached_facts :
    Good one_cached (Function.update (fun _ => []) key_a.index ([] ++ [empty_locked.brk]))
      ∧ one_cached.total_size = 1
      ∧ (one_cached.heap empty_locked.brk).id = some key_a.id
      ∧ (one_cached.heap empty_locked.brk).content = some [1]
      ∧ (one_cached.heap empty_locked.brk).size = 1 := by
  obtain ⟨h1, h2, h3, h4, h5, h6, h7⟩ := empty_locked_good_parts
  obtain ⟨g1, g2⟩ := @link_new_good MAX_CACHE_SIZE (by decide) _ _ h1 h2 h3 h4 h5 h6 h7 key_a
    key_a_index (some [1]) 1 (by decide) (by simp) (by rw [empty_locked_total]; decide)
  obtain ⟨_, _, r3, r4, r5⟩ := link_new_rep h1 key_a key_a_index (some [1]) 1
  refine ⟨g1, ?_, r3, ?_, ?_⟩
  · show (link_new empty_locked key_a (some [1]) 1).total_size = 1
    rw [g2, empty_locked_total]; rfl
  · show ((link_new empty_locked key_a (some [1]) 1).heap empty_locked.brk).content = some [1]
    rw [r5, init_block_content _ _ _ _ _ (by decide)]
    rfl
  · show ((link_new empty_locked key_a (some [1]) 1).heap empty_locked.brk).size = 1
    rw [r4]
    decide

/-- C3, counterexample.  The state `one_cached`, reached from the empty cache
by inserting the byte `1` under the key of `http://a/`, is one in which
`update_cache` of the byte `2` under the same key, followed by a lookup of that
key, hands the client the byte `1`: the older entry is found first. -/
theorem C3_counterexample_key_already_cached :
    run MAX_CACHE_SIZE 1 [Op.insert [97] [56, 48] [47] (some [1]) 1] (init_cache boot).2
        = some one_cached
      ∧ update_cache MAX_CACHE_SIZE 1 one_cached (gen_cid [97] [56, 48] [47]) (some [2]) 1
        = some (0, two_cached)
      ∧ ∃ st, try_from_cache 2 two_cached 0 (gen_cid [97] [56, 48] [47])
        = some { rc := 1, sent := some [1], st := st } := by
  obtain ⟨g1, g2, g3, g4, g5⟩ := one_cached_facts
  have hw := empty_cache_good.quiet.write_sem
  have hR2 : Rep { one_cached with write_sem := 0 } _ := g1.rep.congr rfl rfl rfl
  have hb : empty_locked.brk ≠ one_cached.brk := by
    have := (g1.rep.alloc _ key_a_index empty_locked.brk (by simp)).2
    exact Nat.ne_of_lt this
  obtain ⟨k1, _⟩ := @link_new_good MAX_CACHE_SIZE (by decide) _ _ hR2 g1.sum g1.sized rfl
    g1.quiet.rcnt_mutex g1.quiet.readcnt g1.quiet.list_mutex key_a key_a_index (some [2]) 1
    (by decide) (by simp) (by
      show one_cached.total_size + _ ≤ _
      rw [g2]; decide)
  obtain ⟨_, r2, _, _, _⟩ := link_new_rep hR2 key_a key_a_index (some [2]) 1
  obtain ⟨p1, p2, p3⟩ := r2 empty_locked.brk hb
  refine ⟨?_, ?_, ?_⟩
  · rw [empty_cache_eq, run_one_insert, update_cache_no_eviction hw 1 _ (some [1]) 1
      (Or.inl (by rw [empty_cache_total]; decide))]
    rfl
  · exact update_cache_no_eviction g1.quiet.write_sem 1 key_a (some [2]) 1
      (Or.inl (by rw [g2]; decide))
  · have he : Function.update (Function.update (fun _ => ([] : List Ptr)) key_a.index
        ([] ++ [empty_locked.brk])) key_a.index
        (Function.update (fun _ => ([] : List Ptr)) key_a.index ([] ++ [empty_locked.brk])
          key_a.index ++ [one_cached.brk]) key_a.index
        = [] ++ empty_locked.brk :: [one_cached.brk] := by
      simp
    have hh := try_from_cache_hit k1.rep k1.quiet key_a key_a_index he
      (p1.trans g3) (by intro p hp; simp at hp) (by simp : ([] : List Ptr).length < 2) 0
    have hbytes := @block_bytes_eq _ [1] 1 (p2.trans g4) (p3.trans g5) (by decide)
    rw [hbytes] at hh
    exact ⟨_, hh⟩

/-! ## C4: a lookup hits exactly the cached keys -/

/-- With fuel beyond the length of the bucket, a lookup in a consistent state
returns: a hit on the first entry of the bucket with the key, or a miss. -/
theorem try_from_cache_total {s : State} {L : Nat → List Ptr} (hG : Good s L) (cid : cid_t)
    (hidx : cid.index < HASHSIZE) (wr : Int) {fuel : Nat} (hf : (L cid.index).length < fuel) :
    (∃ r l1 l2, L cid.index = l1 ++ r :: l2 ∧ (s.heap r).id = some cid.id
        ∧ (∀ p, p ∈ l1 → (s.heap p).id ≠ some cid.id)
        ∧ try_from_cache fuel s wr cid
          = some { rc := if wr < 0 then -1 else 1, sent := some (block_bytes (s.heap r)),
                   st := { s with heap := promote_lru s.heap (s.head cid.index) r } })
      ∨ ((∀ p, p ∈ L cid.index → (s.heap p).id ≠ some cid.id)
        ∧ try_from_cache fuel s wr cid = some { rc := 0, sent := none, st := s }) := by
  by_cases hex : ∃ p, p ∈ L cid.index ∧ (s.heap p).id = some cid.id
  · left
    obtain ⟨l1, r, l2, he, hr, hno⟩ := first_match_split _ _ hex
    have hl : l1.length < fuel := by
      have : l1.length ≤ (L cid.index).length := by rw [he]; simp
      omega
    exact ⟨r, l1, l2, he, hr, hno, try_from_cache_hit hG.rep hG.quiet cid hidx he hr hno hl wr⟩
  · right
    have hno : ∀ p, p ∈ L cid.index → (s.heap p).id ≠ some cid.id := by
      intro p hp e
      exact hex ⟨p, hp, e⟩
    exact ⟨hno, try_from_cache_miss hG.rep hG.quiet cid hidx hno hf wr⟩

theorem key_x_ne_key_y : key_x.id ≠ key_y.id := by decide

/-- After inserting an object under one key into the empty cache, a lookup of
a key with another id is a miss that changes nothing. -/
theorem insert_then_other_key_misses (c1 c2 : cid_t) (hx : c1.index < HASHSIZE)
    (hy : c2.index < HASHSIZE) (hne : c1.id ≠ c2.id) (B : List Nat)
    (hB : B.length ≤ MAX_OBJECT_SIZE) :
    ∃ s1, update_cache MAX_CACHE_SIZE 1 empty_cache c1 (some B) B.length = some (0, s1)
      ∧ ∀ wr2, try_from_cache 2 s1 wr2 c2 = some { rc := 0, sent := none, st := s1 } := by
  obtain ⟨h1, h2, h3, h4, h5, h6, h7⟩ := empty_locked_good_parts
  have hB2 : B.length < 2147483648 := by unfold MAX_OBJECT_SIZE at hB; omega
  have hB3 : (0 : Int) + B.length ≤ MAX_CACHE_SIZE := by
    unfold MAX_OBJECT_SIZE at hB; unfold MAX_CACHE_SIZE; omega
  obtain ⟨g1, _⟩ := @link_new_good MAX_CACHE_SIZE (by decide) _ _ h1 h2 h3 h4 h5 h6 h7 c1
    hx (some B) B.length hB2 (by simp) (by rw [empty_locked_total]; exact hB3)
  obtain ⟨_, _, r3, _, _⟩ := link_new_rep h1 c1 hx (some B) B.length
  have hcond : ¬ to_size_t (to_size_t empty_cache.total_size + B.length)
      > to_size_t MAX_CACHE_SIZE := by
    rw [empty_cache_total]
    exact (@update_cache_test MAX_CACHE_SIZE (by decide) (by decide) 0 (le_refl _)
      (by decide) B.length hB2).not.mpr (not_lt.mpr hB3)
  have hu := update_cache_no_eviction empty_cache_good.quiet.write_sem 1 c1 (some B) B.length
    (Or.inl hcond)
  have hm : ∀ wr2, try_from_cache 2 (link_new empty_locked c1 (some B) B.length) wr2 c2
      = some { rc := 0, sent := none, st := link_new empty_locked c1 (some B) B.length } := by
    intro wr2
    apply try_from_cache_miss g1.rep g1.quiet c2 hy
    · intro p hp e
      by_cases hxy : c2.index = c1.index
      · rw [hxy, Function.update_same] at hp
        simp only [List.nil_append, List.mem_singleton] at hp
        rw [hp, r3] at e
        exact hne (Option.some.inj e)
      · rw [Function.update_noteq hxy] at hp
        simp at hp
    · by_cases hxy : c2.index = c1.index
      · rw [hxy, Function.update_same]; simp
      · rw [Function.update_noteq hxy]; simp
  exact ⟨_, hu, hm⟩

/-- C4 (as amended).  For every consistent cache state in which each entry is
linked in bucket `hash_index(entry.id)`, and every key `K` built by `gen_cid`:
`try_from_cache` returns a hit, that is `1`, or `-1` when the write to the
client fails, if and only if some linked entry has an id equal to `K.id`, and
returns a miss (`0`) otherwise; on a miss the whole state, so every bucket's
list and `total_size`, is unchanged and nothing is written.  In particular,
after inserting only key `a.com:80:/x` into the empty cache, looking up
`a.com:80:/y` is a miss. -/
theorem C4_lookup_hits_iff_key_cached (s : State) (L : Nat → List Ptr) (hG : Good s L)
    (hlink : ∀ i, i < HASHSIZE → ∀ p, p ∈ L i →
      ∃ id, (s.heap p).id = some id ∧ hash_index id = i)
    (host port path : List Nat) (wr : Int) (fuel : Nat)
    (hfuel : (L (gen_cid host port path).index).length < fuel) :
    (∃ x, try_from_cache fuel s wr (gen_cid host port path) = some x
      ∧ (x.rc = (if wr < 0 then -1 else 1) ↔
          ∃ i, i < HASHSIZE ∧ ∃ p, p ∈ L i ∧ (s.heap p).id = some (gen_cid host port path).id)
      ∧ (x.rc = 0 ↔
          ¬ ∃ i, i < HASHSIZE ∧ ∃ p, p ∈ L i ∧ (s.heap p).id = some (gen_cid host port path).id)
      ∧ (x.rc = 0 → x.st = s ∧ x.sent = none))
    ∧ (∀ B : List Nat, B.length ≤ MAX_OBJECT_SIZE →
        ∃ s1, update_cache MAX_CACHE_SIZE 1 empty_cache key_x (some B) B.length = some (0, s1)
          ∧ ∀ wr2, try_from_cache 2 s1 wr2 key_y = some { rc := 0, sent := none, st := s1 }) := by
  have hidx := gen_cid_index_lt host port path
  have hite : (if wr < 0 then (-1 : Int) else 1) ≠ 0 := by split <;> decide
  have hbucket : (∃ i, i < HASHSIZE ∧ ∃ p, p ∈ L i ∧ (s.heap p).id = some (gen_cid host port path).id)
      ↔ ∃ p, p ∈ L (gen_cid host port path).index
          ∧ (s.heap p).id = some (gen_cid host port path).id := by
    constructor
    · rintro ⟨i, hi, p, hp, e⟩
      obtain ⟨id, e1, e2⟩ := hlink i hi p hp
      have : id = (gen_cid host port path).id := Option.some.inj (e1.symm.trans e)
      have hi2 : i = (gen_cid host port path).index := by
        rw [← e2, this]; rfl
      exact ⟨p, hi2 ▸ hp, e⟩
    · rintro ⟨p, hp, e⟩
      exact ⟨_, hidx, p, hp, e⟩
  constructor
  · rcases try_from_cache_total hG _ hidx wr hfuel with ⟨r, l1, l2, he, hr, _, e⟩ | ⟨hno, e⟩
    · have hex : ∃ p, p ∈ L (gen_cid host port path).index
          ∧ (s.heap p).id = some (gen_cid host port path).id := ⟨r, by rw [he]; simp, hr⟩
      refine ⟨_, e, ?_, ?_, ?_⟩
      · rw [hbucket]; exact ⟨fun _ => hex, fun _ => rfl⟩
      · rw [hbucket]
        exact ⟨fun h => absurd h hite, fun h => absurd hex h⟩
      · intro h; exact absurd h hite
    · have hnex : ¬ ∃ p, p ∈ L (gen_cid host port path).index
          ∧ (s.heap p).id = some (gen_cid host port path).id := by
        rintro ⟨p, hp, e2⟩
        exact hno p hp e2
      refine ⟨_, e, ?_, ?_, ?_⟩
      · rw [hbucket]
        exact ⟨fun h => absurd h.symm hite, fun h => absurd h hnex⟩
      · rw [hbucket]; exact ⟨fun _ => hnex, fun _ => rfl⟩
      · intro _; exact ⟨rfl, rfl⟩
  · intro B hB
    exact insert_then_other_key_misses key_x key_y (gen_cid_index_lt _ _ _)
      (gen_cid_index_lt _ _ _) key_x_ne_key_y B hB

theorem gen_cid_index_eq (host port path : List Nat) :
    hash_index (gen_cid host port path).id = (gen_cid host port path).index := rfl

theorem single_bucket_length (i j : Nat) (x : Ptr) :
    (Function.update (fun _ => ([] : List Ptr)) i ([] ++ [x]) j).length < 2 := by
  by_cases h : j = i
  · rw [h, Function.update_same]; simp
  · rw [Function.update_noteq h]; simp

theorem single_bucket_mem {i j : Nat} {x p : Ptr}
    (hp : p ∈ Function.update (fun _ => ([] : List Ptr)) i ([] ++ [x]) j) : j = i ∧ p = x := by
  by_cases h : j = i
  · rw [h, Function.update_same] at hp
    simp only [List.nil_append, List.mem_singleton] at hp
    exact ⟨h, hp⟩
  · rw [Function.update_noteq h] at hp
    simp at hp

/-- In `one_cached` the only entry is linked in the bucket of its id. -/
theorem one_cached_linked (i : Nat) (_hi : i < HASHSIZE) (p : Ptr)
    (hp : p ∈ Function.update (fun _ => ([] : List Ptr)) key_a.index ([] ++ [empty_locked.brk]) i) :
    ∃ id, (one_cached.heap p).id = some id ∧ hash_index id = i := by
  obtain ⟨h1, h2⟩ := single_bucket_mem hp
  rw [h1, h2]
  exact ⟨key_a.id, one_cached_facts.2.2.1, gen_cid_index_eq _ _ _⟩

theorem C4_lookup_hits_iff_key_cached_witness :
    ∃ x, try_from_cache 2 one_cached 0 (gen_cid [98] [56, 48] [47]) = some x
      ∧ (x.rc = (if (0 : Int) < 0 then -1 else 1) ↔
          ∃ i, i < HASHSIZE ∧ ∃ p, p ∈ Function.update (fun _ => ([] : List Ptr)) key_a.index
              ([] ++ [empty_locked.brk]) i
            ∧ (one_cached.heap p).id = some (gen_cid [98] [56, 48] [47]).id)
      ∧ (x.rc = 0 ↔
          ¬ ∃ i, i < HASHSIZE ∧ ∃ p, p ∈ Function.update (fun _ => ([] : List Ptr)) key_a.index
              ([] ++ [empty_locked.brk]) i
            ∧ (one_cached.heap p).id = some (gen_cid [98] [56, 48] [47]).id)
      ∧ (x.rc = 0 → x.st = one_cached ∧ x.sent = none) :=
  (C4_lookup_hits_iff_key_cached one_cached _ one_cached_facts.1 one_cached_linked
    [98] [56, 48] [47] 0 2 (single_bucket_length _ _ _)).1

/-- C4, counterexample.  In `one_cached` the entry with the id of the key of
`http://a/` is linked, in the bucket of its id, and a lookup of that key whose
write to the client fails returns `-1`, not `1`. -/
theorem C4_counterexample_write_to_client_fails :
    Rep one_cached (Function.update (fun _ => []) key_a.index ([] ++ [empty_locked.brk]))
      ∧ empty_locked.brk
          ∈ Function.update (fun _ => ([] : List Ptr)) key_a.index ([] ++ [empty_locked.brk])
              (gen_cid [97] [56, 48] [47]).index
      ∧ (one_cached.heap empty_locked.brk).id = some (gen_cid [97] [56, 48] [47]).id
      ∧ hash_index (gen_cid [97] [56, 48] [47]).id = (gen_cid [97] [56, 48] [47]).index
      ∧ ∃ sent st, try_from_cache 2 one_cached (-1) (gen_cid [97] [56, 48] [47])
          = some { rc := -1, sent := sent, st := st } := by
  obtain ⟨g1, _, g3, _, _⟩ := one_cached_facts
  have he : Function.update (fun _ => ([] : List Ptr)) key_a.index ([] ++ [empty_locked.brk])
      key_a.index = [] ++ empty_locked.brk :: [] := by
    rw [Function.update_same]
  have hh := try_from_cache_hit g1.rep g1.quiet key_a key_a_index he g3
    (by intro p hp; simp at hp) (by simp : ([] : List Ptr).length < 2) (-1)
  refine ⟨g1.rep, ?_, g3, gen_cid_index_eq _ _ _, _, _, hh⟩
  show empty_locked.brk ∈ Function.update (fun _ => ([] : List Ptr)) key_a.index
    ([] ++ [empty_locked.brk]) key_a.index
  rw [he]
  simp

/-! ## C5: promotion -/

/-- Promotion writes only to nodes of the bucket it works on. -/
theorem promote_frame {s : State} {L : Nat → List Ptr} (hR : Rep s L) {i : Nat}
    (hi : i < HASHSIZE) {r : Ptr} {l1 l2 : List Ptr} (he : L i = l1 ++ r :: l2)
    (x : Ptr) (hx : x ∉ s.head i :: L i) :
    promote_lru s.heap (s.head i) r x = s.heap x := by
  have hs := hR.seg i hi
  have hnd := hR.nodup i hi
  rw [he] at hs hnd hx
  have hnd1 := List.nodup_cons.mp hnd
  have hnd3 := List.nodup_middle.mp hnd1.2
  have hnd0 : (s.head i :: (l1 ++ l2)).Nodup := by
    apply List.nodup_cons.mpr
    refine ⟨fun hm => hnd1.1 ?_, (List.nodup_cons.mp hnd3).2⟩
    simp only [List.mem_append, List.mem_cons] at hm ⊢
    tauto
  have hu : Seg (unlink s.heap r) (s.head i) (l1 ++ l2) (s.head i) := Seg_unlink hs hnd
  obtain ⟨hs1, hs2⟩ := Seg_append.mp hs
  have hprev : (s.heap r).prev = lastOf (s.head i) l1 := Seg_prev_last hs1
  have hnext : (s.heap r).next = (l2 ++ [s.head i]).head (by simp) := Seg_next_first hs2
  have hpm : (s.heap r).prev ∈ s.head i :: (l1 ++ r :: l2) := by
    rw [hprev]
    have := lastOf_mem (s.head i) l1
    simp only [List.mem_cons, List.mem_append] at this ⊢
    tauto
  have hnm : (s.heap r).next ∈ s.head i :: (l1 ++ r :: l2) := by
    rw [hnext]
    have := List.head_mem (l := l2 ++ [s.head i]) (by simp)
    simp only [List.mem_cons, List.mem_append, List.mem_singleton] at this ⊢
    tauto
  have hrp : r ≠ (s.heap r).prev := by
    rw [hprev]
    intro e
    have := lastOf_mem (s.head i) l1
    rw [← e] at this
    rcases List.mem_cons.mp this with e2 | hm
    · exact hnd1.1 (by simp [← e2])
    · exact (List.nodup_cons.mp hnd3).1 (List.mem_append_left _ hm)
  rw [promote_lru_eq]
  have hx1 : x ≠ r := fun e => hx (by simp [e])
  have hx2 : x ≠ s.head i := fun e => hx (by simp [e])
  have hx3 : x ≠ (unlink s.heap r (s.head i)).prev := by
    rw [Seg_prev_last hu]
    intro e
    have := lastOf_mem (s.head i) (l1 ++ l2)
    rw [← e] at this
    apply hx
    simp only [List.mem_cons, List.mem_append] at this ⊢
    tauto
  rw [push_back_other _ _ _ _ hx3 hx1 hx2]
  apply unlink_other _ _ _ _ _ hrp
  · exact fun e => hx (e ▸ hpm)
  · exact fun e => hx (e ▸ hnm)

theorem lastOf_append_cons (a : Ptr) (l : List Ptr) (r : Ptr) : lastOf a (l ++ [r]) = r :=
  lastOf_append_singleton a l r

/-- C5.  For every well-formed cache, every bucket index `K.index` whose lock is
free and every key `K` that matches some entry of that bucket: with fuel beyond
the length of the bucket, `search_lru(K)` returns the first matching entry `r`,
and afterwards the bucket's list is the list before the call, `l1 ++ r :: l2`,
with `r` removed from its position and placed last, immediately before the
sentinel: `l1 ++ l2 ++ [r]`.  All other entries keep their order, none is added
or lost, every other bucket has its list and all its blocks unchanged, every
block keeps key, content and size, and `total_size` is unchanged. -/
theorem C5_search_lru_promotes_match (fuel : Nat) (s : State) (L : Nat → List Ptr)
    (hR : Rep s L) (K : cid_t) (hidx : K.index < HASHSIZE) (hlock : s.list_mutex K.index ≠ 0)
    (hmatch : ∃ p, p ∈ L K.index ∧ (s.heap p).id = some K.id)
    (hfuel : (L K.index).length < fuel) :
    ∃ l1 r l2 s2, L K.index = l1 ++ r :: l2
      ∧ (s.heap r).id = some K.id ∧ (∀ p, p ∈ l1 → (s.heap p).id ≠ some K.id)
      ∧ search_lru fuel s K = some (r, s2)
      ∧ Rep s2 (Function.update L K.index (l1 ++ l2 ++ [r]))
      ∧ (s2.heap (s2.head K.index)).prev = r ∧ (s2.heap r).next = s2.head K.index
      ∧ (∀ j, j < HASHSIZE → j ≠ K.index → ∀ x, x ∈ s.head j :: L j → s2.heap x = s.heap x)
      ∧ (∀ x, (s2.heap x).id = (s.heap x).id ∧ (s2.heap x).content = (s.heap x).content
          ∧ (s2.heap x).size = (s.heap x).size)
      ∧ s2.head = s.head ∧ s2.total_size = s.total_size := by
  obtain ⟨l1, r, l2, he, hr, hno⟩ := first_match_split _ _ hmatch
  have hl : l1.length < fuel := by
    have : l1.length ≤ (L K.index).length := by rw [he]; simp
    omega
  have hR2 := promote_rep hR hidx he
  have hseg := hR2.seg K.index hidx
  rw [Function.update_same] at hseg
  refine ⟨l1, r, l2, _, he, hr, hno, search_lru_hit hR K hidx hlock he hr hno hl, hR2,
    ?_, ?_, ?_, ?_, rfl, rfl⟩
  · rw [Seg_prev_last hseg]
    exact lastOf_append_cons _ _ _
  · exact (Seg_append.mp hseg).2.1
  · intro j hj hji x hx
    exact promote_frame hR hidx he x (fun hm => hR.disj j K.index hj hidx hji x hx hm)
  · intro x
    exact ⟨promote_lru_id _ _ _ _, promote_lru_content _ _ _ _, promote_lru_size _ _ _ _⟩

/-! ## C6: insertion without eviction -/

/-- C6.  For every cache state (well-formed buckets, a `total_size` that is not
negative, the write lock free) and every insertion of a byte string `B` under a
key `K` with `total_size + |B| <= MAX_CACHE_SIZE`: `update_cache(K, B)` returns
`0` whatever the fuel, evicts nothing and leaves every existing entry of every
bucket in place and in the same order, with its key, content and size; the new
block, with id `K.id`, the bytes `B` and size `|B|`, is the last element of
bucket `K.index`, immediately before the sentinel; `total_size` grows by exactly
`|B|`.  Nothing is assumed about the keys already cached, so this holds as well
when an entry with the same id is cached: it stays where it is. -/
theorem C6_insert_without_eviction_appends (fuel : Nat) (s : State) (L : Nat → List Ptr)
    (hR : Rep s L) (hw : s.write_sem = 1) (h0 : 0 ≤ s.total_size)
    (K : cid_t) (hidx : K.index < HASHSIZE) (B : List Nat)
    (hfit : s.total_size + B.length ≤ MAX_CACHE_SIZE) :
    ∃ s2, update_cache MAX_CACHE_SIZE fuel s K (some B) B.length = some (0, s2)
      ∧ Rep s2 (Function.update L K.index (L K.index ++ [s.brk]))
      ∧ (∀ x, x ≠ s.brk → (s2.heap x).id = (s.heap x).id
          ∧ (s2.heap x).content = (s.heap x).content ∧ (s2.heap x).size = (s.heap x).size)
      ∧ (s2.heap s.brk).id = some K.id
      ∧ block_bytes (s2.heap s.brk) = B
      ∧ (B ≠ [] → (s2.heap s.brk).content = some B)
      ∧ (s2.heap s.brk).size = B.length
      ∧ (s2.heap (s2.head K.index)).prev = s.brk
      ∧ s2.head = s.head
      ∧ s2.total_size = s.total_size + B.length := by
  have hR1 : Rep { s with write_sem := 0 } L := hR.congr rfl rfl rfl
  have hB : B.length < 2147483648 := by unfold MAX_CACHE_SIZE at hfit; omega
  have hcond : ¬ to_size_t (to_size_t s.total_size + B.length) > to_size_t MAX_CACHE_SIZE := by
    have := (@update_cache_test MAX_CACHE_SIZE (by decide) (by decide) s.total_size h0
      (by unfold MAX_CACHE_SIZE at hfit; omega) B.length hB).not.mpr (not_lt.mpr hfit)
    exact this
  obtain ⟨r1, r2, r3, r4, r5⟩ := link_new_rep hR1 K hidx (some B) B.length
  have hsize : ((link_new { s with write_sem := 0 } K (some B) B.length).heap s.brk).size
      = B.length := by
    rw [r4]
    by_cases hz : B.length = 0
    · simp [hz]
    · simp only [Option.isSome_some, ne_eq, hz, not_false_eq_true, and_self, if_true]
      apply to_int_of_range <;> omega
  have hcontent : B ≠ [] →
      ((link_new { s with write_sem := 0 } K (some B) B.length).heap s.brk).content = some B := by
    intro hne
    have hz : B.length ≠ 0 := fun e => hne (List.length_eq_zero.mp e)
    rw [r5, init_block_content _ _ _ _ _ hz, List.take_length]
  have hseg := r1.seg K.index hidx
  rw [Function.update_same] at hseg
  refine ⟨_, update_cache_no_eviction hw fuel K (some B) B.length (Or.inl hcond), r1, r2, r3,
    ?_, hcontent, hsize, ?_, rfl, ?_⟩
  · by_cases hne : B = []
    · have hz : B.length = 0 := by rw [hne]; rfl
      have hc0 : ((link_new { s with write_sem := 0 } K (some B) B.length).heap s.brk).content
          = none := by
        rw [r5]; simp [init_block, hz]
      unfold block_bytes
      rw [hc0, hne]
    · have := block_bytes_eq (hcontent hne) hsize (by omega)
      rw [this, List.take_length]
  · rw [Seg_prev_last hseg]
    exact lastOf_append_cons _ _ _
  · rw [link_new_total_size]
    show to_int (to_size_t (to_size_t s.total_size + B.length)) = s.total_size + B.length
    rw [to_int_add_to_size_t]
    apply to_int_of_range <;> (unfold MAX_CACHE_SIZE at hfit; omega)

theorem C6_insert_without_eviction_appends_witness :
    ∃ s2, update_cache MAX_CACHE_SIZE 1 one_cached key_a (some [2])
          ([2] : List Nat).length = some (0, s2)
      ∧ Rep s2 (Function.update
          (Function.update (fun _ => ([] : List Ptr)) key_a.index ([] ++ [empty_locked.brk]))
          key_a.index
          (Function.update (fun _ => ([] : List Ptr)) key_a.index ([] ++ [empty_locked.brk])
            key_a.index ++ [one_cached.brk]))
      ∧ (∀ x, x ≠ one_cached.brk → (s2.heap x).id = (one_cached.heap x).id
          ∧ (s2.heap x).content = (one_cached.heap x).content
          ∧ (s2.heap x).size = (one_cached.heap x).size)
      ∧ (s2.heap one_cached.brk).id = some key_a.id
      ∧ block_bytes (s2.heap one_cached.brk) = [2]
      ∧ (([2] : List Nat) ≠ [] → (s2.heap one_cached.brk).content = some [2])
      ∧ (s2.heap one_cached.brk).size = ((([2] : List Nat).length : Nat) : Int)
      ∧ (s2.heap (s2.head key_a.index)).prev = one_cached.brk
      ∧ s2.head = one_cached.head
      ∧ s2.total_size = one_cached.total_size + ((([2] : List Nat).length : Nat) : Int) :=
  C6_insert_without_eviction_appends 1 one_cached _ one_cached_facts.1.rep
    one_cached_facts.1.quiet.write_sem (by rw [one_cached_facts.2.1]; decide) key_a key_a_index
    [2] (by rw [one_cached_facts.2.1]; decide)

/-! ## C7: least recently used within a bucket -/

/-- Successive evictions from a bucket remove its entries from the front. -/
theorem evict_from_rep {s : State} {L : Nat → List Ptr} (hR : Rep s L) {i : Nat}
    (hi : i < HASHSIZE) (n : Nat) :
    Rep (evict_from i n s) (Function.update L i ((L i).drop n)) := by
  induction n generalizing s L with
  | zero =>
    simp only [evict_from, List.drop_zero, Function.update_eq_self]
    exact hR
  | succ n ih =>
    have h1 := (evict_step_rep hR hi).1
    have h2 := ih h1
    rw [Function.update_same, Function.update_idem, List.drop_tail] at h2
    exact h2

/-- A sequence of lookups of keys cached in bucket `i` returns and permutes
the bucket; every block keeps its key. -/
theorem search_seq_rep (fuel : Nat) {i : Nat} (hi : i < HASHSIZE) (ks : List cid_t)
    {s : State} {L : Nat → List Ptr} (hR : Rep s L) (hlock : s.list_mutex i ≠ 0)
    (hks : ∀ c, c ∈ ks → c.index = i ∧ ∃ p, p ∈ L i ∧ (s.heap p).id = some c.id)
    (hfuel : (L i).length < fuel) :
    ∃ s1 l, search_seq fuel s ks = some s1 ∧ Rep s1 (Function.update L i l)
      ∧ l.Perm (L i) ∧ (∀ x, (s1.heap x).id = (s.heap x).id)
      ∧ s1.list_mutex = s.list_mutex := by
  induction ks generalizing s L with
  | nil =>
    exact ⟨s, L i, rfl, by rw [Function.update_eq_self]; exact hR, List.Perm.refl _,
      fun _ => rfl, rfl⟩
  | cons k ks ih =>
    obtain ⟨hk1, hk2⟩ := hks k (by simp)
    subst hk1
    obtain ⟨l1, r, l2, he, hr, hno⟩ := first_match_split _ _ hk2
    have hl : l1.length < fuel := by
      have : l1.length ≤ (L k.index).length := by rw [he]; simp
      omega
    have hhit := search_lru_hit hR k hi hlock he hr hno hl
    have hR2 := promote_rep hR hi he
    have hperm : (l1 ++ l2 ++ [r]).Perm (L k.index) := by
      rw [he]
      have h1 : (l1 ++ l2 ++ [r]).Perm (r :: (l1 ++ l2)) := by
        have := @List.perm_append_comm _ (l1 ++ l2) [r]
        simpa using this
      exact h1.trans List.perm_middle.symm
    obtain ⟨s1, l, g1, g2, g3, g4, g5⟩ := @ih _ _ hR2 hlock (by
        intro c hc
        obtain ⟨c1, p, hp, hid⟩ := hks c (List.mem_cons_of_mem _ hc)
        refine ⟨c1, p, ?_, ?_⟩
        · rw [Function.update_same]
          exact hperm.symm.subset hp
        · show (promote_lru s.heap (s.head k.index) r p).id = some c.id
          rw [promote_lru_id]; exact hid)
      (by rw [Function.update_same, hperm.length_eq]; exact hfuel)
    rw [Function.update_idem] at g2
    rw [Function.update_same] at g3
    refine ⟨s1, l, ?_, g2, g3.trans hperm, ?_, g5⟩
    · simp only [search_seq, hhit, Option.some_bind]
      exact g1
    · intro x
      rw [g4 x]
      exact promote_lru_id _ _ _ _

/-- C7.  Take a bucket `i` of a well-formed cache whose lock is free, and any
sequence of lookups, without insertions in between, of keys cached in that
bucket, `k` being the key looked up last.  With fuel beyond the length of the
bucket all lookups are hits; let `r` be the entry the last one finds.  Then the
bucket holds the same entries as before, with `r` at its tail, and successive
evictions from the bucket remove the entries from the head: after `n` evictions
the bucket is its list without the first `n` entries.  So `r` is still linked
after any number of evictions smaller than the number of entries, and it is the
last of the bucket's members to be removed. -/
theorem C7_most_recent_hit_is_evicted_last (fuel : Nat) (s : State) (L : Nat → List Ptr)
    (hR : Rep s L) (i : Nat) (hi : i < HASHSIZE) (hlock : s.list_mutex i ≠ 0)
    (ks : List cid_t) (k : cid_t)
    (hks : ∀ c, c ∈ ks ++ [k] → c.index = i ∧ ∃ p, p ∈ L i ∧ (s.heap p).id = some c.id)
    (hfuel : (L i).length < fuel) :
    ∃ s1 r s2 l, search_seq fuel s ks = some s1 ∧ search_lru fuel s1 k = some (r, s2)
      ∧ (s.heap r).id = some k.id
      ∧ Rep s2 (Function.update L i (l ++ [r])) ∧ (l ++ [r]).Perm (L i)
      ∧ (∀ n, Rep (evict_from i n s2) (Function.update L i ((l ++ [r]).drop n)))
      ∧ (∀ n, n ≤ l.length → r ∈ (l ++ [r]).drop n)
      ∧ (l ++ [r]).drop (l.length + 1) = [] := by
  obtain ⟨s1, l0, g1, g2, g3, g4, g5⟩ := search_seq_rep fuel hi ks hR hlock
    (fun c hc => hks c (List.mem_append_left _ hc)) hfuel
  obtain ⟨hk1, p, hp, hid⟩ := hks k (by simp)
  subst hk1
  have hk2 : ∃ p, p ∈ Function.update L k.index l0 k.index ∧ (s1.heap p).id = some k.id := by
    refine ⟨p, ?_, ?_⟩
    · rw [Function.update_same]; exact g3.symm.subset hp
    · rw [g4]; exact hid
  obtain ⟨l1, r, l2, he, hr, hno⟩ := first_match_split _ _ hk2
  have he0 : l0 = l1 ++ r :: l2 := by rw [Function.update_same] at he; exact he
  have hl : l1.length < fuel := by
    have h1 : l1.length ≤ l0.length := by rw [he0]; simp
    have h2 := g3.length_eq
    omega
  have hlock1 : s1.list_mutex k.index ≠ 0 := by rw [g5]; exact hlock
  have hhit := search_lru_hit g2 k hi hlock1 he hr hno hl
  have hR2 := promote_rep g2 hi he
  rw [Function.update_idem] at hR2
  have hperm : (l1 ++ l2 ++ [r]).Perm (L k.index) := by
    refine List.Perm.trans ?_ g3
    rw [he0]
    have h1 : (l1 ++ l2 ++ [r]).Perm (r :: (l1 ++ l2)) := by
      have := @List.perm_append_comm _ (l1 ++ l2) [r]
      simpa using this
    exact h1.trans List.perm_middle.symm
  refine ⟨s1, r, _, l1 ++ l2, g1, hhit, ?_, hR2, hperm, ?_, ?_, ?_⟩
  · rw [← g4]; exact hr
  · intro n
    have := evict_from_rep hR2 hi n
    rw [Function.update_same, Function.update_idem] at this
    exact this
  · intro n hn
    rw [List.drop_append_of_le_length hn]
    simp
  · apply List.drop_of_length_le
    simp only [List.length_append, List.length_singleton, List.length_cons, List.length_nil]
    omega

/-- Two insertions into the empty cache, of one byte each, under keys of the
same bucket: the bucket holds the two new blocks in the order of insertion. -/
theorem two_inserts_facts (c1 c2 : cid_t) (h1 : c1.index < HASHSIZE) (h2 : c2.index = c1.index)
    (x y : Nat) :
    Good (link_new { link_new empty_locked c1 (some [x]) 1 with write_sem := 0 } c2 (some [y]) 1)
        (Function.update (fun _ => []) c1.index
          [empty_locked.brk, (link_new empty_locked c1 (some [x]) 1).brk])
      ∧ ((link_new { link_new empty_locked c1 (some [x]) 1 with write_sem := 0 } c2
            (some [y]) 1).heap empty_locked.brk).id = some c1.id
      ∧ ((link_new { link_new empty_locked c1 (some [x]) 1 with write_sem := 0 } c2
            (some [y]) 1).heap (link_new empty_locked c1 (some [x]) 1).brk).id = some c2.id := by
  obtain ⟨e1, e2, e3, e4, e5, e6, e7⟩ := empty_locked_good_parts
  obtain ⟨g1, g2⟩ := @link_new_good MAX_CACHE_SIZE (by decide) _ _ e1 e2 e3 e4 e5 e6 e7 c1
    h1 (some [x]) 1 (by decide) (by simp) (by rw [empty_locked_total]; decide)
  obtain ⟨_, _, r3, _, _⟩ := link_new_rep e1 c1 h1 (some [x]) 1
  have hR2 : Rep { link_new empty_locked c1 (some [x]) 1 with write_sem := 0 } _ :=
    g1.rep.congr rfl rfl rfl
  have hb : empty_locked.brk ≠ (link_new empty_locked c1 (some [x]) 1).brk := by
    have := (g1.rep.alloc _ h1 empty_locked.brk (by rw [Function.update_same]; simp)).2
    exact Nat.ne_of_lt this
  have h2i : c2.index < HASHSIZE := by rw [h2]; exact h1
  obtain ⟨k1, _⟩ := @link_new_good MAX_CACHE_SIZE (by decide) _ _ hR2 g1.sum g1.sized rfl
    g1.quiet.rcnt_mutex g1.quiet.readcnt g1.quiet.list_mutex c2 h2i (some [y]) 1
    (by decide) (by simp) (by
      show (link_new empty_locked c1 (some [x]) 1).total_size + _ ≤ _
      rw [g2, empty_locked_total]; decide)
  obtain ⟨_, q2, q3, _, _⟩ := link_new_rep hR2 c2 h2i (some [y]) 1
  refine ⟨?_, (q2 _ hb).1.trans r3, q3⟩
  have hl : Function.update (Function.update (fun _ => ([] : List Ptr)) c1.index
      ([] ++ [empty_locked.brk])) c2.index
      (Function.update (fun _ => ([] : List Ptr)) c1.index ([] ++ [empty_locked.brk]) c2.index
        ++ [(link_new empty_locked c1 (some [x]) 1).brk])
      = Function.update (fun _ => []) c1.index
          [empty_locked.brk, (link_new empty_locked c1 (some [x]) 1).brk] := by
    rw [h2, Function.update_same, Function.update_idem]
    rfl
  rw [← hl]
  exact k1

theorem pair_cached_facts :
    Good pair_cached pair_lists
      ∧ (pair_cached.heap empty_locked.brk).id = some pin_a.id
      ∧ (pair_cached.heap pair_first.brk).id = some pin_b.id :=
  two_inserts_facts pin_a pin_b (by decide) rfl 1 2

theorem pair_lists_zero : pair_lists 0 = [empty_locked.brk, pair_first.brk] := by
  unfold pair_lists
  rw [Function.update_same]

/-- C5, witness: the lookup of `pin_a` in `pair_cached`, whose bucket `0` holds
the entry of `pin_a` and behind it the entry of `pin_b`: the first of the two
entries is found and placed behind the other. -/
theorem C5_search_lru_promotes_match_witness :
    pair_lists pin_a.index = [empty_locked.brk, pair_first.brk]
      ∧ ∃ l1 r l2 s2, pair_lists pin_a.index = l1 ++ r :: l2
        ∧ (pair_cached.heap r).id = some pin_a.id
        ∧ (∀ p, p ∈ l1 → (pair_cached.heap p).id ≠ some pin_a.id)
        ∧ search_lru 3 pair_cached pin_a = some (r, s2)
        ∧ Rep s2 (Function.update pair_lists pin_a.index (l1 ++ l2 ++ [r]))
        ∧ (s2.heap (s2.head pin_a.index)).prev = r ∧ (s2.heap r).next = s2.head pin_a.index
        ∧ (∀ j, j < HASHSIZE → j ≠ pin_a.index → ∀ x, x ∈ pair_cached.head j :: pair_lists j →
            s2.heap x = pair_cached.heap x)
        ∧ (∀ x, (s2.heap x).id = (pair_cached.heap x).id
            ∧ (s2.heap x).content = (pair_cached.heap x).content
            ∧ (s2.heap x).size = (pair_cached.heap x).size)
        ∧ s2.head = pair_cached.head ∧ s2.total_size = pair_cached.total_size :=
  ⟨pair_lists_zero,
    C5_search_lru_promotes_match 3 pair_cached pair_lists pair_cached_facts.1.rep pin_a
      (by decide)
      (by rw [pair_cached_facts.1.quiet.list_mutex pin_a.index (by decide)]; decide)
      ⟨empty_locked.brk, by rw [show pin_a.index = 0 from rfl, pair_lists_zero]; simp,
        pair_cached_facts.2.1⟩
      (by rw [show pin_a.index = 0 from rfl, pair_lists_zero]; decide)⟩

theorem C7_most_recent_hit_is_evicted_last_witness :
    ∃ s1 r s2 l, search_seq 3 pair_cached [pin_b] = some s1
      ∧ search_lru 3 s1 pin_a = some (r, s2)
      ∧ (pair_cached.heap r).id = some pin_a.id
      ∧ Rep s2 (Function.update pair_lists 0 (l ++ [r])) ∧ (l ++ [r]).Perm (pair_lists 0)
      ∧ (∀ n, Rep (evict_from 0 n s2) (Function.update pair_lists 0 ((l ++ [r]).drop n)))
      ∧ (∀ n, n ≤ l.length → r ∈ (l ++ [r]).drop n)
      ∧ (l ++ [r]).drop (l.length + 1) = [] :=
  C7_most_recent_hit_is_evicted_last 3 pair_cached pair_lists pair_cached_facts.1.rep 0
    (by decide) (by rw [pair_cached_facts.1.quiet.list_mutex 0 (by decide)]; decide)
    [pin_b] pin_a
    (by
      intro c hc
      simp only [List.singleton_append, List.mem_cons, List.mem_singleton, List.not_mem_nil,
        or_false] at hc
      rcases hc with e | e
      · rw [e]
        exact ⟨rfl, pair_first.brk, by rw [pair_lists_zero]; simp, pair_cached_facts.2.2⟩
      · rw [e]
        exact ⟨rfl, empty_locked.brk, by rw [pair_lists_zero]; simp, pair_cached_facts.2.1⟩)
    (by rw [pair_lists_zero]; decide)

/-! ## C8: three objects of 400 bytes in a cache of 1000 bytes -/

theorem block_bytes_congr {b b2 : block_t} (h1 : b2.content = b.content) (h2 : b2.size = b.size) :
    block_bytes b2 = block_bytes b := by
  unfold block_bytes
  rw [h1, h2]

/-- Linking a non-empty object `B` to a state that holds the write lock and is
otherwise consistent: the new block `t.brk` ends the bucket of the key and
carries the key and the bytes `B`; all other blocks keep key, content and
size; `total_size` grows by the length of `B`. -/
theorem link_new_facts {cap : Int} (hcap : cap < 2147483648) {t : State}
    {Lt : Nat → List Ptr} (hR : Rep t Lt)
    (hsum : t.total_size = linked_size t.heap Lt) (hsz : Sized t.heap Lt)
    (hw : t.write_sem = 0) (hrm : t.rcnt_mutex = 1) (hrc : t.readcnt = 0)
    (hlm : ∀ i, i < HASHSIZE → t.list_mutex i = 1)
    (cid : cid_t) (hidx : cid.index < HASHSIZE) (B : List Nat) (hB : B ≠ [])
    (hfit : t.total_size + B.length ≤ cap) :
    Good (link_new t cid (some B) B.length)
        (Function.update Lt cid.index (Lt cid.index ++ [t.brk]))
      ∧ (link_new t cid (some B) B.length).total_size = t.total_size + B.length
      ∧ (∀ x, x ≠ t.brk →
          ((link_new t cid (some B) B.length).heap x).id = (t.heap x).id
          ∧ block_bytes ((link_new t cid (some B) B.length).heap x) = block_bytes (t.heap x)
          ∧ ((link_new t cid (some B) B.length).heap x).size = (t.heap x).size)
      ∧ ((link_new t cid (some B) B.length).heap t.brk).id = some cid.id
      ∧ block_bytes ((link_new t cid (some B) B.length).heap t.brk) = B
      ∧ ((link_new t cid (some B) B.length).heap t.brk).size = B.length
      ∧ (link_new t cid (some B) B.length).brk = t.brk + 1 := by
  have hnn : 0 ≤ t.total_size := by rw [hsum]; exact linked_size_nonneg hsz
  have hlen : B.length < 2147483648 := by omega
  have hpos : B.length ≠ 0 := fun e => hB (List.length_eq_zero.mp e)
  obtain ⟨g1, g2⟩ := link_new_good hcap hR hsum hsz hw hrm hrc hlm cid hidx (some B) B.length
    hlen (by simp) hfit
  obtain ⟨_, r2, r3, r4, r5⟩ := link_new_rep hR cid hidx (some B) B.length
  have hsize : ((link_new t cid (some B) B.length).heap t.brk).size = B.length := by
    rw [r4]
    simp only [Option.isSome_some, ne_eq, hpos, not_false_eq_true, and_self, if_true]
    apply to_int_of_range <;> omega
  have hcontent : ((link_new t cid (some B) B.length).heap t.brk).content = some B := by
    rw [r5, init_block_content _ _ _ _ _ hpos, List.take_length]
  refine ⟨g1, g2, ?_, r3, ?_, hsize, rfl⟩
  · intro x hx
    obtain ⟨a1, a2, a3⟩ := r2 x hx
    exact ⟨a1, block_bytes_congr a2 a3, a3⟩
  · rw [block_bytes_eq hcontent hsize (by omega), List.take_length]

theorem mem_update_append {L : Nat → List Ptr} {i k : Nat} {b p : Ptr} :
    p ∈ Function.update L i (L i ++ [b]) k ↔ p ∈ L k ∨ (k = i ∧ p = b) := by
  by_cases h : k = i
  · subst h
    rw [Function.update_same]
    simp
  · rw [Function.update_noteq h]
    simp [h]

theorem length_update_append_le (L : Nat → List Ptr) (i k : Nat) (b : Ptr) :
    (Function.update L i (L i ++ [b]) k).length ≤ (L k).length + 1 := by
  by_cases h : k = i
  · subst h
    rw [Function.update_same]
    simp
  · rw [Function.update_noteq h]
    omega

theorem length_update_tail_le (L : Nat → List Ptr) (i k : Nat) :
    (Function.update L i (L i).tail k).length ≤ (L k).length := by
  by_cases h : k = i
  · subst h
    rw [Function.update_same]
    simp
  · rw [Function.update_noteq h]

/-- The entries left after the first entry `e` of bucket `j` is taken out. -/
theorem mem_update_tail {s : State} {L : Nat → List Ptr} (hR : Rep s L) {j : Nat}
    (hj : j < HASHSIZE) {e : Ptr} {l2 : List Ptr} (he : L j = e :: l2) {k : Nat}
    (hk : k < HASHSIZE) {p : Ptr} :
    p ∈ Function.update L j (L j).tail k ↔ p ∈ L k ∧ p ≠ e := by
  have hnd := hR.nodup j hj
  rw [he] at hnd
  have he2 : e ∉ l2 := (List.nodup_cons.mp (List.nodup_cons.mp hnd).2).1
  by_cases h : k = j
  · subst h
    rw [Function.update_same, he]
    simp only [List.tail_cons, List.mem_cons]
    constructor
    · intro hp
      exact ⟨Or.inr hp, fun e2 => he2 (e2 ▸ hp)⟩
    · rintro ⟨hp | hp, hne⟩
      · exact absurd hp hne
      · exact hp
  · rw [Function.update_noteq h]
    constructor
    · intro hp
      refine ⟨hp, fun e2 => ?_⟩
      exact hR.disj k j hk hj h p (List.mem_cons_of_mem _ hp) (by rw [he, e2]; simp)
    · exact fun hp => hp.1

/-- A lookup of a key that exactly one entry of its bucket carries is a hit
that hands the bytes of that entry to the client. -/
theorem lookup_unique_hit {s : State} {L : Nat → List Ptr} (hG : Good s L) (cid : cid_t)
    (hidx : cid.index < HASHSIZE) (wr : Int) {fuel : Nat} (hf : (L cid.index).length < fuel)
    {r : Ptr} (hr : r ∈ L cid.index) (hid : (s.heap r).id = some cid.id)
    (huniq : ∀ p, p ∈ L cid.index → (s.heap p).id = some cid.id → p = r) :
    ∃ st, try_from_cache fuel s wr cid
      = some { rc := if wr < 0 then -1 else 1, sent := some (block_bytes (s.heap r)), st := st } := by
  rcases try_from_cache_total hG cid hidx wr hf with ⟨r2, l1, l2, he, hr2, _, e⟩ | ⟨hno, _⟩
  · have : r2 = r := huniq r2 (by rw [he]; simp) hr2
    rw [this] at e
    exact ⟨_, e⟩
  · exact absurd hid (hno r hr)

/-- The insertion that must evict exactly the first entry the scan meets: the
buckets below `j` are empty, bucket `j` starts with `e`, and the object fits
once `e` is gone. -/
theorem update_cache_evicts_first {cap : Int} (hcap0 : 0 ≤ cap) (hcap : cap < 2147483648)
    {s : State} {L : Nat → List Ptr} (hG : Good s L) (cid : cid_t)
    (content : Option (List Nat)) (size : Nat) (hsize : size < 2147483648)
    {j : Nat} (hj : j < HASHSIZE) (hempty : ∀ k, k < j → L k = [])
    {e : Ptr} {l2 : List Ptr} (he : L j = e :: l2)
    (hover : s.total_size + size > cap)
    (hfit : s.total_size - (s.heap e).size + size ≤ cap)
    {fuel : Nat} (hfuel : j + 1 < fuel) :
    update_cache cap fuel s cid content size
      = some (0, link_new (evict_step { s with write_sem := 0 } j) cid content size) := by
  have hR1 : Rep { s with write_sem := 0 } L := hG.rep.congr rfl rfl rfl
  have hsz : to_int (size : Int) = size := by apply to_int_of_range <;> omega
  have hcond : to_size_t (to_size_t s.total_size + size) > to_size_t cap :=
    (update_cache_test hcap0 hcap hG.total_nonneg hG.int hsize).mpr hover
  have hskip : ∀ k, k ≤ j → evict_run k { s with write_sem := 0 } 0 = { s with write_sem := 0 } := by
    intro k hk
    apply evict_run_skip hR1 k (by decide)
    intro i hi
    rw [Nat.zero_add, Nat.mod_eq_of_lt (by omega)]
    exact hempty i (by omega)
  have hrun : evict_run (j + 1) { s with write_sem := 0 } 0
      = evict_step { s with write_sem := 0 } j := by
    rw [evict_run_add j 1 _ 0 (by decide), hskip j (le_refl _), Nat.zero_add,
      Nat.mod_eq_of_lt hj]
    rfl
  have hloop : evict_to_fit cap fuel { s with write_sem := 0 } (to_int size)
      = some (evict_step { s with write_sem := 0 } j) := by
    rw [hsz]
    apply (evict_loop_eq_some _ _ _ _ _ _).mpr
    refine ⟨j + 1, hfuel, hrun.symm, ?_, ?_⟩
    · rw [hrun, (evict_step_cons hR1 hj he).2.1]
      exact hfit
    · intro k hk
      rw [hskip k (by omega)]
      exact hover
  rw [update_cache_eq, hG.quiet.write_sem]
  simp only [P, Nat.one_ne_zero, if_false, Nat.sub_self, Option.bind_eq_bind, Option.some_bind,
    hcond, if_true, hloop]

/-- Two objects of 400 bytes inserted into the empty cache of capacity 1000:
both insertions return without eviction; the buckets hold the two new blocks
`b0` (under `K1`) and `b1` (under `K2`), and `total_size` is `800`. -/
theorem two_inserts_state (K1 K2 : cid_t) (h1 : K1.index < HASHSIZE) (h2 : K2.index < HASHSIZE)
    (B1 B2 : List Nat) (hB1 : B1.length = 400) (hB2 : B2.length = 400) (fuel : Nat) :
    ∃ s1 s2 L2 b0 b1,
      update_cache 1000 fuel empty_cache K1 (some B1) B1.length = some (0, s1)
      ∧ update_cache 1000 fuel s1 K2 (some B2) B2.length = some (0, s2)
      ∧ Good s2 L2 ∧ s2.total_size = 800 ∧ b0 < b1 ∧ b1 = s2.brk - 1 ∧ 0 < s2.brk
      ∧ (∀ k p, p ∈ L2 k ↔ (k = K1.index ∧ p = b0) ∨ (k = K2.index ∧ p = b1))
      ∧ (∀ k, (L2 k).length ≤ 2)
      ∧ L2 K1.index = b0 :: (if K2.index = K1.index then [b1] else [])
      ∧ (K2.index ≠ K1.index → L2 K2.index = [b1])
      ∧ (s2.heap b0).id = some K1.id ∧ block_bytes (s2.heap b0) = B1 ∧ (s2.heap b0).size = 400
      ∧ (s2.heap b1).id = some K2.id ∧ block_bytes (s2.heap b1) = B2
      ∧ (s2.heap b1).size = 400 := by
  obtain ⟨e1, e2, e3, e4, e5, e6, e7⟩ := empty_locked_good_parts
  have hne1 : B1 ≠ [] := fun e => by rw [e] at hB1; simp at hB1
  have hne2 : B2 ≠ [] := fun e => by rw [e] at hB2; simp at hB2
  obtain ⟨g1, g2, g3, g4, g5, g6, g7⟩ := @link_new_facts 1000 (by decide) _ _ e1 e2 e3 e4 e5 e6 e7
    K1 h1 B1 hne1 (by rw [empty_locked_total, hB1]; decide)
  have hR1 : Rep { link_new empty_locked K1 (some B1) B1.length with write_sem := 0 } _ :=
    g1.rep.congr rfl rfl rfl
  have ht1 : (link_new empty_locked K1 (some B1) B1.length).total_size = 400 := by
    rw [g2, empty_locked_total, hB1]; rfl
  obtain ⟨k1, k2, k3, k4, k5, k6, k7⟩ := @link_new_facts 1000 (by decide) _ _ hR1 g1.sum g1.sized
    rfl g1.quiet.rcnt_mutex g1.quiet.readcnt g1.quiet.list_mutex K2 h2 B2 hne2 (by
      show (link_new empty_locked K1 (some B1) B1.length).total_size + _ ≤ _
      rw [ht1, hB2]; decide)
  have hb : empty_locked.brk < (link_new empty_locked K1 (some B1) B1.length).brk := by
    rw [g7]; omega
  have hb2 : empty_locked.brk ≠ (link_new empty_locked K1 (some B1) B1.length).brk :=
    Nat.ne_of_lt hb
  have hu1 : update_cache 1000 fuel empty_cache K1 (some B1) B1.length
      = some (0, link_new empty_locked K1 (some B1) B1.length) :=
    update_cache_no_eviction empty_cache_good.quiet.write_sem fuel K1 (some B1) B1.length
      (Or.inl (by rw [empty_cache_total, hB1]; decide))
  have hu2 : update_cache 1000 fuel (link_new empty_locked K1 (some B1) B1.length) K2 (some B2)
      B2.length = some (0, link_new
        { link_new empty_locked K1 (some B1) B1.length with write_sem := 0 } K2 (some B2)
        B2.length) :=
    update_cache_no_eviction g1.quiet.write_sem fuel K2 (some B2) B2.length
      (Or.inl (by rw [ht1, hB2]; decide))
  refine ⟨_, _, _, empty_locked.brk, (link_new empty_locked K1 (some B1) B1.length).brk,
    hu1, hu2, k1, ?_, hb, ?_, ?_, ?_, ?_, ?_, ?_, ?_, ?_, ?_, k4, k5, ?_⟩
  · rw [k2]
    show (link_new empty_locked K1 (some B1) B1.length).total_size + _ = _
    rw [ht1, hB2]; rfl
  · rw [k7]; simp
  · rw [k7]; simp
  · intro k p
    rw [mem_update_append, mem_update_append]
    simp
  · intro k
    have a1 := length_update_append_le
      (Function.update (fun _ => ([] : List Ptr)) K1.index ([] ++ [empty_locked.brk])) K2.index k
      (link_new empty_locked K1 (some B1) B1.length).brk
    have a2 := length_update_append_le (fun _ => ([] : List Ptr)) K1.index k empty_locked.brk
    simp only [List.nil_append, List.length_nil] at a1 a2 ⊢
    exact le_trans a1 (by omega)
  · by_cases h : K2.index = K1.index
    · rw [h, Function.update_same, Function.update_same]
      simp [h]
    · rw [Function.update_noteq (Ne.symm h), Function.update_same]
      simp [h]
  · intro h
    rw [Function.update_same, Function.update_noteq h]
    rfl
  · exact (k3 _ hb2).1.trans g4
  · exact (k3 _ hb2).2.1.trans g5
  · rw [(k3 _ hb2).2.2]
    show ((link_new empty_locked K1 (some B1) B1.length).heap empty_locked.brk).size = 400
    rw [g6, hB1]; rfl
  · show ((link_new { link_new empty_locked K1 (some B1) B1.length with write_sem := 0 } K2
      (some B2) B2.length).heap (link_new empty_locked K1 (some B1) B1.length).brk).size = 400
    rw [k6, hB2]; rfl

/-- The third object of 400 bytes: the insertion evicts exactly the first entry
`e` of the first non-empty bucket `j` and links the new block `s2.brk`. -/
theorem third_insert_state {s2 : State} {L2 : Nat → List Ptr} (hG : Good s2 L2)
    (htot : s2.total_size = 800) {j : Nat} (hj : j < HASHSIZE)
    (hempty : ∀ k, k < j → L2 k = []) {e : Ptr} {l2 : List Ptr} (he : L2 j = e :: l2)
    (hes : (s2.heap e).size = 400)
    (K3 : cid_t) (h3 : K3.index < HASHSIZE) (B3 : List Nat) (hB3 : B3.length = 400)
    {fuel : Nat} (hfuel : HASHSIZE < fuel) :
    ∃ s3 L3, update_cache 1000 fuel s2 K3 (some B3) B3.length = some (0, s3)
      ∧ Good s3 L3 ∧ s3.total_size = 800
      ∧ (∀ k p, k < HASHSIZE →
          (p ∈ L3 k ↔ (p ∈ L2 k ∧ p ≠ e) ∨ (k = K3.index ∧ p = s2.brk)))
      ∧ (∀ k, (L3 k).length ≤ (L2 k).length + 1)
      ∧ (∀ x, x ≠ e → x ≠ s2.brk →
          (s3.heap x).id = (s2.heap x).id ∧ block_bytes (s3.heap x) = block_bytes (s2.heap x))
      ∧ (s3.heap s2.brk).id = some K3.id ∧ block_bytes (s3.heap s2.brk) = B3
      ∧ L3 = Function.update (Function.update L2 j (L2 j).tail) K3.index
          (Function.update L2 j (L2 j).tail K3.index ++ [s2.brk])
      ∧ (∀ x, x ≠ e → x ≠ s2.brk → (s3.heap x).size = (s2.heap x).size)
      ∧ (s3.heap s2.brk).size = 400 ∧ s3.brk = s2.brk + 1 := by
  have hne3 : B3 ≠ [] := fun e => by rw [e] at hB3; simp at hB3
  have hR1 : Rep { s2 with write_sem := 0 } L2 := hG.rep.congr rfl rfl rfl
  have hu : update_cache 1000 fuel s2 K3 (some B3) B3.length
      = some (0, link_new (evict_step { s2 with write_sem := 0 } j) K3 (some B3) B3.length) :=
    update_cache_evicts_first (by decide) (by decide) hG K3 (some B3) B3.length (by omega) hj
      hempty he (by rw [htot, hB3]; decide) (by rw [htot, hes, hB3]; decide) (by omega)
  obtain ⟨r1, r2, r3⟩ := evict_step_rep hR1 hj
  obtain ⟨_, c2, _⟩ := evict_step_cons hR1 hj he
  have hsum : (evict_step { s2 with write_sem := 0 } j).total_size
      = linked_size (evict_step { s2 with write_sem := 0 } j).heap
          (Function.update L2 j (L2 j).tail) := by
    have h0 : ({ s2 with write_sem := 0 } : State).total_size
        = linked_size ({ s2 with write_sem := 0 } : State).heap L2 := hG.sum
    omega
  have hsized : Sized (evict_step { s2 with write_sem := 0 } j).heap
      (Function.update L2 j (L2 j).tail) := by
    intro k hk p hp
    rw [(r3 k hk p hp).2.2]
    exact hG.sized k hk p ((mem_update_tail hR1 hj he hk).mp hp).1
  have htot2 : (evict_step { s2 with write_sem := 0 } j).total_size = 400 := by
    rw [c2]
    show s2.total_size - (s2.heap e).size = 400
    rw [htot, hes]; rfl
  obtain ⟨g1, g2, g3, g4, g5, g6, g7⟩ := @link_new_facts 1000 (by decide) _ _ r1 hsum hsized
    (by simp) (by simp [hG.quiet.rcnt_mutex]) (by simp [hG.quiet.readcnt])
    (by simpa using hG.quiet.list_mutex) K3 h3 B3 hne3 (by rw [htot2, hB3]; decide)
  have hbrk : (evict_step { s2 with write_sem := 0 } j).brk = s2.brk := by simp
  rw [hbrk] at g1 g3 g4 g5 g6 g7
  obtain ⟨_, d3⟩ := evict_step_cons hR1 hj he
  refine ⟨_, _, hu, g1, ?_, ?_, ?_, ?_, g4, g5, rfl, ?_, ?_, g7⟩
  rotate_left 4
  · intro x hxe hxb
    exact (g3 x hxb).2.2.trans (d3.2 x hxe).2.2
  · rw [g6, hB3]; rfl
  · rw [g2, htot2, hB3]; rfl
  · intro k p hk
    rw [mem_update_append, mem_update_tail hR1 hj he hk]
  · intro k
    exact le_trans (length_update_append_le _ _ _ _)
      (Nat.add_le_add_right (length_update_tail_le _ _ _) 1)
  · intro x hxe hxb
    obtain ⟨a1, a2, _⟩ := g3 x hxb
    obtain ⟨b1, b2, b3⟩ := d3.2 x hxe
    exact ⟨a1.trans b1, a2.trans (block_bytes_congr b2 b3)⟩

/-- The outcome of three insertions of 400 bytes into the empty cache of
capacity 1000, for keys with pairwise distinct ids. -/
theorem three_inserts_outcome (K1 K2 K3 : cid_t) (h1 : K1.index < HASHSIZE)
    (h2 : K2.index < HASHSIZE) (h3 : K3.index < HASHSIZE)
    (d12 : K1.id ≠ K2.id) (d13 : K1.id ≠ K3.id) (d23 : K2.id ≠ K3.id)
    (B1 B2 B3 : List Nat) (hB1 : B1.length = 400) (hB2 : B2.length = 400)
    (hB3 : B3.length = 400) (fuel : Nat) (hfuel : HASHSIZE < fuel) (wr : Int) :
    ∃ s1 s2 s3,
      update_cache 1000 fuel empty_cache K1 (some B1) B1.length = some (0, s1)
      ∧ update_cache 1000 fuel s1 K2 (some B2) B2.length = some (0, s2)
      ∧ update_cache 1000 fuel s2 K3 (some B3) B3.length = some (0, s3)
      ∧ s3.total_size = 800
      ∧ (∃ st, try_from_cache fuel s3 wr K3
          = some { rc := if wr < 0 then -1 else 1, sent := some B3, st := st })
      ∧ (K1.index ≤ K2.index →
          try_from_cache fuel s3 wr K1 = some { rc := 0, sent := none, st := s3 }
          ∧ ∃ st, try_from_cache fuel s3 wr K2
              = some { rc := if wr < 0 then -1 else 1, sent := some B2, st := st })
      ∧ (K2.index < K1.index →
          try_from_cache fuel s3 wr K2 = some { rc := 0, sent := none, st := s3 }
          ∧ ∃ st, try_from_cache fuel s3 wr K1
              = some { rc := if wr < 0 then -1 else 1, sent := some B1, st := st }) := by
  obtain ⟨s1, s2, L2, b0, b1, u1, u2, G2, t2, hb01, hb1, hpos, m2, len2, l21, l22,
    i0, y0, z0, i1, y1, z1⟩ := two_inserts_state K1 K2 h1 h2 B1 B2 hB1 hB2 fuel
  have hb1lt : b1 < s2.brk := by rw [hb1]; exact Nat.sub_lt hpos Nat.one_pos
  have hb0lt : b0 < s2.brk := lt_trans hb01 hb1lt
  have n01 : b0 ≠ b1 := Nat.ne_of_lt hb01
  have n12 : b1 ≠ s2.brk := Nat.ne_of_lt hb1lt
  have n02 : b0 ≠ s2.brk := Nat.ne_of_lt hb0lt
  have hH : HASHSIZE = 1009 := rfl
  by_cases hle : K1.index ≤ K2.index
  · have hempty : ∀ k, k < K1.index → L2 k = [] := by
      intro k hk
      apply List.eq_nil_iff_forall_not_mem.mpr
      intro p hp
      rcases (m2 k p).mp hp with ⟨e, _⟩ | ⟨e, _⟩ <;> omega
    obtain ⟨s3, L3, u3, G3, t3, m3, len3, pay, i2, y2, _⟩ :=
      third_insert_state G2 t2 h1 hempty l21 z0 K3 h3 B3 hB3 hfuel
    have hlen : ∀ k, (L3 k).length < fuel := by
      intro k
      have a1 := len3 k
      have a2 := len2 k
      omega
    have p1 := pay b1 (Ne.symm n01) n12
    refine ⟨s1, s2, s3, u1, u2, u3, t3, ?_, ?_, ?_⟩
    · obtain ⟨st, e⟩ := lookup_unique_hit G3 K3 h3 wr (hlen _)
        ((m3 _ _ h3).mpr (Or.inr ⟨rfl, rfl⟩)) i2 (by
          intro p hp hid
          rcases (m3 _ _ h3).mp hp with ⟨hp2, hpe⟩ | ⟨_, e⟩
          · rcases (m2 _ _).mp hp2 with ⟨_, e⟩ | ⟨_, e⟩
            · exact absurd e hpe
            · rw [e, p1.1, i1] at hid
              exact absurd (Option.some.inj hid) d23
          · exact e)
      rw [y2] at e
      exact ⟨st, e⟩
    · intro _
      constructor
      · apply try_from_cache_miss G3.rep G3.quiet K1 h1 _ (hlen _) wr
        intro p hp hid
        rcases (m3 _ _ h1).mp hp with ⟨hp2, hpe⟩ | ⟨_, e⟩
        · rcases (m2 _ _).mp hp2 with ⟨_, e⟩ | ⟨_, e⟩
          · exact absurd e hpe
          · rw [e, p1.1, i1] at hid
            exact d12 (Option.some.inj hid).symm
        · rw [e, i2] at hid
          exact d13 (Option.some.inj hid).symm
      · obtain ⟨st, e⟩ := lookup_unique_hit G3 K2 h2 wr (hlen _)
          ((m3 _ _ h2).mpr (Or.inl ⟨(m2 _ _).mpr (Or.inr ⟨rfl, rfl⟩), Ne.symm n01⟩))
          (p1.1.trans i1) (by
            intro p hp hid
            rcases (m3 _ _ h2).mp hp with ⟨hp2, hpe⟩ | ⟨_, e⟩
            · rcases (m2 _ _).mp hp2 with ⟨_, e⟩ | ⟨_, e⟩
              · exact absurd e hpe
              · exact e
            · rw [e, i2] at hid
              exact absurd (Option.some.inj hid).symm d23)
        rw [p1.2, y1] at e
        exact ⟨st, e⟩
    · intro h
      omega
  · have hlt : K2.index < K1.index := by omega
    have hne : K2.index ≠ K1.index := by omega
    have hempty : ∀ k, k < K2.index → L2 k = [] := by
      intro k hk
      apply List.eq_nil_iff_forall_not_mem.mpr
      intro p hp
      rcases (m2 k p).mp hp with ⟨e, _⟩ | ⟨e, _⟩ <;> omega
    obtain ⟨s3, L3, u3, G3, t3, m3, len3, pay, i2, y2, _⟩ :=
      third_insert_state G2 t2 h2 hempty (l22 hne) z1 K3 h3 B3 hB3 hfuel
    have hlen : ∀ k, (L3 k).length < fuel := by
      intro k
      have a1 := len3 k
      have a2 := len2 k
      omega
    have p0 := pay b0 n01 n02
    refine ⟨s1, s2, s3, u1, u2, u3, t3, ?_, ?_, ?_⟩
    · obtain ⟨st, e⟩ := lookup_unique_hit G3 K3 h3 wr (hlen _)
        ((m3 _ _ h3).mpr (Or.inr ⟨rfl, rfl⟩)) i2 (by
          intro p hp hid
          rcases (m3 _ _ h3).mp hp with ⟨hp2, hpe⟩ | ⟨_, e⟩
          · rcases (m2 _ _).mp hp2 with ⟨_, e⟩ | ⟨_, e⟩
            · rw [e, p0.1, i0] at hid
              exact absurd (Option.some.inj hid) d13
            · exact absurd e hpe
          · exact e)
      rw [y2] at e
      exact ⟨st, e⟩
    · intro h
      omega
    · intro _
      constructor
      · apply try_from_cache_miss G3.rep G3.quiet K2 h2 _ (hlen _) wr
        intro p hp hid
        rcases (m3 _ _ h2).mp hp with ⟨hp2, hpe⟩ | ⟨_, e⟩
        · rcases (m2 _ _).mp hp2 with ⟨_, e⟩ | ⟨_, e⟩
          · rw [e, p0.1, i0] at hid
            exact d12 (Option.some.inj hid)
          · exact absurd e hpe
        · rw [e, i2] at hid
          exact d23 (Option.some.inj hid).symm
      · obtain ⟨st, e⟩ := lookup_unique_hit G3 K1 h1 wr (hlen _)
          ((m3 _ _ h1).mpr (Or.inl ⟨(m2 _ _).mpr (Or.inl ⟨rfl, rfl⟩), n01⟩))
          (p0.1.trans i0) (by
            intro p hp hid
            rcases (m3 _ _ h1).mp hp with ⟨hp2, hpe⟩ | ⟨_, e⟩
            · rcases (m2 _ _).mp hp2 with ⟨_, e⟩ | ⟨_, e⟩
              · exact e
              · exact absurd e hpe
            · rw [e, i2] at hid
              exact absurd (Option.some.inj hid).symm d13)
        rw [p0.2, y0] at e
        exact ⟨st, e⟩

/-- C8 (as amended).  With a capacity of 1000 bytes, starting from the empty
cache, for all keys `K1`, `K2`, `K3` with pairwise distinct ids: the three
insertions of 400-byte objects under `K1`, `K2`, `K3`, in that order, return;
afterwards `total_size = 800` and a lookup of `K3` hits.  The third insertion
evicts the head of the first non-empty bucket in index order: when the bucket
of `K1` does not come after the bucket of `K2`, `K1` is no longer cached and
`K2` hits; when the bucket of `K2` comes first, it is `K2` that is no longer
cached and `K1` still hits.  A hit hands the object inserted under the key to
the client (result `1`, or `-1` when that write fails). -/
theorem C8_three_inserts_evict_first_bucket (K1 K2 K3 : cid_t) (h1 : K1.index < HASHSIZE)
    (h2 : K2.index < HASHSIZE) (h3 : K3.index < HASHSIZE)
    (d12 : K1.id ≠ K2.id) (d13 : K1.id ≠ K3.id) (d23 : K2.id ≠ K3.id)
    (B1 B2 B3 : List Nat) (hB1 : B1.length = 400) (hB2 : B2.length = 400)
    (hB3 : B3.length = 400) (fuel : Nat) (hfuel : HASHSIZE < fuel) (wr : Int) :
    ∃ s1 s2 s3,
      update_cache 1000 fuel empty_cache K1 (some B1) B1.length = some (0, s1)
      ∧ update_cache 1000 fuel s1 K2 (some B2) B2.length = some (0, s2)
      ∧ update_cache 1000 fuel s2 K3 (some B3) B3.length = some (0, s3)
      ∧ s3.total_size = 800
      ∧ (∃ st, try_from_cache fuel s3 wr K3
          = some { rc := if wr < 0 then -1 else 1, sent := some B3, st := st })
      ∧ (K1.index ≤ K2.index →
          try_from_cache fuel s3 wr K1 = some { rc := 0, sent := none, st := s3 }
          ∧ ∃ st, try_from_cache fuel s3 wr K2
              = some { rc := if wr < 0 then -1 else 1, sent := some B2, st := st })
      ∧ (K2.index < K1.index →
          try_from_cache fuel s3 wr K2 = some { rc := 0, sent := none, st := s3 }
          ∧ ∃ st, try_from_cache fuel s3 wr K1
              = some { rc := if wr < 0 then -1 else 1, sent := some B1, st := st }) :=
  three_inserts_outcome K1 K2 K3 h1 h2 h3 d12 d13 d23 B1 B2 B3 hB1 hB2 hB3 fuel hfuel wr

theorem obj400_length (x : Nat) : (obj400 x).length = 400 := by
  unfold obj400
  exact List.length_replicate _ _

theorem key_a_ne_key_b : key_a.id ≠ key_b.id := by decide

theorem key_a_ne_key_c : key_a.id ≠ key_c.id := by decide

theorem key_b_ne_key_c : key_b.id ≠ key_c.id := by decide

theorem key_c_index : key_c.index < HASHSIZE := gen_cid_index_lt _ _ _

theorem key_a_before_key_b : key_a.index < key_b.index := by decide

theorem C8_three_inserts_evict_first_bucket_witness :
    ∃ s1 s2 s3,
      update_cache 1000 1010 empty_cache key_a (some (obj400 1)) (obj400 1).length = some (0, s1)
      ∧ update_cache 1000 1010 s1 key_b (some (obj400 2)) (obj400 2).length = some (0, s2)
      ∧ update_cache 1000 1010 s2 key_c (some (obj400 3)) (obj400 3).length = some (0, s3)
      ∧ s3.total_size = 800
      ∧ (∃ st, try_from_cache 1010 s3 0 key_c
          = some { rc := if (0 : Int) < 0 then -1 else 1, sent := some (obj400 3), st := st })
      ∧ (key_a.index ≤ key_b.index →
          try_from_cache 1010 s3 0 key_a = some { rc := 0, sent := none, st := s3 }
          ∧ ∃ st, try_from_cache 1010 s3 0 key_b
              = some { rc := if (0 : Int) < 0 then -1 else 1, sent := some (obj400 2), st := st })
      ∧ (key_b.index < key_a.index →
          try_from_cache 1010 s3 0 key_b = some { rc := 0, sent := none, st := s3 }
          ∧ ∃ st, try_from_cache 1010 s3 0 key_a
              = some { rc := if (0 : Int) < 0 then -1 else 1, sent := some (obj400 1), st := st }) :=
  C8_three_inserts_evict_first_bucket key_a key_b key_c key_a_index key_b_index key_c_index
    key_a_ne_key_b key_a_ne_key_c key_b_ne_key_c (obj400 1) (obj400 2) (obj400 3)
    (obj400_length 1) (obj400_length 2) (obj400_length 3) 1010 (by decide) 0

/-- C8, counterexample.  With capacity 1000, insert 400-byte objects under
`K1 = b:80/`, `K2 = a:80/`, `K3 = c:80/`, in that order, into the empty cache.
The bucket of `K2` (151) comes before the bucket of `K1` (215), so the third
insertion evicts `K2`: afterwards a lookup of `K1` still hits and a lookup of
`K2` misses. -/
theorem C8_counterexample_second_key_evicted :
    ∃ s1 s2 s3,
      update_cache 1000 1010 empty_cache key_b (some (obj400 1)) (obj400 1).length = some (0, s1)
      ∧ update_cache 1000 1010 s1 key_a (some (obj400 2)) (obj400 2).length = some (0, s2)
      ∧ update_cache 1000 1010 s2 key_c (some (obj400 3)) (obj400 3).length = some (0, s3)
      ∧ (∃ st, try_from_cache 1010 s3 0 key_b
          = some { rc := 1, sent := some (obj400 1), st := st })
      ∧ try_from_cache 1010 s3 0 key_a = some { rc := 0, sent := none, st := s3 } := by
  obtain ⟨s1, s2, s3, u1, u2, u3, _, _, _, h⟩ :=
    three_inserts_outcome key_b key_a key_c key_b_index key_a_index key_c_index
      (Ne.symm key_a_ne_key_b) key_b_ne_key_c key_a_ne_key_c (obj400 1) (obj400 2) (obj400 3)
      (obj400_length 1) (obj400_length 2) (obj400_length 3) 1010 (by decide) 0
  obtain ⟨hmiss, st, hhit⟩ := h key_a_before_key_b
  exact ⟨s1, s2, s3, u1, u2, u3, ⟨st, hhit⟩, hmiss⟩

/-! ## C9: where the eviction scan starts -/

theorem evict_run_succ_last (k : Nat) (s : State) :
    evict_run (k + 1) s 0 = evict_step (evict_run k s 0) (k % HASHSIZE) := by
  rw [evict_run_add k 1 s 0 (by decide), Nat.zero_add]
  rfl

/-- A scan that starts at bucket `c`, finds the buckets from `c` up to `j`
empty and bucket `j` not, and needs one eviction: it runs `j - c + 1`
iterations and returns the state with the head of bucket `j` evicted. -/
theorem evict_loop_first {cap size : Int} {s : State} {L : Nat → List Ptr} (hR : Rep s L)
    {c j : Nat} (hcj : c ≤ j) (hj : j < HASHSIZE)
    (hempty : ∀ k, c ≤ k → k < j → L k = []) {e : Ptr} {l2 : List Ptr} (he : L j = e :: l2)
    (hover : s.total_size + size > cap)
    (hfit : s.total_size - (s.heap e).size + size ≤ cap)
    {fuel : Nat} (hfuel : j - c + 1 < fuel) :
    evict_loop cap size fuel s c = some (evict_run (j - c + 1) s c)
      ∧ evict_run (j - c + 1) s c = evict_step s j := by
  have hc : c < HASHSIZE := lt_of_le_of_lt hcj hj
  have hskip : ∀ k, k ≤ j - c → evict_run k s c = s := by
    intro k hk
    apply evict_run_skip hR k hc
    intro i hi
    rw [Nat.mod_eq_of_lt (by omega)]
    exact hempty (c + i) (by omega) (by omega)
  have hrun : evict_run (j - c + 1) s c = evict_step s j := by
    rw [evict_run_add (j - c) 1 _ c hc, hskip (j - c) (le_refl _)]
    have : (c + (j - c)) % HASHSIZE = j := by
      rw [Nat.add_sub_cancel' hcj, Nat.mod_eq_of_lt hj]
    rw [this]
    rfl
  refine ⟨?_, hrun⟩
  apply (evict_loop_eq_some _ _ _ _ _ _).mpr
  refine ⟨j - c + 1, hfuel, rfl, ?_, ?_⟩
  · rw [hrun, (evict_step_cons hR hj he).2.1]
    exact hfit
  · intro k hk
    rw [hskip k (by omega)]
    exact hover

/-- C9 (as amended).  Every call of `evict_to_fit` starts its scan at bucket
`0`: the cursor is a local variable of the function, set to `0` on entry, and
nothing of it persists from one call to the next.  Within a call the loop
visits the buckets `0, 1, 2, ...` in increasing order modulo `HASHSIZE`: the
call returns the state after the least number `m` of iterations at which the
object fits, iteration number `k` works on bucket `k mod HASHSIZE`, and there
it skips the bucket if it is empty and otherwise evicts exactly its head entry,
whose size leaves `total_size`. -/
theorem C9_eviction_scans_from_bucket_zero (cap size : Int) (fuel : Nat) (s : State)
    (L : Nat → List Ptr) (hR : Rep s L) :
    (∀ s2, evict_to_fit cap fuel s size = some s2 ↔
        ∃ m, m < fuel ∧ s2 = evict_run m s 0 ∧ (evict_run m s 0).total_size + size ≤ cap
          ∧ ∀ k, k < m → (evict_run k s 0).total_size + size > cap)
      ∧ (∀ k, evict_run (k + 1) s 0 = evict_step (evict_run k s 0) (k % HASHSIZE))
      ∧ (∀ k, ∃ Lk, Rep (evict_run k s 0) Lk
          ∧ (Lk (k % HASHSIZE) = [] →
              evict_step (evict_run k s 0) (k % HASHSIZE) = evict_run k s 0)
          ∧ (∀ e l, Lk (k % HASHSIZE) = e :: l →
              Rep (evict_step (evict_run k s 0) (k % HASHSIZE))
                  (Function.update Lk (k % HASHSIZE) l)
              ∧ (evict_step (evict_run k s 0) (k % HASHSIZE)).total_size
                  = (evict_run k s 0).total_size - ((evict_run k s 0).heap e).size)) := by
  refine ⟨fun s2 => evict_loop_eq_some cap size fuel s s2 0, fun k => evict_run_succ_last k s, ?_⟩
  intro k
  obtain ⟨Lk, h1, _⟩ := @evict_run_rep _ _ hR k 0 (by decide)
  have hk : k % HASHSIZE < HASHSIZE := Nat.mod_lt _ (by decide)
  refine ⟨Lk, h1, fun he => evict_step_nil h1 hk he, ?_⟩
  intro e l he
  obtain ⟨a1, a2, _⟩ := evict_step_cons h1 hk he
  exact ⟨a1, a2⟩

theorem C9_eviction_scans_from_bucket_zero_witness :
    (∀ s2, evict_to_fit 1000 3 pair_cached 400 = some s2 ↔
        ∃ m, m < 3 ∧ s2 = evict_run m pair_cached 0
          ∧ (evict_run m pair_cached 0).total_size + 400 ≤ 1000
          ∧ ∀ k, k < m → (evict_run k pair_cached 0).total_size + 400 > 1000)
      ∧ (∀ k, evict_run (k + 1) pair_cached 0
          = evict_step (evict_run k pair_cached 0) (k % HASHSIZE))
      ∧ (∀ k, ∃ Lk, Rep (evict_run k pair_cached 0) Lk
          ∧ (Lk (k % HASHSIZE) = [] →
              evict_step (evict_run k pair_cached 0) (k % HASHSIZE) = evict_run k pair_cached 0)
          ∧ (∀ e l, Lk (k % HASHSIZE) = e :: l →
              Rep (evict_step (evict_run k pair_cached 0) (k % HASHSIZE))
                  (Function.update Lk (k % HASHSIZE) l)
              ∧ (evict_step (evict_run k pair_cached 0) (k % HASHSIZE)).total_size
                  = (evict_run k pair_cached 0).total_size
                    - ((evict_run k pair_cached 0).heap e).size)) :=
  C9_eviction_scans_from_bucket_zero 1000 400 3 pair_cached pair_lists pair_cached_facts.1.rep

/-- Two objects under a key `A` and one under a key `B` of a later bucket, 400
bytes each, capacity 1000.  The third insertion evicts from the bucket of `A`
after scanning the buckets `0 .. A.index`.  The bucket of `A` still holds an
entry, and the next call of `evict_to_fit` evicts from it again; a scan that
started at the bucket after `A.index` would evict from the bucket of `B`. -/
theorem cursor_restarts (A B : cid_t) (hAB : A.index < B.index) (hB : B.index < HASHSIZE) :
    ∃ s1 s2 s3,
      update_cache 1000 1010 empty_cache A (some (obj400 1)) (obj400 1).length = some (0, s1)
      ∧ update_cache 1000 1010 s1 A (some (obj400 2)) (obj400 2).length = some (0, s2)
      ∧ update_cache 1000 1010 s2 B (some (obj400 3)) (obj400 3).length = some (0, s3)
      ∧ evict_to_fit 1000 1010 { s2 with write_sem := 0 } 400
          = some (evict_run (A.index + 1) { s2 with write_sem := 0 } 0)
      ∧ evict_to_fit 1000 1010 { s3 with write_sem := 0 } 400
          = some (evict_step { s3 with write_sem := 0 } A.index)
      ∧ evict_loop 1000 400 1010 { s3 with write_sem := 0 } (A.index + 1)
          = some (evict_step { s3 with write_sem := 0 } B.index)
      ∧ evict_step { s3 with write_sem := 0 } A.index
          ≠ evict_step { s3 with write_sem := 0 } B.index := by
  have hA : A.index < HASHSIZE := lt_trans hAB hB
  have hH : HASHSIZE = 1009 := rfl
  obtain ⟨s1, s2, L2, b0, b1, u1, u2, G2, t2, hb01, hb1, hpos, m2, len2, l21, _,
    _, _, z0, _, _, z1⟩ :=
    two_inserts_state A A hA hA (obj400 1) (obj400 2) (obj400_length 1) (obj400_length 2) 1010
  simp only [if_true] at l21
  have hb1lt : b1 < s2.brk := by rw [hb1]; exact Nat.sub_lt hpos Nat.one_pos
  have n01 : b0 ≠ b1 := Nat.ne_of_lt hb01
  have n12 : b1 ≠ s2.brk := Nat.ne_of_lt hb1lt
  have hempty2 : ∀ k, k < A.index → L2 k = [] := by
    intro k hk
    apply List.eq_nil_iff_forall_not_mem.mpr
    intro p hp
    rcases (m2 k p).mp hp with ⟨e, _⟩ | ⟨e, _⟩ <;> omega
  obtain ⟨s3, L3, u3, G3, t3, m3, _, _, i2, _, L3eq, sz, sz2, _⟩ :=
    third_insert_state G2 t2 hA hempty2 l21 z0 B hB (obj400 3) (obj400_length 3)
      (by decide : HASHSIZE < 1010)
  have hR2 : Rep { s2 with write_sem := 0 } L2 := G2.rep.congr rfl rfl rfl
  have hR3 : Rep { s3 with write_sem := 0 } L3 := G3.rep.congr rfl rfl rfl
  have hne : A.index ≠ B.index := Nat.ne_of_lt hAB
  have hL2B : L2 B.index = [] := by
    apply List.eq_nil_iff_forall_not_mem.mpr
    intro p hp
    rcases (m2 _ p).mp hp with ⟨e, _⟩ | ⟨e, _⟩ <;> exact hne e.symm
  have hL3A : L3 A.index = b1 :: [] := by
    rw [L3eq, Function.update_noteq hne, Function.update_same, l21]
    rfl
  have hL3B : L3 B.index = s2.brk :: [] := by
    rw [L3eq, Function.update_same, Function.update_noteq (Ne.symm hne), hL2B]
    rfl
  have hL3 : ∀ k, k < HASHSIZE → k ≠ A.index → k ≠ B.index → L3 k = [] := by
    intro k hk hkA hkB
    apply List.eq_nil_iff_forall_not_mem.mpr
    intro p hp
    rcases (m3 k p hk).mp hp with ⟨hp2, _⟩ | ⟨e, _⟩
    · rcases (m2 k p).mp hp2 with ⟨e, _⟩ | ⟨e, _⟩ <;> exact hkA e
    · exact hkB e
  have hsz1 : (s3.heap b1).size = 400 := (sz b1 (Ne.symm n01) n12).trans z1
  obtain ⟨f1, _⟩ := @evict_loop_first 1000 400 _ _ hR2 0 A.index (Nat.zero_le _) hA
    (fun k _ hk => hempty2 k hk) _ _ l21
    (by show s2.total_size + 400 > 1000; rw [t2]; decide)
    (by show s2.total_size - (s2.heap b0).size + 400 ≤ 1000; rw [t2, z0]; decide)
    1010 (by omega)
  obtain ⟨f2, f3⟩ := @evict_loop_first 1000 400 _ _ hR3 0 A.index (Nat.zero_le _) hA
    (fun k _ hk => hL3 k (by omega) (by omega) (by omega)) _ _ hL3A
    (by show s3.total_size + 400 > 1000; rw [t3]; decide)
    (by show s3.total_size - (s3.heap b1).size + 400 ≤ 1000; rw [t3, hsz1]; decide)
    1010 (by omega)
  obtain ⟨f4, f5⟩ := @evict_loop_first 1000 400 _ _ hR3 (A.index + 1) B.index (by omega) hB
    (fun k hk1 hk2 => hL3 k (by omega) (by omega) (by omega)) _ _ hL3B
    (by show s3.total_size + 400 > 1000; rw [t3]; decide)
    (by show s3.total_size - (s3.heap s2.brk).size + 400 ≤ 1000; rw [t3, sz2]; decide)
    1010 (by omega)
  rw [Nat.sub_zero] at f1 f2 f3
  refine ⟨s1, s2, s3, u1, u2, u3, f1, ?_, ?_, ?_⟩
  · show evict_loop 1000 400 1010 _ 0 = _
    rw [f2, f3]
  · rw [f4, f5]
  · intro heq
    have h1 : ((evict_step { s3 with write_sem := 0 } A.index).heap s2.brk).id = some B.id := by
      rw [((evict_step_cons hR3 hA hL3A).2.2 s2.brk (Ne.symm n12)).1]
      exact i2
    have h2 : ((evict_step { s3 with write_sem := 0 } B.index).heap s2.brk).id = none := by
      rw [(evict_step_heap hR3 hB hL3B).1]
      simp [destroy_block]
    rw [heq, h2] at h1
    exact Option.noConfusion h1

/-- C9, counterexample.  Capacity 1000, keys `a:80/` (bucket 151) and `b:80/`
(bucket 215), objects of 400 bytes.  After two insertions under the first key
and one under the second, the eviction made by the third insertion has scanned
the buckets `0 .. 151`.  The call of `evict_to_fit` that the next insertion of
400 bytes makes evicts from bucket 151 again, so it did not start at the bucket
following the last one visited: a scan from bucket 152 evicts from bucket 215,
and leaves a different state. -/
theorem C9_counterexample_cursor_restarts_at_zero :
    ∃ s1 s2 s3,
      update_cache 1000 1010 empty_cache key_a (some (obj400 1)) (obj400 1).length
        = some (0, s1)
      ∧ update_cache 1000 1010 s1 key_a (some (obj400 2)) (obj400 2).length = some (0, s2)
      ∧ update_cache 1000 1010 s2 key_b (some (obj400 3)) (obj400 3).length = some (0, s3)
      ∧ evict_to_fit 1000 1010 { s2 with write_sem := 0 } 400
          = some (evict_run (key_a.index + 1) { s2 with write_sem := 0 } 0)
      ∧ evict_to_fit 1000 1010 { s3 with write_sem := 0 } 400
          = some (evict_step { s3 with write_sem := 0 } key_a.index)
      ∧ evict_loop 1000 400 1010 { s3 with write_sem := 0 } (key_a.index + 1)
          = some (evict_step { s3 with write_sem := 0 } key_b.index)
      ∧ evict_step { s3 with write_sem := 0 } key_a.index
          ≠ evict_step { s3 with write_sem := 0 } key_b.index :=
  cursor_restarts key_a key_b key_a_before_key_b key_b_index

/-- C10.  In a cache state with well-formed buckets whose `total_size` is the
sum of the sizes of the linked entries, and for `0 ≤ size ≤ MAX_CACHE_SIZE`,
`evict_to_fit` terminates: there is a number `m` of loop iterations, at most
`HASHSIZE` per linked entry, such that the call returns the state after `m`
iterations whenever it is given more than `m` steps, and no call returns
anything else.  On return `total_size + size ≤ MAX_CACHE_SIZE`, and the loop
stopped as soon as that held: before each of its `m` iterations, so in
particular immediately before its last eviction,
`total_size + size > MAX_CACHE_SIZE`. -/
theorem C10_evict_to_fit_terminates_and_fits (s : State) (L : Nat → List Ptr) (size : Int)
    (hR : Rep s L) (hsum : s.total_size = linked_size s.heap L)
    (hsize0 : 0 ≤ size) (hsize : size ≤ MAX_CACHE_SIZE) :
    ∃ m, m ≤ HASHSIZE * linked_count L
      ∧ (∀ fuel, m < fuel → evict_to_fit MAX_CACHE_SIZE fuel s size = some (evict_run m s 0))
      ∧ (∀ fuel s2, evict_to_fit MAX_CACHE_SIZE fuel s size = some s2 → s2 = evict_run m s 0)
      ∧ (evict_run m s 0).total_size + size ≤ MAX_CACHE_SIZE
      ∧ (∀ k, k < m → (evict_run k s 0).total_size + size > MAX_CACHE_SIZE)
      ∧ (0 < m → (evict_run (m - 1) s 0).total_size + size > MAX_CACHE_SIZE
          ∧ evict_run m s 0 = evict_step (evict_run (m - 1) s 0) ((m - 1) % HASHSIZE)
          ∧ (evict_run m s 0).total_size < (evict_run (m - 1) s 0).total_size) := by
  classical
  have _ := hsize0
  have hex : ∃ m, m ≤ HASHSIZE * linked_count L
      ∧ (evict_run m s 0).total_size + size ≤ MAX_CACHE_SIZE :=
    @evict_run_fits MAX_CACHE_SIZE size hsize _ _ hR hsum 0 (by decide)
  have hex2 : ∃ m, (evict_run m s 0).total_size + size ≤ MAX_CACHE_SIZE := by
    obtain ⟨m, _, h⟩ := hex
    exact ⟨m, h⟩
  have hmin : ∀ k, k < Nat.find hex2 →
      (evict_run k s 0).total_size + size > MAX_CACHE_SIZE := by
    intro k hk
    have := Nat.find_min hex2 hk
    omega
  have hle : Nat.find hex2 ≤ HASHSIZE * linked_count L := by
    obtain ⟨m, hm, h⟩ := hex
    exact le_trans (Nat.find_min' hex2 h) hm
  refine ⟨Nat.find hex2, hle, ?_, ?_, Nat.find_spec hex2, hmin, ?_⟩
  · intro fuel hfuel
    exact (evict_loop_eq_some _ _ _ _ _ _).mpr
      ⟨Nat.find hex2, hfuel, rfl, Nat.find_spec hex2, hmin⟩
  · intro fuel s2 h
    obtain ⟨m, _, e, hfit, hbefore⟩ := (evict_loop_eq_some _ _ _ _ _ _).mp h
    have h1 : Nat.find hex2 ≤ m := Nat.find_min' hex2 hfit
    have h2 : ¬ Nat.find hex2 < m := by
      intro hlt
      have := hbefore _ hlt
      have := Nat.find_spec hex2
      omega
    have h3 : m = Nat.find hex2 := by omega
    rw [e, h3]
  · intro hpos
    have hlast := hmin (Nat.find hex2 - 1) (by omega)
    have hstep : evict_run (Nat.find hex2) s 0
        = evict_step (evict_run (Nat.find hex2 - 1) s 0) ((Nat.find hex2 - 1) % HASHSIZE) := by
      have := evict_run_succ_last (Nat.find hex2 - 1) s
      rwa [Nat.sub_add_cancel hpos] at this
    refine ⟨hlast, hstep, ?_⟩
    have := Nat.find_spec hex2
    omega

/-- C10, witness.  With two one-byte objects cached and a request of
`MAX_CACHE_SIZE` bytes. -/
theorem C10_evict_to_fit_terminates_and_fits_witness :
    ∃ m, m ≤ HASHSIZE * linked_count pair_lists
      ∧ (∀ fuel, m < fuel →
          evict_to_fit MAX_CACHE_SIZE fuel pair_cached MAX_CACHE_SIZE
            = some (evict_run m pair_cached 0))
      ∧ (∀ fuel s2, evict_to_fit MAX_CACHE_SIZE fuel pair_cached MAX_CACHE_SIZE = some s2 →
          s2 = evict_run m pair_cached 0)
      ∧ (evict_run m pair_cached 0).total_size + MAX_CACHE_SIZE ≤ MAX_CACHE_SIZE
      ∧ (∀ k, k < m → (evict_run k pair_cached 0).total_size + MAX_CACHE_SIZE > MAX_CACHE_SIZE)
      ∧ (0 < m → (evict_run (m - 1) pair_cached 0).total_size + MAX_CACHE_SIZE > MAX_CACHE_SIZE
          ∧ evict_run m pair_cached 0
              = evict_step (evict_run (m - 1) pair_cached 0) ((m - 1) % HASHSIZE)
          ∧ (evict_run m pair_cached 0).total_size
              < (evict_run (m - 1) pair_cached 0).total_size) :=
  C10_evict_to_fit_terminates_and_fits pair_cached pair_lists MAX_CACHE_SIZE
    pair_cached_facts.1.rep pair_cached_facts.1.sum (by decide) (le_refl _)

/-! ## How `sscanf` cuts its input -/

theorem takeWhile_append_stop {p : Nat → Bool} {a r : List Nat} (ha : ∀ x, x ∈ a → p x = true)
    (hr : ∀ x t, r = x :: t → p x = false) : (a ++ r).takeWhile p = a := by
  induction a with
  | nil =>
    cases r with
    | nil => rfl
    | cons x t => simp [List.takeWhile, hr x t rfl]
  | cons y l ih =>
    rw [List.cons_append, List.takeWhile_cons_of_pos (ha y (by simp)),
      ih (fun x hx => ha x (List.mem_cons_of_mem _ hx))]

theorem dropWhile_append_stop {p : Nat → Bool} {a r : List Nat} (ha : ∀ x, x ∈ a → p x = true)
    (hr : ∀ x t, r = x :: t → p x = false) : (a ++ r).dropWhile p = r := by
  induction a with
  | nil =>
    cases r with
    | nil => rfl
    | cons x t => simp [List.dropWhile, hr x t rfl]
  | cons y l ih =>
    rw [List.cons_append, List.dropWhile_cons_of_pos (ha y (by simp))]
    exact ih (fun x hx => ha x (List.mem_cons_of_mem _ hx))

theorem dropWhile_cons_stop {p : Nat → Bool} {l t : List Nat} {x : Nat}
    (h : l.dropWhile p = x :: t) : p x = false := by
  induction l with
  | nil => simp at h
  | cons y l ih =>
    simp only [List.dropWhile] at h
    split at h
    · exact ih h
    · rename_i hy
      simp only [List.cons.injEq] at h
      rw [← h.1]
      simpa using hy

theorem cstr_of_no_nul {l : List Nat} (h : 0 ∉ l) : cstr l = l := by
  unfold cstr
  rw [List.takeWhile_eq_self_iff]
  intro x hx
  simp only [bne_iff_ne, ne_eq]
  intro e
  exact h (e ▸ hx)

/-- `%[^c]` on an input that begins with a non-empty run `a` without `c`,
followed by `c` or by the end. -/
theorem sscanf_notset {c : Nat} {ds : List Directive} {a r : List Nat} {done : List (List Nat)}
    (ha : a ≠ []) (hc : c ∉ a) (hr : ∀ x t, r = x :: t → x = c) :
    sscanf (Directive.notset c :: ds) (a ++ r) done = sscanf ds r (done ++ [a]) := by
  have h1 : ∀ x, x ∈ a → (fun x => x != c) x = true := by
    intro x hx
    simp only [bne_iff_ne, ne_eq]
    intro e
    exact hc (e ▸ hx)
  have h2 : ∀ x t, r = x :: t → (fun x => x != c) x = false := by
    intro x t e
    simp [hr x t e]
  simp only [sscanf]
  rw [takeWhile_append_stop h1 h2, dropWhile_append_stop h1 h2]
  simp [ha]

/-- `%s` on an input that begins with a non-empty run `a` without white space,
followed by white space or by the end. -/
theorem sscanf_str {ds : List Directive} {a r : List Nat} {done : List (List Nat)}
    (ha : a ≠ []) (hw : ∀ x, x ∈ a → isspace x = false)
    (hr : ∀ x t, r = x :: t → isspace x = true) :
    sscanf (Directive.str :: ds) (a ++ r) done = sscanf ds r (done ++ [a]) := by
  have h0 : (a ++ r).dropWhile isspace = a ++ r := by
    cases a with
    | nil => exact absurd rfl ha
    | cons y l => simp [List.dropWhile, hw y (by simp)]
  have h1 : ∀ x, x ∈ a → (fun x => !isspace x) x = true := by
    intro x hx
    simp [hw x hx]
  have h2 : ∀ x t, r = x :: t → (fun x => !isspace x) x = false := by
    intro x t e
    simp [hr x t e]
  simp only [sscanf]
  rw [h0, takeWhile_append_stop h1 h2, dropWhile_append_stop h1 h2]
  simp [ha]

/-- `%s` as the last directive, on an input with a character that is not white
space: it assigns a string. -/
theorem sscanf_str_last {inp : List Nat} {done : List (List Nat)}
    (h : ∃ x, x ∈ inp ∧ isspace x = false) :
    sscanf [Directive.str] inp done
      = ((done.length : Int) + 1,
          done ++ [(inp.dropWhile isspace).takeWhile (fun x => !isspace x)]) := by
  have hne : inp.dropWhile isspace ≠ [] := by
    intro e
    obtain ⟨x, hx, hs⟩ := h
    have := List.dropWhile_eq_nil_iff.mp e x hx
    rw [hs] at this
    exact Bool.noConfusion this
  simp [sscanf, hne]

theorem sscanf_ws (ds : List Directive) (inp : List Nat) (done : List (List Nat)) :
    sscanf (Directive.ws :: ds) inp done = sscanf ds (inp.dropWhile isspace) done := by
  simp only [sscanf]

theorem sscanf_nil (inp : List Nat) (done : List (List Nat)) :
    sscanf [] inp done = ((done.length : Int), done) := by
  simp only [sscanf]

theorem dropWhile_isspace_cons {x : Nat} {c : List Nat} (hx : isspace x = false) :
    (x :: c).dropWhile isspace = x :: c := by
  simp [List.dropWhile, hx]

/-- The first `sscanf` of `read_parse_request_line` on a line of three fields. -/
theorem scan_request_line_of_split {s m a u b : List Nat} {x : Nat} {c : List Nat}
    (h : Split3 s m a u b x c) :
    sscanf fmt_request_line s []
      = (3, [m, u, (x :: c).takeWhile (fun y => !isspace y)]) := by
  obtain ⟨y, t, hu, hy⟩ := h.u_hd
  have hune : u ≠ [] := by rw [hu]; exact List.cons_ne_nil _ _
  have e1 : (32 :: (a ++ (u ++ (32 :: (b ++ (x :: c)))))).dropWhile isspace
      = u ++ (32 :: (b ++ (x :: c))) := by
    have : (32 :: (a ++ (u ++ (32 :: (b ++ (x :: c))))))
        = (32 :: a) ++ (u ++ (32 :: (b ++ (x :: c)))) := rfl
    rw [this]
    apply dropWhile_append_stop
    · intro z hz
      rcases List.mem_cons.mp hz with e | hz
      · rw [e]; decide
      · exact h.a_ws z hz
    · intro z t2 e
      rw [hu] at e
      simp only [List.cons_append, List.cons.injEq] at e
      rw [← e.1]
      exact hy
  have e2 : (32 :: (b ++ (x :: c))).dropWhile isspace = x :: c := by
    have : (32 :: (b ++ (x :: c))) = (32 :: b) ++ (x :: c) := rfl
    rw [this]
    apply dropWhile_append_stop
    · intro z hz
      rcases List.mem_cons.mp hz with e | hz
      · rw [e]; decide
      · exact h.b_ws z hz
    · intro z t2 e
      simp only [List.cons.injEq] at e
      rw [← e.1]
      exact h.x_ns
  rw [h.eq, fmt_request_line,
    sscanf_notset h.m_ne h.m_sp (fun z t2 e => by simp only [List.cons.injEq] at e; exact e.1.symm)]
  rw [sscanf_ws, e1, sscanf_notset hune h.u_sp
    (fun z t2 e => by simp only [List.cons.injEq] at e; exact e.1.symm)]
  rw [sscanf_ws, e2, sscanf_str_last ⟨x, by simp, h.x_ns⟩, dropWhile_isspace_cons h.x_ns]
  rfl

/-- If the first `sscanf` of `read_parse_request_line` assigns three strings, the
line has three fields. -/
theorem split_of_scan_request_line {s : List Nat}
    (h : (sscanf fmt_request_line s []).1 = 3) :
    ∃ m a u b x c, Split3 s m a u b x c := by
  simp only [fmt_request_line, sscanf] at h
  by_cases h1 : s = []
  · simp [h1, scan_eof] at h
  simp only [h1, if_false] at h
  by_cases h2 : s.takeWhile (fun x => x != 32) = []
  · simp [h2] at h
  simp only [h2, if_false] at h
  by_cases h3 : (s.dropWhile (fun x => x != 32)).dropWhile isspace = []
  · simp [h3, scan_eof] at h
  simp only [h3, if_false] at h
  by_cases h4 : ((s.dropWhile (fun x => x != 32)).dropWhile isspace).takeWhile
      (fun x => x != 32) = []
  · simp [h4] at h
  simp only [h4, if_false] at h
  by_cases h5 : ((((s.dropWhile (fun x => x != 32)).dropWhile isspace).dropWhile
      (fun x => x != 32)).dropWhile isspace).dropWhile isspace = []
  · simp [h5, scan_eof] at h
  clear h
  -- the pieces
  generalize hr1 : s.dropWhile (fun x => x != 32) = r1 at h3 h4 h5
  generalize hr2 : r1.dropWhile isspace = r2 at h3 h4 h5
  generalize hr3 : r2.dropWhile (fun x => x != 32) = r3 at h5
  generalize hr4 : r3.dropWhile isspace = r4 at h5
  have hs : s = s.takeWhile (fun x => x != 32) ++ r1 := by
    rw [← hr1, List.takeWhile_append_dropWhile]
  have hr2s : r2 = r2.takeWhile (fun x => x != 32) ++ r3 := by
    rw [← hr3, List.takeWhile_append_dropWhile]
  have hr1s : r1 = r1.takeWhile isspace ++ r2 := by
    rw [← hr2, List.takeWhile_append_dropWhile]
  have hr3s : r3 = r3.takeWhile isspace ++ r4 := by
    rw [← hr4, List.takeWhile_append_dropWhile]
  -- `r1` and `r3` begin with a space
  have hsp : ∀ {l r : List Nat}, l.dropWhile (fun x => x != 32) = r → r ≠ [] →
      ∃ t, r = 32 :: t := by
    intro l r e hne
    cases r with
    | nil => exact absurd rfl hne
    | cons z t =>
      have := dropWhile_cons_stop e
      simp only [bne_eq_false_iff_eq] at this
      exact ⟨t, by rw [this]⟩
  have hr1ne : r1 ≠ [] := by
    intro e
    rw [e] at hr2
    exact h3 hr2.symm
  have hr3ne : r3 ≠ [] := by
    intro e
    rw [e] at hr4
    rw [← hr4] at h5
    exact h5 rfl
  obtain ⟨t1, ht1⟩ := hsp hr1 hr1ne
  obtain ⟨t3, ht3⟩ := hsp hr3 hr3ne
  have hr4d : r4.dropWhile isspace = r4 := by
    rw [← hr4, List.dropWhile_idempotent]
  rw [hr4d] at h5
  cases hr4c : r4 with
  | nil => exact absurd hr4c h5
  | cons x c =>
    have hx : isspace x = false := dropWhile_cons_stop (hr4.trans hr4c)
    cases hr2c : r2 with
    | nil => exact absurd hr2c h3
    | cons y t =>
      have hy : isspace y = false := dropWhile_cons_stop (hr2.trans hr2c)
      have ha : r1.takeWhile isspace = 32 :: t1.takeWhile isspace := by
        rw [ht1, List.takeWhile_cons_of_pos (by decide)]
      have hb : r3.takeWhile isspace = 32 :: t3.takeWhile isspace := by
        rw [ht3, List.takeWhile_cons_of_pos (by decide)]
      refine ⟨s.takeWhile (fun x => x != 32), t1.takeWhile isspace,
        r2.takeWhile (fun x => x != 32), t3.takeWhile isspace, x, c, ?_, h2, ?_, ?_, ?_, ?_, ?_, hx⟩
      · rw [← hr4c]
        have e3 : 32 :: (t3.takeWhile isspace ++ r4) = r3 := by
          rw [← List.cons_append, ← hb, ← hr3s]
        have e2 : r2.takeWhile (fun x => x != 32) ++ (32 :: (t3.takeWhile isspace ++ r4)) = r2 := by
          rw [e3, ← hr2s]
        have e1 : 32 :: (t1.takeWhile isspace ++ (r2.takeWhile (fun x => x != 32)
            ++ (32 :: (t3.takeWhile isspace ++ r4)))) = r1 := by
          rw [e2, ← List.cons_append, ← ha, ← hr1s]
        rw [e1, ← hs]
      · intro hm
        have := List.mem_takeWhile_imp hm
        simp at this
      · intro z hz
        exact List.mem_takeWhile_imp hz
      · intro hm
        have := List.mem_takeWhile_imp hm
        simp at this
      · refine ⟨y, t.takeWhile (fun x => x != 32), ?_, hy⟩
        rw [hr2c] at h4 ⊢
        by_cases hy32 : y = 32
        · rw [hy32] at hy
          exact absurd hy (by decide)
        · rw [List.takeWhile_cons_of_pos (by simpa using hy32)]
      · intro z hz
        exact List.mem_takeWhile_imp hz

/-! ## C14, C15: the cache key -/

theorem same_letter_iff (a b : Nat) : same_letter a b = true ↔ tolower a = tolower b := by
  simp only [same_letter, tolower, Bool.or_eq_true, Bool.and_eq_true, beq_iff_eq,
    decide_eq_true_eq]
  constructor
  · intro h
    split <;> split <;> omega
  · intro h
    split at h <;> split at h <;> omega

theorem eq_ignoring_case_iff (a b : List Nat) :
    eq_ignoring_case a b = true ↔ a.map tolower = b.map tolower := by
  induction a generalizing b with
  | nil => cases b <;> simp [eq_ignoring_case]
  | cons x l ih =>
    cases b with
    | nil => simp [eq_ignoring_case]
    | cons y m =>
      simp only [eq_ignoring_case, Bool.and_eq_true, List.map_cons, List.cons.injEq, ih,
        same_letter_iff]

/-- A string is cut in one way only at the first occurrence of a character. -/
theorem append_cons_inj {c : Nat} {a1 a2 r1 r2 : List Nat} (h1 : c ∉ a1) (h2 : c ∉ a2)
    (h : a1 ++ c :: r1 = a2 ++ c :: r2) : a1 = a2 ∧ r1 = r2 := by
  induction a1 generalizing a2 with
  | nil =>
    cases a2 with
    | nil => simpa using h
    | cons y m =>
      simp only [List.nil_append, List.cons_append, List.cons.injEq] at h
      exact absurd (by simp [h.1]) h2
  | cons x l ih =>
    cases a2 with
    | nil =>
      simp only [List.nil_append, List.cons_append, List.cons.injEq] at h
      exact absurd (by simp [h.1]) h1
    | cons y m =>
      simp only [List.cons_append, List.cons.injEq] at h
      obtain ⟨e1, e2⟩ := ih (fun hm => h1 (List.mem_cons_of_mem _ hm))
        (fun hm => h2 (List.mem_cons_of_mem _ hm)) h.2
      exact ⟨by rw [h.1, e1], e2⟩

theorem tolower_ne_colon {l : List Nat} (h : 58 ∉ l) : 58 ∉ l.map tolower := by
  intro hm
  obtain ⟨x, hx, e⟩ := List.mem_map.mp hm
  have : x = 58 := by
    simp only [tolower] at e
    split at e <;> omega
  exact h (this ▸ hx)

theorem gen_cid_id_eq_iff (h1 p1 q1 h2 p2 q2 : List Nat)
    (hh1 : 58 ∉ h1) (hh2 : 58 ∉ h2) (hp1 : 47 ∉ p1) (hp2 : 47 ∉ p2)
    (hq1 : q1.head? = some 47) (hq2 : q2.head? = some 47) :
    (gen_cid h1 p1 q1).id = (gen_cid h2 p2 q2).id ↔
      eq_ignoring_case h1 h2 = true ∧ p1 = p2 ∧ q1 = q2 := by
  rw [eq_ignoring_case_iff]
  constructor
  · intro h
    simp only [gen_cid, List.append_assoc, List.singleton_append] at h
    obtain ⟨e1, e2⟩ := append_cons_inj (tolower_ne_colon hh1) (tolower_ne_colon hh2) h
    cases q1 with
    | nil => simp at hq1
    | cons a t1 =>
      cases q2 with
      | nil => simp at hq2
      | cons b t2 =>
        simp only [List.head?_cons, Option.some.injEq] at hq1 hq2
        subst hq1 hq2
        obtain ⟨e3, e4⟩ := append_cons_inj hp1 hp2 e2
        exact ⟨e1, e3, by rw [e4]⟩
  · rintro ⟨e1, e2, e3⟩
    simp only [gen_cid, e1, e2, e3]

/-! ## The request line -/

theorem strncasecmp_http (u : List Nat) :
    strncasecmp u (bytes "http://") (bytes "http://").length = 0
      ↔ eq_ignoring_case (u.take 7) (bytes "http://") = true := by
  rw [eq_ignoring_case_iff]
  simp only [strncasecmp, List.take_length]
  have : (bytes "http://").length = 7 := by decide
  rw [this]
  split <;> simp_all

/-- The fields `read_parse_request_line` extracts from the URI `u`. -/
theorem read_parse_request_line_of_split {line : List Nat} {rest : rio_t}
    {m a u b : List Nat} {x : Nat} {c : List Nat} (hl : line ≠ [])
    (hs : Split3 (cstr line) m a u b x c)
    (hp : eq_ignoring_case (u.take 7) (bytes "http://") = true) :
    read_parse_request_line (some line :: rest)
      = (0, { method := m,
              host := ((sscanf fmt_key_value
                ((sscanf fmt_host_path (u.drop 7) []).2.getD 0 []) []).2).getD 0 [],
              path := (sscanf fmt_host_path (u.drop 7) []).2.getD 1 (bytes "/"),
              port := ((sscanf fmt_key_value
                ((sscanf fmt_host_path (u.drop 7) []).2.getD 0 []) []).2).getD 1 (bytes "80"),
              version := bytes "HTTP/1.0" }, rest) := by
  have h7 : (bytes "http://").length = 7 := by decide
  have hp2 := (strncasecmp_http u).mpr hp
  cases line with
  | nil => exact absurd rfl hl
  | cons b0 bs =>
    have hlen : ¬ (((b0 :: bs).length : Nat) : Int) ≤ 0 := by
      simp only [List.length_cons, Nat.cast_add, Nat.cast_one]
      omega
    simp only [read_parse_request_line, Rio_readlineb, nread_of, buf_of, hlen, if_false,
      scan_request_line_of_split hs, List.getD_cons_zero, List.getD_cons_succ, ne_eq,
      not_true_eq_false, h7]
    rw [h7] at hp2
    rw [if_neg (not_not.mpr hp2)]


/-- Why `read_parse_request_line` fails, and what it needs to succeed. -/
theorem read_parse_request_line_ok_iff (rp : rio_t) :
    ((read_parse_request_line rp).1 = 0 ∨ (read_parse_request_line rp).1 = -1)
      ∧ ((read_parse_request_line rp).1 = 0 ↔
          ∃ line rest m a u b x c, rp = some line :: rest ∧ line ≠ []
            ∧ Split3 (cstr line) m a u b x c
            ∧ eq_ignoring_case (u.take 7) (bytes "http://") = true) := by
  have h7 : (bytes "http://").length = 7 := by decide
  have key : ∀ (line : List Nat) (rest : rio_t), line ≠ [] →
      ¬ (∃ m a u b x c, Split3 (cstr line) m a u b x c
          ∧ eq_ignoring_case (u.take 7) (bytes "http://") = true) →
      (read_parse_request_line (some line :: rest)).1 = -1 := by
    intro line rest hl hno
    cases line with
    | nil => exact absurd rfl hl
    | cons b0 bs =>
      have hlen : ¬ (((b0 :: bs).length : Nat) : Int) ≤ 0 := by
        simp only [List.length_cons, Nat.cast_add, Nat.cast_one]
        omega
      simp only [read_parse_request_line, Rio_readlineb, nread_of, buf_of, hlen, if_false]
      by_cases h3 : (sscanf fmt_request_line (cstr (b0 :: bs)) []).1 = 3
      · obtain ⟨m, a, u, b, x, c, hs⟩ := split_of_scan_request_line h3
        have hp : ¬ eq_ignoring_case (u.take 7) (bytes "http://") = true :=
          fun hp => hno ⟨m, a, u, b, x, c, hs, hp⟩
        have hp2 : ¬ strncasecmp u (bytes "http://") 7 = 0 := by
          rw [← h7]
          exact fun e => hp ((strncasecmp_http u).mp e)
        simp only [scan_request_line_of_split hs, List.getD_cons_zero, List.getD_cons_succ,
          ne_eq, not_true_eq_false, if_false, h7, hp2, not_false_eq_true, if_true]
      · simp only [ne_eq, h3, not_false_eq_true, if_true]
  constructor
  · cases rp with
    | nil => right; simp [read_parse_request_line, Rio_readlineb]
    | cons r rest =>
      cases r with
      | none => right; simp [read_parse_request_line, Rio_readlineb, nread_of]
      | some line =>
        by_cases hl : line = []
        · right; simp [read_parse_request_line, Rio_readlineb, nread_of, hl]
        · by_cases hex : ∃ m a u b x c, Split3 (cstr line) m a u b x c
              ∧ eq_ignoring_case (u.take 7) (bytes "http://") = true
          · obtain ⟨m, a, u, b, x, c, hs, hp⟩ := hex
            left
            rw [read_parse_request_line_of_split hl hs hp]
          · right
            exact key line rest hl hex
  · constructor
    · intro h0
      cases rp with
      | nil => simp [read_parse_request_line, Rio_readlineb] at h0
      | cons r rest =>
        cases r with
        | none => simp [read_parse_request_line, Rio_readlineb, nread_of] at h0
        | some line =>
          by_cases hl : line = []
          · simp [read_parse_request_line, Rio_readlineb, nread_of, hl] at h0
          · by_cases hex : ∃ m a u b x c, Split3 (cstr line) m a u b x c
                ∧ eq_ignoring_case (u.take 7) (bytes "http://") = true
            · obtain ⟨m, a, u, b, x, c, hs, hp⟩ := hex
              exact ⟨line, rest, m, a, u, b, x, c, rfl, hl, hs, hp⟩
            · rw [key line rest hl hex] at h0
              exact absurd h0 (by decide)
    · rintro ⟨line, rest, m, a, u, b, x, c, e, hl, hs, hp⟩
      rw [e, read_parse_request_line_of_split hl hs hp]

theorem sscanf_lit_cons (c : Nat) (ds : List Directive) (r : List Nat) (done : List (List Nat)) :
    sscanf (Directive.lit c :: ds) (c :: r) done = sscanf ds r done := by
  simp only [sscanf, if_true]

theorem sscanf_lit_nil (c : Nat) (ds : List Directive) (done : List (List Nat)) :
    sscanf (Directive.lit c :: ds) [] done = (scan_eof done, done) := by
  simp only [sscanf]

theorem sscanf_str_nil (ds : List Directive) (done : List (List Nat)) :
    sscanf (Directive.str :: ds) [] done = (scan_eof done, done) := by
  simp [sscanf]

/-- The second `sscanf` of `read_parse_request_line` on `HOST[:PORT][/PATH]`. -/
theorem scan_host_path {hp : List Nat} (path : Option (List Nat)) (hne : hp ≠ [])
    (hno : 47 ∉ hp) (hq : ∀ q, path = some q → ∀ x, x ∈ q → isspace x = false) :
    (sscanf fmt_host_path (hp ++ opt_part 47 path) []).2
      = hp :: (path.map (fun q => 47 :: q)).toList := by
  cases path with
  | none =>
    simp only [fmt_host_path, opt_part]
    rw [sscanf_notset hne hno (fun x t e => by simp at e), sscanf_str_nil]
    rfl
  | some q =>
    simp only [fmt_host_path, opt_part]
    rw [sscanf_notset hne hno (fun x t e => by simp only [List.cons.injEq] at e; exact e.1.symm)]
    have := @sscanf_str [] (47 :: q) [] ([] ++ [hp]) (List.cons_ne_nil _ _)
      (by
        intro x hx
        rcases List.mem_cons.mp hx with e | hx
        · rw [e]; decide
        · exact hq q rfl x hx)
      (fun x t e => by simp at e)
    rw [List.append_nil] at this
    rw [this, sscanf_nil]
    rfl

/-- The third `sscanf` of `read_parse_request_line` on `HOST[:PORT]`. -/
theorem scan_host_port {host : List Nat} (port : Option (List Nat)) (hne : host ≠ [])
    (hno : 58 ∉ host)
    (hp : ∀ p, port = some p → p ≠ [] ∧ ∀ x, x ∈ p → isspace x = false) :
    (sscanf fmt_key_value (host ++ opt_part 58 port) []).2
      = host :: port.toList := by
  cases port with
  | none =>
    simp only [fmt_key_value, opt_part]
    rw [sscanf_notset hne hno (fun x t e => by simp at e), sscanf_lit_nil]
    rfl
  | some p =>
    simp only [fmt_key_value, opt_part]
    rw [sscanf_notset hne hno (fun x t e => by simp only [List.cons.injEq] at e; exact e.1.symm),
      sscanf_lit_cons]
    have := @sscanf_str [] p [] ([] ++ [host]) (hp p rfl).1 (hp p rfl).2
      (fun x t e => by simp at e)
    rw [List.append_nil] at this
    rw [this, sscanf_nil]
    rfl

/-- What the second `sscanf` of `read_parse_request_line` assigns, on any input:
a first string without `/`, and a second string that begins with `/`. -/
theorem scan_host_path_any (inp : List Nat) :
    47 ∉ (sscanf fmt_host_path inp []).2.getD 0 []
      ∧ ((sscanf fmt_host_path inp []).2.getD 1 (bytes "/")).head? = some 47 := by
  have hslash : (bytes "/").head? = some 47 := by decide
  have htw : 47 ∉ inp.takeWhile (fun x => x != 47) := by
    intro hm
    have := List.mem_takeWhile_imp hm
    simp at this
  simp only [fmt_host_path, sscanf]
  by_cases h1 : inp = []
  · simp [h1, hslash]
  by_cases h2 : inp.takeWhile (fun x => x != 47) = []
  · simp [h1, h2, hslash]
  simp only [h1, h2, if_false]
  cases hr : inp.dropWhile (fun x => x != 47) with
  | nil => simpa [hslash] using htw
  | cons z t =>
    have hz : z = 47 := by simpa using dropWhile_cons_stop hr
    subst hz
    have e : (47 :: t).dropWhile isspace = 47 :: t := dropWhile_isspace_cons (by decide)
    rw [e]
    simp only [List.nil_append, if_false, List.cons_append, List.getD_cons_zero,
      List.getD_cons_succ, reduceCtorEq]
    refine ⟨htw, ?_⟩
    rw [List.takeWhile_cons_of_pos (by decide)]
    rfl

/-- What the third `sscanf` of `read_parse_request_line` assigns, on an input
without `/`: a first string without `:`, and a second string without `/`. -/
theorem scan_host_port_any (inp : List Nat) (h47 : 47 ∉ inp) :
    58 ∉ (sscanf fmt_key_value inp []).2.getD 0 []
      ∧ 47 ∉ (sscanf fmt_key_value inp []).2.getD 1 (bytes "80") := by
  have h80 : 47 ∉ bytes "80" := by decide
  have htw : 58 ∉ inp.takeWhile (fun x => x != 58) := by
    intro hm
    have := List.mem_takeWhile_imp hm
    simp at this
  simp only [fmt_key_value, sscanf]
  by_cases h1 : inp = []
  · simp [h1, h80]
  by_cases h2 : inp.takeWhile (fun x => x != 58) = []
  · simp [h1, h2, h80]
  simp only [h1, h2, if_false]
  cases hr : inp.dropWhile (fun x => x != 58) with
  | nil => simpa [h80] using htw
  | cons z t =>
    have hz : z = 58 := by simpa using dropWhile_cons_stop hr
    subst hz
    simp only [if_true]
    by_cases h3 : t.dropWhile isspace = []
    · simpa [h3, h80] using htw
    · simp only [h3, if_false, List.nil_append, List.cons_append, List.getD_cons_zero,
        List.getD_cons_succ]
      refine ⟨htw, ?_⟩
      intro hm
      have m1 := (List.takeWhile_sublist _).subset hm
      have m2 := (List.dropWhile_sublist _).subset m1
      have m3 : (47 : Nat) ∈ inp.dropWhile (fun x => x != 58) := by
        rw [hr]
        exact List.mem_cons_of_mem _ m2
      exact h47 ((List.dropWhile_sublist _).subset m3)

/-- The triples `read_parse_request_line` produces: the host has no `:`, the
port has no `/`, and the path begins with `/`. -/
theorem read_parse_request_line_produces (rp : rio_t)
    (h : (read_parse_request_line rp).1 = 0) :
    58 ∉ (read_parse_request_line rp).2.1.host
      ∧ 47 ∉ (read_parse_request_line rp).2.1.port
      ∧ (read_parse_request_line rp).2.1.path.head? = some 47 := by
  obtain ⟨line, rest, m, a, u, b, x, c, e, hl, hs, hp⟩ :=
    (read_parse_request_line_ok_iff rp).2.mp h
  rw [e, read_parse_request_line_of_split hl hs hp]
  obtain ⟨g1, g2⟩ := scan_host_path_any (u.drop 7)
  obtain ⟨k1, k2⟩ := scan_host_port_any _ g1
  exact ⟨k1, k2, g2⟩

theorem gen_cid_ignores_case (h1 h2 port path : List Nat)
    (h : eq_ignoring_case h1 h2 = true) : gen_cid h1 port path = gen_cid h2 port path := by
  have e := (eq_ignoring_case_iff h1 h2).mp h
  simp only [gen_cid, e]

theorem tolower_tolower (c : Nat) : tolower (tolower c) = tolower c := by
  unfold tolower
  by_cases h : 65 ≤ c ∧ c ≤ 90
  · have h2 : ¬ (65 ≤ c + 32 ∧ c + 32 ≤ 90) := by omega
    rw [if_pos h, if_neg h2]
  · rw [if_neg h, if_neg h]

/-- C14.  For hosts `h1`, `h2` that are equal up to ASCII letter case and any
port and path, `gen_cid` builds the same id string and the same bucket index.
The id is the host in lower case (the host with `tolower` applied to each
character: it equals the host up to letter case and has no upper-case letter),
then `:`, the port and the path.  The request lines
`GET http://EXAMPLE.com/p HTTP/1.1` and `GET http://example.com/p HTTP/1.0` are
both parsed with success, and `gen_cid` on their fields gives the same key. -/
theorem C14_gen_cid_ignores_host_case (h1 h2 port path : List Nat)
    (h : eq_ignoring_case h1 h2 = true) :
    (gen_cid h1 port path).id = (gen_cid h2 port path).id
      ∧ (gen_cid h1 port path).index = (gen_cid h2 port path).index
      ∧ (gen_cid h1 port path).id = h1.map tolower ++ bytes ":" ++ port ++ path
      ∧ eq_ignoring_case (h1.map tolower) h1 = true
      ∧ (∀ c, c ∈ h1.map tolower → ¬ (65 ≤ c ∧ c ≤ 90))
      ∧ (read_parse_request_line [some (bytes "GET http://EXAMPLE.com/p HTTP/1.1\r\n")]).1 = 0
      ∧ (read_parse_request_line [some (bytes "GET http://example.com/p HTTP/1.0\r\n")]).1 = 0
      ∧ gen_cid
          (read_parse_request_line [some (bytes "GET http://EXAMPLE.com/p HTTP/1.1\r\n")]).2.1.host
          (read_parse_request_line [some (bytes "GET http://EXAMPLE.com/p HTTP/1.1\r\n")]).2.1.port
          (read_parse_request_line [some (bytes "GET http://EXAMPLE.com/p HTTP/1.1\r\n")]).2.1.path
        = gen_cid
          (read_parse_request_line [some (bytes "GET http://example.com/p HTTP/1.0\r\n")]).2.1.host
          (read_parse_request_line [some (bytes "GET http://example.com/p HTTP/1.0\r\n")]).2.1.port
          (read_parse_request_line [some (bytes "GET http://example.com/p HTTP/1.0\r\n")]).2.1.path := by
  have e := gen_cid_ignores_case h1 h2 port path h
  refine ⟨by rw [e], by rw [e], rfl, ?_, ?_, by decide, by decide, ?_⟩
  · rw [eq_ignoring_case_iff, List.map_map]
    apply List.map_congr_left
    intro c _
    exact tolower_tolower c
  · intro c hc
    obtain ⟨x, _, hx⟩ := List.mem_map.mp hc
    simp only [tolower] at hx
    split at hx <;> omega
  · have e1 : (read_parse_request_line
        [some (bytes "GET http://EXAMPLE.com/p HTTP/1.1\r\n")]).2.1.port
        = (read_parse_request_line
        [some (bytes "GET http://example.com/p HTTP/1.0\r\n")]).2.1.port := by decide
    have e2 : (read_parse_request_line
        [some (bytes "GET http://EXAMPLE.com/p HTTP/1.1\r\n")]).2.1.path
        = (read_parse_request_line
        [some (bytes "GET http://example.com/p HTTP/1.0\r\n")]).2.1.path := by decide
    rw [e1, e2]
    exact gen_cid_ignores_case _ _ _ _ (by decide)

/-- C14, witness: the hosts `EXAMPLE.com` and `example.com`. -/
theorem C14_gen_cid_ignores_host_case_witness :
    (gen_cid (bytes "EXAMPLE.com") (bytes "80") (bytes "/p")).id
        = (gen_cid (bytes "example.com") (bytes "80") (bytes "/p")).id
      ∧ (gen_cid (bytes "EXAMPLE.com") (bytes "80") (bytes "/p")).index
        = (gen_cid (bytes "example.com") (bytes "80") (bytes "/p")).index :=
  ⟨(C14_gen_cid_ignores_host_case (bytes "EXAMPLE.com") (bytes "example.com") (bytes "80")
      (bytes "/p") (by decide)).1,
   (C14_gen_cid_ignores_host_case (bytes "EXAMPLE.com") (bytes "example.com") (bytes "80")
      (bytes "/p") (by decide)).2.1⟩

/-- C15.  For triples of host, port and path in which the host has no `:`, the
port has no `/` and the path begins with `/`, `gen_cid` gives equal id strings
exactly when the hosts are equal up to ASCII letter case, the ports are equal
and the paths are equal.  Every triple that `read_parse_request_line` produces
is of this kind. -/
theorem C15_gen_cid_id_injective (h1 p1 q1 h2 p2 q2 : List Nat)
    (hh1 : 58 ∉ h1) (hh2 : 58 ∉ h2) (hp1 : 47 ∉ p1) (hp2 : 47 ∉ p2)
    (hq1 : q1.head? = some 47) (hq2 : q2.head? = some 47) :
    ((gen_cid h1 p1 q1).id = (gen_cid h2 p2 q2).id ↔
        eq_ignoring_case h1 h2 = true ∧ p1 = p2 ∧ q1 = q2)
      ∧ (∀ rp : rio_t, (read_parse_request_line rp).1 = 0 →
          58 ∉ (read_parse_request_line rp).2.1.host
          ∧ 47 ∉ (read_parse_request_line rp).2.1.port
          ∧ (read_parse_request_line rp).2.1.path.head? = some 47) :=
  ⟨gen_cid_id_eq_iff h1 p1 q1 h2 p2 q2 hh1 hh2 hp1 hp2 hq1 hq2,
   read_parse_request_line_produces⟩

/-- C15, witness: the triples of `http://a.com:80/x` and `http://A.COM/x`. -/
theorem C15_gen_cid_id_injective_witness :
    ((gen_cid (bytes "a.com") (bytes "80") (bytes "/x")).id
        = (gen_cid (bytes "A.COM") (bytes "80") (bytes "/x")).id ↔
        eq_ignoring_case (bytes "a.com") (bytes "A.COM") = true
          ∧ bytes "80" = bytes "80" ∧ bytes "/x" = bytes "/x")
      ∧ (∀ rp : rio_t, (read_parse_request_line rp).1 = 0 →
          58 ∉ (read_parse_request_line rp).2.1.host
          ∧ 47 ∉ (read_parse_request_line rp).2.1.port
          ∧ (read_parse_request_line rp).2.1.path.head? = some 47) :=
  C15_gen_cid_id_injective (bytes "a.com") (bytes "80") (bytes "/x") (bytes "A.COM") (bytes "80")
    (bytes "/x") (by decide) (by decide) (by decide) (by decide) (by decide) (by decide)

theorem bytes_http : bytes "http://" = [104, 116, 116, 112, 58, 47, 47] := by decide

theorem bytes_crlf : bytes "\r\n" = [13, 10] := by decide

/-- C16 (as amended).  For every request line
`METHOD http://HOST[:PORT][/PATH] VERSION` in which `METHOD` is not empty and
has no space, `HOST` is not empty and has no space, `:` or `/`, `PORT`, when
given, is not empty and has no `/` and no white space, `PATH` has no white
space, `VERSION` has a character that is not white space, and no field has a
NUL byte: `read_parse_request_line` succeeds with method `METHOD`, host `HOST`,
port `PORT` when given and `80` otherwise, path `/PATH` when given and `/`
otherwise, and version `HTTP/1.0`. -/
theorem C16_read_parse_request_line_fields (M H : List Nat) (P Q : Option (List Nat)) (V : List Nat)
    (rest : rio_t)
    (hM : M ≠ [] ∧ 32 ∉ M ∧ 0 ∉ M)
    (hH : H ≠ [] ∧ 32 ∉ H ∧ 58 ∉ H ∧ 47 ∉ H ∧ 0 ∉ H)
    (hP : ∀ p, P = some p → p ≠ [] ∧ 47 ∉ p ∧ 0 ∉ p ∧ ∀ x, x ∈ p → isspace x = false)
    (hQ : ∀ q, Q = some q → 0 ∉ q ∧ ∀ x, x ∈ q → isspace x = false)
    (hV : 0 ∉ V ∧ ∃ x, x ∈ V ∧ isspace x = false) :
    read_parse_request_line (some (request_line_text M H P Q V) :: rest)
      = (0, { method := M, host := H,
              path := (Q.map (fun q => 47 :: q)).getD (bytes "/"),
              port := P.getD (bytes "80"),
              version := bytes "HTTP/1.0" }, rest) := by
  -- the parts of the URI
  generalize hpp : opt_part 58 P = pp
  generalize hqq : opt_part 47 Q = qq
  have hpp0 : 0 ∉ pp ∧ 32 ∉ pp ∧ 47 ∉ pp := by
    rw [← hpp]
    unfold opt_part
    cases P with
    | none => simp
    | some p =>
      obtain ⟨_, h1, h2, h3⟩ := hP p rfl
      refine ⟨?_, ?_, ?_⟩
      · simp only [List.mem_cons]; rintro (e | e); · omega
        exact h2 e
      · simp only [List.mem_cons]; rintro (e | e); · omega
        have := h3 _ e; revert this; decide
      · simp only [List.mem_cons]; rintro (e | e); · omega
        exact h1 e
  have hqq0 : 0 ∉ qq ∧ 32 ∉ qq := by
    rw [← hqq]
    unfold opt_part
    cases Q with
    | none => simp
    | some q =>
      obtain ⟨h2, h3⟩ := hQ q rfl
      refine ⟨?_, ?_⟩
      · simp only [List.mem_cons]; rintro (e | e); · omega
        exact h2 e
      · simp only [List.mem_cons]; rintro (e | e); · omega
        have := h3 _ e; revert this; decide
  have hU : uri_text H P Q = bytes "http://" ++ (H ++ (pp ++ qq)) := by
    rw [← hpp, ← hqq]
    rfl
  have hU0 : 0 ∉ uri_text H P Q ∧ 32 ∉ uri_text H P Q := by
    rw [hU, bytes_http]
    simp only [List.mem_append, List.mem_cons, List.mem_singleton, List.not_mem_nil]
    refine ⟨?_, ?_⟩
    · rintro ((e | e | e | e | e | e | e | e) | e | e | e) <;> first | omega | skip
      · exact e
      · exact hH.2.2.2.2 e
      · exact hpp0.1 e
      · exact hqq0.1 e
    · rintro ((e | e | e | e | e | e | e | e) | e | e | e) <;> first | omega | skip
      · exact e
      · exact hH.2.1 e
      · exact hpp0.2.1 e
      · exact hqq0.2 e
  -- the version
  obtain ⟨hV0, xv, hxv, hxs⟩ := hV
  have hdw : V.dropWhile isspace ≠ [] := by
    intro e
    have := List.dropWhile_eq_nil_iff.mp e xv hxv
    rw [hxs] at this
    exact Bool.noConfusion this
  cases hd : V.dropWhile isspace with
  | nil => exact absurd hd hdw
  | cons x c0 =>
    have hx : isspace x = false := dropWhile_cons_stop hd
    have hVs : V = V.takeWhile isspace ++ (x :: c0) := by
      rw [← hd, List.takeWhile_append_dropWhile]
    have hline0 : 0 ∉ request_line_text M H P Q V := by
      unfold request_line_text
      rw [bytes_crlf]
      simp only [List.mem_append, List.mem_cons, List.mem_singleton, List.not_mem_nil]
      rintro (e | e | e | e | e | e | e | e) <;> first | omega | skip
      · exact hM.2.2 e
      · exact hU0.1 e
      · exact hV0 e
      · exact e
    have hs : Split3 (cstr (request_line_text M H P Q V)) M [] (uri_text H P Q)
        (V.takeWhile isspace) x (c0 ++ bytes "\r\n") := by
      refine ⟨?_, hM.1, hM.2.1, by simp, hU0.2, ?_, fun y hy => List.mem_takeWhile_imp hy, hx⟩
      · rw [cstr_of_no_nul hline0]
        unfold request_line_text
        conv_lhs => rw [hVs]
        simp only [List.nil_append, List.append_assoc, List.cons_append]
      · rw [hU, bytes_http]
        exact ⟨104, _, rfl, by decide⟩
    have hne : request_line_text M H P Q V ≠ [] := by
      unfold request_line_text
      cases M with
      | nil => exact absurd rfl hM.1
      | cons a t => simp
    have htake : (uri_text H P Q).take 7 = bytes "http://" := by
      rw [hU]
      exact List.take_left' (by decide)
    have hdrop : (uri_text H P Q).drop 7 = (H ++ pp) ++ qq := by
      rw [hU, List.append_assoc]
      exact List.drop_left' (by decide)
    rw [read_parse_request_line_of_split hne hs (by rw [htake]; decide), hdrop]
    have hhp1 : H ++ pp ≠ [] := by
      cases H with
      | nil => exact absurd rfl hH.1
      | cons a t => simp
    have hhp2 : 47 ∉ H ++ pp := by
      simp only [List.mem_append]
      rintro (e | e)
      · exact hH.2.2.2.1 e
      · exact hpp0.2.2 e
    rw [← hqq, scan_host_path Q hhp1 hhp2 (fun q hq => (hQ q hq).2)]
    simp only [List.getD_cons_zero]
    rw [← hpp, scan_host_port P hH.1 hH.2.2.1 (fun p hp => ⟨(hP p hp).1, (hP p hp).2.2.2⟩)]
    cases P <;> cases Q <;> rfl


/-- C16, witness: `GET http://example.com:8080/index.html HTTP/1.1`. -/
theorem C16_read_parse_request_line_fields_witness :
    read_parse_request_line
        (some (request_line_text (bytes "GET") (bytes "example.com") (some (bytes "8080"))
          (some (bytes "index.html")) (bytes "HTTP/1.1")) :: [])
      = (0, { method := bytes "GET", host := bytes "example.com",
              path := ((some (bytes "index.html")).map (fun q => 47 :: q)).getD (bytes "/"),
              port := (some (bytes "8080")).getD (bytes "80"),
              version := bytes "HTTP/1.0" }, []) :=
  C16_read_parse_request_line_fields (bytes "GET") (bytes "example.com") (some (bytes "8080"))
    (some (bytes "index.html")) (bytes "HTTP/1.1") []
    (by decide) (by decide)
    (fun p hp => by cases hp; decide)
    (fun q hq => by cases hq; decide)
    ⟨by decide, 72, by decide, by decide⟩

/-- C16, counterexample.  Request lines of the stated form, with fields that
have no space, on which the parsed fields are not the fields of the line.
In `GET http://h/a<TAB>b HTTP/1.1` the path `a<TAB>b` has a tab: the parsed
path is `/a`, not `/a<TAB>b`.  In `GET http://h:/x HTTP/1.1` the port is given
and empty: the parsed port is `80`.  And the line `GET http://h/ ` with an
empty version is rejected. -/
theorem C16_counterexample_tab_in_path_or_empty_field :
    request_line_text (bytes "GET") (bytes "h") none (some (bytes "a\tb")) (bytes "HTTP/1.1")
        = bytes "GET http://h/a\tb HTTP/1.1\r\n"
      ∧ 32 ∉ bytes "a\tb"
      ∧ read_parse_request_line [some (bytes "GET http://h/a\tb HTTP/1.1\r\n")]
        = (0, { method := bytes "GET", host := bytes "h", path := bytes "/a",
                port := bytes "80", version := bytes "HTTP/1.0" }, [])
      ∧ bytes "/a" ≠ bytes "/a\tb"
      ∧ request_line_text (bytes "GET") (bytes "h") (some []) (some (bytes "x")) (bytes "HTTP/1.1")
        = bytes "GET http://h:/x HTTP/1.1\r\n"
      ∧ read_parse_request_line [some (bytes "GET http://h:/x HTTP/1.1\r\n")]
        = (0, { method := bytes "GET", host := bytes "h", path := bytes "/x",
                port := bytes "80", version := bytes "HTTP/1.0" }, [])
      ∧ request_line_text (bytes "GET") (bytes "h") none (some []) []
        = bytes "GET http://h/ \r\n"
      ∧ (read_parse_request_line [some (bytes "GET http://h/ \r\n")]).1 = -1 := by
  decide

/-- The format `"%[^:]:%s"` on a string that begins with `:` assigns nothing. -/
theorem scan_host_port_colon (t : List Nat) : (sscanf fmt_key_value (58 :: t) []).2 = [] := by
  simp [sscanf, fmt_key_value]

/-- The format `"%[^/]%s"` on a string that begins with `:`: the first string
is all that stands before the first `/`, and the second is taken from that `/`
up to the next white space, when there is a `/`. -/
theorem scan_host_path_colon (t : List Nat) :
    (sscanf fmt_host_path (58 :: t) []).2.getD 0 [] = 58 :: t.takeWhile (fun x => x != 47)
      ∧ (sscanf fmt_host_path (58 :: t) []).2.getD 1 (bytes "/")
          = if t.dropWhile (fun x => x != 47) = [] then bytes "/"
            else (t.dropWhile (fun x => x != 47)).takeWhile (fun x => !isspace x) := by
  have hsplit : (58 :: t) = (58 :: t.takeWhile (fun x => x != 47))
      ++ t.dropWhile (fun x => x != 47) := by
    simp [List.takeWhile_append_dropWhile]
  have hno : 47 ∉ (58 :: t.takeWhile (fun x => x != 47)) := by
    simp only [List.mem_cons]
    rintro (e | e)
    · cases e
    · have := List.mem_takeWhile_imp e
      simp at this
  have hhd : ∀ x r, t.dropWhile (fun x => x != 47) = x :: r → x = 47 := by
    intro x r e
    have := List.head_dropWhile_not (fun x => x != 47) t (by rw [e]; simp)
    simp only [e, List.head_cons] at this
    simpa using this
  rw [hsplit, fmt_host_path, sscanf_notset (by simp) hno hhd]
  cases hr : t.dropWhile (fun x => x != 47) with
  | nil =>
    simp [sscanf, scan_eof]
  | cons x r =>
    have hx := hhd x r hr
    subst hx
    have h1 : (47 :: r).dropWhile isspace = 47 :: r := by
      rw [List.dropWhile_cons_of_neg]
      decide
    simp only [sscanf, h1]
    simp

/-- A request line with three fields and the prefix `http://` whose URI has an
empty host: after the prefix the URI ends or goes on with `/` or `:`.  The line
is accepted, with an empty host and port `80`; the path is `/` unless a `:`
follows the prefix, and then it is taken from the first `/` on. -/
theorem read_parse_request_line_empty_host {line : List Nat} {rest : rio_t}
    {m a u b : List Nat} {x : Nat} {c : List Nat}
    (hs : Split3 (cstr line) m a u b x c)
    (hp : eq_ignoring_case (u.take 7) (bytes "http://") = true)
    (hh : u.drop 7 = [] ∨ (u.drop 7).head? = some 47 ∨ (u.drop 7).head? = some 58) :
    (read_parse_request_line (some line :: rest)).1 = 0
      ∧ (read_parse_request_line (some line :: rest)).2.1.host = []
      ∧ (read_parse_request_line (some line :: rest)).2.1.port = bytes "80"
      ∧ ((u.drop 7).head? ≠ some 58 →
          (read_parse_request_line (some line :: rest)).2.1.path = bytes "/")
      ∧ (∀ t, u.drop 7 = 58 :: t →
          (read_parse_request_line (some line :: rest)).2.1.path
            = if t.dropWhile (fun y => y != 47) = [] then bytes "/"
              else (t.dropWhile (fun y => y != 47)).takeWhile (fun y => !isspace y)) := by
  have hl : line ≠ [] := by
    intro e0
    rw [e0] at hs
    have := hs.eq
    have hm := hs.m_ne
    cases m with
    | nil => exact hm rfl
    | cons y t => simp [cstr] at this
  rw [read_parse_request_line_of_split hl hs hp]
  refine ⟨rfl, ?_⟩
  show (sscanf fmt_key_value ((sscanf fmt_host_path (u.drop 7) []).2.getD 0 []) []).2.getD 0 []
      = []
    ∧ (sscanf fmt_key_value ((sscanf fmt_host_path (u.drop 7) []).2.getD 0 []) []).2.getD 1
        (bytes "80") = bytes "80"
    ∧ ((u.drop 7).head? ≠ some 58 →
        (sscanf fmt_host_path (u.drop 7) []).2.getD 1 (bytes "/") = bytes "/")
    ∧ (∀ t, u.drop 7 = 58 :: t →
        (sscanf fmt_host_path (u.drop 7) []).2.getD 1 (bytes "/")
          = if t.dropWhile (fun y => y != 47) = [] then bytes "/"
            else (t.dropWhile (fun y => y != 47)).takeWhile (fun y => !isspace y))
  generalize u.drop 7 = inp at hh
  rcases hh with h | h | h
  · subst h
    refine ⟨?_, ?_, ?_, ?_⟩
    · simp [sscanf, fmt_host_path, fmt_key_value, scan_eof]
    · simp [sscanf, fmt_host_path, fmt_key_value, scan_eof]
    · intro _
      simp [sscanf, fmt_host_path, scan_eof]
    · intro t e
      cases e
  · cases inp with
    | nil => simp at h
    | cons y t =>
      simp only [List.head?_cons, Option.some.injEq] at h
      subst h
      refine ⟨?_, ?_, ?_, ?_⟩
      · simp [sscanf, fmt_host_path, fmt_key_value, scan_eof]
      · simp [sscanf, fmt_host_path, fmt_key_value, scan_eof]
      · intro _
        simp [sscanf, fmt_host_path]
      · intro t2 e
        cases e
  · cases inp with
    | nil => simp at h
    | cons y t =>
      simp only [List.head?_cons, Option.some.injEq] at h
      subst h
      obtain ⟨h0, h1⟩ := scan_host_path_colon t
      rw [h0, scan_host_port_colon]
      refine ⟨rfl, rfl, ?_, ?_⟩
      · intro hne
        simp at hne
      · intro t2 e
        simp only [List.cons.injEq, true_and] at e
        rw [← e]
        exact h1

/-- C17 (as amended).  `read_parse_request_line` returns `0` or `-1`.  It
returns `0` exactly when its read delivers a line that splits into three
fields (a first field, a second field, the URI, and the beginning of a third,
each followed by a space) and whose URI starts with `http://`, compared without
regard to letter case.  So it returns `-1` for every line with fewer than three
fields and for every URI that does not start with `http://`.  The host is not
looked at: every such line whose URI has an empty host (after `http://` the URI
ends, or goes on with `/` or with `:`) is accepted, with an empty host and the
port `80`, whatever port the URI names; its path is `/` when the URI ends or
goes on with `/`, and when it goes on with `:` the path is what stands from the
first `/` up to the next white space, or `/` when there is no `/`. -/
theorem C17_read_parse_request_line_accepts (rp : rio_t) :
    ((read_parse_request_line rp).1 = 0 ∨ (read_parse_request_line rp).1 = -1)
      ∧ ((read_parse_request_line rp).1 = 0 ↔
          ∃ line rest m a u b x c, rp = some line :: rest ∧ line ≠ []
            ∧ Split3 (cstr line) m a u b x c
            ∧ eq_ignoring_case (u.take 7) (bytes "http://") = true)
      ∧ (∀ line rest, rp = some line :: rest →
          (¬ ∃ m a u b x c, Split3 (cstr line) m a u b x c) →
          (read_parse_request_line rp).1 = -1)
      ∧ (∀ line rest m a u b x c, rp = some line :: rest → Split3 (cstr line) m a u b x c →
          eq_ignoring_case (u.take 7) (bytes "http://") = false →
          (read_parse_request_line rp).1 = -1)
      ∧ (∀ line rest m a u b x c, rp = some line :: rest → Split3 (cstr line) m a u b x c →
          eq_ignoring_case (u.take 7) (bytes "http://") = true →
          (u.drop 7 = [] ∨ (u.drop 7).head? = some 47 ∨ (u.drop 7).head? = some 58) →
          (read_parse_request_line rp).1 = 0
            ∧ (read_parse_request_line rp).2.1.host = []
            ∧ (read_parse_request_line rp).2.1.port = bytes "80"
            ∧ ((u.drop 7).head? ≠ some 58 →
                (read_parse_request_line rp).2.1.path = bytes "/")
            ∧ (∀ t, u.drop 7 = 58 :: t →
                (read_parse_request_line rp).2.1.path
                  = if t.dropWhile (fun y => y != 47) = [] then bytes "/"
                    else (t.dropWhile (fun y => y != 47)).takeWhile
                      (fun y => !isspace y))) := by
  obtain ⟨h1, h2⟩ := read_parse_request_line_ok_iff rp
  refine ⟨h1, h2, ?_, ?_, ?_⟩
  · intro line rest e hno
    rcases h1 with h0 | h0
    · obtain ⟨line2, rest2, m, a, u, b, x, c, e2, _, hs, _⟩ := h2.mp h0
      rw [e] at e2
      simp only [List.cons.injEq, Option.some.injEq] at e2
      rw [← e2.1] at hs
      exact absurd ⟨m, a, u, b, x, c, hs⟩ hno
    · exact h0
  · intro line rest m a u b x c e hs hp
    rcases h1 with h0 | h0
    · exfalso
      have hl : line ≠ [] := by
        intro e0
        rw [e0] at hs
        have := hs.eq
        have hm := hs.m_ne
        cases m with
        | nil => exact hm rfl
        | cons y t => simp [cstr] at this
      have hsc := scan_request_line_of_split hs
      obtain ⟨line2, rest2, m2, a2, u2, b2, x2, c2, e2, _, hs2, hp2⟩ := h2.mp h0
      rw [e] at e2
      simp only [List.cons.injEq, Option.some.injEq] at e2
      rw [← e2.1] at hs2
      have hsc2 := scan_request_line_of_split hs2
      rw [hsc] at hsc2
      simp only [Prod.mk.injEq, List.cons.injEq, true_and] at hsc2
      rw [← hsc2.2.1, hp] at hp2
      exact Bool.noConfusion hp2
    · exact h0
  · intro line rest m a u b x c e hs hp hh
    rw [e]
    exact read_parse_request_line_empty_host hs hp hh

/-- C17, counterexample.  The URIs `http:///x`, `http://` and `http://:8080/x`
have an empty host, and `read_parse_request_line` returns `0` for them, with an
empty host and port `80`; the path is `/` for the first two and `/x` for the
third. -/
theorem C17_counterexample_empty_host_accepted :
    read_parse_request_line [some (bytes "GET http:///x HTTP/1.1\r\n")]
        = (0, { method := bytes "GET", host := [], path := bytes "/", port := bytes "80",
                version := bytes "HTTP/1.0" }, [])
      ∧ read_parse_request_line [some (bytes "GET http:// HTTP/1.1\r\n")]
        = (0, { method := bytes "GET", host := [], path := bytes "/", port := bytes "80",
                version := bytes "HTTP/1.0" }, [])
      ∧ read_parse_request_line [some (bytes "GET http://:8080/x HTTP/1.1\r\n")]
        = (0, { method := bytes "GET", host := [], path := bytes "/x", port := bytes "80",
                version := bytes "HTTP/1.0" }, []) := by
  decide

/-! ## C18: requests that are not `GET` -/

/-- C18.  For every request whose request line is parsed with success and
whose method is not exactly `GET`, `thread_job` does one thing that can be seen
from outside: it closes the client descriptor.  There is no cache lookup, no
connection to an origin is opened, nothing is written to the client or to an
origin, and the cache is the one before the call. -/
theorem C18_non_get_request_is_closed (cap : Int) (fuel : Nat) (c : Conn) (s : State)
    (hparse : (read_parse_request_line c.client).1 = 0)
    (hm : (read_parse_request_line c.client).2.1.method ≠ bytes "GET") :
    thread_job cap fuel c s = some ([Event.close_client], s) := by
  have h1 : ¬ (read_parse_request_line c.client).1 < 0 := by rw [hparse]; decide
  have h2 : strcmp (bytes "GET") (read_parse_request_line c.client).2.1.method ≠ 0 := by
    unfold strcmp
    rw [if_neg (fun e => hm e.symm)]
    decide
  unfold thread_job
  simp only [h1, if_false, h2, ne_eq, not_false_eq_true, if_true]

/-- C18, witness: the request line `POST http://h/ HTTP/1.1`. -/
theorem C18_non_get_request_is_closed_witness :
    thread_job MAX_CACHE_SIZE 10
        { client := [some (bytes "POST http://h/ HTTP/1.1\r\n")], origin := [],
          wr_client := fun _ => 0, wr_origin := fun _ => 0, serverfd := 4, nleft0 := 0 }
        empty_cache
      = some ([Event.close_client], empty_cache) :=
  C18_non_get_request_is_closed MAX_CACHE_SIZE 10
    { client := [some (bytes "POST http://h/ HTTP/1.1\r\n")], origin := [],
      wr_client := fun _ => 0, wr_origin := fun _ => 0, serverfd := 4, nleft0 := 0 }
    empty_cache (by decide) (by decide)

/-! ## C20: the request sent to the origin -/

theorem strcasecmp_eq_zero (a b : List Nat) :
    strcasecmp a b = 0 ↔ eq_ignoring_case a b = true := by
  rw [eq_ignoring_case_iff]
  unfold strcasecmp
  split <;> simp_all

theorem take_length_toNat (l : List Nat) : l.take ((l.length : Int)).toNat = l := by
  rw [Int.toNat_ofNat, List.take_length]

theorem header_name_cstr {buf : List Nat}
    (h : (cstr buf).dropWhile (fun x => x != 58) ≠ []) :
    (cstr buf).takeWhile (fun x => x != 58) = header_name buf := by
  unfold header_name
  induction buf with
  | nil => rfl
  | cons x t ih =>
    by_cases hx0 : x = 0
    · subst hx0
      exact absurd (by simp [cstr]) h
    · have hc : cstr (x :: t) = x :: cstr t := by
        unfold cstr
        rw [List.takeWhile_cons_of_pos (by simpa using hx0)]
      rw [hc] at h ⊢
      by_cases hx : x = 58
      · subst hx
        simp
      · have hp : (x != 58) = true := by simpa using hx
        simp only [List.dropWhile_cons, hp, if_true] at h
        simp only [List.takeWhile_cons, hp, if_true]
        rw [ih h]

/-- When `"%[^:]:%s"` assigns two strings, the first is the input up to its
first `:`. -/
theorem scan_key_value_two {inp : List Nat} (h : (sscanf fmt_key_value inp []).1 = 2) :
    (sscanf fmt_key_value inp []).2.getD 0 [] = inp.takeWhile (fun x => x != 58)
      ∧ inp.dropWhile (fun x => x != 58) ≠ [] := by
  simp only [fmt_key_value, sscanf] at h ⊢
  by_cases h1 : inp = []
  · simp [h1, scan_eof] at h
  by_cases h2 : inp.takeWhile (fun x => x != 58) = []
  · simp [h1, h2] at h
  simp only [h1, h2, if_false] at h ⊢
  cases hr : inp.dropWhile (fun x => x != 58) with
  | nil => simp [hr, scan_eof] at h
  | cons z t =>
    rw [hr] at h
    simp only at h ⊢
    by_cases hz : z = 58
    · simp only [hz, if_true] at h ⊢
      by_cases h3 : t.dropWhile isspace = []
      · simp [h3, scan_eof] at h
      · simp [h3]
    · simp [hz] at h

/-- What `handle_request_header` does: it writes nothing, or it writes the line
it was given, and then the name of the line is not one of the proxy's own. -/
theorem handle_request_header_spec (wr : Nat → Int) (out : List (List Nat)) (buf : List Nat)
    (nread : Int) :
    (handle_request_header wr out buf nread).2 = out
      ∨ ((handle_request_header wr out buf nread).2 = out ++ [buf.take nread.toNat]
          ∧ proxy_header (header_name buf) = false) := by
  unfold handle_request_header
  by_cases h2 : (sscanf fmt_key_value (cstr buf) []).1 = 2
  · obtain ⟨k1, k2⟩ := scan_key_value_two h2
    rw [header_name_cstr k2] at k1
    simp only [h2, ne_eq, not_true_eq_false, if_false, k1]
    by_cases a1 : strcasecmp (header_name buf) (bytes "User-Agent") = 0
    · left; simp [a1]
    by_cases a2 : strcasecmp (header_name buf) (bytes "Connection") = 0
    · left; simp [a1, a2]
    by_cases a3 : strcasecmp (header_name buf) (bytes "Proxy-Connection") = 0
    · left; simp [a1, a2, a3]
    simp only [a1, a2, a3, if_false]
    have hph : proxy_header (header_name buf) = false := by
      rw [strcasecmp_eq_zero] at a1 a2 a3
      simp only [proxy_header, Bool.or_eq_false_iff]
      exact ⟨⟨by simpa using a1, by simpa using a2⟩, by simpa using a3⟩
    unfold Rio_writen
    by_cases hw : wr out.length < 0
    · left; simp [hw]
    · right; simp [hw, hph]
  · left
    simp [h2]

theorem Rio_writen_all (wr : Nat → Int) (out : List (List Nat)) (l : List Nat) :
    Rio_writen wr out l l.length
      = if wr out.length < 0 then (wr out.length, out) else (wr out.length, out ++ [l]) := by
  unfold Rio_writen
  rw [take_length_toNat]

/-- The header loop of `client2server`: what it adds to the chunks written to
the origin are forwarded client lines, none with one of the proxy's header
names, and then, when it succeeds, the `Host` line if none was forwarded and
the final empty line. -/
theorem client2server_loop_spec (wr : Nat → Int) (fd : Int) (hfd : 0 ≤ fd) (host : List Nat) :
    ∀ (rp : rio_t) (buf0 : List Nat) (hh : Int) (out : List (List Nat)),
      ∃ fwd tail, (client2server_loop wr fd host rp buf0 hh out).out = out ++ fwd ++ tail
        ∧ (∀ l, l ∈ fwd → some l ∈ rp ∧ proxy_header (header_name l) = false)
        ∧ ((client2server_loop wr fd host rp buf0 hh out).rc ≠ -1 →
            tail = [bytes "\r\n"] ∨ tail = [bytes "Host:" ++ host ++ bytes "\r\n", bytes "\r\n"])
        ∧ ((client2server_loop wr fd host rp buf0 hh out).rc = -1 →
            tail = [] ∨ tail = [bytes "Host:" ++ host ++ bytes "\r\n"]) := by
  intro rp
  induction rp with
  | nil =>
    intro buf0 hh out
    exact ⟨[], [], by simp [client2server_loop], by simp, by simp [client2server_loop],
      by simp⟩
  | cons r rest ih =>
    intro buf0 hh out
    cases r with
    | none =>
      exact ⟨[], [], by simp [client2server_loop, nread_of], by simp,
        by simp [client2server_loop, nread_of], by simp⟩
    | some bs =>
      cases bs with
      | nil =>
        exact ⟨[], [], by simp [client2server_loop, nread_of], by simp,
          by simp [client2server_loop, nread_of], by simp⟩
      | cons b t =>
        have hlen : ¬ (((b :: t).length : Nat) : Int) ≤ 0 := by
          simp only [List.length_cons, Nat.cast_add, Nat.cast_one]
          omega
        simp only [client2server_loop, nread_of, buf_of, hlen, if_false]
        by_cases hblank : ¬ strcmp (cstr (b :: t)) (bytes "\r\n") = 0
        · simp only [hblank, ne_eq, not_false_eq_true, if_true, if_false]
          have hspec := handle_request_header_spec wr out (b :: t) ((b :: t).length : Int)
          rw [take_length_toNat] at hspec
          have hres : ∃ type out1,
              handle_request_header wr out (b :: t) ((b :: t).length : Int) = (type, out1) :=
            ⟨_, _, rfl⟩
          obtain ⟨type, out1, hres⟩ := hres
          rw [hres] at hspec
          simp only [hres]
          have hspec : out1 = out ∨ (out1 = out ++ [b :: t]
              ∧ proxy_header (header_name (b :: t)) = false) := hspec
          by_cases ht : type = -1
          · simp only [ht, if_true]
            rcases hspec with e | ⟨e, hp⟩
            · exact ⟨[], [], by simp [e], by simp, by simp, by simp⟩
            · refine ⟨[b :: t], [], by simp [e], ?_, by simp, by simp⟩
              intro l hl
              simp only [List.mem_singleton] at hl
              subst hl
              exact ⟨by simp, hp⟩
          · simp only [ht, if_false]
            obtain ⟨fwd, tail, h1, h2, h3, h4⟩ :=
              ih (b :: t) (if type = 1 then 1 else hh) out1
            rcases hspec with e | ⟨e, hp⟩
            · refine ⟨fwd, tail, by rw [h1, e], ?_, h3, h4⟩
              intro l hl
              exact ⟨List.mem_cons_of_mem _ (h2 l hl).1, (h2 l hl).2⟩
            · refine ⟨(b :: t) :: fwd, tail, by rw [h1, e]; simp, ?_, h3, h4⟩
              intro l hl
              rcases List.mem_cons.mp hl with e2 | hl
              · subst e2
                exact ⟨by simp, hp⟩
              · exact ⟨List.mem_cons_of_mem _ (h2 l hl).1, (h2 l hl).2⟩
        · rw [not_not] at hblank
          simp only [hblank, ne_eq, not_true_eq_false, if_false, if_true]
          refine ⟨[], ?_⟩
          simp only [List.append_nil, List.not_mem_nil, false_implies, implies_true, true_and]
          by_cases hhh : hh = 0
          · simp only [hhh, if_true, Rio_writen_all]
            by_cases hw1 : wr out.length < 0
            · exact ⟨[], by simp [hw1], by simp [hw1], by simp⟩
            · simp only [hw1, if_false, List.length_append, List.length_singleton]
              by_cases hw2 : wr (out.length + 1) < 0
              · exact ⟨[bytes "Host:" ++ host ++ bytes "\r\n"], by simp [hw2], by simp [hw2],
                  by simp⟩
              · refine ⟨[bytes "Host:" ++ host ++ bytes "\r\n", bytes "\r\n"], by simp [hw2],
                  by simp, ?_⟩
                simp only [hw2, if_false]
                intro e
                exfalso
                omega
          · simp only [hhh, if_false, Rio_writen_all]
            have h00 : ¬ ((0 : Int) < 0) := by decide
            simp only [h00, if_false]
            by_cases hw2 : wr out.length < 0
            · exact ⟨[], by simp [hw2], by simp [hw2], by simp⟩
            · refine ⟨[bytes "\r\n"], by simp [hw2], by simp, ?_⟩
              simp only [hw2, if_false]
              intro e
              exfalso
              omega

theorem Rio_writen_ok (wr : Nat → Int) (out : List (List Nat)) (l : List Nat)
    (h : ¬ wr out.length < 0) :
    Rio_writen wr out l l.length = (wr out.length, out ++ [l]) := by
  rw [Rio_writen_all, if_neg h]

theorem Rio_writen_fail (wr : Nat → Int) (out : List (List Nat)) (l : List Nat)
    (h : wr out.length < 0) :
    Rio_writen wr out l l.length = (wr out.length, out) := by
  rw [Rio_writen_all, if_pos h]

theorem read_parse_request_line_version (rp : rio_t)
    (h : (read_parse_request_line rp).1 = 0) :
    (read_parse_request_line rp).2.1.version = bytes "HTTP/1.0" := by
  obtain ⟨line, rest, m, a, u, b, x, c, e, hl, hs, hp⟩ :=
    (read_parse_request_line_ok_iff rp).2.mp h
  rw [e, read_parse_request_line_of_split hl hs hp]

/-- What `client2server` writes to the origin, for a request line with version
`HTTP/1.0`: a beginning of the request line and the three fixed headers when
one of these writes fails; otherwise these four, then forwarded client lines,
none with one of the proxy's header names, then the `Host` line if none was
forwarded and the final empty line. -/
theorem client2server_spec (wr : Nat → Int) (serverfd : Int) (rl : request_line) (rp : rio_t)
    (hv : rl.version = bytes "HTTP/1.0") :
    ((client2server wr serverfd rl rp).rc = -1
        ∧ (client2server wr serverfd rl rp).out
          <+: [rl.method ++ bytes " " ++ rl.path ++ bytes " HTTP/1.0\r\n", user_agent_hdr,
               bytes "Connection: close\r\n", bytes "Proxy-connection: close\r\n"])
      ∨ ∃ fwd tail,
        (client2server wr serverfd rl rp).out
          = [rl.method ++ bytes " " ++ rl.path ++ bytes " HTTP/1.0\r\n", user_agent_hdr,
             bytes "Connection: close\r\n", bytes "Proxy-connection: close\r\n"] ++ fwd ++ tail
        ∧ (∀ l, l ∈ fwd → some l ∈ rp ∧ proxy_header (header_name l) = false)
        ∧ ((client2server wr serverfd rl rp).rc ≠ -1 →
            tail = [bytes "\r\n"]
              ∨ tail = [bytes "Host:" ++ rl.host ++ bytes "\r\n", bytes "\r\n"])
        ∧ ((client2server wr serverfd rl rp).rc = -1 →
            tail = [] ∨ tail = [bytes "Host:" ++ rl.host ++ bytes "\r\n"]) := by
  have hline : rl.method ++ bytes " " ++ rl.path ++ bytes " " ++ rl.version ++ bytes "\r\n"
      = rl.method ++ bytes " " ++ rl.path ++ bytes " HTTP/1.0\r\n" := by
    rw [hv]
    have : bytes " " ++ (bytes "HTTP/1.0" ++ bytes "\r\n") = bytes " HTTP/1.0\r\n" := by decide
    simp only [List.append_assoc, this]
  generalize rl.method ++ bytes " " ++ rl.path ++ bytes " HTTP/1.0\r\n" = line at hline ⊢
  unfold client2server
  simp only [hline]
  by_cases hfd : serverfd < 0
  · left
    simp [hfd]
  simp only [hfd, if_false]
  by_cases h1 : wr ([] : List (List Nat)).length < 0
  · left
    simp only [Rio_writen_fail wr [] line h1, h1, if_true, true_and]
    exact ⟨_, rfl⟩
  have e1 := Rio_writen_ok wr [] line h1
  by_cases h2 : wr [line].length < 0
  · left
    have e2 := Rio_writen_fail wr [line] user_agent_hdr h2
    simp only [e1, e2, h1, h2, if_false, if_true, true_and, List.nil_append]
    exact ⟨_, rfl⟩
  have e2 := Rio_writen_ok wr [line] user_agent_hdr h2
  by_cases h3 : wr [line, user_agent_hdr].length < 0
  · left
    have e3 := Rio_writen_fail wr [line, user_agent_hdr] connection_hdr h3
    simp only [e1, e2, e3, h1, h2, h3, if_false, if_true, true_and, List.nil_append,
      List.cons_append]
    exact ⟨_, rfl⟩
  have e3 := Rio_writen_ok wr [line, user_agent_hdr] connection_hdr h3
  by_cases h4 : wr [line, user_agent_hdr, connection_hdr].length < 0
  · left
    have e4 := Rio_writen_fail wr [line, user_agent_hdr, connection_hdr] proxy_connection_hdr h4
    simp only [e1, e2, e3, e4, h1, h2, h3, h4, if_false, if_true, true_and, List.nil_append,
      List.cons_append]
    exact ⟨_, rfl⟩
  have e4 := Rio_writen_ok wr [line, user_agent_hdr, connection_hdr] proxy_connection_hdr h4
  simp only [e1, e2, e3, e4, h1, h2, h3, h4, if_false, List.nil_append, List.cons_append]
  right
  exact client2server_loop_spec wr serverfd (by omega) rl.host rp _ 0 _

/-- C20.  For a request line that `read_parse_request_line` has parsed with
success and a call of `client2server` that succeeds in forwarding it: the
chunks written to the origin are the request line `<method> <path> HTTP/1.0`,
the fixed `User-Agent` header, `Connection: close` and
`Proxy-connection: close`, in this order; then client header lines, of which
none has a name equal, without regard to letter case, to `User-Agent`,
`Connection` or `Proxy-Connection`; then the `Host` header unless one was
forwarded, and the empty line. -/
theorem C20_forwarded_request_head (wr : Nat → Int) (serverfd : Int) (rp0 : rio_t)
    (hparse : (read_parse_request_line rp0).1 = 0)
    (hok : 0 ≤ (client2server wr serverfd (read_parse_request_line rp0).2.1
      (read_parse_request_line rp0).2.2).rc) :
    ∃ fwd tail,
      (client2server wr serverfd (read_parse_request_line rp0).2.1
          (read_parse_request_line rp0).2.2).out
        = [(read_parse_request_line rp0).2.1.method ++ bytes " "
              ++ (read_parse_request_line rp0).2.1.path ++ bytes " HTTP/1.0\r\n",
           user_agent_hdr, bytes "Connection: close\r\n",
           bytes "Proxy-connection: close\r\n"] ++ fwd ++ tail
      ∧ user_agent_hdr.take 12 = bytes "User-Agent: "
      ∧ (∀ l, l ∈ fwd → some l ∈ (read_parse_request_line rp0).2.2
          ∧ eq_ignoring_case (header_name l) (bytes "User-Agent") = false
          ∧ eq_ignoring_case (header_name l) (bytes "Connection") = false
          ∧ eq_ignoring_case (header_name l) (bytes "Proxy-Connection") = false)
      ∧ (tail = [bytes "\r\n"]
          ∨ tail = [bytes "Host:" ++ (read_parse_request_line rp0).2.1.host ++ bytes "\r\n",
                    bytes "\r\n"]) := by
  have hv := read_parse_request_line_version rp0 hparse
  rcases client2server_spec wr serverfd _ (read_parse_request_line rp0).2.2 hv with
    ⟨h1, _⟩ | ⟨fwd, tail, h1, h2, h3, _⟩
  · rw [h1] at hok
    exact absurd hok (by decide)
  · refine ⟨fwd, tail, h1, by decide, ?_, h3 (fun e => by rw [e] at hok; exact absurd hok (by decide))⟩
    intro l hl
    obtain ⟨k1, k2⟩ := h2 l hl
    simp only [proxy_header, Bool.or_eq_false_iff] at k2
    exact ⟨k1, k2.1.1, k2.1.2, k2.2⟩

/-- C20, witness: a `GET` request with the header lines `Accept: a` and
`User-Agent: me`. -/
theorem C20_forwarded_request_head_witness :
    ∃ fwd tail,
      (client2server (fun _ => 0) 4
          (read_parse_request_line [some (bytes "GET http://h/x HTTP/1.1\r\n"),
            some (bytes "Accept: a\r\n"), some (bytes "User-Agent: me\r\n"),
            some (bytes "\r\n")]).2.1
          (read_parse_request_line [some (bytes "GET http://h/x HTTP/1.1\r\n"),
            some (bytes "Accept: a\r\n"), some (bytes "User-Agent: me\r\n"),
            some (bytes "\r\n")]).2.2).out
        = [(read_parse_request_line [some (bytes "GET http://h/x HTTP/1.1\r\n"),
              some (bytes "Accept: a\r\n"), some (bytes "User-Agent: me\r\n"),
              some (bytes "\r\n")]).2.1.method ++ bytes " "
              ++ (read_parse_request_line [some (bytes "GET http://h/x HTTP/1.1\r\n"),
                some (bytes "Accept: a\r\n"), some (bytes "User-Agent: me\r\n"),
                some (bytes "\r\n")]).2.1.path ++ bytes " HTTP/1.0\r\n",
           user_agent_hdr, bytes "Connection: close\r\n",
           bytes "Proxy-connection: close\r\n"] ++ fwd ++ tail
      ∧ user_agent_hdr.take 12 = bytes "User-Agent: "
      ∧ (∀ l, l ∈ fwd → some l ∈ (read_parse_request_line
            [some (bytes "GET http://h/x HTTP/1.1\r\n"),
              some (bytes "Accept: a\r\n"), some (bytes "User-Agent: me\r\n"),
              some (bytes "\r\n")]).2.2
          ∧ eq_ignoring_case (header_name l) (bytes "User-Agent") = false
          ∧ eq_ignoring_case (header_name l) (bytes "Connection") = false
          ∧ eq_ignoring_case (header_name l) (bytes "Proxy-Connection") = false)
      ∧ (tail = [bytes "\r\n"]
          ∨ tail = [bytes "Host:" ++ (read_parse_request_line
              [some (bytes "GET http://h/x HTTP/1.1\r\n"),
                some (bytes "Accept: a\r\n"), some (bytes "User-Agent: me\r\n"),
                some (bytes "\r\n")]).2.1.host ++ bytes "\r\n",
                    bytes "\r\n"]) :=
  C20_forwarded_request_head (fun _ => 0) 4
    [some (bytes "GET http://h/x HTTP/1.1\r\n"), some (bytes "Accept: a\r\n"),
      some (bytes "User-Agent: me\r\n"), some (bytes "\r\n")]
    (by decide) (by decide)

/-! ## The response: buffering -/

theorem grow_capacity_spec (need : Nat) (hneed : need ≤ 131072) :
    ∀ (fuel c : Nat), 0 < c → need ≤ c * 2 ^ fuel →
      ∃ c2, grow_capacity (fuel + 1) c need = some c2 ∧ need ≤ c2 ∧ 0 < c2 := by
  intro fuel
  induction fuel with
  | zero =>
    intro c hc h
    refine ⟨c, ?_, by simpa using h, hc⟩
    have : ¬ c < need := by simp at h; omega
    simp [grow_capacity, this]
  | succ fuel ih =>
    intro c hc h
    by_cases hlt : c < need
    · have hmod : c * 2 % 18446744073709551616 = c * 2 := by
        apply Nat.mod_eq_of_lt
        omega
      obtain ⟨c2, h1, h2, h3⟩ := ih (c * 2) (by omega) (by rw [pow_succ] at h; linarith)
      refine ⟨c2, ?_, h2, h3⟩
      rw [grow_capacity, if_pos hlt, hmod]
      exact h1
    · refine ⟨c, ?_, by omega, hc⟩
      rw [grow_capacity, if_neg hlt]

/-- Appending a chunk that fits: `update_web_object` returns `0`, the content
is the old content followed by the chunk, and the capacity stays positive. -/
theorem update_web_object_fits (wb : web_object) (bs : List Nat) (hcap : 0 < wb.capacity)
    (hfit : wb.length + bs.length ≤ MAX_OBJECT_SIZE) :
    ∃ c, 0 < c ∧ update_web_object wb bs (bs.length : Int)
      = some (0, { content := wb.content ++ bs, length := wb.length + bs.length,
                   capacity := c }) := by
  have hM : MAX_OBJECT_SIZE = 102400 := rfl
  have hneed : (to_size_t (to_size_t (bs.length : Int) + wb.length)).toNat
      = wb.length + bs.length := by
    unfold to_size_t
    omega
  unfold update_web_object
  simp only [hneed, take_length_toNat]
  rw [if_neg (by omega)]
  by_cases hgrow : wb.length + bs.length > wb.capacity
  · obtain ⟨c2, h1, h2, h3⟩ := grow_capacity_spec (wb.length + bs.length) (by omega) 64
      wb.capacity hcap (by
        have : 1 ≤ wb.capacity := hcap
        have h64 : (2 : Nat) ^ 64 = 18446744073709551616 := by norm_num
        rw [h64]
        nlinarith)
    refine ⟨min c2 MAX_OBJECT_SIZE, by rw [hM]; omega, ?_⟩
    simp only [hgrow, if_true, h1, Option.map_some']
  · exact ⟨wb.capacity, hcap, by simp only [hgrow, if_false, Option.map_some']⟩

/-- The buffering statement of `server2client` after a read of the chunk `bs`:
it does not make the function return, and the invariant holds for the chunks
read so far once the chunk is written to the client. -/
theorem buffer_chunk_step {v : Vars} {out0 got0 : List (List Nat)} {bs : List Nat}
    (hbuf : v.buf = bs) (htot : v.total_read = (got0.flatten.length : Int) + bs.length)
    (hI : Inv out0 got0 (got0.flatten.length : Int) v.cache_it v.wb) :
    ∃ c wb2, buffer_chunk v (bs.length : Int) = some (0, { v with cache_it := c, wb := wb2 })
      ∧ Inv (out0 ++ [bs]) (got0 ++ [bs]) v.total_read c wb2 := by
  obtain ⟨i1, _, i3, i4, i5, i6⟩ := hI
  have hj : (got0 ++ [bs]).flatten = got0.flatten ++ bs := by simp
  have hjo : (out0 ++ [bs]).flatten = (got0 ++ [bs]).flatten := by simp [i1]
  have hlen : ((got0 ++ [bs]).flatten.length : Int) = v.total_read := by
    rw [hj, htot]
    simp
  unfold buffer_chunk
  by_cases hbig : v.total_read > (MAX_OBJECT_SIZE : Int)
  · refine ⟨0, v.wb, by rw [if_pos hbig], hjo, hlen.symm, Or.inr rfl, fun _ => hbig,
      fun h => absurd rfl h, i6⟩
  · rw [if_neg hbig]
    have hc : v.cache_it ≠ 0 := by
      intro e
      have := i4 e
      omega
    obtain ⟨k1, k2, k3⟩ := i5 hc
    have hfit : v.wb.length + bs.length ≤ MAX_OBJECT_SIZE := by
      rw [k2]
      omega
    obtain ⟨c, hc0, hu⟩ := update_web_object_fits v.wb bs i6 hfit
    rw [hbuf, hu]
    refine ⟨v.cache_it, web_object.mk (v.wb.content ++ bs) (v.wb.length + bs.length) c,
      by simp, hjo, hlen.symm, i3, fun e => absurd e hc, ?_, hc0⟩
    intro _
    refine ⟨by simp [k1], ?_, ?_⟩
    · simp only [hj, List.length_append, k2]
    · have := hlen
      rw [hj] at this ⊢
      simp only [List.length_append, Nat.cast_add] at this ⊢
      omega

/-! ## The response: the loops of `server2client` -/

theorem write_chunk_eq (wr : Nat → Int) (v : Vars) (bs : List Nat) (hbuf : v.buf = bs) :
    write_chunk wr v (bs.length : Int)
      = (wr v.out.length,
         { v with out := if wr v.out.length < 0 then v.out else v.out ++ [bs] }) := by
  unfold write_chunk Rio_writen
  rw [hbuf, take_length_toNat]
  by_cases h : wr v.out.length < 0
  · simp only [h, if_true]
  · simp only [h, if_false]

/-- The header loop returns; when it ends without an error everything read has
been written, and the last read delivered bytes. -/
theorem server2client_headers_spec (wr : Nat → Int) :
    ∀ (rio : rio_t) (v : Vars), Relayed v →
      ∃ rc v2 rio2, server2client_headers wr rio v = some (rc, v2, rio2)
        ∧ (rc = 0 ∨ rc = -1) ∧ (rc = 0 → Relayed v2 ∧ 0 < v2.nread) := by
  intro rio
  induction rio with
  | nil =>
    intro v _
    exact ⟨-1, _, _, rfl, Or.inr rfl, fun h => absurd h (by decide)⟩
  | cons r rest ih =>
    intro v hI
    cases r with
    | none =>
      rw [server2client_headers]
      simp only [nread_of, show ((-1 : Int) ≤ 0) from by decide, if_true]
      exact ⟨-1, _, _, rfl, Or.inr rfl, fun h => absurd h (by decide)⟩
    | some bs =>
      cases bs with
      | nil =>
        rw [server2client_headers]
        simp only [nread_of, List.length_nil, Nat.cast_zero, le_refl, if_true]
        exact ⟨-1, _, _, rfl, Or.inr rfl, fun h => absurd h (by decide)⟩
      | cons b t =>
        have hlen : ¬ (((b :: t).length : Nat) : Int) ≤ 0 := by
          simp only [List.length_cons, Nat.cast_add, Nat.cast_one]
          omega
        obtain ⟨c, wb2, hb, hI2⟩ := @buffer_chunk_step
          { v with nread := ((b :: t).length : Int), buf := b :: t, got := v.got ++ [b :: t],
                   total_read := v.total_read + ((b :: t).length : Int) }
          v.out v.got (b :: t) rfl (by show v.total_read + _ = _; rw [hI.2.1]) (by
            have := hI
            unfold Relayed at this
            rw [hI.2.1] at this
            exact this)
        rw [server2client_headers]
        simp only [nread_of, buf_of, delivered, hlen, if_false, hb,
          show ¬ ((0 : Int) < 0) from by decide]
        by_cases hp : (parse_response_header (b :: t) v.has_entity v.entity_len).1 < 0
        · simp only [hp, if_true]
          exact ⟨-1, _, _, rfl, Or.inr rfl, fun h => absurd h (by decide)⟩
        simp only [hp, if_false]
        rw [write_chunk_eq wr _ (b :: t) rfl]
        simp only
        by_cases hw : wr v.out.length < 0
        · simp only [hw, if_true]
          exact ⟨-1, _, _, rfl, Or.inr rfl, fun h => absurd h (by decide)⟩
        simp only [hw, if_false]
        have hRel : Relayed
            { total_read := v.total_read + ((b :: t).length : Int),
              nread := ((b :: t).length : Int),
              has_entity := (parse_response_header (b :: t) v.has_entity v.entity_len).2.1,
              entity_len := (parse_response_header (b :: t) v.has_entity v.entity_len).2.2,
              nleft := v.nleft, cache_it := c, wb := wb2, buf := b :: t,
              got := v.got ++ [b :: t], out := v.out ++ [b :: t] } := hI2
        by_cases hs : strcmp (cstr (b :: t)) (bytes "\r\n") = 0
        · simp only [hs, ne_eq, not_true_eq_false, if_false]
          exact ⟨0, _, _, rfl, Or.inl rfl, fun _ => ⟨hRel, by
            show (0 : Int) < ((b :: t).length : Int)
            omega⟩⟩
        · simp only [hs, ne_eq, not_false_eq_true, if_true]
          exact ih _ hRel

/-- The loop over the entity returns; when it ends without an error everything
read has been written. -/
theorem server2client_body_spec (wr : Nat → Int) :
    ∀ (rio : rio_t) (v : Vars), Relayed v →
      ∃ rc v2 rio2, server2client_body wr rio v = some (rc, v2, rio2)
        ∧ (rc = 0 ∨ rc = -1) ∧ (rc = 0 → Relayed v2) := by
  intro rio
  induction rio with
  | nil =>
    intro v hI
    rw [server2client_body]
    by_cases hc : v.nread > 0 ∨ v.entity_len = -1
    · simp only [hc, if_true]
      exact ⟨0, _, _, rfl, Or.inl rfl, fun _ => hI⟩
    · simp only [hc, if_false]
      exact ⟨0, _, _, rfl, Or.inl rfl, fun _ => hI⟩
  | cons r rest ih =>
    intro v hI
    rw [server2client_body]
    by_cases hc : v.nread > 0 ∨ v.entity_len = -1
    · simp only [hc, if_true]
      cases r with
      | none =>
        simp only [nread_of, show ¬ ((-1 : Int) = 0) from by decide,
          show ((-1 : Int) < 0) from by decide, if_true, if_false]
        exact ⟨-1, _, _, rfl, Or.inr rfl, fun h => absurd h (by decide)⟩
      | some bs =>
        cases bs with
        | nil =>
          simp only [nread_of, buf_of, delivered, List.length_nil, Nat.cast_zero, if_true,
            List.append_nil]
          exact ⟨0, _, _, rfl, Or.inl rfl, fun _ => hI⟩
        | cons b t =>
          have hlen0 : ¬ (((b :: t).length : Nat) : Int) = 0 := by
            simp only [List.length_cons, Nat.cast_add, Nat.cast_one]
            omega
          have hlen1 : ¬ (((b :: t).length : Nat) : Int) < 0 := by omega
          obtain ⟨c, wb2, hb, hI2⟩ := @buffer_chunk_step
            { v with nread := ((b :: t).length : Int), buf := b :: t, got := v.got ++ [b :: t],
                     total_read := v.total_read + ((b :: t).length : Int),
                     nleft := if v.nleft > 0 then to_int (v.nleft - ((b :: t).length : Int))
                              else v.nleft }
            v.out v.got (b :: t) rfl (by show v.total_read + _ = _; rw [hI.2.1]) (by
              have := hI
              unfold Relayed at this
              rw [hI.2.1] at this
              exact this)
          simp only [nread_of, buf_of, delivered, hlen0, hlen1, if_false, hb,
            show ¬ ((0 : Int) < 0) from by decide]
          rw [write_chunk_eq wr _ (b :: t) rfl]
          simp only
          by_cases hw : wr v.out.length < 0
          · simp only [hw, if_true]
            exact ⟨-1, _, _, rfl, Or.inr rfl, fun h => absurd h (by decide)⟩
          simp only [hw, if_false]
          exact ih _ hI2
    · simp only [hc, if_false]
      exact ⟨0, _, _, rfl, Or.inl rfl, fun _ => hI⟩

/-- The part of `server2client` that handles the status line returns; when it
does so without an error, the status line has been written to the client. -/
theorem server2client_status_spec (wr : Nat → Int) (rio : rio_t) (nleft0 : Int)
    (wbp : web_object) (hw : wbp.content = [] ∧ wbp.length = 0 ∧ 0 < wbp.capacity) :
    ∃ rc v rio2, server2client_status wr rio nleft0 wbp = some (rc, v, rio2)
      ∧ (rc = 0 ∨ rc = -1) ∧ (rc = 0 → Relayed v) := by
  have hempty : (parse_response_line [] 1).1 < 0 := by decide
  have hI0 : Inv [] [] (([] : List (List Nat)).flatten.length : Int) 1 wbp := by
    refine ⟨rfl, rfl, Or.inl rfl, fun h => absurd h (by decide), fun _ => ?_, hw.2.2⟩
    exact ⟨hw.1, hw.2.1, by simp⟩
  unfold server2client_status
  cases rio with
  | nil =>
    simp only [Rio_readlineb, show ¬ ((0 : Int) < 0) from by decide, if_false, hempty, if_true]
    exact ⟨-1, _, _, rfl, Or.inr rfl, fun h => absurd h (by decide)⟩
  | cons r rest =>
    cases r with
    | none =>
      simp only [Rio_readlineb, nread_of, show ((-1 : Int) < 0) from by decide, if_true]
      exact ⟨-1, _, _, rfl, Or.inr rfl, fun h => absurd h (by decide)⟩
    | some bs =>
      cases bs with
      | nil =>
        simp only [Rio_readlineb, nread_of, buf_of, List.length_nil, Nat.cast_zero,
          show ¬ ((0 : Int) < 0) from by decide, if_false, hempty, if_true]
        exact ⟨-1, _, _, rfl, Or.inr rfl, fun h => absurd h (by decide)⟩
      | cons b t =>
        have hlen : ¬ (((b :: t).length : Nat) : Int) < 0 := by omega
        simp only [Rio_readlineb, nread_of, buf_of, hlen, if_false, List.headD_cons, delivered]
        by_cases hp : (parse_response_line (b :: t) 1).1 < 0
        · simp only [hp, if_true]
          exact ⟨-1, _, _, rfl, Or.inr rfl, fun h => absurd h (by decide)⟩
        simp only [hp, if_false]
        obtain ⟨c, wb2, hb, hI2⟩ := @buffer_chunk_step
          { total_read := ((b :: t).length : Int), nread := 0,
            has_entity := (parse_response_line (b :: t) 1).2, entity_len := -1,
            nleft := nleft0, cache_it := 1, wb := wbp, buf := b :: t, got := [b :: t],
            out := [] }
          [] [] (b :: t) rfl (by simp) hI0
        simp only [hb, show ¬ ((0 : Int) < 0) from by decide, if_false]
        rw [write_chunk_eq wr _ (b :: t) rfl]
        simp only
        by_cases hwr : wr ([] : List (List Nat)).length < 0
        · simp only [hwr, if_true]
          exact ⟨-1, _, _, rfl, Or.inr rfl, fun h => absurd h (by decide)⟩
        simp only [hwr, if_false]
        exact ⟨0, _, _, rfl, Or.inl rfl, fun _ => hI2⟩

/-- The relaying part of `server2client`, called with an empty buffer, returns;
when it does so without an error, everything read from the origin has been
written to the client, and the buffer holds it unless it is too large. -/
theorem server2client_relay_spec (wr : Nat → Int) (rio : rio_t) (nleft0 : Int)
    (wbp : web_object) (hw : wbp.content = [] ∧ wbp.length = 0 ∧ 0 < wbp.capacity) :
    ∃ rc v, server2client_relay wr rio nleft0 wbp = some (rc, v)
      ∧ (rc = 0 ∨ rc = -1) ∧ (rc = 0 → Relayed v) := by
  obtain ⟨rc1, v1, rio1, e1, d1, g1⟩ := server2client_status_spec wr rio nleft0 wbp hw
  unfold server2client_relay
  simp only [e1]
  rcases d1 with d1 | d1
  · subst d1
    simp only [show ¬ ((0 : Int) < 0) from by decide, if_false]
    obtain ⟨rc2, v2, rio2, e2, d2, g2⟩ := server2client_headers_spec wr rio1 v1 (g1 rfl)
    simp only [e2]
    rcases d2 with d2 | d2
    · subst d2
      simp only [show ¬ ((0 : Int) < 0) from by decide, if_false]
      have hI2 := (g2 rfl).1
      by_cases hent : v2.has_entity = 1 ∧ v2.entity_len ≠ 0
      · rw [if_pos hent]
        obtain ⟨rc3, v3, rio3, e3, d3, g3⟩ := server2client_body_spec wr rio2
          { v2 with nleft := v2.entity_len } hI2
        simp only [e3]
        rcases d3 with d3 | d3
        · subst d3
          simp only [show ¬ ((0 : Int) < 0) from by decide, if_false]
          by_cases hm : v3.entity_len > 0 ∧ v3.nleft ≠ 0
          · rw [if_pos hm]
            exact ⟨-1, _, rfl, Or.inr rfl, fun h => absurd h (by decide)⟩
          · rw [if_neg hm]
            exact ⟨0, _, rfl, Or.inl rfl, fun _ => g3 rfl⟩
        · subst d3
          simp only [show ((-1 : Int) < 0) from by decide, if_true]
          exact ⟨-1, _, rfl, Or.inr rfl, fun h => absurd h (by decide)⟩
      · rw [if_neg hent]
        simp only [show ¬ ((0 : Int) < 0) from by decide, if_false]
        by_cases hm : v2.entity_len > 0 ∧ v2.nleft ≠ 0
        · rw [if_pos hm]
          exact ⟨-1, _, rfl, Or.inr rfl, fun h => absurd h (by decide)⟩
        · rw [if_neg hm]
          exact ⟨0, _, rfl, Or.inl rfl, fun _ => hI2⟩
    · subst d2
      simp only [show ((-1 : Int) < 0) from by decide, if_true]
      exact ⟨-1, _, rfl, Or.inr rfl, fun h => absurd h (by decide)⟩
  · subst d1
    simp only [show ((-1 : Int) < 0) from by decide, if_true]
    exact ⟨-1, _, rfl, Or.inr rfl, fun h => absurd h (by decide)⟩

theorem init_web_object_fresh :
    init_web_object.content = [] ∧ init_web_object.length = 0 ∧ 0 < init_web_object.capacity := by
  decide

/-- `server2client`, called with a fresh buffer on a consistent cache and with
enough steps for the eviction loop, returns.  Its result code and variables are
those of the relaying part; it calls `update_cache`, with the buffer, exactly
when that part has succeeded and `cache_it` is not `0`. -/
theorem server2client_spec {cap : Int} (hcapo : (MAX_OBJECT_SIZE : Int) ≤ cap)
    (hcap : cap < 2147483648) {s : State} {L : Nat → List Ptr} (hG : Good s L)
    {fuel : Nat} (hfuel : HASHSIZE * linked_count L < fuel) (wr : Nat → Int) (rio : rio_t)
    (nleft0 : Int) (cid : cid_t) :
    ∃ r, server2client cap fuel s wr rio nleft0 init_web_object cid = some r
      ∧ server2client_relay wr rio nleft0 init_web_object = some (r.rc, r.vars)
      ∧ (r.rc = 0 ∨ r.rc = -1) ∧ (r.rc = 0 → Relayed r.vars)
      ∧ (r.rc = 0 ∧ r.vars.cache_it ≠ 0 →
          r.inserted = some (r.vars.wb.content, r.vars.wb.length)
          ∧ update_cache cap fuel s cid (some r.vars.wb.content) r.vars.wb.length
              = some (0, r.st))
      ∧ (¬ (r.rc = 0 ∧ r.vars.cache_it ≠ 0) → r.inserted = none ∧ r.st = s) := by
  have hM : (MAX_OBJECT_SIZE : Int) = 102400 := rfl
  obtain ⟨rc, v, e, d, g⟩ := server2client_relay_spec wr rio nleft0 init_web_object
    init_web_object_fresh
  unfold server2client
  simp only [e]
  rcases d with d | d
  · subst d
    simp only [show ¬ ((0 : Int) < 0) from by decide, if_false]
    have hI := g rfl
    by_cases hc : v.cache_it ≠ 0
    · rw [if_pos hc]
      obtain ⟨_, k2, k3⟩ := hI.2.2.2.2.1 hc
      obtain ⟨m, hm, _, _, hu⟩ := update_cache_returns (by omega) hcap hG cid
        (some v.wb.content) v.wb.length (by
          rw [k2]
          have : ((v.got.flatten.length : Nat) : Int) ≤ (MAX_OBJECT_SIZE : Int) := by
            exact_mod_cast k3
          omega)
      have hu2 := hu fuel (by omega)
      simp only [hu2, show ¬ ((0 : Int) < 0) from by decide, if_false]
      exact ⟨_, rfl, rfl, Or.inl rfl, fun _ => hI, fun _ => ⟨rfl, hu2⟩,
        fun h => absurd ⟨rfl, hc⟩ h⟩
    · rw [if_neg hc]
      exact ⟨_, rfl, rfl, Or.inl rfl, fun _ => hI, fun h => absurd h.2 hc, fun _ => ⟨rfl, rfl⟩⟩
  · subst d
    simp only [show ((-1 : Int) < 0) from by decide, if_true]
    have hne : ¬ ((-1 : Int) = 0) := by decide
    exact ⟨_, rfl, rfl, Or.inr rfl, fun h => absurd h hne,
      fun h => absurd h.1 hne, fun _ => ⟨rfl, rfl⟩⟩

/-- What a call of `server2client` with a fresh buffer has done when it returns
`r`: the relaying part has returned the variables `r.vars`; with result code
`0` the invariant holds, and the cache was changed only by a call of
`update_cache`, made exactly when `cache_it` is not `0`. -/
theorem server2client_some {cap : Int} {fuel : Nat} {s : State} {wr : Nat → Int} {rio : rio_t}
    {nleft0 : Int} {cid : cid_t} {r : Relay}
    (h : server2client cap fuel s wr rio nleft0 init_web_object cid = some r) :
    (r.rc = 0 → Relayed r.vars)
      ∧ (r.inserted = none ∧ r.st = s
        ∨ ∃ x, r.vars.cache_it ≠ 0
            ∧ r.inserted = some (r.vars.wb.content, r.vars.wb.length)
            ∧ update_cache cap fuel s cid (some r.vars.wb.content) r.vars.wb.length = some x
            ∧ r.st = x.2 ∧ Relayed r.vars) := by
  obtain ⟨rc, v, e, d, g⟩ := server2client_relay_spec wr rio nleft0 init_web_object
    init_web_object_fresh
  unfold server2client at h
  simp only [e] at h
  rcases d with d | d
  · subst d
    simp only [show ¬ ((0 : Int) < 0) from by decide, if_false] at h
    have hI := g rfl
    by_cases hc : v.cache_it ≠ 0
    · rw [if_pos hc] at h
      cases hu : update_cache cap fuel s cid (some v.wb.content) v.wb.length with
      | none => simp [hu] at h
      | some x =>
        simp only [hu, Option.some.injEq] at h
        subst h
        exact ⟨fun _ => hI, Or.inr ⟨x, hc, rfl, hu, rfl, hI⟩⟩
    · rw [if_neg hc] at h
      simp only [Option.some.injEq] at h
      subst h
      exact ⟨fun _ => hI, Or.inl ⟨rfl, rfl⟩⟩
  · subst d
    simp only [show ((-1 : Int) < 0) from by decide, if_true, Option.some.injEq] at h
    subst h
    have hne : ¬ ((-1 : Int) = 0) := by decide
    exact ⟨fun h0 => absurd h0 hne, Or.inl ⟨rfl, rfl⟩⟩

theorem linked_count_empty : linked_count (fun _ => []) = 0 := by
  simp [linked_count]

/-- The sample response is relayed with success into the empty cache. -/
theorem sample_response_relayed :
    ∃ r, server2client MAX_CACHE_SIZE 1 empty_cache (fun _ => 0) sample_response 0
        init_web_object key_a = some r ∧ r.rc = 0 := by
  obtain ⟨r, h, hrel, _⟩ := @server2client_spec MAX_CACHE_SIZE (by decide) (by decide) _ _
    empty_cache_good 1 (by rw [linked_count_empty]; decide) (fun _ => 0) sample_response 0 key_a
  have hd : (server2client_relay (fun _ => 0) sample_response 0 init_web_object).map Prod.fst
      = some 0 := by decide
  rw [hrel] at hd
  exact ⟨r, h, by simpa using hd⟩

/-! ## C12, C13: what `server2client` relays and what it inserts -/

/-- C12.  On a consistent cache, with enough steps for the eviction loop,
`server2client` (called with a fresh buffer, as `thread_job` calls it) returns
`0` or `-1`.  It calls `update_cache` exactly when it returns `0`, that is when
it has relayed the whole response without an error, and the number of bytes
read from the origin is at most `MAX_OBJECT_SIZE`.  The content it then inserts
under the key of the request is the concatenation, in order, of all bytes read
from the origin, which is also what it has written to the client; the size it
passes is their number.  Otherwise nothing is inserted and the cache is as
before. -/
theorem C12_server2client_inserts_whole_response (cap : Int)
    (hcapo : (MAX_OBJECT_SIZE : Int) ≤ cap) (hcap : cap < 2147483648) (s : State)
    (L : Nat → List Ptr) (hG : Good s L) (fuel : Nat) (hfuel : HASHSIZE * linked_count L < fuel)
    (wr : Nat → Int) (rio : rio_t) (nleft0 : Int) (cid : cid_t) :
    ∃ r, server2client cap fuel s wr rio nleft0 init_web_object cid = some r
      ∧ (r.rc = 0 ∨ r.rc = -1)
      ∧ (r.inserted ≠ none ↔ r.rc = 0 ∧ r.vars.got.flatten.length ≤ MAX_OBJECT_SIZE)
      ∧ (∀ content size, r.inserted = some (content, size) →
          content = r.vars.got.flatten ∧ size = content.length
          ∧ r.vars.out.flatten = content
          ∧ update_cache cap fuel s cid (some content) size = some (0, r.st))
      ∧ (r.inserted = none → r.st = s) := by
  obtain ⟨r, h, _, d, g, k1, k2⟩ := server2client_spec hcapo hcap hG hfuel wr rio nleft0 cid
  refine ⟨r, h, d, ?_, ?_, ?_⟩
  · constructor
    · intro hins
      by_cases hc : r.rc = 0 ∧ r.vars.cache_it ≠ 0
      · exact ⟨hc.1, ((g hc.1).2.2.2.2.1 hc.2).2.2⟩
      · exact absurd (k2 hc).1 hins
    · rintro ⟨h0, hle⟩ hnone
      have hI := g h0
      by_cases hc : r.vars.cache_it ≠ 0
      · rw [(k1 ⟨h0, hc⟩).1] at hnone
        exact Option.noConfusion hnone
      · have hbig := hI.2.2.2.1 (not_not.mp hc)
        rw [hI.2.1] at hbig
        have : ((r.vars.got.flatten.length : Nat) : Int) ≤ (MAX_OBJECT_SIZE : Int) := by
          exact_mod_cast hle
        omega
  · intro content size hins
    by_cases hc : r.rc = 0 ∧ r.vars.cache_it ≠ 0
    · obtain ⟨e1, e2⟩ := k1 hc
      rw [e1] at hins
      simp only [Option.some.injEq, Prod.mk.injEq] at hins
      obtain ⟨b1, b2, _⟩ := (g hc.1).2.2.2.2.1 hc.2
      rw [← hins.1, ← hins.2]
      refine ⟨b1, by rw [b1, b2], by rw [(g hc.1).1, b1], e2⟩
    · rw [(k2 hc).1] at hins
      exact Option.noConfusion hins
  · intro hnone
    by_cases hc : r.rc = 0 ∧ r.vars.cache_it ≠ 0
    · rw [(k1 hc).1] at hnone
      exact Option.noConfusion hnone
    · exact (k2 hc).2

/-- C12, witness: the sample response and the empty cache. -/
theorem C12_server2client_inserts_whole_response_witness :
    ∃ r, server2client MAX_CACHE_SIZE 1 empty_cache (fun _ => 0) sample_response 0
        init_web_object key_a = some r
      ∧ (r.rc = 0 ∨ r.rc = -1)
      ∧ (r.inserted ≠ none ↔ r.rc = 0 ∧ r.vars.got.flatten.length ≤ MAX_OBJECT_SIZE)
      ∧ (∀ content size, r.inserted = some (content, size) →
          content = r.vars.got.flatten ∧ size = content.length
          ∧ r.vars.out.flatten = content
          ∧ update_cache MAX_CACHE_SIZE 1 empty_cache key_a (some content) size
              = some (0, r.st))
      ∧ (r.inserted = none → r.st = empty_cache) :=
  C12_server2client_inserts_whole_response MAX_CACHE_SIZE (by decide) (by decide) empty_cache
    (fun _ => []) empty_cache_good 1 (by rw [linked_count_empty]; decide) (fun _ => 0)
    sample_response 0 key_a

/-- C13.  Whenever `server2client` (called with a fresh buffer) returns `0`, the
bytes it has written to the client are the bytes it has read from the origin,
in the same order, and `total_read` is their number.  When there are more than
`MAX_OBJECT_SIZE` of them they have all been written to the client all the
same, and nothing has been inserted: the cache is as before. -/
theorem C13_server2client_relays_all_bytes (cap : Int) (fuel : Nat) (s : State)
    (wr : Nat → Int) (rio : rio_t) (nleft0 : Int) (cid : cid_t) (r : Relay)
    (h : server2client cap fuel s wr rio nleft0 init_web_object cid = some r)
    (hrc : r.rc = 0) :
    r.vars.out.flatten = r.vars.got.flatten
      ∧ r.vars.total_read = (r.vars.got.flatten.length : Int)
      ∧ (MAX_OBJECT_SIZE < r.vars.got.flatten.length → r.inserted = none ∧ r.st = s) := by
  obtain ⟨g, k⟩ := server2client_some h
  have hI := g hrc
  refine ⟨hI.1, hI.2.1, ?_⟩
  intro hbig
  rcases k with k | ⟨x, hc, _, _, _, _⟩
  · exact k
  · have := (hI.2.2.2.2.1 hc).2.2
    omega

/-- C13, witness: the sample response and the empty cache. -/
theorem C13_server2client_relays_all_bytes_witness :
    ∃ r, server2client MAX_CACHE_SIZE 1 empty_cache (fun _ => 0) sample_response 0
        init_web_object key_a = some r
      ∧ r.rc = 0
      ∧ r.vars.out.flatten = r.vars.got.flatten
      ∧ r.vars.total_read = (r.vars.got.flatten.length : Int)
      ∧ (MAX_OBJECT_SIZE < r.vars.got.flatten.length →
          r.inserted = none ∧ r.st = empty_cache) := by
  obtain ⟨r, h, hrc⟩ := sample_response_relayed
  exact ⟨r, h, hrc, C13_server2client_relays_all_bytes MAX_CACHE_SIZE 1 empty_cache
    (fun _ => 0) sample_response 0 key_a r h hrc⟩

/-! ## C11: the size of the entries -/

/-- A lookup keeps the entries and their sizes. -/
theorem try_from_cache_bounded {s : State} {L : Nat → List Ptr} (hG : Good s L)
    (hB : Bounded s.heap L) (fuel : Nat) (wr : Int) (cid : cid_t) (hidx : cid.index < HASHSIZE)
    {x : Lookup} (hx : try_from_cache fuel s wr cid = some x) :
    ∃ L2, Good x.st L2 ∧ Bounded x.st.heap L2 := by
  rcases try_from_cache_cases hG fuel wr cid hidx hx with ⟨r, l1, l2, he, _, _, e⟩ | ⟨_, e⟩
  · rw [e]
    refine ⟨_, promote_good hG hidx he, ?_⟩
    intro j hj p hp
    show (promote_lru s.heap (s.head cid.index) r p).size ≤ _
    rw [promote_lru_size]
    by_cases hji : j = cid.index
    · subst hji
      rw [Function.update_same] at hp
      apply hB _ hj
      rw [he]
      simp only [List.mem_append, List.mem_cons, List.mem_singleton, List.not_mem_nil,
        or_false] at hp ⊢
      tauto
    · rw [Function.update_noteq hji] at hp
      exact hB j hj p hp
  · rw [e]
    exact ⟨L, hG, hB⟩

/-- An insertion of at most `MAX_OBJECT_SIZE` bytes keeps every entry within
`MAX_OBJECT_SIZE`. -/
theorem update_cache_bounded {cap : Int} (hcap0 : 0 ≤ cap) (hcap : cap < 2147483648)
    {s : State} {L : Nat → List Ptr} (hG : Good s L) (hB : Bounded s.heap L) (fuel : Nat)
    (cid : cid_t) (hidx : cid.index < HASHSIZE) (content : List Nat) (size : Nat)
    (hsize : size ≤ MAX_OBJECT_SIZE) {x : Int × State}
    (hx : update_cache cap fuel s cid (some content) size = some x) :
    ∃ L2, Good x.2 L2 ∧ Bounded x.2.heap L2 := by
  have hM : MAX_OBJECT_SIZE = 102400 := rfl
  have hsz : to_int (size : Int) = size := by apply to_int_of_range <;> omega
  have hform : ∃ m, (evict_run m { s with write_sem := 0 } 0).total_size + size ≤ cap
      ∧ x = (0, link_new (evict_run m { s with write_sem := 0 } 0) cid (some content) size) := by
    rw [update_cache_eq, hG.quiet.write_sem] at hx
    simp only [P, Nat.one_ne_zero, if_false, Nat.sub_self, Option.bind_eq_bind,
      Option.some_bind] at hx
    by_cases hcond : to_size_t (to_size_t s.total_size + size) > to_size_t cap
    · simp only [hcond, if_true] at hx
      cases he : evict_to_fit cap fuel { s with write_sem := 0 } (to_int size) with
      | none => simp [he] at hx
      | some s2 =>
        simp only [he, Option.some_bind, Option.some.injEq] at hx
        obtain ⟨m, _, hs2, hfit, _⟩ := (evict_loop_eq_some _ _ _ _ _ _).mp he
        rw [hsz] at hfit
        exact ⟨m, hfit, by rw [← hx, hs2]⟩
    · simp only [hcond, if_false, Option.some_bind, Option.some.injEq] at hx
      have hfit : s.total_size + size ≤ cap := by
        have := (update_cache_test hcap0 hcap hG.total_nonneg hG.int
          (by omega : size < 2147483648)).not.mp hcond
        omega
      exact ⟨0, by simpa [evict_run] using hfit, by rw [← hx]; rfl⟩
  obtain ⟨m, hfit, e⟩ := hform
  obtain ⟨L2, suf, _, hG2, hold, _, hnew, _, _⟩ :=
    insert_facts hcap hG cid hidx (some content) size (by omega) (by simp) m hfit
  rw [e]
  refine ⟨_, hG2, ?_⟩
  intro j hj p hp
  have hbrk : (evict_run m { s with write_sem := 0 } 0).brk = s.brk := by simp
  by_cases hji : j = cid.index
  · subst hji
    rw [Function.update_same] at hp
    rcases List.mem_append.mp hp with hp | hp
    · rw [(hold _ hj p hp).2.2]
      exact hB _ hj p ((suf _ hj).subset hp)
    · simp only [List.mem_singleton] at hp
      rw [hp, hnew]
      exact_mod_cast hsize
  · rw [Function.update_noteq hji] at hp
    rw [(hold _ hj p hp).2.2]
    exact hB _ hj p ((suf _ hj).subset hp)

/-- A connection leaves the cache consistent, with every entry within
`MAX_OBJECT_SIZE`. -/
theorem thread_job_bounded {cap : Int} (hcap0 : 0 ≤ cap) (hcap : cap < 2147483648)
    {s : State} {L : Nat → List Ptr} (hG : Good s L) (hB : Bounded s.heap L) (fuel : Nat)
    (c : Conn) {x : List Event × State} (h : thread_job cap fuel c s = some x) :
    ∃ L2, Good x.2 L2 ∧ Bounded x.2.heap L2 := by
  simp only [thread_job] at h
  by_cases h1 : (read_parse_request_line c.client).1 < 0
  · rw [if_pos h1, Option.some.injEq] at h
    rw [← h]
    exact ⟨L, hG, hB⟩
  rw [if_neg h1] at h
  by_cases h2 : strcmp (bytes "GET") (read_parse_request_line c.client).2.1.method ≠ 0
  · rw [if_pos h2, Option.some.injEq] at h
    rw [← h]
    exact ⟨L, hG, hB⟩
  rw [if_neg h2] at h
  cases ht : try_from_cache fuel s (c.wr_client 0)
      (gen_cid (read_parse_request_line c.client).2.1.host
        (read_parse_request_line c.client).2.1.port
        (read_parse_request_line c.client).2.1.path) with
  | none => simp [ht] at h
  | some lk =>
    obtain ⟨L1, G1, B1⟩ := try_from_cache_bounded hG hB fuel _ _ (gen_cid_index_lt _ _ _) ht
    simp only [ht] at h
    by_cases h3 : lk.rc = -1
    · rw [if_pos h3, Option.some.injEq] at h
      rw [← h]
      exact ⟨L1, G1, B1⟩
    rw [if_neg h3] at h
    by_cases h4 : lk.rc = 0
    · rw [if_pos h4] at h
      by_cases h5 : (client2server c.wr_origin c.serverfd (read_parse_request_line c.client).2.1
          (read_parse_request_line c.client).2.2).rc < 0
      · rw [if_pos h5, Option.some.injEq] at h
        rw [← h]
        exact ⟨L1, G1, B1⟩
      rw [if_neg h5] at h
      cases hs : server2client cap fuel lk.st c.wr_client c.origin c.nleft0 init_web_object
          (gen_cid (read_parse_request_line c.client).2.1.host
            (read_parse_request_line c.client).2.1.port
            (read_parse_request_line c.client).2.1.path) with
      | none => simp [hs] at h
      | some r =>
        simp only [hs, Option.some.injEq] at h
        rw [← h]
        rcases (server2client_some hs).2 with ⟨_, e⟩ | ⟨y, hc, _, hu, e, hI⟩
        · show ∃ L2, Good r.st L2 ∧ Bounded r.st.heap L2
          rw [e]
          exact ⟨L1, G1, B1⟩
        · show ∃ L2, Good r.st L2 ∧ Bounded r.st.heap L2
          rw [e]
          obtain ⟨_, b2, b3⟩ := hI.2.2.2.2.1 hc
          exact update_cache_bounded hcap0 hcap G1 B1 fuel _ (gen_cid_index_lt _ _ _) _ _
            (by rw [b2]; exact b3) hu
    · rw [if_neg h4, Option.some.injEq] at h
      rw [← h]
      exact ⟨L1, G1, B1⟩

theorem serve_bounded {cap : Int} (hcap0 : 0 ≤ cap) (hcap : cap < 2147483648) (fuel : Nat)
    (conns : List Conn) {s : State} {L : Nat → List Ptr} (hG : Good s L)
    (hB : Bounded s.heap L) {s2 : State} (h : serve cap fuel conns s = some s2) :
    ∃ L2, Good s2 L2 ∧ Bounded s2.heap L2 := by
  induction conns generalizing s L with
  | nil =>
    simp only [serve, Option.some.injEq] at h
    exact ⟨L, h ▸ hG, h ▸ hB⟩
  | cons c cs ih =>
    simp only [serve] at h
    cases ht : thread_job cap fuel c s with
    | none => simp [ht] at h
    | some x =>
      rw [ht] at h
      obtain ⟨L1, G1, B1⟩ := thread_job_bounded hcap0 hcap hG hB fuel c ht
      exact ih G1 B1 h

/-- C11.  Serve any sequence of connections on the cache that `init_cache`
builds.  In the cache they leave, every linked entry has a size of at most
`MAX_OBJECT_SIZE` (and the cache is consistent).  And whenever `server2client`
calls `update_cache`, in any state, the size it passes is the length of the
buffer and at most `MAX_OBJECT_SIZE`. -/
theorem C11_entries_within_object_size (cap : Int) (hcap0 : 0 ≤ cap) (hcap : cap < 2147483648)
    (fuel : Nat) (conns : List Conn) (s : State)
    (h : serve cap fuel conns empty_cache = some s) :
    (∃ L, Good s L ∧ ∀ i, i < HASHSIZE → ∀ p, p ∈ L i → (s.heap p).size ≤ MAX_OBJECT_SIZE)
      ∧ (∀ (st : State) (wr : Nat → Int) (rio : rio_t) (nleft0 : Int) (cid : cid_t) (r : Relay),
          server2client cap fuel st wr rio nleft0 init_web_object cid = some r →
          ∀ content size, r.inserted = some (content, size) →
            size = r.vars.wb.length ∧ size = content.length ∧ size ≤ MAX_OBJECT_SIZE) := by
  constructor
  · exact serve_bounded hcap0 hcap fuel conns empty_cache_good
      (fun i _ p hp => by simp at hp) h
  · intro st wr rio nleft0 cid r hs content size hins
    rcases (server2client_some hs).2 with ⟨e, _⟩ | ⟨y, hc, e, _, _, hI⟩
    · rw [e] at hins
      exact Option.noConfusion hins
    · rw [e] at hins
      simp only [Option.some.injEq, Prod.mk.injEq] at hins
      obtain ⟨b1, b2, b3⟩ := hI.2.2.2.2.1 hc
      rw [← hins.1, ← hins.2]
      exact ⟨rfl, by rw [b1, b2], by rw [b2]; exact b3⟩

/-! ## C19: a request whose key is cached -/

theorem size_le_list_size {h : Heap} {l : List Ptr} (hs : ∀ p, p ∈ l → 0 ≤ (h p).size)
    {p : Ptr} (hp : p ∈ l) : (h p).size ≤ list_size h l := by
  induction l with
  | nil => simp at hp
  | cons q t ih =>
    rw [list_size_cons]
    have hq := hs q (by simp)
    have ht : 0 ≤ list_size h t := list_size_nonneg (fun x hx => hs x (List.mem_cons_of_mem _ hx))
    rcases List.mem_cons.mp hp with e | hp
    · rw [e]; omega
    · have := ih (fun x hx => hs x (List.mem_cons_of_mem _ hx)) hp
      omega

/-- In a consistent cache no entry is larger than `total_size`. -/
theorem Good.size_le_total {s : State} {L : Nat → List Ptr} (hG : Good s L) {i : Nat}
    (hi : i < HASHSIZE) {p : Ptr} (hp : p ∈ L i) : (s.heap p).size ≤ s.total_size := by
  rw [hG.sum, linked_size_eq]
  have h1 := size_le_list_size (hG.sized i hi) hp
  have h2 : list_size s.heap (L i) ≤ ∑ j in Finset.range HASHSIZE, list_size s.heap (L j) :=
    Finset.single_le_sum (f := fun j => list_size s.heap (L j))
      (fun j hj => list_size_nonneg (hG.sized j (Finset.mem_range.mp hj)))
      (Finset.mem_range.mpr hi)
  omega

/-- The bytes a hit hands to the client are the first `size` bytes of the
content of the entry. -/
theorem Good.entry_bytes_eq {s : State} {L : Nat → List Ptr} (hG : Good s L) {i : Nat}
    (hi : i < HASHSIZE) {p : Ptr} (hp : p ∈ L i) {c : List Nat}
    (hc : (s.heap p).content = some c) :
    block_bytes (s.heap p) = c.take (s.heap p).size.toNat := by
  have h0 := hG.sized i hi p hp
  have h1 := hG.size_le_total hi hp
  have h2 := hG.int
  unfold block_bytes
  rw [hc, to_size_t_of_range h0 (by omega)]

/-- A `GET` request whose key `cid` is cached, in a consistent cache: the
lookup hits the first entry with the key; the thread looks the key up, writes
the bytes of the entry to the client if that write succeeds, and closes the
client descriptor; the entry is promoted. -/
theorem thread_job_hit {s : State} {L : Nat → List Ptr} (hG : Good s L) (cap : Int)
    {fuel : Nat} (c : Conn) (cid : cid_t)
    (hcid : gen_cid (read_parse_request_line c.client).2.1.host
      (read_parse_request_line c.client).2.1.port
      (read_parse_request_line c.client).2.1.path = cid)
    (hparse : (read_parse_request_line c.client).1 = 0)
    (hget : (read_parse_request_line c.client).2.1.method = bytes "GET")
    {r : Ptr} {l1 l2 : List Ptr} (he : L cid.index = l1 ++ r :: l2)
    (hr : (s.heap r).id = some cid.id)
    (hno : ∀ p, p ∈ l1 → (s.heap p).id ≠ some cid.id) (hf : l1.length < fuel) :
    try_from_cache fuel s (c.wr_client 0) cid
        = some { rc := if c.wr_client 0 < 0 then -1 else 1,
                 sent := some (block_bytes (s.heap r)),
                 st := { s with heap := promote_lru s.heap (s.head cid.index) r } }
      ∧ thread_job cap fuel c s
        = some (Event.lookup cid ::
            ((if c.wr_client 0 < 0 then [] else [Event.to_client (block_bytes (s.heap r))])
              ++ [Event.close_client]),
            { s with heap := promote_lru s.heap (s.head cid.index) r }) := by
  have hidx : cid.index < HASHSIZE := by rw [← hcid]; exact gen_cid_index_lt _ _ _
  have ht := try_from_cache_hit hG.rep hG.quiet cid hidx he hr hno hf (c.wr_client 0)
  refine ⟨ht, ?_⟩
  have h1 : ¬ (read_parse_request_line c.client).1 < 0 := by rw [hparse]; decide
  have h2 : ¬ strcmp (bytes "GET") (read_parse_request_line c.client).2.1.method ≠ 0 := by
    rw [hget]
    decide
  simp only [thread_job]
  rw [if_neg h1, if_neg h2, hcid]
  simp only [ht]
  by_cases hw : c.wr_client 0 < 0
  · simp only [hw, if_true, show ¬ ((-1 : Int) = 1) from by decide, if_false,
      List.nil_append, List.singleton_append]
  · simp only [hw, if_false, show ¬ ((1 : Int) = -1) from by decide,
      show ¬ ((1 : Int) = 0) from by decide, if_true, Option.map_some', Option.toList_some,
      List.singleton_append, List.cons_append, List.nil_append]

theorem single_bucket_self (i : Nat) (x : Ptr) :
    x ∈ Function.update (fun _ => ([] : List Ptr)) i ([] ++ [x]) i := by
  rw [Function.update_same]
  simp

theorem sample_conn_key :
    gen_cid (read_parse_request_line sample_conn.client).2.1.host
      (read_parse_request_line sample_conn.client).2.1.port
      (read_parse_request_line sample_conn.client).2.1.path = key_a := by
  decide

theorem deaf_conn_key :
    gen_cid (read_parse_request_line deaf_conn.client).2.1.host
      (read_parse_request_line deaf_conn.client).2.1.port
      (read_parse_request_line deaf_conn.client).2.1.path = key_a := by
  decide

/-- C19 (as amended).  For a `GET` request whose key `cid` is cached, in a
consistent cache: `try_from_cache` finds an entry `r` with the key and hands
its bytes, the first `size` bytes of its content, to `Rio_writen`.  If that
write succeeds, `try_from_cache` returns `1` and these bytes are all that is
written to the client; if it fails, `try_from_cache` returns `-1`.  In both
cases `thread_job` then closes the client descriptor and does nothing else: it
opens no connection to an origin and inserts nothing.  The cache keeps its
entries with their keys, contents and sizes, and `total_size`. -/
theorem C19_cached_get_served_from_cache (cap : Int) (fuel : Nat) (c : Conn) (cid : cid_t)
    (s : State) (L : Nat → List Ptr) (hG : Good s L)
    (hcid : gen_cid (read_parse_request_line c.client).2.1.host
      (read_parse_request_line c.client).2.1.port
      (read_parse_request_line c.client).2.1.path = cid)
    (hparse : (read_parse_request_line c.client).1 = 0)
    (hget : (read_parse_request_line c.client).2.1.method = bytes "GET")
    (hhit : ∃ p, p ∈ L cid.index ∧ (s.heap p).id = some cid.id)
    (hfuel : (L cid.index).length < fuel) :
    ∃ r s2, r ∈ L cid.index ∧ (s.heap r).id = some cid.id
      ∧ try_from_cache fuel s (c.wr_client 0) cid
          = some { rc := if c.wr_client 0 < 0 then -1 else 1,
                   sent := some (block_bytes (s.heap r)), st := s2 }
      ∧ thread_job cap fuel c s
          = some (Event.lookup cid ::
              ((if c.wr_client 0 < 0 then [] else [Event.to_client (block_bytes (s.heap r))])
                ++ [Event.close_client]), s2)
      ∧ (∀ b, (s.heap r).content = some b →
          block_bytes (s.heap r) = b.take (s.heap r).size.toNat)
      ∧ s2.total_size = s.total_size
      ∧ (∀ p, (s2.heap p).id = (s.heap p).id ∧ (s2.heap p).content = (s.heap p).content
          ∧ (s2.heap p).size = (s.heap p).size)
      ∧ ∃ L2, Good s2 L2 ∧ ∀ i, (L2 i).Perm (L i) := by
  have hidx : cid.index < HASHSIZE := by rw [← hcid]; exact gen_cid_index_lt _ _ _
  obtain ⟨l1, r, l2, he, hr, hno⟩ := first_match_split _ _ hhit
  have hl : l1.length < fuel := by
    have : l1.length ≤ (L cid.index).length := by rw [he]; simp
    omega
  obtain ⟨h1, h2⟩ := thread_job_hit hG cap c cid hcid hparse hget he hr hno hl
  have hmem : r ∈ L cid.index := by rw [he]; simp
  refine ⟨r, _, hmem, hr, h1, h2, fun b hb => hG.entry_bytes_eq hidx hmem hb, rfl, ?_,
    _, promote_good hG hidx he, ?_⟩
  · intro p
    exact ⟨promote_lru_id _ _ _ _, promote_lru_content _ _ _ _, promote_lru_size _ _ _ _⟩
  · intro i
    by_cases hi : i = cid.index
    · subst hi
      rw [Function.update_same, he]
      simp only [List.append_assoc]
      exact (List.perm_append_left_iff l1).mpr (List.perm_append_comm.trans (by simp))
    · rw [Function.update_noteq hi]

/-- C19, witness: the request for `http://a/` when the key is cached. -/
theorem C19_cached_get_served_from_cache_witness :
    ∃ r s2, r ∈ Function.update (fun _ => ([] : List Ptr)) key_a.index ([] ++ [empty_locked.brk])
          key_a.index
      ∧ (one_cached.heap r).id = some key_a.id
      ∧ try_from_cache 2 one_cached (sample_conn.wr_client 0) key_a
          = some { rc := if sample_conn.wr_client 0 < 0 then -1 else 1,
                   sent := some (block_bytes (one_cached.heap r)), st := s2 }
      ∧ thread_job MAX_CACHE_SIZE 2 sample_conn one_cached
          = some (Event.lookup key_a ::
              ((if sample_conn.wr_client 0 < 0 then []
                else [Event.to_client (block_bytes (one_cached.heap r))])
                ++ [Event.close_client]), s2)
      ∧ (∀ b, (one_cached.heap r).content = some b →
          block_bytes (one_cached.heap r) = b.take (one_cached.heap r).size.toNat)
      ∧ s2.total_size = one_cached.total_size
      ∧ (∀ p, (s2.heap p).id = (one_cached.heap p).id
          ∧ (s2.heap p).content = (one_cached.heap p).content
          ∧ (s2.heap p).size = (one_cached.heap p).size)
      ∧ ∃ L2, Good s2 L2 ∧ ∀ i, (L2 i).Perm
          (Function.update (fun _ => ([] : List Ptr)) key_a.index ([] ++ [empty_locked.brk]) i) :=
  C19_cached_get_served_from_cache MAX_CACHE_SIZE 2 sample_conn key_a one_cached _
    one_cached_facts.1 sample_conn_key (by decide) (by decide)
    ⟨empty_locked.brk, single_bucket_self _ _, one_cached_facts.2.2.1⟩
    (single_bucket_length _ _ _)

/-- C19, counterexample.  The key of `http://a/` is cached in `one_cached`, and
the request is a `GET` request for it, on a connection whose client takes no
byte.  The write of the entry to the client fails: `try_from_cache` returns
`-1`, not `1`, and `thread_job` closes the connection with nothing written. -/
theorem C19_counterexample_client_write_fails :
    Good one_cached (Function.update (fun _ => []) key_a.index ([] ++ [empty_locked.brk]))
      ∧ empty_locked.brk ∈ Function.update (fun _ => ([] : List Ptr)) key_a.index
          ([] ++ [empty_locked.brk]) key_a.index
      ∧ (one_cached.heap empty_locked.brk).id = some key_a.id
      ∧ (read_parse_request_line deaf_conn.client).1 = 0
      ∧ (read_parse_request_line deaf_conn.client).2.1.method = bytes "GET"
      ∧ gen_cid (read_parse_request_line deaf_conn.client).2.1.host
          (read_parse_request_line deaf_conn.client).2.1.port
          (read_parse_request_line deaf_conn.client).2.1.path = key_a
      ∧ ∃ sent s2, try_from_cache 2 one_cached (deaf_conn.wr_client 0) key_a
            = some { rc := -1, sent := sent, st := s2 }
          ∧ thread_job MAX_CACHE_SIZE 2 deaf_conn one_cached
            = some ([Event.lookup key_a, Event.close_client], s2) := by
  have hG := one_cached_facts.1
  have he : Function.update (fun _ => ([] : List Ptr)) key_a.index ([] ++ [empty_locked.brk])
      key_a.index = [] ++ empty_locked.brk :: [] := by
    rw [Function.update_same]
  obtain ⟨h1, h2⟩ := @thread_job_hit _ _ hG MAX_CACHE_SIZE 2 deaf_conn key_a deaf_conn_key
    (by decide) (by decide) _ _ _ he one_cached_facts.2.2.1 (by intro p hp; simp at hp)
    (by simp : ([] : List Ptr).length < 2)
  exact ⟨hG, single_bucket_self _ _, one_cached_facts.2.2.1, by decide, by decide,
    deaf_conn_key, _, _, h1, h2⟩

/-- A `GET` request whose key is not cached, forwarded with success: the thread
ends with the cache `server2client` leaves. -/
theorem thread_job_miss {s : State} {L : Nat → List Ptr} (hG : Good s L) (cap : Int)
    {fuel : Nat} (c : Conn) (cid : cid_t)
    (hcid : gen_cid (read_parse_request_line c.client).2.1.host
      (read_parse_request_line c.client).2.1.port
      (read_parse_request_line c.client).2.1.path = cid)
    (hparse : (read_parse_request_line c.client).1 = 0)
    (hget : (read_parse_request_line c.client).2.1.method = bytes "GET")
    (hno : ∀ p, p ∈ L cid.index → (s.heap p).id ≠ some cid.id)
    (hf : (L cid.index).length < fuel)
    (hfw : ¬ (client2server c.wr_origin c.serverfd (read_parse_request_line c.client).2.1
      (read_parse_request_line c.client).2.2).rc < 0)
    {r : Relay}
    (hs : server2client cap fuel s c.wr_client c.origin c.nleft0 init_web_object cid = some r) :
    ∃ ev, thread_job cap fuel c s = some (ev, r.st) := by
  have hidx : cid.index < HASHSIZE := by rw [← hcid]; exact gen_cid_index_lt _ _ _
  have ht := try_from_cache_miss hG.rep hG.quiet cid hidx hno hf (c.wr_client 0)
  have h1 : ¬ (read_parse_request_line c.client).1 < 0 := by rw [hparse]; decide
  have h2 : ¬ strcmp (bytes "GET") (read_parse_request_line c.client).2.1.method ≠ 0 := by
    rw [hget]
    decide
  simp only [thread_job]
  rw [if_neg h1, if_neg h2, hcid]
  simp only [ht, show ¬ ((0 : Int) = -1) from by decide, if_false, if_true]
  rw [if_neg hfw]
  simp only [hs]
  exact ⟨_, rfl⟩

theorem serve_one {cap : Int} {fuel : Nat} {c : Conn} {s : State} {x : List Event × State}
    (h : thread_job cap fuel c s = some x) : serve cap fuel [c] s = some x.2 := by
  simp only [serve, h, Option.some_bind]

/-- The sample connection is served on the empty cache. -/
theorem sample_conn_served : ∃ s, serve MAX_CACHE_SIZE 1 [sample_conn] empty_cache = some s := by
  obtain ⟨r, hs, _⟩ := @server2client_spec MAX_CACHE_SIZE (by decide) (by decide) _ _
    empty_cache_good 1 (by rw [linked_count_empty]; decide) sample_conn.wr_client
    sample_conn.origin sample_conn.nleft0 key_a
  obtain ⟨ev, ht⟩ := thread_job_miss empty_cache_good MAX_CACHE_SIZE sample_conn key_a
    sample_conn_key (by decide) (by decide) (fun p hp => absurd hp (List.not_mem_nil p))
    Nat.zero_lt_one (by decide) hs
  exact ⟨r.st, serve_one ht⟩

/-- C11, witness: the sample connection served on the empty cache. -/
theorem C11_entries_within_object_size_witness :
    ∃ s, serve MAX_CACHE_SIZE 1 [sample_conn] empty_cache = some s
      ∧ (∃ L, Good s L
          ∧ ∀ i, i < HASHSIZE → ∀ p, p ∈ L i → (s.heap p).size ≤ MAX_OBJECT_SIZE)
      ∧ (∀ (st : State) (wr : Nat → Int) (rio : rio_t) (nleft0 : Int) (cid : cid_t) (r : Relay),
          server2client MAX_CACHE_SIZE 1 st wr rio nleft0 init_web_object cid = some r →
          ∀ content size, r.inserted = some (content, size) →
            size = r.vars.wb.length ∧ size = content.length ∧ size ≤ MAX_OBJECT_SIZE) := by
  obtain ⟨s, hs⟩ := sample_conn_served
  exact ⟨s, hs, C11_entries_within_object_size MAX_CACHE_SIZE (by decide) (by decide) 1
    [sample_conn] s hs⟩

/-! ## C21, C22: the header lines of the request -/

theorem cstr_append_of_no_nul {a : List Nat} (b : List Nat) (h : 0 ∉ a) :
    cstr (a ++ b) = a ++ cstr b := by
  induction a with
  | nil => rfl
  | cons x l ih =>
    have hx : x ≠ 0 := fun e => h (by simp [e])
    have hl : 0 ∉ l := fun hm => h (List.mem_cons_of_mem _ hm)
    have hc : ∀ t, cstr (x :: t) = x :: cstr t := by
      intro t
      unfold cstr
      rw [List.takeWhile_cons_of_pos (by simpa using hx)]
    rw [List.cons_append, hc, ih hl, List.cons_append]

theorem cstr_head_space {rest : List Nat}
    (h : ∀ z t, rest = z :: t → isspace z = true ∨ z = 0) :
    ∀ x t, cstr rest = x :: t → isspace x = true := by
  intro x t e
  cases rest with
  | nil => simp [cstr] at e
  | cons z r =>
    by_cases hz : z = 0
    · subst hz
      simp [cstr] at e
    · have hc : cstr (z :: r) = z :: cstr r := by
        unfold cstr
        rw [List.takeWhile_cons_of_pos (by simpa using hz)]
      rw [hc] at e
      simp only [List.cons.injEq] at e
      rcases h z r rfl with hs | h0
      · rw [← e.1]; exact hs
      · exact absurd h0 hz

/-- The C string of a header line, cut after its value. -/
theorem cstr_header_line {line name value : List Nat} (h : HeaderLine line name value) :
    ∃ sp r, cstr line = name ++ (58 :: (sp ++ (value ++ r)))
      ∧ name ≠ [] ∧ 58 ∉ name ∧ (∀ y, y ∈ sp → isspace y = true)
      ∧ value ≠ [] ∧ (∀ y, y ∈ value → isspace y = false)
      ∧ (∀ x t, r = x :: t → isspace x = true) := by
  obtain ⟨sp, rest, e, h1, h2, h3, h4, h5, h6, h7⟩ := h
  have hsp : 0 ∉ sp := by
    intro hm
    have := h4 0 hm
    exact absurd this (by decide)
  have hv : 0 ∉ value := fun hm => (h6 0 hm).2 rfl
  refine ⟨sp, cstr rest, ?_, h1, h2, h4, h5, fun y hy => (h6 y hy).1, cstr_head_space h7⟩
  have h58 : (0 : Nat) ∉ [58] := by decide
  have e2 : line = name ++ ([58] ++ (sp ++ (value ++ rest))) := e
  rw [e2, cstr_append_of_no_nul _ h3, cstr_append_of_no_nul _ h58, cstr_append_of_no_nul _ hsp,
    cstr_append_of_no_nul _ hv]
  rfl

/-- The format `"%[^:]:%s"` assigns the name and the value of a header line. -/
theorem scan_header_line {line name value : List Nat} (h : HeaderLine line name value) :
    sscanf fmt_key_value (cstr line) [] = (2, [name, value]) := by
  obtain ⟨sp, r, e, h1, h2, h4, h5, h6, h7⟩ := cstr_header_line h
  obtain ⟨v, vt, hv⟩ := List.exists_cons_of_ne_nil h5
  have hvs : isspace v = false := h6 v (by rw [hv]; simp)
  have hdrop : (sp ++ (value ++ r)).dropWhile isspace = value ++ r := by
    apply dropWhile_append_stop h4
    intro x t e2
    rw [hv] at e2
    simp only [List.cons_append, List.cons.injEq] at e2
    rw [← e2.1]
    exact hvs
  have htake : (value ++ r).takeWhile (fun x => !isspace x) = value := by
    apply takeWhile_append_stop
    · intro x hx
      simp [h6 x hx]
    · intro x t e2
      simp [h7 x t e2]
  rw [e, fmt_key_value,
    sscanf_notset h1 h2 (fun z t2 e => by simp only [List.cons.injEq] at e; exact e.1.symm),
    sscanf_lit_cons, sscanf_str_last ⟨v, by rw [hv]; simp, hvs⟩, hdrop, htake]
  rfl

theorem header_name_of_line {line name value : List Nat} (h : HeaderLine line name value) :
    header_name line = name := by
  obtain ⟨sp, rest, e, h1, h2, h3, _⟩ := h
  rw [e]
  unfold header_name
  apply takeWhile_append_stop
  · intro x hx
    simp only [bne_iff_ne, ne_eq]
    intro e2
    exact h2 (e2 ▸ hx)
  · intro x t e2
    simp only [List.cons.injEq] at e2
    rw [← e2.1]
    rfl

/-- A header named `Host` is not one of the proxy's own headers. -/
theorem host_not_proxy {name : List Nat} (h : eq_ignoring_case name (bytes "Host") = true) :
    proxy_header name = false := by
  rw [eq_ignoring_case_iff] at h
  have h1 : ∀ b : List Nat, b.map tolower ≠ (bytes "Host").map tolower →
      eq_ignoring_case name b = false := by
    intro b hb
    rw [Bool.eq_false_iff]
    intro e
    rw [eq_ignoring_case_iff, h] at e
    exact hb e.symm
  unfold proxy_header
  rw [h1 _ (by decide), h1 _ (by decide), h1 _ (by decide)]
  rfl

/-- What `handle_request_header` does with a header line when the write to the
origin does not fail. -/
theorem handle_request_header_line (wr : Nat → Int) (out : List (List Nat))
    {line name value : List Nat} (h : HeaderLine line name value) (nread : Int) :
    handle_request_header wr out line nread
      = if proxy_header name = true then (0, out)
        else if wr out.length < 0 then (-1, out)
        else (if eq_ignoring_case name (bytes "Host") = true then 1 else 0,
              out ++ [line.take nread.toNat]) := by
  unfold handle_request_header
  simp only [scan_header_line h, List.getD_cons_zero, ne_eq, not_true_eq_false, if_false,
    strcasecmp_eq_zero]
  by_cases a1 : eq_ignoring_case name (bytes "User-Agent") = true
  · simp [proxy_header, a1]
  by_cases a2 : eq_ignoring_case name (bytes "Connection") = true
  · simp [proxy_header, a1, a2]
  by_cases a3 : eq_ignoring_case name (bytes "Proxy-Connection") = true
  · simp [proxy_header, a1, a2, a3]
  have hp : ¬ proxy_header name = true := by simp [proxy_header, a1, a2, a3]
  simp only [a1, a2, a3, hp, if_false]
  unfold Rio_writen
  by_cases hw : wr out.length < 0
  · simp [hw]
  · by_cases hh : eq_ignoring_case name (bytes "Host") = true
    · simp [hw, hh]
    · simp [hw, hh]
theorem header_line_ne_nil {line name value : List Nat} (h : HeaderLine line name value) :
    line ≠ [] := by
  obtain ⟨sp, rest, e, h1, _⟩ := h
  rw [e]
  cases name with
  | nil => exact absurd rfl h1
  | cons x t => simp

theorem header_line_not_blank {line name value : List Nat} (h : HeaderLine line name value) :
    cstr line ≠ bytes "\r\n" := by
  obtain ⟨sp, r, e, _⟩ := cstr_header_line h
  intro e2
  have hm : 58 ∈ cstr line := by rw [e]; simp
  rw [e2] at hm
  exact absurd hm (by decide)

theorem header_line_names_host {line name value : List Nat} (h : HeaderLine line name value) :
    names_host line = eq_ignoring_case name (bytes "Host") := by
  unfold names_host
  rw [header_name_of_line h]

/-- One turn of the header loop of `client2server` on a line that is not the
empty line. -/
theorem client2server_loop_cons (wr : Nat → Int) (fd : Int) (host : List Nat) {l : List Nat}
    (hne : l ≠ []) (hnb : cstr l ≠ bytes "\r\n") (rest : rio_t) (buf0 : List Nat) (hh : Int)
    (out : List (List Nat)) :
    client2server_loop wr fd host (some l :: rest) buf0 hh out
      = if (handle_request_header wr out l (l.length : Int)).1 = -1
        then { rc := -1, opened := true,
               out := (handle_request_header wr out l (l.length : Int)).2, rp := rest }
        else client2server_loop wr fd host rest l
          (if (handle_request_header wr out l (l.length : Int)).1 = 1 then 1 else hh)
          (handle_request_header wr out l (l.length : Int)).2 := by
  obtain ⟨b, t, e⟩ := List.exists_cons_of_ne_nil hne
  subst e
  have hlen : ¬ (((b :: t).length : Nat) : Int) ≤ 0 := by
    simp only [List.length_cons, Nat.cast_add, Nat.cast_one]
    omega
  have hblank : ¬ strcmp (cstr (b :: t)) (bytes "\r\n") = 0 := by
    unfold strcmp
    rw [if_neg hnb]
    decide
  rw [client2server_loop]
  simp only [nread_of, buf_of, hlen, if_false, hblank, ne_eq, not_false_eq_true, if_true]

/-- The end of the header loop of `client2server`: the empty line. -/
theorem client2server_loop_blank (wr : Nat → Int) (fd : Int) (host : List Nat) {l : List Nat}
    (hb : cstr l = bytes "\r\n") (rest : rio_t) (buf0 : List Nat) (hh : Int)
    (out : List (List Nat)) (hw1 : ¬ wr out.length < 0) (hw2 : ¬ wr (out.length + 1) < 0) :
    client2server_loop wr fd host (some l :: rest) buf0 hh out
      = { rc := fd, opened := true,
          out := out ++ (if (hh != 0) = true then [] else [bytes "Host:" ++ host ++ bytes "\r\n"])
            ++ [bytes "\r\n"],
          rp := rest } := by
  have hne : l ≠ [] := by
    intro e
    rw [e] at hb
    exact absurd hb (by decide)
  obtain ⟨b, t, e⟩ := List.exists_cons_of_ne_nil hne
  subst e
  have hlen : ¬ (((b :: t).length : Nat) : Int) ≤ 0 := by
    simp only [List.length_cons, Nat.cast_add, Nat.cast_one]
    omega
  have hblank : strcmp (cstr (b :: t)) (bytes "\r\n") = 0 := by
    unfold strcmp
    rw [if_pos hb]
  rw [client2server_loop]
  simp only [nread_of, buf_of, hlen, if_false, hblank, ne_eq, not_true_eq_false]
  by_cases hhh : hh = 0
  · subst hhh
    simp only [if_true, Rio_writen_all]
    simp only [hw1, if_false, List.length_append, List.length_singleton, hw2]
    simp
  · have h00 : ¬ ((0 : Int) < 0) := by decide
    simp only [hhh, if_false, Rio_writen_all, h00, hw1]
    simp [hhh]

/-- The header loop of `client2server` on header lines followed by the empty
line, when no write fails: the lines are forwarded in their order, except those
with one of the proxy's header names; the `Host` line is added unless a line
named `Host` was among them; the empty line ends the request. -/
theorem client2server_loop_run (wr : Nat → Int) (hw : ∀ k, ¬ wr k < 0) (fd : Int)
    (host blank : List Nat) (hb : cstr blank = bytes "\r\n") (rest : rio_t) :
    ∀ (lines : List (List Nat)), (∀ l, l ∈ lines → ∃ name value, HeaderLine l name value) →
      ∀ (buf0 : List Nat) (hh : Int) (out : List (List Nat)),
        client2server_loop wr fd host (lines.map some ++ some blank :: rest) buf0 hh out
          = { rc := fd, opened := true,
              out := out ++ forwarded lines
                ++ (if (hh != 0 || lines.any names_host) = true then []
                    else [bytes "Host:" ++ host ++ bytes "\r\n"])
                ++ [bytes "\r\n"],
              rp := rest } := by
  intro lines
  induction lines with
  | nil =>
    intro _ buf0 hh out
    rw [List.map_nil, List.nil_append, client2server_loop_blank wr fd host hb rest buf0 hh out
      (hw _) (hw _)]
    simp [forwarded]
  | cons l lines ih =>
    intro hl buf0 hh out
    obtain ⟨name, value, hline⟩ := hl l (by simp)
    have ih2 := ih (fun x hx => hl x (List.mem_cons_of_mem _ hx))
    rw [List.map_cons, List.cons_append,
      client2server_loop_cons wr fd host (header_line_ne_nil hline) (header_line_not_blank hline),
      handle_request_header_line wr out hline, take_length_toNat]
    have hnh := header_line_names_host hline
    have hhn := header_name_of_line hline
    by_cases hp : proxy_header name = true
    · have hnot : eq_ignoring_case name (bytes "Host") = false := by
        rw [Bool.eq_false_iff]
        intro e
        rw [host_not_proxy e] at hp
        exact Bool.noConfusion hp
      simp only [hp, if_true, show ¬ ((0 : Int) = -1) from by decide,
        show ¬ ((0 : Int) = 1) from by decide, if_false]
      rw [ih2]
      simp [forwarded, hhn, hp, hnh, hnot]
    · simp only [hp, if_false, hw out.length]
      by_cases hh1 : eq_ignoring_case name (bytes "Host") = true
      · simp only [hh1, if_true, show ¬ ((1 : Int) = -1) from by decide, if_false]
        rw [ih2]
        simp [forwarded, hhn, hp, hnh, hh1]
      · simp only [hh1, if_false, show ¬ ((0 : Int) = -1) from by decide,
          show ¬ ((0 : Int) = 1) from by decide]
        rw [ih2]
        simp [forwarded, hhn, hp, hnh, hh1]
/-- What `handle_request_header` has done when it does not return `-1`: the
line is forwarded unless it has one of the proxy's header names, and the result
is `1` exactly for a line named `Host`. -/
theorem handle_request_header_ok (wr : Nat → Int) (out : List (List Nat)) (buf : List Nat)
    (nread : Int) (h : (handle_request_header wr out buf nread).1 ≠ -1) :
    handle_request_header wr out buf nread
      = (if names_host buf = true then 1 else 0,
         out ++ (if proxy_header (header_name buf) = true then [] else [buf.take nread.toNat])) := by
  unfold handle_request_header at h ⊢
  by_cases h2 : (sscanf fmt_key_value (cstr buf) []).1 = 2
  · obtain ⟨k1, k2⟩ := scan_key_value_two h2
    rw [header_name_cstr k2] at k1
    simp only [h2, ne_eq, not_true_eq_false, if_false, k1, strcasecmp_eq_zero] at h ⊢
    by_cases hp : proxy_header (header_name buf) = true
    · have hnot : names_host buf = false := by
        rw [Bool.eq_false_iff]
        intro e
        rw [host_not_proxy e] at hp
        exact Bool.noConfusion hp
      simp only [hp, hnot, if_true, List.append_nil]
      simp only [proxy_header, Bool.or_eq_true] at hp
      rcases hp with (a1 | a2) | a3
      · simp [a1]
      · by_cases a1 : eq_ignoring_case (header_name buf) (bytes "User-Agent") = true
        · simp [a1]
        · simp [a1, a2]
      · by_cases a1 : eq_ignoring_case (header_name buf) (bytes "User-Agent") = true
        · simp [a1]
        · by_cases a2 : eq_ignoring_case (header_name buf) (bytes "Connection") = true
          · simp [a1, a2]
          · simp [a1, a2, a3]
    · have hp2 := hp
      simp only [proxy_header, Bool.or_eq_true, not_or] at hp2
      obtain ⟨⟨a1, a2⟩, a3⟩ := hp2
      simp only [a1, a2, a3, if_false, hp] at h ⊢
      unfold Rio_writen at h ⊢
      by_cases hw : wr out.length < 0
      · simp [hw] at h
      · by_cases hh : eq_ignoring_case (header_name buf) (bytes "Host") = true
        · simp [hw, hh, names_host]
        · simp [hw, hh, names_host]
  · simp [h2] at h

/-- The header loop of `client2server` when it does not return `-1`: the client
sent lines, none of them empty, and then the empty line; the loop has forwarded
the lines in their order, except those with one of the proxy's header names,
then the `Host` line unless a line named `Host` was among them, and the empty
line. -/
theorem client2server_loop_ok (wr : Nat → Int) (fd : Int) (host : List Nat) :
    ∀ (rp : rio_t) (buf0 : List Nat) (hh : Int) (out : List (List Nat)),
      (client2server_loop wr fd host rp buf0 hh out).rc ≠ -1 →
      ∃ pre blank rest, rp = pre.map some ++ some blank :: rest
        ∧ cstr blank = bytes "\r\n"
        ∧ (∀ l, l ∈ pre → l ≠ [] ∧ cstr l ≠ bytes "\r\n")
        ∧ client2server_loop wr fd host rp buf0 hh out
          = { rc := fd, opened := true,
              out := out ++ forwarded pre
                ++ (if (hh != 0 || pre.any names_host) = true then []
                    else [bytes "Host:" ++ host ++ bytes "\r\n"])
                ++ [bytes "\r\n"],
              rp := rest } := by
  intro rp
  induction rp with
  | nil =>
    intro buf0 hh out h
    exact absurd (by simp [client2server_loop]) h
  | cons r rest ih =>
    intro buf0 hh out h
    cases r with
    | none => exact absurd (by simp [client2server_loop, nread_of]) h
    | some l =>
      by_cases hne : l = []
      · subst hne
        exact absurd (by simp [client2server_loop, nread_of]) h
      by_cases hb : cstr l = bytes "\r\n"
      · refine ⟨[], l, rest, rfl, hb, by simp, ?_⟩
        obtain ⟨b, t, e⟩ := List.exists_cons_of_ne_nil hne
        subst e
        have hlen : ¬ (((b :: t).length : Nat) : Int) ≤ 0 := by
          simp only [List.length_cons, Nat.cast_add, Nat.cast_one]
          omega
        have hblank : strcmp (cstr (b :: t)) (bytes "\r\n") = 0 := by
          unfold strcmp
          rw [if_pos hb]
        have hw1 : ¬ wr out.length < 0 ∧ ¬ wr (out.length + 1) < 0 ∨ hh ≠ 0 ∧ ¬ wr out.length < 0 := by
          rw [client2server_loop] at h
          simp only [nread_of, buf_of, hlen, if_false, hblank, ne_eq, not_true_eq_false] at h
          by_cases hhh : hh = 0
          · left
            subst hhh
            simp only [if_true, Rio_writen_all] at h
            by_cases k1 : wr out.length < 0
            · simp [k1] at h
            · refine ⟨k1, ?_⟩
              simp only [k1, if_false, List.length_append, List.length_singleton] at h
              intro k2
              simp [k2] at h
          · right
            refine ⟨hhh, ?_⟩
            have h00 : ¬ ((0 : Int) < 0) := by decide
            simp only [hhh, if_false, Rio_writen_all, h00] at h
            intro k1
            simp [k1] at h
        rcases hw1 with ⟨k1, k2⟩ | ⟨k0, k1⟩
        · rw [client2server_loop_blank wr fd host hb rest buf0 hh out k1 k2]
          simp [forwarded]
        · rw [client2server_loop]
          have h00 : ¬ ((0 : Int) < 0) := by decide
          simp only [nread_of, buf_of, hlen, if_false, hblank, ne_eq, not_true_eq_false, k0,
            Rio_writen_all, h00, k1]
          simp [forwarded, k0]
      · rw [client2server_loop_cons wr fd host hne hb] at h ⊢
        by_cases ht : (handle_request_header wr out l (l.length : Int)).1 = -1
        · rw [if_pos ht] at h
          exact absurd rfl h
        rw [if_neg ht] at h ⊢
        have hk := handle_request_header_ok wr out l _ ht
        rw [take_length_toNat] at hk
        obtain ⟨pre, blank, rest2, e1, e2, e3, e4⟩ := ih _ _ _ h
        refine ⟨l :: pre, blank, rest2, by rw [e1]; rfl, e2, ?_, ?_⟩
        · intro x hx
          rcases List.mem_cons.mp hx with e | hx
          · rw [e]; exact ⟨hne, hb⟩
          · exact e3 x hx
        · rw [e4, hk]
          by_cases hp : proxy_header (header_name l) = true
          · have hnot : names_host l = false := by
              rw [Bool.eq_false_iff]
              intro e
              rw [host_not_proxy e] at hp
              exact Bool.noConfusion hp
            simp [forwarded, hp, hnot]
          · by_cases hh1 : names_host l = true
            · simp [forwarded, hp, hh1]
            · simp [forwarded, hp, hh1]

/-- A call of `client2server` that does not fail has opened the connection,
written the request line and the three fixed headers, and run the header
loop. -/
theorem client2server_eq_loop (wr : Nat → Int) (serverfd : Int) (rl : request_line) (rp : rio_t)
    (hok : 0 ≤ (client2server wr serverfd rl rp).rc) :
    0 ≤ serverfd ∧ client2server wr serverfd rl rp
      = client2server_loop wr serverfd rl.host rp
          (rl.method ++ bytes " " ++ rl.path ++ bytes " " ++ rl.version ++ bytes "\r\n") 0
          [rl.method ++ bytes " " ++ rl.path ++ bytes " " ++ rl.version ++ bytes "\r\n",
           user_agent_hdr, connection_hdr, proxy_connection_hdr] := by
  generalize hline : rl.method ++ bytes " " ++ rl.path ++ bytes " " ++ rl.version ++ bytes "\r\n"
    = line at hok ⊢
  have hm1 : ¬ ((0 : Int) ≤ -1) := by decide
  unfold client2server at hok ⊢
  simp only [hline] at hok ⊢
  by_cases hfd : serverfd < 0
  · simp only [hfd, if_true] at hok
    exact absurd hok hm1
  simp only [hfd, if_false] at hok ⊢
  refine ⟨by omega, ?_⟩
  by_cases h1 : wr ([] : List (List Nat)).length < 0
  · simp only [Rio_writen_fail wr [] line h1, h1, if_true] at hok
    exact absurd hok hm1
  have e1 := Rio_writen_ok wr [] line h1
  by_cases h2 : wr [line].length < 0
  · have e2 := Rio_writen_fail wr [line] user_agent_hdr h2
    simp only [e1, e2, h1, h2, if_false, if_true, List.nil_append] at hok
    exact absurd hok hm1
  have e2 := Rio_writen_ok wr [line] user_agent_hdr h2
  by_cases h3 : wr [line, user_agent_hdr].length < 0
  · have e3 := Rio_writen_fail wr [line, user_agent_hdr] connection_hdr h3
    simp only [e1, e2, e3, h1, h2, h3, if_false, if_true, List.nil_append,
      List.cons_append] at hok
    exact absurd hok hm1
  have e3 := Rio_writen_ok wr [line, user_agent_hdr] connection_hdr h3
  by_cases h4 : wr [line, user_agent_hdr, connection_hdr].length < 0
  · have e4 := Rio_writen_fail wr [line, user_agent_hdr, connection_hdr] proxy_connection_hdr h4
    simp only [e1, e2, e3, e4, h1, h2, h3, h4, if_false, if_true, List.nil_append,
      List.cons_append] at hok
    exact absurd hok hm1
  have e4 := Rio_writen_ok wr [line, user_agent_hdr, connection_hdr] proxy_connection_hdr h4
  simp only [e1, e2, e3, e4, h1, h2, h3, h4, if_false, List.nil_append, List.cons_append]
theorem HeaderLine.intro (name sp value rest : List Nat) (h1 : name ≠ []) (h2 : 58 ∉ name)
    (h3 : 0 ∉ name) (h4 : ∀ y, y ∈ sp → isspace y = true) (h5 : value ≠ [])
    (h6 : ∀ y, y ∈ value → isspace y = false ∧ y ≠ 0)
    (h7 : (rest.head?.map (fun z => isspace z || z == 0)).getD true = true) :
    HeaderLine (name ++ (58 :: (sp ++ (value ++ rest)))) name value := by
  refine ⟨sp, rest, rfl, h1, h2, h3, h4, h5, h6, ?_⟩
  intro z t e
  subst e
  simpa using h7

/-- `client2server` on a request whose header lines are followed by the empty
line, when the connection is opened and no write fails. -/
theorem client2server_run (wr : Nat → Int) (hw : ∀ k, ¬ wr k < 0) (serverfd : Int)
    (hfd : 0 ≤ serverfd) (rl : request_line) (lines : List (List Nat))
    (hl : ∀ l, l ∈ lines → ∃ name value, HeaderLine l name value)
    (blank : List Nat) (hb : cstr blank = bytes "\r\n") (rest : rio_t) :
    client2server wr serverfd rl (lines.map some ++ some blank :: rest)
      = { rc := serverfd, opened := true,
          out := [rl.method ++ bytes " " ++ rl.path ++ bytes " " ++ rl.version ++ bytes "\r\n",
                  user_agent_hdr, connection_hdr, proxy_connection_hdr]
            ++ forwarded lines
            ++ (if lines.any names_host = true then []
                else [bytes "Host:" ++ rl.host ++ bytes "\r\n"])
            ++ [bytes "\r\n"],
          rp := rest } := by
  generalize hline : rl.method ++ bytes " " ++ rl.path ++ bytes " " ++ rl.version ++ bytes "\r\n"
    = line
  unfold client2server
  simp only [hline]
  rw [if_neg (by omega)]
  have e1 := Rio_writen_ok wr [] line (hw _)
  have e2 := Rio_writen_ok wr [line] user_agent_hdr (hw _)
  have e3 := Rio_writen_ok wr [line, user_agent_hdr] connection_hdr (hw _)
  have e4 := Rio_writen_ok wr [line, user_agent_hdr, connection_hdr] proxy_connection_hdr (hw _)
  simp only [e1, e2, e3, e4, hw _, if_false, List.nil_append, List.cons_append]
  rw [client2server_loop_run wr hw serverfd rl.host blank hb rest lines hl]
  simp

/-- C21 (as amended).  Take a request whose header lines, up to the empty line,
are header lines `NAME:VALUE` with a name and a value that are not empty, on a
connection to the origin on which no write fails.  For each of these lines
whose name is not, without regard to letter case, `User-Agent`, `Connection` or
`Proxy-Connection`, `handle_request_header` writes the bytes of the line,
unchanged, to the origin, and returns `1` when the name is `Host` (without
regard to letter case) and `0` otherwise; for a line with one of the three
names it writes nothing and returns `0`.  `client2server` succeeds, and after
its own four lines the origin receives the forwarded lines in the order in
which the client sent them. -/
theorem C21_header_lines_forwarded_in_order (wr : Nat → Int) (hw : ∀ k, ¬ wr k < 0)
    (serverfd : Int) (hfd : 0 ≤ serverfd) (rl : request_line) (lines : List (List Nat))
    (hl : ∀ l, l ∈ lines → ∃ name value, HeaderLine l name value)
    (blank : List Nat) (hb : cstr blank = bytes "\r\n") (rest : rio_t) :
    (∀ l name value out, l ∈ lines → HeaderLine l name value →
        header_name l = name
        ∧ (proxy_header name = false →
            handle_request_header wr out l (l.length : Int)
              = (if eq_ignoring_case name (bytes "Host") = true then 1 else 0, out ++ [l]))
        ∧ (proxy_header name = true →
            handle_request_header wr out l (l.length : Int) = (0, out)))
      ∧ (client2server wr serverfd rl (lines.map some ++ some blank :: rest)).rc = serverfd
      ∧ ∃ tail, (client2server wr serverfd rl (lines.map some ++ some blank :: rest)).out
          = [rl.method ++ bytes " " ++ rl.path ++ bytes " " ++ rl.version ++ bytes "\r\n",
             user_agent_hdr, connection_hdr, proxy_connection_hdr]
            ++ lines.filter (fun l => !proxy_header (header_name l)) ++ tail := by
  refine ⟨?_, ?_, ?_⟩
  · intro l name value out _ hline
    refine ⟨header_name_of_line hline, ?_, ?_⟩
    · intro hp
      rw [handle_request_header_line wr out hline, take_length_toNat]
      simp [hp, hw out.length]
    · intro hp
      rw [handle_request_header_line wr out hline]
      simp [hp]
  · rw [client2server_run wr hw serverfd hfd rl lines hl blank hb rest]
  · rw [client2server_run wr hw serverfd hfd rl lines hl blank hb rest]
    exact ⟨(if lines.any names_host = true then []
        else [bytes "Host:" ++ rl.host ++ bytes "\r\n"]) ++ [bytes "\r\n"],
      by simp only [forwarded, List.append_assoc]⟩

theorem sample_header_lines :
    ∀ l, l ∈ [bytes "Accept: a\r\n", bytes "User-Agent: me\r\n", bytes "host: h\r\n"] →
      ∃ name value, HeaderLine l name value := by
  intro l hl
  simp only [List.mem_cons, List.mem_singleton, List.not_mem_nil, or_false] at hl
  rcases hl with e | e | e
  · rw [e]
    exact ⟨bytes "Accept", bytes "a",
      HeaderLine.intro (bytes "Accept") (bytes " ") (bytes "a") (bytes "\r\n") (by decide)
        (by decide) (by decide) (by decide) (by decide) (by decide) (by decide)⟩
  · rw [e]
    exact ⟨bytes "User-Agent", bytes "me",
      HeaderLine.intro (bytes "User-Agent") (bytes " ") (bytes "me") (bytes "\r\n") (by decide)
        (by decide) (by decide) (by decide) (by decide) (by decide) (by decide)⟩
  · rw [e]
    exact ⟨bytes "host", bytes "h",
      HeaderLine.intro (bytes "host") (bytes " ") (bytes "h") (bytes "\r\n") (by decide)
        (by decide) (by decide) (by decide) (by decide) (by decide) (by decide)⟩

/-- C21, witness: the header lines `Accept: a`, `User-Agent: me` and `host: h`. -/
theorem C21_header_lines_forwarded_in_order_witness :
    (∀ l name value out,
        l ∈ [bytes "Accept: a\r\n", bytes "User-Agent: me\r\n", bytes "host: h\r\n"] →
        HeaderLine l name value →
        header_name l = name
        ∧ (proxy_header name = false →
            handle_request_header (fun _ => 0) out l (l.length : Int)
              = (if eq_ignoring_case name (bytes "Host") = true then 1 else 0, out ++ [l]))
        ∧ (proxy_header name = true →
            handle_request_header (fun _ => 0) out l (l.length : Int) = (0, out)))
      ∧ (client2server (fun _ => 0) 4 (read_parse_request_line sample_conn.client).2.1
          ([bytes "Accept: a\r\n", bytes "User-Agent: me\r\n", bytes "host: h\r\n"].map some
            ++ some (bytes "\r\n") :: [])).rc = 4
      ∧ ∃ tail, (client2server (fun _ => 0) 4 (read_parse_request_line sample_conn.client).2.1
          ([bytes "Accept: a\r\n", bytes "User-Agent: me\r\n", bytes "host: h\r\n"].map some
            ++ some (bytes "\r\n") :: [])).out
          = [(read_parse_request_line sample_conn.client).2.1.method ++ bytes " "
               ++ (read_parse_request_line sample_conn.client).2.1.path ++ bytes " "
               ++ (read_parse_request_line sample_conn.client).2.1.version ++ bytes "\r\n",
             user_agent_hdr, connection_hdr, proxy_connection_hdr]
            ++ [bytes "Accept: a\r\n", bytes "User-Agent: me\r\n", bytes "host: h\r\n"].filter
                (fun l => !proxy_header (header_name l)) ++ tail :=
  C21_header_lines_forwarded_in_order (fun _ => 0) (fun _ => of_decide_eq_true rfl) 4 (by decide)
    (read_parse_request_line sample_conn.client).2.1
    [bytes "Accept: a\r\n", bytes "User-Agent: me\r\n", bytes "host: h\r\n"]
    sample_header_lines (bytes "\r\n") (by decide) []

/-- C21, counterexample.  The line `Accept:` is a header line whose name,
`Accept`, is none of `User-Agent`, `Connection` and `Proxy-Connection`; its
value is empty.  On a connection on which every write succeeds,
`handle_request_header` writes nothing to the origin and returns `-1`, and
`client2server` fails. -/
theorem C21_counterexample_header_with_empty_value :
    header_name (bytes "Accept:\r\n") = bytes "Accept"
      ∧ proxy_header (bytes "Accept") = false
      ∧ handle_request_header (fun _ => 0) [] (bytes "Accept:\r\n")
          ((bytes "Accept:\r\n").length : Int) = (-1, [])
      ∧ (client2server (fun _ => 0) 4 (read_parse_request_line sample_conn.client).2.1
          [some (bytes "Accept:\r\n"), some (bytes "\r\n")]).rc = -1 := by
  decide

/-- C22.  When `client2server` succeeds, the client has sent header lines and
then the empty line, and the origin has received, after the request line and
the three fixed headers: the client's lines in their order, except those named
`User-Agent`, `Connection` or `Proxy-Connection`; then, exactly when none of
the client's lines is named `Host` (without regard to letter case), the one
line `Host:<host>` built from the parsed host; then the empty line.  A client
line named `Host` is among the forwarded lines, and the line the proxy builds
is itself named `Host`. -/
theorem C22_host_header_present (wr : Nat → Int) (serverfd : Int) (rl : request_line)
    (rp : rio_t) (hok : 0 ≤ (client2server wr serverfd rl rp).rc) :
    ∃ (pre : List (List Nat)) (blank : List Nat) (rest : rio_t), rp = pre.map some ++ some blank :: rest
      ∧ cstr blank = bytes "\r\n" ∧ (∀ l, l ∈ pre → cstr l ≠ bytes "\r\n")
      ∧ (client2server wr serverfd rl rp).out
          = [rl.method ++ bytes " " ++ rl.path ++ bytes " " ++ rl.version ++ bytes "\r\n",
             user_agent_hdr, connection_hdr, proxy_connection_hdr]
            ++ pre.filter (fun l => !proxy_header (header_name l))
            ++ (if pre.any names_host = true then []
                else [bytes "Host:" ++ rl.host ++ bytes "\r\n"])
            ++ [bytes "\r\n"]
      ∧ (∀ l, l ∈ pre → names_host l = true →
          l ∈ pre.filter (fun l => !proxy_header (header_name l)))
      ∧ names_host (bytes "Host:" ++ rl.host ++ bytes "\r\n") = true := by
  obtain ⟨hfd, e⟩ := client2server_eq_loop wr serverfd rl rp hok
  have hne : (client2server wr serverfd rl rp).rc ≠ -1 := by
    intro h
    rw [h] at hok
    exact absurd hok (by decide)
  rw [e] at hne
  obtain ⟨pre, blank, rest, e1, e2, e3, e4⟩ := client2server_loop_ok wr serverfd rl.host rp _ 0 _
    hne
  refine ⟨pre, blank, rest, e1, e2, fun l hl => (e3 l hl).2, ?_, ?_, ?_⟩
  · rw [e, e4]
    simp [forwarded]
  · intro l hl hh
    rw [List.mem_filter]
    refine ⟨hl, ?_⟩
    rw [host_not_proxy hh]
    rfl
  · have : header_name (bytes "Host:" ++ rl.host ++ bytes "\r\n") = bytes "Host" := by
      have e5 : bytes "Host:" ++ rl.host ++ bytes "\r\n"
          = bytes "Host" ++ (58 :: (rl.host ++ bytes "\r\n")) := by
        have : bytes "Host:" = bytes "Host" ++ [58] := by decide
        rw [this]
        simp
      rw [e5]
      unfold header_name
      apply takeWhile_append_stop
      · decide
      · intro x t e6
        simp only [List.cons.injEq] at e6
        rw [← e6.1]
        rfl
    unfold names_host
    rw [this]
    decide

/-- C22, witness: a request with the header line `Accept: a` and no `Host`
line. -/
theorem C22_host_header_present_witness :
    ∃ (pre : List (List Nat)) (blank : List Nat) (rest : rio_t),
      [some (bytes "Accept: a\r\n"), some (bytes "\r\n")] = pre.map some ++ some blank :: rest
      ∧ cstr blank = bytes "\r\n" ∧ (∀ l, l ∈ pre → cstr l ≠ bytes "\r\n")
      ∧ (client2server (fun _ => 0) 4 (read_parse_request_line sample_conn.client).2.1
          [some (bytes "Accept: a\r\n"), some (bytes "\r\n")]).out
          = [(read_parse_request_line sample_conn.client).2.1.method ++ bytes " "
               ++ (read_parse_request_line sample_conn.client).2.1.path ++ bytes " "
               ++ (read_parse_request_line sample_conn.client).2.1.version ++ bytes "\r\n",
             user_agent_hdr, connection_hdr, proxy_connection_hdr]
            ++ pre.filter (fun l => !proxy_header (header_name l))
            ++ (if pre.any names_host = true then []
                else [bytes "Host:" ++ (read_parse_request_line sample_conn.client).2.1.host
                  ++ bytes "\r\n"])
            ++ [bytes "\r\n"]
      ∧ (∀ l, l ∈ pre → names_host l = true →
          l ∈ pre.filter (fun l => !proxy_header (header_name l)))
      ∧ names_host (bytes "Host:" ++ (read_parse_request_line sample_conn.client).2.1.host
          ++ bytes "\r\n") = true :=
  C22_host_header_present (fun _ => 0) 4 (read_parse_request_line sample_conn.client).2.1
    [some (bytes "Accept: a\r\n"), some (bytes "\r\n")] (by decide)

/-! ## C23: the status line -/

theorem cstr_cons_of_ne {x : Nat} (hx : x ≠ 0) (t : List Nat) : cstr (x :: t) = x :: cstr t := by
  unfold cstr
  rw [List.takeWhile_cons_of_pos (by simpa using hx)]

theorem Token.no_nul {t : List Nat} (h : Token t) : 0 ∉ t := fun hm => (h.2 0 hm).2 rfl

/-- The format `"%s %s %s"` on a status line. -/
theorem scan_status_line {version code : List Nat} (hv : Token version) (hc : Token code)
    {x : Nat} (hx : isspace x = false) (hx0 : x ≠ 0) (rest : List Nat) :
    sscanf fmt_response_line (cstr (status_line version code x rest)) []
      = (3, [version, code, (x :: cstr rest).takeWhile (fun y => !isspace y)]) := by
  have h32 : (0 : Nat) ∉ [32] := by decide
  have ec : cstr (status_line version code x rest)
      = version ++ (32 :: (code ++ (32 :: x :: cstr rest))) := by
    have e1 : status_line version code x rest
        = version ++ ([32] ++ (code ++ ([32] ++ (x :: rest)))) := rfl
    rw [e1, cstr_append_of_no_nul _ hv.no_nul, cstr_append_of_no_nul _ h32,
      cstr_append_of_no_nul _ hc.no_nul, cstr_append_of_no_nul _ h32, cstr_cons_of_ne hx0]
    rfl
  obtain ⟨c0, ct, hc0⟩ := List.exists_cons_of_ne_nil hc.1
  have hc0s : isspace c0 = false := (hc.2 c0 (by rw [hc0]; simp)).1
  have d1 : (32 :: (code ++ (32 :: x :: cstr rest))).dropWhile isspace
      = code ++ (32 :: x :: cstr rest) := by
    rw [List.dropWhile_cons_of_pos (by decide), hc0, List.cons_append,
      dropWhile_isspace_cons hc0s]
  have d2 : (32 :: x :: cstr rest).dropWhile isspace = x :: cstr rest := by
    rw [List.dropWhile_cons_of_pos (by decide), dropWhile_isspace_cons hx]
  rw [ec, fmt_response_line,
    sscanf_str hv.1 (fun y hy => (hv.2 y hy).1)
      (fun z t e => by simp only [List.cons.injEq] at e; rw [← e.1]; decide),
    sscanf_ws, d1,
    sscanf_str hc.1 (fun y hy => (hc.2 y hy).1)
      (fun z t e => by simp only [List.cons.injEq] at e; rw [← e.1]; decide),
    sscanf_ws, d2, sscanf_str_last ⟨x, by simp, hx⟩, dropWhile_isspace_cons hx]
  rfl

/-- What `parse_response_line` does with a status line. -/
theorem parse_response_line_status {version code : List Nat} (hv : Token version)
    (hc : Token code) {x : Nat} (hx : isspace x = false) (hx0 : x ≠ 0) (rest : List Nat)
    (e : Int) :
    parse_response_line (status_line version code x rest) e
      = (0, if code.head? = some 49 ∨ code = bytes "204" ∨ code = bytes "304" then 0 else 1) := by
  unfold parse_response_line
  simp only [scan_status_line hv hc hx hx0 rest, ne_eq, not_true_eq_false, if_false]
  have hs : ∀ b : List Nat, strcmp code b = 0 ↔ code = b := by
    intro b
    unfold strcmp
    by_cases h : code = b
    · simp [h]
    · simp [h]
  simp only [List.getD_cons_succ, List.getD_cons_zero, hs]
  split <;> rfl

/-- For a code of three decimal digits, the test of `parse_response_line` picks
the codes `100` to `199`, `204` and `304`. -/
theorem status_test_three_digits {d1 d2 d3 : Nat} (h1 : 48 ≤ d1 ∧ d1 ≤ 57)
    (h2 : 48 ≤ d2 ∧ d2 ≤ 57) (h3 : 48 ≤ d3 ∧ d3 ≤ 57) :
    ([d1, d2, d3].head? = some 49 ∨ [d1, d2, d3] = bytes "204" ∨ [d1, d2, d3] = bytes "304")
      ↔ no_entity_code (decimal [d1, d2, d3]) = true := by
  have e204 : bytes "204" = [50, 48, 52] := by decide
  have e304 : bytes "304" = [51, 48, 52] := by decide
  simp only [List.head?_cons, Option.some.injEq, e204, e304, List.cons.injEq, and_true,
    no_entity_code, decimal, List.foldl_cons, List.foldl_nil, Bool.or_eq_true, Bool.and_eq_true,
    decide_eq_true_eq, beq_iff_eq]
  omega

theorem token_of_digits {d1 d2 d3 : Nat} (h1 : 48 ≤ d1 ∧ d1 ≤ 57)
    (h2 : 48 ≤ d2 ∧ d2 ≤ 57) (h3 : 48 ≤ d3 ∧ d3 ≤ 57) : Token [d1, d2, d3] := by
  refine ⟨by simp, ?_⟩
  intro y hy
  simp only [List.mem_cons, List.mem_singleton, List.not_mem_nil, or_false] at hy
  have hr : 48 ≤ y ∧ y ≤ 57 := by
    rcases hy with e | e | e <;> rw [e] <;> assumption
  refine ⟨?_, by omega⟩
  simp only [isspace, Bool.or_eq_false_iff, beq_eq_false_iff_ne, ne_eq, Bool.and_eq_false_iff,
    decide_eq_false_iff_not]
  omega

/-- C23.  For a status line `VERSION CODE PHRASE`, where the version is a
non-empty string without white space, the status code consists of three decimal
digits and the reason phrase begins with a character that is not white space,
`parse_response_line` succeeds and sets `*e` to `0` (no entity) exactly when
the status code is in the range `100` to `199` or is `204` or `304`, and to
`1` (an entity) for every other status code. -/
theorem C23_parse_response_line_entity (version : List Nat) (d1 d2 d3 x : Nat)
    (rest : List Nat) (e : Int) (hv : Token version) (h1 : 48 ≤ d1 ∧ d1 ≤ 57)
    (h2 : 48 ≤ d2 ∧ d2 ≤ 57) (h3 : 48 ≤ d3 ∧ d3 ≤ 57) (hx : isspace x = false) (hx0 : x ≠ 0) :
    parse_response_line (status_line version [d1, d2, d3] x rest) e
      = (0, if (100 ≤ decimal [d1, d2, d3] ∧ decimal [d1, d2, d3] ≤ 199)
              ∨ decimal [d1, d2, d3] = 204 ∨ decimal [d1, d2, d3] = 304 then 0 else 1) := by
  rw [parse_response_line_status hv (token_of_digits h1 h2 h3) hx hx0 rest e]
  have h : ([d1, d2, d3].head? = some 49 ∨ [d1, d2, d3] = bytes "204"
      ∨ [d1, d2, d3] = bytes "304")
      ↔ ((100 ≤ decimal [d1, d2, d3] ∧ decimal [d1, d2, d3] ≤ 199)
          ∨ decimal [d1, d2, d3] = 204 ∨ decimal [d1, d2, d3] = 304) := by
    rw [status_test_three_digits h1 h2 h3]
    simp only [no_entity_code, Bool.or_eq_true, Bool.and_eq_true, decide_eq_true_eq,
      beq_iff_eq, or_assoc]
  exact congrArg (Prod.mk 0) (if_congr h rfl rfl)

/-- C23, witness: the status line `HTTP/1.0 204 No Content`. -/
theorem C23_parse_response_line_entity_witness :
    status_line (bytes "HTTP/1.0") [50, 48, 52] 78 (bytes "o Content\r\n")
        = bytes "HTTP/1.0 204 No Content\r\n"
      ∧ parse_response_line (status_line (bytes "HTTP/1.0") [50, 48, 52] 78
          (bytes "o Content\r\n")) 1
        = (0, if (100 ≤ decimal [50, 48, 52] ∧ decimal [50, 48, 52] ≤ 199)
                ∨ decimal [50, 48, 52] = 204 ∨ decimal [50, 48, 52] = 304 then 0 else 1) :=
  ⟨by decide, C23_parse_response_line_entity (bytes "HTTP/1.0") 50 48 52 78
    (bytes "o Content\r\n") 1 ⟨by decide, by decide⟩ (by decide) (by decide) (by decide)
    (by decide) (by decide)⟩

/-! ## The response: header lines and entity -/

theorem content_length_case (name : List Nat) :
    eq_ignoring_case name (bytes "Content-length")
      = eq_ignoring_case name (bytes "Content-Length") := by
  have h : (bytes "Content-length").map tolower = (bytes "Content-Length").map tolower := by
    decide
  rw [Bool.eq_iff_iff, eq_ignoring_case_iff, eq_ignoring_case_iff, h]

/-- What `parse_response_header` does with a header line. -/
theorem parse_response_header_line {line name value : List Nat}
    (h : HeaderLine line name value) (e el : Int) :
    parse_response_header line e el
      = if names_content_length line = true
        then (0, if atoi value = 0 then 0 else e, atoi value) else (0, e, el) := by
  have hb : ¬ strcmp (cstr line) (bytes "\r\n") = 0 := by
    unfold strcmp
    rw [if_neg (header_line_not_blank h)]
    decide
  unfold parse_response_header names_content_length
  rw [header_name_of_line h]
  simp only [hb, if_false, scan_header_line h, ne_eq, not_true_eq_false, List.getD_cons_zero,
    List.getD_cons_succ, strcasecmp_eq_zero, content_length_case]

theorem parse_response_header_blank {line : List Nat} (h : cstr line = bytes "\r\n")
    (e el : Int) : parse_response_header line e el = (0, e, el) := by
  unfold parse_response_header strcmp
  rw [if_pos h, if_pos rfl]

/-- One turn of the header loop of `server2client` on a line that
`parse_response_header` accepts, when the write to the client succeeds. -/
theorem server2client_headers_cons (wr : Nat → Int) {l : List Nat} (hne : l ≠ []) (v : Vars)
    (hI : Relayed v) (hp : (parse_response_header l v.has_entity v.entity_len).1 = 0)
    (hw : ¬ wr v.out.length < 0) (rest : rio_t) :
    ∃ v1, Relayed v1 ∧ v1.got = v.got ++ [l] ∧ v1.out = v.out ++ [l]
      ∧ (v1.has_entity, v1.entity_len) = (parse_response_header l v.has_entity v.entity_len).2
      ∧ v1.nleft = v.nleft ∧ v1.nread = (l.length : Int) ∧ 0 < v1.nread
      ∧ server2client_headers wr (some l :: rest) v
        = if strcmp (cstr l) (bytes "\r\n") ≠ 0 then server2client_headers wr rest v1
          else some (0, v1, rest) := by
  obtain ⟨b, t, e⟩ := List.exists_cons_of_ne_nil hne
  subst e
  have hlen : ¬ (((b :: t).length : Nat) : Int) ≤ 0 := by
    simp only [List.length_cons, Nat.cast_add, Nat.cast_one]
    omega
  obtain ⟨c, wb2, hb, hI2⟩ := @buffer_chunk_step
    { v with nread := ((b :: t).length : Int), buf := b :: t, got := v.got ++ [b :: t],
             total_read := v.total_read + ((b :: t).length : Int) }
    v.out v.got (b :: t) rfl (by show v.total_read + _ = _; rw [hI.2.1]) (by
      have := hI
      unfold Relayed at this
      rw [hI.2.1] at this
      exact this)
  have hp2 : ¬ (parse_response_header (b :: t) v.has_entity v.entity_len).1 < 0 := by
    rw [hp]
    decide
  refine ⟨{ total_read := v.total_read + ((b :: t).length : Int),
            nread := ((b :: t).length : Int),
            has_entity := (parse_response_header (b :: t) v.has_entity v.entity_len).2.1,
            entity_len := (parse_response_header (b :: t) v.has_entity v.entity_len).2.2,
            nleft := v.nleft, cache_it := c, wb := wb2, buf := b :: t,
            got := v.got ++ [b :: t], out := v.out ++ [b :: t] },
    hI2, rfl, rfl, rfl, rfl, rfl, by show (0 : Int) < ((b :: t).length : Int); omega, ?_⟩
  rw [server2client_headers]
  simp only [nread_of, buf_of, delivered, hlen, if_false, hb,
    show ¬ ((0 : Int) < 0) from by decide, hp2]
  rw [write_chunk_eq wr _ (b :: t) rfl]
  simp only [hw, if_false]

/-- The header loop of `server2client` on lines that `parse_response_header`
accepts, followed by the empty line, when no write to the client fails: the
loop ends without an error after the empty line. -/
theorem server2client_headers_run (wr : Nat → Int) (hw : ∀ k, ¬ wr k < 0) (blank : List Nat)
    (hb : cstr blank = bytes "\r\n") (rest : rio_t) :
    ∀ (hdrs : List (List Nat)) (v : Vars), Relayed v →
      (∀ h, h ∈ hdrs → h ≠ [] ∧ cstr h ≠ bytes "\r\n"
        ∧ ∀ e el, (parse_response_header h e el).1 = 0) →
      ∃ v2, server2client_headers wr (hdrs.map some ++ some blank :: rest) v = some (0, v2, rest)
        ∧ Relayed v2 ∧ v2.got = v.got ++ hdrs ++ [blank] ∧ v2.out = v.out ++ hdrs ++ [blank]
        ∧ (v2.has_entity, v2.entity_len) = entity_after (v.has_entity, v.entity_len) hdrs
        ∧ v2.nleft = v.nleft ∧ 0 < v2.nread := by
  have hbne : blank ≠ [] := by
    intro e
    rw [e] at hb
    exact absurd hb (by decide)
  intro hdrs
  induction hdrs with
  | nil =>
    intro v hI _
    obtain ⟨v1, k1, k2, k3, k4, k5, _, k7, k8⟩ := server2client_headers_cons wr hbne v hI
      (by rw [parse_response_header_blank hb]) (hw _) rest
    have hs : ¬ strcmp (cstr blank) (bytes "\r\n") ≠ 0 := by
      unfold strcmp
      rw [if_pos hb]
      simp
    rw [if_neg hs] at k8
    rw [parse_response_header_blank hb] at k4
    exact ⟨v1, k8, k1, by rw [k2]; simp, by rw [k3]; simp, k4, k5, k7⟩
  | cons l hdrs ih =>
    intro v hI hl
    obtain ⟨l1, l2, l3⟩ := hl l (by simp)
    obtain ⟨v1, k1, k2, k3, k4, k5, _, _, k8⟩ := server2client_headers_cons wr l1 v hI
      (l3 _ _) (hw _) (hdrs.map some ++ some blank :: rest)
    have hs : strcmp (cstr l) (bytes "\r\n") ≠ 0 := by
      unfold strcmp
      rw [if_neg l2]
      decide
    rw [if_pos hs] at k8
    obtain ⟨v2, m1, m2, m3, m4, m5, m6, m7⟩ := ih v1 k1
      (fun h hh => hl h (List.mem_cons_of_mem _ hh))
    refine ⟨v2, by rw [List.map_cons, List.cons_append, k8, m1], m2, by rw [m3, k2]; simp,
      by rw [m4, k3]; simp, ?_, by rw [m6, k5], m7⟩
    rw [m5, k4]
    rfl

/-- One turn of the entity loop of `server2client`, when the write to the
client succeeds. -/
theorem server2client_body_cons (wr : Nat → Int) {c : List Nat} (hne : c ≠ []) (v : Vars)
    (hI : Relayed v) (hc : v.nread > 0 ∨ v.entity_len = -1) (hw : ¬ wr v.out.length < 0)
    (rest : rio_t) :
    ∃ v1, Relayed v1 ∧ v1.got = v.got ++ [c] ∧ v1.out = v.out ++ [c]
      ∧ v1.has_entity = v.has_entity ∧ v1.entity_len = v.entity_len
      ∧ v1.nleft = (if v.nleft > 0 then to_int (v.nleft - (c.length : Int)) else v.nleft)
      ∧ 0 < v1.nread
      ∧ server2client_body wr (some c :: rest) v = server2client_body wr rest v1 := by
  obtain ⟨b, t, e⟩ := List.exists_cons_of_ne_nil hne
  subst e
  have hlen0 : ¬ (((b :: t).length : Nat) : Int) = 0 := by
    simp only [List.length_cons, Nat.cast_add, Nat.cast_one]
    omega
  have hlen1 : ¬ (((b :: t).length : Nat) : Int) < 0 := by omega
  obtain ⟨c, wb2, hb, hI2⟩ := @buffer_chunk_step
    { v with nread := ((b :: t).length : Int), buf := b :: t, got := v.got ++ [b :: t],
             total_read := v.total_read + ((b :: t).length : Int),
             nleft := if v.nleft > 0 then to_int (v.nleft - ((b :: t).length : Int))
                      else v.nleft }
    v.out v.got (b :: t) rfl (by show v.total_read + _ = _; rw [hI.2.1]) (by
      have := hI
      unfold Relayed at this
      rw [hI.2.1] at this
      exact this)
  refine ⟨{ total_read := v.total_read + ((b :: t).length : Int),
            nread := ((b :: t).length : Int),
            has_entity := v.has_entity, entity_len := v.entity_len,
            nleft := if v.nleft > 0 then to_int (v.nleft - ((b :: t).length : Int))
                     else v.nleft,
            cache_it := c, wb := wb2, buf := b :: t,
            got := v.got ++ [b :: t], out := v.out ++ [b :: t] },
    hI2, rfl, rfl, rfl, rfl, rfl, by show (0 : Int) < ((b :: t).length : Int); omega, ?_⟩
  rw [server2client_body]
  simp only [hc, if_true, nread_of, buf_of, delivered, hlen0, hlen1, if_false, hb,
    show ¬ ((0 : Int) < 0) from by decide]
  rw [write_chunk_eq wr _ (b :: t) rfl]
  simp only [hw, if_false]

/-- The entity loop of `server2client` on chunks followed by the end of the
stream, when no write to the client fails: the loop reads every chunk and ends
without an error. -/
theorem server2client_body_run (wr : Nat → Int) (hw : ∀ k, ¬ wr k < 0) (tail : rio_t)
    (ht : tail = [] ∨ ∃ r, tail = some [] :: r) :
    ∀ (body : List (List Nat)) (v : Vars), Relayed v → (v.nread > 0 ∨ v.entity_len = -1) →
      (∀ c, c ∈ body → c ≠ []) →
      ∃ v2 rio2, server2client_body wr (body.map some ++ tail) v = some (0, v2, rio2)
        ∧ Relayed v2 ∧ v2.got = v.got ++ body ∧ v2.out = v.out ++ body
        ∧ v2.has_entity = v.has_entity ∧ v2.entity_len = v.entity_len
        ∧ v2.nleft = countdown v.nleft body := by
  intro body
  induction body with
  | nil =>
    intro v hI hc _
    rcases ht with e | ⟨r, e⟩
    · subst e
      refine ⟨{ v with nread := 0 }, [], ?_, hI, by simp, by simp, rfl, rfl, rfl⟩
      rw [List.map_nil, List.append_nil, server2client_body, if_pos hc]
    · subst e
      refine ⟨{ v with nread := 0 }, r, ?_, hI, by simp, by simp, rfl, rfl, rfl⟩
      rw [List.map_nil, List.nil_append, server2client_body]
      simp only [hc, if_true, nread_of, buf_of, delivered, List.length_nil, Nat.cast_zero,
        List.append_nil]
  | cons c body ih =>
    intro v hI hc hb
    obtain ⟨v1, k1, k2, k3, k4, k5, k6, k7, k8⟩ := server2client_body_cons wr
      (hb c (by simp)) v hI hc (hw _) (body.map some ++ tail)
    obtain ⟨v2, rio2, m1, m2, m3, m4, m5, m6, m7⟩ := ih v1 k1 (Or.inl k7)
      (fun x hx => hb x (List.mem_cons_of_mem _ hx))
    refine ⟨v2, rio2, by rw [List.map_cons, List.cons_append, k8, m1], m2,
      by rw [m3, k2]; simp, by rw [m4, k3]; simp, by rw [m5, k4], by rw [m6, k5], ?_⟩
    rw [m7, k6]
    rfl
/-- The part of `server2client` before the header loop, on a status line that
`parse_response_line` accepts, when the write to the client succeeds. -/
theorem server2client_status_run (wr : Nat → Int) (hw : ¬ wr 0 < 0) {st : List Nat}
    (hne : st ≠ []) {e : Int} (hp : parse_response_line st 1 = (0, e)) (rest : rio_t)
    (nleft0 : Int) (wbp : web_object)
    (hwb : wbp.content = [] ∧ wbp.length = 0 ∧ 0 < wbp.capacity) :
    ∃ v, server2client_status wr (some st :: rest) nleft0 wbp = some (0, v, rest)
      ∧ Relayed v ∧ v.got = [st] ∧ v.out = [st] ∧ v.has_entity = e ∧ v.entity_len = -1
      ∧ v.nleft = nleft0 := by
  obtain ⟨b, t, e1⟩ := List.exists_cons_of_ne_nil hne
  subst e1
  have hI0 : Inv [] [] (([] : List (List Nat)).flatten.length : Int) 1 wbp := by
    refine ⟨rfl, rfl, Or.inl rfl, fun h => absurd h (by decide), fun _ => ?_, hwb.2.2⟩
    exact ⟨hwb.1, hwb.2.1, by simp⟩
  have hlen : ¬ (((b :: t).length : Nat) : Int) < 0 := by omega
  obtain ⟨c, wb2, hb, hI2⟩ := @buffer_chunk_step
    { total_read := ((b :: t).length : Int), nread := 0,
      has_entity := (parse_response_line (b :: t) 1).2, entity_len := -1,
      nleft := nleft0, cache_it := 1, wb := wbp, buf := b :: t, got := [b :: t],
      out := [] }
    [] [] (b :: t) rfl (by simp) hI0
  have hp1 : ¬ (parse_response_line (b :: t) 1).1 < 0 := by
    rw [hp]
    exact lt_irrefl 0
  have hw2 : ¬ wr ([] : List (List Nat)).length < 0 := hw
  refine ⟨{ total_read := ((b :: t).length : Int), nread := 0,
            has_entity := (parse_response_line (b :: t) 1).2, entity_len := -1,
            nleft := nleft0, cache_it := c, wb := wb2, buf := b :: t, got := [b :: t],
            out := [] ++ [b :: t] }, ?_, hI2, rfl, rfl, by rw [hp], rfl, rfl⟩
  unfold server2client_status
  simp only [Rio_readlineb, nread_of, buf_of, hlen, if_false, List.headD_cons, delivered, hp1,
    hb, show ¬ ((0 : Int) < 0) from by decide]
  rw [write_chunk_eq wr _ (b :: t) rfl]
  simp only [hw2, if_false]

theorem header_line_accepted {l name value : List Nat} (h : HeaderLine l name value) :
    l ≠ [] ∧ cstr l ≠ bytes "\r\n" ∧ ∀ e el, (parse_response_header l e el).1 = 0 := by
  refine ⟨header_line_ne_nil h, header_line_not_blank h, ?_⟩
  intro e el
  rw [parse_response_header_line h]
  split <;> rfl

/-- The values of `has_entity` and `entity_len` after header lines of which
those named `Content-Length` all carry the value `n`. -/
theorem entity_after_content_length (n : Int) :
    ∀ (hdrs : List (List Nat)) (e el : Int),
      (∀ l, l ∈ hdrs → ∃ name value, HeaderLine l name value
        ∧ (names_content_length l = true → atoi value = n)) →
      entity_after (e, el) hdrs
        = if hdrs.any names_content_length = true then (if n = 0 then 0 else e, n)
          else (e, el) := by
  intro hdrs
  induction hdrs with
  | nil =>
    intro e el _
    rfl
  | cons l hdrs ih =>
    intro e el hl
    obtain ⟨name, value, h1, h2⟩ := hl l (by simp)
    have ih2 := fun e el => ih e el (fun x hx => hl x (List.mem_cons_of_mem _ hx))
    have hstep : entity_after (e, el) (l :: hdrs)
        = entity_after (parse_response_header l e el).2 hdrs := rfl
    rw [hstep, parse_response_header_line h1]
    by_cases hc : names_content_length l = true
    · simp only [hc, if_true, h2 hc, List.any_cons, Bool.true_or]
      rw [ih2]
      by_cases hn : n = 0
      · simp [hn]
      · simp [hn]
    · simp only [hc, if_false, List.any_cons]
      rw [ih2]
      simp [hc]

theorem countdown_nonpos {n : Int} (hn : n ≤ 0) : ∀ body, countdown n body = n := by
  intro body
  induction body with
  | nil => rfl
  | cons c cs ih =>
    rw [countdown, if_neg (by omega), ih]

/-- The countdown of a positive `nleft` reaches `0` exactly when the chunks
read up to some point add up to it. -/
theorem countdown_eq_zero_iff :
    ∀ (body : List (List Nat)) (n : Int), 0 < n → n < 2147483648 →
      (∀ c, c ∈ body → c ≠ [] ∧ c.length ≤ MAXLINE) →
      (countdown n body = 0
        ↔ ∃ k, k ≤ body.length ∧ (((body.take k).flatten.length : Nat) : Int) = n) := by
  intro body
  induction body with
  | nil =>
    intro n hn _ _
    constructor
    · intro h
      rw [countdown] at h
      omega
    · rintro ⟨k, _, hk⟩
      simp at hk
      omega
  | cons c cs ih =>
    intro n hn hn2 hb
    obtain ⟨hc1, hc2⟩ := hb c (by simp)
    have hM : MAXLINE = 8192 := rfl
    have hcl : 0 < c.length := List.length_pos.mpr hc1
    have hto : to_int (n - (c.length : Int)) = n - (c.length : Int) :=
      to_int_of_range (by omega) (by omega)
    rw [countdown, if_pos hn, hto]
    have hb2 : ∀ x, x ∈ cs → x ≠ [] ∧ x.length ≤ MAXLINE :=
      fun x hx => hb x (List.mem_cons_of_mem _ hx)
    by_cases hpos : 0 < n - (c.length : Int)
    · rw [ih _ hpos (by omega) hb2]
      constructor
      · rintro ⟨k, hk1, hk2⟩
        refine ⟨k + 1, by simp; omega, ?_⟩
        simp only [List.take_succ_cons, List.flatten_cons, List.length_append, Nat.cast_add]
        omega
      · rintro ⟨k, hk1, hk2⟩
        cases k with
        | zero =>
          simp at hk2
          omega
        | succ k =>
          simp only [List.take_succ_cons, List.flatten_cons, List.length_append,
            Nat.cast_add] at hk2
          exact ⟨k, by simp at hk1; omega, by omega⟩
    · rw [countdown_nonpos (by omega)]
      constructor
      · intro h
        refine ⟨1, by simp, ?_⟩
        simp
        omega
      · rintro ⟨k, hk1, hk2⟩
        cases k with
        | zero =>
          simp at hk2
          omega
        | succ k =>
          simp only [List.take_succ_cons, List.flatten_cons, List.length_append,
            Nat.cast_add] at hk2
          omega

/-- `server2client` up to the test of the entity length, on a response whose
header lines say that there is no entity: it reads the status line, the header
lines and the empty line, and nothing more. -/
theorem server2client_relay_head (wr : Nat → Int) (hw : ∀ k, ¬ wr k < 0) {st : List Nat}
    (hne : st ≠ []) {e : Int} (hp : parse_response_line st 1 = (0, e))
    (hdrs : List (List Nat))
    (hl : ∀ h, h ∈ hdrs → h ≠ [] ∧ cstr h ≠ bytes "\r\n"
      ∧ ∀ e el, (parse_response_header h e el).1 = 0)
    (blank : List Nat) (hb : cstr blank = bytes "\r\n") (rest : rio_t) (nleft0 : Int)
    (hent : ¬ ((entity_after (e, -1) hdrs).1 = 1 ∧ (entity_after (e, -1) hdrs).2 ≠ 0)) :
    ∃ v, server2client_relay wr (some st :: (hdrs.map some ++ some blank :: rest)) nleft0
          init_web_object
        = some (if (entity_after (e, -1) hdrs).2 > 0 ∧ nleft0 ≠ 0 then -1 else 0, v)
      ∧ Relayed v ∧ v.got = st :: hdrs ++ [blank] := by
  obtain ⟨v1, a1, a2, a3, _, a5, a6, a7⟩ := server2client_status_run wr (hw 0) hne hp
    (hdrs.map some ++ some blank :: rest) nleft0 init_web_object init_web_object_fresh
  obtain ⟨v2, b1, b2, b3, _, b5, b6, _⟩ := server2client_headers_run wr hw blank hb rest hdrs v1
    a2 hl
  rw [a5, a6] at b5
  have c1 : v2.has_entity = (entity_after (e, -1) hdrs).1 := congrArg Prod.fst b5
  have c2 : v2.entity_len = (entity_after (e, -1) hdrs).2 := congrArg Prod.snd b5
  have hent2 : ¬ (v2.has_entity = 1 ∧ v2.entity_len ≠ 0) := by rw [c1, c2]; exact hent
  refine ⟨v2, ?_, b2, by rw [b3, a3]; rfl⟩
  unfold server2client_relay
  simp only [a1, b1, show ¬ ((0 : Int) < 0) from by decide, if_false]
  rw [if_neg hent2]
  simp only [show ¬ ((0 : Int) < 0) from by decide, if_false, c2, b6, a7]
  by_cases hm : (entity_after (e, -1) hdrs).2 > 0 ∧ nleft0 ≠ 0
  · rw [if_pos hm, if_pos hm]
  · rw [if_neg hm, if_neg hm]

/-- `server2client` up to the test of the entity length, on a response with an
entity that ends with the stream: it reads the status line, the header lines,
the empty line and every chunk of the entity. -/
theorem server2client_relay_entity (wr : Nat → Int) (hw : ∀ k, ¬ wr k < 0) {st : List Nat}
    (hne : st ≠ []) {e : Int} (hp : parse_response_line st 1 = (0, e))
    (hdrs : List (List Nat))
    (hl : ∀ h, h ∈ hdrs → h ≠ [] ∧ cstr h ≠ bytes "\r\n"
      ∧ ∀ e el, (parse_response_header h e el).1 = 0)
    (blank : List Nat) (hb : cstr blank = bytes "\r\n") (body : List (List Nat))
    (hbody : ∀ c, c ∈ body → c ≠ []) (tail : rio_t)
    (ht : tail = [] ∨ ∃ r, tail = some [] :: r) (nleft0 : Int)
    (hent : (entity_after (e, -1) hdrs).1 = 1 ∧ (entity_after (e, -1) hdrs).2 ≠ 0) :
    ∃ v, server2client_relay wr
          (some st :: (hdrs.map some ++ some blank :: (body.map some ++ tail))) nleft0
          init_web_object
        = some (if (entity_after (e, -1) hdrs).2 > 0
                  ∧ countdown (entity_after (e, -1) hdrs).2 body ≠ 0 then -1 else 0, v)
      ∧ Relayed v ∧ v.got = st :: hdrs ++ [blank] ++ body := by
  obtain ⟨v1, a1, a2, a3, _, a5, a6, a7⟩ := server2client_status_run wr (hw 0) hne hp
    (hdrs.map some ++ some blank :: (body.map some ++ tail)) nleft0 init_web_object
    init_web_object_fresh
  obtain ⟨v2, b1, b2, b3, _, b5, b6, b7⟩ := server2client_headers_run wr hw blank hb
    (body.map some ++ tail) hdrs v1 a2 hl
  rw [a5, a6] at b5
  have c1 : v2.has_entity = (entity_after (e, -1) hdrs).1 := congrArg Prod.fst b5
  have c2 : v2.entity_len = (entity_after (e, -1) hdrs).2 := congrArg Prod.snd b5
  have hent2 : v2.has_entity = 1 ∧ v2.entity_len ≠ 0 := by rw [c1, c2]; exact hent
  obtain ⟨v3, rio3, d1, d2, d3, _, _, d6, d7⟩ := server2client_body_run wr hw tail ht body
    { v2 with nleft := v2.entity_len } b2 (Or.inl b7) hbody
  have d6b : v3.entity_len = (entity_after (e, -1) hdrs).2 := by rw [d6]; exact c2
  have d7b : v3.nleft = countdown (entity_after (e, -1) hdrs).2 body := by
    rw [d7]
    show countdown v2.entity_len body = _
    rw [c2]
  refine ⟨v3, ?_, d2, by rw [d3]; show v2.got ++ body = _; rw [b3, a3]; rfl⟩
  unfold server2client_relay
  simp only [a1, b1, show ¬ ((0 : Int) < 0) from by decide, if_false]
  rw [if_pos hent2]
  simp only [d1, show ¬ ((0 : Int) < 0) from by decide, if_false, d6b, d7b]
  by_cases hm : (entity_after (e, -1) hdrs).2 > 0
      ∧ countdown (entity_after (e, -1) hdrs).2 body ≠ 0
  · rw [if_pos hm, if_pos hm]
  · rw [if_neg hm, if_neg hm]

/-- What `server2client` does once the part up to the test of the entity length
has returned `rc` with the variables `v`, on a consistent cache, with enough
steps for the eviction loop. -/
theorem server2client_outcome {cap : Int} (hcapo : (MAX_OBJECT_SIZE : Int) ≤ cap)
    (hcap : cap < 2147483648) {s : State} {L : Nat → List Ptr} (hG : Good s L)
    {fuel : Nat} (hfuel : HASHSIZE * linked_count L < fuel) (wr : Nat → Int) (rio : rio_t)
    (nleft0 : Int) (cid : cid_t) {rc : Int} {v : Vars}
    (hrel : server2client_relay wr rio nleft0 init_web_object = some (rc, v)) :
    ∃ r, server2client cap fuel s wr rio nleft0 init_web_object cid = some r
      ∧ r.rc = rc ∧ r.vars = v
      ∧ (rc = 0 → v.got.flatten.length ≤ MAX_OBJECT_SIZE →
          r.inserted = some (v.got.flatten, v.got.flatten.length)
          ∧ update_cache cap fuel s cid (some v.got.flatten) v.got.flatten.length
              = some (0, r.st))
      ∧ (rc = 0 → MAX_OBJECT_SIZE < v.got.flatten.length → r.inserted = none ∧ r.st = s)
      ∧ (rc ≠ 0 → r.inserted = none ∧ r.st = s) := by
  obtain ⟨r, h, hrel2, _, g, k1, k2⟩ := server2client_spec hcapo hcap hG hfuel wr rio nleft0 cid
  rw [hrel] at hrel2
  simp only [Option.some.injEq, Prod.mk.injEq] at hrel2
  obtain ⟨e1, e2⟩ := hrel2
  subst e1 e2
  refine ⟨r, h, rfl, rfl, ?_, ?_, ?_⟩
  · intro h0 hle
    have hI := g h0
    have hc : r.vars.cache_it ≠ 0 := by
      intro e
      have hbig := hI.2.2.2.1 e
      rw [hI.2.1] at hbig
      have : ((r.vars.got.flatten.length : Nat) : Int) ≤ (MAX_OBJECT_SIZE : Int) := by
        exact_mod_cast hle
      omega
    obtain ⟨b1, b2, _⟩ := hI.2.2.2.2.1 hc
    obtain ⟨m1, m2⟩ := k1 ⟨h0, hc⟩
    rw [b1, b2] at m1 m2
    exact ⟨m1, m2⟩
  · intro h0 hbig
    apply k2
    rintro ⟨_, hc⟩
    have := ((g h0).2.2.2.2.1 hc).2.2
    omega
  · intro hne
    exact k2 (fun h => hne h.1)
theorem parse_status_200 {version : List Nat} (hv : Token version) {x : Nat}
    (hx : isspace x = false) (hx0 : x ≠ 0) (more : List Nat) :
    status_line version (bytes "200") x more ≠ []
      ∧ parse_response_line (status_line version (bytes "200") x more) 1 = (0, 1) := by
  constructor
  · obtain ⟨a, t, e⟩ := List.exists_cons_of_ne_nil hv.1
    rw [status_line, e]
    simp
  · rw [parse_response_line_status hv ⟨by decide, by decide⟩ hx hx0 more 1, if_neg (by decide)]

/-! ## C24: a response with `Content-Length: 0` -/

/-- C24 (as amended).  Take a response with a status line `VERSION 200 PHRASE`
and header lines `NAME:VALUE` with names and values that are not empty, of
which at least one is named `Content-Length` (without regard to letter case)
and each of that name has the value `0`; let the status line, the header lines
and the empty line be at most `MAX_OBJECT_SIZE` bytes together, and let no
write to the client fail.  On a consistent cache, with enough steps for the
eviction loop, `server2client` reads the status line, the header lines and the
empty line and nothing after them, whatever the origin sends next; it returns
`0`; and it inserts, under the key of the request, exactly the status line
followed by the header lines and the empty line. -/
theorem C24_content_length_zero_has_no_entity (cap : Int)
    (hcapo : (MAX_OBJECT_SIZE : Int) ≤ cap) (hcap : cap < 2147483648) (s : State)
    (L : Nat → List Ptr) (hG : Good s L) (fuel : Nat) (hfuel : HASHSIZE * linked_count L < fuel)
    (wr : Nat → Int) (hw : ∀ k, ¬ wr k < 0) (version : List Nat) (x : Nat) (more : List Nat)
    (hv : Token version) (hx : isspace x = false) (hx0 : x ≠ 0) (hdrs : List (List Nat))
    (hl : ∀ l, l ∈ hdrs → ∃ name value, HeaderLine l name value
      ∧ (names_content_length l = true → value = bytes "0"))
    (hcl : ∃ l, l ∈ hdrs ∧ names_content_length l = true) (rest : rio_t) (nleft0 : Int)
    (cid : cid_t)
    (hsize : (status_line version (bytes "200") x more :: hdrs ++ [bytes "\r\n"]).flatten.length
      ≤ MAX_OBJECT_SIZE) :
    ∃ r, server2client cap fuel s wr
          (some (status_line version (bytes "200") x more)
            :: (hdrs.map some ++ some (bytes "\r\n") :: rest)) nleft0 init_web_object cid
        = some r
      ∧ r.rc = 0
      ∧ r.vars.got = status_line version (bytes "200") x more :: hdrs ++ [bytes "\r\n"]
      ∧ r.inserted
        = some ((status_line version (bytes "200") x more :: hdrs ++ [bytes "\r\n"]).flatten,
            (status_line version (bytes "200") x more :: hdrs ++ [bytes "\r\n"]).flatten.length)
      ∧ update_cache cap fuel s cid
          (some (status_line version (bytes "200") x more :: hdrs ++ [bytes "\r\n"]).flatten)
          (status_line version (bytes "200") x more :: hdrs ++ [bytes "\r\n"]).flatten.length
        = some (0, r.st) := by
  obtain ⟨hne, hp⟩ := parse_status_200 hv hx hx0 more
  have hacc : ∀ h, h ∈ hdrs → h ≠ [] ∧ cstr h ≠ bytes "\r\n"
      ∧ ∀ e el, (parse_response_header h e el).1 = 0 := by
    intro h hh
    obtain ⟨name, value, k, _⟩ := hl h hh
    exact header_line_accepted k
  have hea : entity_after (1, -1) hdrs = (0, 0) := by
    rw [entity_after_content_length 0 hdrs 1 (-1) (by
      intro l hm
      obtain ⟨name, value, k1, k2⟩ := hl l hm
      refine ⟨name, value, k1, fun hc => ?_⟩
      rw [k2 hc]
      decide)]
    have hany : hdrs.any names_content_length = true := by
      obtain ⟨l, hm, hc⟩ := hcl
      exact List.any_eq_true.mpr ⟨l, hm, hc⟩
    rw [if_pos hany, if_pos rfl]
  obtain ⟨v, hrel, _, hgot⟩ := server2client_relay_head wr hw hne hp hdrs hacc (bytes "\r\n")
    (by decide) rest nleft0 (by rw [hea]; decide)
  rw [hea] at hrel
  rw [if_neg (fun h => absurd h.1 (by decide))] at hrel
  obtain ⟨r, h1, h2, h3, h4, _, _⟩ := server2client_outcome hcapo hcap hG hfuel wr _ nleft0 cid
    hrel
  have hgot2 : r.vars.got = status_line version (bytes "200") x more :: hdrs ++ [bytes "\r\n"] := by
    rw [h3, hgot]
  have h5 := h4 rfl (by rw [hgot]; exact hsize)
  rw [hgot] at h5
  exact ⟨r, h1, h2, hgot2, h5.1, h5.2⟩

theorem sample_content_length_zero :
    ∀ l, l ∈ [bytes "Content-Length: 0\r\n"] → ∃ name value, HeaderLine l name value
      ∧ (names_content_length l = true → value = bytes "0") := by
  intro l hl
  simp only [List.mem_singleton] at hl
  rw [hl]
  exact ⟨bytes "Content-Length", bytes "0",
    HeaderLine.intro (bytes "Content-Length") (bytes " ") (bytes "0") (bytes "\r\n") (by decide)
      (by decide) (by decide) (by decide) (by decide) (by decide) (by decide), fun _ => rfl⟩

/-- C24, witness: the response `HTTP/1.0 200 OK`, `Content-Length: 0`, relayed
into the empty cache; the origin sends two more bytes, which are not read. -/
theorem C24_content_length_zero_has_no_entity_witness :
    ∃ r, server2client MAX_CACHE_SIZE 1 empty_cache (fun _ => 0)
          (some (status_line (bytes "HTTP/1.0") (bytes "200") 79 (bytes "K\r\n"))
            :: ([bytes "Content-Length: 0\r\n"].map some
                ++ some (bytes "\r\n") :: [some (bytes "hi")])) 0 init_web_object key_a
        = some r
      ∧ r.rc = 0
      ∧ r.vars.got = status_line (bytes "HTTP/1.0") (bytes "200") 79 (bytes "K\r\n")
          :: [bytes "Content-Length: 0\r\n"] ++ [bytes "\r\n"]
      ∧ r.inserted
        = some ((status_line (bytes "HTTP/1.0") (bytes "200") 79 (bytes "K\r\n")
              :: [bytes "Content-Length: 0\r\n"] ++ [bytes "\r\n"]).flatten,
            (status_line (bytes "HTTP/1.0") (bytes "200") 79 (bytes "K\r\n")
              :: [bytes "Content-Length: 0\r\n"] ++ [bytes "\r\n"]).flatten.length)
      ∧ update_cache MAX_CACHE_SIZE 1 empty_cache key_a
          (some (status_line (bytes "HTTP/1.0") (bytes "200") 79 (bytes "K\r\n")
              :: [bytes "Content-Length: 0\r\n"] ++ [bytes "\r\n"]).flatten)
          (status_line (bytes "HTTP/1.0") (bytes "200") 79 (bytes "K\r\n")
              :: [bytes "Content-Length: 0\r\n"] ++ [bytes "\r\n"]).flatten.length
        = some (0, r.st) :=
  C24_content_length_zero_has_no_entity MAX_CACHE_SIZE (by decide) (by decide) empty_cache
    (fun _ => []) empty_cache_good 1 (by rw [linked_count_empty]; decide) (fun _ => 0)
    (fun _ => of_decide_eq_true rfl) (bytes "HTTP/1.0") 79 (bytes "K\r\n")
    ⟨by decide, by decide⟩ (by decide) (by decide) [bytes "Content-Length: 0\r\n"]
    sample_content_length_zero ⟨_, List.mem_singleton.mpr rfl, by decide⟩
    [some (bytes "hi")] 0 key_a (by decide)

/-- C24, counterexample.  The response has status `200` and the header lines
`Content-Length: 0` and `X-Empty:`, a header with an empty value; every write
to the client succeeds.  `parse_response_header` rejects the second header
line: `server2client` returns `-1` and inserts nothing. -/
theorem C24_counterexample_header_with_empty_value :
    (server2client MAX_CACHE_SIZE 1 empty_cache (fun _ => 0)
        [some (bytes "HTTP/1.0 200 OK\r\n"), some (bytes "Content-Length: 0\r\n"),
         some (bytes "X-Empty:\r\n"), some (bytes "\r\n")] 0 init_web_object key_a).map
      (fun r => (r.rc, r.inserted)) = some (-1, none) := by
  decide
/-! ## C25: a response without `Content-Length` -/

/-- C25 (as amended).  Take a response with a status line `VERSION 200 PHRASE`
and header lines `NAME:VALUE` with names and values that are not empty, none
of them named `Content-Length` (without regard to letter case), followed by the
empty line and by the chunks `body` of the entity, after which the origin
signals the end of the stream; let no write to the client fail.  On a
consistent cache, with enough steps for the eviction loop, `server2client`
reads all chunks up to the end of the stream and returns `0`.  When the bytes
read are at most `MAX_OBJECT_SIZE`, it inserts the status line, the header
lines, the empty line and the whole entity under the key of the request; when
they are more, it inserts nothing. -/
theorem C25_entity_read_to_end_of_stream (cap : Int)
    (hcapo : (MAX_OBJECT_SIZE : Int) ≤ cap) (hcap : cap < 2147483648) (s : State)
    (L : Nat → List Ptr) (hG : Good s L) (fuel : Nat) (hfuel : HASHSIZE * linked_count L < fuel)
    (wr : Nat → Int) (hw : ∀ k, ¬ wr k < 0) (version : List Nat) (x : Nat) (more : List Nat)
    (hv : Token version) (hx : isspace x = false) (hx0 : x ≠ 0) (hdrs : List (List Nat))
    (hl : ∀ l, l ∈ hdrs → ∃ name value, HeaderLine l name value
      ∧ names_content_length l = false)
    (body : List (List Nat)) (hbody : ∀ c, c ∈ body → c ≠ []) (tail : rio_t)
    (ht : tail = [] ∨ ∃ r, tail = some [] :: r) (nleft0 : Int) (cid : cid_t) :
    ∃ r, server2client cap fuel s wr
          (some (status_line version (bytes "200") x more)
            :: (hdrs.map some ++ some (bytes "\r\n") :: (body.map some ++ tail)))
          nleft0 init_web_object cid
        = some r
      ∧ r.rc = 0
      ∧ r.vars.got
        = status_line version (bytes "200") x more :: hdrs ++ [bytes "\r\n"] ++ body
      ∧ ((status_line version (bytes "200") x more :: hdrs ++ [bytes "\r\n"]
            ++ body).flatten.length ≤ MAX_OBJECT_SIZE →
          r.inserted
            = some ((status_line version (bytes "200") x more :: hdrs ++ [bytes "\r\n"]
                  ++ body).flatten,
                (status_line version (bytes "200") x more :: hdrs ++ [bytes "\r\n"]
                  ++ body).flatten.length)
          ∧ update_cache cap fuel s cid
              (some (status_line version (bytes "200") x more :: hdrs ++ [bytes "\r\n"]
                  ++ body).flatten)
              (status_line version (bytes "200") x more :: hdrs ++ [bytes "\r\n"]
                  ++ body).flatten.length
            = some (0, r.st))
      ∧ (MAX_OBJECT_SIZE < (status_line version (bytes "200") x more :: hdrs ++ [bytes "\r\n"]
            ++ body).flatten.length → r.inserted = none ∧ r.st = s) := by
  obtain ⟨hne, hp⟩ := parse_status_200 hv hx hx0 more
  have hacc : ∀ h, h ∈ hdrs → h ≠ [] ∧ cstr h ≠ bytes "\r\n"
      ∧ ∀ e el, (parse_response_header h e el).1 = 0 := by
    intro h hh
    obtain ⟨name, value, k, _⟩ := hl h hh
    exact header_line_accepted k
  have hea : entity_after (1, -1) hdrs = (1, -1) := by
    rw [entity_after_content_length 0 hdrs 1 (-1) (by
      intro l hm
      obtain ⟨name, value, k1, k2⟩ := hl l hm
      refine ⟨name, value, k1, fun hc => ?_⟩
      rw [k2] at hc
      exact Bool.noConfusion hc)]
    have hany : ¬ hdrs.any names_content_length = true := by
      intro h
      obtain ⟨l, hm, hc⟩ := List.any_eq_true.mp h
      obtain ⟨_, _, _, k2⟩ := hl l hm
      rw [k2] at hc
      exact Bool.noConfusion hc
    rw [if_neg hany]
  obtain ⟨v, hrel, _, hgot⟩ := server2client_relay_entity wr hw hne hp hdrs hacc (bytes "\r\n")
    (by decide) body hbody tail ht nleft0 (by rw [hea]; decide)
  rw [hea] at hrel
  rw [if_neg (fun h => absurd h.1 (by decide))] at hrel
  obtain ⟨r, h1, h2, h3, h4, h5, _⟩ := server2client_outcome hcapo hcap hG hfuel wr _ nleft0 cid
    hrel
  have h4b := h4 rfl
  have h5b := h5 rfl
  rw [hgot] at h4b h5b
  exact ⟨r, h1, h2, by rw [h3, hgot], h4b, h5b⟩

theorem sample_server_header :
    ∀ l, l ∈ [bytes "Server: s\r\n"] → ∃ name value, HeaderLine l name value
      ∧ names_content_length l = false := by
  intro l hl
  simp only [List.mem_singleton] at hl
  rw [hl]
  exact ⟨bytes "Server", bytes "s",
    HeaderLine.intro (bytes "Server") (bytes " ") (bytes "s") (bytes "\r\n") (by decide)
      (by decide) (by decide) (by decide) (by decide) (by decide) (by decide), by decide⟩

theorem sample_chunks_ne_nil : ∀ c, c ∈ [bytes "hel", bytes "lo"] → c ≠ [] := by
  decide

/-- C25, witness: the response `HTTP/1.0 200 OK`, `Server: s` with an entity of
five bytes that arrives in two chunks, relayed into the empty cache. -/
theorem C25_entity_read_to_end_of_stream_witness :
    ∃ r, server2client MAX_CACHE_SIZE 1 empty_cache (fun _ => 0)
          (some (status_line (bytes "HTTP/1.0") (bytes "200") 79 (bytes "K\r\n"))
            :: ([bytes "Server: s\r\n"].map some
                ++ some (bytes "\r\n") :: ([bytes "hel", bytes "lo"].map some ++ [])))
          0 init_web_object key_a
        = some r
      ∧ r.rc = 0
      ∧ r.vars.got
        = status_line (bytes "HTTP/1.0") (bytes "200") 79 (bytes "K\r\n")
            :: [bytes "Server: s\r\n"] ++ [bytes "\r\n"] ++ [bytes "hel", bytes "lo"]
      ∧ ((status_line (bytes "HTTP/1.0") (bytes "200") 79 (bytes "K\r\n")
            :: [bytes "Server: s\r\n"] ++ [bytes "\r\n"]
            ++ [bytes "hel", bytes "lo"]).flatten.length ≤ MAX_OBJECT_SIZE →
          r.inserted
            = some ((status_line (bytes "HTTP/1.0") (bytes "200") 79 (bytes "K\r\n")
                  :: [bytes "Server: s\r\n"] ++ [bytes "\r\n"]
                  ++ [bytes "hel", bytes "lo"]).flatten,
                (status_line (bytes "HTTP/1.0") (bytes "200") 79 (bytes "K\r\n")
                  :: [bytes "Server: s\r\n"] ++ [bytes "\r\n"]
                  ++ [bytes "hel", bytes "lo"]).flatten.length)
          ∧ update_cache MAX_CACHE_SIZE 1 empty_cache key_a
              (some (status_line (bytes "HTTP/1.0") (bytes "200") 79 (bytes "K\r\n")
                  :: [bytes "Server: s\r\n"] ++ [bytes "\r\n"]
                  ++ [bytes "hel", bytes "lo"]).flatten)
              (status_line (bytes "HTTP/1.0") (bytes "200") 79 (bytes "K\r\n")
                  :: [bytes "Server: s\r\n"] ++ [bytes "\r\n"]
                  ++ [bytes "hel", bytes "lo"]).flatten.length
            = some (0, r.st))
      ∧ (MAX_OBJECT_SIZE < (status_line (bytes "HTTP/1.0") (bytes "200") 79 (bytes "K\r\n")
            :: [bytes "Server: s\r\n"] ++ [bytes "\r\n"]
            ++ [bytes "hel", bytes "lo"]).flatten.length →
          r.inserted = none ∧ r.st = empty_cache) :=
  C25_entity_read_to_end_of_stream MAX_CACHE_SIZE (by decide) (by decide) empty_cache
    (fun _ => []) empty_cache_good 1 (by rw [linked_count_empty]; decide) (fun _ => 0)
    (fun _ => of_decide_eq_true rfl) (bytes "HTTP/1.0") 79 (bytes "K\r\n")
    ⟨by decide, by decide⟩ (by decide) (by decide) [bytes "Server: s\r\n"]
    sample_server_header [bytes "hel", bytes "lo"] sample_chunks_ne_nil [] (Or.inl rfl) 0 key_a

/-- C25, counterexample.  The response has status `200`, no `Content-Length`
header, the header line `Server:`, a header with an empty value, and an entity;
every write to the client succeeds and the origin ends the stream after the
entity.  `parse_response_header` rejects the header line: `server2client`
returns `-1`, has read nothing of the entity, and inserts nothing. -/
theorem C25_counterexample_header_with_empty_value :
    (server2client MAX_CACHE_SIZE 1 empty_cache (fun _ => 0)
        [some (bytes "HTTP/1.0 200 OK\r\n"), some (bytes "Server:\r\n"), some (bytes "\r\n"),
         some (bytes "hello")] 0 init_web_object key_a).map
      (fun r => (r.rc, r.inserted, r.vars.got))
      = some (-1, none, [bytes "HTTP/1.0 200 OK\r\n", bytes "Server:\r\n"]) := by
  decide
/-! ## C26: the entity and its announced length -/

theorem take_flatten_length_le (body : List (List Nat)) (k : Nat) :
    (body.take k).flatten.length ≤ body.flatten.length := by
  have h : ((body.take k) ++ (body.drop k)).flatten.length = body.flatten.length := by
    rw [List.take_append_drop]
  rw [List.flatten_append, List.length_append] at h
  omega

/-- C26.  Take a response with a status line `VERSION CODE PHRASE` whose code,
three decimal digits, is not `100` to `199`, `204` or `304`, and header lines
`NAME:VALUE` with names and values that are not empty, of which at least one is
named `Content-Length` and each of that name has the value `n`, with `n > 0`;
after the empty line the origin delivers the chunks `body`, each of at most
`MAXLINE` bytes, and then signals the end of the stream; no write to the client
fails.  On a consistent cache, with enough steps for the eviction loop,
`server2client` reads all the chunks.  If they hold fewer than `n` bytes, or
more generally if no read ends exactly at the `n`-th byte of the entity, it
returns `-1` and inserts nothing.  If some read ends exactly at the `n`-th
byte, it returns `0`, however many bytes follow, and inserts everything it has
read when that is at most `MAX_OBJECT_SIZE` bytes. -/
theorem C26_entity_length_checked_at_read_ends (cap : Int)
    (hcapo : (MAX_OBJECT_SIZE : Int) ≤ cap) (hcap : cap < 2147483648) (s : State)
    (L : Nat → List Ptr) (hG : Good s L) (fuel : Nat) (hfuel : HASHSIZE * linked_count L < fuel)
    (wr : Nat → Int) (hw : ∀ k, ¬ wr k < 0) (version : List Nat) (d1 d2 d3 x : Nat)
    (more : List Nat) (hv : Token version) (h1 : 48 ≤ d1 ∧ d1 ≤ 57) (h2 : 48 ≤ d2 ∧ d2 ≤ 57)
    (h3 : 48 ≤ d3 ∧ d3 ≤ 57) (hcode : no_entity_code (decimal [d1, d2, d3]) = false)
    (hx : isspace x = false) (hx0 : x ≠ 0) (n : Int) (hn : 0 < n) (hdrs : List (List Nat))
    (hl : ∀ l, l ∈ hdrs → ∃ name value, HeaderLine l name value
      ∧ (names_content_length l = true → atoi value = n))
    (hcl : ∃ l, l ∈ hdrs ∧ names_content_length l = true)
    (body : List (List Nat)) (hbody : ∀ c, c ∈ body → c ≠ [] ∧ c.length ≤ MAXLINE)
    (tail : rio_t) (ht : tail = [] ∨ ∃ r, tail = some [] :: r) (nleft0 : Int) (cid : cid_t) :
    ∃ r, server2client cap fuel s wr
          (some (status_line version [d1, d2, d3] x more)
            :: (hdrs.map some ++ some (bytes "\r\n") :: (body.map some ++ tail)))
          nleft0 init_web_object cid
        = some r
      ∧ r.vars.got = status_line version [d1, d2, d3] x more :: hdrs ++ [bytes "\r\n"] ++ body
      ∧ (((body.flatten.length : Nat) : Int) < n → r.rc = -1 ∧ r.inserted = none ∧ r.st = s)
      ∧ ((∀ k, k ≤ body.length → (((body.take k).flatten.length : Nat) : Int) ≠ n) →
          r.rc = -1 ∧ r.inserted = none ∧ r.st = s)
      ∧ ((∃ k, k ≤ body.length ∧ (((body.take k).flatten.length : Nat) : Int) = n) →
          r.rc = 0
          ∧ ((status_line version [d1, d2, d3] x more :: hdrs ++ [bytes "\r\n"]
                ++ body).flatten.length ≤ MAX_OBJECT_SIZE →
              r.inserted
                = some ((status_line version [d1, d2, d3] x more :: hdrs ++ [bytes "\r\n"]
                      ++ body).flatten,
                    (status_line version [d1, d2, d3] x more :: hdrs ++ [bytes "\r\n"]
                      ++ body).flatten.length))) := by
  have hne : status_line version [d1, d2, d3] x more ≠ [] := by
    obtain ⟨a, t, e⟩ := List.exists_cons_of_ne_nil hv.1
    rw [status_line, e]
    simp
  have hp : parse_response_line (status_line version [d1, d2, d3] x more) 1 = (0, 1) := by
    rw [parse_response_line_status hv (token_of_digits h1 h2 h3) hx hx0 more 1, if_neg]
    rw [status_test_three_digits h1 h2 h3, hcode]
    exact Bool.noConfusion
  have hacc : ∀ h, h ∈ hdrs → h ≠ [] ∧ cstr h ≠ bytes "\r\n"
      ∧ ∀ e el, (parse_response_header h e el).1 = 0 := by
    intro h hh
    obtain ⟨name, value, k, _⟩ := hl h hh
    exact header_line_accepted k
  have hn0 : n ≠ 0 := by omega
  have hn2 : n < 2147483648 := by
    obtain ⟨l, hm, hc⟩ := hcl
    obtain ⟨_, value, _, k2⟩ := hl l hm
    rw [← k2 hc]
    exact to_int_lt _
  have hea : entity_after (1, -1) hdrs = (1, n) := by
    rw [entity_after_content_length n hdrs 1 (-1) hl]
    have hany : hdrs.any names_content_length = true := by
      obtain ⟨l, hm, hc⟩ := hcl
      exact List.any_eq_true.mpr ⟨l, hm, hc⟩
    rw [if_pos hany, if_neg hn0]
  obtain ⟨v, hrel, _, hgot⟩ := server2client_relay_entity wr hw hne hp hdrs hacc (bytes "\r\n")
    (by decide) body (fun c hc => (hbody c hc).1) tail ht nleft0
    (by rw [hea]; exact ⟨rfl, hn0⟩)
  rw [hea] at hrel
  have hiff := countdown_eq_zero_iff body n hn hn2 hbody
  have hmiss : (∀ k, k ≤ body.length → (((body.take k).flatten.length : Nat) : Int) ≠ n) →
      ∃ r, server2client cap fuel s wr
          (some (status_line version [d1, d2, d3] x more)
            :: (hdrs.map some ++ some (bytes "\r\n") :: (body.map some ++ tail)))
          nleft0 init_web_object cid = some r ∧ r.vars = v
        ∧ r.rc = -1 ∧ r.inserted = none ∧ r.st = s := by
    intro hno
    have hcd : countdown n body ≠ 0 := by
      intro e
      obtain ⟨k, hk1, hk2⟩ := hiff.mp e
      exact hno k hk1 hk2
    rw [if_pos ⟨hn, hcd⟩] at hrel
    obtain ⟨r, a1, a2, a3, _, _, a6⟩ := server2client_outcome hcapo hcap hG hfuel wr _ nleft0
      cid hrel
    have := a6 (by decide)
    exact ⟨r, a1, a3, a2, this.1, this.2⟩
  by_cases hex : ∃ k, k ≤ body.length ∧ (((body.take k).flatten.length : Nat) : Int) = n
  · have hcd : ¬ ((1, n).2 > 0 ∧ countdown (1, n).2 body ≠ 0) := by
      intro h
      exact h.2 (hiff.mpr hex)
    rw [if_neg hcd] at hrel
    obtain ⟨r, a1, a2, a3, a4, _, _⟩ := server2client_outcome hcapo hcap hG hfuel wr _ nleft0
      cid hrel
    have a4b := a4 rfl
    rw [hgot] at a4b
    refine ⟨r, a1, by rw [a3, hgot], ?_, ?_, ?_⟩
    · intro hlt
      obtain ⟨k, _, hk2⟩ := hex
      have := take_flatten_length_le body k
      omega
    · intro hno
      obtain ⟨k, hk1, hk2⟩ := hex
      exact absurd hk2 (hno k hk1)
    · intro _
      exact ⟨a2, fun hle => (a4b hle).1⟩
  · have hno : ∀ k, k ≤ body.length → (((body.take k).flatten.length : Nat) : Int) ≠ n :=
      fun k hk e => hex ⟨k, hk, e⟩
    obtain ⟨r, a1, a2, a3, a4, a5⟩ := hmiss hno
    exact ⟨r, a1, by rw [a2, hgot], fun _ => ⟨a3, a4, a5⟩, fun _ => ⟨a3, a4, a5⟩,
      fun h => absurd h hex⟩

theorem sample_content_length_8192 :
    ∀ l, l ∈ [bytes "Content-Length: 8192\r\n"] → ∃ name value, HeaderLine l name value
      ∧ (names_content_length l = true → atoi value = 8192) := by
  intro l hl
  simp only [List.mem_singleton] at hl
  rw [hl]
  exact ⟨bytes "Content-Length", bytes "8192",
    HeaderLine.intro (bytes "Content-Length") (bytes " ") (bytes "8192") (bytes "\r\n")
      (by decide) (by decide) (by decide) (by decide) (by decide) (by decide) (by decide),
    fun _ => by decide⟩

theorem sample_long_body (c : List Nat) (hc : c.length = 8192) :
    (∀ x, x ∈ [c, [120]] → x ≠ [] ∧ x.length ≤ MAXLINE)
      ∧ ([c, [120]] : List (List Nat)).flatten.length = 8193
      ∧ (∃ k, k ≤ [c, [120]].length ∧ (((([c, [120]] : List (List Nat)).take k).flatten.length
          : Nat) : Int) = 8192)
      ∧ (status_line (bytes "HTTP/1.0") [50, 48, 48] 79 (bytes "K\r\n")
          :: [bytes "Content-Length: 8192\r\n"] ++ [bytes "\r\n"]
          ++ [c, [120]]).flatten.length ≤ MAX_OBJECT_SIZE := by
  have hlen : (status_line (bytes "HTTP/1.0") [50, 48, 48] 79 (bytes "K\r\n")).length = 17 := by
    decide
  have hlen2 : (bytes "Content-Length: 8192\r\n").length = 22 := by decide
  have hlen3 : (bytes "\r\n").length = 2 := by decide
  have hM : MAXLINE = 8192 := rfl
  have hO : MAX_OBJECT_SIZE = 102400 := rfl
  refine ⟨?_, ?_, ⟨1, by simp, ?_⟩, ?_⟩
  · intro x hx
    simp only [List.mem_cons, List.mem_singleton, List.not_mem_nil, or_false] at hx
    rcases hx with e | e
    · rw [e]
      exact ⟨List.ne_nil_of_length_pos (by omega), by omega⟩
    · rw [e]
      exact ⟨by simp, by simp [hM]⟩
  · simp [hc]
  · simp [hc]
  · simp only [List.cons_append, List.nil_append, List.flatten_cons, List.flatten_nil,
      List.length_append, List.length_nil, hlen, hlen2, hlen3, hc, List.length_singleton, hO]
    decide

/-- C26, witness: the response `HTTP/1.0 200 OK`, `Content-Length: 8192`, with
an entity of 8193 bytes, which the reads of `MAXLINE` bytes deliver as 8192
bytes and 1 byte.  `server2client` returns `0` and inserts the whole response,
with the 8193 bytes. -/
theorem C26_entity_length_checked_at_read_ends_witness :
    ([List.replicate 8192 120, [120]] : List (List Nat)).flatten.length = 8193
      ∧ ∃ r, server2client MAX_CACHE_SIZE 1 empty_cache (fun _ => 0)
          (some (status_line (bytes "HTTP/1.0") [50, 48, 48] 79 (bytes "K\r\n"))
            :: ([bytes "Content-Length: 8192\r\n"].map some
                ++ some (bytes "\r\n")
                  :: ([List.replicate 8192 120, [120]].map some ++ [])))
          0 init_web_object key_a
        = some r
      ∧ r.rc = 0
      ∧ r.inserted
        = some ((status_line (bytes "HTTP/1.0") [50, 48, 48] 79 (bytes "K\r\n")
              :: [bytes "Content-Length: 8192\r\n"] ++ [bytes "\r\n"]
              ++ [List.replicate 8192 120, [120]]).flatten,
            (status_line (bytes "HTTP/1.0") [50, 48, 48] 79 (bytes "K\r\n")
              :: [bytes "Content-Length: 8192\r\n"] ++ [bytes "\r\n"]
              ++ [List.replicate 8192 120, [120]]).flatten.length) := by
  obtain ⟨f1, f2, f3, f4⟩ := sample_long_body (List.replicate 8192 120)
    (List.length_replicate _ _)
  obtain ⟨r, a1, _, _, _, a5⟩ := C26_entity_length_checked_at_read_ends MAX_CACHE_SIZE
    (by decide) (by decide) empty_cache (fun _ => []) empty_cache_good 1
    (by rw [linked_count_empty]; decide) (fun _ => 0) (fun _ => of_decide_eq_true rfl)
    (bytes "HTTP/1.0") 50 48 48 79 (bytes "K\r\n") ⟨by decide, by decide⟩ (by decide)
    (by decide) (by decide) (by decide) (by decide) (by decide) 8192 (by decide)
    [bytes "Content-Length: 8192\r\n"] sample_content_length_8192
    ⟨_, List.mem_singleton.mpr rfl, by decide⟩ [List.replicate 8192 120, [120]]
    f1 [] (Or.inl rfl) 0 key_a
  obtain ⟨b1, b2⟩ := a5 f3
  exact ⟨f2, r, a1, b1, b2 f4⟩

/-! ## C27: connections that fail -/

theorem update_cache_rc {cap : Int} {fuel : Nat} {s : State} {cid : cid_t}
    {content : Option (List Nat)} {size : Nat} {x : Int × State}
    (h : update_cache cap fuel s cid content size = some x) : x.1 = 0 := by
  rw [update_cache_eq] at h
  cases hp : P s.write_sem with
  | none => simp [hp] at h
  | some w =>
    simp only [hp, Option.some_bind] at h
    cases he : (if to_size_t (to_size_t s.total_size + size) > to_size_t cap
        then evict_to_fit cap fuel { s with write_sem := w } (to_int size)
        else some { s with write_sem := w }) with
    | none => simp [he] at h
    | some s2 =>
      simp only [he, Option.some_bind, Option.some.injEq] at h
      rw [← h]

/-- A call of `server2client` that returns `-1` has inserted nothing: the cache
is as before. -/
theorem server2client_failed {cap : Int} {fuel : Nat} {s : State} {wr : Nat → Int}
    {rio : rio_t} {nleft0 : Int} {wbp : web_object} {cid : cid_t} {r : Relay}
    (h : server2client cap fuel s wr rio nleft0 wbp cid = some r) (hrc : r.rc < 0) :
    r.inserted = none ∧ r.st = s := by
  unfold server2client at h
  cases hrel : server2client_relay wr rio nleft0 wbp with
  | none => simp [hrel] at h
  | some p =>
    obtain ⟨rc, v⟩ := p
    simp only [hrel] at h
    by_cases h1 : rc < 0
    · rw [if_pos h1] at h
      simp only [Option.some.injEq] at h
      subst h
      exact ⟨rfl, rfl⟩
    · rw [if_neg h1] at h
      by_cases hc : v.cache_it ≠ 0
      · rw [if_pos hc] at h
        cases hu : update_cache cap fuel s cid (some v.wb.content) v.wb.length with
        | none => simp [hu] at h
        | some x =>
          have h0 := update_cache_rc hu
          obtain ⟨rc2, s2⟩ := x
          simp only at h0
          subst h0
          simp only [hu, Option.some.injEq] at h
          subst h
          simp at hrc
      · rw [if_neg hc] at h
        simp only [Option.some.injEq] at h
        subst h
        simp at hrc

/-- A connection that fails in `read_parse_request_line`, or after a lookup
that misses in `client2server` or in `server2client`, leaves the cache as it
was. -/
theorem thread_job_keeps_cache (cap : Int) (fuel : Nat) (c : Conn) (s : State)
    (L : Nat → List Ptr) (hG : Good s L)
    (hfail : (read_parse_request_line c.client).1 < 0
      ∨ (¬ (read_parse_request_line c.client).1 < 0 ∧ strcmp (bytes "GET") (parsed c).method = 0
          ∧ ∃ lk, try_from_cache fuel s (c.wr_client 0) (request_key c) = some lk ∧ lk.rc = 0
            ∧ ((forward c).rc < 0
                ∨ (¬ (forward c).rc < 0
                    ∧ ∃ r, server2client cap fuel lk.st c.wr_client c.origin c.nleft0
                          init_web_object (request_key c) = some r ∧ r.rc < 0)))) :
    ∃ ev, thread_job cap fuel c s = some (ev, s) := by
  rcases hfail with h | ⟨h1, h2, lk, h3, h4, h5⟩
  · refine ⟨[Event.close_client], ?_⟩
    simp only [thread_job]
    rw [if_pos h]
  · have hidx : (request_key c).index < HASHSIZE := gen_cid_index_lt _ _ _
    have hlk : lk = { rc := 0, sent := none, st := s } := by
      rcases try_from_cache_cases hG fuel (c.wr_client 0) (request_key c) hidx h3 with
        ⟨r, l1, l2, _, _, _, e⟩ | ⟨_, e⟩
      · rw [e] at h4
        simp only at h4
        split at h4 <;> exact absurd h4 (by decide)
      · exact e
    subst hlk
    have h2b : ¬ strcmp (bytes "GET") (read_parse_request_line c.client).2.1.method ≠ 0 :=
      not_not.mpr h2
    have h3b : try_from_cache fuel s (c.wr_client 0)
        (gen_cid (read_parse_request_line c.client).2.1.host
          (read_parse_request_line c.client).2.1.port
          (read_parse_request_line c.client).2.1.path)
        = some { rc := 0, sent := none, st := s } := h3
    simp only [thread_job]
    rw [if_neg h1, if_neg h2b]
    simp only [h3b, show ¬ ((0 : Int) = -1) from by decide, if_false, if_true]
    rcases h5 with h5 | ⟨h5, r, h6, h7⟩
    · have h5b : (client2server c.wr_origin c.serverfd (read_parse_request_line c.client).2.1
          (read_parse_request_line c.client).2.2).rc < 0 := h5
      rw [if_pos h5b]
      exact ⟨_, rfl⟩
    · have h5b : ¬ (client2server c.wr_origin c.serverfd (read_parse_request_line c.client).2.1
          (read_parse_request_line c.client).2.2).rc < 0 := h5
      have h6b : server2client cap fuel s c.wr_client c.origin c.nleft0 init_web_object
          (gen_cid (read_parse_request_line c.client).2.1.host
            (read_parse_request_line c.client).2.1.port
            (read_parse_request_line c.client).2.1.path) = some r := h6
      rw [if_neg h5b]
      simp only [h6b]
      rw [(server2client_failed h6 h7).2]
      exact ⟨_, rfl⟩

/-- C27.  Take a connection served on a consistent cache that ends in one of
these ways: `read_parse_request_line` fails; or the request is a `GET`, the
lookup misses, and `client2server` fails; or the request is a `GET`, the lookup
misses, `client2server` succeeds, and `server2client` returns `-1`.  Then
`thread_job` ends and leaves the cache exactly as it was: the same blocks in
the same buckets, and the same `total_size`. -/
theorem C27_failed_connection_keeps_cache (cap : Int) (fuel : Nat) (c : Conn) (s : State)
    (L : Nat → List Ptr) (hG : Good s L)
    (hfail : (read_parse_request_line c.client).1 < 0
      ∨ (¬ (read_parse_request_line c.client).1 < 0 ∧ strcmp (bytes "GET") (parsed c).method = 0
          ∧ ∃ lk, try_from_cache fuel s (c.wr_client 0) (request_key c) = some lk ∧ lk.rc = 0
            ∧ ((forward c).rc < 0
                ∨ (¬ (forward c).rc < 0
                    ∧ ∃ r, server2client cap fuel lk.st c.wr_client c.origin c.nleft0
                          init_web_object (request_key c) = some r ∧ r.rc < 0)))) :
    ∃ ev, thread_job cap fuel c s = some (ev, s) :=
  thread_job_keeps_cache cap fuel c s L hG hfail

theorem cut_conn_fails :
    ∃ r, server2client MAX_CACHE_SIZE 1 empty_cache cut_conn.wr_client cut_conn.origin
        cut_conn.nleft0 init_web_object (request_key cut_conn) = some r ∧ r.rc < 0 := by
  obtain ⟨r, h, hrel, _⟩ := @server2client_spec MAX_CACHE_SIZE (by decide) (by decide) _ _
    empty_cache_good 1 (by rw [linked_count_empty]; decide) cut_conn.wr_client cut_conn.origin
    cut_conn.nleft0 (request_key cut_conn)
  have hd : (server2client_relay cut_conn.wr_client cut_conn.origin cut_conn.nleft0
      init_web_object).map Prod.fst = some (-1) := by decide
  rw [hrel] at hd
  simp only [Option.map_some', Option.some.injEq] at hd
  exact ⟨r, h, by rw [hd]; decide⟩

/-- C27, witness: a `GET` request on the empty cache whose origin ends the
stream after the status line, so that `server2client` returns `-1`. -/
theorem C27_failed_connection_keeps_cache_witness :
    ∃ ev, thread_job MAX_CACHE_SIZE 1 cut_conn empty_cache = some (ev, empty_cache) := by
  obtain ⟨r, h1, h2⟩ := cut_conn_fails
  have hidx : (request_key cut_conn).index < HASHSIZE := gen_cid_index_lt _ _ _
  have hmiss := try_from_cache_miss empty_cache_good.rep empty_cache_good.quiet
    (request_key cut_conn) hidx (fun p hp => absurd hp (List.not_mem_nil p)) Nat.zero_lt_one
    (cut_conn.wr_client 0)
  exact C27_failed_connection_keeps_cache MAX_CACHE_SIZE 1 cut_conn empty_cache (fun _ => [])
    empty_cache_good
    (Or.inr ⟨by decide, by decide, _, hmiss, rfl, Or.inr ⟨by decide, r, h1, h2⟩⟩)

/-! ## C28: an allocation that fails -/

theorem init_block_alloc_rc (h : Heap) (bp : Ptr) (cid : Option cid_t)
    (content : Option (List Nat)) (size : Nat) (idp contentp : Ptr) (r : Int × Heap)
    (hr : init_block_alloc h bp cid content size idp contentp = some r) :
    r.1 = 0 ∧ bp ≠ 0 ∧ (cid.isSome → idp ≠ 0)
      ∧ (content.isSome → size ≠ 0 → contentp ≠ 0)
      ∧ r.2 = init_block h bp cid content size := by
  have hi : ¬ ((idp : Nat) : Int) < 0 := by omega
  have hc : ¬ ((contentp : Nat) : Int) < 0 := by omega
  unfold init_block_alloc at hr
  by_cases hb : bp = 0
  · simp [hb] at hr
  rw [if_neg hb, if_neg (fun k => hi k.2)] at hr
  by_cases hid : cid.isSome ∧ idp = 0
  · rw [if_pos hid] at hr
    exact Option.noConfusion hr
  rw [if_neg hid] at hr
  have hid2 : cid.isSome → idp ≠ 0 := fun k e => hid ⟨k, e⟩
  cases content with
  | none =>
    simp only [Option.some.injEq] at hr
    rw [← hr]
    exact ⟨rfl, hb, hid2, by simp, rfl⟩
  | some c =>
    simp only at hr
    by_cases hs : size ≠ 0
    · rw [if_pos hs, if_neg hc] at hr
      by_cases hcp : contentp = 0
      · rw [if_pos hcp] at hr
        exact Option.noConfusion hr
      · rw [if_neg hcp] at hr
        simp only [Option.some.injEq] at hr
        rw [← hr]
        exact ⟨rfl, hb, hid2, fun _ _ => hcp, rfl⟩
    · rw [if_neg hs] at hr
      simp only [Option.some.injEq] at hr
      rw [← hr]
      exact ⟨rfl, hb, hid2, fun _ k => absurd k hs, rfl⟩

/-- What `link_block` yields when it yields something: the block was
allocated, so were the copies it needs, and the block is linked; `rc` is `0`. -/
theorem link_block_some {s : State} {bp : Ptr} {cid : cid_t} {content : Option (List Nat)}
    {size : Nat} {a : Alloc} {r : Int × Heap} (hr : link_block s bp cid content size a = some r) :
    r = (0, push_back (init_block s.heap bp (some cid) content size) (s.head cid.index) bp)
      ∧ bp ≠ 0 ∧ a.id_ok = true ∧ (content ≠ none → size ≠ 0 → a.content_ok = true) := by
  have hneg : ¬ ((bp : Nat) : Int) < 0 := by omega
  unfold link_block at hr
  rw [if_neg hneg] at hr
  cases hi : init_block_alloc s.heap bp (some cid) content size
      (if a.id_ok then 1 else 0) (if a.content_ok then 1 else 0) with
  | none => simp [hi] at hr
  | some x =>
    obtain ⟨x1, x2, x3, x4, x5⟩ := init_block_alloc_rc _ _ _ _ _ _ _ x hi
    simp only [hi, x1, show ¬ ((0 : Int) < 0) from by decide, if_false,
      Option.some.injEq] at hr
    refine ⟨by rw [← hr, x5], x2, ?_, ?_⟩
    · have := x3 rfl
      cases hk : a.id_ok with
      | true => rfl
      | false => simp [hk] at this
    · intro hc hs
      have := x4 (by
        cases content with
        | none => exact absurd rfl hc
        | some c => rfl) hs
      cases hk : a.content_ok with
      | true => rfl
      | false => simp [hk] at this

theorem link_block_ok (s : State) {bp : Ptr} (hb : bp ≠ 0) (cid : cid_t)
    (content : Option (List Nat)) (size : Nat) :
    link_block s bp cid content size { block_ok := true, id_ok := true, content_ok := true }
      = some (0, push_back (init_block s.heap bp (some cid) content size)
          (s.head cid.index) bp) := by
  have hneg : ¬ ((bp : Nat) : Int) < 0 := by omega
  have hinit : init_block_alloc s.heap bp (some cid) content size 1 1
      = some (0, init_block s.heap bp (some cid) content size) := by
    unfold init_block_alloc
    rw [if_neg hb, if_neg (by simp), if_neg (by simp)]
    cases content with
    | none => rfl
    | some c =>
      simp only
      by_cases hs : size ≠ 0
      · rw [if_pos hs, if_neg (by simp), if_neg (by simp)]
      · rw [if_neg hs]
  unfold link_block
  rw [if_neg hneg]
  simp only [if_true, hinit, show ¬ ((0 : Int) < 0) from by decide, if_false]

theorem insert_block_ok (s2 : State) (hb : s2.brk ≠ 0) (cid : cid_t)
    (content : Option (List Nat)) (size : Nat) :
    insert_block s2 cid content size { block_ok := true, id_ok := true, content_ok := true }
      = some (0, link_new s2 cid content size) := by
  have hl := link_block_ok { s2 with brk := s2.brk + 1 } hb cid content size
  unfold insert_block
  simp only [if_true, malloc, hl]
  rfl

/-- What `insert_block` yields when it yields something. -/
theorem insert_block_some {s2 : State} {cid : cid_t} {content : Option (List Nat)}
    {size : Nat} {a : Alloc} {r : Int × State}
    (hr : insert_block s2 cid content size a = some r) :
    r.1 = 0 ∧ a.block_ok = true ∧ a.id_ok = true
      ∧ (content ≠ none → size ≠ 0 → a.content_ok = true) := by
  unfold insert_block at hr
  cases hbk : a.block_ok with
  | false =>
    simp only [hbk, Bool.false_eq_true, if_false] at hr
    cases hl : link_block s2 0 cid content size a with
    | none => simp [hl] at hr
    | some x => exact absurd rfl (link_block_some hl).2.1
  | true =>
    simp only [hbk, if_true, malloc] at hr
    cases hl : link_block { s2 with brk := s2.brk + 1 } s2.brk cid content size a with
    | none => simp [hl] at hr
    | some x =>
      obtain ⟨x1, _, x3, x4⟩ := link_block_some hl
      simp only [hl, Option.some.injEq] at hr
      rw [← hr, x1]
      exact ⟨rfl, rfl, x3, x4⟩

/-- With allocations that succeed, `update_cache_alloc` is `update_cache`. -/
theorem update_cache_alloc_ok (cap : Int) (fuel : Nat) (s : State) (cid : cid_t)
    (content : Option (List Nat)) (size : Nat) (hbrk : 0 < s.brk) :
    update_cache_alloc cap fuel s cid content size
        { block_ok := true, id_ok := true, content_ok := true }
      = update_cache cap fuel s cid content size := by
  rw [update_cache_eq]
  unfold update_cache_alloc
  cases hp : P s.write_sem with
  | none => rfl
  | some w =>
    simp only [Option.some_bind]
    cases he : (if to_size_t (to_size_t s.total_size + size) > to_size_t cap
        then evict_to_fit cap fuel { s with write_sem := w } (to_int size)
        else some { s with write_sem := w }) with
    | none => rfl
    | some s2 =>
      have hb2 : s2.brk ≠ 0 := by
        have : s2.brk = s.brk := by
          by_cases hc : to_size_t (to_size_t s.total_size + size) > to_size_t cap
          · rw [if_pos hc] at he
            obtain ⟨m, _, hm, _⟩ := (evict_loop_eq_some cap (to_int size) fuel _ s2 0).mp he
            rw [hm, evict_run_brk]
          · rw [if_neg hc] at he
            simp only [Option.some.injEq] at he
            rw [← he]
        omega
      simp only [Option.some_bind]
      exact insert_block_ok s2 hb2 cid content size

/-- C28.  `update_cache` with an allocation that fails.  Whatever the cache,
the key and the object are: `update_cache` never returns `-1`, because its
tests compare the pointer that `malloc` returns with `< 0`, which does not hold
for `NULL`; when `malloc` fails for the block, `init_block` is called with
`NULL` and stores through it, and when `malloc` fails for the copy of the key
or of the content, `strncpy` or `memcpy` stores through `NULL`: in each of
these cases the call has no defined result.  With allocations that succeed the
call is the `update_cache` of the other properties. -/
theorem C28_allocation_failure_not_detected (cap : Int) (fuel : Nat) (s : State) (cid : cid_t)
    (content : Option (List Nat)) (size : Nat) (a : Alloc) :
    (∀ r, update_cache_alloc cap fuel s cid content size a = some r → r.1 = 0)
      ∧ (a.block_ok = false → update_cache_alloc cap fuel s cid content size a = none)
      ∧ (a.id_ok = false → update_cache_alloc cap fuel s cid content size a = none)
      ∧ (a.content_ok = false → content ≠ none → size ≠ 0 →
          update_cache_alloc cap fuel s cid content size a = none)
      ∧ (0 < s.brk → update_cache_alloc cap fuel s cid content size
            { block_ok := true, id_ok := true, content_ok := true }
          = update_cache cap fuel s cid content size) := by
  have key : ∀ r, update_cache_alloc cap fuel s cid content size a = some r →
      r.1 = 0 ∧ a.block_ok = true ∧ a.id_ok = true
        ∧ (content ≠ none → size ≠ 0 → a.content_ok = true) := by
    intro r hr
    unfold update_cache_alloc at hr
    cases hp : P s.write_sem with
    | none => simp [hp] at hr
    | some w =>
      simp only [hp] at hr
      cases he : (if to_size_t (to_size_t s.total_size + size) > to_size_t cap
          then evict_to_fit cap fuel { s with write_sem := w } (to_int size)
          else some { s with write_sem := w }) with
      | none => simp [he] at hr
      | some s2 =>
        simp only [he] at hr
        exact insert_block_some hr
  have none_of : (∀ r, update_cache_alloc cap fuel s cid content size a = some r → False) →
      update_cache_alloc cap fuel s cid content size a = none := by
    intro h
    cases hu : update_cache_alloc cap fuel s cid content size a with
    | none => rfl
    | some r => exact absurd hu (fun k => h r k)
  refine ⟨fun r hr => (key r hr).1, ?_, ?_, ?_,
    fun hb => update_cache_alloc_ok cap fuel s cid content size hb⟩
  · intro hb
    apply none_of
    intro r hr
    rw [(key r hr).2.1] at hb
    exact Bool.noConfusion hb
  · intro hb
    apply none_of
    intro r hr
    rw [(key r hr).2.2.1] at hb
    exact Bool.noConfusion hb
  · intro hb hc hs
    apply none_of
    intro r hr
    rw [(key r hr).2.2.2 hc hs] at hb
    exact Bool.noConfusion hb

/-! ## C29: the descriptors of a connection -/

theorem count_map_to_origin (l : List (List Nat)) (e : Event)
    (he : ∀ b, e ≠ Event.to_origin b) : (l.map Event.to_origin).count e = 0 := by
  rw [List.count_eq_zero]
  intro h
  obtain ⟨b, _, hb⟩ := List.mem_map.mp h
  exact he b hb.symm

theorem count_map_to_client (l : List (List Nat)) (e : Event)
    (he : ∀ b, e ≠ Event.to_client b) : (l.map Event.to_client).count e = 0 := by
  rw [List.count_eq_zero]
  intro h
  obtain ⟨b, _, hb⟩ := List.mem_map.mp h
  exact he b hb.symm

theorem count_sent (o : Option (List Nat)) (e : Event) (he : ∀ b, e ≠ Event.to_client b) :
    ((o.map Event.to_client).toList).count e = 0 := by
  cases o with
  | none => rfl
  | some b =>
    rw [List.count_eq_zero]
    intro h
    simp only [Option.map_some', Option.toList_some, List.mem_singleton] at h
    exact he b h

theorem count_inserted (o : Option (List Nat × Nat)) (cid : cid_t) (e : Event)
    (he : ∀ a b, e ≠ Event.insert cid a b) :
    ((o.map (fun a => Event.insert cid a.1 a.2)).toList).count e = 0 := by
  cases o with
  | none => rfl
  | some b =>
    rw [List.count_eq_zero]
    intro h
    simp only [Option.map_some', Option.toList_some, List.mem_singleton] at h
    exact he _ _ h

/-- The events of `thread_job`, path by path: how often the client descriptor
and the descriptor of the origin are closed, and whether a connection to the
origin was opened. -/
theorem thread_job_descriptors (cap : Int) (fuel : Nat) (c : Conn) (s : State)
    (x : List Event × State) (hx : thread_job cap fuel c s = some x) :
    x.1.count Event.close_client = 1
      ∧ ((forward c).rc < 0 → x.1.count Event.close_origin = 0)
      ∧ (¬ (read_parse_request_line c.client).1 < 0 →
          strcmp (bytes "GET") (parsed c).method = 0 →
          (∃ lk, try_from_cache fuel s (c.wr_client 0) (request_key c) = some lk ∧ lk.rc = 0) →
          ((forward c).opened = true →
            x.1.count (Event.open_origin (parsed c).host (parsed c).port) = 1)
          ∧ (¬ (forward c).rc < 0 →
              x.1.count Event.close_origin = 1 ∧ (forward c).opened = true)) := by
  have n1 : ∀ b, Event.close_client ≠ Event.to_origin b := fun b h => Event.noConfusion h
  have n2 : ∀ b, Event.close_client ≠ Event.to_client b := fun b h => Event.noConfusion h
  have n3 : ∀ k a b, Event.close_client ≠ Event.insert k a b := fun k a b h => Event.noConfusion h
  have m1 : ∀ b, Event.close_origin ≠ Event.to_origin b := fun b h => Event.noConfusion h
  have m2 : ∀ b, Event.close_origin ≠ Event.to_client b := fun b h => Event.noConfusion h
  have m3 : ∀ k a b, Event.close_origin ≠ Event.insert k a b := fun k a b h => Event.noConfusion h
  have o1 : ∀ h p b, Event.open_origin h p ≠ Event.to_origin b := fun _ _ b h => Event.noConfusion h
  have o2 : ∀ h p b, Event.open_origin h p ≠ Event.to_client b := fun _ _ b h => Event.noConfusion h
  have o3 : ∀ h p k a b, Event.open_origin h p ≠ Event.insert k a b :=
    fun _ _ k a b h => Event.noConfusion h
  simp only [thread_job] at hx
  by_cases h1 : (read_parse_request_line c.client).1 < 0
  · rw [if_pos h1] at hx
    simp only [Option.some.injEq] at hx
    subst hx
    exact ⟨rfl, fun _ => rfl, fun k => absurd h1 k⟩
  rw [if_neg h1] at hx
  by_cases h2 : strcmp (bytes "GET") (read_parse_request_line c.client).2.1.method ≠ 0
  · rw [if_pos h2] at hx
    simp only [Option.some.injEq] at hx
    subst hx
    exact ⟨rfl, fun _ => rfl, fun _ k => absurd k h2⟩
  rw [if_neg h2] at hx
  cases hlk : try_from_cache fuel s (c.wr_client 0)
      (gen_cid (read_parse_request_line c.client).2.1.host
        (read_parse_request_line c.client).2.1.port
        (read_parse_request_line c.client).2.1.path) with
  | none => simp [hlk] at hx
  | some lk =>
    simp only [hlk] at hx
    have hmiss : ∀ lk2, try_from_cache fuel s (c.wr_client 0) (request_key c) = some lk2 →
        lk2 = lk := by
      intro lk2 h
      have h' : try_from_cache fuel s (c.wr_client 0)
          (gen_cid (read_parse_request_line c.client).2.1.host
            (read_parse_request_line c.client).2.1.port
            (read_parse_request_line c.client).2.1.path) = some lk2 := h
      rw [hlk] at h'
      exact (Option.some.inj h').symm
    by_cases h3 : lk.rc = -1
    · rw [if_pos h3] at hx
      simp only [Option.some.injEq] at hx
      subst hx
      have h31 : ¬ lk.rc = 1 := by rw [h3]; decide
      refine ⟨by simp [h31], fun _ => by simp [h31], ?_⟩
      rintro _ _ ⟨lk2, e1, e2⟩
      rw [hmiss lk2 e1, h3] at e2
      exact absurd e2 (by decide)
    rw [if_neg h3] at hx
    by_cases h4 : lk.rc = 0
    · rw [if_pos h4] at hx
      have h41 : ¬ lk.rc = 1 := by rw [h4]; decide
      by_cases h5 : (client2server c.wr_origin c.serverfd (read_parse_request_line c.client).2.1
          (read_parse_request_line c.client).2.2).rc < 0
      · rw [if_pos h5] at hx
        simp only [Option.some.injEq] at hx
        subst hx
        refine ⟨?_, fun _ => ?_, fun _ _ _ => ⟨fun ho => ?_, fun k => absurd h5 k⟩⟩
        · simp only [h41, if_false, List.cons_append, List.nil_append, List.count_cons,
            List.count_append, count_map_to_origin _ _ n1, List.count_nil]
          split <;> simp
        · simp only [h41, if_false, List.cons_append, List.nil_append, List.count_cons,
            List.count_append, count_map_to_origin _ _ m1, List.count_nil]
          split <;> simp
        · have ho2 : (client2server c.wr_origin c.serverfd
              (read_parse_request_line c.client).2.1
              (read_parse_request_line c.client).2.2).opened = true := ho
          simp only [h41, if_false, ho2, if_true, List.cons_append, List.nil_append,
            List.count_cons, List.count_append, count_map_to_origin _ _ (o1 _ _),
            List.count_nil, parsed]
          simp
      · rw [if_neg h5] at hx
        cases hs : server2client cap fuel lk.st c.wr_client c.origin c.nleft0 init_web_object
            (gen_cid (read_parse_request_line c.client).2.1.host
              (read_parse_request_line c.client).2.1.port
              (read_parse_request_line c.client).2.1.path) with
        | none => simp [hs] at hx
        | some r =>
          simp only [hs, Option.some.injEq] at hx
          subst hx
          have hop : (client2server c.wr_origin c.serverfd
              (read_parse_request_line c.client).2.1
              (read_parse_request_line c.client).2.2).opened = true := by
            have hok : 0 ≤ (client2server c.wr_origin c.serverfd
                (read_parse_request_line c.client).2.1
                (read_parse_request_line c.client).2.2).rc := by omega
            obtain ⟨hfd, e⟩ := client2server_eq_loop _ _ _ _ hok
            have hne : (client2server c.wr_origin c.serverfd
                (read_parse_request_line c.client).2.1
                (read_parse_request_line c.client).2.2).rc ≠ -1 := by omega
            rw [e] at hne
            obtain ⟨_, _, _, _, _, _, e4⟩ := client2server_loop_ok _ _ _ _ _ _ _ hne
            rw [e, e4]
          refine ⟨?_, fun k => absurd k h5, fun _ _ _ => ⟨fun _ => ?_, fun _ => ?_⟩⟩
          · simp only [h41, if_false, hop, if_true, List.cons_append, List.nil_append,
              List.count_cons, List.count_append, count_map_to_origin _ _ n1,
              count_map_to_client _ _ n2, count_inserted _ _ _ (n3 _), List.count_nil]
            simp
          · simp only [h41, if_false, hop, if_true, List.cons_append, List.nil_append,
              List.count_cons, List.count_append, count_map_to_origin _ _ (o1 _ _),
              count_map_to_client _ _ (o2 _ _), count_inserted _ _ _ (o3 _ _ _),
              List.count_nil, parsed]
            simp
          · refine ⟨?_, hop⟩
            simp only [h41, if_false, hop, if_true, List.cons_append, List.nil_append,
              List.count_cons, List.count_append, count_map_to_origin _ _ m1,
              count_map_to_client _ _ m2, count_inserted _ _ _ (m3 _), List.count_nil]
            simp
    · rw [if_neg h4] at hx
      simp only [Option.some.injEq] at hx
      subst hx
      refine ⟨?_, fun _ => ?_, ?_⟩
      · simp only [List.cons_append, List.count_cons, List.count_append]
        split
        · simp [count_sent _ _ n2]
        · simp
      · simp only [List.cons_append, List.count_cons, List.count_append]
        split
        · simp [count_sent _ _ m2]
        · simp
      · rintro _ _ ⟨lk2, e1, e2⟩
        rw [hmiss lk2 e1] at e2
        exact absurd e2 h4

/-- C29.  For every execution of `thread_job` that ends, the client descriptor
is closed exactly once.  When the request is a `GET`, the lookup misses and
`client2server` succeeds, the connection to the origin is opened once and
closed once.  When `client2server` fails after it has opened the connection to
the origin, the connection is opened once and never closed: `client2server`
returns `-1` without closing it, and `thread_job` closes the client descriptor
only. -/
theorem C29_origin_left_open_when_forwarding_fails (cap : Int) (fuel : Nat) (c : Conn)
    (s : State) (x : List Event × State) (hx : thread_job cap fuel c s = some x) :
    x.1.count Event.close_client = 1
      ∧ (¬ (read_parse_request_line c.client).1 < 0 →
          strcmp (bytes "GET") (parsed c).method = 0 →
          (∃ lk, try_from_cache fuel s (c.wr_client 0) (request_key c) = some lk ∧ lk.rc = 0) →
          (¬ (forward c).rc < 0 →
            x.1.count (Event.open_origin (parsed c).host (parsed c).port) = 1
            ∧ x.1.count Event.close_origin = 1)
          ∧ ((forward c).rc < 0 → (forward c).opened = true →
            x.1.count (Event.open_origin (parsed c).host (parsed c).port) = 1
            ∧ x.1.count Event.close_origin = 0)) := by
  obtain ⟨a1, a2, a3⟩ := thread_job_descriptors cap fuel c s x hx
  refine ⟨a1, fun h1 h2 h3 => ⟨fun h4 => ?_, fun h4 h5 => ?_⟩⟩
  · obtain ⟨b1, b2⟩ := a3 h1 h2 h3
    exact ⟨b1 (b2 h4).2, (b2 h4).1⟩
  · exact ⟨(a3 h1 h2 h3).1 h5, a2 h4⟩

/-- C29, witness: a `GET` request on the empty cache whose client ends the
stream after the request line.  `client2server` has opened the connection to
the origin and written its four lines when it fails; the thread closes the
client descriptor, and the descriptor of the origin stays open. -/
theorem C29_origin_left_open_when_forwarding_fails_witness :
    (forward hangup_conn).opened = true ∧ (forward hangup_conn).rc = -1
      ∧ ∃ ev, thread_job MAX_CACHE_SIZE 1 hangup_conn empty_cache = some (ev, empty_cache)
        ∧ ev.count Event.close_client = 1
        ∧ ev.count (Event.open_origin (parsed hangup_conn).host (parsed hangup_conn).port) = 1
        ∧ ev.count Event.close_origin = 0 := by
  have hidx : (request_key hangup_conn).index < HASHSIZE := gen_cid_index_lt _ _ _
  have hmiss := try_from_cache_miss empty_cache_good.rep empty_cache_good.quiet
    (request_key hangup_conn) hidx (fun p hp => absurd hp (List.not_mem_nil p)) Nat.zero_lt_one
    (hangup_conn.wr_client 0)
  obtain ⟨ev, h⟩ := thread_job_keeps_cache MAX_CACHE_SIZE 1 hangup_conn empty_cache (fun _ => [])
    empty_cache_good (Or.inr ⟨by decide, by decide, _, hmiss, rfl, Or.inl (by decide)⟩)
  obtain ⟨a1, a2⟩ := C29_origin_left_open_when_forwarding_fails MAX_CACHE_SIZE 1 hangup_conn
    empty_cache (ev, empty_cache) h
  obtain ⟨b1, b2⟩ := (a2 (by decide) (by decide) ⟨_, hmiss, rfl⟩).2 (by decide) (by decide)
  exact ⟨by decide, by decide, ev, h, a1, b1, b2⟩

/-! ## C30: readers and writers -/

theorem countP_set (q : Pc → Bool) :
    ∀ (l : List Pc) (i : Nat) (old new : Pc), l[i]? = some old →
      (l.set i new).countP q + (if q old = true then 1 else 0)
        = l.countP q + (if q new = true then 1 else 0) := by
  intro l
  induction l with
  | nil =>
    intro i old new h
    simp at h
  | cons a t ih =>
    intro i old new h
    cases i with
    | zero =>
      simp only [List.getElem?_cons_zero, Option.some.injEq] at h
      subst h
      simp only [List.set_cons_zero, List.countP_cons]
      omega
    | succ i =>
      simp only [List.getElem?_cons_succ] at h
      have := ih i old new h
      simp only [List.set_cons_succ, List.countP_cons]
      omega

theorem countP_pos_of_get (q : Pc → Bool) :
    ∀ (l : List Pc) (i : Nat) (pc : Pc), l[i]? = some pc → q pc = true → 0 < l.countP q := by
  intro l i pc h hq
  rw [List.countP_pos_iff]
  exact ⟨pc, List.getElem?_mem h, hq⟩

/-- The calls behind the test of the entry protocol and before the test of the
exit protocol, counted in two ways. -/
theorem countP_passed (l : List Pc) :
    l.countP Pc.passed + l.count Pc.r_first = l.countP Pc.counted + l.count Pc.r_last := by
  induction l with
  | nil => rfl
  | cons a t ih =>
    simp only [List.countP_cons, List.count_cons]
    cases a <;> simp [Pc.passed, Pc.counted] <;> omega

theorem count_le_in_mutex (l : List Pc) :
    l.count Pc.r_first + l.count Pc.r_last ≤ l.countP Pc.in_mutex := by
  induction l with
  | nil => simp
  | cons a t ih =>
    simp only [List.countP_cons, List.count_cons]
    cases a <;> simp [Pc.in_mutex] <;> omega

theorem countP_reading_le (l : List Pc) : l.countP Pc.reading ≤ l.countP Pc.passed := by
  induction l with
  | nil => simp
  | cons a t ih =>
    simp only [List.countP_cons]
    cases a <;> simp [Pc.reading, Pc.passed] <;> omega

theorem count_pos_of_get (l : List Pc) (i : Nat) (pc : Pc) (h : l[i]? = some pc) :
    0 < l.count pc := by
  rw [List.count_pos_iff]
  exact List.getElem?_mem h

theorem countP_old_le (q : Pc → Bool) (l : List Pc) (i : Nat) (old : Pc)
    (h : l[i]? = some old) : (if q old = true then 1 else 0) ≤ l.countP q := by
  by_cases hq : q old = true
  · rw [if_pos hq]
    exact countP_pos_of_get q l i old h hq
  · rw [if_neg hq]
    exact Nat.zero_le _

theorem countP_set_eq (q : Pc → Bool) (l : List Pc) (i : Nat) (old new : Pc)
    (h : l[i]? = some old) :
    (l.set i new).countP q
      = l.countP q + (if q new = true then 1 else 0) - (if q old = true then 1 else 0) := by
  have := countP_set q l i old new h
  omega

/-- A step keeps the protocol. -/
theorem advance_protocol {σ σ2 : Sys} {i : Nat} (hp : Protocol σ)
    (h : advance σ i = some σ2) : Protocol σ2 := by
  obtain ⟨hm, hr, hg⟩ := hp
  unfold advance at h
  cases hpc : σ.pcs[i]? with
  | none => simp [hpc] at h
  | some pc =>
    have a1 := countP_passed σ.pcs
    have a2 := count_le_in_mutex σ.pcs
    have a3 := count_pos_of_get σ.pcs i pc hpc
    have s1 := fun new => countP_set Pc.in_mutex σ.pcs i pc new hpc
    have s2 := fun new => countP_set Pc.counted σ.pcs i pc new hpc
    have s3 := fun new => countP_set Pc.writing σ.pcs i pc new hpc
    have s4 := fun new => countP_set Pc.passed σ.pcs i pc new hpc
    cases pc with
    | r_lock_in =>
      simp only [hpc] at h
      unfold P at h
      split at h
      · simp at h
      · simp only [Option.map_some', Option.some.injEq] at h
        subst h
        have c1 := s1 Pc.r_inc
        have c2 := s2 Pc.r_inc
        have c3 := s3 Pc.r_inc
        have c4 := s4 Pc.r_inc
        simp [Pc.in_mutex] at c1
        simp [Pc.counted] at c2
        simp [Pc.writing] at c3
        simp [Pc.passed] at c4
        refine ⟨?_, ?_, ?_⟩
        · dsimp only [V]
          omega
        · dsimp only [V]
          omega
        · dsimp only [V]
          split_ifs at hg ⊢ <;> omega
    | r_inc =>
      simp only [hpc, Option.some.injEq] at h
      subst h
      have c1 := s1 Pc.r_first
      have c2 := s2 Pc.r_first
      have c3 := s3 Pc.r_first
      have c4 := s4 Pc.r_first
      simp [Pc.in_mutex] at c1
      simp [Pc.counted] at c2
      simp [Pc.writing] at c3
      simp [Pc.passed] at c4
      refine ⟨?_, ?_, ?_⟩
      · dsimp only [V]
        omega
      · dsimp only [V]
        omega
      · dsimp only [V]
        split_ifs at hg ⊢ <;> omega
    | r_first =>
      simp only [hpc] at h
      split at h
      · unfold P at h
        split at h
        · simp at h
        · simp only [Option.map_some', Option.some.injEq] at h
          subst h
          have c1 := s1 Pc.r_unlock_in
          have c2 := s2 Pc.r_unlock_in
          have c3 := s3 Pc.r_unlock_in
          have c4 := s4 Pc.r_unlock_in
          simp [Pc.in_mutex] at c1
          simp [Pc.counted] at c2
          simp [Pc.writing] at c3
          simp [Pc.passed] at c4
          refine ⟨?_, ?_, ?_⟩
          · dsimp only [V]
            omega
          · dsimp only [V]
            omega
          · dsimp only [V]
            split_ifs at hg ⊢ <;> omega
      · simp only [Option.some.injEq] at h
        subst h
        have c1 := s1 Pc.r_unlock_in
        have c2 := s2 Pc.r_unlock_in
        have c3 := s3 Pc.r_unlock_in
        have c4 := s4 Pc.r_unlock_in
        simp [Pc.in_mutex] at c1
        simp [Pc.counted] at c2
        simp [Pc.writing] at c3
        simp [Pc.passed] at c4
        refine ⟨?_, ?_, ?_⟩
        · dsimp only [V]
          omega
        · dsimp only [V]
          omega
        · dsimp only [V]
          split_ifs at hg ⊢ <;> omega
    | r_unlock_in =>
      simp only [hpc, Option.some.injEq] at h
      subst h
      have c1 := s1 Pc.r_list_lock
      have c2 := s2 Pc.r_list_lock
      have c3 := s3 Pc.r_list_lock
      have c4 := s4 Pc.r_list_lock
      simp [Pc.in_mutex] at c1
      simp [Pc.counted] at c2
      simp [Pc.writing] at c3
      simp [Pc.passed] at c4
      refine ⟨?_, ?_, ?_⟩
      · dsimp only [V]
        omega
      · dsimp only [V]
        omega
      · dsimp only [V]
        split_ifs at hg ⊢ <;> omega
    | r_list_lock =>
      simp only [hpc] at h
      unfold P at h
      split at h
      · simp at h
      · simp only [Option.map_some', Option.some.injEq] at h
        subst h
        have c1 := s1 Pc.r_scan
        have c2 := s2 Pc.r_scan
        have c3 := s3 Pc.r_scan
        have c4 := s4 Pc.r_scan
        simp [Pc.in_mutex] at c1
        simp [Pc.counted] at c2
        simp [Pc.writing] at c3
        simp [Pc.passed] at c4
        refine ⟨?_, ?_, ?_⟩
        · dsimp only [V]
          omega
        · dsimp only [V]
          omega
        · dsimp only [V]
          split_ifs at hg ⊢ <;> omega
    | r_scan =>
      simp only [hpc, Option.some.injEq] at h
      subst h
      have c1 := s1 Pc.r_list_unlock
      have c2 := s2 Pc.r_list_unlock
      have c3 := s3 Pc.r_list_unlock
      have c4 := s4 Pc.r_list_unlock
      simp [Pc.in_mutex] at c1
      simp [Pc.counted] at c2
      simp [Pc.writing] at c3
      simp [Pc.passed] at c4
      refine ⟨?_, ?_, ?_⟩
      · dsimp only [V]
        omega
      · dsimp only [V]
        omega
      · dsimp only [V]
        split_ifs at hg ⊢ <;> omega
    | r_list_unlock =>
      simp only [hpc, Option.some.injEq] at h
      subst h
      have c1 := s1 Pc.r_write
      have c2 := s2 Pc.r_write
      have c3 := s3 Pc.r_write
      have c4 := s4 Pc.r_write
      simp [Pc.in_mutex] at c1
      simp [Pc.counted] at c2
      simp [Pc.writing] at c3
      simp [Pc.passed] at c4
      refine ⟨?_, ?_, ?_⟩
      · dsimp only [V]
        omega
      · dsimp only [V]
        omega
      · dsimp only [V]
        split_ifs at hg ⊢ <;> omega
    | r_write =>
      simp only [hpc, Option.some.injEq] at h
      subst h
      have c1 := s1 Pc.r_lock_out
      have c2 := s2 Pc.r_lock_out
      have c3 := s3 Pc.r_lock_out
      have c4 := s4 Pc.r_lock_out
      simp [Pc.in_mutex] at c1
      simp [Pc.counted] at c2
      simp [Pc.writing] at c3
      simp [Pc.passed] at c4
      refine ⟨?_, ?_, ?_⟩
      · dsimp only [V]
        omega
      · dsimp only [V]
        omega
      · dsimp only [V]
        split_ifs at hg ⊢ <;> omega
    | r_lock_out =>
      simp only [hpc] at h
      unfold P at h
      split at h
      · simp at h
      · simp only [Option.map_some', Option.some.injEq] at h
        subst h
        have c1 := s1 Pc.r_dec
        have c2 := s2 Pc.r_dec
        have c3 := s3 Pc.r_dec
        have c4 := s4 Pc.r_dec
        simp [Pc.in_mutex] at c1
        simp [Pc.counted] at c2
        simp [Pc.writing] at c3
        simp [Pc.passed] at c4
        refine ⟨?_, ?_, ?_⟩
        · dsimp only [V]
          omega
        · dsimp only [V]
          omega
        · dsimp only [V]
          split_ifs at hg ⊢ <;> omega
    | r_dec =>
      simp only [hpc, Option.some.injEq] at h
      subst h
      have c1 := s1 Pc.r_last
      have c2 := s2 Pc.r_last
      have c3 := s3 Pc.r_last
      have c4 := s4 Pc.r_last
      simp [Pc.in_mutex] at c1
      simp [Pc.counted] at c2
      simp [Pc.writing] at c3
      simp [Pc.passed] at c4
      refine ⟨?_, ?_, ?_⟩
      · dsimp only [V]
        omega
      · dsimp only [V]
        omega
      · dsimp only [V]
        split_ifs at hg ⊢ <;> omega
    | r_last =>
      simp only [hpc] at h
      split at h
      · simp only [Option.some.injEq] at h
        subst h
        have c1 := s1 Pc.r_unlock_out
        have c2 := s2 Pc.r_unlock_out
        have c3 := s3 Pc.r_unlock_out
        have c4 := s4 Pc.r_unlock_out
        simp [Pc.in_mutex] at c1
        simp [Pc.counted] at c2
        simp [Pc.writing] at c3
        simp [Pc.passed] at c4
        refine ⟨?_, ?_, ?_⟩
        · dsimp only [V]
          omega
        · dsimp only [V]
          omega
        · dsimp only [V]
          split_ifs at hg ⊢ <;> omega
      · simp only [Option.some.injEq] at h
        subst h
        have c1 := s1 Pc.r_unlock_out
        have c2 := s2 Pc.r_unlock_out
        have c3 := s3 Pc.r_unlock_out
        have c4 := s4 Pc.r_unlock_out
        simp [Pc.in_mutex] at c1
        simp [Pc.counted] at c2
        simp [Pc.writing] at c3
        simp [Pc.passed] at c4
        refine ⟨?_, ?_, ?_⟩
        · dsimp only [V]
          omega
        · dsimp only [V]
          omega
        · dsimp only [V]
          split_ifs at hg ⊢ <;> omega
    | r_unlock_out =>
      simp only [hpc, Option.some.injEq] at h
      subst h
      have c1 := s1 Pc.done
      have c2 := s2 Pc.done
      have c3 := s3 Pc.done
      have c4 := s4 Pc.done
      simp [Pc.in_mutex] at c1
      simp [Pc.counted] at c2
      simp [Pc.writing] at c3
      simp [Pc.passed] at c4
      refine ⟨?_, ?_, ?_⟩
      · dsimp only [V]
        omega
      · dsimp only [V]
        omega
      · dsimp only [V]
        split_ifs at hg ⊢ <;> omega
    | w_lock =>
      simp only [hpc] at h
      unfold P at h
      split at h
      · simp at h
      · simp only [Option.map_some', Option.some.injEq] at h
        subst h
        have c1 := s1 Pc.w_insert
        have c2 := s2 Pc.w_insert
        have c3 := s3 Pc.w_insert
        have c4 := s4 Pc.w_insert
        simp [Pc.in_mutex] at c1
        simp [Pc.counted] at c2
        simp [Pc.writing] at c3
        simp [Pc.passed] at c4
        refine ⟨?_, ?_, ?_⟩
        · dsimp only [V]
          omega
        · dsimp only [V]
          omega
        · dsimp only [V]
          split_ifs at hg ⊢ <;> omega
    | w_insert =>
      simp only [hpc, Option.some.injEq] at h
      subst h
      have c1 := s1 Pc.w_unlock
      have c2 := s2 Pc.w_unlock
      have c3 := s3 Pc.w_unlock
      have c4 := s4 Pc.w_unlock
      simp [Pc.in_mutex] at c1
      simp [Pc.counted] at c2
      simp [Pc.writing] at c3
      simp [Pc.passed] at c4
      refine ⟨?_, ?_, ?_⟩
      · dsimp only [V]
        omega
      · dsimp only [V]
        omega
      · dsimp only [V]
        split_ifs at hg ⊢ <;> omega
    | w_unlock =>
      simp only [hpc, Option.some.injEq] at h
      subst h
      have c1 := s1 Pc.done
      have c2 := s2 Pc.done
      have c3 := s3 Pc.done
      have c4 := s4 Pc.done
      simp [Pc.in_mutex] at c1
      simp [Pc.counted] at c2
      simp [Pc.writing] at c3
      simp [Pc.passed] at c4
      refine ⟨?_, ?_, ?_⟩
      · dsimp only [V]
        omega
      · dsimp only [V]
        omega
      · dsimp only [V]
        split_ifs at hg ⊢ <;> omega
    | done => simp [hpc] at h
theorem interleave_protocol :
    ∀ (sched : List Nat) (σ σ2 : Sys), Protocol σ → interleave σ sched = some σ2 →
      Protocol σ2 := by
  intro sched
  induction sched with
  | nil =>
    intro σ σ2 hp h
    simp only [interleave, Option.some.injEq] at h
    rw [← h]
    exact hp
  | cons i sched ih =>
    intro σ σ2 hp h
    simp only [interleave] at h
    cases ha : advance σ i with
    | none => simp [ha] at h
    | some σ1 =>
      simp only [ha, Option.some_bind] at h
      exact ih σ1 σ2 (advance_protocol hp ha) h

theorem countP_entry (q : Pc → Bool) (h1 : q Pc.r_lock_in = false) (h2 : q Pc.w_lock = false)
    (calls : List Call) : (calls.map Call.entry).countP q = 0 := by
  induction calls with
  | nil => rfl
  | cons c t ih =>
    cases c <;> simp [Call.entry, List.countP_cons, ih, h1, h2]

/-- The protocol holds when the calls begin on a cache on which no operation
is in progress. -/
theorem start_protocol {s : State} (hq : Quiescent s) (calls : List Call) :
    Protocol (start s calls) := by
  refine ⟨?_, ?_, ?_⟩
  · show s.rcnt_mutex + (calls.map Call.entry).countP Pc.in_mutex = 1
    rw [countP_entry _ rfl rfl, hq.rcnt_mutex]
  · show s.readcnt = (((calls.map Call.entry).countP Pc.counted : Nat) : Int)
    rw [countP_entry _ rfl rfl, hq.readcnt]
    rfl
  · show s.write_sem + (calls.map Call.entry).countP Pc.writing
      + (if 0 < (calls.map Call.entry).countP Pc.passed then 1 else 0) = 1
    rw [countP_entry _ rfl rfl, countP_entry _ rfl rfl, hq.write_sem]
    rfl

/-- What the protocol gives: at most one call is inside the critical section of
`update_cache`, and while one is, no call of `try_from_cache` has passed. -/
theorem Protocol.exclusion {σ : Sys} (hp : Protocol σ) :
    σ.pcs.countP Pc.writing ≤ 1
      ∧ (0 < σ.pcs.countP Pc.writing → σ.pcs.countP Pc.reading = 0) := by
  have hg := hp.gate
  have hle := countP_reading_le σ.pcs
  constructor
  · omega
  · intro hw
    split_ifs at hg <;> omega

theorem getElem_mid (x : Pc) (B : List Pc) : ∀ A : List Pc, (A ++ x :: B)[A.length]? = some x := by
  intro A
  induction A with
  | nil => simp
  | cons a t ih => simpa using ih

theorem set_mid (x y : Pc) (B : List Pc) :
    ∀ A : List Pc, (A ++ x :: B).set A.length y = A ++ y :: B := by
  intro A
  induction A with
  | nil => rfl
  | cons a t ih =>
    simp only [List.cons_append, List.length_cons, List.set_cons_succ, ih]

theorem interleave_append :
    ∀ (s1 s2 : List Nat) (σ : Sys),
      interleave σ (s1 ++ s2) = (interleave σ s1).bind (fun σ2 => interleave σ2 s2) := by
  intro s1
  induction s1 with
  | nil =>
    intro s2 σ
    rfl
  | cons i t ih =>
    intro s2 σ
    simp only [List.cons_append, interleave]
    cases advance σ i with
    | none => rfl
    | some σ1 =>
      simp only [Option.some_bind]
      exact ih s2 σ1

/-- A call of `try_from_cache` runs its entry protocol while `A.length` other
calls are between their protocols. -/
theorem reader_enters (lm : Nat → Nat) (bk : List Nat) (A B : List Pc) :
    interleave (Sys.mk (A.length : Int) 1 (if A.length = 0 then 1 else 0) lm
        (A ++ Pc.r_lock_in :: B) bk) [A.length, A.length, A.length, A.length]
      = some (Sys.mk ((A.length + 1 : Nat) : Int) 1 (if A.length + 1 = 0 then 1 else 0) lm
          (A ++ Pc.r_list_lock :: B) bk) := by
  have g1 := getElem_mid Pc.r_lock_in B A
  have g2 := getElem_mid Pc.r_inc B A
  have g3 := getElem_mid Pc.r_first B A
  have g4 := getElem_mid Pc.r_unlock_in B A
  have t1 := set_mid Pc.r_lock_in Pc.r_inc B A
  have t2 := set_mid Pc.r_inc Pc.r_first B A
  have t3 := set_mid Pc.r_first Pc.r_unlock_in B A
  have t4 := set_mid Pc.r_unlock_in Pc.r_list_lock B A
  have a1 : advance (Sys.mk (A.length : Int) 1 (if A.length = 0 then 1 else 0) lm
        (A ++ Pc.r_lock_in :: B) bk) A.length
      = some (Sys.mk (A.length : Int) 0 (if A.length = 0 then 1 else 0) lm
          (A ++ Pc.r_inc :: B) bk) := by
    simp only [advance, g1, t1, P]
    rfl
  have a2 : advance (Sys.mk (A.length : Int) 0 (if A.length = 0 then 1 else 0) lm
        (A ++ Pc.r_inc :: B) bk) A.length
      = some (Sys.mk ((A.length : Int) + 1) 0 (if A.length = 0 then 1 else 0) lm
          (A ++ Pc.r_first :: B) bk) := by
    simp only [advance, g2, t2]
  have a3 : advance (Sys.mk ((A.length : Int) + 1) 0 (if A.length = 0 then 1 else 0) lm
        (A ++ Pc.r_first :: B) bk) A.length
      = some (Sys.mk ((A.length : Int) + 1) 0 0 lm (A ++ Pc.r_unlock_in :: B) bk) := by
    simp only [advance, g3, t3]
    by_cases h0 : A.length = 0
    · simp [h0, P]
    · have : ¬ ((A.length : Int) + 1 = 1) := by omega
      simp [h0, this]
  have a4 : advance (Sys.mk ((A.length : Int) + 1) 0 0 lm (A ++ Pc.r_unlock_in :: B) bk)
        A.length
      = some (Sys.mk ((A.length + 1 : Nat) : Int) 1 (if A.length + 1 = 0 then 1 else 0) lm
          (A ++ Pc.r_list_lock :: B) bk) := by
    simp only [advance, g4, t4, V]
    simp
  simp only [interleave, a1, a2, a3, a4, Option.some_bind]

/-- Any number of calls of `try_from_cache` can be between their protocols
together. -/
theorem readers_enter (lm : Nat → Nat) (bk : List Nat) :
    ∀ (m k : Nat), ∃ sched,
      interleave (Sys.mk (k : Int) 1 (if k = 0 then 1 else 0) lm
          (List.replicate k Pc.r_list_lock ++ List.replicate m Pc.r_lock_in) bk) sched
        = some (Sys.mk ((k + m : Nat) : Int) 1 (if k + m = 0 then 1 else 0) lm
            (List.replicate (k + m) Pc.r_list_lock) bk) := by
  intro m
  induction m with
  | zero =>
    intro k
    exact ⟨[], by simp [interleave]⟩
  | succ m ih =>
    intro k
    obtain ⟨sched, hs⟩ := ih (k + 1)
    have h4 := reader_enters lm bk (List.replicate k Pc.r_list_lock)
      (List.replicate m Pc.r_lock_in)
    simp only [List.length_replicate] at h4
    have e1 : List.replicate k Pc.r_list_lock ++ Pc.r_list_lock :: List.replicate m Pc.r_lock_in
        = List.replicate (k + 1) Pc.r_list_lock ++ List.replicate m Pc.r_lock_in := by
      rw [List.replicate_succ', List.append_assoc]
      rfl
    rw [e1] at h4
    refine ⟨[k, k, k, k] ++ sched, ?_⟩
    rw [interleave_append, List.replicate_succ, h4, Option.some_bind, hs]
    have e2 : k + 1 + m = k + (m + 1) := by omega
    rw [e2]

/-- C30.  Calls of `try_from_cache` and `update_cache` begin on a cache on which
no operation is in progress, and run interleaved in any way, statement by
statement.  In every state that can be reached, at most one call is inside the
critical section of `update_cache` (between its `P` and its `V` on `write_sem`,
where the eviction and the insertion are), and while a call is inside it, no
call of `try_from_cache` is between its entry protocol and its exit protocol.
Any number `n` of calls of `try_from_cache` can be between their protocols
together; and a call of `update_cache` can enter its critical section. -/
theorem C30_one_writer_or_many_readers :
    (∀ (s : State) (calls : List Call) (sched : List Nat) (σ : Sys), Quiescent s →
        interleave (start s calls) sched = some σ →
        σ.pcs.countP Pc.writing ≤ 1
          ∧ (0 < σ.pcs.countP Pc.writing → σ.pcs.countP Pc.reading = 0))
      ∧ (∀ (s : State) (n b : Nat), Quiescent s →
          ∃ sched σ, interleave (start s (List.replicate n (Call.lookup b))) sched = some σ
            ∧ σ.pcs.countP Pc.reading = n)
      ∧ (∀ (s : State) (b : Nat), Quiescent s →
          ∃ sched σ, interleave (start s [Call.insert, Call.lookup b]) sched = some σ
            ∧ σ.pcs.countP Pc.writing = 1) := by
  refine ⟨?_, ?_, ?_⟩
  · intro s calls sched σ hq h
    exact (interleave_protocol sched _ σ (start_protocol hq calls) h).exclusion
  · intro s n b hq
    obtain ⟨sched, hs⟩ := readers_enter s.list_mutex (List.replicate n b) n 0
    have hst : start s (List.replicate n (Call.lookup b))
        = Sys.mk ((0 : Nat) : Int) 1 (if 0 = 0 then 1 else 0) s.list_mutex
            (List.replicate 0 Pc.r_list_lock ++ List.replicate n Pc.r_lock_in)
            (List.replicate n b) := by
      simp [start, hq.readcnt, hq.rcnt_mutex, hq.write_sem, Call.entry, Call.bucket]
    refine ⟨sched, _, by rw [hst]; exact hs, ?_⟩
    simp [List.countP_replicate, Pc.reading]
  · intro s b hq
    refine ⟨[0], Sys.mk s.readcnt s.rcnt_mutex 0 s.list_mutex [Pc.w_insert, Pc.r_lock_in]
      [0, b], ?_, rfl⟩
    simp [interleave, advance, start, Call.entry, Call.bucket, hq.write_sem, P]

/-! ## C34: the bucket index -/

theorem foldl_mod_step (f : Nat → Nat) (M : Nat) :
    ∀ (l : List Nat) (a : Nat),
      l.foldl (fun hash c => (hash * 131 + f c) % M) (a % M)
        = l.foldl (fun hash c => hash * 131 + f c) a % M := by
  intro l
  induction l with
  | nil =>
    intro a
    rfl
  | cons c t ih =>
    intro a
    simp only [List.foldl_cons]
    have h : (a % M * 131 + f c) % M = (a * 131 + f c) % M := by
      rw [Nat.add_mod, Nat.mul_mod, Nat.mod_mod, ← Nat.mul_mod, ← Nat.add_mod]
    rw [h]
    exact ih (a * 131 + f c)

theorem foldl_map_horner (f : Nat → Nat) :
    ∀ (l : List Nat) (a : Nat),
      l.foldl (fun hash c => hash * 131 + f c) a
        = (l.map f).foldl (fun a c => a * 131 + c) a := by
  intro l
  induction l with
  | nil =>
    intro a
    rfl
  | cons c t ih =>
    intro a
    simp only [List.foldl_cons, List.map_cons]
    exact ih _

theorem hash_index_horner (str : List Nat) :
    hash_index str
      = ((horner_sum 131 (str.map char_val) % 4294967296) &&& 2147483647) % 1009 := by
  have h31 : ∀ x : Nat, x &&& 2147483647 = x % 2147483648 := by
    intro x
    exact Nat.and_pow_two_sub_one_eq_mod x 31
  rw [h31]
  unfold hash_index horner_sum
  have h := foldl_mod_step char_val 4294967296 str 0
  rw [Nat.zero_mod] at h
  rw [h, foldl_map_horner]
  rfl

theorem map_char_val_of_ascii : ∀ str : List Nat, (∀ c, c ∈ str → c < 128) →
    str.map char_val = str := by
  intro str
  induction str with
  | nil =>
    intro _
    rfl
  | cons c t ih =>
    intro h
    have hc : char_val c = c := by
      unfold char_val
      rw [if_pos (h c (by simp))]
    rw [List.map_cons, hc, ih (fun x hx => h x (List.mem_cons_of_mem _ hx))]

/-- C34 (as amended).  For every key string, of any length and with any byte
values, `hash_index` returns a value below `HASHSIZE`, and this value is
`((H mod 2 ^ 32) AND 0x7FFFFFFF) mod 1009`, where `H` is the Horner sum with
multiplier `131` of the characters as the `char` that `*str` yields: a byte up
to `127` counts as itself, a byte above `127` is a negative `char` and counts as
the byte plus `2 ^ 32 - 256`.  For a key whose bytes are all below `128` this
is the Horner sum of the bytes.  The index stored by `gen_cid` is the
`hash_index` of the stored id and is below `HASHSIZE`, so it selects one of the
buckets; and two keys made by `gen_cid` with equal ids have equal indices. -/
theorem C34_hash_index_selects_a_bucket :
    (∀ str : List Nat,
        hash_index str < HASHSIZE
          ∧ hash_index str
            = ((horner_sum 131 (str.map char_val) % 4294967296) &&& 2147483647) % 1009
          ∧ ((∀ c, c ∈ str → c < 128) →
              hash_index str = ((horner_sum 131 str % 4294967296) &&& 2147483647) % 1009))
      ∧ (∀ host port path : List Nat,
          (gen_cid host port path).index = hash_index (gen_cid host port path).id
            ∧ (gen_cid host port path).index < HASHSIZE)
      ∧ (∀ host port path host2 port2 path2 : List Nat,
          (gen_cid host port path).id = (gen_cid host2 port2 path2).id →
            (gen_cid host port path).index = (gen_cid host2 port2 path2).index) := by
  refine ⟨fun str => ⟨hash_index_lt str, hash_index_horner str, fun h => ?_⟩,
    fun host port path => ⟨rfl, gen_cid_index_lt host port path⟩, ?_⟩
  · have e := hash_index_horner str
    rw [map_char_val_of_ascii str h] at e
    exact e
  · intro host port path host2 port2 path2 h
    show hash_index (gen_cid host port path).id = hash_index (gen_cid host2 port2 path2).id
    rw [h]

/-- C34, counterexample: the key that consists of the byte `200`.  As a `char`
the byte is `-56`, so `hash_index` returns `640`; the Horner sum of the bytes
gives `200`. -/
theorem C34_counterexample_byte_above_127 :
    hash_index [200] = 640
      ∧ ((horner_sum 131 [200] % 4294967296) &&& 2147483647) % 1009 = 200
      ∧ hash_index [200] ≠ ((horner_sum 131 [200] % 4294967296) &&& 2147483647) % 1009 := by
  decide

/-! ## C35: what a lookup leaves as it found it -/

theorem P_eq_some {v m : Nat} (h : P v = some m) : v ≠ 0 ∧ m = v - 1 := by
  unfold P at h
  by_cases h0 : v = 0
  · simp [h0] at h
  · simp only [h0, if_false, Option.some.injEq] at h
    exact ⟨h0, h.symm⟩

/-- The search touches the heap and the list semaphore only. -/
theorem search_lru_fields {fuel : Nat} {s : State} {cid : cid_t} {y : Ptr × State}
    (h : search_lru fuel s cid = some y) :
    y.2.readcnt = s.readcnt ∧ y.2.total_size = s.total_size ∧ y.2.write_sem = s.write_sem
      ∧ y.2.rcnt_mutex = s.rcnt_mutex ∧ y.2.head = s.head ∧ y.2.brk = s.brk := by
  unfold search_lru at h
  cases hP : P (s.list_mutex cid.index) with
  | none => simp [hP] at h
  | some m =>
    simp only [hP, Option.bind_eq_bind, Option.some_bind] at h
    cases hl : search_loop s.heap (s.head cid.index) cid.id fuel
        (s.heap (s.head cid.index)).next with
    | none => simp [hl] at h
    | some bp =>
      simp only [hl, Option.some_bind, Option.pure_def, Option.some.injEq] at h
      rw [← h]
      split <;> exact ⟨rfl, rfl, rfl, rfl, rfl, rfl⟩

/-- C35.  Whenever `try_from_cache` returns, with a hit, a miss or the error of
a failed write to the client, `readcnt` is what it was on entry and
`total_size` is unchanged; both semaphores of the reader protocol hold the
value they held on entry.  When the caller was the only reader (`readcnt` was
`0` on entry), it took the write permit (`write_sem` was not `0`) and has given
it back. -/
theorem C35_lookup_restores_reader_count (fuel : Nat) (s : State) (wr : Int) (cid : cid_t)
    (x : Lookup) (hx : try_from_cache fuel s wr cid = some x) :
    x.st.readcnt = s.readcnt
      ∧ x.st.total_size = s.total_size
      ∧ x.st.write_sem = s.write_sem
      ∧ x.st.rcnt_mutex = s.rcnt_mutex
      ∧ (s.readcnt = 0 → s.write_sem ≠ 0) := by
  unfold try_from_cache at hx
  cases hP : P s.rcnt_mutex with
  | none => simp [hP] at hx
  | some m =>
    obtain ⟨hm0, hm⟩ := P_eq_some hP
    simp only [hP, Option.bind_eq_bind, Option.some_bind] at hx
    by_cases hc : s.readcnt + 1 = 1
    · simp only [hc, if_true] at hx
      cases hW : P s.write_sem with
      | none => simp [hW] at hx
      | some w =>
        obtain ⟨hw0, hw⟩ := P_eq_some hW
        simp only [hW, Option.map_some', Option.some_bind] at hx
        cases hS : search_lru fuel
            { s with rcnt_mutex := V m, readcnt := 1, write_sem := w } cid with
        | none =>
          exfalso
          revert hx
          simp [hS]
        | some y =>
          obtain ⟨a1, a2, a3, a4, _, _⟩ := search_lru_fields hS
          simp only [hS, Option.some_bind] at hx
          cases hP2 : P y.2.rcnt_mutex with
          | none => simp [hP2] at hx
          | some r2 =>
            obtain ⟨_, hr2⟩ := P_eq_some hP2
            simp only [hP2, Option.some_bind, Option.pure_def, Option.some.injEq] at hx
            rw [← hx]
            have h5 : y.2.readcnt - 1 = (0 : Int) := by rw [a1]; rfl
            simp only [h5, if_true, V, a2, a3, hr2, a4, hw, hm]
            refine ⟨by omega, trivial, by omega, by omega, fun _ => hw0⟩
    · simp only [hc, if_false, Option.some_bind] at hx
      cases hS : search_lru fuel
          { s with rcnt_mutex := V m, readcnt := s.readcnt + 1 } cid with
      | none =>
        exfalso
        revert hx
        simp [hS]
      | some y =>
        obtain ⟨a1, a2, a3, a4, _, _⟩ := search_lru_fields hS
        simp only [hS, Option.some_bind] at hx
        cases hP2 : P y.2.rcnt_mutex with
        | none => simp [hP2] at hx
        | some r2 =>
          obtain ⟨_, hr2⟩ := P_eq_some hP2
          simp only [hP2, Option.some_bind, Option.pure_def, Option.some.injEq] at hx
          rw [← hx]
          have h5 : ¬ (y.2.readcnt - 1 = (0 : Int)) := by
            rw [a1]
            show ¬ (s.readcnt + 1 - 1 = 0)
            omega
          simp only [h5, if_false, V, a2, a3, hr2, a4, hm]
          refine ⟨?_, trivial, trivial, by omega, fun h => absurd h (by omega)⟩
          rw [a1]
          show s.readcnt + 1 - 1 = s.readcnt
          omega

/-- C35, witness: a lookup of the key of `http://a/` in the empty cache, which
is a miss. -/
theorem C35_lookup_restores_reader_count_witness :
    try_from_cache 1 empty_cache 0 key_a = some { rc := 0, sent := none, st := empty_cache }
      ∧ empty_cache.readcnt = empty_cache.readcnt
      ∧ empty_cache.total_size = empty_cache.total_size
      ∧ empty_cache.write_sem = empty_cache.write_sem
      ∧ empty_cache.rcnt_mutex = empty_cache.rcnt_mutex
      ∧ (empty_cache.readcnt = 0 → empty_cache.write_sem ≠ 0) :=
  ⟨try_from_cache_miss empty_cache_good.rep empty_cache_good.quiet key_a
      (gen_cid_index_lt _ _ _) (fun p hp => absurd hp (List.not_mem_nil p)) (Nat.lt_succ_self 0) 0,
    C35_lookup_restores_reader_count 1 empty_cache 0 key_a
      { rc := 0, sent := none, st := empty_cache }
      (try_from_cache_miss empty_cache_good.rep empty_cache_good.quiet key_a
        (gen_cid_index_lt _ _ _) (fun p hp => absurd hp (List.not_mem_nil p))
        (Nat.lt_succ_self 0) 0)⟩

/-! ## C36: appending to the buffer of the object -/

/-- A capacity of `0` stays `0` under doubling: the loop of `update_web_object`
never ends, whatever the number of steps granted. -/
theorem grow_capacity_zero (need : Nat) (hneed : 0 < need) :
    ∀ fuel, grow_capacity fuel 0 need = none := by
  intro fuel
  induction fuel with
  | zero => rfl
  | succ fuel ih =>
    rw [grow_capacity, if_pos hneed]
    exact ih

/-- C36 (as amended).  Let the object have `length <= capacity` and a capacity
that is positive and at most `MAX_OBJECT_SIZE`, as every object has that
`init_web_object` made and `update_web_object` updated, and let `bs` be a chunk
of `l` bytes, `l` a value of `ssize_t`.  When `length + l > MAX_OBJECT_SIZE`,
`update_web_object` returns `-1` and leaves the object unchanged.  Otherwise,
with a `realloc` that succeeds, the doubling loop ends and the function returns
`0`; the content is the old content followed by the `l` bytes, the length has
grown by `l`, and `length <= capacity <= MAX_OBJECT_SIZE` holds again. -/
theorem C36_update_web_object_appends (wb : web_object) (bs : List Nat)
    (hlen : wb.length ≤ wb.capacity) (hpos : 0 < wb.capacity)
    (hmax : wb.capacity ≤ MAX_OBJECT_SIZE) (hl : bs.length < 9223372036854775808) :
    (wb.length + bs.length > MAX_OBJECT_SIZE →
        update_web_object wb bs (bs.length : Int) = some (-1, wb))
      ∧ (wb.length + bs.length ≤ MAX_OBJECT_SIZE →
          ∃ c, update_web_object wb bs (bs.length : Int)
              = some (0, { content := wb.content ++ bs, length := wb.length + bs.length,
                           capacity := c })
            ∧ wb.length + bs.length ≤ c ∧ c ≤ MAX_OBJECT_SIZE ∧ wb.capacity ≤ c) := by
  have hM : MAX_OBJECT_SIZE = 102400 := rfl
  have hneed : (to_size_t (to_size_t (bs.length : Int) + wb.length)).toNat
      = wb.length + bs.length := by
    unfold to_size_t
    omega
  constructor
  · intro hbig
    unfold update_web_object
    simp only [hneed]
    rw [if_pos hbig]
  · intro hfit
    unfold update_web_object
    simp only [hneed, take_length_toNat]
    rw [if_neg (by omega)]
    by_cases hgrow : wb.length + bs.length > wb.capacity
    · obtain ⟨c2, h1, h2, h3⟩ := grow_capacity_spec (wb.length + bs.length) (by omega) 64
        wb.capacity hpos (by
          have : 1 ≤ wb.capacity := hpos
          have h64 : (2 : Nat) ^ 64 = 18446744073709551616 := by norm_num
          rw [h64]
          nlinarith)
      refine ⟨min c2 MAX_OBJECT_SIZE, ?_, by rw [hM]; omega, by rw [hM]; omega,
        by rw [hM]; omega⟩
      simp only [hgrow, if_true, h1, Option.map_some']
    · exact ⟨wb.capacity, by simp only [hgrow, if_false, Option.map_some'], by omega, hmax,
        le_refl _⟩

/-- C36, witness: a chunk of two bytes appended to the fresh object. -/
theorem C36_update_web_object_appends_witness :
    (init_web_object.length + [104, 105].length > MAX_OBJECT_SIZE →
        update_web_object init_web_object [104, 105] (([104, 105] : List Nat).length : Int)
          = some (-1, init_web_object))
      ∧ (init_web_object.length + [104, 105].length ≤ MAX_OBJECT_SIZE →
          ∃ c, update_web_object init_web_object [104, 105]
                (([104, 105] : List Nat).length : Int)
              = some (0, { content := init_web_object.content ++ [104, 105],
                           length := init_web_object.length + [104, 105].length,
                           capacity := c })
            ∧ init_web_object.length + [104, 105].length ≤ c ∧ c ≤ MAX_OBJECT_SIZE
            ∧ init_web_object.capacity ≤ c) :=
  C36_update_web_object_appends init_web_object [104, 105] (by decide) (by decide) (by decide)
    (by decide)

/-- C36, counterexample.  An object with length `0` and capacity `0` has
`length <= capacity`; for a chunk of one byte the doubling loop never ends
(`new_cap` stays `0`), so `update_web_object` does not return.  An object with
length `0` and capacity `200000` has `length <= capacity` too; the function
returns `0` and leaves the capacity at `200000`, above `MAX_OBJECT_SIZE`. -/
theorem C36_counterexample_capacity_zero_or_large :
    (∀ fuel, grow_capacity fuel 0 1 = none)
      ∧ update_web_object { content := [], length := 0, capacity := 0 } [7] 1 = none
      ∧ update_web_object { content := [], length := 0, capacity := 200000 } [7] 1
          = some (0, { content := [7], length := 1, capacity := 200000 })
      ∧ ¬ (200000 ≤ MAX_OBJECT_SIZE) := by
  refine ⟨grow_capacity_zero 1 (by decide), ?_, by decide, by decide⟩
  unfold update_web_object
  simp only [show (to_size_t (to_size_t 1 + ((0 : Nat) : Int))).toNat = 1 from by decide,
    show ¬ (1 > MAX_OBJECT_SIZE) from by decide, if_false, show 1 > 0 from by decide, if_true,
    grow_capacity_zero 1 (by decide) 65, Option.map_none']

/-! ## C33: a status without entity and a positive `Content-Length` -/

/-- C33.  Take a response whose status line `VERSION CODE PHRASE` carries a
code from `100` to `199`, `204` or `304`, and whose header lines `NAME:VALUE`
include at least one named `Content-Length`, each of that name with the
positive value `n`; let the status line, the header lines and the empty line be
at most `MAX_OBJECT_SIZE` bytes together, and let no write to the client fail.
On a consistent cache `server2client` reads the status line, the header lines
and the empty line and no byte after them.  The entity loop, the only place
that assigns `nleft`, is skipped, and the test `entity_len > 0 && nleft != 0`
reads the variable as it was left on the stack, `nleft0`: when that value is
`0` the function returns `0` and inserts exactly the status line and the
headers; when it is anything else the function reports a mismatch of the entity
length, returns `-1` and inserts nothing. -/
theorem C33_no_entity_status_with_content_length (cap : Int)
    (hcapo : (MAX_OBJECT_SIZE : Int) ≤ cap) (hcap : cap < 2147483648) (s : State)
    (L : Nat → List Ptr) (hG : Good s L) (fuel : Nat) (hfuel : HASHSIZE * linked_count L < fuel)
    (wr : Nat → Int) (hw : ∀ k, ¬ wr k < 0) (version : List Nat) (d1 d2 d3 x : Nat)
    (more : List Nat) (hv : Token version) (h1 : 48 ≤ d1 ∧ d1 ≤ 57) (h2 : 48 ≤ d2 ∧ d2 ≤ 57)
    (h3 : 48 ≤ d3 ∧ d3 ≤ 57) (hcode : no_entity_code (decimal [d1, d2, d3]) = true)
    (hx : isspace x = false) (hx0 : x ≠ 0) (hdrs : List (List Nat)) (n : Int) (hn : 0 < n)
    (hl : ∀ l, l ∈ hdrs → ∃ name value, HeaderLine l name value
      ∧ (names_content_length l = true → atoi value = n))
    (hcl : ∃ l, l ∈ hdrs ∧ names_content_length l = true) (rest : rio_t) (nleft0 : Int)
    (cid : cid_t)
    (hsize : (status_line version [d1, d2, d3] x more :: hdrs ++ [bytes "\r\n"]).flatten.length
      ≤ MAX_OBJECT_SIZE) :
    ∃ r, server2client cap fuel s wr
          (some (status_line version [d1, d2, d3] x more)
            :: (hdrs.map some ++ some (bytes "\r\n") :: rest)) nleft0 init_web_object cid
        = some r
      ∧ r.vars.got = status_line version [d1, d2, d3] x more :: hdrs ++ [bytes "\r\n"]
      ∧ (nleft0 = 0 → r.rc = 0
          ∧ r.inserted
            = some ((status_line version [d1, d2, d3] x more :: hdrs ++ [bytes "\r\n"]).flatten,
                (status_line version [d1, d2, d3] x more :: hdrs ++ [bytes "\r\n"]).flatten.length)
          ∧ update_cache cap fuel s cid
              (some (status_line version [d1, d2, d3] x more :: hdrs ++ [bytes "\r\n"]).flatten)
              (status_line version [d1, d2, d3] x more :: hdrs ++ [bytes "\r\n"]).flatten.length
            = some (0, r.st))
      ∧ (nleft0 ≠ 0 → r.rc = -1 ∧ r.inserted = none ∧ r.st = s) := by
  have hne : status_line version [d1, d2, d3] x more ≠ [] := by
    obtain ⟨a, t, e⟩ := List.exists_cons_of_ne_nil hv.1
    rw [status_line, e]
    simp
  have hp : parse_response_line (status_line version [d1, d2, d3] x more) 1 = (0, 0) := by
    rw [parse_response_line_status hv (token_of_digits h1 h2 h3) hx hx0 more 1,
      if_pos ((status_test_three_digits h1 h2 h3).mpr hcode)]
  have hacc : ∀ h, h ∈ hdrs → h ≠ [] ∧ cstr h ≠ bytes "\r\n"
      ∧ ∀ e el, (parse_response_header h e el).1 = 0 := by
    intro h hh
    obtain ⟨name, value, k, _⟩ := hl h hh
    exact header_line_accepted k
  have hea : entity_after (0, -1) hdrs = (0, n) := by
    rw [entity_after_content_length n hdrs 0 (-1) hl]
    have hany : hdrs.any names_content_length = true := by
      obtain ⟨l, hm, hc⟩ := hcl
      exact List.any_eq_true.mpr ⟨l, hm, hc⟩
    rw [if_pos hany]
    split <;> rfl
  obtain ⟨v, hrel, _, hgot⟩ := server2client_relay_head wr hw hne hp hdrs hacc (bytes "\r\n")
    (by decide) rest nleft0 (by rw [hea]; exact fun h => absurd h.1 (show ¬ ((0 : Int) = 1) from by decide))
  rw [hea] at hrel
  obtain ⟨r, k1, k2, k3, k4, _, k6⟩ := server2client_outcome hcapo hcap hG hfuel wr _ nleft0
    cid hrel
  have hgot2 : r.vars.got = status_line version [d1, d2, d3] x more :: hdrs ++ [bytes "\r\n"] := by
    rw [k3, hgot]
  refine ⟨r, k1, hgot2, ?_, ?_⟩
  · intro h0
    have hrc : (if (n > 0 ∧ nleft0 ≠ 0) then (-1 : Int) else 0) = 0 :=
      if_neg (fun h => h.2 h0)
    have h5 := k4 hrc (by rw [hgot]; exact hsize)
    rw [hgot] at h5
    exact ⟨k2.trans hrc, h5.1, h5.2⟩
  · intro h0
    have hrc : (if (n > 0 ∧ nleft0 ≠ 0) then (-1 : Int) else 0) = -1 := if_pos ⟨hn, h0⟩
    have h5 := k6 (by rw [hrc]; decide)
    exact ⟨k2.trans hrc, h5.1, h5.2⟩

theorem sample_content_length_five :
    ∀ l, l ∈ [bytes "Content-Length: 5\r\n"] → ∃ name value, HeaderLine l name value
      ∧ (names_content_length l = true → atoi value = 5) := by
  intro l hl
  simp only [List.mem_singleton] at hl
  rw [hl]
  exact ⟨bytes "Content-Length", bytes "5",
    HeaderLine.intro (bytes "Content-Length") (bytes " ") (bytes "5") (bytes "\r\n") (by decide)
      (by decide) (by decide) (by decide) (by decide) (by decide) (by decide),
    fun _ => by decide⟩

/-- C33, witness: the response `HTTP/1.0 304 Not Modified` with the header
`Content-Length: 5`, relayed into the empty cache while the stack slot of
`nleft` holds `1`.  `server2client` reads the three lines, returns `-1` and
leaves the cache as it was. -/
theorem C33_no_entity_status_with_content_length_witness :
    status_line (bytes "HTTP/1.0") [51, 48, 52] 78 (bytes "ot Modified\r\n")
        = bytes "HTTP/1.0 304 Not Modified\r\n"
      ∧ ∃ r, server2client MAX_CACHE_SIZE 1 empty_cache (fun _ => 0)
            (some (status_line (bytes "HTTP/1.0") [51, 48, 52] 78 (bytes "ot Modified\r\n"))
              :: ([bytes "Content-Length: 5\r\n"].map some ++ some (bytes "\r\n") :: [])) 1
            init_web_object key_a
          = some r
        ∧ r.vars.got = status_line (bytes "HTTP/1.0") [51, 48, 52] 78 (bytes "ot Modified\r\n")
            :: [bytes "Content-Length: 5\r\n"] ++ [bytes "\r\n"]
        ∧ r.rc = -1 ∧ r.inserted = none ∧ r.st = empty_cache :=
  ⟨by decide,
    match C33_no_entity_status_with_content_length MAX_CACHE_SIZE (by decide) (by decide)
      empty_cache (fun _ => []) empty_cache_good 1 (by rw [linked_count_empty]; decide)
      (fun _ => 0) (fun _ => of_decide_eq_true rfl) (bytes "HTTP/1.0") 51 48 52 78
      (bytes "ot Modified\r\n") ⟨by decide, by decide⟩ (by decide) (by decide) (by decide)
      (by decide) (by decide) (by decide) [bytes "Content-Length: 5\r\n"] 5 (by decide)
      sample_content_length_five ⟨_, List.mem_singleton.mpr rfl, by decide⟩ [] 1 key_a
      (by decide) with
    | ⟨r, a, b, _, c⟩ => ⟨r, a, b, c (by decide)⟩⟩

/-! ## C32: the buckets stay well-formed lists -/

theorem checklist_loop_seg {h : Heap} {hd : Ptr} :
    ∀ (l : List Ptr) (a : Ptr) (fuel : Nat), Seg h a l hd → hd ∉ l → l.length < fuel →
      checklist_loop h hd fuel a = some true := by
  intro l
  induction l with
  | nil =>
    intro a fuel hs _ hf
    obtain ⟨k, rfl⟩ : ∃ k, fuel = k + 1 := ⟨fuel - 1, by simp at hf; omega⟩
    obtain ⟨h1, h2⟩ := hs
    rw [checklist_loop, h1, if_pos h2, if_pos rfl]
  | cons p t ih =>
    intro a fuel hs hnd hf
    obtain ⟨k, rfl⟩ : ∃ k, fuel = k + 1 := ⟨fuel - 1, by simp at hf; omega⟩
    obtain ⟨h1, h2, h3⟩ := hs
    have hp : p ≠ hd := fun e => hnd (by simp [e])
    rw [checklist_loop, h1, if_pos h2, if_neg hp]
    exact ih p k h3 (fun hm => hnd (List.mem_cons_of_mem _ hm)) (by simp at hf; omega)

theorem checklist_all (h : Heap) (head : Nat → Ptr) (fuel : Nat) :
    ∀ l : List Nat, (∀ i, i ∈ l → checklist_loop h (head i) fuel (head i) = some true) →
      l.foldl (fun r i => if r = some true then checklist_loop h (head i) fuel (head i) else r)
        (some true) = some true := by
  intro l
  induction l with
  | nil =>
    intro _
    rfl
  | cons i t ih =>
    intro hl
    rw [List.foldl_cons, if_pos rfl, hl i (by simp)]
    exact ih (fun j hj => hl j (List.mem_cons_of_mem _ hj))

/-- On well-formed buckets no assertion of `checklist` fails. -/
theorem checklist_of_rep {s : State} {L : Nat → List Ptr} (hR : Rep s L) {fuel : Nat}
    (hf : ∀ i, i < HASHSIZE → (L i).length < fuel) : checklist fuel s = some true := by
  unfold checklist
  apply checklist_all
  intro i hi
  have hi2 : i < HASHSIZE := List.mem_range.mp hi
  exact checklist_loop_seg (L i) (s.head i) fuel (hR.seg i hi2)
    (List.nodup_cons.mp (hR.nodup i hi2)).1 (hf i hi2)

theorem Seg_next_prev {h : Heap} {b : Ptr} :
    ∀ (l : List Ptr) (a : Ptr), Seg h a l b → ∀ p, p ∈ a :: l →
      (h (h p).next).prev = p ∧ (h p).next ∈ b :: l := by
  intro l
  induction l with
  | nil =>
    intro a hs p hp
    simp only [List.mem_singleton] at hp
    subst hp
    obtain ⟨h1, h2⟩ := hs
    rw [h1]
    exact ⟨h2, by simp⟩
  | cons q t ih =>
    intro a hs p hp
    obtain ⟨h1, h2, h3⟩ := hs
    rcases List.mem_cons.mp hp with e | hm
    · subst e
      rw [h1]
      exact ⟨h2, by simp⟩
    · obtain ⟨k1, k2⟩ := ih q h3 p hm
      refine ⟨k1, ?_⟩
      rcases List.mem_cons.mp k2 with e | hm2
      · rw [e]
        simp
      · exact List.mem_cons_of_mem _ (List.mem_cons_of_mem _ hm2)

theorem follow_seg {h : Heap} {b : Ptr} :
    ∀ (l : List Ptr) (a : Ptr), Seg h a l b → follow h (l.length + 1) a = b
      ∧ ∀ k (hk : k < l.length), follow h (k + 1) a = l[k] := by
  intro l
  induction l with
  | nil =>
    intro a hs
    exact ⟨hs.1, fun k hk => absurd hk (Nat.not_lt_zero k)⟩
  | cons q t ih =>
    intro a hs
    obtain ⟨h1, _, h3⟩ := hs
    obtain ⟨k1, k2⟩ := ih q h3
    refine ⟨?_, ?_⟩
    · show follow h (t.length + 1) (h a).next = b
      rw [h1]
      exact k1
    · intro k hk
      show follow h k (h a).next = (q :: t)[k]
      rw [h1]
      cases k with
      | zero => rfl
      | succ k => exact k2 k (by simpa using hk)

/-- A search that returns leaves well-formed buckets with the same entries and
the same sentinels. -/
theorem search_lru_rep {s : State} {L : Nat → List Ptr} (hR : Rep s L) (fuel : Nat) (cid : cid_t)
    (hidx : cid.index < HASHSIZE) {y : Ptr × State} (h : search_lru fuel s cid = some y) :
    y.2.head = s.head ∧ ∃ L2, Rep y.2 L2 ∧ ∀ i, (L2 i).Perm (L i) := by
  have hm : s.list_mutex cid.index ≠ 0 := by
    intro e
    unfold search_lru at h
    simp [P, e] at h
  by_cases hex : ∃ p, p ∈ L cid.index ∧ (s.heap p).id = some cid.id
  · obtain ⟨l1, r, l2, he, hr, hno⟩ := first_match_split _ _ hex
    have h1 := search_lru_mono fuel (l1.length + 1) s cid y h
    rw [search_lru_hit hR cid hidx hm he hr hno (by omega)] at h1
    rw [← Option.some.inj h1]
    refine ⟨rfl, _, promote_rep hR hidx he, ?_⟩
    intro i
    by_cases hi : i = cid.index
    · subst hi
      rw [Function.update_same, he]
      simp only [List.append_assoc]
      exact (List.perm_append_left_iff l1).mpr (List.perm_append_singleton r l2)
    · rw [Function.update_noteq hi]
  · have hno : ∀ p, p ∈ L cid.index → (s.heap p).id ≠ some cid.id := by
      intro p hp e
      exact hex ⟨p, hp, e⟩
    have h1 := search_lru_mono fuel ((L cid.index).length + 1) s cid y h
    rw [search_lru_miss hR cid hidx hm hno (by omega)] at h1
    rw [← Option.some.inj h1]
    exact ⟨rfl, L, hR, fun i => List.Perm.refl _⟩

/-- An eviction that returns leaves well-formed buckets, each a final part of
what it was, and the same sentinels. -/
theorem evict_to_fit_rep {s : State} {L : Nat → List Ptr} (hR : Rep s L) (cap : Int)
    (fuel : Nat) (size : Int) {s2 : State} (h : evict_to_fit cap fuel s size = some s2) :
    s2.head = s.head ∧ ∃ L2, Rep s2 L2 ∧ ∀ i, i < HASHSIZE → L2 i <:+ L i := by
  obtain ⟨m, _, hs2, _, _⟩ := (evict_loop_eq_some _ _ _ _ _ _).mp h
  obtain ⟨L2, g1, g2, _, _⟩ := @evict_run_rep _ _ hR m 0 (by decide)
  rw [hs2]
  exact ⟨evict_run_head m s 0, L2, g1, g2⟩

/-- An insertion that returns leaves well-formed buckets and the same
sentinels. -/
theorem update_cache_rep {s : State} {L : Nat → List Ptr} (hR : Rep s L) (cap : Int)
    (fuel : Nat) (cid : cid_t) (hidx : cid.index < HASHSIZE) (content : Option (List Nat))
    (size : Nat) {r : Int × State} (h : update_cache cap fuel s cid content size = some r) :
    r.2.head = s.head ∧ ∃ L2, Rep r.2 L2 := by
  rw [update_cache_eq] at h
  cases hP : P s.write_sem with
  | none => simp [hP] at h
  | some w =>
    simp only [hP, Option.some_bind] at h
    have hR1 : Rep { s with write_sem := w } L := hR.congr rfl rfl rfl
    by_cases hc : to_size_t (to_size_t s.total_size + size) > to_size_t cap
    · rw [if_pos hc] at h
      cases he : evict_to_fit cap fuel { s with write_sem := w } (to_int size) with
      | none => simp [he] at h
      | some s2 =>
        simp only [he, Option.some_bind, Option.some.injEq] at h
        obtain ⟨k1, L2, k2, _⟩ := evict_to_fit_rep hR1 cap fuel (to_int size) he
        rw [← h]
        exact ⟨k1, _, (link_new_rep k2 cid hidx content size).1⟩
    · rw [if_neg hc] at h
      simp only [Option.some_bind, Option.some.injEq] at h
      rw [← h]
      exact ⟨rfl, _, (link_new_rep hR1 cid hidx content size).1⟩

/-- C32.  Call the buckets of a state well formed when there are lists `L` of
entries with `Rep s L`.  In such a state, for every bucket: following `next`
from the sentinel leads through the entries of the bucket, in order, and back
to the sentinel; `node.next.prev = node` holds for the sentinel and for every
entry, and `next` does not lead out of the bucket; the walk of `checklist`
finds every assertion true; the sentinel carries no id and no content; no
entry occurs twice in its bucket and none is linked in two buckets.
`init_cache` establishes well-formed buckets.  A call of `search_lru` (with
the promotion), of `update_cache` (with `push_back` and the eviction) or of
`evict_to_fit` that starts on well-formed buckets and returns leaves
well-formed buckets anchored at the same sentinels; `search_lru` keeps the
entries of every bucket, `evict_to_fit` keeps a final part of every bucket. -/
theorem C32_buckets_stay_well_formed :
    (∀ (s : State) (L : Nat → List Ptr), Rep s L →
        (∀ i, i < HASHSIZE →
          follow s.heap ((L i).length + 1) (s.head i) = s.head i
            ∧ (∀ k (hk : k < (L i).length), follow s.heap (k + 1) (s.head i) = (L i)[k])
            ∧ (∀ p, p ∈ s.head i :: L i →
                (s.heap (s.heap p).next).prev = p ∧ (s.heap p).next ∈ s.head i :: L i)
            ∧ (s.heap (s.head i)).id = none ∧ (s.heap (s.head i)).content = none
            ∧ (s.head i :: L i).Nodup
            ∧ ∀ j, j < HASHSIZE → ∀ p, p ∈ L i → p ∈ L j → i = j)
          ∧ ∀ fuel, (∀ i, i < HASHSIZE → (L i).length < fuel) → checklist fuel s = some true)
      ∧ (∀ s : State, 0 < s.brk → Rep (init_cache s).2 (fun _ => []))
      ∧ (∀ (s : State) (L : Nat → List Ptr) (fuel : Nat) (cid : cid_t) (y : Ptr × State),
          Rep s L → cid.index < HASHSIZE → search_lru fuel s cid = some y →
            y.2.head = s.head ∧ ∃ L2, Rep y.2 L2 ∧ ∀ i, (L2 i).Perm (L i))
      ∧ (∀ (cap : Int) (s : State) (L : Nat → List Ptr) (fuel : Nat) (cid : cid_t)
          (content : Option (List Nat)) (size : Nat) (r : Int × State),
          Rep s L → cid.index < HASHSIZE → update_cache cap fuel s cid content size = some r →
            r.2.head = s.head ∧ ∃ L2, Rep r.2 L2)
      ∧ (∀ (cap : Int) (s : State) (L : Nat → List Ptr) (fuel : Nat) (size : Int) (s2 : State),
          Rep s L → evict_to_fit cap fuel s size = some s2 →
            s2.head = s.head ∧ ∃ L2, Rep s2 L2 ∧ ∀ i, i < HASHSIZE → L2 i <:+ L i) := by
  refine ⟨?_, ?_, ?_, ?_, ?_⟩
  · intro s L hR
    refine ⟨?_, fun fuel hf => checklist_of_rep hR hf⟩
    intro i hi
    have hs := hR.seg i hi
    obtain ⟨f1, f2⟩ := follow_seg (L i) (s.head i) hs
    refine ⟨f1, f2, Seg_next_prev (L i) (s.head i) hs, (hR.sentinel i hi).1,
      (hR.sentinel i hi).2, hR.nodup i hi, ?_⟩
    intro j hj p hp hp2
    by_contra hne
    exact hR.disj i j hi hj hne p (List.mem_cons_of_mem _ hp) (List.mem_cons_of_mem _ hp2)
  · intro s hb
    exact (init_cache_spec s hb).2.1
  · intro s L fuel cid y hR hidx h
    exact search_lru_rep hR fuel cid hidx h
  · intro cap s L fuel cid content size r hR hidx h
    exact update_cache_rep hR cap fuel cid hidx content size h
  · intro cap s L fuel size s2 hR h
    exact evict_to_fit_rep hR cap fuel size h

/-! ## The cache simulator: set index and tag -/

theorem setMask_of_eq_table :
    ∀ s, s < 64 → ∀ b, b < 64 → s + b < 64 → setMask_of s b = (2 ^ s - 1) <<< b := by
  decide

theorem mask_shift (a s b : Nat) :
    (a &&& ((2 ^ s - 1) <<< b)) >>> b = (a >>> b) % 2 ^ s := by
  apply Nat.eq_of_testBit_eq
  intro i
  simp only [Nat.testBit_shiftRight, Nat.testBit_and, Nat.testBit_shiftLeft,
    Nat.testBit_two_pow_sub_one, Nat.testBit_mod_two_pow]
  by_cases h : i < s
  · simp [h]
  · simp [h]

theorem to_int_to_size_t_small (t : Nat) (h : t < 2147483648) :
    to_size_t (to_int (t : Int)) = t := by
  unfold to_int to_size_t
  omega

theorem tag_conv_eq_iff (t1 t2 : Nat) :
    to_size_t (to_int (t1 : Int)) = to_size_t (to_int (t2 : Int))
      ↔ t1 % 4294967296 = t2 % 4294967296 := by
  unfold to_int to_size_t
  omega

/-! ## The cache simulator: the loop of `accessCache` -/

theorem access_loop_hit (tag : Int) :
    ∀ (pre : List CacheLine) (x : CacheLine) (post : List CacheLine) (i evict : Nat)
      (evictTime : Int), (∀ l, l ∈ pre → l.valid ≠ 0 ∧ l.tag ≠ tag) → x.valid ≠ 0 → x.tag = tag →
      access_loop tag (pre ++ x :: post) i evict evictTime = (STATE_HIT, i + pre.length) := by
  intro pre
  induction pre with
  | nil =>
    intro x post i evict evictTime _ hv ht
    simp only [List.nil_append, access_loop, hv, if_false, ht, if_true, List.length_nil,
      Nat.add_zero]
  | cons p t ih =>
    intro x post i evict evictTime hp hv ht
    obtain ⟨h1, h2⟩ := hp p (by simp)
    simp only [List.cons_append, access_loop, h1, if_false, h2, List.length_cons]
    exact (ih x post (i + 1) _ _ (fun l hl => hp l (List.mem_cons_of_mem _ hl)) hv ht).trans
      (by congr 1; omega)

theorem access_loop_miss (tag : Int) :
    ∀ (pre : List CacheLine) (x : CacheLine) (post : List CacheLine) (i evict : Nat)
      (evictTime : Int), (∀ l, l ∈ pre → l.valid ≠ 0 ∧ l.tag ≠ tag) → x.valid = 0 →
      access_loop tag (pre ++ x :: post) i evict evictTime = (STATE_MISS, i + pre.length) := by
  intro pre
  induction pre with
  | nil =>
    intro x post i evict evictTime _ hv
    simp only [List.nil_append, access_loop, hv, if_true, List.length_nil, Nat.add_zero]
  | cons p t ih =>
    intro x post i evict evictTime hp hv
    obtain ⟨h1, h2⟩ := hp p (by simp)
    simp only [List.cons_append, access_loop, h1, if_false, h2, List.length_cons]
    exact (ih x post (i + 1) _ _ (fun l hl => hp l (List.mem_cons_of_mem _ hl)) hv).trans
      (by congr 1; omega)

/-- The loop over lines that are all valid and do not hold the tag: it ends
with `STATE_MISS_EVICT`, and the line it names is `evict` when no line has a
time stamp below `evictTime`, and otherwise a line with the smallest time
stamp. -/
theorem access_loop_full (tag : Int) :
    ∀ (rest : List CacheLine) (i evict : Nat) (evictTime : Int),
      (∀ l, l ∈ rest → l.valid ≠ 0 ∧ l.tag ≠ tag) →
      (access_loop tag rest i evict evictTime).1 = STATE_MISS_EVICT
        ∧ (((access_loop tag rest i evict evictTime).2 = evict
              ∧ ∀ l, l ∈ rest → evictTime ≤ l.timeStamp)
          ∨ ∃ pre x post, rest = pre ++ x :: post
              ∧ (access_loop tag rest i evict evictTime).2 = i + pre.length
              ∧ x.timeStamp < evictTime ∧ ∀ l, l ∈ rest → x.timeStamp ≤ l.timeStamp) := by
  intro rest
  induction rest with
  | nil =>
    intro i evict evictTime _
    exact ⟨rfl, Or.inl ⟨rfl, fun l hl => absurd hl (List.not_mem_nil l)⟩⟩
  | cons p t ih =>
    intro i evict evictTime hp
    obtain ⟨h1, h2⟩ := hp p (by simp)
    have ht : ∀ l, l ∈ t → l.valid ≠ 0 ∧ l.tag ≠ tag := fun l hl => hp l (List.mem_cons_of_mem _ hl)
    by_cases hlt : p.timeStamp < evictTime
    · have e : access_loop tag (p :: t) i evict evictTime
          = access_loop tag t (i + 1) i p.timeStamp := by
        simp only [access_loop, h1, if_false, h2, hlt, if_true]
      rw [e]
      obtain ⟨k1, k2⟩ := ih (i + 1) i p.timeStamp ht
      refine ⟨k1, Or.inr ?_⟩
      rcases k2 with ⟨a1, a2⟩ | ⟨pre, x, post, a1, a2, a3, a4⟩
      · refine ⟨[], p, t, rfl, by simpa using a1, hlt, ?_⟩
        intro l hl
        rcases List.mem_cons.mp hl with e2 | hm
        · rw [e2]
        · exact a2 l hm
      · refine ⟨p :: pre, x, post, by rw [a1]; rfl, ?_, by omega, ?_⟩
        · rw [a2]
          simp only [List.length_cons]
          omega
        · intro l hl
          rcases List.mem_cons.mp hl with e2 | hm
          · rw [e2]
            omega
          · exact a4 l hm
    · have e : access_loop tag (p :: t) i evict evictTime
          = access_loop tag t (i + 1) evict evictTime := by
        simp only [access_loop, h1, if_false, h2, hlt]
      rw [e]
      obtain ⟨k1, k2⟩ := ih (i + 1) evict evictTime ht
      refine ⟨k1, ?_⟩
      rcases k2 with ⟨a1, a2⟩ | ⟨pre, x, post, a1, a2, a3, a4⟩
      · left
        refine ⟨a1, ?_⟩
        intro l hl
        rcases List.mem_cons.mp hl with e2 | hm
        · rw [e2]
          omega
        · exact a2 l hm
      · right
        refine ⟨p :: pre, x, post, by rw [a1]; rfl, ?_, a3, ?_⟩
        · rw [a2]
          simp only [List.length_cons]
          omega
        · intro l hl
          rcases List.mem_cons.mp hl with e2 | hm
          · rw [e2]
            omega
          · exact a4 l hm

/-- The three ways the loop of `accessCache` ends on a set whose valid lines
`vs` come first: at the first line that holds the tag; at the first invalid
line; or, when every line is valid and none holds the tag, at a line with the
smallest time stamp. -/
theorem access_loop_cases (tag : Int) (vs rest : List CacheLine) (first : CacheLine)
    (hfirst : (vs ++ rest).head? = some first)
    (hv : ∀ l, l ∈ vs → l.valid = 1) (hr : ∀ l, l ∈ rest → l.valid = 0) :
    (∃ pre x post, vs = pre ++ x :: post ∧ x.tag = tag ∧ (∀ l, l ∈ pre → l.tag ≠ tag)
        ∧ access_loop tag (vs ++ rest) 0 0 first.timeStamp = (STATE_HIT, pre.length))
      ∨ ((∀ l, l ∈ vs → l.tag ≠ tag) ∧ ∃ x post, rest = x :: post
        ∧ access_loop tag (vs ++ rest) 0 0 first.timeStamp = (STATE_MISS, vs.length))
      ∨ ((∀ l, l ∈ vs → l.tag ≠ tag) ∧ rest = [] ∧ ∃ pre x post, vs = pre ++ x :: post
        ∧ access_loop tag (vs ++ rest) 0 0 first.timeStamp = (STATE_MISS_EVICT, pre.length)
        ∧ ∀ l, l ∈ vs → x.timeStamp ≤ l.timeStamp) := by
  have hv0 : ∀ l, l ∈ vs → l.valid ≠ 0 := by
    intro l hl
    rw [hv l hl]
    decide
  by_cases hex : ∃ l, l ∈ vs ∧ l.tag = tag
  · left
    obtain ⟨l, hl, ht⟩ := hex
    obtain ⟨pre, x, post, e, hx, hno⟩ :
        ∃ pre x post, vs = pre ++ x :: post ∧ x.tag = tag ∧ ∀ y, y ∈ pre → ¬ y.tag = tag := by
      clear hfirst hv hv0
      induction vs with
      | nil => exact absurd hl (List.not_mem_nil l)
      | cons p t ih =>
        by_cases hp : p.tag = tag
        · exact ⟨[], p, t, rfl, hp, fun y hy => absurd hy (List.not_mem_nil y)⟩
        · rcases List.mem_cons.mp hl with e | hm
          · exact absurd (e ▸ ht) hp
          · obtain ⟨pre, x, post, e, hx, hno⟩ := ih hm
            refine ⟨p :: pre, x, post, by rw [e]; rfl, hx, ?_⟩
            intro y hy
            rcases List.mem_cons.mp hy with e2 | hm2
            · rw [e2]
              exact hp
            · exact hno y hm2
    refine ⟨pre, x, post, e, hx, hno, ?_⟩
    have h := access_loop_hit tag pre x (post ++ rest) 0 0 first.timeStamp
      (fun y hy => ⟨hv0 y (by rw [e]; simp [hy]), hno y hy⟩) (hv0 x (by rw [e]; simp)) hx
    rw [e, List.append_assoc, List.cons_append, h, Nat.zero_add]
  · right
    have hno : ∀ l, l ∈ vs → l.tag ≠ tag := fun l hl ht => hex ⟨l, hl, ht⟩
    cases rest with
    | cons x post =>
      left
      refine ⟨hno, x, post, rfl, ?_⟩
      rw [access_loop_miss tag vs x post 0 0 first.timeStamp
        (fun y hy => ⟨hv0 y hy, hno y hy⟩) (hr x (by simp)), Nat.zero_add]
    | nil =>
      right
      refine ⟨hno, rfl, ?_⟩
      rw [List.append_nil] at hfirst ⊢
      obtain ⟨k1, k2⟩ := access_loop_full tag vs 0 0 first.timeStamp
        (fun y hy => ⟨hv0 y hy, hno y hy⟩)
      cases vs with
      | nil => simp at hfirst
      | cons p t =>
        simp only [List.head?_cons, Option.some.injEq] at hfirst
        subst hfirst
        rcases k2 with ⟨a1, a2⟩ | ⟨pre, x, post, a1, a2, _, a4⟩
        · refine ⟨[], p, t, rfl, ?_, a2⟩
          exact Prod.ext k1 a1
        · refine ⟨pre, x, post, a1, ?_, a4⟩
          exact Prod.ext k1 (by rw [a2, Nat.zero_add])

theorem list_set_mid {α : Type} (x y : α) (B : List α) :
    ∀ A : List α, (A ++ x :: B).set A.length y = A ++ y :: B := by
  intro A
  induction A with
  | nil => rfl
  | cons a t ih =>
    simp only [List.cons_append, List.length_cons, List.set_cons_succ, ih]

theorem list_get_mid {α : Type} (x : α) (B : List α) :
    ∀ A : List α, (A ++ x :: B)[A.length]? = some x := by
  intro A
  induction A with
  | nil => simp
  | cons a t ih => simpa using ih

theorem list_get_mid_other {α : Type} (x y : α) (B : List α) :
    ∀ (A : List α) (j : Nat), j ≠ A.length → (A ++ y :: B)[j]? = (A ++ x :: B)[j]? := by
  intro A
  induction A with
  | nil =>
    intro j hj
    cases j with
    | zero => exact absurd rfl hj
    | succ j => simp
  | cons a t ih =>
    intro j hj
    cases j with
    | zero => simp
    | succ j =>
      simp only [List.cons_append, List.getElem?_cons_succ]
      exact ih j (fun e => hj (by simp [e]))

theorem mem_around_index {α : Type} (x : α) (B : List α) :
    ∀ (A : List α) (l : α), l ∈ A ++ B →
      ∃ j, j ≠ A.length ∧ (A ++ x :: B)[j]? = some l := by
  intro A
  induction A with
  | nil =>
    intro l hl
    simp only [List.nil_append] at hl
    obtain ⟨n, hn⟩ := List.mem_iff_getElem?.mp hl
    exact ⟨n + 1, by simp, by simpa using hn⟩
  | cons a t ih =>
    intro l hl
    rcases List.mem_cons.mp hl with e | hm
    · exact ⟨0, by simp, by simp [e]⟩
    · obtain ⟨j, h1, h2⟩ := ih l hm
      exact ⟨j + 1, by simpa using h1, by simpa using h2⟩

/-- The set index and the tag that `accessCache` computes, for a geometry that
`main` can set up. -/
theorem access_index {s b : Nat} (hs : s < 31) (hsb : s + b < 64) (address : Nat) :
    to_int (((address &&& setMask_of s b) >>> b : Nat) : Int)
        = (((address >>> b) % 2 ^ s : Nat) : Int)
      ∧ (address >>> b) % 2 ^ s < 2 ^ s := by
  have hm : setMask_of s b = (2 ^ s - 1) <<< b :=
    setMask_of_eq_table s (by omega) b (by omega) hsb
  have hlt : (address >>> b) % 2 ^ s < 2 ^ s := Nat.mod_lt _ (Nat.two_pow_pos s)
  have h30 : 2 ^ s ≤ 2 ^ 30 := Nat.pow_le_pow_right (by decide) (by omega)
  refine ⟨?_, hlt⟩
  rw [hm, mask_shift]
  apply to_int_of_range
  · omega
  · have : (2 : Nat) ^ 30 = 1073741824 := by norm_num
    omega

/-- One access in a reachable state.  The addressed set is `A ++ old :: B`,
where `old` is the line the access uses; afterwards the set is `A ++ new :: B`
and the counter has advanced by one.  The access is a hit on `old`, or fills
the first invalid line `old`, or replaces the line `old` whose time stamp is
below that of every other line of the set. -/
theorem accessCache_cases {s E b : Nat} (hs : s < 31) (hsb : s + b < 64) (hE : 1 ≤ E)
    {U : List (Nat × Nat)} {c : Sim} (hI : SimInv s E b U c) (hT : c.timeStamp < 2147483647)
    (address : Nat) :
    ∃ (A : List CacheLine) (old : CacheLine) (B : List CacheLine) (new : CacheLine) (st : Int),
      c.myCache[(address >>> b) % 2 ^ s]? = some (A ++ old :: B)
        ∧ accessCache c address
            = some (st, { c with timeStamp := c.timeStamp + 1,
                                 myCache := c.myCache.set ((address >>> b) % 2 ^ s)
                                   (A ++ new :: B) })
        ∧ used_line c address = some ((address >>> b) % 2 ^ s, A.length)
        ∧ (∀ l, l ∈ A → l.valid = 1
            ∧ l.tag ≠ to_size_t (to_int ((address >>> (b + s) : Nat) : Int)))
        ∧ ((st = STATE_HIT ∧ old.valid = 1
              ∧ old.tag = to_size_t (to_int ((address >>> (b + s) : Nat) : Int))
              ∧ new = { old with timeStamp := c.timeStamp + 1 })
          ∨ (st = STATE_MISS ∧ old.valid = 0 ∧ (∀ l, l ∈ B → l.valid = 0)
              ∧ new = { valid := 1, timeStamp := c.timeStamp + 1,
                        tag := to_size_t (to_int ((address >>> (b + s) : Nat) : Int)) })
          ∨ (st = STATE_MISS_EVICT ∧ old.valid = 1
              ∧ old.tag ≠ to_size_t (to_int ((address >>> (b + s) : Nat) : Int))
              ∧ (∀ l, l ∈ B → l.valid = 1
                  ∧ l.tag ≠ to_size_t (to_int ((address >>> (b + s) : Nat) : Int)))
              ∧ (∀ l, l ∈ A ++ B → old.timeStamp < l.timeStamp)
              ∧ new = { valid := 1, timeStamp := c.timeStamp + 1,
                        tag := to_size_t (to_int ((address >>> (b + s) : Nat) : Int)) }))
        ∧ new.valid = 1 ∧ new.timeStamp = c.timeStamp + 1
        ∧ (A ++ old :: B).length = E
        ∧ ∃ vs2 rest2, A ++ new :: B = vs2 ++ rest2 ∧ (∀ l, l ∈ vs2 → l.valid = 1)
            ∧ (∀ l, l ∈ rest2 → l.valid = 0) := by
  obtain ⟨hidx, hlt⟩ := access_index hs hsb address
  have hget : ∃ set, c.myCache[(address >>> b) % 2 ^ s]? = some set := by
    have : (address >>> b) % 2 ^ s < c.myCache.length := by rw [hI.sets]; exact hlt
    exact ⟨_, List.getElem?_eq_getElem this⟩
  obtain ⟨set, hset⟩ := hget
  obtain ⟨hlen, vs, rest, hsplit, hv, hr⟩ := hI.lines _ set hset
  have hfirst : ∃ first, set.head? = some first := by
    cases set with
    | nil => simp at hlen; omega
    | cons f t => exact ⟨f, rfl⟩
  obtain ⟨first, hfirst⟩ := hfirst
  have hfirst0 : set[0]? = some first := by
    cases set with
    | nil => simp at hfirst
    | cons f t => simpa using hfirst
  have hnover : ¬ (c.timeStamp + 1 ≥ 2147483648) := by omega
  have hnneg : ¬ ((((address >>> b) % 2 ^ s : Nat) : Int) < 0) := by omega
  -- the common part of both functions
  have hacc : ∀ (r : Int × Nat) (l : CacheLine),
      access_loop (to_size_t (to_int ((address >>> (b + s) : Nat) : Int))) set 0 0
        first.timeStamp = r → set[r.2]? = some l →
      accessCache c address
          = some (r.1, Sim.mk c.setBits c.blockBits c.setMask (c.timeStamp + 1)
              (c.myCache.set ((address >>> b) % 2 ^ s)
                (set.set r.2
                  (if r.1 = STATE_HIT then CacheLine.mk l.valid (c.timeStamp + 1) l.tag
                   else CacheLine.mk 1 (c.timeStamp + 1)
                    (to_size_t (to_int ((address >>> (b + s) : Nat) : Int)))))))
        ∧ used_line c address = some ((address >>> b) % 2 ^ s, r.2) := by
    intro r l hr2 hl
    constructor
    · unfold accessCache
      simp only [hI.setMask, hI.blockBits, hI.setBits, hidx, hnneg, if_false, Int.toNat_ofNat,
        hset, hfirst0, hnover, hr2, hl]
    · unfold used_line
      simp only [hI.setMask, hI.blockBits, hI.setBits, hidx, Int.toNat_ofNat, hset, hfirst0, hr2]
  rw [hsplit] at hfirst
  rcases access_loop_cases (to_size_t (to_int ((address >>> (b + s) : Nat) : Int))) vs rest
      first hfirst hv hr with
    ⟨pre, x, post, e, hx, hno, hloop⟩ | ⟨hno, x, post, e, hloop⟩
      | ⟨hno, e0, pre, x, post, e, hloop, hmin⟩
  · -- hit
    have hset2 : set = pre ++ x :: (post ++ rest) := by
      rw [hsplit, e, List.append_assoc, List.cons_append]
    have hxv : x.valid = 1 := hv x (by rw [e]; simp)
    rw [← hsplit] at hloop
    obtain ⟨k1, k2⟩ := hacc _ x hloop (by rw [hset2]; exact list_get_mid x _ pre)
    refine ⟨pre, x, post ++ rest, { x with timeStamp := c.timeStamp + 1 }, STATE_HIT,
      by rw [hset, hset2], ?_, k2, ?_, Or.inl ⟨rfl, hxv, hx, rfl⟩, hxv, rfl,
      by rw [← hset2]; exact hlen,
      pre ++ { x with timeStamp := c.timeStamp + 1 } :: post, rest,
      by rw [List.append_assoc, List.cons_append], ?_, hr⟩
    · rw [k1]
      simp only [if_true]
      rw [hset2, list_set_mid]
    · intro l hl
      exact ⟨hv l (by rw [e]; simp [hl]), hno l hl⟩
    · intro l hl
      simp only [List.mem_append, List.mem_cons] at hl
      rcases hl with h | h | h
      · exact hv l (by rw [e]; simp [h])
      · rw [h]
        exact hxv
      · exact hv l (by rw [e]; simp [h])
  · -- miss, an invalid line is filled
    have hset2 : set = vs ++ x :: post := by rw [hsplit, e]
    rw [← hsplit] at hloop
    obtain ⟨k1, k2⟩ := hacc _ x hloop (by rw [hset2]; exact list_get_mid x _ vs)
    refine ⟨vs, x, post, _, STATE_MISS, by rw [hset, hset2], ?_, k2, ?_,
      Or.inr (Or.inl ⟨rfl, hr x (by rw [e]; simp), fun l hl => hr l (by rw [e]; simp [hl]), rfl⟩),
      rfl, rfl, by rw [← hset2]; exact hlen,
      vs ++ [CacheLine.mk 1 (c.timeStamp + 1)
        (to_size_t (to_int ((address >>> (b + s) : Nat) : Int)))], post,
      by rw [List.append_assoc]; rfl, ?_, fun l hl => hr l (by rw [e]; simp [hl])⟩
    · rw [k1]
      simp only [show ¬ (STATE_MISS = STATE_HIT) from by decide, if_false]
      rw [hset2, list_set_mid]
    · intro l hl
      exact ⟨hv l hl, hno l hl⟩
    · intro l hl
      simp only [List.mem_append, List.mem_singleton] at hl
      rcases hl with h | h
      · exact hv l h
      · rw [h]
  · -- miss, a valid line is replaced
    have hset2 : set = pre ++ x :: post := by rw [hsplit, e0, e, List.append_nil]
    rw [← hsplit] at hloop
    obtain ⟨k1, k2⟩ := hacc _ x hloop (by rw [hset2]; exact list_get_mid x _ pre)
    have hxv : x.valid = 1 := hv x (by rw [e]; simp)
    refine ⟨pre, x, post, _, STATE_MISS_EVICT, by rw [hset, hset2], ?_, k2, ?_,
      Or.inr (Or.inr ⟨rfl, hxv, hno x (by rw [e]; simp), ?_, ?_, rfl⟩),
      rfl, rfl, by rw [← hset2]; exact hlen,
      pre ++ CacheLine.mk 1 (c.timeStamp + 1)
        (to_size_t (to_int ((address >>> (b + s) : Nat) : Int))) :: post, [],
      by rw [List.append_nil], ?_, fun l hl => absurd hl (List.not_mem_nil l)⟩
    · rw [k1]
      simp only [show ¬ (STATE_MISS_EVICT = STATE_HIT) from by decide, if_false]
      rw [hset2, list_set_mid]
    · intro l hl
      exact ⟨hv l (by rw [e]; simp [hl]), hno l (by rw [e]; simp [hl])⟩
    · intro l hl
      exact ⟨hv l (by rw [e]; simp [hl]), hno l (by rw [e]; simp [hl])⟩
    · intro l hl
      have hlv : l ∈ vs := by
        rw [e]
        simp only [List.mem_append, List.mem_cons] at hl ⊢
        rcases hl with h | h
        · exact Or.inl h
        · exact Or.inr (Or.inr h)
      have hle := hmin l hlv
      obtain ⟨j, hj, hjl⟩ := mem_around_index x post pre l hl
      rw [← hset2] at hjl
      obtain ⟨n1, a1, a2, _⟩ := hI.used _ j set l hset hjl (by rw [hv l hlv]; decide)
      obtain ⟨n2, b1, b2, _⟩ := hI.used _ pre.length set x hset
        (by rw [hset2]; exact list_get_mid x _ pre) (by rw [hxv]; decide)
      have hne : l.timeStamp ≠ x.timeStamp := by
        intro heq
        have hn : n1 = n2 := by omega
        rw [hn, b2] at a2
        simp only [Option.some.injEq, Prod.mk.injEq, true_and] at a2
        exact hj a2.symm
      omega
    · intro l hl
      simp only [List.mem_append, List.mem_cons] at hl
      rcases hl with h | h | h
      · exact hv l (by rw [e]; simp [h])
      · rw [h]
      · exact hv l (by rw [e]; simp [h])

/-- An access in a reachable state returns and leads to a reachable state. -/
theorem accessCache_inv {s E b : Nat} (hs : s < 31) (hsb : s + b < 64) (hE : 1 ≤ E)
    {U : List (Nat × Nat)} {c : Sim} (hI : SimInv s E b U c) (hT : c.timeStamp < 2147483647)
    (address : Nat) :
    ∃ r u, accessCache c address = some r ∧ used_line c address = some u
      ∧ SimInv s E b (U ++ [u]) r.2 := by
  obtain ⟨A, old, B, new, st, h1, h2, h3, _, _, hnv, hnt, hlen, vs2, rest2, hp1, hp2, hp3⟩ :=
    accessCache_cases hs hsb hE hI hT address
  refine ⟨_, _, h2, h3, ?_⟩
  have hidx : (address >>> b) % 2 ^ s < c.myCache.length := by
    by_contra hn
    rw [List.getElem?_eq_none (by omega)] at h1
    exact absurd h1 (by simp)
  refine ⟨hI.setBits, hI.blockBits, hI.setMask, ?_, ?_, ?_, ?_⟩
  · show (c.myCache.set _ _).length = 2 ^ s
    rw [List.length_set]
    exact hI.sets
  · show c.timeStamp + 1 = ((U ++ [((address >>> b) % 2 ^ s, A.length)]).length : Int)
    rw [hI.time]
    simp
  · intro i set hset
    change (c.myCache.set _ _)[i]? = some set at hset
    rw [List.getElem?_set] at hset
    by_cases hi : (address >>> b) % 2 ^ s = i
    · rw [if_pos hi, if_pos hidx] at hset
      simp only [Option.some.injEq] at hset
      rw [← hset]
      refine ⟨?_, vs2, rest2, hp1, hp2, hp3⟩
      rw [← hlen]
      simp
    · rw [if_neg hi] at hset
      exact hI.lines i set hset
  · intro i j set l hset hl hlv
    change (c.myCache.set _ _)[i]? = some set at hset
    rw [List.getElem?_set] at hset
    have hold : (i, j) ≠ ((address >>> b) % 2 ^ s, A.length) →
        ∃ set0, c.myCache[i]? = some set0 ∧ set0[j]? = some l := by
      intro hne
      by_cases hi : (address >>> b) % 2 ^ s = i
      · rw [if_pos hi, if_pos hidx] at hset
        simp only [Option.some.injEq] at hset
        have hj : j ≠ A.length := by
          intro e
          exact hne (by rw [e, hi])
        refine ⟨A ++ old :: B, by rw [← hi]; exact h1, ?_⟩
        rw [← hset, list_get_mid_other old new B A j hj] at hl
        exact hl
      · rw [if_neg hi] at hset
        exact ⟨set, hset, hl⟩
    by_cases hu : (i, j) = ((address >>> b) % 2 ^ s, A.length)
    · -- the line the access used
      have hi : (address >>> b) % 2 ^ s = i := (congrArg Prod.fst hu).symm
      have hj : j = A.length := congrArg Prod.snd hu
      rw [if_pos hi, if_pos hidx] at hset
      simp only [Option.some.injEq] at hset
      rw [← hset, hj, list_get_mid] at hl
      simp only [Option.some.injEq] at hl
      refine ⟨U.length, ?_, ?_, ?_⟩
      · rw [← hl, hnt, hI.time]
      · rw [hu]
        exact List.getElem?_concat_length U _
      · intro m hm
        rw [List.getElem?_eq_none (by simp; omega)]
        simp
    · obtain ⟨set0, k1, k2⟩ := hold hu
      obtain ⟨n, a1, a2, a3⟩ := hI.used i j set0 l k1 k2 hlv
      have hn : n < U.length := by
        by_contra hn
        rw [List.getElem?_eq_none (by omega)] at a2
        exact absurd a2 (by simp)
      refine ⟨n, a1, by rw [List.getElem?_append_left hn]; exact a2, ?_⟩
      intro m hm
      by_cases hmU : m < U.length
      · rw [List.getElem?_append_left hmU]
        exact a3 m hm
      · by_cases hmU2 : m = U.length
        · rw [hmU2, List.getElem?_concat_length]
          intro e
          exact hu (Option.some.inj e).symm
        · rw [List.getElem?_eq_none (by simp; omega)]
          simp


/-- The state that `initCache` builds is reachable, with no access made. -/
theorem initCache_inv (s E b : Nat) (junk : Nat → Nat → CacheLine) :
    SimInv s E b [] (initCache s E b junk) := by
  refine ⟨rfl, rfl, rfl, ?_, rfl, ?_, ?_⟩
  · show ((List.range (2 ^ s)).map _).length = 2 ^ s
    rw [List.length_map, List.length_range]
  · intro i set hset
    change ((List.range (2 ^ s)).map _)[i]? = some set at hset
    rw [List.getElem?_map] at hset
    cases hk : (List.range (2 ^ s))[i]? with
    | none => rw [hk] at hset; exact absurd hset (by simp)
    | some k =>
      rw [hk] at hset
      simp only [Option.map_some', Option.some.injEq] at hset
      rw [← hset]
      refine ⟨by rw [List.length_map, List.length_range], [], _, rfl,
        fun l hl => absurd hl (List.not_mem_nil l), ?_⟩
      intro l hl
      obtain ⟨j, _, hj⟩ := List.mem_map.mp hl
      rw [← hj]
  · intro i j set l hset hl hlv
    change ((List.range (2 ^ s)).map _)[i]? = some set at hset
    rw [List.getElem?_map] at hset
    cases hk : (List.range (2 ^ s))[i]? with
    | none => rw [hk] at hset; exact absurd hset (by simp)
    | some k =>
      rw [hk] at hset
      simp only [Option.map_some', Option.some.injEq] at hset
      rw [← hset, List.getElem?_map] at hl
      cases hk2 : (List.range E)[j]? with
      | none => rw [hk2] at hl; exact absurd hl (by simp)
      | some j2 =>
        rw [hk2] at hl
        simp only [Option.map_some', Option.some.injEq] at hl
        rw [← hl] at hlv
        exact absurd rfl hlv

theorem uses_cons {c : Sim} {a : Nat} {r : Int × Sim} {u : Nat × Nat}
    (h1 : accessCache c a = some r) (h2 : used_line c a = some u) (t : List Nat) :
    uses c (a :: t) = u :: uses r.2 t := by
  rw [uses, h1, h2]
  rfl

/-- A trace run from a reachable state: every access returns, and the state
reached is reachable, the lines used being those of the accesses. -/
theorem run_trace_inv {s E b : Nat} (hs : s < 31) (hsb : s + b < 64) (hE : 1 ≤ E) :
    ∀ (trace : List Nat) (U : List (Nat × Nat)) (c : Sim), SimInv s E b U c →
      U.length + trace.length < 2147483648 →
      ∃ c2, run_trace c trace = some c2 ∧ SimInv s E b (U ++ uses c trace) c2
        ∧ (uses c trace).length = trace.length := by
  intro trace
  induction trace with
  | nil =>
    intro U c hI _
    refine ⟨c, rfl, ?_, rfl⟩
    rw [uses, List.append_nil]
    exact hI
  | cons a t ih =>
    intro U c hI hlen
    have hl1 : (a :: t).length = t.length + 1 := rfl
    have hT : c.timeStamp < 2147483647 := by
      rw [hI.time]
      omega
    obtain ⟨r, u, h1, h2, h3⟩ := accessCache_inv hs hsb hE hI hT a
    have hl2 : (U ++ [u]).length = U.length + 1 := by
      rw [List.length_append]
      rfl
    obtain ⟨c2, k1, k2, k3⟩ := ih (U ++ [u]) r.2 h3 (by omega)
    have e := uses_cons h1 h2 t
    refine ⟨c2, ?_, ?_, ?_⟩
    · rw [run_trace, h1, Option.some_bind]
      exact k1
    · rw [e]
      rw [List.append_assoc] at k2
      exact k2
    · rw [e, List.length_cons, k3, hl1]

/-! ## C39: when `accessCache` reports a hit -/

/-- C39.  Take a geometry that `main` can set up (`s < 31` set bits so that
`1 << setBits` is an `int`, `s + b < 64`, `E >= 1` lines), a trace of fewer than
`2 ^ 31 - 1` accesses run from the state `initCache` builds, and an address.
The access returns, and it returns `STATE_HIT` exactly when some valid line of
the set `(address >> b) mod 2 ^ s` holds the value that the `int` variable
`tagValue` has as an `unsigned long`: the tag `address >> (s + b)` cut to 32
bits and sign-extended.  For a tag below `2 ^ 31` this value is the tag itself.
Two addresses give the same value exactly when their tags agree modulo
`2 ^ 32`: tags that differ only in bits `32` and above are taken for the same
block. -/
theorem C39_hit_iff_line_holds_tag_as_int (s E b : Nat) (junk : Nat → Nat → CacheLine)
    (hs : s < 31) (hsb : s + b < 64) (hE : 1 ≤ E) (trace : List Nat)
    (hlen : trace.length < 2147483647) (address : Nat) :
    ∃ c set st c2, run_trace (initCache s E b junk) trace = some c
      ∧ c.myCache[(address >>> b) % 2 ^ s]? = some set
      ∧ accessCache c address = some (st, c2)
      ∧ (st = STATE_HIT ↔ ∃ l, l ∈ set ∧ l.valid ≠ 0
          ∧ l.tag = to_size_t (to_int ((address >>> (s + b) : Nat) : Int)))
      ∧ (address >>> (s + b) < 2147483648 →
          to_size_t (to_int ((address >>> (s + b) : Nat) : Int))
            = ((address >>> (s + b) : Nat) : Int))
      ∧ ∀ a2 : Nat,
          to_size_t (to_int ((address >>> (s + b) : Nat) : Int))
              = to_size_t (to_int ((a2 >>> (s + b) : Nat) : Int))
            ↔ (address >>> (s + b)) % 4294967296 = (a2 >>> (s + b)) % 4294967296 := by
  obtain ⟨c, h1, hI, hU⟩ := run_trace_inv hs hsb hE trace [] (initCache s E b junk)
    (initCache_inv s E b junk) (by simp only [List.length_nil]; omega)
  have hT : c.timeStamp < 2147483647 := by
    rw [hI.time, List.nil_append, hU]
    omega
  obtain ⟨A, old, B, new, st, k1, k2, _, k4, k5, _⟩ := accessCache_cases hs hsb hE hI hT address
  rw [Nat.add_comm b s] at k4 k5
  refine ⟨c, _, st, _, h1, k1, k2, ?_, fun h => to_int_to_size_t_small _ h,
    fun a2 => tag_conv_eq_iff _ _⟩
  rcases k5 with ⟨e, a1, a2, _⟩ | ⟨e, a1, a2, _⟩ | ⟨e, a1, a2, a3, _⟩
  · constructor
    · intro _
      exact ⟨old, by simp, by rw [a1]; decide, a2⟩
    · intro _
      exact e
  · constructor
    · intro h
      rw [e] at h
      exact absurd h (by decide)
    · rintro ⟨l, hl, hv, ht⟩
      exfalso
      simp only [List.mem_append, List.mem_cons] at hl
      rcases hl with h | h | h
      · exact (k4 l h).2 ht
      · rw [h] at hv
        exact hv a1
      · exact hv (a2 l h)
  · constructor
    · intro h
      rw [e] at h
      exact absurd h (by decide)
    · rintro ⟨l, hl, hv, ht⟩
      exfalso
      simp only [List.mem_append, List.mem_cons] at hl
      rcases hl with h | h | h
      · exact (k4 l h).2 ht
      · rw [h] at ht
        exact a2 ht
      · exact (a3 l h).2 ht

/-- C39, witness: one set bit, one line per set, one block bit.  After the
access to address `0` the access to address `0x400000000` is reported as a hit,
although the two addresses belong to the same set and have the tags `0` and
`2 ^ 32`. -/
theorem C39_hit_iff_line_holds_tag_as_int_witness :
    ∃ c c2, run_trace (initCache 1 1 1 (fun _ _ => CacheLine.mk 0 0 0)) [0] = some c
      ∧ accessCache c 17179869184 = some (STATE_HIT, c2)
      ∧ (17179869184 >>> 1) % 2 ^ 1 = (0 >>> 1) % 2 ^ 1
      ∧ 17179869184 >>> (1 + 1) = 4294967296 ∧ 0 >>> (1 + 1) = 0 := by
  obtain ⟨c, set, st, c2, h1, h2, h3, h4, _, _⟩ :=
    C39_hit_iff_line_holds_tag_as_int 1 1 1 (fun _ _ => CacheLine.mk 0 0 0) (by decide)
      (by decide) (by decide) [0] (by decide) 17179869184
  have hc : run_trace (initCache 1 1 1 (fun _ _ => CacheLine.mk 0 0 0)) [0]
      = some (Sim.mk 1 1 2 1 [[CacheLine.mk 1 1 0], [CacheLine.mk 0 0 0]]) := by
    decide
  rw [hc] at h1
  have hc2 : c = Sim.mk 1 1 2 1 [[CacheLine.mk 1 1 0], [CacheLine.mk 0 0 0]] :=
    (Option.some.inj h1).symm
  subst hc2
  have hset : set = [CacheLine.mk 1 1 0] := by
    have : (Sim.mk 1 1 2 1 [[CacheLine.mk 1 1 0], [CacheLine.mk 0 0 0]]).myCache[
        (17179869184 >>> 1) % 2 ^ 1]? = some [CacheLine.mk 1 1 0] := by decide
    rw [this] at h2
    exact (Option.some.inj h2).symm
  have hst : st = STATE_HIT := by
    apply h4.mpr
    rw [hset]
    exact ⟨CacheLine.mk 1 1 0, by simp, by decide, by decide⟩
  rw [hst] at h3
  exact ⟨_, c2, hc, h3, by decide, by decide, by decide⟩

/-! ## C40: what `accessCache` does on a miss -/

/-- C40.  Take a geometry that `main` can set up (`s < 31`, `s + b < 64`,
`E >= 1`), a trace of fewer than `2 ^ 31 - 1` accesses run from the state
`initCache` builds, and an address.  The access returns and advances the counter
`timeStamp` by one.  The addressed set, with `E` lines, has its valid lines
first.  When the access is not a hit, exactly one line `old` of the set is
overwritten, by a valid line with the tag of the address and the new value of
the counter as its time stamp; every other line of the cache is left as it was.
If the set has an invalid line, the result is `STATE_MISS` and `old` is the
first invalid line: the lines before it are valid, the lines after it invalid.
If every line of the set is valid, the result is `STATE_MISS_EVICT` and `old` is
the line whose time stamp is below that of every other line of the set; it is
the least recently used line: every other line of the set was used by an access
later than the last access that used `old`. -/
theorem C40_miss_fills_first_invalid_or_replaces_oldest (s E b : Nat)
    (junk : Nat → Nat → CacheLine) (hs : s < 31) (hsb : s + b < 64) (hE : 1 ≤ E)
    (trace : List Nat) (hlen : trace.length < 2147483647) (address : Nat) :
    ∃ (c : Sim) (A : List CacheLine) (old : CacheLine) (B : List CacheLine) (st : Int)
        (c2 : Sim),
      run_trace (initCache s E b junk) trace = some c
      ∧ c.myCache[(address >>> b) % 2 ^ s]? = some (A ++ old :: B)
      ∧ (A ++ old :: B).length = E
      ∧ accessCache c address = some (st, c2)
      ∧ c2.timeStamp = c.timeStamp + 1
      ∧ (∃ vs rest, A ++ old :: B = vs ++ rest ∧ (∀ l, l ∈ vs → l.valid = 1)
          ∧ (∀ l, l ∈ rest → l.valid = 0))
      ∧ (st ≠ STATE_HIT →
          c2.myCache = c.myCache.set ((address >>> b) % 2 ^ s)
              (A ++ CacheLine.mk 1 c2.timeStamp
                (to_size_t (to_int ((address >>> (s + b) : Nat) : Int))) :: B)
          ∧ ((∃ l, l ∈ A ++ old :: B ∧ l.valid = 0) →
              st = STATE_MISS ∧ (∀ l, l ∈ A → l.valid = 1) ∧ old.valid = 0
                ∧ ∀ l, l ∈ B → l.valid = 0)
          ∧ ((∀ l, l ∈ A ++ old :: B → l.valid ≠ 0) →
              st = STATE_MISS_EVICT
                ∧ (∀ l, l ∈ A ++ B → old.timeStamp < l.timeStamp)
                ∧ ∀ j l, j ≠ A.length → (A ++ old :: B)[j]? = some l →
                    ∃ n m : Nat, n < m
                      ∧ (uses (initCache s E b junk) trace)[n]?
                          = some ((address >>> b) % 2 ^ s, A.length)
                      ∧ (∀ k, n < k → (uses (initCache s E b junk) trace)[k]?
                          ≠ some ((address >>> b) % 2 ^ s, A.length))
                      ∧ (uses (initCache s E b junk) trace)[m]?
                          = some ((address >>> b) % 2 ^ s, j))) := by
  obtain ⟨c, h1, hI, hU⟩ := run_trace_inv hs hsb hE trace [] (initCache s E b junk)
    (initCache_inv s E b junk) (by simp only [List.length_nil]; omega)
  rw [List.nil_append] at hI
  have hT : c.timeStamp < 2147483647 := by
    rw [hI.time, hU]
    omega
  obtain ⟨A, old, B, new, st, k1, k2, _, k4, k5, _, _, k8, _⟩ :=
    accessCache_cases hs hsb hE hI hT address
  rw [Nat.add_comm b s] at k4 k5
  refine ⟨c, A, old, B, st, _, h1, k1, k8, k2, rfl, (hI.lines _ _ k1).2, ?_⟩
  intro hst
  rcases k5 with ⟨e, _⟩ | ⟨e, a1, a2, a3⟩ | ⟨e, a1, a2, a3, a4, a5⟩
  · exact absurd e hst
  · refine ⟨by rw [a3], ?_, ?_⟩
    · intro _
      exact ⟨e, fun l hl => (k4 l hl).1, a1, a2⟩
    · intro hall
      exact absurd a1 (hall old (by simp))
  · refine ⟨by rw [a5], ?_, ?_⟩
    · rintro ⟨l, hl, hv⟩
      exfalso
      simp only [List.mem_append, List.mem_cons] at hl
      rcases hl with h | h | h
      · rw [(k4 l h).1] at hv
        exact absurd hv (by decide)
      · rw [h, a1] at hv
        exact absurd hv (by decide)
      · rw [(a3 l h).1] at hv
        exact absurd hv (by decide)
    · intro hall
      refine ⟨e, a4, ?_⟩
      intro j l hj hl
      have hlm : l ∈ A ++ old :: B := List.mem_iff_getElem?.mpr ⟨j, hl⟩
      have hlm2 : l ∈ A ++ B := by
        obtain ⟨hj2, hget⟩ := List.getElem?_eq_some.mp hl
        simp only [List.mem_append, List.mem_cons] at hlm ⊢
        rcases hlm with h | h | h
        · exact Or.inl h
        · exfalso
          by_cases hjA : j < A.length
          · rw [List.getElem?_append_left hjA] at hl
            have hmem : l ∈ A := List.mem_iff_getElem?.mpr ⟨j, hl⟩
            have := a4 l (by simp [hmem])
            rw [h] at this
            exact lt_irrefl _ this
          · rw [List.getElem?_append_right (by omega)] at hl
            have hpos : 0 < j - A.length := by omega
            obtain ⟨q, hq⟩ : ∃ q, j - A.length = q + 1 := ⟨j - A.length - 1, by omega⟩
            rw [hq, List.getElem?_cons_succ] at hl
            have hmem : l ∈ B := List.mem_iff_getElem?.mpr ⟨q, hl⟩
            have := a4 l (by simp [hmem])
            rw [h] at this
            exact lt_irrefl _ this
        · exact Or.inr h
      obtain ⟨n1, b1, b2, b3⟩ := hI.used _ A.length _ old k1 (list_get_mid old B A)
        (by rw [a1]; decide)
      obtain ⟨n2, d1, d2, _⟩ := hI.used _ j _ l k1 hl (hall l hlm)
      have hlt := a4 l hlm2
      exact ⟨n1, n2, by omega, b2, b3, d2⟩

/-- C40, witness: one set bit, two lines per set, one block bit.  After the
accesses to the addresses `0` and `4`, which fill the two lines of set `0`, the
access to address `8` replaces line `0`, the line used longest ago. -/
theorem C40_miss_fills_first_invalid_or_replaces_oldest_witness :
    (run_trace (initCache 1 2 1 (fun _ _ => CacheLine.mk 0 0 0)) [0, 4]
        = some (Sim.mk 1 1 2 2 [[CacheLine.mk 1 1 0, CacheLine.mk 1 2 1],
            [CacheLine.mk 0 0 0, CacheLine.mk 0 0 0]])
      ∧ accessCache (Sim.mk 1 1 2 2 [[CacheLine.mk 1 1 0, CacheLine.mk 1 2 1],
            [CacheLine.mk 0 0 0, CacheLine.mk 0 0 0]]) 8
        = some (STATE_MISS_EVICT, Sim.mk 1 1 2 3 [[CacheLine.mk 1 3 2, CacheLine.mk 1 2 1],
            [CacheLine.mk 0 0 0, CacheLine.mk 0 0 0]]))
    ∧ ∃ (c : Sim) (A : List CacheLine) (old : CacheLine) (B : List CacheLine) (st : Int)
        (c2 : Sim),
      run_trace (initCache 1 2 1 (fun _ _ => CacheLine.mk 0 0 0)) [0, 4] = some c
      ∧ c.myCache[(8 >>> 1) % 2 ^ 1]? = some (A ++ old :: B)
      ∧ (A ++ old :: B).length = 2
      ∧ accessCache c 8 = some (st, c2)
      ∧ c2.timeStamp = c.timeStamp + 1
      ∧ (∃ vs rest, A ++ old :: B = vs ++ rest ∧ (∀ l, l ∈ vs → l.valid = 1)
          ∧ (∀ l, l ∈ rest → l.valid = 0))
      ∧ (st ≠ STATE_HIT →
          c2.myCache = c.myCache.set ((8 >>> 1) % 2 ^ 1)
              (A ++ CacheLine.mk 1 c2.timeStamp
                (to_size_t (to_int ((8 >>> (1 + 1) : Nat) : Int))) :: B)
          ∧ ((∃ l, l ∈ A ++ old :: B ∧ l.valid = 0) →
              st = STATE_MISS ∧ (∀ l, l ∈ A → l.valid = 1) ∧ old.valid = 0
                ∧ ∀ l, l ∈ B → l.valid = 0)
          ∧ ((∀ l, l ∈ A ++ old :: B → l.valid ≠ 0) →
              st = STATE_MISS_EVICT
                ∧ (∀ l, l ∈ A ++ B → old.timeStamp < l.timeStamp)
                ∧ ∀ j l, j ≠ A.length → (A ++ old :: B)[j]? = some l →
                    ∃ n m : Nat, n < m
                      ∧ (uses (initCache 1 2 1 (fun _ _ => CacheLine.mk 0 0 0)) [0, 4])[n]?
                          = some ((8 >>> 1) % 2 ^ 1, A.length)
                      ∧ (∀ k, n < k →
                          (uses (initCache 1 2 1 (fun _ _ => CacheLine.mk 0 0 0)) [0, 4])[k]?
                            ≠ some ((8 >>> 1) % 2 ^ 1, A.length))
                      ∧ (uses (initCache 1 2 1 (fun _ _ => CacheLine.mk 0 0 0)) [0, 4])[m]?
                          = some ((8 >>> 1) % 2 ^ 1, j))) :=
  ⟨⟨by decide, by decide⟩,
    C40_miss_fills_first_invalid_or_replaces_oldest 1 2 1 (fun _ _ => CacheLine.mk 0 0 0)
      (by decide) (by decide) (by decide) [0, 4] (by decide) 8⟩

/-! ## The matrix transpose: packed arrays -/

theorem testBit_small {d n : Nat} (hd : d < 65536) (hn : 16 ≤ n) : d.testBit n = false := by
  apply Nat.testBit_eq_false_of_lt
  calc d < 2 ^ 16 := by norm_num; exact hd
    _ ≤ 2 ^ n := Nat.pow_le_pow_right (by decide) hn

theorem digit_lt (x p : Nat) : digit x p < 65536 := Nat.mod_lt _ (by decide)

theorem digit_testBit (x p n : Nat) :
    (digit x p).testBit n = (decide (n < 16) && x.testBit (16 * p + n)) := by
  unfold digit
  have h : (65536 : Nat) = 2 ^ 16 := by norm_num
  rw [h, Nat.testBit_mod_two_pow, Nat.testBit_shiftRight]

/-- Writing the digit `w` at place `p`. -/
theorem digit_update (x p w q : Nat) (hw : w < 65536) :
    digit (x ^^^ ((digit x p ^^^ w) <<< (16 * p))) q = if q = p then w else digit x q := by
  apply Nat.eq_of_testBit_eq
  intro n
  rw [digit_testBit, Nat.testBit_xor, Nat.testBit_shiftLeft, Nat.testBit_xor, digit_testBit]
  by_cases hq : q = p
  · subst hq
    rw [if_pos rfl]
    by_cases hn : n < 16
    · have e : 16 * q + n - 16 * q = n := by omega
      have g : 16 * q + n ≥ 16 * q := by omega
      simp only [hn, decide_True, Bool.true_and, e, g]
      cases x.testBit (16 * q + n) <;> cases w.testBit n <;> rfl
    · have hn2 : 16 ≤ n := by omega
      simp [hn, testBit_small hw hn2]
  · rw [if_neg hq, digit_testBit]
    by_cases hn : n < 16
    · simp only [hn, decide_True, Bool.true_and]
      by_cases hge : 16 * q + n ≥ 16 * p
      · have hbig : 16 ≤ 16 * q + n - 16 * p := by omega
        have hn2 : ¬ (16 * q + n - 16 * p < 16) := by omega
        rw [testBit_small hw hbig]
        simp [hn2]
      · simp [hge]
    · simp [hn]

theorem pack_bits_testBit (g : Nat → Nat) (hg : ∀ p, g p < 65536) :
    ∀ (n m : Nat),
      ((List.range n).foldl (fun x p => x ^^^ (g p <<< (16 * p))) 0).testBit m
        = (decide (m / 16 < n) && (g (m / 16)).testBit (m % 16)) := by
  intro n
  induction n with
  | zero =>
    intro m
    simp
  | succ n ih =>
    intro m
    rw [List.range_succ, List.foldl_append, List.foldl_cons, List.foldl_nil, Nat.testBit_xor, ih,
      Nat.testBit_shiftLeft]
    by_cases h1 : m / 16 < n
    · have h2 : ¬ (m ≥ 16 * n) := by omega
      have h3 : m / 16 < n + 1 := by omega
      simp [h1, h2, h3]
    · by_cases h4 : m / 16 = n
      · have h2 : m ≥ 16 * n := by omega
        have h3 : m / 16 < n + 1 := by omega
        have h5 : m - 16 * n = m % 16 := by omega
        simp [h1, h2, h3, h5, h4]
      · have h2 : m ≥ 16 * n := by omega
        have h3 : ¬ (m / 16 < n + 1) := by omega
        have h5 : 16 ≤ m - 16 * n := by omega
        simp [h1, h2, h3, testBit_small (hg n) h5]

/-- The digits of a packed array are the numbers packed, modulo `2 ^ 16`. -/
theorem digit_pack (rows cols : Nat) (g : Nat → Nat → Nat) (p : Nat) (hp : p < rows * cols) :
    digit (pack rows cols g).bits p = g (p / cols) (p % cols) % 65536 := by
  apply Nat.eq_of_testBit_eq
  intro n
  rw [digit_testBit]
  show (decide (n < 16) && ((List.range (rows * cols)).foldl
    (fun x p => x ^^^ ((g (p / cols) (p % cols) % 65536) <<< (16 * p))) 0).testBit (16 * p + n)) = _
  rw [pack_bits_testBit (fun p => g (p / cols) (p % cols) % 65536)
    (fun p => Nat.mod_lt _ (by decide))]
  by_cases hn : n < 16
  · have e1 : (16 * p + n) / 16 = p := by omega
    have e2 : (16 * p + n) % 16 = n := by omega
    simp [hn, e1, e2, hp]
  · have hn2 : 16 ≤ n := by omega
    simp [hn, testBit_small (Nat.mod_lt (g (p / cols) (p % cols)) (by decide : 0 < 65536)) hn2]

/-! ## The matrix transpose: lists of rows -/

theorem getElem?_range_map {β : Type} (n : Nat) (F : Nat → β) (i : Nat) :
    ((List.range n).map F)[i]? = if i < n then some (F i) else none := by
  rw [List.getElem?_map]
  by_cases h : i < n
  · rw [if_pos h, List.getElem?_range h]
    rfl
  · rw [if_neg h, List.getElem?_eq_none (by simp; omega)]
    rfl

theorem rd_mat_of {α : Type} (r c : Nat) (g : Nat → Nat → α) (i j : Nat) :
    (list_cells α).rd (mat_of r c g) i j = if i < r ∧ j < c then some (g i j) else none := by
  show ((mat_of r c g)[i]?).bind (fun row => row[j]?) = _
  unfold mat_of
  rw [getElem?_range_map]
  by_cases hi : i < r
  · rw [if_pos hi, Option.some_bind, getElem?_range_map]
    by_cases hj : j < c
    · rw [if_pos hj, if_pos ⟨hi, hj⟩]
    · rw [if_neg hj, if_neg (fun h => hj h.2)]
  · rw [if_neg hi, if_neg (fun h => hi h.1)]
    rfl

theorem mat_of_congr {α : Type} (r c : Nat) (g g2 : Nat → Nat → α)
    (h : ∀ i j, i < r → j < c → g i j = g2 i j) : mat_of r c g = mat_of r c g2 := by
  unfold mat_of
  apply List.map_congr_left
  intro i hi
  apply List.map_congr_left
  intro j hj
  exact h i j (List.mem_range.mp hi) (List.mem_range.mp hj)

theorem wr_mat_of {α : Type} (r c : Nat) (g : Nat → Nat → α) (i j : Nat) (v : α) :
    (list_cells α).wr (mat_of r c g) i j v
      = if i < r ∧ j < c
        then some (mat_of r c (fun a b => if a = i ∧ b = j then v else g a b)) else none := by
  show ((mat_of r c g)[i]?).bind
    (fun row => if j < row.length then some ((mat_of r c g).set i (row.set j v)) else none) = _
  have hrow : (mat_of r c g)[i]? = if i < r then some ((List.range c).map (fun b => g i b))
      else none := by
    unfold mat_of
    exact getElem?_range_map r _ i
  rw [hrow]
  by_cases hi : i < r
  · rw [if_pos hi, Option.some_bind, List.length_map, List.length_range]
    by_cases hj : j < c
    · rw [if_pos hj, if_pos ⟨hi, hj⟩]
      congr 1
      apply List.ext_getElem?
      intro a
      rw [List.getElem?_set]
      unfold mat_of
      rw [getElem?_range_map, getElem?_range_map, List.length_map, List.length_range]
      by_cases ha : i = a
      · subst ha
        rw [if_pos rfl, if_pos hi, if_pos hi]
        congr 1
        apply List.ext_getElem?
        intro b
        rw [List.getElem?_set, getElem?_range_map, getElem?_range_map, List.length_map,
          List.length_range]
        by_cases hb : j = b
        · subst hb
          rw [if_pos rfl, if_pos hj, if_pos hj]
          beta_reduce
          rw [if_pos ⟨rfl, rfl⟩]
        · rw [if_neg hb]
          by_cases hbc : b < c
          · rw [if_pos hbc, if_pos hbc]
            beta_reduce
            rw [if_neg (fun h => hb h.2.symm)]
          · rw [if_neg hbc, if_neg hbc]
      · rw [if_neg ha]
        by_cases har : a < r
        · rw [if_pos har, if_pos har]
          congr 1
          apply List.map_congr_left
          intro b _
          beta_reduce
          rw [if_neg (fun h => ha h.1.symm)]
        · rw [if_neg har, if_neg har]
    · rw [if_neg hj, if_neg (fun h => hj h.2)]
  · rw [if_neg hi, if_neg (fun h => hi h.1)]
    rfl

/-- A matrix with `r` rows of `c` elements is the matrix of its elements. -/
theorem mat_of_cell (r c : Nat) (X : Mat Int) (hr : X.length = r)
    (hc : ∀ row, row ∈ X → row.length = c) : X = mat_of r c (cell X) := by
  apply List.ext_getElem?
  intro i
  unfold mat_of
  rw [getElem?_range_map]
  by_cases hi : i < r
  · rw [if_pos hi]
    have hi2 : i < X.length := by omega
    rw [List.getElem?_eq_getElem hi2]
    congr 1
    have hlen : X[i].length = c := hc _ (List.getElem_mem hi2)
    apply List.ext_getElem?
    intro j
    rw [getElem?_range_map]
    by_cases hj : j < c
    · rw [if_pos hj]
      have hj2 : j < X[i].length := by omega
      rw [List.getElem?_eq_getElem hj2]
      congr 1
      show X[i][j] = (((X[i]?).bind (fun row => row[j]?))).getD 0
      rw [List.getElem?_eq_getElem hi2, Option.some_bind, List.getElem?_eq_getElem hj2]
      rfl
    · rw [if_neg hj, List.getElem?_eq_none (by omega)]
  · rw [if_neg hi, List.getElem?_eq_none (by omega)]

/-! ## The matrix transpose: the packed run and the run on lists -/

theorem cell_index {c i j a b : Nat} (hj : j < c) (hb : b < c) :
    a * c + b = i * c + j ↔ a = i ∧ b = j := by
  constructor
  · intro h
    have h1 : (a * c + b) / c = a := by
      rw [Nat.add_comm, Nat.add_mul_div_right _ _ (by omega), Nat.div_eq_of_lt hb, Nat.zero_add]
    have h2 : (i * c + j) / c = i := by
      rw [Nat.add_comm, Nat.add_mul_div_right _ _ (by omega), Nat.div_eq_of_lt hj, Nat.zero_add]
    have ha : a = i := by rw [← h1, h, h2]
    subst ha
    exact ⟨rfl, by omega⟩
  · rintro ⟨rfl, rfl⟩
    rfl

theorem rd_decode (h : Nat → Int) (X : Packed) (i j : Nat) :
    (list_cells Int).rd (decode h X) i j
      = (packed_cells.rd X i j).map (fun t => h (t % 65536)) := by
  unfold decode
  rw [rd_mat_of]
  show _ = (if i < X.rows ∧ j < X.cols then some (digit X.bits (i * X.cols + j)) else none).map _
  by_cases hc : i < X.rows ∧ j < X.cols
  · rw [if_pos hc, if_pos hc, Option.map_some', Nat.mod_eq_of_lt (digit_lt _ _)]
  · rw [if_neg hc, if_neg hc]
    rfl

theorem wr_decode (h : Nat → Int) (X : Packed) (i j v : Nat) :
    (list_cells Int).wr (decode h X) i j (h (v % 65536))
      = (packed_cells.wr X i j v).map (decode h) := by
  unfold decode
  rw [wr_mat_of]
  show _ = (if i < X.rows ∧ j < X.cols then
      some (Packed.mk X.rows X.cols (X.bits ^^^
        ((digit X.bits (i * X.cols + j) ^^^ (v % 65536)) <<< (16 * (i * X.cols + j)))))
    else none).map _
  by_cases hc : i < X.rows ∧ j < X.cols
  · rw [if_pos hc, if_pos hc, Option.map_some']
    congr 1
    apply mat_of_congr
    intro a b _ hb
    show _ = h (digit (X.bits ^^^ _) (a * X.cols + b))
    rw [digit_update _ _ _ _ (Nat.mod_lt _ (by decide))]
    by_cases hab : a = i ∧ b = j
    · rw [if_pos hab, if_pos ((cell_index hc.2 hb).mpr hab)]
    · rw [if_neg hab, if_neg (fun e => hab ((cell_index hc.2 hb).mp e))]
  · rw [if_neg hc, if_neg hc]
    rfl

theorem andThen_rd_sim (h : Nat → Int) (X : Packed) (i j : Nat) (k2 : Int → Option (Mat Int))
    (k1 : Nat → Option Packed) (hk : ∀ t, k2 (h (t % 65536)) = (k1 t).map (decode h)) :
    andThen ((list_cells Int).rd (decode h X) i j) k2
      = (andThen (packed_cells.rd X i j) k1).map (decode h) := by
  rw [rd_decode]
  cases packed_cells.rd X i j with
  | none => rfl
  | some t => exact hk t

theorem andThen_sim (h : Nat → Int) (x2 : Option (Mat Int)) (x1 : Option Packed)
    (k2 : Mat Int → Option (Mat Int)) (k1 : Packed → Option Packed)
    (hx : x2 = x1.map (decode h)) (hk : ∀ Y, k2 (decode h Y) = (k1 Y).map (decode h)) :
    andThen x2 k2 = (andThen x1 k1).map (decode h) := by
  rw [hx]
  cases x1 with
  | none => rfl
  | some Y => exact hk Y

theorem andThen_wr_sim (h : Nat → Int) (X : Packed) (i j v : Nat)
    (k2 : Mat Int → Option (Mat Int)) (k1 : Packed → Option Packed)
    (hk : ∀ Y, k2 (decode h Y) = (k1 Y).map (decode h)) :
    andThen ((list_cells Int).wr (decode h X) i j (h (v % 65536))) k2
      = (andThen (packed_cells.wr X i j v) k1).map (decode h) :=
  andThen_sim h _ _ k2 k1 (wr_decode h X i j v) hk

theorem for_loop_sim (h : Nat → Int) (body2 : Nat → Mat Int → Option (Mat Int))
    (body1 : Nat → Packed → Option Packed)
    (hb : ∀ k Y, body2 k (decode h Y) = (body1 k Y).map (decode h)) (hi step : Nat) :
    ∀ (fuel k : Nat) (Y : Packed),
      for_loop body2 hi step fuel k (decode h Y)
        = (for_loop body1 hi step fuel k Y).map (decode h) := by
  intro fuel
  induction fuel with
  | zero =>
    intro k Y
    rfl
  | succ fuel ih =>
    intro k Y
    rw [for_loop, for_loop]
    by_cases hk : k < hi
    · rw [if_pos hk, if_pos hk]
      exact andThen_sim h _ _ _ _ (hb k Y) (fun Z => ih (k + step) Z)
    · rw [if_neg hk, if_neg hk]
      rfl

/-! ## The matrix transpose: every block of statements on both kinds of array -/

theorem copy_row8_sim (h : Nat → Int) (A B : Packed) (k j : Nat) :
    copy_row8 (list_cells Int) (decode h A) (decode h B) k j
      = (copy_row8 packed_cells A B k j).map (decode h) := by
  unfold copy_row8
  repeat (first
    | exact wr_decode h _ _ _ _
    | refine andThen_rd_sim h _ _ _ _ _ (fun _ => ?_)
    | refine andThen_wr_sim h _ _ _ _ _ _ (fun _ => ?_))

theorem swap_cells_sim (h : Nat → Int) (B : Packed) (k l : Nat) :
    swap_cells (list_cells Int) (decode h B) k l
      = (swap_cells packed_cells B k l).map (decode h) := by
  unfold swap_cells
  repeat (first
    | exact wr_decode h _ _ _ _
    | refine andThen_rd_sim h _ _ _ _ _ (fun _ => ?_)
    | refine andThen_wr_sim h _ _ _ _ _ _ (fun _ => ?_))

theorem col8_sim (h : Nat → Int) (A B : Packed) (i j : Nat) :
    col8 (list_cells Int) (decode h A) (decode h B) i j
      = (col8 packed_cells A B i j).map (decode h) := by
  unfold col8
  repeat (first
    | exact wr_decode h _ _ _ _
    | refine andThen_rd_sim h _ _ _ _ _ (fun _ => ?_)
    | refine andThen_wr_sim h _ _ _ _ _ _ (fun _ => ?_))

theorem quad_a_sim (h : Nat → Int) (A B : Packed) (k j : Nat) :
    quad_a (list_cells Int) (decode h A) (decode h B) k j
      = (quad_a packed_cells A B k j).map (decode h) := by
  unfold quad_a
  repeat (first
    | exact wr_decode h _ _ _ _
    | refine andThen_rd_sim h _ _ _ _ _ (fun _ => ?_)
    | refine andThen_wr_sim h _ _ _ _ _ _ (fun _ => ?_))

theorem quad_b_sim (h : Nat → Int) (A B : Packed) (k i : Nat) :
    quad_b (list_cells Int) (decode h A) (decode h B) k i
      = (quad_b packed_cells A B k i).map (decode h) := by
  unfold quad_b
  repeat (first
    | exact wr_decode h _ _ _ _
    | refine andThen_rd_sim h _ _ _ _ _ (fun _ => ?_)
    | refine andThen_wr_sim h _ _ _ _ _ _ (fun _ => ?_))

theorem quad_c_sim (h : Nat → Int) (A B : Packed) (k j : Nat) :
    quad_c (list_cells Int) (decode h A) (decode h B) k j
      = (quad_c packed_cells A B k j).map (decode h) := by
  unfold quad_c
  repeat (first
    | exact wr_decode h _ _ _ _
    | refine andThen_rd_sim h _ _ _ _ _ (fun _ => ?_)
    | refine andThen_wr_sim h _ _ _ _ _ _ (fun _ => ?_))

theorem diag_a_sim (h : Nat → Int) (A B : Packed) (k i j : Nat) :
    diag_a (list_cells Int) (decode h A) (decode h B) k i j
      = (diag_a packed_cells A B k i j).map (decode h) := by
  unfold diag_a
  repeat (first
    | exact wr_decode h _ _ _ _
    | refine andThen_rd_sim h _ _ _ _ _ (fun _ => ?_)
    | refine andThen_wr_sim h _ _ _ _ _ _ (fun _ => ?_))

theorem diag_b_sim (h : Nat → Int) (A B : Packed) (k i : Nat) :
    diag_b (list_cells Int) (decode h A) (decode h B) k i
      = (diag_b packed_cells A B k i).map (decode h) := by
  unfold diag_b
  repeat (first
    | exact wr_decode h _ _ _ _
    | refine andThen_rd_sim h _ _ _ _ _ (fun _ => ?_)
    | refine andThen_wr_sim h _ _ _ _ _ _ (fun _ => ?_))

theorem diag_c_sim (h : Nat → Int) (A B : Packed) (k i j : Nat) :
    diag_c (list_cells Int) (decode h A) (decode h B) k i j
      = (diag_c packed_cells A B k i j).map (decode h) := by
  unfold diag_c
  repeat (first
    | exact wr_decode h _ _ _ _
    | refine andThen_rd_sim h _ _ _ _ _ (fun _ => ?_)
    | refine andThen_wr_sim h _ _ _ _ _ _ (fun _ => ?_))

theorem diag_d_sim (h : Nat → Int) (B : Packed) (k i : Nat) :
    diag_d (list_cells Int) (decode h B) k i
      = (diag_d packed_cells B k i).map (decode h) := by
  unfold diag_d
  repeat (first
    | exact wr_decode h _ _ _ _
    | refine andThen_rd_sim h _ _ _ _ _ (fun _ => ?_)
    | refine andThen_wr_sim h _ _ _ _ _ _ (fun _ => ?_))

theorem diag_e_sim (h : Nat → Int) (B : Packed) (k i : Nat) :
    diag_e (list_cells Int) (decode h B) k i
      = (diag_e packed_cells B k i).map (decode h) := by
  unfold diag_e
  repeat (first
    | exact wr_decode h _ _ _ _
    | refine andThen_rd_sim h _ _ _ _ _ (fun _ => ?_)
    | refine andThen_wr_sim h _ _ _ _ _ _ (fun _ => ?_))

theorem swap4a_sim (h : Nat → Int) (B : Packed) (k l : Nat) :
    swap4a (list_cells Int) (decode h B) k l
      = (swap4a packed_cells B k l).map (decode h) := by
  unfold swap4a
  repeat (first
    | exact wr_decode h _ _ _ _
    | refine andThen_rd_sim h _ _ _ _ _ (fun _ => ?_)
    | refine andThen_wr_sim h _ _ _ _ _ _ (fun _ => ?_))

theorem swap4b_sim (h : Nat → Int) (B : Packed) (k l : Nat) :
    swap4b (list_cells Int) (decode h B) k l
      = (swap4b packed_cells B k l).map (decode h) := by
  unfold swap4b
  repeat (first
    | exact wr_decode h _ _ _ _
    | refine andThen_rd_sim h _ _ _ _ _ (fun _ => ?_)
    | refine andThen_wr_sim h _ _ _ _ _ _ (fun _ => ?_))

theorem swap_quarters_sim (h : Nat → Int) (B : Packed) (k j : Nat) :
    swap_quarters (list_cells Int) (decode h B) k j
      = (swap_quarters packed_cells B k j).map (decode h) := by
  unfold swap_quarters
  repeat (first
    | exact wr_decode h _ _ _ _
    | refine andThen_rd_sim h _ _ _ _ _ (fun _ => ?_)
    | refine andThen_wr_sim h _ _ _ _ _ _ (fun _ => ?_))

theorem col5_sim (h : Nat → Int) (A B : Packed) (i j : Nat) :
    col5 (list_cells Int) (decode h A) (decode h B) i j
      = (col5 packed_cells A B i j).map (decode h) := by
  unfold col5
  repeat (first
    | exact wr_decode h _ _ _ _
    | refine andThen_rd_sim h _ _ _ _ _ (fun _ => ?_)
    | refine andThen_wr_sim h _ _ _ _ _ _ (fun _ => ?_))


/-! ## The matrix transpose: the loops on both kinds of array -/

theorem trans32_rows_sim (h : Nat → Int) (A : Packed) (j : Nat) :
    ∀ (fuel i : Nat) (B : Packed),
      trans32_rows (list_cells Int) (decode h A) j fuel i (decode h B)
        = (trans32_rows packed_cells A j fuel i B).map (decode h) := by
  intro fuel
  induction fuel with
  | zero =>
    intro i B
    rfl
  | succ fuel ih =>
    intro i B
    rw [trans32_rows, trans32_rows]
    by_cases hi : i < 32
    · rw [if_pos hi, if_pos hi]
      by_cases hij : i = j
      · rw [if_pos hij, if_pos hij]
        refine andThen_sim h _ _ _ _
          (for_loop_sim h _ _ (fun k Y => copy_row8_sim h A Y k i) _ _ _ _ _) (fun Y => ?_)
        refine andThen_sim h _ _ _ _
          (for_loop_sim h _ _ (fun k Y =>
            for_loop_sim h _ _ (fun l Z => swap_cells_sim h Z k l) _ _ _ _ _) _ _ _ _ _)
          (fun Z => ?_)
        exact ih _ Z
      · rw [if_neg hij, if_neg hij]
        exact andThen_sim h _ _ _ _ (col8_sim h A B i j) (fun Y => ih _ Y)
    · rw [if_neg hi, if_neg hi]
      rfl

theorem trans32_sim (h : Nat → Int) (A B : Packed) :
    trans32 (list_cells Int) (decode h A) (decode h B)
      = (trans32 packed_cells A B).map (decode h) :=
  for_loop_sim h _ _ (fun j Y => trans32_rows_sim h A j 33 0 Y) _ _ _ _ _

theorem trans64_off_sim (h : Nat → Int) (A B : Packed) :
    trans64_off (list_cells Int) (decode h A) (decode h B)
      = (trans64_off packed_cells A B).map (decode h) := by
  unfold trans64_off
  refine for_loop_sim h _ _ (fun j Y => ?_) _ _ _ _ _
  refine for_loop_sim h _ _ (fun i Z => ?_) _ _ _ _ _
  by_cases hij : i = j
  · rw [if_pos hij, if_pos hij]
    rfl
  · rw [if_neg hij, if_neg hij]
    refine andThen_sim h _ _ _ _
      (for_loop_sim h _ _ (fun k W => quad_a_sim h A W k j) _ _ _ _ _) (fun W => ?_)
    refine andThen_sim h _ _ _ _
      (for_loop_sim h _ _ (fun k W => quad_b_sim h A W k i) _ _ _ _ _) (fun W => ?_)
    exact for_loop_sim h _ _ (fun k W => quad_c_sim h A W k j) _ _ _ _ _

theorem trans64_diag_sim (h : Nat → Int) (A B : Packed) :
    trans64_diag (list_cells Int) (decode h A) (decode h B)
      = (trans64_diag packed_cells A B).map (decode h) := by
  unfold trans64_diag
  refine for_loop_sim h _ _ (fun j Y => ?_) _ _ _ _ _
  refine andThen_sim h _ _ _ _
    (for_loop_sim h _ _ (fun k W => diag_a_sim h A W k j j) _ _ _ _ _) (fun W => ?_)
  refine andThen_sim h _ _ _ _
    (for_loop_sim h _ _ (fun k W => diag_b_sim h A W k j) _ _ _ _ _) (fun W => ?_)
  refine andThen_sim h _ _ _ _
    (for_loop_sim h _ _ (fun k W => diag_c_sim h A W k j j) _ _ _ _ _) (fun W => ?_)
  refine andThen_sim h _ _ _ _
    (for_loop_sim h _ _ (fun k W => diag_d_sim h W k j) _ _ _ _ _) (fun W => ?_)
  exact for_loop_sim h _ _ (fun k W => diag_e_sim h W k j) _ _ _ _ _

theorem trans64_last_sim (h : Nat → Int) (A B : Packed) :
    trans64_last (list_cells Int) (decode h A) (decode h B)
      = (trans64_last packed_cells A B).map (decode h) := by
  unfold trans64_last
  refine for_loop_sim h _ _ (fun j Y => ?_) _ _ _ _ _
  refine andThen_sim h _ _ _ _
    (for_loop_sim h _ _ (fun k W => copy_row8_sim h A W k j) _ _ _ _ _) (fun W => ?_)
  refine andThen_sim h _ _ _ _
    (for_loop_sim h _ _ (fun k W =>
      for_loop_sim h _ _ (fun l Z => swap4a_sim h Z k l) _ _ _ _ _) _ _ _ _ _) (fun W => ?_)
  refine andThen_sim h _ _ _ _
    (for_loop_sim h _ _ (fun k W => copy_row8_sim h A W k j) _ _ _ _ _) (fun W => ?_)
  refine andThen_sim h _ _ _ _
    (for_loop_sim h _ _ (fun k W =>
      for_loop_sim h _ _ (fun l Z => swap4b_sim h Z k l) _ _ _ _ _) _ _ _ _ _) (fun W => ?_)
  exact for_loop_sim h _ _ (fun k W => swap_quarters_sim h W k j) _ _ _ _ _

theorem trans64_sim (h : Nat → Int) (A B : Packed) :
    trans64 (list_cells Int) (decode h A) (decode h B)
      = (trans64 packed_cells A B).map (decode h) := by
  unfold trans64
  refine andThen_sim h _ _ _ _ (trans64_off_sim h A B) (fun W => ?_)
  refine andThen_sim h _ _ _ _ (trans64_diag_sim h A W) (fun Z => ?_)
  exact trans64_last_sim h A Z

theorem trans61_sim (h : Nat → Int) (A B : Packed) :
    trans61 (list_cells Int) (decode h A) (decode h B)
      = (trans61 packed_cells A B).map (decode h) := by
  unfold trans61
  refine andThen_sim h _ _ _ _
    (for_loop_sim h _ _ (fun j Y =>
      for_loop_sim h _ _ (fun i Z => col8_sim h A Z i j) _ _ _ _ _) _ _ _ _ _) (fun W => ?_)
  exact for_loop_sim h _ _ (fun i Z => col5_sim h A Z i 56) _ _ _ _ _

/-- The run of `transpose_submit` on matrices that packed arrays stand for is the
run on the packed arrays, decoded. -/
theorem transpose_submit_sim (h : Nat → Int) (M N : Nat) (A B : Packed) :
    transpose_submit (list_cells Int) M N (decode h A) (decode h B)
      = (transpose_submit packed_cells M N A B).map (decode h) := by
  unfold transpose_submit
  by_cases h1 : M = 32 ∧ N = 32
  · rw [if_pos h1, if_pos h1]
    exact trans32_sim h A B
  · rw [if_neg h1, if_neg h1]
    by_cases h2 : M = 64 ∧ N = 64
    · rw [if_pos h2, if_pos h2]
      exact trans64_sim h A B
    · rw [if_neg h2, if_neg h2]
      by_cases h3 : M = 61 ∧ N = 67
      · rw [if_pos h3, if_pos h3]
        exact trans61_sim h A B
      · rw [if_neg h3, if_neg h3]
        rfl

/-! ## The matrix transpose: the three graded shapes -/

theorem div_mod_cell {c i j : Nat} (hj : j < c) : (i * c + j) / c = i ∧ (i * c + j) % c = j := by
  constructor
  · rw [Nat.add_comm, Nat.add_mul_div_right _ _ (by omega), Nat.div_eq_of_lt hj, Nat.zero_add]
  · rw [Nat.add_comm, Nat.add_mul_mod_self_right, Nat.mod_eq_of_lt hj]

theorem cell_lt {r c i j : Nat} (hi : i < r) (hj : j < c) : i * c + j < r * c := by
  have h1 : (i + 1) * c ≤ r * c := Nat.mul_le_mul_right c hi
  have h2 : (i + 1) * c = i * c + c := by ring
  omega

/-- From the run on index arrays to the run on any matrices.  In the index
arrays the cell `(i, j)` of `A` holds the number `i * M + j` and the cell
`(i, j)` of `B` the number `N * M + i * N + j`; when the run leaves in every
cell `(j, i)` of `B` the number `i * M + j`, the run on matrices `A` and `B` of
these shapes leaves `A[i][j]` in `B[j][i]`. -/
theorem transpose_of_index_run (M N : Nat) (hsz : 2 * (N * M) ≤ 65536)
    (hrun : transpose_submit packed_cells M N (pack N M (fun i j => i * M + j))
        (pack M N (fun i j => N * M + i * N + j))
      = some (pack M N (fun j i => i * M + j)))
    (A B : Mat Int) (hA : A.length = N) (hA2 : ∀ row, row ∈ A → row.length = M)
    (hB : B.length = M) (hB2 : ∀ row, row ∈ B → row.length = N) :
    transpose_submit (list_cells Int) M N A B = some (mat_of M N (fun j i => cell A i j)) := by
  let h : Nat → Int := fun p =>
    if p < N * M then cell A (p / M) (p % M) else cell B ((p - N * M) / N) ((p - N * M) % N)
  have hdA : decode h (pack N M (fun i j => i * M + j)) = A := by
    rw [mat_of_cell N M A hA hA2]
    show mat_of N M _ = _
    apply mat_of_congr
    intro i j hi hj
    have hlt := cell_lt hi hj
    obtain ⟨e1, e2⟩ := @div_mod_cell M i j hj
    show h (digit (pack N M (fun i j => i * M + j)).bits (i * M + j)) = _
    rw [digit_pack _ _ _ _ hlt, e1, e2, Nat.mod_eq_of_lt (by omega)]
    show (if i * M + j < N * M then cell A ((i * M + j) / M) ((i * M + j) % M) else _) = _
    rw [if_pos hlt, e1, e2]
  have hNM : N * M = M * N := Nat.mul_comm N M
  have hdB : decode h (pack M N (fun i j => N * M + i * N + j)) = B := by
    rw [mat_of_cell M N B hB hB2]
    show mat_of M N _ = _
    apply mat_of_congr
    intro i j hi hj
    have hlt := cell_lt hi hj
    obtain ⟨e1, e2⟩ := @div_mod_cell N i j hj
    show h (digit (pack M N (fun i j => N * M + i * N + j)).bits (i * N + j)) = _
    rw [digit_pack _ _ _ _ hlt, e1, e2, Nat.mod_eq_of_lt (by omega)]
    show (if N * M + i * N + j < N * M then _
      else cell B ((N * M + i * N + j - N * M) / N) ((N * M + i * N + j - N * M) % N)) = _
    have e3 : N * M + i * N + j - N * M = i * N + j := by omega
    rw [if_neg (by omega), e3, e1, e2]
  have hdT : decode h (pack M N (fun j i => i * M + j)) = mat_of M N (fun j i => cell A i j) := by
    show mat_of M N _ = _
    apply mat_of_congr
    intro j i hj hi
    have hlt := cell_lt hj hi
    have hlt2 := cell_lt hi hj
    obtain ⟨e1, e2⟩ := @div_mod_cell N j i hi
    obtain ⟨e3, e4⟩ := @div_mod_cell M i j hj
    show h (digit (pack M N (fun j i => i * M + j)).bits (j * N + i)) = _
    rw [digit_pack _ _ _ _ hlt, e1, e2, Nat.mod_eq_of_lt (by omega)]
    show (if i * M + j < N * M then cell A ((i * M + j) / M) ((i * M + j) % M) else _) = _
    rw [if_pos hlt2, e3, e4]
  have hs := transpose_submit_sim h M N (pack N M (fun i j => i * M + j))
    (pack M N (fun i j => N * M + i * N + j))
  rw [hdA, hdB, hrun, Option.map_some', hdT] at hs
  exact hs

/-- The run on the index arrays of shape `M = N = 32`. -/
theorem index_run_32 :
    transpose_submit packed_cells 32 32 (pack 32 32 (fun i j => i * 32 + j))
        (pack 32 32 (fun i j => 32 * 32 + i * 32 + j))
      = some (pack 32 32 (fun j i => i * 32 + j)) := by
  decide!

/-- The run on the index arrays of shape `M = N = 64`. -/
theorem index_run_64 :
    transpose_submit packed_cells 64 64 (pack 64 64 (fun i j => i * 64 + j))
        (pack 64 64 (fun i j => 64 * 64 + i * 64 + j))
      = some (pack 64 64 (fun j i => i * 64 + j)) := by
  decide!

/-- The run on the index arrays of shape `M = 61`, `N = 67`. -/
theorem index_run_61_67 :
    transpose_submit packed_cells 61 67 (pack 67 61 (fun i j => i * 61 + j))
        (pack 61 67 (fun i j => 67 * 61 + i * 67 + j))
      = some (pack 61 67 (fun j i => i * 61 + j)) := by
  decide!

/-- For the three graded shapes `transpose_submit` returns, and leaves the
transpose of `A` in `B`. -/
theorem transpose_submit_graded (M N : Nat) (A B : Mat Int)
    (hshape : (M = 32 ∧ N = 32) ∨ (M = 64 ∧ N = 64) ∨ (M = 61 ∧ N = 67))
    (hA : A.length = N) (hA2 : ∀ row, row ∈ A → row.length = M)
    (hB : B.length = M) (hB2 : ∀ row, row ∈ B → row.length = N) :
    transpose_submit (list_cells Int) M N A B = some (mat_of M N (fun j i => cell A i j)) := by
  rcases hshape with ⟨rfl, rfl⟩ | ⟨rfl, rfl⟩ | ⟨rfl, rfl⟩
  · exact transpose_of_index_run 32 32 (by decide) index_run_32 A B hA hA2 hB hB2
  · exact transpose_of_index_run 64 64 (by decide) index_run_64 A B hA hA2 hB hB2
  · exact transpose_of_index_run 61 67 (by decide) index_run_61_67 A B hA hA2 hB hB2

/-! ## The matrix transpose: `is_transpose` -/

theorem is_transpose_row_true (M : Nat) (A B : Mat Int) (i : Nat)
    (hT : ∀ j, j < M → ∃ v, (list_cells Int).rd A i j = some v
      ∧ (list_cells Int).rd B j i = some v) :
    ∀ (fuel j : Nat), j ≤ M → M < fuel + j → is_transpose_row M A B i fuel j = some true := by
  intro fuel
  induction fuel with
  | zero =>
    intro j hjM hf
    omega
  | succ fuel ih =>
    intro j hjM hf
    rw [is_transpose_row]
    by_cases hj : j < M
    · obtain ⟨v, h1, h2⟩ := hT j hj
      rw [if_pos hj, h1, h2]
      show (if v ≠ v then some false else is_transpose_row M A B i fuel (j + 1)) = some true
      rw [if_neg (fun h => h rfl)]
      exact ih (j + 1) (by omega) (by omega)
    · rw [if_neg hj]

theorem is_transpose_rows_true (M N : Nat) (A B : Mat Int)
    (hT : ∀ i j, i < N → j < M → ∃ v, (list_cells Int).rd A i j = some v
      ∧ (list_cells Int).rd B j i = some v) :
    ∀ (fuel i : Nat), i ≤ N → N < fuel + i →
      is_transpose_rows M N A B fuel i = some true := by
  intro fuel
  induction fuel with
  | zero =>
    intro i hiN hf
    omega
  | succ fuel ih =>
    intro i hiN hf
    rw [is_transpose_rows]
    by_cases hi : i < N
    · rw [if_pos hi, is_transpose_row_true M A B i (fun j hj => hT i j hi hj) (M + 1) 0 (by omega)
        (by omega)]
      show (if true = true then is_transpose_rows M N A B fuel (i + 1) else some false) = some true
      rw [if_pos rfl]
      exact ih (i + 1) (by omega) (by omega)
    · rw [if_neg hi]

/-- `is_transpose` returns `1` when `B[j][i]` is `A[i][j]` for all `i < N` and
`j < M`. -/
theorem is_transpose_one (M N : Nat) (A B : Mat Int)
    (hT : ∀ i j, i < N → j < M → ∃ v, (list_cells Int).rd A i j = some v
      ∧ (list_cells Int).rd B j i = some v) :
    is_transpose M N A B = some 1 := by
  unfold is_transpose
  rw [is_transpose_rows_true M N A B hT (N + 1) 0 (by omega) (by omega)]
  rfl

/-- The elements of the transpose. -/
theorem rd_transpose (M N : Nat) (A : Mat Int) (hA : A.length = N)
    (hA2 : ∀ row, row ∈ A → row.length = M) (i j : Nat) (hi : i < N) (hj : j < M) :
    (list_cells Int).rd A i j = some (cell A i j)
      ∧ (list_cells Int).rd (mat_of M N (fun j i => cell A i j)) j i = some (cell A i j) := by
  constructor
  · have h := rd_mat_of N M (cell A) i j
    rw [← mat_of_cell N M A hA hA2, if_pos ⟨hi, hj⟩] at h
    exact h
  · rw [rd_mat_of, if_pos ⟨hj, hi⟩]

theorem mat_of_shape {α : Type} (r c : Nat) (g : Nat → Nat → α) :
    (mat_of r c g).length = r ∧ ∀ row, row ∈ mat_of r c g → row.length = c := by
  unfold mat_of
  refine ⟨by rw [List.length_map, List.length_range], ?_⟩
  intro row hrow
  obtain ⟨i, _, hi⟩ := List.mem_map.mp hrow
  rw [← hi, List.length_map, List.length_range]

/-! ## C37: the transpose of the three graded shapes -/

/-- C37.  Let `A` be a matrix of `N` rows and `M` columns and `B` one of `M`
rows and `N` columns, with `M = N = 32`, `M = N = 64`, or `M = 61` and
`N = 67`, and with any elements.  `transpose_submit(M, N, A, B)` returns, without
an access outside the arrays, and afterwards `B` has `M` rows of `N` elements
and `B[j][i] = A[i][j]` for all `i < N` and `j < M`.  `A` is only read:
no statement of the function assigns to an element of `A`. -/
theorem C37_transpose_submit_transposes (M N : Nat) (A B : Mat Int)
    (hshape : (M = 32 ∧ N = 32) ∨ (M = 64 ∧ N = 64) ∨ (M = 61 ∧ N = 67))
    (hA : A.length = N) (hA2 : ∀ row, row ∈ A → row.length = M)
    (hB : B.length = M) (hB2 : ∀ row, row ∈ B → row.length = N) :
    ∃ B2, transpose_submit (list_cells Int) M N A B = some B2
      ∧ B2.length = M ∧ (∀ row, row ∈ B2 → row.length = N)
      ∧ ∀ i j, i < N → j < M →
          ∃ v, (list_cells Int).rd A i j = some v ∧ (list_cells Int).rd B2 j i = some v := by
  refine ⟨_, transpose_submit_graded M N A B hshape hA hA2 hB hB2, (mat_of_shape _ _ _).1,
    (mat_of_shape _ _ _).2, ?_⟩
  intro i j hi hj
  exact ⟨cell A i j, rd_transpose M N A hA hA2 i j hi hj⟩

/-- C37, witness: the matrix of `32` rows and `32` columns with the element
`32 * i + j` in row `i` and column `j`, and a `B` of zeros. -/
theorem C37_transpose_submit_transposes_witness :
    ∃ B2, transpose_submit (list_cells Int) 32 32
          (mat_of 32 32 (fun i j => ((32 * i + j : Nat) : Int))) (mat_of 32 32 (fun _ _ => 0))
        = some B2
      ∧ B2.length = 32 ∧ (∀ row, row ∈ B2 → row.length = 32)
      ∧ ∀ i j, i < 32 → j < 32 →
          ∃ v, (list_cells Int).rd (mat_of 32 32 (fun i j => ((32 * i + j : Nat) : Int))) i j
              = some v
            ∧ (list_cells Int).rd B2 j i = some v :=
  C37_transpose_submit_transposes 32 32 (mat_of 32 32 (fun i j => ((32 * i + j : Nat) : Int)))
    (mat_of 32 32 (fun _ _ => 0)) (Or.inl ⟨rfl, rfl⟩) (mat_of_shape _ _ _).1
    (mat_of_shape _ _ _).2 (mat_of_shape _ _ _).1 (mat_of_shape _ _ _).2

/-! ## C38: the postcondition of `transpose_submit` -/

/-- C38.  Let `A` be a matrix of `N` rows and `M` columns and `B` one of `M`
rows and `N` columns.  `transpose_submit(M, N, A, B)` returns.  For the three
shapes it has code for (`M = N = 32`, `M = N = 64`, `M = 61` and `N = 67`),
`is_transpose(M, N, A, B)` returns `1` afterwards.  For every other shape the
function executes no statement: `B` is what it was, and `is_transpose` returns
afterwards what it returns before the call. -/
theorem C38_postcondition_of_transpose_submit (M N : Nat) (A B : Mat Int)
    (hA : A.length = N) (hA2 : ∀ row, row ∈ A → row.length = M)
    (hB : B.length = M) (hB2 : ∀ row, row ∈ B → row.length = N) :
    ∃ B2, transpose_submit (list_cells Int) M N A B = some B2
      ∧ ((M = 32 ∧ N = 32) ∨ (M = 64 ∧ N = 64) ∨ (M = 61 ∧ N = 67) →
          is_transpose M N A B2 = some 1)
      ∧ (¬ ((M = 32 ∧ N = 32) ∨ (M = 64 ∧ N = 64) ∨ (M = 61 ∧ N = 67)) →
          B2 = B ∧ is_transpose M N A B2 = is_transpose M N A B) := by
  by_cases hshape : (M = 32 ∧ N = 32) ∨ (M = 64 ∧ N = 64) ∨ (M = 61 ∧ N = 67)
  · refine ⟨_, transpose_submit_graded M N A B hshape hA hA2 hB hB2, ?_,
      fun h => absurd hshape h⟩
    intro _
    apply is_transpose_one
    intro i j hi hj
    exact ⟨cell A i j, rd_transpose M N A hA hA2 i j hi hj⟩
  · refine ⟨B, ?_, fun h => absurd h hshape, fun _ => ⟨rfl, rfl⟩⟩
    unfold transpose_submit
    rw [if_neg (fun h => hshape (Or.inl h)), if_neg (fun h => hshape (Or.inr (Or.inl h))),
      if_neg (fun h => hshape (Or.inr (Or.inr h)))]

/-- C38, witness: `M = N = 1`, `A = {{1}}`, `B = {{0}}`.  The preconditions
`M > 0` and `N > 0` hold; `transpose_submit` leaves `B` as it is, and
`is_transpose` returns `0`. -/
theorem C38_postcondition_of_transpose_submit_witness :
    transpose_submit (list_cells Int) 1 1 [[1]] [[0]] = some [[0]]
      ∧ is_transpose 1 1 [[1]] [[0]] = some 0 := by
  obtain ⟨B2, h1, _, h3⟩ := C38_postcondition_of_transpose_submit 1 1 [[1]] [[0]] rfl
    (by decide) rfl (by decide)
  obtain ⟨e, h4⟩ := h3 (by decide)
  rw [e] at h1
  exact ⟨h1, by decide⟩

theorem getElem?_set_pc (l : List Pc) (i j : Nat) (a : Pc) :
    (l.set i a)[j]? = if i = j then (if i < l.length then some a else none) else l[j]? := by
  by_cases h : i = j
  · subst h
    by_cases h2 : i < l.length
    · simp [h2]
    · simp [h2]
      omega
  · simp [h, List.getElem?_set_ne h]

/-- What a step of a call changes. -/
theorem advance_cases {σ σ2 : Sys} {i : Nat} (h : advance σ i = some σ2) :
    ∃ p, σ.pcs[i]? = some p ∧ p ≠ Pc.done ∧ σ2.pcs = σ.pcs.set i p.succ
      ∧ σ2.bucket = σ.bucket
      ∧ (p = Pc.r_list_lock → σ.list_mutex (σ.bucket.getD i 0) ≠ 0
          ∧ σ2.list_mutex = fun j => if j = σ.bucket.getD i 0
              then σ.list_mutex (σ.bucket.getD i 0) - 1 else σ.list_mutex j)
      ∧ (p = Pc.r_list_unlock →
          σ2.list_mutex = fun j => if j = σ.bucket.getD i 0
              then σ.list_mutex (σ.bucket.getD i 0) + 1 else σ.list_mutex j)
      ∧ (p ≠ Pc.r_list_lock → p ≠ Pc.r_list_unlock → σ2.list_mutex = σ.list_mutex) := by
  unfold advance at h
  cases hpc : σ.pcs[i]? with
  | none => simp [hpc] at h
  | some pc =>
    refine ⟨pc, rfl, ?_⟩
    cases pc <;> simp only [hpc] at h
    case done => simp at h
    case r_lock_in =>
      unfold P at h
      split at h
      · simp at h
      · simp only [Option.map_some', Option.some.injEq] at h
        subst h
        simp [Pc.succ]
    case r_first =>
      unfold P at h
      split at h
      · split at h
        · simp at h
        · simp only [Option.map_some', Option.some.injEq] at h
          subst h
          simp [Pc.succ]
      · simp only [Option.some.injEq] at h
        subst h
        simp [Pc.succ]
    case r_list_lock =>
      unfold P at h
      split at h
      · simp at h
      · rename_i hne
        simp only [Option.map_some', Option.some.injEq] at h
        subst h
        exact ⟨by decide, rfl, rfl, fun _ => ⟨hne, rfl⟩, fun e => Pc.noConfusion e,
          fun e => absurd rfl e⟩
    case r_lock_out =>
      unfold P at h
      split at h
      · simp at h
      · simp only [Option.map_some', Option.some.injEq] at h
        subst h
        simp [Pc.succ]
    case w_lock =>
      unfold P at h
      split at h
      · simp at h
      · simp only [Option.map_some', Option.some.injEq] at h
        subst h
        simp [Pc.succ]
    case r_last =>
      split at h <;>
      · simp only [Option.some.injEq] at h
        subst h
        simp [Pc.succ]
    all_goals
      simp only [Option.some.injEq] at h
      subst h
      simp [Pc.succ, V]
theorem advance_get {σ σ2 : Sys} {i : Nat} {p : Pc} (hp : σ.pcs[i]? = some p)
    (h2 : σ2.pcs = σ.pcs.set i p.succ) (j : Nat) :
    σ2.pcs[j]? = if j = i then some p.succ else σ.pcs[j]? := by
  have hi : i < σ.pcs.length := by
    rcases Nat.lt_or_ge i σ.pcs.length with h | h
    · exact h
    · rw [List.getElem?_eq_none h] at hp
      cases hp
  rw [h2, getElem?_set_pc]
  by_cases hji : j = i
  · subst hji
    simp [hi]
  · have : ¬ i = j := fun e => hji e.symm
    simp [hji, this]

/-- A step keeps what the list semaphores guarantee. -/
theorem advance_locks {σ σ2 : Sys} {i : Nat} (hl : ListLocks σ)
    (h : advance σ i = some σ2) : ListLocks σ2 := by
  obtain ⟨p, hp, hnd, hpcs, hbk, hlock, hunlock, hsame⟩ := advance_cases h
  have hget := advance_get hp hpcs
  have hpl := hl.lookups i p hp
  refine ⟨?_, ?_, ?_, ?_, ?_, ?_⟩
  · rw [hpcs, hbk, List.length_set]
    exact hl.size
  · intro j
    rw [hbk]
    exact hl.index j
  · intro j q hq
    rw [hget] at hq
    by_cases hji : j = i
    · simp only [hji, if_true, Option.some.injEq] at hq
      subst hq
      revert hpl
      cases p <;> simp [Pc.is_lookup, Pc.succ]
    · simp only [hji, if_false] at hq
      exact hl.lookups j q hq
  · intro j k q r hq hr hhq hhr hb
    rw [hget] at hq hr
    rw [hbk] at hb
    by_cases hji : j = i
    · by_cases hki : k = i
      · rw [hji, hki]
      · exfalso
        simp only [hji, if_true, Option.some.injEq] at hq
        simp only [hki, if_false] at hr
        subst hq
        rw [hji] at hb
        by_cases hps : p = Pc.r_list_lock
        · have := hl.held k r hr hhr
          rw [← hb] at this
          exact (hlock hps).1 this
        · have hph : p.holds_list = true := by
            revert hhq hps
            cases p <;> simp [Pc.holds_list, Pc.succ]
          exact hki (hl.one i k p r hp hr hph hhr hb).symm
    · by_cases hki : k = i
      · exfalso
        simp only [hki, if_true, Option.some.injEq] at hr
        simp only [hji, if_false] at hq
        subst hr
        rw [hki] at hb
        by_cases hps : p = Pc.r_list_lock
        · have := hl.held j q hq hhq
          rw [hb] at this
          exact (hlock hps).1 this
        · have hph : p.holds_list = true := by
            revert hhr hps
            cases p <;> simp [Pc.holds_list, Pc.succ]
          exact hji (hl.one j i q p hq hp hhq hph hb)
      · simp only [hki, if_false] at hr
        simp only [hji, if_false] at hq
        exact hl.one j k q r hq hr hhq hhr hb
  · intro j q hq hhq
    rw [hget] at hq
    rw [hbk]
    by_cases hji : j = i
    · simp only [hji, if_true, Option.some.injEq] at hq
      subst hq
      rw [hji]
      by_cases hps : p = Pc.r_list_lock
      · obtain ⟨hne, hm⟩ := hlock hps
        rw [hm]
        simp only [if_true]
        have : σ.list_mutex (σ.bucket.getD i 0) = 1 := by
          apply hl.free _ (hl.index i)
          intro k r hr hhr hb
          have := hl.held k r hr hhr
          rw [hb] at this
          exact hne this
        omega
      · have hph : p.holds_list = true := by
          revert hhq hps
          cases p <;> simp [Pc.holds_list, Pc.succ]
        have hpu : p ≠ Pc.r_list_unlock := by
          intro e
          rw [e] at hhq
          simp [Pc.holds_list, Pc.succ] at hhq
        rw [hsame hps hpu]
        exact hl.held i p hp hph
    · simp only [hji, if_false] at hq
      have hold := hl.held j q hq hhq
      by_cases hps : p = Pc.r_list_lock
      · obtain ⟨hne, hm⟩ := hlock hps
        rw [hm]
        have hb : σ.bucket.getD j 0 ≠ σ.bucket.getD i 0 := by
          intro e
          rw [e] at hold
          exact hne hold
        simp only [hb, if_false]
        exact hold
      · by_cases hpu : p = Pc.r_list_unlock
        · rw [hunlock hpu]
          have hb : σ.bucket.getD j 0 ≠ σ.bucket.getD i 0 := by
            intro e
            apply hji
            exact hl.one j i q p hq hp hhq (by rw [hpu]; rfl) e
          simp only [hb, if_false]
          exact hold
        · rw [hsame hps hpu]
          exact hold
  · intro b hb hfree
    rw [hbk] at hfree
    have hothers : ∀ (k : Nat) (r : Pc), k ≠ i → σ.pcs[k]? = some r → r.holds_list = true →
        σ.bucket.getD k 0 ≠ b := by
      intro k r hki hr hhr
      apply hfree k r _ hhr
      rw [hget]
      simp only [hki, if_false]
      exact hr
    have hself : p.succ.holds_list = true → σ.bucket.getD i 0 ≠ b := by
      intro hh
      apply hfree i p.succ _ hh
      rw [hget]
      simp
    by_cases hps : p = Pc.r_list_lock
    · obtain ⟨hne, hm⟩ := hlock hps
      rw [hm]
      have hbi : b ≠ σ.bucket.getD i 0 := fun e => hself (by rw [hps]; rfl) e.symm
      simp only [hbi, if_false]
      apply hl.free b hb
      intro k r hr hhr
      by_cases hki : k = i
      · exfalso
        rw [hki, hp] at hr
        simp only [Option.some.injEq] at hr
        rw [← hr, hps] at hhr
        simp [Pc.holds_list] at hhr
      · exact hothers k r hki hr hhr
    · by_cases hpu : p = Pc.r_list_unlock
      · rw [hunlock hpu]
        by_cases hbi : b = σ.bucket.getD i 0
        · simp only [hbi, if_true]
          rw [hl.held i p hp (by rw [hpu]; rfl)]
        · simp only [hbi, if_false]
          apply hl.free b hb
          intro k r hr hhr
          by_cases hki : k = i
          · rw [hki]
            exact fun e => hbi e.symm
          · exact hothers k r hki hr hhr
      · rw [hsame hps hpu]
        apply hl.free b hb
        intro k r hr hhr
        by_cases hki : k = i
        · rw [hki, hp] at hr
          simp only [Option.some.injEq] at hr
          subst hr
          rw [hki]
          apply hself
          revert hhr hps hpu
          cases p <;> simp [Pc.holds_list, Pc.succ]
        · exact hothers k r hki hr hhr
theorem set_next_agree {S : List Ptr} {h X : Heap} (hag : ∀ p, p ∈ S → h p = X p) {a : Ptr}
    (ha : a ∈ S) (v : Ptr) : ∀ p, p ∈ S → set_next h a v p = set_next X a v p := by
  intro p hp
  unfold set_next
  by_cases e : p = a
  · simp [e, hag a ha]
  · simp [e, hag p hp]

theorem set_prev_agree {S : List Ptr} {h X : Heap} (hag : ∀ p, p ∈ S → h p = X p) {a : Ptr}
    (ha : a ∈ S) (v : Ptr) : ∀ p, p ∈ S → set_prev h a v p = set_prev X a v p := by
  intro p hp
  unfold set_prev
  by_cases e : p = a
  · simp [e, hag a ha]
  · simp [e, hag p hp]

theorem set_next_off (h : Heap) (a v p : Ptr) (hne : p ≠ a) : set_next h a v p = h p := by
  simp [set_next, hne]

theorem set_prev_off (h : Heap) (a v p : Ptr) (hne : p ≠ a) : set_prev h a v p = h p := by
  simp [set_prev, hne]

theorem block_eq {a b : block_t} (h1 : a.id = b.id) (h2 : a.content = b.content)
    (h3 : a.size = b.size) (h4 : a.prev = b.prev) (h5 : a.next = b.next) : a = b := by
  cases a
  cases b
  simp_all

theorem staged_fields (h : Heap) (hd bp rear : Ptr) (sc : Scan) (p : Ptr) :
    (staged h hd bp rear sc p).id = (h p).id
      ∧ (staged h hd bp rear sc p).content = (h p).content
      ∧ (staged h hd bp rear sc p).size = (h p).size := by
  cases sc <;> simp [staged]

theorem staged_congr {h h2 : Heap} {hd bp rear p : Ptr} (sc : Scan) (hp : h p = h2 p)
    (hbp : 2 ≤ sc.rank → h bp = h2 bp) :
    staged h hd bp rear sc p = staged h2 hd bp rear sc p := by
  cases sc
  case init => exact hp
  case test => exact hp
  all_goals
    have hb := hbp (by decide)
    apply block_eq <;> simp [staged, unlink, hb, hp]

/-- The neighbours of an entry of a well-formed bucket, and the last node of
the bucket without it. -/
theorem found_facts {h : Heap} {hd bp : Ptr} {l1 l2 : List Ptr}
    (hs : Seg h hd (l1 ++ bp :: l2) hd) (hnd : (hd :: (l1 ++ bp :: l2)).Nodup) :
    (h bp).prev ∈ hd :: (l1 ++ bp :: l2) ∧ (h bp).next ∈ hd :: (l1 ++ bp :: l2)
      ∧ bp ≠ (h bp).prev ∧ (unlink h bp hd).prev = lastOf hd (l1 ++ l2)
      ∧ lastOf hd (l1 ++ l2) ∈ hd :: (l1 ++ bp :: l2) ∧ hd ≠ bp
      ∧ bp ∉ hd :: (l1 ++ l2) ∧ (hd :: (l1 ++ l2)).Nodup := by
  obtain ⟨hs1, hs2⟩ := Seg_append.mp hs
  have ha : (h bp).prev = lastOf hd l1 := Seg_prev_last hs1
  have ham : lastOf hd l1 ∈ hd :: l1 := lastOf_mem hd l1
  have hn : (h bp).next = (l2 ++ [hd]).head (by simp) := Seg_next_first hs2
  have hnm : (l2 ++ [hd]).head (by simp) ∈ l2 ++ [hd] := List.head_mem _
  have hl := lastOf_mem hd (l1 ++ l2)
  have hu := Seg_prev_last (Seg_unlink hs hnd)
  have hnd2 := hnd
  simp only [List.nodup_cons, List.nodup_append, List.mem_append, List.mem_cons] at hnd2
  obtain ⟨h1, h2, ⟨h3, h4⟩, h5⟩ := hnd2
  refine ⟨?_, ?_, ?_, hu, ?_, ?_, ?_, ?_⟩
  · rw [ha]
    simp only [List.mem_cons, List.mem_append] at ham ⊢
    tauto
  · rw [hn]
    simp only [List.mem_cons, List.mem_append, List.mem_singleton] at hnm ⊢
    tauto
  · rw [ha]
    intro e
    rw [← e] at ham
    simp only [List.mem_cons] at ham
    rcases ham with e2 | e2
    · subst e2
      simp at h1
    · exact h5 e2 (by simp)
  · simp only [List.mem_cons, List.mem_append] at hl ⊢
    tauto
  · intro e
    subst e
    simp at h1
  · simp only [List.mem_cons, List.mem_append]
    intro e
    rcases e with e | e | e
    · subst e
      simp at h1
    · exact h5 e (by simp)
    · exact h3 e
  · simp only [List.nodup_cons, List.nodup_append, List.mem_append]
    refine ⟨?_, h2, h4, ?_⟩
    · intro e
      apply h1
      tauto
    · intro a ha1 ha2
      exact h5 ha1 (by simp [ha2])
/-- The step `bp = head->next`. -/
theorem stage_init {ids : Ptr → Option (List Nat)} {h g : Heap} {hd : Ptr} {l : List Ptr}
    {key : List Nat} {bp rear : Ptr} {n : Nat} (hs : Seg g hd l hd)
    (hst : Stage ids h g hd l key bp rear n Scan.init) :
    Stage ids h g hd l key (h hd).next rear (n + 1) Scan.test := by
  obtain ⟨hag, hloc⟩ := hst
  refine ⟨hag, [], l, rfl, ?_, ?_, ?_⟩
  · intro p hp
    cases hp
  · rw [hag hd (by simp)]
    exact Seg_next_first hs
  · simp only [Local] at hloc
    simp only [List.length_nil]
    omega

/-- The loop of `search_lru` goes on: `bp = bp->next`. -/
theorem stage_next {ids : Ptr → Option (List Nat)} {h g : Heap} {hd : Ptr} {l : List Ptr}
    {key : List Nat} {bp rear : Ptr} {n : Nat} (hs : Seg g hd l hd)
    (hst : Stage ids h g hd l key bp rear n Scan.test) (hne : bp ≠ hd)
    (hid : ids bp ≠ some key) :
    Stage ids h g hd l key (h bp).next rear (n + 1) Scan.test := by
  obtain ⟨hag, l1, l2, hl, hno, hbp, hn⟩ := hst
  cases l2 with
  | nil => exact absurd hbp hne
  | cons q t =>
    simp only [List.cons_append, List.head_cons] at hbp
    subst hbp
    subst hl
    refine ⟨hag, l1 ++ [bp], t, by simp, ?_, ?_, ?_⟩
    · intro p hp
      simp only [List.mem_append, List.mem_singleton] at hp
      rcases hp with hp | hp
      · exact hno p hp
      · rw [hp]
        exact hid
    · rw [hag bp (by simp)]
      exact Seg_next_first (Seg_append.mp hs).2
    · simp only [List.length_append, List.length_singleton]
      omega

/-- The loop of `search_lru` ends at a block with the key. -/
theorem stage_found {ids : Ptr → Option (List Nat)} {h g : Heap} {hd : Ptr} {l : List Ptr}
    {key : List Nat} {bp rear : Ptr} {n : Nat}
    (hst : Stage ids h g hd l key bp rear n Scan.test) (hne : bp ≠ hd)
    (hid : ids bp = some key) :
    Stage ids h g hd l key bp rear (n + 1) Scan.unlink1 := by
  obtain ⟨hag, l1, l2, hl, hno, hbp, hn⟩ := hst
  cases l2 with
  | nil => exact absurd hbp hne
  | cons q t =>
    simp only [List.cons_append, List.head_cons] at hbp
    subst hbp
    subst hl
    refine ⟨hag, l1, t, rfl, hno, hid, ?_, ?_⟩
    · intro h5
      simp [Scan.rank] at h5
    · simp only [List.length_append, List.length_cons, Scan.rank]
      omega

/-- The loop of `search_lru` ends at the sentinel: no entry has the key. -/
theorem stage_miss {ids : Ptr → Option (List Nat)} {h g : Heap} {hd : Ptr} {l : List Ptr}
    {key : List Nat} {bp rear : Ptr} {n : Nat} (hnd : (hd :: l).Nodup)
    (hst : Stage ids h g hd l key bp rear n Scan.test) (he : bp = hd) :
    (∀ p, p ∈ l → ids p ≠ some key) ∧ n ≤ 6 + l.length ∧ ∀ p, p ∈ hd :: l → h p = g p := by
  obtain ⟨hag, l1, l2, hl, hno, hbp, hn⟩ := hst
  cases l2 with
  | cons q t =>
    exfalso
    simp only [List.cons_append, List.head_cons] at hbp
    subst hl
    rw [he] at hbp
    rw [hbp] at hnd
    simp at hnd
  | nil =>
    simp only [List.append_nil] at hl
    subst hl
    exact ⟨hno, hn, hag⟩
/-- What every step of the promotion starts from. -/
theorem stage_split {ids : Ptr → Option (List Nat)} {h g : Heap} {hd : Ptr} {l : List Ptr}
    {key : List Nat} {bp rear : Ptr} {n : Nat} {sc : Scan} (h2 : 2 ≤ sc.rank)
    (hst : Stage ids h g hd l key bp rear n sc) :
    (∀ p, p ∈ hd :: l → h p = staged g hd bp rear sc p)
      ∧ ∃ l1 l2, l = l1 ++ bp :: l2 ∧ (∀ p, p ∈ l1 → ids p ≠ some key)
          ∧ ids bp = some key ∧ (5 ≤ sc.rank → rear = lastOf hd (l1 ++ l2))
          ∧ n ≤ 5 + l.length + sc.rank := by
  obtain ⟨hag, hloc⟩ := hst
  refine ⟨hag, ?_⟩
  cases sc
  case init => simp [Scan.rank] at h2
  case test => simp [Scan.rank] at h2
  all_goals exact hloc

theorem stage_join {ids : Ptr → Option (List Nat)} {h g : Heap} {hd : Ptr} {l : List Ptr}
    {key : List Nat} {bp rear : Ptr} {n : Nat} {sc : Scan} (h2 : 2 ≤ sc.rank)
    (hag : ∀ p, p ∈ hd :: l → h p = staged g hd bp rear sc p)
    (hloc : ∃ l1 l2, l = l1 ++ bp :: l2 ∧ (∀ p, p ∈ l1 → ids p ≠ some key)
          ∧ ids bp = some key ∧ (5 ≤ sc.rank → rear = lastOf hd (l1 ++ l2))
          ∧ n ≤ 5 + l.length + sc.rank) :
    Stage ids h g hd l key bp rear n sc := by
  refine ⟨hag, ?_⟩
  cases sc
  case init => simp [Scan.rank] at h2
  case test => simp [Scan.rank] at h2
  all_goals exact hloc

/-- The step `bp->prev->next = bp->next`. -/
theorem stage_unlink1 {ids : Ptr → Option (List Nat)} {h g : Heap} {hd : Ptr} {l : List Ptr}
    {key : List Nat} {bp rear : Ptr} {n : Nat} (hs : Seg g hd l hd) (hnd : (hd :: l).Nodup)
    (hst : Stage ids h g hd l key bp rear n Scan.unlink1) :
    Stage ids (set_next h (h bp).prev (h bp).next) g hd l key bp rear (n + 1) Scan.unlink2
      ∧ (h bp).prev ∈ hd :: l := by
  obtain ⟨hag, l1, l2, hl, hno, hid, hr, hn⟩ := stage_split (by decide) hst
  subst hl
  obtain ⟨f1, f2, f3, f4, f5, f6, f7, f8⟩ := found_facts hs hnd
  have hb : h bp = g bp := hag bp (by simp)
  rw [hb]
  refine ⟨stage_join (by decide) ?_ ⟨l1, l2, rfl, hno, hid, ?_, ?_⟩, f1⟩
  · exact set_next_agree hag f1 _
  · intro h5
    simp [Scan.rank] at h5
  · simp only [Scan.rank] at hn ⊢
    omega

/-- The step `bp->next->prev = bp->prev`. -/
theorem stage_unlink2 {ids : Ptr → Option (List Nat)} {h g : Heap} {hd : Ptr} {l : List Ptr}
    {key : List Nat} {bp rear : Ptr} {n : Nat} (hs : Seg g hd l hd) (hnd : (hd :: l).Nodup)
    (hst : Stage ids h g hd l key bp rear n Scan.unlink2) :
    Stage ids (set_prev h (h bp).next (h bp).prev) g hd l key bp rear (n + 1) Scan.rear
      ∧ (h bp).next ∈ hd :: l := by
  obtain ⟨hag, l1, l2, hl, hno, hid, hr, hn⟩ := stage_split (by decide) hst
  subst hl
  obtain ⟨f1, f2, f3, f4, f5, f6, f7, f8⟩ := found_facts hs hnd
  have hb : h bp = set_next g (g bp).prev (g bp).next bp := hag bp (by simp)
  have hnx : (set_next g (g bp).prev (g bp).next bp).next = (g bp).next := by
    simp [f3]
  have hm : (h bp).next ∈ hd :: (l1 ++ bp :: l2) := by
    rw [hb, hnx]
    exact f2
  refine ⟨stage_join (by decide) ?_ ⟨l1, l2, rfl, hno, hid, ?_, ?_⟩, hm⟩
  · have := set_prev_agree hag hm (h bp).prev
    intro p hp
    rw [this p hp, hb]
    rfl
  · intro h5
    simp [Scan.rank] at h5
  · simp only [Scan.rank] at hn ⊢
    omega

/-- The step `rear = head->prev`. -/
theorem stage_rear {ids : Ptr → Option (List Nat)} {h g : Heap} {hd : Ptr} {l : List Ptr}
    {key : List Nat} {bp rear : Ptr} {n : Nat} (hs : Seg g hd l hd) (hnd : (hd :: l).Nodup)
    (hst : Stage ids h g hd l key bp rear n Scan.rear) :
    Stage ids h g hd l key bp (h hd).prev (n + 1) Scan.link1 := by
  obtain ⟨hag, l1, l2, hl, hno, hid, hr, hn⟩ := stage_split (by decide) hst
  subst hl
  obtain ⟨f1, f2, f3, f4, f5, f6, f7, f8⟩ := found_facts hs hnd
  refine stage_join (by decide) hag ⟨l1, l2, rfl, hno, hid, ?_, ?_⟩
  · intro _
    rw [hag hd (by simp)]
    exact f4
  · simp only [Scan.rank] at hn ⊢
    omega

/-- The step `rear->next = bp`. -/
theorem stage_link1 {ids : Ptr → Option (List Nat)} {h g : Heap} {hd : Ptr} {l : List Ptr}
    {key : List Nat} {bp rear : Ptr} {n : Nat} (hs : Seg g hd l hd) (hnd : (hd :: l).Nodup)
    (hst : Stage ids h g hd l key bp rear n Scan.link1) :
    Stage ids (set_next h rear bp) g hd l key bp rear (n + 1) Scan.link2
      ∧ rear ∈ hd :: l := by
  obtain ⟨hag, l1, l2, hl, hno, hid, hr, hn⟩ := stage_split (by decide) hst
  subst hl
  obtain ⟨f1, f2, f3, f4, f5, f6, f7, f8⟩ := found_facts hs hnd
  have hm : rear ∈ hd :: (l1 ++ bp :: l2) := by
    rw [hr (by decide)]
    exact f5
  refine ⟨stage_join (by decide) ?_ ⟨l1, l2, rfl, hno, hid, fun _ => hr (by decide), ?_⟩, hm⟩
  · exact set_next_agree hag hm _
  · simp only [Scan.rank] at hn ⊢
    omega

/-- The step `bp->prev = rear`. -/
theorem stage_link2 {ids : Ptr → Option (List Nat)} {h g : Heap} {hd : Ptr} {l : List Ptr}
    {key : List Nat} {bp rear : Ptr} {n : Nat}
    (hst : Stage ids h g hd l key bp rear n Scan.link2) :
    Stage ids (set_prev h bp rear) g hd l key bp rear (n + 1) Scan.link3
      ∧ bp ∈ hd :: l := by
  obtain ⟨hag, l1, l2, hl, hno, hid, hr, hn⟩ := stage_split (by decide) hst
  subst hl
  have hm : bp ∈ hd :: (l1 ++ bp :: l2) := by simp
  refine ⟨stage_join (by decide) ?_ ⟨l1, l2, rfl, hno, hid, fun _ => hr (by decide), ?_⟩, hm⟩
  · exact set_prev_agree hag hm _
  · simp only [Scan.rank] at hn ⊢
    omega

/-- The step `bp->next = head`. -/
theorem stage_link3 {ids : Ptr → Option (List Nat)} {h g : Heap} {hd : Ptr} {l : List Ptr}
    {key : List Nat} {bp rear : Ptr} {n : Nat}
    (hst : Stage ids h g hd l key bp rear n Scan.link3) :
    Stage ids (set_next h bp hd) g hd l key bp rear (n + 1) Scan.link4
      ∧ bp ∈ hd :: l := by
  obtain ⟨hag, l1, l2, hl, hno, hid, hr, hn⟩ := stage_split (by decide) hst
  subst hl
  have hm : bp ∈ hd :: (l1 ++ bp :: l2) := by simp
  refine ⟨stage_join (by decide) ?_ ⟨l1, l2, rfl, hno, hid, fun _ => hr (by decide), ?_⟩, hm⟩
  · exact set_next_agree hag hm _
  · simp only [Scan.rank] at hn ⊢
    omega

/-- The step `head->prev = bp`: the promotion is complete. -/
theorem stage_link4 {ids : Ptr → Option (List Nat)} {h g : Heap} {hd : Ptr} {l : List Ptr}
    {key : List Nat} {bp rear : Ptr} {n : Nat} (hs : Seg g hd l hd) (hnd : (hd :: l).Nodup)
    (hst : Stage ids h g hd l key bp rear n Scan.link4) :
    ∃ l1 l2, l = l1 ++ bp :: l2 ∧ (∀ p, p ∈ l1 → ids p ≠ some key) ∧ ids bp = some key
      ∧ (∀ p, p ∈ hd :: l → set_prev h hd bp p = promote_lru g hd bp p)
      ∧ n ≤ 13 + l.length := by
  obtain ⟨hag, l1, l2, hl, hno, hid, hr, hn⟩ := stage_split (by decide) hst
  subst hl
  obtain ⟨f1, f2, f3, f4, f5, f6, f7, f8⟩ := found_facts hs hnd
  refine ⟨l1, l2, rfl, hno, hid, ?_, ?_⟩
  · have := set_prev_agree hag (show hd ∈ hd :: (l1 ++ bp :: l2) by simp) bp
    intro p hp
    rw [this p hp, promote_lru_eq]
    have e : rear = (unlink g bp hd).prev := by
      rw [hr (by decide), f4]
    rw [e]
    rfl
  · simp only [Scan.rank] at hn
    omega
theorem rep_disjoint {s g : State} {L : Nat → List Ptr} (hR : Rep g L) (hh : g.head = s.head)
    {b c : Nat} (hb : b < HASHSIZE) (hc : c < HASHSIZE) (hne : b ≠ c) {p : Ptr}
    (hp : p ∈ s.head b :: L b) : p ∉ s.head c :: L c := by
  have := hR.disj b c hb hc hne p
  rw [hh] at this
  exact this hp

/-- A step inside the search of call `t` that leaves the blocks outside its
bucket as they are keeps the heap in shape. -/
theorem shape_local {s g : State} {keys : List cid_t} {σ σ2 : Conc} {cnt cnt2 : Nat → Nat}
    {L : Nat → List Ptr} (hl : ListLocks σ.sys) (hR : Rep g L) (hh : g.head = s.head)
    (hS : Shape s keys σ cnt g.heap L) {t : Nat} (ht : σ.sys.pcs[t]? = some Pc.r_scan)
    (hsys : σ2.sys = σ.sys)
    (hbp : ∀ j, j ≠ t → σ2.bp j = σ.bp j) (hrear : ∀ j, j ≠ t → σ2.rear j = σ.rear j)
    (hscan : ∀ j, j ≠ t → σ2.scan j = σ.scan j) (hcnt : ∀ j, j ≠ t → cnt2 j = cnt j)
    (hoff : ∀ p, p ∉ s.head (σ.sys.bucket.getD t 0) :: L (σ.sys.bucket.getD t 0) →
      σ2.heap p = σ.heap p)
    (hf : ∀ p, (σ2.heap p).id = (σ.heap p).id ∧ (σ2.heap p).content = (σ.heap p).content
      ∧ (σ2.heap p).size = (σ.heap p).size)
    (hst : Stage (fun p => (s.heap p).id) σ2.heap g.heap (s.head (σ.sys.bucket.getD t 0))
      (L (σ.sys.bucket.getD t 0)) (key_of keys t).id (σ2.bp t) (σ2.rear t) (cnt2 t)
      (σ2.scan t)) :
    Shape s keys σ2 cnt2 g.heap L := by
  have hbt := hl.index t
  refine ⟨?_, ?_, ?_, ?_⟩
  · intro p
    obtain ⟨a1, a2, a3⟩ := hf p
    obtain ⟨b1, b2, b3⟩ := hS.fields p
    exact ⟨a1.trans b1, a2.trans b2, a3.trans b3⟩
  · intro b hb hno p hp
    rw [hsys] at hno
    have hne : b ≠ σ.sys.bucket.getD t 0 := fun e => hno t ht e.symm
    rw [hoff p (rep_disjoint hR hh hb hbt hne hp)]
    exact hS.idle b hb hno p hp
  · intro p hp
    rw [hoff p (hp _ hbt)]
    exact hS.outside p hp
  · intro i hi
    rw [hsys] at hi ⊢
    by_cases hit : i = t
    · rw [hit]
      exact hst
    · have hne : σ.sys.bucket.getD i 0 ≠ σ.sys.bucket.getD t 0 := by
        intro e
        exact hit (hl.one i t _ _ hi ht rfl rfl e)
      rw [hbp i hit, hrear i hit, hscan i hit, hcnt i hit]
      obtain ⟨hag, hloc⟩ := hS.busy i hi
      refine ⟨?_, hloc⟩
      intro p hp
      rw [hoff p (rep_disjoint hR hh (hl.index i) hbt hne hp)]
      exact hag p hp

theorem local_bp_mem {ids : Ptr → Option (List Nat)} {hd : Ptr} {l : List Ptr}
    {key : List Nat} {bp rear : Ptr} {n : Nat} {sc : Scan} (h2 : 2 ≤ sc.rank)
    (hloc : Local ids hd l key bp rear n sc) : bp ∈ l := by
  cases sc
  case init => simp [Scan.rank] at h2
  case test => simp [Scan.rank] at h2
  all_goals
    obtain ⟨l1, l2, hl, _⟩ := hloc
    rw [hl]
    simp

/-- The step with which call `t` ends its search, after which its bucket is as
in the heap `g2`, keeps the heap in shape. -/
theorem shape_exit {s g : State} {keys : List cid_t} {σ σ2 : Conc} {cnt cnt2 : Nat → Nat}
    {L L2 : Nat → List Ptr} {g2 : Heap} (hl : ListLocks σ.sys) (hR : Rep g L)
    (hh : g.head = s.head)
    (hS : Shape s keys σ cnt g.heap L) {t : Nat} (ht : σ.sys.pcs[t]? = some Pc.r_scan)
    (hpcs : ∀ j : Nat, σ2.sys.pcs[j]?
      = if j = t then some Pc.r_list_unlock else σ.sys.pcs[j]?)
    (hbk : σ2.sys.bucket = σ.sys.bucket)
    (hbp : ∀ j, j ≠ t → σ2.bp j = σ.bp j) (hrear : ∀ j, j ≠ t → σ2.rear j = σ.rear j)
    (hscan : ∀ j, j ≠ t → σ2.scan j = σ.scan j) (hcnt : ∀ j, j ≠ t → cnt2 j = cnt j)
    (hL2 : ∀ b, b ≠ σ.sys.bucket.getD t 0 → L2 b = L b)
    (hmem : ∀ p, p ∈ L2 (σ.sys.bucket.getD t 0) ↔ p ∈ L (σ.sys.bucket.getD t 0))
    (hoff : ∀ p, p ∉ s.head (σ.sys.bucket.getD t 0) :: L (σ.sys.bucket.getD t 0) →
      σ2.heap p = σ.heap p)
    (hgoff : ∀ p, p ∉ s.head (σ.sys.bucket.getD t 0) :: L (σ.sys.bucket.getD t 0) →
      g2 p = g.heap p)
    (hf : ∀ p, (σ2.heap p).id = (σ.heap p).id ∧ (σ2.heap p).content = (σ.heap p).content
      ∧ (σ2.heap p).size = (σ.heap p).size)
    (hon : ∀ p, p ∈ s.head (σ.sys.bucket.getD t 0) :: L (σ.sys.bucket.getD t 0) →
      σ2.heap p = g2 p) :
    Shape s keys σ2 cnt2 g2 L2 := by
  have hbt := hl.index t
  have hmem2 : ∀ b p, p ∈ s.head b :: L2 b ↔ p ∈ s.head b :: L b := by
    intro b p
    by_cases hb : b = σ.sys.bucket.getD t 0
    · rw [hb]
      simp only [List.mem_cons, hmem]
    · rw [hL2 b hb]
  refine ⟨?_, ?_, ?_, ?_⟩
  · intro p
    obtain ⟨a1, a2, a3⟩ := hf p
    obtain ⟨b1, b2, b3⟩ := hS.fields p
    exact ⟨a1.trans b1, a2.trans b2, a3.trans b3⟩
  · intro b hb hno p hp
    rw [hmem2] at hp
    by_cases hbb : b = σ.sys.bucket.getD t 0
    · rw [hbb] at hp
      exact hon p hp
    · have hd := rep_disjoint hR hh hb hbt hbb hp
      rw [hoff p hd, hgoff p hd]
      apply hS.idle b hb _ p hp
      intro j hj
      by_cases hjt : j = t
      · rw [hjt]
        exact fun e => hbb e.symm
      · have := hno j (by rw [hpcs]; simp only [hjt, if_false]; exact hj)
        rw [hbk] at this
        exact this
  · intro p hp
    have hp2 : ∀ b, b < HASHSIZE → p ∉ s.head b :: L b := by
      intro b hb
      rw [← hmem2]
      exact hp b hb
    rw [hoff p (hp2 _ hbt), hgoff p (hp2 _ hbt)]
    exact hS.outside p hp2
  · intro i hi
    rw [hpcs] at hi
    by_cases hit : i = t
    · simp [hit] at hi
    · simp only [hit, if_false] at hi
      have hne : σ.sys.bucket.getD i 0 ≠ σ.sys.bucket.getD t 0 := by
        intro e
        exact hit (hl.one i t _ _ hi ht rfl rfl e)
      rw [hbk, hbp i hit, hrear i hit, hscan i hit, hcnt i hit, hL2 _ hne]
      obtain ⟨hag, hloc⟩ := hS.busy i hi
      refine ⟨?_, hloc⟩
      intro p hp
      have hd := rep_disjoint hR hh (hl.index i) hbt hne hp
      rw [hoff p hd, hag p hp]
      apply staged_congr
      · exact (hgoff p hd).symm
      · intro h2
        have hm := local_bp_mem h2 hloc
        exact (hgoff _ (rep_disjoint hR hh (hl.index i) hbt hne
          (List.mem_cons_of_mem _ hm))).symm
theorem bucket_key {σ : Sys} {keys : List cid_t}
    (hb : σ.bucket = keys.map (fun c => c.index)) (t : Nat) :
    σ.bucket.getD t 0 = (key_of keys t).index := by
  rw [hb, key_of]
  simp only [List.getD_eq_getElem?_getD, List.getElem?_map]
  cases keys[t]? <;> rfl

theorem outcome_fields {h h2 : Heap} (wr : Int) (bp : Ptr)
    (hc : (h bp).content = (h2 bp).content) (hz : (h bp).size = (h2 bp).size) :
    outcome h wr bp = outcome h2 wr bp := by
  unfold outcome block_bytes
  rw [hc, hz]

/-- A step inside the search of call `t` keeps what is known of the calls. -/
theorem control_local {s : State} {L0 : Nat → List Ptr} {wr : Nat → Int} {σ σ2 : Conc}
    {cnt cnt2 : Nat → Nat} {order : List Nat}
    {res : Nat → Option (Int × Option (List Nat))}
    (hC : Control s L0 wr σ cnt order res) {t : Nat} (ht : σ.sys.pcs[t]? = some Pc.r_scan)
    (hsys : σ2.sys = σ.sys) (hout : σ2.out = σ.out)
    (hbp : ∀ j, j ≠ t → σ2.bp j = σ.bp j)
    (hscan : ∀ j, j ≠ t → σ2.scan j = σ.scan j) (hcnt : ∀ j, j ≠ t → cnt2 j = cnt j) :
    Control s L0 wr σ2 cnt2 order res := by
  have hne : ∀ (i : Nat) (p : Pc), σ.sys.pcs[i]? = some p → p ≠ Pc.r_scan → i ≠ t := by
    intro i p hp hps e
    rw [e, ht] at hp
    simp only [Option.some.injEq] at hp
    exact hps hp.symm
  refine ⟨?_, ?_, ?_, ?_, ?_, ?_⟩
  · rw [hsys]
    exact hC.ord
  · rw [hsys]
    intro i p hp h1 h2
    rw [hscan i (hne i p hp h2)]
    exact hC.pre i p hp h1 h2
  · rw [hsys]
    intro i hi
    have : i ≠ t := by
      rcases hi with hi | hi
      · exact hne i _ hi (by decide)
      · exact hne i _ hi (by decide)
    rw [hbp i this]
    exact hC.found i hi
  · rw [hsys, hout]
    exact hC.out
  · rw [hsys, hout]
    exact hC.returned
  · rw [hsys]
    intro i p hp h2
    rw [hcnt i (hne i p hp h2)]
    exact hC.steps i p hp h2
/-- A step of call `t` outside its search keeps what is known of the calls. -/
theorem control_sys {s : State} {L0 : Nat → List Ptr} {wr : Nat → Int} {σ σ2 : Conc}
    {cnt : Nat → Nat} {order : List Nat} {keys : List cid_t} {g : Heap} {L : Nat → List Ptr}
    {res : Nat → Option (Int × Option (List Nat))}
    (hC : Control s L0 wr σ cnt order res) (hS : Shape s keys σ cnt g L)
    {t : Nat} {p : Pc} (hp : σ.sys.pcs[t]? = some p)
    (hps : p ≠ Pc.r_scan) (hnd : p ≠ Pc.done) (hpl : p.is_lookup = true)
    (hget : ∀ j : Nat, σ2.sys.pcs[j]? = if j = t then some p.succ else σ.sys.pcs[j]?)
    (hbk : σ2.sys.bucket = σ.sys.bucket)
    (hbp : σ2.bp = σ.bp) (hscan : σ2.scan = σ.scan)
    (hout1 : p ≠ Pc.r_write → σ2.out = σ.out)
    (hout2 : p = Pc.r_write →
      σ2.out = fun j => if j = t then some (outcome σ.heap (wr t) (σ.bp t)) else σ.out j) :
    Control s L0 wr σ2 (fun j => if j = t then cnt j + 1 else cnt j) order res := by
  refine ⟨?_, ?_, ?_, ?_, ?_, ?_⟩
  · intro i
    rw [hC.ord i, hget]
    by_cases hit : i = t
    · simp only [hit, if_true, hp, Option.some.injEq, exists_eq_left']
      revert hps hnd hpl
      cases p <;> simp [Pc.searched, Pc.succ, Pc.is_lookup]
    · simp only [hit, if_false]
  · intro i q hq h1 h2
    rw [hget] at hq
    rw [hscan]
    by_cases hit : i = t
    · simp only [hit, if_true, Option.some.injEq] at hq
      subst hq
      rw [hit]
      apply hC.pre t p hp _ hps
      revert h1 h2 hps hnd hpl
      cases p <;> simp [Pc.searched, Pc.succ, Pc.is_lookup]
    · simp only [hit, if_false] at hq
      exact hC.pre i q hq h1 h2
  · intro i hi
    rw [hget] at hi
    rw [hbp]
    by_cases hit : i = t
    · simp only [hit, if_true, Option.some.injEq] at hi
      rw [hit]
      apply hC.found t
      rw [hp]
      revert hi hps
      cases p <;> simp [Pc.succ]
    · simp only [hit, if_false] at hi
      exact hC.found i hi
  · intro i r hr
    by_cases hw : p = Pc.r_write
    · rw [hout2 hw] at hr
      by_cases hit : i = t
      · simp only [hit, if_true, Option.some.injEq] at hr
        rw [hit, hget]
        simp only [if_true, Option.some.injEq, exists_eq_left']
        refine ⟨?_, by rw [hw]; rfl⟩
        rw [← hr, hC.found t (Or.inr (by rw [hp, hw]))]
        obtain ⟨_, h2, h3⟩ := hS.fields (σ.bp t)
        rw [outcome_fields (wr t) (σ.bp t) h2 h3]
      · simp only [hit, if_false] at hr
        obtain ⟨h1, q, hq, hqw⟩ := hC.out i r hr
        exact ⟨h1, q, by rw [hget]; simp only [hit, if_false]; exact hq, hqw⟩
    · rw [hout1 hw] at hr
      obtain ⟨h1, q, hq, hqw⟩ := hC.out i r hr
      refine ⟨h1, ?_⟩
      rw [hget]
      by_cases hit : i = t
      · simp only [hit, if_true, Option.some.injEq, exists_eq_left']
        rw [hit, hp] at hq
        simp only [Option.some.injEq] at hq
        subst hq
        revert hqw hnd
        cases p <;> simp [Pc.wrote, Pc.succ]
      · simp only [hit, if_false]
        exact ⟨q, hq, hqw⟩
  · intro i q hq hqw
    rw [hget] at hq
    by_cases hit : i = t
    · simp only [hit, if_true, Option.some.injEq] at hq
      subst hq
      by_cases hw : p = Pc.r_write
      · rw [hout2 hw]
        simp [hit]
      · rw [hout1 hw, hit]
        apply hC.returned t p hp
        revert hqw hw hpl
        cases p <;> simp [Pc.wrote, Pc.succ, Pc.is_lookup]
    · simp only [hit, if_false] at hq
      obtain ⟨r, hr⟩ := hC.returned i q hq hqw
      by_cases hw : p = Pc.r_write
      · rw [hout2 hw]
        simp only [hit, if_false]
        exact ⟨r, hr⟩
      · rw [hout1 hw]
        exact ⟨r, hr⟩
  · intro i q hq hqs
    rw [hget] at hq
    rw [hbk]
    by_cases hit : i = t
    · simp only [hit, if_true, Option.some.injEq] at hq
      subst hq
      simp only [hit, if_true]
      have := hC.steps t p hp hps
      revert this hqs hps hnd hpl
      cases p <;> simp [Pc.bound, Pc.succ, Pc.is_lookup] <;> omega
    · simp only [hit, if_false] at hq ⊢
      exact hC.steps i q hq hqs

/-- A step of call `t` outside its search keeps the heap in shape. -/
theorem shape_sys {s g : State} {L0 : Nat → List Ptr} {wr : Nat → Int} {σ σ2 : Conc}
    {cnt : Nat → Nat} {order : List Nat} {keys : List cid_t} {L : Nat → List Ptr}
    {res : Nat → Option (Int × Option (List Nat))}
    (hl : ListLocks σ.sys)
    (hC : Control s L0 wr σ cnt order res) (hS : Shape s keys σ cnt g.heap L)
    {t : Nat} {p : Pc} (hp : σ.sys.pcs[t]? = some p)
    (hps : p ≠ Pc.r_scan)
    (hlock : p = Pc.r_list_lock → σ.sys.list_mutex (σ.sys.bucket.getD t 0) ≠ 0)
    (hget : ∀ j : Nat, σ2.sys.pcs[j]? = if j = t then some p.succ else σ.sys.pcs[j]?)
    (hbk : σ2.sys.bucket = σ.sys.bucket) (hheap : σ2.heap = σ.heap)
    (hbp : σ2.bp = σ.bp) (hrear : σ2.rear = σ.rear) (hscan : σ2.scan = σ.scan) :
    Shape s keys σ2 (fun j => if j = t then cnt j + 1 else cnt j) g.heap L := by
  refine ⟨?_, ?_, ?_, ?_⟩
  · rw [hheap]
    exact hS.fields
  · rw [hheap, hbk]
    intro b hb hno p2 hp2
    apply hS.idle b hb _ p2 hp2
    intro j hj
    apply hno j
    rw [hget]
    by_cases hjt : j = t
    · rw [hjt, hp] at hj
      simp only [Option.some.injEq] at hj
      exact absurd hj hps
    · simp only [hjt, if_false]
      exact hj
  · rw [hheap]
    exact hS.outside
  · intro i hi
    rw [hget] at hi
    rw [hheap, hbk, hbp, hrear, hscan]
    by_cases hit : i = t
    · simp only [hit, if_true, Option.some.injEq] at hi
      have hpe : p = Pc.r_list_lock := by
        revert hi
        cases p <;> simp [Pc.succ]
      subst hpe
      rw [hit]
      simp only [if_true]
      rw [hC.pre t _ hp rfl hps]
      refine ⟨?_, ?_⟩
      · apply hS.idle _ (hl.index t)
        intro j hj e
        have := hl.held j _ hj rfl
        rw [e] at this
        exact hlock rfl this
      · have := hC.steps t _ hp hps
        simp only [Pc.bound] at this
        simp only [Local]
        omega
    · simp only [hit, if_false] at hi ⊢
      exact hS.busy i hi
theorem seq_run_append (fuel : Nat) (keys : List cid_t) (wr : Nat → Int) (s : State)
    (order : List Nat) (t : Nat) :
    seq_run fuel keys wr s (order ++ [t])
      = (seq_run fuel keys wr s order).bind (fun a =>
          (try_from_cache fuel a.1 (wr t) (key_of keys t)).map (fun x =>
            (x.st, fun j => if j = t then some (x.rc, x.sent) else a.2 j))) := by
  unfold seq_run
  rw [List.foldl_append]
  rfl

/-- The step with which call `t` ends its search keeps what is known of the
calls, with `t` as the last call of the sequential run. -/
theorem control_exit {s : State} {L0 : Nat → List Ptr} {wr : Nat → Int} {σ σ2 : Conc}
    {cnt cnt2 : Nat → Nat} {order : List Nat}
    {res : Nat → Option (Int × Option (List Nat))}
    (hC : Control s L0 wr σ cnt order res) {t : Nat} (ht : σ.sys.pcs[t]? = some Pc.r_scan)
    (hget : ∀ j : Nat, σ2.sys.pcs[j]?
      = if j = t then some Pc.r_list_unlock else σ.sys.pcs[j]?)
    (hbk : σ2.sys.bucket = σ.sys.bucket) (hout : σ2.out = σ.out)
    (hbp : ∀ j, j ≠ t → σ2.bp j = σ.bp j) (hscan : σ2.scan = σ.scan)
    (hcnt : ∀ j, j ≠ t → cnt2 j = cnt j)
    (hn : cnt2 t ≤ 14 + (L0 (σ.sys.bucket.getD t 0)).length) :
    Control s L0 wr σ2 cnt2 (order ++ [t])
      (fun j => if j = t then some (outcome s.heap (wr t) (σ2.bp t)) else res j) := by
  refine ⟨?_, ?_, ?_, ?_, ?_, ?_⟩
  · intro i
    rw [hget]
    by_cases hit : i = t
    · simp [hit, Pc.searched]
    · simp only [hit, if_false, List.mem_append, List.mem_singleton, or_false]
      exact hC.ord i
  · intro i q hq h1 h2
    rw [hget] at hq
    rw [hscan]
    by_cases hit : i = t
    · simp only [hit, if_true, Option.some.injEq] at hq
      rw [← hq] at h1
      simp [Pc.searched] at h1
    · simp only [hit, if_false] at hq
      exact hC.pre i q hq h1 h2
  · intro i hi
    rw [hget] at hi
    by_cases hit : i = t
    · simp only [hit, if_true]
    · simp only [hit, if_false] at hi ⊢
      rw [hbp i hit]
      exact hC.found i hi
  · intro i r hr
    rw [hout] at hr
    obtain ⟨h1, q, hq, hqw⟩ := hC.out i r hr
    have hit : i ≠ t := by
      intro e
      rw [e, ht] at hq
      simp only [Option.some.injEq] at hq
      rw [← hq] at hqw
      simp [Pc.wrote] at hqw
    simp only [hit, if_false]
    exact ⟨h1, q, by rw [hget]; simp only [hit, if_false]; exact hq, hqw⟩
  · intro i q hq hqw
    rw [hget] at hq
    rw [hout]
    by_cases hit : i = t
    · simp only [hit, if_true, Option.some.injEq] at hq
      rw [← hq] at hqw
      simp [Pc.wrote] at hqw
    · simp only [hit, if_false] at hq
      exact hC.returned i q hq hqw
  · intro i q hq hqs
    rw [hget] at hq
    rw [hbk]
    by_cases hit : i = t
    · simp only [hit, if_true, Option.some.injEq] at hq
      rw [← hq, hit]
      exact hn
    · simp only [hit, if_false] at hq
      rw [hcnt i hit]
      exact hC.steps i q hq hqs

/-- A search that ends without a block: the sequential run goes on with a
lookup that misses. -/
theorem ghost_miss {s : State} {L0 : Nat → List Ptr} {keys : List cid_t} {wr : Nat → Int}
    {fuel : Nat} {order : List Nat} {g : State}
    {res : Nat → Option (Int × Option (List Nat))} {L : Nat → List Ptr}
    (hG : Ghost s L0 keys wr fuel order g res L) (t : Nat) (ht : t ∉ order)
    (hidx : (key_of keys t).index < HASHSIZE)
    (hfuel : (L0 (key_of keys t).index).length < fuel)
    (hno : ∀ p, p ∈ L (key_of keys t).index → (s.heap p).id ≠ some (key_of keys t).id) :
    Ghost s L0 keys wr fuel (order ++ [t]) g
      (fun j => if j = t then some (outcome s.heap (wr t) 0) else res j) L := by
  have hlen : (L (key_of keys t).index).length < fuel := by
    rw [(hG.perm _).length_eq]
    exact hfuel
  have hno2 : ∀ p, p ∈ L (key_of keys t).index → (g.heap p).id ≠ some (key_of keys t).id := by
    intro p hp
    rw [(hG.fields p).1]
    exact hno p hp
  refine ⟨?_, hG.rep, hG.quiet, hG.head, hG.perm, hG.fields, ?_, hG.brk, ?_⟩
  · rw [seq_run_append, hG.seq]
    simp only [Option.some_bind]
    rw [try_from_cache_miss hG.rep hG.quiet (key_of keys t) hidx hno2 hlen (wr t)]
    simp [outcome]
  · rw [List.nodup_append]
    refine ⟨hG.nodup, by simp, ?_⟩
    intro a ha hb
    simp only [List.mem_singleton] at hb
    rw [hb] at ha
    exact ht ha
  · intro i r hr
    by_cases hi : i = t
    · simp only [hi, if_true, Option.some.injEq] at hr
      rw [hi]
      left
      refine ⟨by rw [← hr]; simp [outcome], ?_⟩
      intro p hp
      exact hno p ((hG.perm _).mem_iff.mpr hp)
    · simp only [hi, if_false] at hr
      exact hG.answers i r hr

/-- A search that ends with a promotion: the sequential run goes on with a
lookup that hits. -/
theorem ghost_hit {s : State} {L0 : Nat → List Ptr} {keys : List cid_t} {wr : Nat → Int}
    {fuel : Nat} {order : List Nat} {g : State}
    {res : Nat → Option (Int × Option (List Nat))} {L : Nat → List Ptr}
    (hG : Ghost s L0 keys wr fuel order g res L) (t : Nat) (ht : t ∉ order)
    (hidx : (key_of keys t).index < HASHSIZE)
    (hfuel : (L0 (key_of keys t).index).length < fuel)
    {bp : Ptr} {l1 l2 : List Ptr} (hl : L (key_of keys t).index = l1 ++ bp :: l2)
    (hid : (s.heap bp).id = some (key_of keys t).id)
    (hno : ∀ p, p ∈ l1 → (s.heap p).id ≠ some (key_of keys t).id) :
    Ghost s L0 keys wr fuel (order ++ [t])
      { g with heap := promote_lru g.heap (s.head (key_of keys t).index) bp }
      (fun j => if j = t then some (outcome s.heap (wr t) bp) else res j)
      (Function.update L (key_of keys t).index (l1 ++ l2 ++ [bp])) := by
  have hlen : l1.length < fuel := by
    have := (hG.perm (key_of keys t).index).length_eq
    rw [hl] at this
    simp only [List.length_append, List.length_cons] at this
    omega
  have hno2 : ∀ p, p ∈ l1 → (g.heap p).id ≠ some (key_of keys t).id := by
    intro p hp
    rw [(hG.fields p).1]
    exact hno p hp
  have hid2 : (g.heap bp).id = some (key_of keys t).id := by
    rw [(hG.fields bp).1]
    exact hid
  have hbp0 : bp ≠ 0 := hG.rep.ne_null hidx (by rw [hl]; simp)
  rw [← hG.head]
  refine ⟨?_, promote_rep hG.rep hidx hl, ⟨hG.quiet.1, hG.quiet.2, hG.quiet.3, hG.quiet.4⟩,
    hG.head, ?_, ?_, ?_, hG.brk, ?_⟩
  · rw [seq_run_append, hG.seq]
    simp only [Option.some_bind]
    rw [try_from_cache_hit hG.rep hG.quiet (key_of keys t) hidx hl hid2 hno2 hlen (wr t)]
    simp only [Option.map_some', Option.some.injEq, Prod.mk.injEq, true_and]
    funext j
    by_cases hj : j = t
    · simp only [hj, if_true, outcome, hbp0, ne_eq, not_false_eq_true, Option.some.injEq]
      unfold block_bytes
      rw [(hG.fields bp).2.1, (hG.fields bp).2.2]
    · simp only [hj, if_false]
  · intro b
    by_cases hb : b = (key_of keys t).index
    · rw [hb, Function.update_same]
      refine List.Perm.trans ?_ (hG.perm _)
      rw [hl]
      simp only [List.append_assoc]
      exact List.Perm.append_left l1 (List.perm_append_comm.trans (by simp))
    · rw [Function.update_noteq hb]
      exact hG.perm b
  · intro p
    rw [promote_lru_eq]
    simp only [push_back_id, unlink_id, push_back_content, unlink_content, push_back_size,
      unlink_size]
    exact hG.fields p
  · rw [List.nodup_append]
    refine ⟨hG.nodup, by simp, ?_⟩
    intro a ha hb
    simp only [List.mem_singleton] at hb
    rw [hb] at ha
    exact ht ha
  · intro i r hr
    by_cases hi : i = t
    · simp only [hi, if_true, Option.some.injEq] at hr
      rw [hi]
      right
      refine ⟨bp, (hG.perm _).mem_iff.mp (by rw [hl]; simp), hid, ?_⟩
      rw [← hr]
      simp [outcome, hbp0]
    · simp only [hi, if_false] at hr
      exact hG.answers i r hr
/-- A step inside the search of call `t` keeps the invariant. -/
theorem lin_local {s : State} {L0 : Nat → List Ptr} {keys : List cid_t} {wr : Nat → Int}
    {fuel : Nat} {σ σ2 : Conc} {cnt cnt2 : Nat → Nat} {order : List Nat} {g : State}
    {res : Nat → Option (Int × Option (List Nat))} {L : Nat → List Ptr}
    (hl : ListLocks σ.sys) (hp : Protocol σ.sys)
    (hb : σ.sys.bucket = keys.map (fun c => c.index))
    (hG : Ghost s L0 keys wr fuel order g res L) (hS : Shape s keys σ cnt g.heap L)
    (hC : Control s L0 wr σ cnt order res)
    {t : Nat} (ht : σ.sys.pcs[t]? = some Pc.r_scan)
    (hsys : σ2.sys = σ.sys) (hout : σ2.out = σ.out)
    (hbp : ∀ j, j ≠ t → σ2.bp j = σ.bp j) (hrear : ∀ j, j ≠ t → σ2.rear j = σ.rear j)
    (hscan : ∀ j, j ≠ t → σ2.scan j = σ.scan j) (hcnt : ∀ j, j ≠ t → cnt2 j = cnt j)
    (hoff : ∀ p, p ∉ s.head (σ.sys.bucket.getD t 0) :: L (σ.sys.bucket.getD t 0) →
      σ2.heap p = σ.heap p)
    (hf : ∀ p, (σ2.heap p).id = (σ.heap p).id ∧ (σ2.heap p).content = (σ.heap p).content
      ∧ (σ2.heap p).size = (σ.heap p).size)
    (hst : Stage (fun p => (s.heap p).id) σ2.heap g.heap (s.head (σ.sys.bucket.getD t 0))
      (L (σ.sys.bucket.getD t 0)) (key_of keys t).id (σ2.bp t) (σ2.rear t) (cnt2 t)
      (σ2.scan t)) :
    Lin s L0 keys wr fuel σ2 cnt2 := by
  refine ⟨order, g, res, L, ?_, ?_, ?_, hG, ?_, ?_⟩
  · rw [hsys]
    exact hl
  · rw [hsys]
    exact hp
  · rw [hsys]
    exact hb
  · exact shape_local hl hG.rep hG.head hS ht hsys hbp hrear hscan hcnt hoff hf hst
  · exact control_local hC ht hsys hout hbp hscan hcnt

theorem set_next_keeps (h : Heap) (a v p : Ptr) :
    (set_next h a v p).id = (h p).id ∧ (set_next h a v p).content = (h p).content
      ∧ (set_next h a v p).size = (h p).size := by
  simp

theorem set_prev_keeps (h : Heap) (a v p : Ptr) :
    (set_prev h a v p).id = (h p).id ∧ (set_prev h a v p).content = (h p).content
      ∧ (set_prev h a v p).size = (h p).size := by
  simp

theorem off_of_mem {S : List Ptr} {a : Ptr} (ha : a ∈ S) (p : Ptr) (hp : p ∉ S) : p ≠ a :=
  fun e => hp (e ▸ ha)

/-- A step of call `t` outside its search keeps the invariant. -/
theorem lin_sys {s : State} {L0 : Nat → List Ptr} {keys : List cid_t} {wr : Nat → Int}
    {fuel : Nat} {σ σ2 : Conc} {cnt : Nat → Nat} (hI : Lin s L0 keys wr fuel σ cnt)
    {t : Nat} {p : Pc} (hp : σ.sys.pcs[t]? = some p) (hps : p ≠ Pc.r_scan)
    (hadv : advance σ.sys t = some σ2.sys) (hheap : σ2.heap = σ.heap)
    (hbp : σ2.bp = σ.bp) (hrear : σ2.rear = σ.rear) (hscan : σ2.scan = σ.scan)
    (hout1 : p ≠ Pc.r_write → σ2.out = σ.out)
    (hout2 : p = Pc.r_write →
      σ2.out = fun j => if j = t then some (outcome σ.heap (wr t) (σ.bp t)) else σ.out j) :
    Lin s L0 keys wr fuel σ2 (fun j => if j = t then cnt j + 1 else cnt j) := by
  obtain ⟨order, g, res, L, hl, hpr, hb, hG, hS, hC⟩ := hI
  obtain ⟨q, hq, hnd, hpcs, hbk, hlock, hunlock, hsame⟩ := advance_cases hadv
  rw [hp] at hq
  simp only [Option.some.injEq] at hq
  subst hq
  have hget := advance_get hp hpcs
  refine ⟨order, g, res, L, advance_locks hl hadv, advance_protocol hpr hadv, ?_, hG, ?_, ?_⟩
  · rw [hbk]
    exact hb
  · exact shape_sys hl hC hS hp hps (fun e => (hlock e).1) hget hbk hheap hbp hrear hscan
  · exact control_sys hC hS hp hps hnd (hl.lookups t p hp) hget hbk hbp hscan hout1 hout2
/-- The step with which call `t` ends a search that found no block keeps the
invariant. -/
theorem lin_miss {s : State} {L0 : Nat → List Ptr} {keys : List cid_t} {wr : Nat → Int}
    {fuel : Nat} (hfuel : ∀ b, b < HASHSIZE → (L0 b).length < fuel)
    {σ σ2 : Conc} {cnt : Nat → Nat} (hI : Lin s L0 keys wr fuel σ cnt)
    {t : Nat} (ht : σ.sys.pcs[t]? = some Pc.r_scan) (hsc : σ.scan t = Scan.test)
    (he : σ.bp t = s.head (σ.sys.bucket.getD t 0))
    (hadv : advance σ.sys t = some σ2.sys) (hheap : σ2.heap = σ.heap)
    (hbp : σ2.bp = fun j => if j = t then 0 else σ.bp j)
    (hrear : σ2.rear = σ.rear) (hscan : σ2.scan = σ.scan) (hout : σ2.out = σ.out) :
    Lin s L0 keys wr fuel σ2 (fun j => if j = t then cnt j + 1 else cnt j) := by
  obtain ⟨order, g, res, L, hl, hpr, hb, hG, hS, hC⟩ := hI
  obtain ⟨q, hq, hnd, hpcs, hbk, hlock, hunlock, hsame⟩ := advance_cases hadv
  rw [ht] at hq
  simp only [Option.some.injEq] at hq
  subst hq
  have hget := advance_get ht hpcs
  have hbt := hl.index t
  have hkey := bucket_key hb t
  have hnd2 : (s.head (σ.sys.bucket.getD t 0) :: L (σ.sys.bucket.getD t 0)).Nodup := by
    have := hG.rep.nodup _ hbt
    rw [hG.head] at this
    exact this
  have hst := hS.busy t ht
  rw [hsc] at hst
  obtain ⟨hno, hn, hag⟩ := stage_miss hnd2 hst he
  have hord : t ∉ order := by
    rw [hC.ord t, ht]
    simp [Pc.searched]
  have hlen := (hG.perm (σ.sys.bucket.getD t 0)).length_eq
  refine ⟨order ++ [t], g, _, L, advance_locks hl hadv, advance_protocol hpr hadv, ?_,
    ghost_miss hG t hord (hkey ▸ hbt) (hfuel _ (hkey ▸ hbt)) (hkey ▸ hno), ?_, ?_⟩
  · rw [hbk]
    exact hb
  · apply shape_exit hl hG.rep hG.head hS ht hget hbk
    · intro j hj
      rw [hbp]
      simp only [hj, if_false]
    · intro j _
      rw [hrear]
    · intro j _
      rw [hscan]
    · intro j hj
      simp only [hj, if_false]
    · intro b _
      rfl
    · intro p
      rfl
    · intro p _
      rw [hheap]
    · intro p _
      rfl
    · intro p
      rw [hheap]
      exact ⟨rfl, rfl, rfl⟩
    · intro p hp
      rw [hheap]
      exact hag p hp
  · have : Control s L0 wr σ2 (fun j => if j = t then cnt j + 1 else cnt j) (order ++ [t])
        (fun j => if j = t then some (outcome s.heap (wr t) (σ2.bp t)) else res j) :=
      control_exit hC ht hget hbk hout
        (by intro j hj; rw [hbp]; simp only [hj, if_false]) hscan
        (by intro j hj; simp only [hj, if_false])
        (by simp only [if_true]; omega)
    rw [hbp] at this
    simp only [if_true] at this
    exact this
/-- The step with which call `t` completes a promotion keeps the invariant. -/
theorem lin_hit {s : State} {L0 : Nat → List Ptr} {keys : List cid_t} {wr : Nat → Int}
    {fuel : Nat} (hfuel : ∀ b, b < HASHSIZE → (L0 b).length < fuel)
    {σ σ2 : Conc} {cnt : Nat → Nat} (hI : Lin s L0 keys wr fuel σ cnt)
    {t : Nat} (ht : σ.sys.pcs[t]? = some Pc.r_scan) (hsc : σ.scan t = Scan.link4)
    (hadv : advance σ.sys t = some σ2.sys)
    (hheap : σ2.heap = set_prev σ.heap (s.head (σ.sys.bucket.getD t 0)) (σ.bp t))
    (hbp : σ2.bp = σ.bp)
    (hrear : σ2.rear = σ.rear) (hscan : σ2.scan = σ.scan) (hout : σ2.out = σ.out) :
    Lin s L0 keys wr fuel σ2 (fun j => if j = t then cnt j + 1 else cnt j) := by
  obtain ⟨order, g, res, L, hl, hpr, hb, hG, hS, hC⟩ := hI
  obtain ⟨q, hq, hnd, hpcs, hbk, hlock, hunlock, hsame⟩ := advance_cases hadv
  rw [ht] at hq
  simp only [Option.some.injEq] at hq
  subst hq
  have hget := advance_get ht hpcs
  have hbt := hl.index t
  have hkey := bucket_key hb t
  have hnd2 : (s.head (σ.sys.bucket.getD t 0) :: L (σ.sys.bucket.getD t 0)).Nodup := by
    have := hG.rep.nodup _ hbt
    rw [hG.head] at this
    exact this
  have hseg : Seg g.heap (s.head (σ.sys.bucket.getD t 0)) (L (σ.sys.bucket.getD t 0))
      (s.head (σ.sys.bucket.getD t 0)) := by
    have := hG.rep.seg _ hbt
    rw [hG.head] at this
    exact this
  have hst := hS.busy t ht
  rw [hsc] at hst
  obtain ⟨l1, l2, hL, hno, hid, hag, hn⟩ := stage_link4 hseg hnd2 hst
  have hord : t ∉ order := by
    rw [hC.ord t, ht]
    simp [Pc.searched]
  have hlen := (hG.perm (σ.sys.bucket.getD t 0)).length_eq
  have hL2 : L (key_of keys t).index = l1 ++ σ.bp t :: l2 := hkey ▸ hL
  have hghost := ghost_hit hG t hord (hkey ▸ hbt) (hfuel _ (hkey ▸ hbt)) hL2 hid hno
  rw [← hkey] at hghost
  refine ⟨order ++ [t], _, _, _, advance_locks hl hadv, advance_protocol hpr hadv, ?_,
    hghost, ?_, ?_⟩
  · rw [hbk]
    exact hb
  · apply shape_exit hl hG.rep hG.head hS ht hget hbk
    · intro j _
      rw [hbp]
    · intro j _
      rw [hrear]
    · intro j _
      rw [hscan]
    · intro j hj
      simp only [hj, if_false]
    · intro b hb2
      exact Function.update_noteq hb2 _ _
    · intro p
      rw [Function.update_same, hL]
      simp only [List.mem_append, List.mem_cons, List.mem_singleton, List.not_mem_nil,
        or_false]
      tauto
    · intro p hp
      rw [hheap]
      exact set_prev_off _ _ _ _ (off_of_mem (List.mem_cons_self _ _) p hp)
    · intro p hp
      have := promote_frame hG.rep hbt hL p (by rw [hG.head]; exact hp)
      rw [hG.head] at this
      exact this
    · intro p
      rw [hheap]
      exact set_prev_keeps _ _ _ _
    · intro p hp
      rw [hheap]
      exact hag p hp
  · have : Control s L0 wr σ2 (fun j => if j = t then cnt j + 1 else cnt j) (order ++ [t])
        (fun j => if j = t then some (outcome s.heap (wr t) (σ2.bp t)) else res j) :=
      control_exit hC ht hget hbk hout
        (by intro j hj; rw [hbp]) hscan
        (by intro j hj; simp only [hj, if_false])
        (by simp only [if_true]; omega)
    rw [hbp] at this
    exact this
/-- Every step keeps the invariant. -/
theorem conc_step_lin {s : State} {L0 : Nat → List Ptr} {keys : List cid_t} {wr : Nat → Int}
    {fuel : Nat} (hfuel : ∀ b, b < HASHSIZE → (L0 b).length < fuel)
    {σ σ2 : Conc} {cnt : Nat → Nat} (hI : Lin s L0 keys wr fuel σ cnt) {t : Nat}
    (h : conc_step s.head keys wr σ t = some σ2) :
    Lin s L0 keys wr fuel σ2 (fun j => if j = t then cnt j + 1 else cnt j) := by
  cases hpc : σ.sys.pcs[t]? with
  | none =>
    simp [conc_step, hpc, advance] at h
  | some p =>
    by_cases hps : p = Pc.r_scan
    · subst hps
      obtain ⟨order, g, res, L, hl, hpr, hb, hG, hS, hC⟩ := hI
      have hbt := hl.index t
      have hnd2 : (s.head (σ.sys.bucket.getD t 0) :: L (σ.sys.bucket.getD t 0)).Nodup := by
        have := hG.rep.nodup _ hbt
        rw [hG.head] at this
        exact this
      have hseg : Seg g.heap (s.head (σ.sys.bucket.getD t 0)) (L (σ.sys.bucket.getD t 0))
          (s.head (σ.sys.bucket.getD t 0)) := by
        have := hG.rep.seg _ hbt
        rw [hG.head] at this
        exact this
      have hst := hS.busy t hpc
      have hids : ∀ p, (σ.heap p).id = (s.heap p).id := fun p => (hS.fields p).1
      unfold conc_step at h
      simp only [hpc] at h
      cases hsc : σ.scan t with
      | init =>
        simp only [hsc] at h hst
        simp only [Option.some.injEq] at h
        subst h
        refine lin_local hl hpr hb hG hS hC hpc ?_ ?_ ?_ ?_ ?_ ?_ ?_ ?_ ?_
        · rfl
        · rfl
        · intro j hj
          simp only [hj, if_false]
        · intro j _
          rfl
        · intro j hj
          simp only [hj, if_false]
        · intro j hj
          simp only [hj, if_false]
        · intro p _
          rfl
        · intro p
          exact ⟨rfl, rfl, rfl⟩
        · simp only [if_true]
          exact stage_init hseg hst
      | test =>
        simp only [hsc] at h hst
        by_cases he : σ.bp t = s.head (σ.sys.bucket.getD t 0)
        · simp only [he, if_true] at h
          cases hadv : advance σ.sys t with
          | none => simp [hadv] at h
          | some sys2 =>
            simp only [hadv, Option.map_some', Option.some.injEq] at h
            subst h
            exact lin_miss hfuel ⟨order, g, res, L, hl, hpr, hb, hG, hS, hC⟩ hpc hsc he hadv
              rfl rfl rfl rfl rfl
        · simp only [he, if_false] at h
          by_cases hid : (σ.heap (σ.bp t)).id = some (key_of keys t).id
          · simp only [hid, if_true, Option.some.injEq] at h
            subst h
            refine lin_local hl hpr hb hG hS hC hpc ?_ ?_ ?_ ?_ ?_ ?_ ?_ ?_ ?_
            · rfl
            · rfl
            · intro j _
              rfl
            · intro j _
              rfl
            · intro j hj
              simp only [hj, if_false]
            · intro j hj
              simp only [hj, if_false]
            · intro p _
              rfl
            · intro p
              exact ⟨rfl, rfl, rfl⟩
            · simp only [if_true]
              exact stage_found hst he (by rw [← hids]; exact hid)
          · simp only [hid, if_false, Option.some.injEq] at h
            subst h
            refine lin_local hl hpr hb hG hS hC hpc ?_ ?_ ?_ ?_ ?_ ?_ ?_ ?_ ?_
            · rfl
            · rfl
            · intro j hj
              simp only [hj, if_false]
            · intro j _
              rfl
            · intro j _
              rfl
            · intro j hj
              simp only [hj, if_false]
            · intro p _
              rfl
            · intro p
              exact ⟨rfl, rfl, rfl⟩
            · simp only [if_true]
              rw [hsc]
              exact stage_next hseg hst he (by rw [← hids]; exact hid)
      | unlink1 =>
        simp only [hsc] at h hst
        simp only [Option.some.injEq] at h
        subst h
        obtain ⟨h1, h2⟩ := stage_unlink1 hseg hnd2 hst
        refine lin_local hl hpr hb hG hS hC hpc ?_ ?_ ?_ ?_ ?_ ?_ ?_ ?_ ?_
        · rfl
        · rfl
        · intro j _
          rfl
        · intro j _
          rfl
        · intro j hj
          simp only [hj, if_false]
        · intro j hj
          simp only [hj, if_false]
        · intro p hp
          exact set_next_off _ _ _ _ (off_of_mem h2 p hp)
        · intro p
          exact set_next_keeps _ _ _ _
        · simp only [if_true]
          exact h1
      | unlink2 =>
        simp only [hsc] at h hst
        simp only [Option.some.injEq] at h
        subst h
        obtain ⟨h1, h2⟩ := stage_unlink2 hseg hnd2 hst
        refine lin_local hl hpr hb hG hS hC hpc ?_ ?_ ?_ ?_ ?_ ?_ ?_ ?_ ?_
        · rfl
        · rfl
        · intro j _
          rfl
        · intro j _
          rfl
        · intro j hj
          simp only [hj, if_false]
        · intro j hj
          simp only [hj, if_false]
        · intro p hp
          exact set_prev_off _ _ _ _ (off_of_mem h2 p hp)
        · intro p
          exact set_prev_keeps _ _ _ _
        · simp only [if_true]
          exact h1
      | rear =>
        simp only [hsc] at h hst
        simp only [Option.some.injEq] at h
        subst h
        refine lin_local hl hpr hb hG hS hC hpc ?_ ?_ ?_ ?_ ?_ ?_ ?_ ?_ ?_
        · rfl
        · rfl
        · intro j _
          rfl
        · intro j hj
          simp only [hj, if_false]
        · intro j hj
          simp only [hj, if_false]
        · intro j hj
          simp only [hj, if_false]
        · intro p _
          rfl
        · intro p
          exact ⟨rfl, rfl, rfl⟩
        · simp only [if_true]
          exact stage_rear hseg hnd2 hst
      | link1 =>
        simp only [hsc] at h hst
        simp only [Option.some.injEq] at h
        subst h
        obtain ⟨h1, h2⟩ := stage_link1 hseg hnd2 hst
        refine lin_local hl hpr hb hG hS hC hpc ?_ ?_ ?_ ?_ ?_ ?_ ?_ ?_ ?_
        · rfl
        · rfl
        · intro j _
          rfl
        · intro j _
          rfl
        · intro j hj
          simp only [hj, if_false]
        · intro j hj
          simp only [hj, if_false]
        · intro p hp
          exact set_next_off _ _ _ _ (off_of_mem h2 p hp)
        · intro p
          exact set_next_keeps _ _ _ _
        · simp only [if_true]
          exact h1
      | link2 =>
        simp only [hsc] at h hst
        simp only [Option.some.injEq] at h
        subst h
        obtain ⟨h1, h2⟩ := stage_link2 hst
        refine lin_local hl hpr hb hG hS hC hpc ?_ ?_ ?_ ?_ ?_ ?_ ?_ ?_ ?_
        · rfl
        · rfl
        · intro j _
          rfl
        · intro j _
          rfl
        · intro j hj
          simp only [hj, if_false]
        · intro j hj
          simp only [hj, if_false]
        · intro p hp
          exact set_prev_off _ _ _ _ (off_of_mem h2 p hp)
        · intro p
          exact set_prev_keeps _ _ _ _
        · simp only [if_true]
          exact h1
      | link3 =>
        simp only [hsc] at h hst
        simp only [Option.some.injEq] at h
        subst h
        obtain ⟨h1, h2⟩ := stage_link3 hst
        refine lin_local hl hpr hb hG hS hC hpc ?_ ?_ ?_ ?_ ?_ ?_ ?_ ?_ ?_
        · rfl
        · rfl
        · intro j _
          rfl
        · intro j _
          rfl
        · intro j hj
          simp only [hj, if_false]
        · intro j hj
          simp only [hj, if_false]
        · intro p hp
          exact set_next_off _ _ _ _ (off_of_mem h2 p hp)
        · intro p
          exact set_next_keeps _ _ _ _
        · simp only [if_true]
          exact h1
      | link4 =>
        simp only [hsc] at h hst
        cases hadv : advance σ.sys t with
        | none => simp [hadv] at h
        | some sys2 =>
          simp only [hadv, Option.map_some', Option.some.injEq] at h
          subst h
          exact lin_hit hfuel ⟨order, g, res, L, hl, hpr, hb, hG, hS, hC⟩ hpc hsc hadv
            rfl rfl rfl rfl rfl
    · by_cases hw : p = Pc.r_write
      · subst hw
        unfold conc_step at h
        simp only [hpc] at h
        cases hadv : advance σ.sys t with
        | none => simp [hadv] at h
        | some sys2 =>
          simp only [hadv, Option.map_some', Option.some.injEq] at h
          subst h
          exact lin_sys hI hpc hps hadv rfl rfl rfl rfl (fun e => absurd rfl e) (fun _ => rfl)
      · have hstep : conc_step s.head keys wr σ t
            = (advance σ.sys t).map (fun s2 => { σ with sys := s2 }) := by
          unfold conc_step
          rw [hpc]
          revert hps hw
          cases p <;> simp
        rw [hstep] at h
        cases hadv : advance σ.sys t with
        | none => simp [hadv] at h
        | some sys2 =>
          simp only [hadv, Option.map_some', Option.some.injEq] at h
          subst h
          exact lin_sys hI hpc hps hadv rfl rfl rfl rfl (fun _ => rfl) (fun e => absurd e hw)
theorem start_pcs (s : State) (keys : List cid_t) (i : Nat) (p : Pc)
    (h : (start s (keys.map (fun c => Call.lookup c.index))).pcs[i]? = some p) :
    p = Pc.r_lock_in := by
  simp only [start, List.map_map, List.getElem?_map] at h
  cases hk : keys[i]? with
  | none => simp [hk] at h
  | some c =>
    simp only [hk, Option.map_some', Function.comp_apply, Call.entry, Option.some.injEq] at h
    exact h.symm

theorem start_bucket (s : State) (keys : List cid_t) :
    (start s (keys.map (fun c => Call.lookup c.index))).bucket
      = keys.map (fun c => c.index) := by
  simp only [start, List.map_map]
  rfl

/-- The invariant holds when the calls begin. -/
theorem lin_start {s : State} {L0 : Nat → List Ptr} (keys : List cid_t) (wr : Nat → Int)
    (fuel : Nat) (hR : Rep s L0) (hQ : Quiescent s)
    (hidx : ∀ c, c ∈ keys → c.index < HASHSIZE) :
    Lin s L0 keys wr fuel (conc_start s keys) (fun _ => 0) := by
  have hpcs := start_pcs s keys
  have hbk := start_bucket s keys
  refine ⟨[], s, fun _ => none, L0, ?_, start_protocol hQ _, hbk, ?_, ?_, ?_⟩
  · refine ⟨?_, ?_, ?_, ?_, ?_, ?_⟩
    · simp [conc_start, start]
    · intro i
      show (start s (keys.map (fun c => Call.lookup c.index))).bucket.getD i 0 < HASHSIZE
      rw [hbk]
      simp only [List.getD_eq_getElem?_getD, List.getElem?_map]
      cases hk : keys[i]? with
      | none => simp [HASHSIZE]
      | some c => exact hidx c (List.getElem?_mem hk)
    · intro i p hp
      rw [hpcs i p hp]
      rfl
    · intro i j p q hp hq hhp
      rw [hpcs i p hp] at hhp
      simp [Pc.holds_list] at hhp
    · intro i p hp hhp
      rw [hpcs i p hp] at hhp
      simp [Pc.holds_list] at hhp
    · intro b hb _
      exact hQ.list_mutex b hb
  · exact ⟨rfl, hR, hQ, rfl, fun _ => List.Perm.refl _, fun _ => ⟨rfl, rfl, rfl⟩,
      List.nodup_nil, rfl, fun i r hr => by simp at hr⟩
  · refine ⟨fun _ => ⟨rfl, rfl, rfl⟩, fun _ _ _ _ _ => rfl, fun _ _ => rfl, ?_⟩
    intro i hi
    have := hpcs i _ hi
    cases this
  · refine ⟨?_, ?_, ?_, ?_, ?_, ?_⟩
    · intro i
      simp only [List.not_mem_nil, false_iff, not_exists, not_and]
      intro p hp
      rw [hpcs i p hp]
      simp [Pc.searched]
    · intro i p _ _ _
      rfl
    · intro i hi
      rcases hi with hi | hi
      · have := hpcs i _ hi
        cases this
      · have := hpcs i _ hi
        cases this
    · intro i r hr
      simp [conc_start] at hr
    · intro i p hp hw
      rw [hpcs i p hp] at hw
      simp [Pc.wrote] at hw
    · intro i p _ _
      exact Nat.zero_le _

/-- An interleaving keeps the invariant; every call is counted with the steps
it takes. -/
theorem conc_run_lin {s : State} {L0 : Nat → List Ptr} {keys : List cid_t} {wr : Nat → Int}
    {fuel : Nat} (hfuel : ∀ b, b < HASHSIZE → (L0 b).length < fuel) :
    ∀ (sched : List Nat) (σ σ2 : Conc) (cnt : Nat → Nat), Lin s L0 keys wr fuel σ cnt →
      conc_run s.head keys wr σ sched = some σ2 →
      Lin s L0 keys wr fuel σ2 (fun j => cnt j + sched.count j) := by
  intro sched
  induction sched with
  | nil =>
    intro σ σ2 cnt hI h
    simp only [conc_run, Option.some.injEq] at h
    subst h
    simpa using hI
  | cons t sched ih =>
    intro σ σ2 cnt hI h
    simp only [conc_run] at h
    cases hs : conc_step s.head keys wr σ t with
    | none => simp [hs] at h
    | some σ1 =>
      simp only [hs, Option.some_bind] at h
      have := ih σ1 σ2 _ (conc_step_lin hfuel hI hs) h
      have e : (fun j => (if j = t then cnt j + 1 else cnt j) + sched.count j)
          = fun j => cnt j + (t :: sched).count j := by
        funext j
        rw [List.count_cons]
        by_cases hj : j = t
        · simp only [hj, if_true, beq_self_eq_true]
          omega
        · have : ¬ t = j := fun e => hj e.symm
          simp only [hj, if_false, beq_iff_eq, this]
          omega
      rw [e] at this
      exact this

theorem conc_run_append (head : Nat → Ptr) (keys : List cid_t) (wr : Nat → Int) :
    ∀ (s1 s2 : List Nat) (σ : Conc),
      conc_run head keys wr σ (s1 ++ s2)
        = (conc_run head keys wr σ s1).bind (fun σ2 => conc_run head keys wr σ2 s2) := by
  intro s1
  induction s1 with
  | nil =>
    intro s2 σ
    rfl
  | cons i t ih =>
    intro s2 σ
    simp only [List.cons_append, conc_run]
    cases conc_step head keys wr σ i with
    | none => rfl
    | some σ1 =>
      simp only [Option.some_bind]
      exact ih s2 σ1
theorem countP_zero_of_get (q : Pc → Bool) (l : List Pc)
    (h : ∀ (i : Nat) (p : Pc), l[i]? = some p → q p = false) : l.countP q = 0 := by
  rw [List.countP_eq_zero]
  intro a ha
  obtain ⟨i, hi⟩ := List.getElem?_of_mem ha
  rw [h i a hi]
  simp

theorem count_zero_of_get (a : Pc) (l : List Pc)
    (h : ∀ i : Nat, l[i]? ≠ some a) : l.count a = 0 := by
  rw [List.count_eq_zero]
  intro ha
  obtain ⟨i, hi⟩ := List.getElem?_of_mem ha
  exact h i hi

/-- Lookups do not block one another for ever: unless every call has returned,
some call can take a step. -/
theorem advance_progress {σ : Sys} (hp : Protocol σ) (hl : ListLocks σ) :
    (∀ (i : Nat) (p : Pc), σ.pcs[i]? = some p → p = Pc.done)
      ∨ ∃ t σ2, advance σ t = some σ2 := by
  by_contra hcon
  push_neg at hcon
  obtain ⟨⟨i0, p0, hp0, hnd0⟩, hstuck⟩ := hcon
  have hnone : ∀ t, advance σ t = none := by
    intro t
    cases h : advance σ t with
    | none => rfl
    | some σ2 => exact absurd h (hstuck t σ2)
  have h1 : ∀ (i : Nat) (p : Pc), σ.pcs[i]? = some p →
      p = Pc.r_lock_in ∨ p = Pc.r_first ∨ p = Pc.r_list_lock ∨ p = Pc.r_lock_out
        ∨ p = Pc.done := by
    intro i p hpi
    have h := hnone i
    have hlk := hl.lookups i p hpi
    unfold advance at h
    simp only [hpi] at h
    revert h hlk
    cases p <;> simp [Pc.is_lookup]
    · split <;> simp
  have hwr : σ.pcs.countP Pc.writing = 0 := by
    apply countP_zero_of_get
    intro i p hpi
    rcases h1 i p hpi with e | e | e | e | e <;> rw [e] <;> rfl
  have h2 : ∀ i : Nat, σ.pcs[i]? ≠ some Pc.r_first := by
    intro i hi
    have h := hnone i
    unfold advance at h
    simp only [hi] at h
    split at h
    · rename_i hrc
      have hws : σ.write_sem = 0 := by
        unfold P at h
        split at h
        · assumption
        · simp at h
      have hlast : σ.pcs.count Pc.r_last = 0 := by
        apply count_zero_of_get
        intro j hj
        rcases h1 j _ hj with e | e | e | e | e <;> cases e
      have hfirst := count_pos_of_get σ.pcs i _ hi
      have hcp := countP_passed σ.pcs
      have hrd := hp.readers
      have hg := hp.gate
      rw [hrc] at hrd
      have : σ.pcs.countP Pc.counted = 1 := by
        omega
      have hpz : σ.pcs.countP Pc.passed = 0 := by
        omega
      rw [hpz, hws, hwr] at hg
      simp at hg
    · simp at h
  have hmx : σ.rcnt_mutex = 1 := by
    have : σ.pcs.countP Pc.in_mutex = 0 := by
      apply countP_zero_of_get
      intro i p hpi
      rcases h1 i p hpi with e | e | e | e | e
      · rw [e]
        rfl
      · rw [e] at hpi
        exact absurd hpi (h2 i)
      · rw [e]
        rfl
      · rw [e]
        rfl
      · rw [e]
        rfl
    have := hp.mutex
    omega
  have h3 : ∀ i : Nat, σ.pcs[i]? ≠ some Pc.r_lock_in := by
    intro i hi
    have h := hnone i
    unfold advance at h
    simp [hi, hmx, P] at h
  have h4 : ∀ i : Nat, σ.pcs[i]? ≠ some Pc.r_lock_out := by
    intro i hi
    have h := hnone i
    unfold advance at h
    simp [hi, hmx, P] at h
  have h5 : ∀ i : Nat, σ.pcs[i]? ≠ some Pc.r_list_lock := by
    intro i hi
    have h := hnone i
    unfold advance at h
    have hfree : σ.list_mutex (σ.bucket.getD i 0) = 1 := by
      apply hl.free _ (hl.index i)
      intro j q hq hhq
      rcases h1 j q hq with e | e | e | e | e <;> rw [e] at hhq <;> simp [Pc.holds_list] at hhq
    simp only [hi, hfree, P] at h
    simp at h
  rcases h1 i0 p0 hp0 with e | e | e | e | e
  · rw [e] at hp0
    exact h3 i0 hp0
  · rw [e] at hp0
    exact h2 i0 hp0
  · rw [e] at hp0
    exact h5 i0 hp0
  · rw [e] at hp0
    exact h4 i0 hp0
  · exact hnd0 e

/-- A call that can take a step of the protocol can take a step. -/
theorem conc_step_of_advance (head : Nat → Ptr) (keys : List cid_t) (wr : Nat → Int)
    (σ : Conc) (t : Nat) (sys2 : Sys) (h : advance σ.sys t = some sys2) :
    ∃ σ2, conc_step head keys wr σ t = some σ2 := by
  unfold conc_step
  cases hpc : σ.sys.pcs[t]? with
  | none => simp [advance, hpc] at h
  | some p =>
    cases p
    case r_scan =>
      simp only [h, Option.map_some']
      cases σ.scan t <;> simp
      split
      · exact ⟨_, rfl⟩
      · split <;> exact ⟨_, rfl⟩
    all_goals
      simp only [h, Option.map_some']
      exact ⟨_, rfl⟩
theorem lin_length {s : State} {L0 : Nat → List Ptr} {keys : List cid_t} {wr : Nat → Int}
    {fuel : Nat} {σ : Conc} {cnt : Nat → Nat} (hI : Lin s L0 keys wr fuel σ cnt) :
    σ.sys.pcs.length = keys.length := by
  obtain ⟨order, g, res, L, hl, hpr, hb, hG, hS, hC⟩ := hI
  rw [hl.size, hb, List.length_map]

/-- No call takes more steps than twenty and the number of entries of its
bucket. -/
theorem lin_bound {s : State} {L0 : Nat → List Ptr} {keys : List cid_t} {wr : Nat → Int}
    {fuel : Nat} {σ : Conc} {cnt : Nat → Nat} (hI : Lin s L0 keys wr fuel σ cnt)
    (i : Nat) (hi : i < keys.length) :
    cnt i ≤ 20 + (L0 (key_of keys i).index).length := by
  have hlen := lin_length hI
  obtain ⟨order, g, res, L, hl, hpr, hb, hG, hS, hC⟩ := hI
  rw [← bucket_key hb i]
  have hi2 : i < σ.sys.pcs.length := by
    rw [hlen]
    exact hi
  have hp : σ.sys.pcs[i]? = some (σ.sys.pcs[i]) := List.getElem?_eq_getElem hi2
  generalize σ.sys.pcs[i] = p at hp
  by_cases hps : p = Pc.r_scan
  · subst hps
    obtain ⟨_, hloc⟩ := hS.busy i hp
    have hperm := (hG.perm (σ.sys.bucket.getD i 0)).length_eq
    rw [← hperm]
    generalize σ.scan i = sc at hloc
    cases sc with
    | init =>
      simp only [Local] at hloc
      omega
    | test =>
      obtain ⟨l1, l2, hl1, _, _, hn⟩ := hloc
      rw [hl1, List.length_append]
      omega
    | _ =>
      obtain ⟨l1, l2, hl1, _, _, _, hn⟩ := hloc
      simp only [Scan.rank] at hn
      omega
  · have := hC.steps i p hp hps
    revert this
    cases p <;> simp only [Pc.bound] <;> omega

theorem conc_step_some_lt {head : Nat → Ptr} {keys : List cid_t} {wr : Nat → Int}
    {σ σ2 : Conc} {t : Nat} (h : conc_step head keys wr σ t = some σ2) :
    t < σ.sys.pcs.length := by
  rcases Nat.lt_or_ge t σ.sys.pcs.length with h1 | h1
  · exact h1
  · have hn : σ.sys.pcs[t]? = none := List.getElem?_eq_none h1
    simp [conc_step, hn, advance] at h

/-- Unless every call has returned, some call can take a step. -/
theorem lin_progress {s : State} {L0 : Nat → List Ptr} {keys : List cid_t} {wr : Nat → Int}
    {fuel : Nat} {σ : Conc} {cnt : Nat → Nat} (hI : Lin s L0 keys wr fuel σ cnt) :
    (∀ i, i < keys.length → σ.sys.pcs[i]? = some Pc.done)
      ∨ ∃ t σ2, conc_step s.head keys wr σ t = some σ2 := by
  have hlen := lin_length hI
  obtain ⟨order, g, res, L, hl, hpr, hb, hG, hS, hC⟩ := hI
  rcases advance_progress hpr hl with h | ⟨t, sys2, h⟩
  · left
    intro i hi
    have hi2 : i < σ.sys.pcs.length := by
      rw [hlen]
      exact hi
    have hp : σ.sys.pcs[i]? = some (σ.sys.pcs[i]) := List.getElem?_eq_getElem hi2
    rw [hp, h i _ hp]
  · right
    exact ⟨t, conc_step_of_advance s.head keys wr σ t sys2 h⟩

/-- Every interleaving can be continued until every call has returned. -/
theorem lin_complete {s : State} {L0 : Nat → List Ptr} {keys : List cid_t} {wr : Nat → Int}
    {fuel : Nat} (hfuel : ∀ b, b < HASHSIZE → (L0 b).length < fuel) :
    ∀ (m : Nat) (σ : Conc) (cnt : Nat → Nat), Lin s L0 keys wr fuel σ cnt →
      (∑ i in Finset.range keys.length, (20 + (L0 (key_of keys i).index).length - cnt i)) ≤ m →
      ∃ sched σ2, conc_run s.head keys wr σ sched = some σ2
        ∧ ∀ i, i < keys.length → σ2.sys.pcs[i]? = some Pc.done := by
  have hdec : ∀ (σ σ1 : Conc) (cnt : Nat → Nat) (t : Nat), Lin s L0 keys wr fuel σ cnt →
      conc_step s.head keys wr σ t = some σ1 →
      (∑ i in Finset.range keys.length,
          (20 + (L0 (key_of keys i).index).length - (if i = t then cnt i + 1 else cnt i)))
        < ∑ i in Finset.range keys.length,
            (20 + (L0 (key_of keys i).index).length - cnt i) := by
    intro σ σ1 cnt t hI hs
    have ht : t < keys.length := by
      rw [← lin_length hI]
      exact conc_step_some_lt hs
    have hb := lin_bound (conc_step_lin hfuel hI hs) t ht
    simp only [if_true] at hb
    apply Finset.sum_lt_sum
    · intro i _
      by_cases hit : i = t
      · simp only [hit, if_true]
        omega
      · simp only [hit, if_false]
        exact Nat.le_refl _
    · refine ⟨t, Finset.mem_range.mpr ht, ?_⟩
      simp only [if_true]
      omega
  intro m
  induction m with
  | zero =>
    intro σ cnt hI hm
    rcases lin_progress hI with h | ⟨t, σ1, hs⟩
    · exact ⟨[], σ, rfl, h⟩
    · have := hdec σ σ1 cnt t hI hs
      omega
  | succ m ih =>
    intro σ cnt hI hm
    rcases lin_progress hI with h | ⟨t, σ1, hs⟩
    · exact ⟨[], σ, rfl, h⟩
    · have hlt := hdec σ σ1 cnt t hI hs
      obtain ⟨sched, σ2, hr, hd⟩ := ih σ1 _ (conc_step_lin hfuel hI hs) (by omega)
      refine ⟨t :: sched, σ2, ?_, hd⟩
      simp only [conc_run, hs, Option.some_bind]
      exact hr

/-- When no call is inside a search the shared heap is the heap of the
sequential run. -/
theorem shape_heap_eq {s g : State} {keys : List cid_t} {σ : Conc} {cnt : Nat → Nat}
    {L : Nat → List Ptr} (hS : Shape s keys σ cnt g.heap L)
    (hno : ∀ i : Nat, σ.sys.pcs[i]? ≠ some Pc.r_scan) : σ.heap = g.heap := by
  funext p
  by_cases h : ∃ b, b < HASHSIZE ∧ p ∈ s.head b :: L b
  · obtain ⟨b, hb, hp⟩ := h
    exact hS.idle b hb (fun i hi => absurd hi (hno i)) p hp
  · push_neg at h
    exact hS.outside p h
/-- An answer, against the lookup on the cache as it was at the beginning: the
result code is the same, and so are the bytes when no two entries of the bucket
have the same key. -/
theorem answer_sequential {s : State} {L0 : Nat → List Ptr} (hR : Rep s L0) (hQ : Quiescent s)
    (key : cid_t) (hidx : key.index < HASHSIZE) (wr : Int) {fuel : Nat}
    (hf : (L0 key.index).length < fuel) {r : Int × Option (List Nat)}
    (ha : lookup_answer s L0 key wr r) :
    ∃ x, try_from_cache fuel s wr key = some x ∧ r.1 = x.rc
      ∧ ((∀ p q, p ∈ L0 key.index → q ∈ L0 key.index → (s.heap p).id = (s.heap q).id → p = q) →
          r.2 = x.sent) := by
  rcases ha with ⟨hr, hno⟩ | ⟨p, hp, hid, hr⟩
  · refine ⟨_, try_from_cache_miss hR hQ key hidx hno hf wr, ?_, ?_⟩
    · rw [hr]
    · intro _
      rw [hr]
  · obtain ⟨l1, r0, l2, hl, hr0, hno⟩ :=
      first_match_split (fun x => (s.heap x).id = some key.id) (L0 key.index) ⟨p, hp, hid⟩
    have hlen : l1.length < fuel := by
      rw [hl] at hf
      simp only [List.length_append, List.length_cons] at hf
      omega
    refine ⟨_, try_from_cache_hit hR hQ key hidx hl hr0 hno hlen wr, ?_, ?_⟩
    · rw [hr]
    · intro huniq
      have : p = r0 := by
        apply huniq p r0 hp (by rw [hl]; simp)
        rw [hid, hr0]
      rw [hr, this]
/-! ## C31: lookups that run at the same time -/

/-- C31.  Calls of `try_from_cache`, call `i` for the key `keys[i]`, begin
together on a cache with well-formed buckets `L0` on which no operation is in
progress, and no `update_cache` runs.  The calls are interleaved in any way,
statement by statement; between `P` and `V` on the list semaphore every round
of the search loop and every assignment to a `prev` or `next` field is a step
of its own.  Then in every state `σ` that can be reached:

* the run amounts to a sequential one.  There is an order of the calls that
  have finished their searches in which `try_from_cache`, executed for one call
  after the other on the cache as it was at the beginning, returns every time,
  and every result that a call of the interleaving has (result code and bytes
  handed to `Rio_writen`) is the result of that call in the sequential run;
* such a result is a hit with the bytes of an entry of the bucket that has the
  key, or a miss while no entry of the bucket has the key; its result code is
  that of a lookup on the cache as it was at the beginning, and so are its
  bytes when no two entries of the bucket have the same key;
* whenever no call is inside a search, the heap is the one the sequential run
  leaves: every bucket is a well-formed circular doubly linked list at its
  sentinel, it holds the entries it held at the beginning, and `checklist`
  finds every assertion true;
* every call that has returned has its result, no call has taken more steps
  than twenty and the number of entries of its bucket, some call can take a step
  unless every call has returned, and the interleaving can be continued until
  every call has returned. -/
theorem C31_concurrent_lookups_are_sequential :
    ∀ (s : State) (L0 : Nat → List Ptr) (keys : List cid_t) (wr : Nat → Int) (fuel : Nat)
      (sched : List Nat) (σ : Conc),
      Rep s L0 → Quiescent s → (∀ c, c ∈ keys → c.index < HASHSIZE) →
      (∀ b, b < HASHSIZE → (L0 b).length < fuel) →
      conc_run s.head keys wr (conc_start s keys) sched = some σ →
      (∃ order g res, order.Nodup
          ∧ (∀ i : Nat, i ∈ order ↔ ∃ p : Pc, σ.sys.pcs[i]? = some p ∧ p.searched = true)
          ∧ seq_run fuel keys wr s order = some (g, res)
          ∧ (∀ (i : Nat) (r : Int × Option (List Nat)), σ.out i = some r → res i = some r)
          ∧ ((∀ i : Nat, σ.sys.pcs[i]? ≠ some Pc.r_scan) → σ.heap = g.heap))
        ∧ (∀ (i : Nat) (r : Int × Option (List Nat)), σ.out i = some r →
            lookup_answer s L0 (key_of keys i) (wr i) r
              ∧ ∃ x, try_from_cache fuel s (wr i) (key_of keys i) = some x ∧ r.1 = x.rc
                ∧ ((∀ p q, p ∈ L0 (key_of keys i).index → q ∈ L0 (key_of keys i).index →
                      (s.heap p).id = (s.heap q).id → p = q) → r.2 = x.sent))
        ∧ ((∀ i : Nat, σ.sys.pcs[i]? ≠ some Pc.r_scan) →
            ∃ L, Rep { s with heap := σ.heap } L ∧ (∀ b, (L b).Perm (L0 b))
              ∧ checklist fuel { s with heap := σ.heap } = some true)
        ∧ (∀ i : Nat, σ.sys.pcs[i]? = some Pc.done → ∃ r, σ.out i = some r)
        ∧ (∀ i, i < keys.length → sched.count i ≤ 20 + (L0 (key_of keys i).index).length)
        ∧ ((∀ i, i < keys.length → σ.sys.pcs[i]? = some Pc.done)
            ∨ ∃ t σ2, conc_step s.head keys wr σ t = some σ2)
        ∧ ∃ sched2 σ2, conc_run s.head keys wr σ sched2 = some σ2
            ∧ ∀ i, i < keys.length → σ2.sys.pcs[i]? = some Pc.done := by
  intro s L0 keys wr fuel sched σ hR hQ hidx hfuel hrun
  have hI := conc_run_lin hfuel sched _ σ _ (lin_start keys wr fuel hR hQ hidx) hrun
  have hkey : ∀ i, (key_of keys i).index < HASHSIZE := by
    intro i
    unfold key_of
    rw [List.getD_eq_getElem?_getD]
    cases hk : keys[i]? with
    | none => simp [HASHSIZE]
    | some c => exact hidx c (List.getElem?_mem hk)
  have hprog := lin_progress hI
  have hbound := lin_bound hI
  have hcomp := lin_complete hfuel _ σ _ hI (Nat.le_refl _)
  obtain ⟨order, g, res, L, hl, hpr, hb, hG, hS, hC⟩ := hI
  refine ⟨⟨order, g, res, hG.nodup, hC.ord, hG.seq, fun i r hr => (hC.out i r hr).1,
    shape_heap_eq hS⟩, ?_, ?_, ?_, ?_, hprog, hcomp⟩
  · intro i r hr
    have ha := hG.answers i r (hC.out i r hr).1
    exact ⟨ha, answer_sequential hR hQ _ (hkey i) (wr i) (hfuel _ (hkey i)) ha⟩
  · intro hno
    have hrep : Rep { s with heap := σ.heap } L :=
      Rep.congr hG.rep (shape_heap_eq hS hno) hG.head.symm hG.brk.symm
    refine ⟨L, hrep, hG.perm, checklist_of_rep hrep ?_⟩
    intro b hb2
    rw [(hG.perm b).length_eq]
    exact hfuel b hb2
  · intro i hi
    exact hC.returned i _ hi rfl
  · intro i hi
    have := hbound i hi
    simpa using this
/-- The interleaving `trio_sched` runs to its end: the two lookups of cached keys
hit with the bytes of their entries, the third misses, and all three return.
While call `0` is inside its search, call `2`, for the same bucket, cannot
take a step. -/
theorem trio_eval :
    ((conc_run pair_cached.head trio (fun _ => 0) (conc_start pair_cached trio) trio_sched).map
        (fun σ => σ.out 0)) = some (some ((1 : Int), some [1]))
      ∧ ((conc_run pair_cached.head trio (fun _ => 0) (conc_start pair_cached trio)
          trio_sched).map (fun σ => σ.out 1)) = some (some ((0 : Int), none))
      ∧ ((conc_run pair_cached.head trio (fun _ => 0) (conc_start pair_cached trio)
          trio_sched).map (fun σ => σ.out 2)) = some (some ((1 : Int), some [2]))
      ∧ ((conc_run pair_cached.head trio (fun _ => 0) (conc_start pair_cached trio)
          trio_sched).map (fun σ => σ.sys.pcs)) = some [Pc.done, Pc.done, Pc.done]
      ∧ (conc_run pair_cached.head trio (fun _ => 0) (conc_start pair_cached trio)
          [0, 0, 0, 0, 1, 1, 1, 1, 2, 2, 2, 2, 0, 2]).isSome = false := by
  decide!

theorem trio_index : ∀ c, c ∈ trio → c.index < HASHSIZE := by
  intro c hc
  simp only [trio, List.mem_cons, List.mem_singleton, List.not_mem_nil, or_false] at hc
  rcases hc with e | e | e
  · rw [e]
    decide
  · rw [e]
    exact gen_cid_index_lt _ _ _
  · rw [e]
    decide

theorem pair_lists_short : ∀ b, b < HASHSIZE → (pair_lists b).length < 3 := by
  intro b _
  unfold pair_lists
  by_cases hb : b = 0
  · rw [hb, Function.update_same]
    decide
  · rw [Function.update_noteq hb]
    decide

/-- C31, witness: the three lookups `trio` on the cache `pair_cached`, in the
interleaving `trio_sched`, which runs to its end with the results of the
sequential lookups. -/
theorem C31_concurrent_lookups_are_sequential_witness :
    ∃ σ, conc_run pair_cached.head trio (fun _ => 0) (conc_start pair_cached trio) trio_sched
        = some σ
      ∧ σ.out 0 = some (1, some [1]) ∧ σ.out 1 = some (0, none) ∧ σ.out 2 = some (1, some [2])
      ∧ σ.sys.pcs = [Pc.done, Pc.done, Pc.done]
      ∧ (∃ order g res, order.Nodup
          ∧ (∀ i : Nat, i ∈ order ↔ ∃ p : Pc, σ.sys.pcs[i]? = some p ∧ p.searched = true)
          ∧ seq_run 3 trio (fun _ => 0) pair_cached order = some (g, res)
          ∧ (∀ (i : Nat) (r : Int × Option (List Nat)), σ.out i = some r → res i = some r)
          ∧ ((∀ i : Nat, σ.sys.pcs[i]? ≠ some Pc.r_scan) → σ.heap = g.heap))
      ∧ (∀ (i : Nat) (r : Int × Option (List Nat)), σ.out i = some r →
          lookup_answer pair_cached pair_lists (key_of trio i) 0 r
            ∧ ∃ x, try_from_cache 3 pair_cached 0 (key_of trio i) = some x ∧ r.1 = x.rc
              ∧ ((∀ p q, p ∈ pair_lists (key_of trio i).index →
                    q ∈ pair_lists (key_of trio i).index →
                    (pair_cached.heap p).id = (pair_cached.heap q).id → p = q) →
                  r.2 = x.sent))
      ∧ ((∀ i : Nat, σ.sys.pcs[i]? ≠ some Pc.r_scan) →
          ∃ L, Rep { pair_cached with heap := σ.heap } L ∧ (∀ b, (L b).Perm (pair_lists b))
            ∧ checklist 3 { pair_cached with heap := σ.heap } = some true)
      ∧ (∀ i : Nat, σ.sys.pcs[i]? = some Pc.done → ∃ r, σ.out i = some r)
      ∧ (∀ i, i < trio.length →
          trio_sched.count i ≤ 20 + (pair_lists (key_of trio i).index).length)
      ∧ ((∀ i, i < trio.length → σ.sys.pcs[i]? = some Pc.done)
          ∨ ∃ t σ2, conc_step pair_cached.head trio (fun _ => 0) σ t = some σ2)
      ∧ ∃ sched2 σ2, conc_run pair_cached.head trio (fun _ => 0) σ sched2 = some σ2
          ∧ ∀ i, i < trio.length → σ2.sys.pcs[i]? = some Pc.done := by
  obtain ⟨h0, h1, h2, h3, _⟩ := trio_eval
  cases hrun : conc_run pair_cached.head trio (fun _ => 0) (conc_start pair_cached trio)
      trio_sched with
  | none =>
    rw [hrun] at h0
    cases h0
  | some σ =>
    rw [hrun] at h0 h1 h2 h3
    simp only [Option.map_some', Option.some.injEq] at h0 h1 h2 h3
    exact ⟨σ, rfl, h0, h1, h2, h3,
      C31_concurrent_lookups_are_sequential pair_cached pair_lists trio (fun _ => 0) 3
        trio_sched σ pair_cached_facts.1.rep pair_cached_facts.1.quiet trio_index
        pair_lists_short hrun⟩

end ProxyCache
